import Mathlib

/-!
# tinyexprpp (`tinyprog.h`): expression and program compiler, evaluator

A shallow embedding of `src/include/tinyprog.h` (default build: neither
`TE_POW_FROM_RIGHT` nor `TE_NAT_LOG`, `env_traits` with `float` scalars, LP64).
The parser of the build with `TE_POW_FROM_RIGHT` is embedded in the namespace
`pow_from_right`.

Conventions of the embedding

* C strings are lists of bytes (`List Nat`); reading past the end of the list
  reads the terminating NUL (`0`).
* Host pointers are natural numbers, `0` is the null pointer.
* `int` type tags are natural numbers (every tag the code produces or tests is
  non-negative).
* `float` is modelled by `Scalar`: exact rationals extended with `+inf`, `-inf`
  and NaN. Signed zeros are not modelled; rounding is modelled where the code
  converts an integer to `float` (`to_float`) and in the product of `npr`
  (`Scalar.to_float`), not in the arithmetic of the operators.
* What the C library supplies (`strtod`, `libm`) is a parameter, `Libc`.
* What the host supplies (callable addresses bound in the lookup table) is a
  parameter, `Host`; host storage is `Mem`.
* Undefined behaviour of the C code (a wild pointer, an out-of-bounds access)
  is an explicit `fault`; recursion that the C code does not bound is run on
  fuel and reports `timeout` when the fuel is gone.
-/

namespace te

/-! ## Scalars -/

/-- The scalar type `float` of `env_traits`: exact rationals with infinities and NaN. -/
inductive Scalar
  | nan
  | pinf
  | ninf
  | num (q : ℚ)
deriving DecidableEq

namespace Scalar

/-- The C conversion of a comparison result (`bool`) to a scalar. -/
def ofBool (b : Bool) : Scalar := if b then num 1 else num 0

/-- The C test `a == 0.0f`. -/
def isZero : Scalar → Bool
  | num q => decide (q = 0)
  | _ => false

/-- The C test `a != 0.0f` (true for NaN). -/
def nonZero (a : Scalar) : Bool := !a.isZero

/-- Sign of a scalar that is not NaN: `-1`, `0` or `1`. -/
def sgn : Scalar → Int
  | nan => 0
  | pinf => 1
  | ninf => -1
  | num q => if q < 0 then -1 else if q = 0 then 0 else 1

/-- The infinity of the given sign (NaN for sign 0). -/
def infOf (s : Int) : Scalar := if s < 0 then ninf else if s = 0 then nan else pinf

/-- Unary minus, `-a`. -/
def neg : Scalar → Scalar
  | nan => nan
  | pinf => ninf
  | ninf => pinf
  | num q => num (-q)

/-- Addition, `a + b`. -/
def add : Scalar → Scalar → Scalar
  | nan, _ => nan
  | _, nan => nan
  | pinf, ninf => nan
  | ninf, pinf => nan
  | pinf, _ => pinf
  | _, pinf => pinf
  | ninf, _ => ninf
  | _, ninf => ninf
  | num a, num b => num (a + b)

/-- Subtraction, `a - b`. -/
def sub (a b : Scalar) : Scalar := add a (neg b)

/-- Multiplication, `a * b`. -/
def mul : Scalar → Scalar → Scalar
  | nan, _ => nan
  | _, nan => nan
  | num a, num b => num (a * b)
  | a, b => infOf (sgn a * sgn b)

/-- Division, `a / b` (a zero divisor counts as `+0`). -/
def div : Scalar → Scalar → Scalar
  | nan, _ => nan
  | _, nan => nan
  | num a, num b => if b = 0 then infOf (sgn (num a)) else num (a / b)
  | num _, _ => num 0
  | a, num b => infOf (sgn a * (if b < 0 then -1 else 1))
  | _, _ => nan

/-- The C comparison `a < b` (false when either is NaN). -/
def lt : Scalar → Scalar → Bool
  | nan, _ => false
  | _, nan => false
  | num a, num b => decide (a < b)
  | ninf, ninf => false
  | ninf, _ => true
  | pinf, _ => false
  | num _, pinf => true
  | num _, ninf => false

/-- The C comparison `a == b` (false when either is NaN). -/
def eq : Scalar → Scalar → Bool
  | nan, _ => false
  | _, nan => false
  | a, b => decide (a = b)

/-- The C comparison `a <= b`. -/
def le (a b : Scalar) : Bool := lt a b || eq a b

end Scalar

/-! ## Type tags and bindings -/

def TE_VARIABLE : Nat := 0
def TE_CONSTANT : Nat := 1
def TE_FUNCTION0 : Nat := 8
def TE_FUNCTION1 : Nat := 9
def TE_FUNCTION2 : Nat := 10
def TE_FUNCTION3 : Nat := 11
def TE_FUNCTION4 : Nat := 12
def TE_FUNCTION5 : Nat := 13
def TE_FUNCTION6 : Nat := 14
def TE_FUNCTION7 : Nat := 15
def TE_FUNCTION_MAX : Nat := 16
def TE_CLOSURE0 : Nat := 16
def TE_CLOSURE1 : Nat := 17
def TE_CLOSURE2 : Nat := 18
def TE_CLOSURE3 : Nat := 19
def TE_CLOSURE4 : Nat := 20
def TE_CLOSURE5 : Nat := 21
def TE_CLOSURE6 : Nat := 22
def TE_CLOSURE7 : Nat := 23
def TE_CLOSURE_MAX : Nat := 24
def TE_FLAG_PURE : Nat := 32

/-- The bytes of an ASCII string literal, as a C string without its terminator. -/
def cstr (s : String) : List Nat := s.toList.map Char.toNat

/-- The C struct `te::variable`: one binding of a lookup table. -/
structure te_variable where
  name : List Nat
  address : Nat
  type : Nat
  context : Nat
deriving DecidableEq

/-- The mask `eval_details::type_mask`: `t & 0x1F`. -/
def type_mask (t : Nat) : Nat := t &&& 31

/-- The arity `eval_details::arity`: `(t & (TE_FUNCTION0 | TE_CLOSURE0)) ? (t & 7) : 0`. -/
def arity (t : Nat) : Nat := if t &&& (TE_FUNCTION0 ||| TE_CLOSURE0) ≠ 0 then t &&& 7 else 0

def is_pure (t : Nat) : Bool := t &&& TE_FLAG_PURE ≠ 0
def is_function (t : Nat) : Bool := t &&& TE_FUNCTION0 ≠ 0
def is_closure (t : Nat) : Bool := t &&& TE_CLOSURE0 ≠ 0

/-! ## The C library and the host -/

/-- What the C library supplies: `strtod` (the value read and the number of bytes
consumed) and the `libm` functions the built-ins forward to. -/
structure Libc where
  strtod : List Nat → Scalar × Nat
  fabs : Scalar → Scalar
  acos : Scalar → Scalar
  cosh : Scalar → Scalar
  cos : Scalar → Scalar
  exp : Scalar → Scalar
  asin : Scalar → Scalar
  sinh : Scalar → Scalar
  sin : Scalar → Scalar
  sqrt : Scalar → Scalar
  log : Scalar → Scalar
  log10 : Scalar → Scalar
  atan : Scalar → Scalar
  tanh : Scalar → Scalar
  tan : Scalar → Scalar
  floor : Scalar → Scalar
  ceil : Scalar → Scalar
  fmod : Scalar → Scalar → Scalar
  atan2 : Scalar → Scalar → Scalar
  pow : Scalar → Scalar → Scalar

/-- Host storage: the scalar cells the host owns, by address. An address that is
not listed is not a scalar cell (reading or writing through it is a fault). -/
abbrev Mem := List (Nat × Scalar)

/-- Read the scalar cell at an address. -/
def Mem.read (m : Mem) (a : Nat) : Option Scalar := (m.find? (fun p => p.1 == a)).map Prod.snd

/-- Store into the scalar cell at an address (`none`: no such cell). -/
def Mem.write : Mem → Nat → Scalar → Option Mem
  | [], _, _ => none
  | (b, w) :: m, a, v =>
    if b = a then some ((b, v) :: m) else (Mem.write m a v).map (fun m1 => (b, w) :: m1)

/-- The host: the C library, and the behaviour of every callable address the host
binds (`call fn context mem args`; `none` when `fn` is not callable that way).
Host callables read host storage and do not write it. -/
structure Host where
  libc : Libc
  call : Nat → Nat → Mem → List Scalar → Option Scalar

/-! ## Built-in implementations (`native_builtins_impl<float>`) -/

def UINT_MAX : Nat := 4294967295
def ULONG_MAX : Nat := 18446744073709551615

namespace impl
/-! Code addresses of the built-in implementations (distinct, non-null). -/
def pi : Nat := 1001
def e : Nat := 1002
def fac : Nat := 1003
def ncr : Nat := 1004
def npr : Nat := 1005
def fabs : Nat := 1006
def acos : Nat := 1007
def cosh : Nat := 1008
def cos : Nat := 1009
def exp : Nat := 1010
def asin : Nat := 1011
def sinh : Nat := 1012
def sin : Nat := 1013
def sqrt : Nat := 1014
def log : Nat := 1015
def log10 : Nat := 1016
def atan : Nat := 1017
def tanh : Nat := 1018
def fmod : Nat := 1019
def tan : Nat := 1020
def atan2 : Nat := 1021
def pow : Nat := 1022
def floor : Nat := 1023
def ceil : Nat := 1024
def add : Nat := 1025
def sub : Nat := 1026
def mul : Nat := 1027
def divide : Nat := 1028
def negate : Nat := 1029
def comma : Nat := 1030
def greater : Nat := 1031
def greater_eq : Nat := 1032
def lower : Nat := 1033
def lower_eq : Nat := 1034
def equal : Nat := 1035
def not_equal : Nat := 1036
def logical_and : Nat := 1037
def logical_or : Nat := 1038
def logical_not : Nat := 1039
def logical_notnot : Nat := 1040
def negate_logical_not : Nat := 1041
def negate_logical_notnot : Nat := 1042
def nul : Nat := 1043
def nan : Nat := 1044
end impl

/-- The number of binary digits of `n`, by halving (at most `fuel` times). -/
def bit_length : Nat → Nat → Nat
  | 0, _ => 0
  | fuel + 1, n => if n = 0 then 0 else bit_length fuel (n / 2) + 1

/-- The binary exponent of the positive ratio `p / d`: the integer part of its logarithm
to base 2. -/
def ratio_exponent (p d : Nat) : Int :=
  let a := bit_length p p
  let b := bit_length d d
  if d * 2 ^ a ≤ p * 2 ^ b then (a : Int) - b else (a : Int) - b - 1

/-- The `float` (IEEE 754 single) nearest to the ratio `p / d ≥ 0`: a significand of 24
binary digits, exponents from `-126` (below that the spacing stays `2 ^ (-149)`), a tie
goes to the even significand, and a result of `2 ^ 128` or more is plus infinity. -/
def round_ratio (p d : Nat) : Scalar :=
  let e := max (ratio_exponent p d) (-126) - 23
  let N := p * 2 ^ (-e).toNat
  let D := d * 2 ^ e.toNat
  let m := if 2 * (N % D) > D ∨ (2 * (N % D) = D ∧ N / D % 2 = 1) then N / D + 1 else N / D
  if m * 2 ^ e.toNat ≥ 2 ^ 128 then .pinf
  else .num ((m * 2 ^ e.toNat : Nat) / (2 ^ (-e).toNat : Nat))

/-- The rounding of an exact value to `float`, as the `float` product of `npr` rounds. -/
def Scalar.to_float : Scalar → Scalar
  | .num q =>
    if q < 0 then (round_ratio q.num.natAbs q.den).neg else round_ratio q.num.natAbs q.den
  | a => a

/-- The conversion `(float)n` of an unsigned integer (`(float)result`, and `UINT_MAX` in
the comparison `a > UINT_MAX` with a `float`). -/
def to_float (n : Nat) : Scalar := round_ratio n 1

/-- The conversion `(unsigned int)(a)`: the value is truncated toward zero; the behaviour
is undefined (`none`) when the truncated value is not a value of `unsigned int`, and for
NaN and the infinities. -/
def to_uint : Scalar → Option Nat
  | .num q => if -1 < q ∧ q < UINT_MAX + 1 then some (Int.toNat (Rat.floor q)) else none
  | _ => none

/-- The loop of `fac`: `for (i = ...; i <= ua; i++)`, run for the `n` values of `i` left;
the product `result *= i` is taken in `unsigned long`, and the value returned is
`(float)result`. -/
def fac_loop : Nat → Nat → Nat → Scalar
  | 0, _, result => to_float result
  | n + 1, i, result =>
    if i > ULONG_MAX / result then .pinf
    else fac_loop n (i + 1) (result * i % (ULONG_MAX + 1))

/-- The built-in `fac`; the comparison `a > UINT_MAX` is made in `float`, with
`(float)UINT_MAX` (`none`: the conversion `(unsigned int)(a)` is undefined). -/
def fac (a : Scalar) : Option Scalar :=
  if a.lt (.num 0) then some .nan
  else if (to_float UINT_MAX).lt a then some .pinf
  else (to_uint a).map (fun ua => fac_loop ua 1 1)

/-- The loop of `ncr`, run for the `n` values of `i` left; the value returned is
`(float)result`. -/
def ncr_loop (un ur : Nat) : Nat → Nat → Nat → Scalar
  | 0, _, result => to_float result
  | n + 1, i, result =>
    if result > ULONG_MAX / (un - ur + i) then .pinf
    else ncr_loop un ur n (i + 1) (result * (un - ur + i) % (ULONG_MAX + 1) / i)

/-- The built-in `ncr`; the comparisons with `UINT_MAX` are made in `float`. -/
def ncr (n r : Scalar) : Option Scalar :=
  if n.lt (.num 0) || r.lt (.num 0) || n.lt r then some .nan
  else if (to_float UINT_MAX).lt n || (to_float UINT_MAX).lt r then some .pinf
  else
    match to_uint n, to_uint r with
    | some un, some ur0 =>
      let ur := if ur0 > un / 2 then un - ur0 else ur0
      some (ncr_loop un ur ur 1 1)
    | _, _ => none

/-- The built-in `npr`: `ncr(n, r) * fac(r)`, a product of two `float`s in `float`. -/
def npr (n r : Scalar) : Option Scalar :=
  match ncr n r, fac r with
  | some a, some b => some (a.mul b).to_float
  | _, _ => none

def fn0 (v : Scalar) : List Scalar → Option Scalar
  | [] => some v
  | _ => none

def fn1 (f : Scalar → Scalar) : List Scalar → Option Scalar
  | [a] => some (f a)
  | _ => none

def fn2 (f : Scalar → Scalar → Scalar) : List Scalar → Option Scalar
  | [a, b] => some (f a b)
  | _ => none

def fn1o (f : Scalar → Option Scalar) : List Scalar → Option Scalar
  | [a] => f a
  | _ => none

def fn2o (f : Scalar → Scalar → Option Scalar) : List Scalar → Option Scalar
  | [a, b] => f a b
  | _ => none

/-- The built-in implementation at a code address, if the address is one of
`native_builtins_impl<float>`; the implementation gives `none` when it is called
with a wrong number of arguments or runs into undefined behaviour. -/
def builtin_impl (c : Libc) (fn : Nat) : Option (List Scalar → Option Scalar) :=
  if fn = impl.pi then some (fn0 (.num (314159265358979323846 / 100000000000000000000)))
  else if fn = impl.e then some (fn0 (.num (271828182845904523536 / 100000000000000000000)))
  else if fn = impl.fac then some (fn1o fac)
  else if fn = impl.ncr then some (fn2o ncr)
  else if fn = impl.npr then some (fn2o npr)
  else if fn = impl.fabs then some (fn1 c.fabs)
  else if fn = impl.acos then some (fn1 c.acos)
  else if fn = impl.cosh then some (fn1 c.cosh)
  else if fn = impl.cos then some (fn1 c.cos)
  else if fn = impl.exp then some (fn1 c.exp)
  else if fn = impl.asin then some (fn1 c.asin)
  else if fn = impl.sinh then some (fn1 c.sinh)
  else if fn = impl.sin then some (fn1 c.sin)
  else if fn = impl.sqrt then some (fn1 c.sqrt)
  else if fn = impl.log then some (fn1 c.log)
  else if fn = impl.log10 then some (fn1 c.log10)
  else if fn = impl.atan then some (fn1 c.atan)
  else if fn = impl.tanh then some (fn1 c.tanh)
  else if fn = impl.fmod then some (fn2 c.fmod)
  else if fn = impl.tan then some (fn1 c.tan)
  else if fn = impl.atan2 then some (fn2 c.atan2)
  else if fn = impl.pow then some (fn2 c.pow)
  else if fn = impl.floor then some (fn1 c.floor)
  else if fn = impl.ceil then some (fn1 c.ceil)
  else if fn = impl.add then some (fn2 Scalar.add)
  else if fn = impl.sub then some (fn2 Scalar.sub)
  else if fn = impl.mul then some (fn2 Scalar.mul)
  else if fn = impl.divide then some (fn2 Scalar.div)
  else if fn = impl.negate then some (fn1 Scalar.neg)
  else if fn = impl.comma then some (fn2 (fun _ b => b))
  else if fn = impl.greater then some (fn2 (fun a b => .ofBool (b.lt a)))
  else if fn = impl.greater_eq then some (fn2 (fun a b => .ofBool (b.le a)))
  else if fn = impl.lower then some (fn2 (fun a b => .ofBool (a.lt b)))
  else if fn = impl.lower_eq then some (fn2 (fun a b => .ofBool (a.le b)))
  else if fn = impl.equal then some (fn2 (fun a b => .ofBool (a.eq b)))
  else if fn = impl.not_equal then some (fn2 (fun a b => .ofBool (!a.eq b)))
  else if fn = impl.logical_and then some (fn2 (fun a b => .ofBool (a.nonZero && b.nonZero)))
  else if fn = impl.logical_or then some (fn2 (fun a b => .ofBool (a.nonZero || b.nonZero)))
  else if fn = impl.logical_not then some (fn1 (fun a => .ofBool a.isZero))
  else if fn = impl.logical_notnot then some (fn1 (fun a => .ofBool a.nonZero))
  else if fn = impl.negate_logical_not then some (fn1 (fun a => (Scalar.ofBool a.isZero).neg))
  else if fn = impl.negate_logical_notnot then some (fn1 (fun a => (Scalar.ofBool a.nonZero).neg))
  else if fn = impl.nul then some (fn0 (.num 0))
  else if fn = impl.nan then some (fn0 .nan)
  else none

/-- Call the code at address `fn`: a built-in implementation, else a host callable. -/
def call_address (h : Host) (fn ctx : Nat) (mem : Mem) (args : List Scalar) : Option Scalar :=
  match builtin_impl h.libc fn with
  | some f => f args
  | none => h.call fn ctx mem args

/-! ## The built-in registry (`native_builtins`) -/

/-- The table `native_builtins::functions`, without its null terminator entry. -/
def functions : List te_variable := [
  ⟨cstr "abs", impl.fabs, TE_FUNCTION1 ||| TE_FLAG_PURE, 0⟩,
  ⟨cstr "acos", impl.acos, TE_FUNCTION1 ||| TE_FLAG_PURE, 0⟩,
  ⟨cstr "asin", impl.asin, TE_FUNCTION1 ||| TE_FLAG_PURE, 0⟩,
  ⟨cstr "atan", impl.atan, TE_FUNCTION1 ||| TE_FLAG_PURE, 0⟩,
  ⟨cstr "atan2", impl.atan2, TE_FUNCTION2 ||| TE_FLAG_PURE, 0⟩,
  ⟨cstr "ceil", impl.ceil, TE_FUNCTION1 ||| TE_FLAG_PURE, 0⟩,
  ⟨cstr "cos", impl.cos, TE_FUNCTION1 ||| TE_FLAG_PURE, 0⟩,
  ⟨cstr "cosh", impl.cosh, TE_FUNCTION1 ||| TE_FLAG_PURE, 0⟩,
  ⟨cstr "e", impl.e, TE_FUNCTION0 ||| TE_FLAG_PURE, 0⟩,
  ⟨cstr "exp", impl.exp, TE_FUNCTION1 ||| TE_FLAG_PURE, 0⟩,
  ⟨cstr "fac", impl.fac, TE_FUNCTION1 ||| TE_FLAG_PURE, 0⟩,
  ⟨cstr "floor", impl.floor, TE_FUNCTION1 ||| TE_FLAG_PURE, 0⟩,
  ⟨cstr "ln", impl.log, TE_FUNCTION1 ||| TE_FLAG_PURE, 0⟩,
  ⟨cstr "log", impl.log10, TE_FUNCTION1 ||| TE_FLAG_PURE, 0⟩,
  ⟨cstr "log10", impl.log10, TE_FUNCTION1 ||| TE_FLAG_PURE, 0⟩,
  ⟨cstr "ncr", impl.ncr, TE_FUNCTION2 ||| TE_FLAG_PURE, 0⟩,
  ⟨cstr "npr", impl.npr, TE_FUNCTION2 ||| TE_FLAG_PURE, 0⟩,
  ⟨cstr "pi", impl.pi, TE_FUNCTION0 ||| TE_FLAG_PURE, 0⟩,
  ⟨cstr "pow", impl.pow, TE_FUNCTION2 ||| TE_FLAG_PURE, 0⟩,
  ⟨cstr "sin", impl.sin, TE_FUNCTION1 ||| TE_FLAG_PURE, 0⟩,
  ⟨cstr "sinh", impl.sinh, TE_FUNCTION1 ||| TE_FLAG_PURE, 0⟩,
  ⟨cstr "sqrt", impl.sqrt, TE_FUNCTION1 ||| TE_FLAG_PURE, 0⟩,
  ⟨cstr "tan", impl.tan, TE_FUNCTION1 ||| TE_FLAG_PURE, 0⟩,
  ⟨cstr "tanh", impl.tanh, TE_FUNCTION1 ||| TE_FLAG_PURE, 0⟩]

/-- The table `native_builtins::operators`, without its null terminator entry. -/
def operators : List te_variable := [
  ⟨cstr "add", impl.add, TE_FUNCTION2 ||| TE_FLAG_PURE, 0⟩,
  ⟨cstr "comma", impl.comma, TE_FUNCTION2 ||| TE_FLAG_PURE, 0⟩,
  ⟨cstr "divide", impl.divide, TE_FUNCTION2 ||| TE_FLAG_PURE, 0⟩,
  ⟨cstr "equal", impl.equal, TE_FUNCTION2 ||| TE_FLAG_PURE, 0⟩,
  ⟨cstr "fmod", impl.fmod, TE_FUNCTION2 ||| TE_FLAG_PURE, 0⟩,
  ⟨cstr "greater", impl.greater, TE_FUNCTION2 ||| TE_FLAG_PURE, 0⟩,
  ⟨cstr "greater_eq", impl.greater_eq, TE_FUNCTION2 ||| TE_FLAG_PURE, 0⟩,
  ⟨cstr "logical_and", impl.logical_and, TE_FUNCTION2 ||| TE_FLAG_PURE, 0⟩,
  ⟨cstr "logical_not", impl.logical_not, TE_FUNCTION1 ||| TE_FLAG_PURE, 0⟩,
  ⟨cstr "logical_notnot", impl.logical_notnot, TE_FUNCTION1 ||| TE_FLAG_PURE, 0⟩,
  ⟨cstr "logical_or", impl.logical_or, TE_FUNCTION2 ||| TE_FLAG_PURE, 0⟩,
  ⟨cstr "lower", impl.lower, TE_FUNCTION2 ||| TE_FLAG_PURE, 0⟩,
  ⟨cstr "lower_eq", impl.lower_eq, TE_FUNCTION2 ||| TE_FLAG_PURE, 0⟩,
  ⟨cstr "mul", impl.mul, TE_FUNCTION2 ||| TE_FLAG_PURE, 0⟩,
  ⟨cstr "negate", impl.negate, TE_FUNCTION1 ||| TE_FLAG_PURE, 0⟩,
  ⟨cstr "negate_logical_not", impl.negate_logical_not, TE_FUNCTION1 ||| TE_FLAG_PURE, 0⟩,
  ⟨cstr "negate_logical_notnot", impl.negate_logical_notnot, TE_FUNCTION1 ||| TE_FLAG_PURE, 0⟩,
  ⟨cstr "not_equal", impl.not_equal, TE_FUNCTION2 ||| TE_FLAG_PURE, 0⟩,
  ⟨cstr "pow", impl.pow, TE_FUNCTION2 ||| TE_FLAG_PURE, 0⟩,
  ⟨cstr "sub", impl.sub, TE_FUNCTION2 ||| TE_FLAG_PURE, 0⟩]

/-- The comparison `native_builtins::name_compare(a, b, n)`. -/
def name_compare : List Nat → List Nat → Nat → Int
  | _, _, 0 => 0
  | a, b, n + 1 =>
    if a.headD 0 ≠ 0 ∧ a.headD 0 = b.headD 0 then name_compare a.tail b.tail n
    else (a.headD 0 : Int) - (b.headD 0 : Int)

/-- The binary search shared by `find_builtin_function` and `find_builtin_operator`
(`while (imax >= imin)`), run on fuel. -/
def find_in_table (table : List te_variable) (name : List Nat) (len : Nat) :
    Nat → Int → Int → Option te_variable
  | 0, _, _ => none
  | fuel + 1, imin, imax =>
    if imax ≥ imin then
      let i := imin + (imax - imin) / 2
      match table.get? i.toNat with
      | none => none
      | some v =>
        let c0 := name_compare name v.name len
        let c := if c0 = 0 then (0 : Int) - (v.name.getD len 0 : Int) else c0
        if c = 0 then some v
        else if c > 0 then find_in_table table name len fuel (i + 1) imax
        else find_in_table table name len fuel imin (i - 1)
    else none

def find_builtin_function (name : List Nat) (len : Nat) : Option te_variable :=
  find_in_table functions name len (functions.length + 1) 0 ((functions.length : Int) - 1)

def find_builtin_operator (name : List Nat) (len : Nat) : Option te_variable :=
  find_in_table operators name len (operators.length + 1) 0 ((operators.length : Int) - 1)

def find_builtin (name : List Nat) (len : Nat) : Option te_variable :=
  match find_builtin_function name len with
  | some v => some v
  | none => find_builtin_operator name len

/-- The lookup `find_builtin_address(name)`: the address, `0` when there is no such name. -/
def find_builtin_address (name : String) : Nat :=
  match find_builtin (cstr name) (cstr name).length with
  | some v => v.address
  | none => 0

/-! ## The lexer (`native::next_token`) -/

def TOK_NULL : Nat := 24
def TOK_ERROR : Nat := 25
def TOK_END : Nat := 26
def TOK_SEP : Nat := 27
def TOK_OPEN : Nat := 28
def TOK_CLOSE : Nat := 29
def TOK_NUMBER : Nat := 30
def TOK_VARIABLE : Nat := 31
def TOK_INFIX : Nat := 32

/-- The C struct `native::state`. `next` holds the bytes from the cursor `s->next`
on and `pos` is `s->next - s->start`; the union of `value`, `bound` and `function`
is kept as the two fields `value` and `function` (`bound` is `function`). -/
structure state where
  next : List Nat
  pos : Nat
  type : Nat
  value : Scalar
  function : Nat
  context : Nat
  lookup : List te_variable
deriving DecidableEq

/-- The C library's `strncmp(a, b, n)`. -/
def strncmp : List Nat → List Nat → Nat → Int
  | _, _, 0 => 0
  | a, b, n + 1 =>
    if a.headD 0 ≠ b.headD 0 then (a.headD 0 : Int) - (b.headD 0 : Int)
    else if a.headD 0 = 0 then 0
    else strncmp a.tail b.tail n

/-- The linear search `native::find_lookup(lookup, lookup_len, name, len)`; `lookup`
holds the `lookup_len` entries of the table. -/
def find_lookup (lookup : List te_variable) (name : List Nat) (len : Nat) : Option te_variable :=
  lookup.find? (fun var => strncmp name var.name len == 0 && var.name.getD len 0 == 0)

/-- The bytes the identifier loop of `next_token` steps over: `a-z`, `0-9`, `_`. -/
def is_ident_char (ch : Nat) : Bool :=
  ('a'.toNat ≤ ch && ch ≤ 'z'.toNat) || ('0'.toNat ≤ ch && ch ≤ '9'.toNat) || ch == '_'.toNat

/-- Advance the cursor by `n` bytes. -/
def state.advance (s : state) (n : Nat) : state :=
  { s with next := s.next.drop n, pos := s.pos + n }

/-- An operator token: `s->type = TOK_INFIX; s->function = find_builtin_address(name)`
after the cursor moved `n` bytes. -/
def state.op (s : state) (n : Nat) (name : String) : state :=
  { s.advance n with type := TOK_INFIX, function := find_builtin_address name }

/-- A token without payload after the cursor moved `n` bytes. -/
def state.tok (s : state) (n : Nat) (t : Nat) : state :=
  { s.advance n with type := t }

/-- The body of `next_token`: the `do ... while (s->type == TOK_NULL)` loop, run on
fuel; every round that does not produce a token consumes at least one byte. -/
def next_token_loop (c : Libc) : Nat → state → state
  | 0, s => { s with type := TOK_NULL }
  | fuel + 1, s =>
    let ch := s.next.headD 0
    let ch1 := (s.next.drop 1).headD 0
    if ch = 0 ∨ ch = ';'.toNat then { s with type := TOK_END }
    else if ('0'.toNat ≤ ch ∧ ch ≤ '9'.toNat) ∨ ch = '.'.toNat then
      { s.advance (c.strtod s.next).2 with value := (c.strtod s.next).1, type := TOK_NUMBER }
    else if 'a'.toNat ≤ ch ∧ ch ≤ 'z'.toNat then
      let len := (s.next.takeWhile is_ident_char).length
      let s1 := s.advance len
      match (find_lookup s.lookup s.next len).orElse (fun _ => find_builtin s.next len) with
      | none => { s1 with type := TOK_ERROR }
      | some var =>
        let t := type_mask var.type
        if t = TE_VARIABLE then { s1 with type := TOK_VARIABLE, function := var.address }
        else if t ≥ TE_FUNCTION0 then
          if t < TE_FUNCTION_MAX then { s1 with type := var.type, function := var.address }
          else if t ≥ TE_CLOSURE0 ∧ t < TE_CLOSURE_MAX then
            { s1 with context := var.context, type := var.type, function := var.address }
          else next_token_loop c fuel s1
        else next_token_loop c fuel s1
    else if ch = '+'.toNat then s.op 1 "add"
    else if ch = '-'.toNat then s.op 1 "sub"
    else if ch = '*'.toNat then s.op 1 "mul"
    else if ch = '/'.toNat then s.op 1 "divide"
    else if ch = '^'.toNat then s.op 1 "pow"
    else if ch = '%'.toNat then s.op 1 "fmod"
    else if ch = '!'.toNat then
      if ch1 = '='.toNat then s.op 2 "not_equal" else s.op 1 "logical_not"
    else if ch = '='.toNat then
      if ch1 = '='.toNat then s.op 2 "equal" else s.tok 2 TOK_ERROR
    else if ch = '<'.toNat then
      if ch1 = '='.toNat then s.op 2 "lower_eq" else s.op 1 "lower"
    else if ch = '>'.toNat then
      if ch1 = '='.toNat then s.op 2 "greater_eq" else s.op 1 "greater"
    else if ch = '&'.toNat then
      if ch1 = '&'.toNat then s.op 2 "logical_and" else s.tok 2 TOK_ERROR
    else if ch = '|'.toNat then
      if ch1 = '|'.toNat then s.op 2 "logical_or" else s.tok 2 TOK_ERROR
    else if ch = '('.toNat then s.tok 1 TOK_OPEN
    else if ch = ')'.toNat then s.tok 1 TOK_CLOSE
    else if ch = ','.toNat then s.tok 1 TOK_SEP
    else if ch = ' '.toNat ∨ ch = 9 ∨ ch = 10 ∨ ch = 13 then next_token_loop c fuel (s.advance 1)
    else s.tok 1 TOK_ERROR

/-- The lexer `native::next_token`. -/
def next_token (c : Libc) (s : state) : state :=
  next_token_loop c (s.next.length + 1) s

/-! ## The syntax tree (`native::expr_native`) and the parser -/

/-- The union of `expr_native`: a scalar (`value`) or a pointer (`bound`, `function`). -/
inductive Payload
  | value (v : Scalar)
  | ptr (a : Nat)
deriving DecidableEq

/-- A pointer to a `native::expr_native`: null, or a node with its type tag, its
union, its `arity(type)` child pointers `parameters[0..arity-1]` and, for a closure,
the context pointer `parameters[arity]`. -/
inductive expr_native
  | null
  | node (type : Nat) (payload : Payload) (parameters : List expr_native) (context : Nat)

mutual

/-- Equality of syntax trees is decidable. -/
def expr_native.dec_eq : (x y : expr_native) → Decidable (x = y)
  | .null, .null => isTrue rfl
  | .null, .node _ _ _ _ => isFalse (fun h => expr_native.noConfusion h)
  | .node _ _ _ _, .null => isFalse (fun h => expr_native.noConfusion h)
  | .node t p ps c, .node t1 p1 ps1 c1 =>
    if h1 : t = t1 then
      if h2 : p = p1 then
        match expr_native.dec_eq_list ps ps1 with
        | isTrue h3 =>
          if h4 : c = c1 then isTrue (by rw [h1, h2, h3, h4])
          else isFalse (fun h => h4 (by injection h))
        | isFalse h3 => isFalse (fun h => h3 (by injection h))
      else isFalse (fun h => h2 (by injection h))
    else isFalse (fun h => h1 (by injection h))

/-- Equality of lists of syntax trees is decidable. -/
def expr_native.dec_eq_list : (xs ys : List expr_native) → Decidable (xs = ys)
  | [], [] => isTrue rfl
  | [], _ :: _ => isFalse (fun h => List.noConfusion h)
  | _ :: _, [] => isFalse (fun h => List.noConfusion h)
  | x :: xs, y :: ys =>
    match expr_native.dec_eq x y with
    | isTrue h1 =>
      match expr_native.dec_eq_list xs ys with
      | isTrue h2 => isTrue (by rw [h1, h2])
      | isFalse h2 => isFalse (fun h => h2 (by injection h))
    | isFalse h1 => isFalse (fun h => h1 (by injection h))

end

instance : DecidableEq expr_native := expr_native.dec_eq

/-- The allocation `new_expr(type, parameters)`; `parameters` empty stands for the
null argument (all child pointers zeroed). -/
def new_expr (type : Nat) (parameters : List expr_native) : expr_native :=
  .node type (.ptr 0)
    (if parameters.isEmpty then List.replicate (arity type) .null
     else parameters.take (arity type)) 0

/-- The assignment `ret->function = f` (also `ret->bound = f`). -/
def expr_native.set_function : expr_native → Nat → expr_native
  | .null, _ => .null
  | .node t _ ps ctx, f => .node t (.ptr f) ps ctx

/-- The assignment `ret->value = v`. -/
def expr_native.set_value : expr_native → Scalar → expr_native
  | .null, _ => .null
  | .node t _ ps ctx, v => .node t (.value v) ps ctx

/-- The assignment `ret->parameters[arity] = context` of a closure node. -/
def expr_native.set_context : expr_native → Nat → expr_native
  | .null, _ => .null
  | .node t p ps _, ctx => .node t p ps ctx

/-- The assignment `ret->parameters[i] = e` of a child pointer. -/
def expr_native.set_parameter : expr_native → Nat → expr_native → expr_native
  | .null, _, _ => .null
  | .node t p ps ctx, i, e => .node t p (ps.set i e) ctx

/-- The node a function or closure token starts: `new_expr(s->type, 0)` with the
token's function and, for a closure, its context. -/
def call_node (s : state) : expr_native :=
  if is_closure s.type then ((new_expr s.type []).set_function s.function).set_context s.context
  else (new_expr s.type []).set_function s.function

/-- The node `NEW_EXPR(TE_FUNCTION1 | TE_FLAG_PURE, a)` with `ret->function = f`. -/
def unary_node (f : String) (a : expr_native) : expr_native :=
  (new_expr (TE_FUNCTION1 ||| TE_FLAG_PURE) [a]).set_function (find_builtin_address f)

/-- The node `NEW_EXPR(TE_FUNCTION2 | TE_FLAG_PURE, a, b)` with `ret->function = f`. -/
def binary_node (f : Nat) (a b : expr_native) : expr_native :=
  (new_expr (TE_FUNCTION2 ||| TE_FLAG_PURE) [a, b]).set_function f

/-- The token is the infix operator of one of the given built-in names. -/
def state.is_op (s : state) (names : List String) : Bool :=
  s.type == TOK_INFIX && names.any (fun n => s.function == find_builtin_address n)

/-- The first loop of `power`: the run of `+` and `-`, each `-` flipping `sign`. -/
def power_sign (c : Libc) : Nat → state → Int → Option (state × Int)
  | 0, _, _ => none
  | fuel + 1, s, sign =>
    if s.is_op ["add", "sub"] then
      power_sign c fuel (next_token c s)
        (if s.function = find_builtin_address "sub" then -sign else sign)
    else some (s, sign)

/-- The second loop of `power`: the run of `+`, `-` and `!`; each `!` moves `logical`
from `0` to `-1` and then flips it. -/
def power_logical (c : Libc) : Nat → state → Int → Option (state × Int)
  | 0, _, _ => none
  | fuel + 1, s, logical =>
    if s.is_op ["add", "sub", "logical_not"] then
      power_logical c fuel (next_token c s)
        (if s.function = find_builtin_address "logical_not" then
          (if logical = 0 then -1 else -logical)
         else logical)
    else some (s, logical)

/-- The node `power` builds over the operand for the collected `sign` and `logical`. -/
def power_wrap (sign logical : Int) (b : expr_native) : expr_native :=
  if sign = 1 then
    if logical = 0 then b
    else if logical = -1 then unary_node "logical_not" b
    else unary_node "logical_notnot" b
  else
    if logical = 0 then unary_node "negate" b
    else if logical = -1 then unary_node "negate_logical_not" b
    else unary_node "negate_logical_notnot" b

mutual

/-- The parser `native::base`. -/
def base (c : Libc) : Nat → state → Option (expr_native × state)
  | 0, _ => none
  | fuel + 1, s =>
    let t := type_mask s.type
    if t = TOK_NUMBER then
      some ((new_expr TE_CONSTANT []).set_value s.value, next_token c s)
    else if t = TOK_VARIABLE then
      some ((new_expr TE_VARIABLE []).set_function s.function, next_token c s)
    else if (t ≥ TE_FUNCTION0 ∧ t < TE_FUNCTION_MAX) ∨ (t ≥ TE_CLOSURE0 ∧ t < TE_CLOSURE_MAX) then
      if arity s.type = 0 then
        let ret := call_node s
        let s1 := next_token c s
        if s1.type = TOK_OPEN then
          let s2 := next_token c s1
          if s2.type ≠ TOK_CLOSE then some (ret, { s2 with type := TOK_ERROR })
          else some (ret, next_token c s2)
        else some (ret, s1)
      else if arity s.type = 1 then
        let ret := call_node s
        match power c fuel (next_token c s) with
        | none => none
        | some (p, s1) => some (ret.set_parameter 0 p, s1)
      else
        let ret := call_node s
        let s1 := next_token c s
        if s1.type ≠ TOK_OPEN then some (ret, { s1 with type := TOK_ERROR })
        else
          match base_args c fuel (arity s.type) 0 ret s1 with
          | none => none
          | some (ret1, s2, i) =>
            if s2.type ≠ TOK_CLOSE ∨ i ≠ arity s.type - 1 then
              some (ret1, { s2 with type := TOK_ERROR })
            else some (ret1, next_token c s2)
    else if t = TOK_OPEN then
      match list c fuel (next_token c s) with
      | none => none
      | some (ret, s1) =>
        if s1.type ≠ TOK_CLOSE then some (ret, { s1 with type := TOK_ERROR })
        else some (ret, next_token c s1)
    else
      some ((new_expr 0 []).set_value .nan, { s with type := TOK_ERROR })

/-- The argument loop of `base`, `for (i = 0; i < arity; i++)`, from `i` on; gives the
node, the state and the final `i`. -/
def base_args (c : Libc) : Nat → Nat → Nat → expr_native → state →
    Option (expr_native × state × Nat)
  | 0, _, _, _, _ => none
  | fuel + 1, ar, i, ret, s =>
    if i < ar then
      match expr c fuel (next_token c s) with
      | none => none
      | some (e, s1) =>
        if s1.type ≠ TOK_SEP then some (ret.set_parameter i e, s1, i)
        else base_args c fuel ar (i + 1) (ret.set_parameter i e) s1
    else some (ret, s, i)

/-- The parser `native::power`. -/
def power (c : Libc) : Nat → state → Option (expr_native × state)
  | 0, _ => none
  | fuel + 1, s =>
    match power_sign c (fuel + 1) s 1 with
    | none => none
    | some (s1, sign) =>
      match power_logical c (fuel + 1) s1 0 with
      | none => none
      | some (s2, logical) =>
        match base c fuel s2 with
        | none => none
        | some (b, s3) => some (power_wrap sign logical b, s3)

/-- The parser `native::factor` (default build, left to right). -/
def factor (c : Libc) : Nat → state → Option (expr_native × state)
  | 0, _ => none
  | fuel + 1, s =>
    match power c fuel s with
    | none => none
    | some (ret, s1) => factor_loop c fuel ret s1

/-- The `while` loop of `factor`. -/
def factor_loop (c : Libc) : Nat → expr_native → state → Option (expr_native × state)
  | 0, _, _ => none
  | fuel + 1, ret, s =>
    if s.is_op ["pow"] then
      match power c fuel (next_token c s) with
      | none => none
      | some (r, s1) => factor_loop c fuel (binary_node s.function ret r) s1
    else some (ret, s)

/-- The parser `native::term`. -/
def term (c : Libc) : Nat → state → Option (expr_native × state)
  | 0, _ => none
  | fuel + 1, s =>
    match factor c fuel s with
    | none => none
    | some (ret, s1) => term_loop c fuel ret s1

/-- The `while` loop of `term`. -/
def term_loop (c : Libc) : Nat → expr_native → state → Option (expr_native × state)
  | 0, _, _ => none
  | fuel + 1, ret, s =>
    if s.is_op ["mul", "divide", "fmod"] then
      match factor c fuel (next_token c s) with
      | none => none
      | some (r, s1) => term_loop c fuel (binary_node s.function ret r) s1
    else some (ret, s)

/-- The parser `native::sum_expr`. -/
def sum_expr (c : Libc) : Nat → state → Option (expr_native × state)
  | 0, _ => none
  | fuel + 1, s =>
    match term c fuel s with
    | none => none
    | some (ret, s1) => sum_expr_loop c fuel ret s1

/-- The `while` loop of `sum_expr`. -/
def sum_expr_loop (c : Libc) : Nat → expr_native → state → Option (expr_native × state)
  | 0, _, _ => none
  | fuel + 1, ret, s =>
    if s.is_op ["add", "sub"] then
      match term c fuel (next_token c s) with
      | none => none
      | some (r, s1) => sum_expr_loop c fuel (binary_node s.function ret r) s1
    else some (ret, s)

/-- The parser `native::test_expr`. -/
def test_expr (c : Libc) : Nat → state → Option (expr_native × state)
  | 0, _ => none
  | fuel + 1, s =>
    match sum_expr c fuel s with
    | none => none
    | some (ret, s1) => test_expr_loop c fuel ret s1

/-- The `while` loop of `test_expr`. -/
def test_expr_loop (c : Libc) : Nat → expr_native → state → Option (expr_native × state)
  | 0, _, _ => none
  | fuel + 1, ret, s =>
    if s.is_op ["greater", "greater_eq", "lower", "lower_eq", "equal", "not_equal"] then
      match sum_expr c fuel (next_token c s) with
      | none => none
      | some (r, s1) => test_expr_loop c fuel (binary_node s.function ret r) s1
    else some (ret, s)

/-- The parser `native::expr`. -/
def expr (c : Libc) : Nat → state → Option (expr_native × state)
  | 0, _ => none
  | fuel + 1, s =>
    match test_expr c fuel s with
    | none => none
    | some (ret, s1) => expr_loop c fuel ret s1

/-- The `while` loop of `expr`. -/
def expr_loop (c : Libc) : Nat → expr_native → state → Option (expr_native × state)
  | 0, _, _ => none
  | fuel + 1, ret, s =>
    if s.is_op ["logical_and", "logical_or"] then
      match test_expr c fuel (next_token c s) with
      | none => none
      | some (r, s1) => expr_loop c fuel (binary_node s.function ret r) s1
    else some (ret, s)

/-- The parser `native::list`. -/
def list (c : Libc) : Nat → state → Option (expr_native × state)
  | 0, _ => none
  | fuel + 1, s =>
    match expr c fuel s with
    | none => none
    | some (ret, s1) => list_loop c fuel ret s1

/-- The `while` loop of `list`. -/
def list_loop (c : Libc) : Nat → expr_native → state → Option (expr_native × state)
  | 0, _, _ => none
  | fuel + 1, ret, s =>
    if s.type = TOK_SEP then
      match expr c fuel (next_token c s) with
      | none => none
      | some (r, s1) => list_loop c fuel (binary_node (find_builtin_address "comma") ret r) s1
    else some (ret, s)

end

/-! ## Native evaluation, constant folding, `compile_native` -/

/-- The outcome of running C code in the model. -/
inductive Outcome (α : Type)
  | ok (a : α)
  | fault
  | timeout
deriving DecidableEq

/-- Read the union as `value`; reading a stored pointer as a scalar is not modelled. -/
def Payload.as_value : Payload → Option Scalar
  | .value v => some v
  | .ptr _ => none

/-- Read the union as `bound` / `function`; reading a stored scalar as a pointer is
not modelled. -/
def Payload.as_ptr : Payload → Option Nat
  | .ptr a => some a
  | .value _ => none

/-- The evaluator `native::eval_native` (`none`: undefined behaviour). -/
def eval_native (h : Host) (mem : Mem) : expr_native → Option Scalar
  | .null => some .nan
  | .node type payload ps ctx =>
    let t := type_mask type
    if t = TE_CONSTANT then payload.as_value
    else if t = TE_VARIABLE then payload.as_ptr.bind mem.read
    else if t ≥ TE_FUNCTION0 ∧ t < TE_FUNCTION_MAX then
      match payload.as_ptr, eval_args ps with
      | some fn, some args =>
        if args.length = t - TE_FUNCTION0 then call_address h fn 0 mem args else none
      | _, _ => none
    else if t ≥ TE_CLOSURE0 ∧ t < TE_CLOSURE_MAX then
      match payload.as_ptr, eval_args ps with
      | some fn, some args =>
        if args.length = t - TE_CLOSURE0 then call_address h fn ctx mem args else none
      | _, _ => none
    else some .nan
where
  /-- The values `eval_arg(0)`, `eval_arg(1)`, ... of the child pointers. -/
  eval_args : List expr_native → Option (List Scalar)
    | [] => some []
    | p :: ps =>
      match eval_native h mem p, eval_args ps with
      | some v, some vs => some (v :: vs)
      | _, _ => none

/-- The type tag `n->type` of a node. -/
def expr_native.type : expr_native → Option Nat
  | .null => none
  | .node t _ _ _ => some t

/-- The pass `native::optimize`, returning the rewritten node (`none`: undefined
behaviour, such as a null child or a fault of the folded call). -/
def optimize (h : Host) (mem : Mem) : expr_native → Option expr_native
  | .null => none
  | .node type payload ps ctx =>
    if type = TE_CONSTANT then some (.node type payload ps ctx)
    else if type = TE_VARIABLE then some (.node type payload ps ctx)
    else if is_pure type then
      match optimize_args ps with
      | none => none
      | some ps1 =>
        if ps1.all (fun p => p.type == some TE_CONSTANT) then
          match eval_native h mem (.node type payload ps1 ctx) with
          | none => none
          | some value => some (.node TE_CONSTANT (.value value) [] 0)
        else some (.node type payload ps1 ctx)
    else some (.node type payload ps ctx)
where
  /-- The calls `optimize(n->parameters[i])` for `i < arity`. -/
  optimize_args : List expr_native → Option (List expr_native)
    | [] => some []
    | p :: ps =>
      match optimize h mem p, optimize_args ps with
      | some q, some qs => some (q :: qs)
      | _, _ => none

/-- The state `compile_native` starts from: the cursor at the start of the text. -/
def init_state (expression : List Nat) (vars : List te_variable) : state :=
  { next := expression, pos := 0, type := TOK_NULL, value := .nan, function := 0, context := 0,
    lookup := vars }

/-- Fuel that covers every parse of the text (see `list_total`). -/
def parse_fuel (expression : List Nat) : Nat := 16 * expression.length + 64

/-- The parse of `compile_native`: `next_token(&s); root = list(&s)`. -/
def parse (c : Libc) (expression : List Nat) (vars : List te_variable) :
    Option (expr_native × state) :=
  list c (parse_fuel expression) (next_token c (init_state expression vars))

/-- The function `native::compile_native`: the root (`none` for the null pointer) and
the value stored to `*error`. -/
def compile_native (h : Host) (mem : Mem) (expression : List Nat)
    (vars : List te_variable) : Outcome (Option expr_native × Int) :=
  match parse h.libc expression vars with
  | none => .timeout
  | some (root, s) =>
    if s.type ≠ TOK_END then .ok (none, if s.pos = 0 then 1 else (s.pos : Int))
    else
      match optimize h mem root with
      | none => .fault
      | some r => .ok (some r, 0)

/-! ## A reference C library -/

def is_digit (ch : Nat) : Bool := '0'.toNat ≤ ch && ch ≤ '9'.toNat

/-- The number a string of decimal digits denotes. -/
def digits_value (ds : List Nat) : Nat := ds.foldl (fun acc d => 10 * acc + (d - '0'.toNat)) 0

/-- The exponent part of a decimal literal at the head of `s`: its value and length
(`(0, 0)` when `s` does not start with `e` or `E`, an optional sign and a digit). -/
def strtod_exponent (s : List Nat) : Int × Nat :=
  if s.headD 0 = 'e'.toNat ∨ s.headD 0 = 'E'.toNat then
    let r := s.drop 1
    let signed := r.headD 0 = '+'.toNat ∨ r.headD 0 = '-'.toNat
    let ds := (if signed then r.drop 1 else r).takeWhile is_digit
    if ds.isEmpty then (0, 0)
    else
      (if r.headD 0 = '-'.toNat then -(digits_value ds : Int) else (digits_value ds : Int),
        1 + (if signed then 1 else 0) + ds.length)
  else (0, 0)

/-- The function `strtod` on a decimal floating literal `digits [. digits] [exponent]`
(the only form `next_token` hands it that this model covers): the exact value and
the number of bytes read; no digits at all is no conversion. -/
def strtod_decimal (s : List Nat) : Scalar × Nat :=
  let ip := s.takeWhile is_digit
  let r := s.drop ip.length
  let dot := r.headD 0 = '.'.toNat
  let fp := if dot then (r.drop 1).takeWhile is_digit else []
  if ip.isEmpty ∧ fp.isEmpty then (.num 0, 0)
  else
    let n := ip.length + (if dot then 1 + fp.length else 0)
    let m : ℚ := (digits_value ip : ℚ) + (digits_value fp : ℚ) / (10 : ℚ) ^ fp.length
    let e := strtod_exponent (s.drop n)
    (.num (m * (10 : ℚ) ^ e.1), n + e.2)

/-- Apply a rational function to a finite scalar, NaN otherwise. -/
def Scalar.map_num (f : ℚ → Scalar) : Scalar → Scalar
  | .num q => f q
  | _ => .nan

/-- The root of a rational that is the square of a rational, NaN otherwise. -/
def exact_sqrt (q : ℚ) : Scalar :=
  let r : ℚ := (Nat.sqrt q.num.toNat : ℚ) / (Nat.sqrt q.den : ℚ)
  if 0 ≤ q ∧ r * r = q then .num r else .nan

/-- The power of two finite scalars when the exponent is an integer (and the base
is not zero for a negative exponent), NaN otherwise. -/
def exact_pow (a b : Scalar) : Scalar :=
  match a, b with
  | .num x, .num y => if y.den = 1 ∧ (x ≠ 0 ∨ 0 ≤ y) then .num (x ^ y.num) else .nan
  | _, _ => .nan

/-- A reference C library for evaluating examples: `strtod` on decimal literals,
and `fabs`, `floor`, `ceil`, `sqrt` of rational squares and integer powers computed
exactly on finite scalars. Every other function gives NaN here; no example
evaluates one. -/
def exact_libc : Libc where
  strtod := strtod_decimal
  fabs := Scalar.map_num (fun q => .num |q|)
  acos := fun _ => .nan
  cosh := fun _ => .nan
  cos := fun _ => .nan
  exp := fun _ => .nan
  asin := fun _ => .nan
  sinh := fun _ => .nan
  sin := fun _ => .nan
  sqrt := Scalar.map_num exact_sqrt
  log := fun _ => .nan
  log10 := fun _ => .nan
  atan := fun _ => .nan
  tanh := fun _ => .nan
  tan := fun _ => .nan
  floor := Scalar.map_num (fun q => .num (Rat.floor q))
  ceil := Scalar.map_num (fun q => .num (Rat.ceil q))
  fmod := fun _ _ => .nan
  atan2 := fun _ _ => .nan
  pow := exact_pow

/-- A host that binds no callable of its own, over the reference C library. -/
def plain_host : Host := ⟨exact_libc, fun _ _ _ _ => none⟩

/-! ## Lowering to the portable image (`portable`, `expr_details`) -/

/-- The lookup `std::unordered_map::find` on a map kept as a list of entries. -/
def map_find {β : Type} (m : List (Nat × β)) (k : Nat) : Option β :=
  (m.find? (fun e => e.1 == k)).map Prod.snd

/-- The insertion `std::unordered_map::insert` / `emplace`: a present key keeps its entry. -/
def map_insert {β : Type} (m : List (Nat × β)) (k : Nat) (v : β) : List (Nat × β) :=
  if (map_find m k).isSome then m else m ++ [(k, v)]

/-- The C++ struct `expr_portable_expression_build_indexer`. -/
structure indexer where
  name_map : List (Nat × List Nat)
  index_map : List (Nat × Nat)
  index_counter : Nat
deriving DecidableEq

/-- A freshly constructed indexer. -/
def indexer.empty : indexer := ⟨[], [], 0⟩

/-- The method `add_referenced_variable(var)`: the index handed out and the indexer after. -/
def indexer.add_referenced_variable (ix : indexer) (var : te_variable) : Nat × indexer :=
  (ix.index_counter,
    { name_map := map_insert ix.name_map var.address var.name,
      index_map := map_insert ix.index_map var.address ix.index_counter,
      index_counter := ix.index_counter + 1 })

/-- Fill a vector of `n` default entries from `(index, value)` pairs, as the loops of
`get_address_table`, `get_binding_table` and `compile_using_indexer` do. -/
def fill_table {β : Type} (n : Nat) (dflt : β) (entries : List (Nat × β)) : List β :=
  entries.foldl (fun t e => t.set e.1 e.2) (List.replicate n dflt)

/-- The method `get_address_table()`. -/
def indexer.get_address_table (ix : indexer) : List Nat :=
  fill_table ix.index_counter 0 (ix.index_map.map (fun e => (e.2, e.1)))

/-- The method `get_binding_table()`. -/
def indexer.get_binding_table (ix : indexer) : List (List Nat) :=
  fill_table ix.index_counter [] (ix.index_map.map (fun e => (e.2, (map_find ix.name_map e.1).getD [])))

def find_bind_by_addr (addr : Nat) (lookup : List te_variable) : Option te_variable :=
  lookup.find? (fun v => v.address == addr)

def find_closure_by_addr (addr : Nat) (lookup : List te_variable) : Option te_variable :=
  lookup.find? (fun v => v.context == addr)

def find_function_by_addr (addr : Nat) : Option te_variable :=
  functions.find? (fun v => v.address == addr)

def find_operator_by_addr (addr : Nat) : Option te_variable :=
  operators.find? (fun v => v.address == addr)

/-- The lookup `compiler_builtins::find_any_by_addr`. -/
def find_any_by_addr (addr : Nat) : Option te_variable :=
  match find_function_by_addr addr with
  | some v => some v
  | none =>
    match find_operator_by_addr addr with
    | some v => some v
    | none => find_builtin (cstr "nul") (cstr "nul").length

/-- The lookup `native::find_bind_or_any_by_addr`. -/
def find_bind_or_any_by_addr (addr : Nat) (lookup : List te_variable) : Option te_variable :=
  match find_any_by_addr addr with
  | some v => some v
  | none =>
    match find_bind_by_addr addr lookup with
    | some v => some v
    | none => find_closure_by_addr addr lookup

/-- The lambda `handle_addr` of `export_estimate` followed by its `assert(res)`
(`none`: the assertion fails). -/
def handle_addr (var : Option te_variable) (ix : indexer) : Option indexer :=
  match var with
  | none => none
  | some v =>
    let ix1 : indexer :=
      if (map_find ix.name_map v.address).isNone then
        { name_map := ix.name_map ++ [(v.address, v.name)],
          index_map := map_insert ix.index_map v.address ix.index_counter,
          index_counter := ix.index_counter + 1 }
      else ix
    if v.type ≥ TE_CLOSURE0 ∧ v.type < TE_CLOSURE_MAX then
      if (map_find ix1.name_map v.context).isNone then
        some { name_map := ix1.name_map ++ [(v.context, v.name ++ cstr "_closure")],
               index_map := map_insert ix1.index_map v.context ix1.index_counter,
               index_counter := ix1.index_counter + 1 }
      else some ix1
    else some ix1

/-- The size `sizeof(expr_native)` (also `sizeof(expr_portable<env_traits>)`), in bytes. -/
def sizeof_expr_native : Nat := 24

/-- The size `sizeof(n->parameters[0])`, in bytes. -/
def sizeof_parameter : Nat := 8

/-- Pass 1, `portable::export_estimate`: the running `export_size` and the indexer
(`none`: an assertion fails or a child pointer is missing). -/
def export_estimate (lookup : List te_variable) :
    expr_native → Nat × indexer → Option (Nat × indexer)
  | .null, st => some st
  | .node type payload ps _, (size, ix) =>
    let size1 := size + sizeof_expr_native
    let t := type_mask type
    if t = TE_CONSTANT then some (size1, ix)
    else if t = TE_VARIABLE then
      (handle_addr (payload.as_ptr.bind (fun a => find_bind_by_addr a lookup)) ix).map
        (fun ix1 => (size1, ix1))
    else if (t ≥ TE_FUNCTION0 ∧ t < TE_FUNCTION_MAX) ∨ (t ≥ TE_CLOSURE0 ∧ t < TE_CLOSURE_MAX) then
      match handle_addr (payload.as_ptr.bind (fun a => find_bind_or_any_by_addr a lookup)) ix with
      | none => none
      | some ix1 =>
        if ps.length = t % 8 then estimate_args ps (size1 + sizeof_parameter * (t % 8), ix1)
        else none
    else some (size1, ix)
where
  /-- The calls `eval_arg(i)` for `i < a`. -/
  estimate_args : List expr_native → Nat × indexer → Option (Nat × indexer)
    | [], st => some st
    | p :: ps, st =>
      match export_estimate lookup p st with
      | none => none
      | some st1 => estimate_args ps st1

/-- One 8-byte slot of the image: an integer field (`type`, `bound`, `function`,
a parameter) or the scalar `value`. A zeroed slot is `int 0`. -/
inductive Word
  | int (n : Nat)
  | flt (v : Scalar)
deriving DecidableEq

/-- Store a slot at a byte offset of the buffer (`none`: outside the buffer or unaligned). -/
def write_word (buf : List Word) (off : Nat) (w : Word) : Option (List Word) :=
  if off % 8 = 0 ∧ off / 8 < buf.length then some (buf.set (off / 8) w) else none

/-- Load the slot at a byte offset of the buffer (`none`: outside the buffer or unaligned). -/
def read_word (buf : List Word) (off : Nat) : Option Word :=
  if off % 8 = 0 then buf.get? (off / 8) else none

/-- Load an integer field. -/
def read_int (buf : List Word) (off : Nat) : Option Nat :=
  match read_word buf off with
  | some (.int n) => some n
  | _ => none

/-- Load a scalar field (a zeroed slot reads as `0.0`). -/
def read_flt (buf : List Word) (off : Nat) : Option Scalar :=
  match read_word buf off with
  | some (.flt v) => some v
  | some (.int 0) => some (.num 0)
  | _ => none

/-- The lambda `register_func` that `compile_using_indexer` passes to `export_write`,
for the node at byte offset `out` (`none`: an assertion fails). -/
def register_func (ix : indexer) (addr : Option Nat) (out : Nat) (v : Option te_variable)
    (buf : List Word) : Option (List Word) :=
  match v, addr.bind (map_find ix.index_map) with
  | some v, some idx =>
    match write_word buf (out + 8) (.int idx) with
    | none => none
    | some buf1 =>
      if v.type ≥ TE_CLOSURE0 ∧ v.type < TE_CLOSURE_MAX then
        match map_find ix.index_map v.context with
        | none => none
        | some idx2 => write_word buf1 (out + 16 + 8 * arity v.type) (.int idx2)
      else some buf1
  | _, _ => none

/-- Pass 2, `portable::export_write`: the running `export_size` and the buffer
(`none`: an assertion fails, or a store falls outside the buffer). -/
def export_write (lookup : List te_variable) (ix : indexer) :
    expr_native → Nat × List Word → Option (Nat × List Word)
  | .null, st => some st
  | .node type payload ps _, (size, buf) =>
    let out := size
    let size1 := size + sizeof_expr_native
    let t := type_mask type
    match write_word buf out (.int type) with
    | none => none
    | some buf1 =>
      if t = TE_CONSTANT then
        match payload.as_value with
        | none => none
        | some v => (write_word buf1 (out + 8) (.flt v)).map (fun b => (size1, b))
      else if t = TE_VARIABLE then
        (register_func ix payload.as_ptr out
          (payload.as_ptr.bind (fun a => find_bind_by_addr a lookup)) buf1).map
          (fun b => (size1, b))
      else if (t ≥ TE_FUNCTION0 ∧ t < TE_FUNCTION_MAX) ∨ (t ≥ TE_CLOSURE0 ∧ t < TE_CLOSURE_MAX) then
        match register_func ix payload.as_ptr out
            (payload.as_ptr.bind (fun a => find_bind_or_any_by_addr a lookup)) buf1 with
        | none => none
        | some buf2 =>
          if ps.length = arity type then
            write_args ps 0 out (size1 + sizeof_parameter * arity type, buf2)
          else none
      else some (size1, buf1)
where
  /-- The loop `n_out->parameters[i] = export_size; eval_arg(i);` from `i` on. -/
  write_args : List expr_native → Nat → Nat → Nat × List Word → Option (Nat × List Word)
    | [], _, _, st => some st
    | p :: ps, i, out, (size, buf) =>
      match write_word buf (out + 16 + 8 * i) (.int size) with
      | none => none
      | some buf1 =>
        match export_write lookup ix p (size, buf1) with
        | none => none
        | some st1 => write_args ps (i + 1) out st1

/-- The C++ struct `portable::compiled_expr`: the binding tables and the image. -/
structure compiled_expr where
  index_to_address : List Nat
  index_to_name : List (List Nat)
  build_buffer : List Word
  build_buffer_size : Nat
deriving DecidableEq

/-- The names `index_to_name[i]` found for the addresses (`none`: the assertion
`itor != indexer.name_map.end()` fails). -/
def names_of (ix : indexer) : List Nat → Option (List (List Nat))
  | [] => some []
  | a :: as =>
    match map_find ix.name_map a, names_of ix as with
    | some n, some ns => some (n :: ns)
    | _, _ => none

/-- The function `expr_details::compile_using_indexer`: the handle (`none` for the
null pointer), the value stored to `*error`, and the indexer after the call. -/
def compile_using_indexer (h : Host) (mem : Mem) (ix : indexer) (expression : List Nat)
    (vars : List te_variable) : Outcome (Option compiled_expr × Int × indexer) :=
  match compile_native h mem expression vars with
  | .timeout => .timeout
  | .fault => .fault
  | .ok (none, error) => .ok (none, error, ix)
  | .ok (some native_expr, error) =>
    match export_estimate vars native_expr (0, ix) with
    | none => .fault
    | some (export_size, ix1) =>
      let index_to_address := ix1.get_address_table
      match names_of ix1 index_to_address with
      | none => .fault
      | some index_to_name =>
        match export_write vars ix1 native_expr
            (0, List.replicate (export_size / 8) (.int 0)) with
        | none => .fault
        | some (_, buf) =>
          .ok (some ⟨index_to_address, index_to_name, buf, export_size⟩, error, ix1)

/-- The function `expr_details::compile` (`te::compile`): the handle and `*error`. -/
def compile (h : Host) (mem : Mem) (expression : List Nat) (vars : List te_variable) :
    Outcome (Option compiled_expr × Int) :=
  match compile_using_indexer h mem indexer.empty expression vars with
  | .ok (e, error, _) => .ok (e, error)
  | .fault => .fault
  | .timeout => .timeout

/-! ## The portable evaluator (`eval_details::eval_portable_impl`, `te::eval`) -/

/-- The evaluator `eval_portable_impl` on the node at byte offset `off` of the image
that starts at byte `base` of `buf`; `ctx` is the address table `expr_context`
(`none` for the null pointer). The recursion runs on fuel. -/
def eval_portable_impl (h : Host) (mem : Mem) (buf : List Word) (base : Nat)
    (ctx : Option (List Nat)) : Nat → Nat → Outcome Scalar
  | 0, _ => .timeout
  | fuel + 1, off =>
    match read_int buf (base + off) with
    | none => .fault
    | some type =>
      let t := type_mask type
      if t = TE_CONSTANT then
        match read_flt buf (base + off + 8) with
        | some v => .ok v
        | none => .fault
      else if t = TE_VARIABLE then
        match ctx with
        | none => .ok .nan
        | some table =>
          match (read_int buf (base + off + 8)).bind table.get? with
          | none => .fault
          | some addr =>
            match mem.read addr with
            | some v => .ok v
            | none => .fault
      else if t ≥ TE_FUNCTION0 ∧ t < TE_FUNCTION_MAX then
        match ctx.bind (fun table => (read_int buf (base + off + 8)).bind table.get?) with
        | none => .fault
        | some fn =>
          match eval_params fuel (base + off + 16) (t - TE_FUNCTION0) with
          | .ok args =>
            match call_address h fn 0 mem args with
            | some v => .ok v
            | none => .fault
          | .fault => .fault
          | .timeout => .timeout
      else if t ≥ TE_CLOSURE0 ∧ t < TE_CLOSURE_MAX then
        match ctx.bind (fun table => (read_int buf (base + off + 8)).bind table.get?),
          ctx.bind (fun table =>
            (read_int buf (base + off + 16 + 8 * (t - TE_CLOSURE0))).bind table.get?) with
        | some fn, some context =>
          match eval_params fuel (base + off + 16) (t - TE_CLOSURE0) with
          | .ok args =>
            match call_address h fn context mem args with
            | some v => .ok v
            | none => .fault
          | .fault => .fault
          | .timeout => .timeout
        | _, _ => .fault
      else .ok .nan
where
  /-- The values `eval_arg(0)`, ..., `eval_arg(a - 1)` of the nodes whose offsets are
  stored in the `a` slots from byte `slot` on. -/
  eval_params (fuel : Nat) (slot : Nat) : Nat → Outcome (List Scalar)
    | 0 => .ok []
    | a + 1 =>
      match read_int buf slot with
      | none => .fault
      | some off =>
        match eval_portable_impl h mem buf base ctx fuel off with
        | .ok v =>
          match eval_params fuel (slot + 8) a with
          | .ok vs => .ok (v :: vs)
          | .fault => .fault
          | .timeout => .timeout
        | .fault => .fault
        | .timeout => .timeout

/-- The function `te::eval(expr_buffer, expr_context)` for the image that starts at byte
`base` of `buf`. Fuel of one more than the number of slots is enough unless
the image is cyclic. -/
def eval (h : Host) (mem : Mem) (buf : List Word) (base : Nat) (ctx : Option (List Nat)) :
    Outcome Scalar :=
  eval_portable_impl h mem buf base ctx (buf.length + 1) 0

/-- The accessor `get_binding_addresses` of a compiled expression: null for an empty table. -/
def compiled_expr.get_binding_addresses (n : compiled_expr) : Option (List Nat) :=
  if n.index_to_address.length > 0 then some n.index_to_address else none

/-- The function `te::eval(const compiled_expr*)`. -/
def eval_compiled (h : Host) (mem : Mem) (n : compiled_expr) : Outcome Scalar :=
  eval h mem n.build_buffer 0 n.get_binding_addresses

/-- The function `te::interp(expression, error)`: the value and `*error`. -/
def interp (h : Host) (mem : Mem) (expression : List Nat) : Outcome (Scalar × Int) :=
  match compile h mem expression [] with
  | .ok (some n, error) =>
    match eval_compiled h mem n with
    | .ok v => .ok (v, error)
    | .fault => .fault
    | .timeout => .timeout
  | .ok (none, error) => .ok (.nan, error)
  | .fault => .fault
  | .timeout => .timeout

/-! ## Programs: statements and `eval_program` -/

/-- The enum `statement_type`; `other` stands for any value outside the enumerators. -/
inductive statement_type
  | jump
  | jump_if
  | return_value
  | assign
  | call
  | other
deriving DecidableEq

/-- The C struct `te::statement`. -/
structure statement where
  type : statement_type
  arg_a : Int
  arg_b : Int
deriving DecidableEq

/-- What one round of the `switch` of `eval_program` does. -/
inductive step_result
  | next (statement_index : Int) (mem : Mem)
  | returned (v : Scalar)
  | fault
  | timeout
deriving DecidableEq

/-- The call `eval(((const char*)expr_buffer) + arg, expr_context)` of `eval_program`. -/
def eval_at (h : Host) (mem : Mem) (buf : List Word) (ctx : Option (List Nat)) (arg : Int) :
    Outcome Scalar :=
  if arg < 0 then .fault else eval h mem buf arg.toNat ctx

/-- The `switch` of `eval_program` on the statement at `statement_index`: the value of
`statement_index` when the `switch` is left (before the `++statement_index` of
the loop) and the host storage, or the value returned. -/
def exec_statement (h : Host) (buf : List Word) (ctx : Option (List Nat)) (st : statement)
    (statement_index : Int) (mem : Mem) : step_result :=
  match st.type with
  | .jump => .next st.arg_a mem
  | .jump_if =>
    match eval_at h mem buf ctx st.arg_b with
    | .ok v => if v.nonZero then .next st.arg_a mem else .next statement_index mem
    | .fault => .fault
    | .timeout => .timeout
  | .return_value =>
    match eval_at h mem buf ctx st.arg_a with
    | .ok v => .returned v
    | .fault => .fault
    | .timeout => .timeout
  | .assign =>
    match eval_at h mem buf ctx st.arg_b with
    | .ok v =>
      if st.arg_a < 0 then .fault
      else
        match (ctx.bind (fun table => table.get? st.arg_a.toNat)).bind (fun dest => mem.write dest v) with
        | some mem1 => .next statement_index mem1
        | none => .fault
    | .fault => .fault
    | .timeout => .timeout
  | .call =>
    match eval_at h mem buf ctx st.arg_a with
    | .ok _ => .next statement_index mem
    | .fault => .fault
    | .timeout => .timeout
  | .other => .returned .nan

/-- What a run of `eval_program` leaves: the value returned, the host storage, and the
indexes of the statements executed, in order. -/
structure run where
  value : Scalar
  mem : Mem
  trace : List Nat
deriving DecidableEq

/-- The `for` loop of `eval_program` from `statement_index` on; each round costs one
unit of fuel. -/
def eval_program_loop (h : Host) (stmts : List statement) (buf : List Word)
    (ctx : Option (List Nat)) : Nat → Int → Mem → List Nat → Outcome run
  | 0, _, _, _ => .timeout
  | fuel + 1, statement_index, mem, trace =>
    if statement_index < stmts.length then
      if statement_index < 0 then .fault
      else
        match stmts.get? statement_index.toNat with
        | none => .fault
        | some st =>
          match exec_statement h buf ctx st statement_index mem with
          | .next j mem1 =>
            eval_program_loop h stmts buf ctx fuel (j + 1) mem1 (trace ++ [statement_index.toNat])
          | .returned v => .ok ⟨v, mem, trace ++ [statement_index.toNat]⟩
          | .fault => .fault
          | .timeout => .timeout
    else .ok ⟨.nan, mem, trace⟩

/-- The function `te::eval_program(statement_array, statement_array_size, expr_buffer,
expr_context)`, run for at most `fuel` statements. -/
def eval_program (h : Host) (mem : Mem) (fuel : Nat) (stmts : List statement)
    (buf : List Word) (ctx : Option (List Nat)) : Outcome run :=
  eval_program_loop h stmts buf ctx fuel 0 mem []

/-! ## Programs: the parser (`program_details::parser`) -/

/-- A `std::string_view`: `data` holds the bytes from the view's first byte to the end
of the underlying C string, `length` is the length of the view. -/
structure string_view where
  data : List Nat
  length : Nat
deriving DecidableEq

/-- The bytes of the view. -/
def string_view.bytes (v : string_view) : List Nat := v.data.take v.length

/-- The empty view `std::string_view {}`. -/
def string_view.empty : string_view := ⟨[], 0⟩

/-- The view `std::string_view(&v[i], n)`. -/
def string_view.sub (v : string_view) (i n : Nat) : string_view := ⟨v.data.drop i, n⟩

/-- The C library's `isspace` in the "C" locale. -/
def isspace (ch : Nat) : Bool := ch == 32 || (9 ≤ ch && ch ≤ 13)

def trim_leading_space (v : string_view) : string_view :=
  if v.length > 0 then
    v.sub (v.bytes.takeWhile isspace).length (v.length - (v.bytes.takeWhile isspace).length)
  else v

def trim_trailing_space (v : string_view) : string_view :=
  if v.length > 0 then v.sub 0 (v.length - (v.bytes.reverse.takeWhile isspace).length)
  else v

def trim_all_space (v : string_view) : string_view :=
  trim_leading_space (trim_trailing_space v)

def split_at_index (s : string_view) (index : Nat) : string_view × string_view :=
  if index < s.length then
    (trim_all_space (s.sub 0 index), trim_all_space (s.sub index (s.length - index)))
  else (s, string_view.empty)

def split_at_index_excl (s : string_view) (index : Nat) : string_view × string_view :=
  let lr := split_at_index s index
  if lr.2.length > 1 then (trim_all_space lr.1, trim_all_space (lr.2.sub 1 (lr.2.length - 1)))
  else (lr.1, string_view.empty)

def split_at_char_excl (program : string_view) (ch : Nat) : string_view × string_view :=
  match program.bytes.indexOf? ch with
  | some i => split_at_index_excl program i
  | none => (program, string_view.empty)

/-- The callback `parse_statement` invokes, with its arguments. -/
inductive parsed_statement
  | add_label (label : string_view)
  | add_jump (destination_label : string_view)
  | add_jump_if (destination_label condition : string_view)
  | add_return_value (expression : string_view)
  | add_assign (destination expression : string_view)
  | add_call (expression : string_view)
deriving DecidableEq

/-- The function `parser::parse_statement`. -/
def parse_statement (stmt : string_view) : parsed_statement :=
  let oe := split_at_char_excl stmt ':'.toNat
  if oe.2.length = 0 then .add_call oe.1
  else if oe.1.bytes = cstr "label" then .add_label oe.2
  else if oe.1.bytes = cstr "jump" then
    let lc := split_at_char_excl oe.2 '?'.toNat
    if lc.2.length > 0 then .add_jump_if lc.1 lc.2 else .add_jump lc.1
  else if oe.1.bytes = cstr "return" then .add_return_value oe.2
  else .add_assign oe.1 oe.2

/-! ## Programs: the compiler (`program_details::compile`) -/

/-- The lookup `find` on a map keyed by the bytes of a `std::string_view`. -/
def smap_find {β : Type} (m : List (List Nat × β)) (k : List Nat) : Option β :=
  (m.find? (fun e => e.1 == k)).map Prod.snd

/-- The insertion `insert` on a map keyed by the bytes of a `std::string_view`: a
present key keeps its entry. -/
def smap_insert {β : Type} (m : List (List Nat × β)) (k : List Nat) (v : β) :
    List (List Nat × β) :=
  if (smap_find m k).isSome then m else m ++ [(k, v)]

/-- The C++ struct `label_manager`. -/
structure label_manager where
  m_label_statement_indexes : List Int
  m_label_handle_map : List (List Nat × Nat)
deriving DecidableEq

def placeholder_index : Int := -1

/-- The method `label_manager::add_label` (its result, the handle, is not used). -/
def label_manager.add_label (lm : label_manager) (label : string_view) (statement_index : Int) :
    label_manager :=
  match smap_find lm.m_label_handle_map label.bytes with
  | some label_handle =>
    if lm.m_label_statement_indexes.getD label_handle 0 ≠ placeholder_index then lm
    else { lm with m_label_statement_indexes :=
             lm.m_label_statement_indexes.set label_handle statement_index }
  | none =>
    { m_label_handle_map :=
        lm.m_label_handle_map ++ [(label.bytes, lm.m_label_statement_indexes.length)],
      m_label_statement_indexes := lm.m_label_statement_indexes ++ [statement_index] }

/-- The method `label_manager::find_label`: the handle and the manager after. -/
def label_manager.find_label (lm : label_manager) (label : string_view) : Nat × label_manager :=
  match smap_find lm.m_label_handle_map label.bytes with
  | some label_handle => (label_handle, lm)
  | none =>
    (lm.m_label_statement_indexes.length,
      { m_label_handle_map :=
          lm.m_label_handle_map ++ [(label.bytes, lm.m_label_statement_indexes.length)],
        m_label_statement_indexes := lm.m_label_statement_indexes ++ [placeholder_index] })

/-- The method `label_manager::get_label_statement_index`. -/
def label_manager.get_label_statement_index (lm : label_manager) (label : Int) : Int :=
  lm.m_label_statement_indexes.getD label.toNat 0

/-- The C++ struct `variable_manager`. -/
structure variable_manager where
  m_variable_count : Nat
  m_variable_map : List (List Nat × Nat)
deriving DecidableEq

/-- The method `variable_manager::find_label`: the index and the manager after. -/
def variable_manager.find_label (vm : variable_manager) (name : string_view) :
    Nat × variable_manager :=
  (vm.m_variable_count,
    { m_variable_count := vm.m_variable_count + 1,
      m_variable_map := smap_insert vm.m_variable_map name.bytes vm.m_variable_count })

/-- The variant `any_statement` with the fields of its alternatives; a field that the
aggregate initialiser leaves out starts at zero. -/
inductive any_statement
  | jump_statement (m_target_handle m_target_index : Int)
  | jump_if_statement (m_target_handle m_expression_index m_target_index
      m_expression_offset : Int)
  | return_value_statement (m_expression_index m_expression_offset : Int)
  | assign_statement (m_variable_index m_expression_index m_expression_offset : Int)
  | call_statement (m_expression_index m_expression_offset : Int)
deriving DecidableEq

/-- The state of the first loop of `compile`: the statements, the three managers. -/
structure parse_state where
  program_statements : List any_statement
  lm : label_manager
  vm : variable_manager
  m_expressions : List string_view
deriving DecidableEq

def parse_state.empty : parse_state := ⟨[], ⟨[], []⟩, ⟨0, []⟩, []⟩

/-- The six callbacks that `compile` hands to `parse_statement`. -/
def parse_state.add (ps : parse_state) : parsed_statement → parse_state
  | .add_label label =>
    { ps with lm := ps.lm.add_label label ps.program_statements.length }
  | .add_jump destination_label =>
    { ps with
      lm := (ps.lm.find_label destination_label).2
      program_statements := ps.program_statements ++
        [.jump_statement (ps.lm.find_label destination_label).1 0] }
  | .add_jump_if destination_label condition =>
    { ps with
      lm := (ps.lm.find_label destination_label).2
      m_expressions := ps.m_expressions ++ [condition]
      program_statements := ps.program_statements ++
        [.jump_if_statement (ps.lm.find_label destination_label).1 ps.m_expressions.length 0 0] }
  | .add_return_value expression =>
    { ps with
      m_expressions := ps.m_expressions ++ [expression]
      program_statements := ps.program_statements ++
        [.return_value_statement ps.m_expressions.length 0] }
  | .add_assign destination expression =>
    { ps with
      vm := (ps.vm.find_label destination).2
      m_expressions := ps.m_expressions ++ [expression]
      program_statements := ps.program_statements ++
        [.assign_statement (ps.vm.find_label destination).1 ps.m_expressions.length 0] }
  | .add_call expression =>
    { ps with
      m_expressions := ps.m_expressions ++ [expression]
      program_statements := ps.program_statements ++
        [.call_statement ps.m_expressions.length 0] }

/-- The first loop of `compile`, `while (program_remaining.length() > 0)`, run on fuel
(`none`: out of fuel; every round shortens `program_remaining`). -/
def parse_program_loop : Nat → string_view → parse_state → Option parse_state
  | 0, _, _ => none
  | fuel + 1, program_remaining, ps =>
    if program_remaining.length > 0 then
      let sr := split_at_char_excl program_remaining ';'.toNat
      parse_program_loop fuel sr.2 (ps.add (parse_statement sr.1))
    else some ps

/-- The loop "Fixup jump indices". -/
def fixup_jumps (lm : label_manager) (stmts : List any_statement) : List any_statement :=
  stmts.map (fun s =>
    match s with
    | .jump_statement hd _ => .jump_statement hd (lm.get_label_statement_index hd)
    | .jump_if_statement hd e _ o => .jump_if_statement hd e (lm.get_label_statement_index hd) o
    | other => other)

/-- The loop "Add referenced variables to the lookup dict" over the entries of
`vm.m_variable_map` in the order `entries`; `none` is the `return nullptr` of a name
that the lookup table does not hold. Its inner loop "Remap all indexes" iterates
over copies of the statements (`for (auto s : program_statements)`) and leaves
`program_statements` as it is. -/
def add_referenced (vars : List te_variable) : List (List Nat × Nat) → indexer → Option indexer
  | [], ix => some ix
  | (name, _) :: rest, ix =>
    match vars.find? (fun var => var.name.takeWhile (fun b => b != 0) == name) with
    | none => none
    | some var => add_referenced vars rest (ix.add_referenced_variable var).2

/-- The loop "Fixup any expression indexes" for expression `expr_idx`. -/
def fixup_offsets (expr_idx : Int) (current_expr_offset : Int) (stmts : List any_statement) :
    List any_statement :=
  stmts.map (fun s =>
    match s with
    | .call_statement e o => .call_statement e (if e = expr_idx then current_expr_offset else o)
    | .assign_statement v e o =>
      .assign_statement v e (if e = expr_idx then current_expr_offset else o)
    | .return_value_statement e o =>
      .return_value_statement e (if e = expr_idx then current_expr_offset else o)
    | .jump_if_statement hd e t o =>
      .jump_if_statement hd e t (if e = expr_idx then current_expr_offset else o)
    | other => other)

/-- The state of the loop that compiles the expressions. -/
structure build_state where
  program_statements : List any_statement
  ix : indexer
  program_expression_buffer : List Word
  program_expression_buffer_size : Nat
  error : Int
deriving DecidableEq

/-- The loop "Compile all the expressions" over the expressions from `expr_idx` on
(`break` on the first expression that does not compile, with `*error = -1`). -/
def compile_expressions (h : Host) (mem : Mem) (vars : List te_variable) :
    List string_view → Nat → build_state → Outcome build_state
  | [], _, bs => .ok bs
  | e :: es, expr_idx, bs =>
    match compile_using_indexer h mem bs.ix e.data vars with
    | .timeout => .timeout
    | .fault => .fault
    | .ok (none, _, ix1) => .ok { bs with ix := ix1, error := -1 }
    | .ok (some compiled, error, ix1) =>
      compile_expressions h mem vars es (expr_idx + 1)
        { program_statements :=
            fixup_offsets expr_idx bs.program_expression_buffer_size bs.program_statements
          ix := ix1
          program_expression_buffer := bs.program_expression_buffer ++ compiled.build_buffer
          program_expression_buffer_size :=
            bs.program_expression_buffer_size + compiled.build_buffer_size
          error := error }

/-- The last loop of `compile`: one `statement` per `any_statement`. -/
def emit_statement : any_statement → statement
  | .call_statement _ o => ⟨.call, o, -1⟩
  | .assign_statement v _ o => ⟨.assign, v, o⟩
  | .return_value_statement _ o => ⟨.return_value, o, -1⟩
  | .jump_if_statement _ _ t o => ⟨.jump_if, t, o⟩
  | .jump_statement _ t => ⟨.jump, t, -1⟩

/-- The C++ struct `portable::compiled_program`. -/
structure compiled_program where
  program_statements : List statement
  binding_table : List (List Nat)
  address_table : List Nat
  program_expression_buffer : List Word
  program_expression_buffer_size : Nat
deriving DecidableEq

/-- The part of `program_details::compile` after its first loop, with the entries of
`vm.m_variable_map` visited in the order `entries`; `error` is the value `*error`
holds on entry. Gives the handle (`none` for the null pointer) and `*error`. -/
def compile_parsed (h : Host) (mem : Mem) (vars : List te_variable) (error : Int)
    (ps : parse_state) (entries : List (List Nat × Nat)) :
    Outcome (Option compiled_program × Int) :=
  match add_referenced vars entries indexer.empty with
  | none => .ok (none, -1)
  | some ix =>
    match compile_expressions h mem vars ps.m_expressions 0
        ⟨fixup_jumps ps.lm ps.program_statements, ix, [], 0, error⟩ with
    | .timeout => .timeout
    | .fault => .fault
    | .ok bs =>
      .ok (some
        { program_statements := bs.program_statements.map emit_statement
          binding_table := bs.ix.get_binding_table
          address_table := bs.ix.get_address_table
          program_expression_buffer := bs.program_expression_buffer
          program_expression_buffer_size := bs.program_expression_buffer_size },
        bs.error)

/-- The first loop of `program_details::compile` on the whole text. -/
def parse_program (text : List Nat) : Option parse_state :=
  let body := text.takeWhile (fun b => b != 0)
  parse_program_loop (body.length + 1) (trim_all_space ⟨body, body.length⟩) parse_state.empty

/-- The function `program_details::compile` (`te::compile_program`). The iteration
order of the `std::unordered_map` `vm.m_variable_map` is not specified; `iter`
gives the order in which its entries are visited. -/
def compile_program (h : Host) (mem : Mem) (iter : List (List Nat × Nat) → List (List Nat × Nat))
    (text : List Nat) (vars : List te_variable) (error : Int) :
    Outcome (Option compiled_program × Int) :=
  match parse_program text with
  | none => .timeout
  | some ps => compile_parsed h mem vars error ps (iter ps.vm.m_variable_map)

/-! ## Example inputs and the outputs expected for them -/

/-- The program of the spec's scenario 6. -/
def loop_text : List Nat :=
  cstr "x: 0; label: loop; x: x + 1; jump: loop ? x < 10; return: x;"

/-- A lookup table with the single variable `x`, stored at address `5000`. -/
def loop_vars : List te_variable := [⟨cstr "x", 5000, TE_VARIABLE, 0⟩]

/-- Host storage with the one cell of `x`. -/
def loop_mem : Mem := [(5000, .num 0)]

/-- Host storage in which the code address of the built-in `add` is treated as one
more writable scalar cell. -/
def loop_mem_lenient : Mem := [(5000, .num 0), (impl.add, .num 1)]

/-- The image of the four expressions `0`, `x + 1`, `x < 10`, `x` of `loop_text`. -/
def loop_image : List Word :=
  [.int 1, .flt (.num 0), .int 0,
   .int 42, .int 1, .int 40, .int 64, .int 0, .int 0, .int 0, .int 0, .int 1, .flt (.num 1), .int 0,
   .int 42, .int 2, .int 40, .int 64, .int 0, .int 0, .int 0, .int 0, .int 1, .flt (.num 10), .int 0,
   .int 0, .int 0, .int 0]

/-- The statements `compile_program` emits for `loop_text`. -/
def loop_statements : List statement :=
  [⟨.assign, 0, 0⟩, ⟨.assign, 1, 24⟩, ⟨.jump_if, 1, 112⟩, ⟨.return_value, 200, -1⟩]

/-- The address table `compile_program` builds for `loop_text`: `x`, `add`, `lower`. -/
def loop_table : List Nat := [5000, impl.add, impl.lower]

/-- The program `compile_program` returns for `loop_text`. -/
def loop_compiled : compiled_program :=
  { program_statements := loop_statements
    binding_table := [cstr "x", cstr "add", cstr "lower"]
    address_table := loop_table
    program_expression_buffer := loop_image
    program_expression_buffer_size := 224 }

/-- An image of the three constants `10`, `20`, `30`, at byte offsets `0`, `24`, `48`. -/
def three_constants : List Word :=
  [.int 1, .flt (.num 10), .int 0, .int 1, .flt (.num 20), .int 0, .int 1, .flt (.num 30), .int 0]

/-- A statement array: jump to index 2, then three returns of the constants above. -/
def jump_statements : List statement :=
  [⟨.jump, 2, -1⟩, ⟨.return_value, 0, -1⟩, ⟨.return_value, 24, -1⟩, ⟨.return_value, 48, -1⟩]

/-- A program that assigns the same variable twice. -/
def twice_text : List Nat := cstr "x: 1; x: 2;"

/-- The program `compile_program` returns for `twice_text`. -/
def twice_compiled : compiled_program :=
  { program_statements := [⟨.assign, 0, 0⟩, ⟨.assign, 1, 24⟩]
    binding_table := [cstr "x"]
    address_table := [5000]
    program_expression_buffer := [.int 1, .flt (.num 1), .int 0, .int 1, .flt (.num 2), .int 0]
    program_expression_buffer_size := 48 }

/-- A program whose only expression does not compile. -/
def broken_text : List Nat := cstr "return: 1+;"

/-- The program `compile_program` returns for `broken_text`. -/
def broken_compiled : compiled_program :=
  { program_statements := [⟨.return_value, 0, -1⟩]
    binding_table := []
    address_table := []
    program_expression_buffer := []
    program_expression_buffer_size := 0 }

/-! ## Measures used to bound the parser's recursion -/

/-- The potential of a lexer state: twice the number of bytes left, plus one when the
current token is one the parser may step over before it recurses (any token but
`TOK_END`, `TOK_NUMBER` and `TOK_ERROR`). -/
def state.potential (s : state) : Nat :=
  2 * s.next.length +
    (if s.type = TOK_END ∨ s.type = TOK_NUMBER ∨ s.type = TOK_ERROR then 0 else 1)

/-- What one call of the lexer does to the state `s`: it yields a token, does not
lengthen the rest of the input, shortens it unless the token is `TOK_END` or
`TOK_NUMBER`, and keeps the lookup table. -/
def lexed_from (s s1 : state) : Prop :=
  s1.type ≠ TOK_NULL ∧ s1.next.length ≤ s.next.length ∧
  (s1.type ≠ TOK_END → s1.type ≠ TOK_NUMBER → s1.next.length < s.next.length) ∧
  s1.lookup = s.lookup

/-- A parser call returned, without raising the potential of the lexer state. -/
def parser_ok (s : state) (r : Option (expr_native × state)) : Prop :=
  ∃ e s1, r = some (e, s1) ∧ s1.potential ≤ s.potential

/-! ## Token runs and the nodes the spec describes -/

/-- The lexer reads operator tokens with the functions `fs`, one after the other,
starting with the current token of `s`, and is then in state `s1`. -/
def reads_ops (c : Libc) : List Nat → state → state → Prop
  | [], s, s1 => s1 = s
  | f :: fs, s, s1 => s.type = TOK_INFIX ∧ s.function = f ∧ reads_ops c fs (next_token c s) s1

/-- Spec (4.3, unary handling): the node over the operand `b` for a prefix with
`minus` signs `-` and `bangs` signs `!`. -/
def prefix_node (minus bangs : Nat) (b : expr_native) : expr_native :=
  if minus % 2 = 0 then
    if bangs = 0 then b
    else if bangs % 2 = 1 then .node (TE_FUNCTION1 ||| TE_FLAG_PURE) (.ptr impl.logical_not) [b] 0
    else .node (TE_FUNCTION1 ||| TE_FLAG_PURE) (.ptr impl.logical_notnot) [b] 0
  else
    if bangs = 0 then .node (TE_FUNCTION1 ||| TE_FLAG_PURE) (.ptr impl.negate) [b] 0
    else if bangs % 2 = 1 then
      .node (TE_FUNCTION1 ||| TE_FLAG_PURE) (.ptr impl.negate_logical_not) [b] 0
    else .node (TE_FUNCTION1 ||| TE_FLAG_PURE) (.ptr impl.negate_logical_notnot) [b] 0

/-- The value of `logical` after `n` more `!`. -/
def logical_after : Nat → Int → Int
  | 0, l => l
  | n + 1, l => logical_after n (if l = 0 then -1 else -l)

/-- The state after the first token of `-!!2` with no lookup table. -/
def prefix_example : state := next_token exact_libc (init_state (cstr "-!!2") [])

/-! ## Precedence levels -/

/-- The parser of a precedence level: 0 `list`, 1 `expr`, 2 `test_expr`, 3 `sum_expr`,
4 `term`, 5 `factor`, and `power` above. -/
def level_parse (c : Libc) : Nat → Nat → state → Option (expr_native × state)
  | 0 => list c
  | 1 => expr c
  | 2 => test_expr c
  | 3 => sum_expr c
  | 4 => term c
  | 5 => factor c
  | _ => power c

/-- The `while` loop of the parser of a precedence level. -/
def level_loop (c : Libc) : Nat → Nat → expr_native → state → Option (expr_native × state)
  | 0 => list_loop c
  | 1 => expr_loop c
  | 2 => test_expr_loop c
  | 3 => sum_expr_loop c
  | 4 => term_loop c
  | _ => factor_loop c

/-- The binary operator tokens of a precedence level, lowest first: `,`; `&&` `||`;
`>` `>=` `<` `<=` `==` `!=`; `+` `-`; `*` `/` `%`; `^`. -/
def is_level_op (l : Nat) (s : state) : Bool :=
  match l with
  | 0 => s.type == TOK_SEP
  | 1 => s.is_op ["logical_and", "logical_or"]
  | 2 => s.is_op ["greater", "greater_eq", "lower", "lower_eq", "equal", "not_equal"]
  | 3 => s.is_op ["add", "sub"]
  | 4 => s.is_op ["mul", "divide", "fmod"]
  | 5 => s.is_op ["pow"]
  | _ => false

/-- The function of the node built for the operator token `s` of level `l`. -/
def level_function (l : Nat) (s : state) : Nat :=
  if l = 0 then impl.comma else s.function

/-- The token is an operand that is one token: a number or a bound variable. -/
def is_operand (s : state) : Prop := s.type = TOK_NUMBER ∨ s.type = TOK_VARIABLE

/-- The leaf `base` builds for an operand token. -/
def operand_node (s : state) : expr_native :=
  if s.type = TOK_NUMBER then .node TE_CONSTANT (.value s.value) [] 0
  else .node TE_VARIABLE (.ptr s.function) [] 0

/-- The node of a binary operator: `TE_FUNCTION2 | TE_FLAG_PURE` with function `f`. -/
def binary (f : Nat) (a b : expr_native) : expr_native :=
  .node (TE_FUNCTION2 ||| TE_FLAG_PURE) (.ptr f) [a, b] 0

/-- A fuel-indexed computation gives `r` for every fuel from `n` on. -/
def yields {α : Type} (p : Nat → Option α) (n : Nat) (r : α) : Prop :=
  ∀ fuel, n ≤ fuel → p fuel = some r

instance (s : state) : Decidable (is_operand s) := by unfold is_operand; infer_instance

/-- The tree of `a op1 b op2 c` by the levels of the two operators. -/
def two_operator_tree (l1 l2 : Nat) (f1 f2 : Nat) (a b c : expr_native) : expr_native :=
  if l1 < l2 then binary f1 a (binary f2 b c) else binary f2 (binary f1 a b) c

/-- The state of the lexer after `k` further tokens. -/
def lex_run (c : Libc) : Nat → state → state
  | 0, s => s
  | k + 1, s => next_token c (lex_run c k s)

/-- The state of `compile_native` at token `k` of the text, counted from 0: the
state after `k + 1` calls of `next_token`. -/
def token (c : Libc) (text : List Nat) (vars : List te_variable) (k : Nat) : state :=
  lex_run c k (next_token c (init_state text vars))

/-! ## Predicates for the lexer and the call syntax -/

/-- The state `s1` is reached from `s` by stepping over tokens other than `TOK_END` and
`TOK_ERROR`, and then possibly marking the token as an error. -/
def lex_reach (c : Libc) (s s1 : state) : Prop :=
  ∃ k, (s1 = lex_run c k s ∨ s1 = { lex_run c k s with type := TOK_ERROR }) ∧
    ∀ i, i < k → (lex_run c i s).type ≠ TOK_END ∧ (lex_run c i s).type ≠ TOK_ERROR

/-- The C string `name` is exactly the bytes `w`: same bytes, same length. -/
def is_name (name w : List Nat) : Prop := name.take w.length = w ∧ name.getD w.length 0 = 0

instance (name w : List Nat) : Decidable (is_name name w) := by unfold is_name; infer_instance

/-- The bytes `w` are an identifier of the lexer: a lower-case letter, then letters,
digits and underscores. -/
def is_identifier (w : List Nat) : Prop :=
  ('a'.toNat ≤ w.headD 0 ∧ w.headD 0 ≤ 'z'.toNat) ∧ ∀ b ∈ w, is_ident_char b = true

/-- The bytes the lexer skips between tokens: space, tab, line feed, carriage return. -/
def is_blank (b : Nat) : Prop := b = ' '.toNat ∨ b = 9 ∨ b = 10 ∨ b = 13

/-- The cursor of `s1` stands `n` bytes after the cursor of `s`, for some `n`. -/
def advanced_from (s s1 : state) : Prop :=
  ∃ n, s1.next = s.next.drop n ∧ s1.pos = s.pos + n

instance (b : Nat) : Decidable (is_blank b) := by unfold is_blank; infer_instance

instance (w : List Nat) : Decidable (is_identifier w) := by unfold is_identifier; infer_instance

/-- The lookup table of `test_variables`: the variables `x`, `y` and `te_st`. -/
def test_lookup : List te_variable :=
  [⟨cstr "x", 501, TE_VARIABLE, 0⟩, ⟨cstr "y", 502, TE_VARIABLE, 0⟩,
   ⟨cstr "te_st", 503, TE_VARIABLE, 0⟩]

/-- The token starts a call: its type tag is one of `TE_FUNCTION0..7`, `TE_CLOSURE0..7`. -/
def is_call (s : state) : Prop :=
  (type_mask s.type ≥ TE_FUNCTION0 ∧ type_mask s.type < TE_FUNCTION_MAX) ∨
    (type_mask s.type ≥ TE_CLOSURE0 ∧ type_mask s.type < TE_CLOSURE_MAX)

instance (s : state) : Decidable (is_call s) := by unfold is_call; infer_instance

/-- The arguments `as` parse one after the other with `expr`, the first from the token
after `d` on, each but the last followed by a comma; `dl` is the token the last one
stops at (`d` itself when there is no argument). -/
def reads_args (c : Libc) : state → List expr_native → state → Prop
  | d, [], dl => dl = d
  | d, a :: as, dl =>
    ∃ d1 n, yields (fun fuel => expr c fuel (next_token c d)) n (a, d1) ∧
      (as ≠ [] → d1.type = TOK_SEP) ∧ reads_args c d1 as dl

/-- The assignments `ret->parameters[i] = a` for the arguments `as`, from `i` on. -/
def set_parameters (ret : expr_native) : Nat → List expr_native → expr_native
  | _, [] => ret
  | i, a :: as => set_parameters (ret.set_parameter i a) (i + 1) as

/-- The tree `list` builds for `a, a1, ..., ak`: commas nested to the left. -/
def comma_tree (a : expr_native) (as : List expr_native) : expr_native :=
  as.foldl (binary impl.comma) a

/-- The leaf `base` builds on a token that starts no operand. -/
def error_node : expr_native := .node 0 (.value .nan) [] 0

/-- The lookup table of `test_dynamic`: the variables `x` and `f` and the functions
`sum0` to `sum7` of the arities 0 to 7. -/
def dynamic_lookup : List te_variable :=
  [⟨cstr "x", 501, TE_VARIABLE, 0⟩, ⟨cstr "f", 504, TE_VARIABLE, 0⟩,
   ⟨cstr "sum0", 610, TE_FUNCTION0, 0⟩, ⟨cstr "sum1", 611, TE_FUNCTION1, 0⟩,
   ⟨cstr "sum2", 612, TE_FUNCTION2, 0⟩, ⟨cstr "sum3", 613, TE_FUNCTION3, 0⟩,
   ⟨cstr "sum4", 614, TE_FUNCTION4, 0⟩, ⟨cstr "sum5", 615, TE_FUNCTION5, 0⟩,
   ⟨cstr "sum6", 616, TE_FUNCTION6, 0⟩, ⟨cstr "sum7", 617, TE_FUNCTION7, 0⟩]

/-! ## Subtrees that `optimize` folds -/

/-- All leaves of the tree are Constant nodes and all its other nodes carry the Pure
flag (a Pure node without children counts). -/
def const_pure : expr_native → Bool
  | .null => false
  | .node type _ ps _ => type == TE_CONSTANT || (is_pure type && all_const_pure ps)
where
  /-- The same of every tree of a list. -/
  all_const_pure : List expr_native → Bool
    | [] => true
    | p :: ps => const_pure p && all_const_pure ps

/-- The subtrees of a tree that stand below Pure nodes only: the tree itself and, when
its root carries the Pure flag, those of its children. -/
def under_pure : expr_native → List expr_native
  | .null => []
  | .node type payload ps ctx =>
    .node type payload ps ctx :: (if is_pure type then all_under_pure ps else [])
where
  /-- The same of every tree of a list, one after the other. -/
  all_under_pure : List expr_native → List expr_native
    | [] => []
    | p :: ps => under_pure p ++ all_under_pure ps

/-- The tree of `sum1(1+2)` over the lookup table of `test_dynamic`: the call of the
user function `sum1`, not flagged Pure, on the sum of two constants. -/
def sum1_of_sum : expr_native :=
  .node TE_FUNCTION1 (.ptr 611)
    [binary impl.add (.node TE_CONSTANT (.value (.num 1)) [] 0)
      (.node TE_CONSTANT (.value (.num 2)) [] 0)] 0

/-- The tree of `x+(1+2)` over the lookup table `{x}`. -/
def x_plus_sum : expr_native :=
  binary impl.add (.node TE_VARIABLE (.ptr 5000) [] 0)
    (binary impl.add (.node TE_CONSTANT (.value (.num 1)) [] 0)
      (.node TE_CONSTANT (.value (.num 2)) [] 0))

/-! ## The evaluator of `tinyexpr.h` and the evaluation the spec describes -/

/-- The mask `te_type_mask` of `tinyexpr.h`: `t & 0x1F`. -/
def te_type_mask (t : Nat) : Nat := t &&& 31

/-- The function `te_arity` of `tinyexpr.h`. -/
def te_arity (t : Nat) : Nat := if t &&& (TE_FUNCTION0 ||| TE_CLOSURE0) ≠ 0 then t &&& 7 else 0

/-- The evaluator `details::te_eval_portable_impl` of `tinyexpr.h` on the node at byte
offset `off` of the image that starts at byte `base` of `buf` (`double` scalars are
modelled by `Scalar` as well). -/
def te_eval_portable_impl (h : Host) (mem : Mem) (buf : List Word) (base : Nat)
    (ctx : Option (List Nat)) : Nat → Nat → Outcome Scalar
  | 0, _ => .timeout
  | fuel + 1, off =>
    match read_int buf (base + off) with
    | none => .fault
    | some type =>
      let t := te_type_mask type
      if t = TE_CONSTANT then
        match read_flt buf (base + off + 8) with
        | some v => .ok v
        | none => .fault
      else if t = TE_VARIABLE then
        match ctx with
        | none => .ok .nan
        | some table =>
          match (read_int buf (base + off + 8)).bind table.get? with
          | none => .fault
          | some addr =>
            match mem.read addr with
            | some v => .ok v
            | none => .fault
      else if TE_FUNCTION0 ≤ t ∧ t ≤ TE_FUNCTION7 then
        if te_arity type ≤ 7 then
          match ctx.bind (fun table => (read_int buf (base + off + 8)).bind table.get?) with
          | none => .fault
          | some fn =>
            match M fuel (base + off + 16) (te_arity type) with
            | .ok args =>
              match call_address h fn 0 mem args with
              | some v => .ok v
              | none => .fault
            | .fault => .fault
            | .timeout => .timeout
        else .ok .nan
      else if TE_CLOSURE0 ≤ t ∧ t ≤ TE_CLOSURE7 then
        match ctx.bind (fun table =>
            (read_int buf (base + off + 16 + 8 * te_arity type)).bind table.get?) with
        | none => .fault
        | some arity_params =>
          if te_arity type ≤ 7 then
            match ctx.bind (fun table => (read_int buf (base + off + 8)).bind table.get?) with
            | none => .fault
            | some fn =>
              match M fuel (base + off + 16) (te_arity type) with
              | .ok args =>
                match call_address h fn arity_params mem args with
                | some v => .ok v
                | none => .fault
              | .fault => .fault
              | .timeout => .timeout
          else .ok .nan
      else .ok .nan
where
  /-- The values `M(0)`, ..., `M(a - 1)` of the nodes whose offsets are stored in the `a`
  slots from byte `slot` on. -/
  M (fuel : Nat) (slot : Nat) : Nat → Outcome (List Scalar)
    | 0 => .ok []
    | a + 1 =>
      match read_int buf slot with
      | none => .fault
      | some off =>
        match te_eval_portable_impl h mem buf base ctx fuel off with
        | .ok v =>
          match M fuel (slot + 8) a with
          | .ok vs => .ok (v :: vs)
          | .fault => .fault
          | .timeout => .timeout
        | .fault => .fault
        | .timeout => .timeout

/-- The function `te_eval(expr_buffer, expr_context)` of `tinyexpr.h`. -/
def te_eval (h : Host) (mem : Mem) (buf : List Word) (base : Nat) (ctx : Option (List Nat)) :
    Outcome Scalar :=
  te_eval_portable_impl h mem buf base ctx (buf.length + 1) 0

/-- Modelled from the spec: the values of the nodes whose offsets are stored in
`parameters[0..k-1]`, the `k` slots from byte `slot` on, left to right; `value_at`
gives the value of the node at an offset. -/
def spec_parameter_values (buf : List Word) (value_at : Nat → Outcome Scalar) :
    Nat → Nat → Outcome (List Scalar)
  | _, 0 => .ok []
  | slot, k + 1 =>
    match read_int buf slot with
    | none => .fault
    | some off =>
      match value_at off with
      | .ok v =>
        match spec_parameter_values buf value_at (slot + 8) k with
        | .ok vs => .ok (v :: vs)
        | .fault => .fault
        | .timeout => .timeout
      | .fault => .fault
      | .timeout => .timeout

/-- Modelled from the spec: the call of the code at `fn` with the context `context` on
the values `args` (a fault of the arguments or of the call is a fault). -/
def spec_call (h : Host) (mem : Mem) (fn context : Nat) (args : Outcome (List Scalar)) :
    Outcome Scalar :=
  match args with
  | .ok vs =>
    match call_address h fn context mem vs with
    | some v => .ok v
    | none => .fault
  | .fault => .fault
  | .timeout => .timeout

/-- Modelled from the spec: the value of the node at byte offset `off` whose type has
the low five bits `tag`. Tag 1: the stored constant. Tag 0: NaN when the address table
is null, else the scalar stored at `address_table[bound]`. Tags 8..15: the function at
`address_table[function]` on the values of `parameters[0..k-1]`, `k = tag - 8`.
Tags 16..23: the same with the context `address_table[parameters[k]]`, `k = tag - 16`.
Every other tag: NaN. -/
def spec_tag_value (h : Host) (mem : Mem) (buf : List Word) (base : Nat)
    (address_table : Option (List Nat)) (value_at : Nat → Outcome Scalar) (off : Nat)
    (tag : Nat) : Outcome Scalar :=
  if tag = 1 then
    match read_flt buf (base + off + 8) with
    | some v => .ok v
    | none => .fault
  else if tag = 0 then
    match address_table with
    | none => .ok .nan
    | some table =>
      match ((read_int buf (base + off + 8)).bind table.get?).bind mem.read with
      | some v => .ok v
      | none => .fault
  else if 8 ≤ tag ∧ tag ≤ 15 then
    match address_table.bind (fun table => (read_int buf (base + off + 8)).bind table.get?) with
    | none => .fault
    | some fn =>
      spec_call h mem fn 0 (spec_parameter_values buf value_at (base + off + 16) (tag - 8))
  else if 16 ≤ tag ∧ tag ≤ 23 then
    match address_table.bind (fun table => (read_int buf (base + off + 8)).bind table.get?),
      address_table.bind (fun table =>
        (read_int buf (base + off + 16 + 8 * (tag - 16))).bind table.get?) with
    | some fn, some context =>
      spec_call h mem fn context
        (spec_parameter_values buf value_at (base + off + 16) (tag - 16))
    | _, _ => .fault
  else .ok .nan

/-- Modelled from the spec: the value of the node at byte offset `off`, by the low five
bits of the type stored there. -/
def spec_node_value (h : Host) (mem : Mem) (buf : List Word) (base : Nat)
    (address_table : Option (List Nat)) (value_at : Nat → Outcome Scalar) (off : Nat) :
    Outcome Scalar :=
  match read_int buf (base + off) with
  | none => .fault
  | some type => spec_tag_value h mem buf base address_table value_at off (type % 32)

/-- Modelled from the spec: the evaluation of the image from the node at `off` on, the
nesting of the nodes bounded by fuel. -/
def spec_eval (h : Host) (mem : Mem) (buf : List Word) (base : Nat)
    (address_table : Option (List Nat)) : Nat → Nat → Outcome Scalar
  | 0, _ => .timeout
  | fuel + 1, off =>
    spec_node_value h mem buf base address_table
      (fun o => spec_eval h mem buf base address_table fuel o) off

/-! ## Statement texts as bytes -/

/-- The view lies inside its underlying string. -/
def string_view.valid (v : string_view) : Prop := v.length ≤ v.data.length

instance (v : string_view) : Decidable v.valid := by unfold string_view.valid; infer_instance

/-- The bytes of a text without the whitespace at its end. -/
def trim_end (l : List Nat) : List Nat := (l.reverse.dropWhile isspace).reverse

/-- Modelled from the spec: the bytes of a text without the whitespace at its two ends. -/
def trim_bytes (l : List Nat) : List Nat := (trim_end l).dropWhile isspace

/-- Modelled from the spec: the split of a text at its first byte `ch`, into the bytes
before it and the bytes after it (`none`: there is no byte `ch`). -/
def split_first (l : List Nat) (ch : Nat) : Option (List Nat × List Nat) :=
  if ch ∈ l then some (l.takeWhile (fun b => b != ch), (l.dropWhile (fun b => b != ch)).drop 1)
  else none

/-- What `parse_statement` emits, with the texts as bytes. -/
inductive statement_form
  | label (name : List Nat)
  | jump (name : List Nat)
  | jump_if (name condition : List Nat)
  | return_value (expression : List Nat)
  | assign (destination expression : List Nat)
  | call (expression : List Nat)
deriving DecidableEq

/-- The callback `parse_statement` invokes, with the bytes of its arguments. -/
def parsed_statement.form : parsed_statement → statement_form
  | .add_label label => .label label.bytes
  | .add_jump destination_label => .jump destination_label.bytes
  | .add_jump_if destination_label condition => .jump_if destination_label.bytes condition.bytes
  | .add_return_value expression => .return_value expression.bytes
  | .add_assign destination expression => .assign destination.bytes expression.bytes
  | .add_call expression => .call expression.bytes

/-- Modelled from the spec: the statement for a statement text `s`. Without `:` it is a
call of `s`. Else `s` is split at its first `:` into the trimmed head and tail; an
empty tail gives a call of the head; the head `label` a label definition; the head
`jump` a jump to the tail, or for a tail `NAME ? COND` with a condition that is not
empty the conditional jump; the head `return` the return of the tail; every other head
the assignment of the tail to the head. -/
def spec_parse_statement (s : List Nat) : statement_form :=
  match split_first s ':'.toNat with
  | none => .call s
  | some (head, tail) =>
    if trim_bytes tail = [] then .call (trim_bytes head)
    else if trim_bytes head = cstr "label" then .label (trim_bytes tail)
    else if trim_bytes head = cstr "jump" then
      match split_first (trim_bytes tail) '?'.toNat with
      | none => .jump (trim_bytes tail)
      | some (name, condition) =>
        if trim_bytes condition = [] then .jump (trim_bytes name)
        else .jump_if (trim_bytes name) (trim_bytes condition)
    else if trim_bytes head = cstr "return" then .return_value (trim_bytes tail)
    else .assign (trim_bytes head) (trim_bytes tail)

/-- The view of a whole text. -/
def view (text : String) : string_view := ⟨cstr text, (cstr text).length⟩

/-! ## The host and the lookup tables of `test_closure` -/

namespace test_fn
/-! Code addresses of the callables of `test_closure` (distinct from the built-ins). -/
def clo0 : Nat := 2000
def clo1 : Nat := 2001
def clo2 : Nat := 2002
def cell : Nat := 2003
end test_fn

/-- The C cast `(int)a` of a scalar (`none`: NaN or an infinity, for which the cast is
undefined). -/
def Scalar.to_int : Scalar → Option Int
  | .num q => some (if q < 0 then -((-q).floor) else q.floor)
  | _ => none

/-- The callables `clo0`, `clo1`, `clo2` and `cell` of `test_closure`, with `float`
cells four bytes apart. -/
def test_call (fn ctx : Nat) (mem : Mem) (args : List Scalar) : Option Scalar :=
  if fn = test_fn.clo0 then
    match args with
    | [] => if ctx ≠ 0 then (mem.read ctx).map (fun v => v.add (.num 6)) else some (.num 6)
    | _ => none
  else if fn = test_fn.clo1 then
    match args with
    | [a] =>
      if ctx ≠ 0 then (mem.read ctx).map (fun v => v.add (a.mul (.num 2)))
      else some (a.mul (.num 2))
    | _ => none
  else if fn = test_fn.clo2 then
    match args with
    | [a, b] => if ctx ≠ 0 then (mem.read ctx).map (fun v => (v.add a).add b) else some (a.add b)
    | _ => none
  else if fn = test_fn.cell then
    match args with
    | [a] =>
      match a.to_int with
      | some i => if 0 ≤ i then mem.read (ctx + 4 * i.toNat) else none
      | none => none
    | _ => none
  else none

/-- The host of `test_closure`. -/
def test_host : Host := ⟨exact_libc, test_call⟩

/-- The lookup table of `test_closure`: `c0`, `c1`, `c2` with the context `&extra` (at
6000) and `cell` with the array `c` (at 7000). -/
def closure_lookup : List te_variable :=
  [⟨cstr "c0", test_fn.clo0, TE_CLOSURE0, 6000⟩, ⟨cstr "c1", test_fn.clo1, TE_CLOSURE1, 6000⟩,
   ⟨cstr "c2", test_fn.clo2, TE_CLOSURE2, 6000⟩, ⟨cstr "cell", test_fn.cell, TE_CLOSURE1, 7000⟩]

/-- Host storage: the variable `x = 1` at 5000, `extra = 10` at 6000 and the array
`c = {5, 6, 7, 8, 9}` at 7000. -/
def closure_mem : Mem :=
  [(5000, .num 1), (6000, .num 10),
   (7000, .num 5), (7004, .num 6), (7008, .num 7), (7012, .num 8), (7016, .num 9)]

/-- A lookup table with the variable `x` and the closures `c1`, `c2` and `cell` flagged
Pure. -/
def pure_closure_lookup : List te_variable :=
  [⟨cstr "x", 5000, TE_VARIABLE, 0⟩,
   ⟨cstr "c1", test_fn.clo1, TE_CLOSURE1 ||| TE_FLAG_PURE, 6000⟩,
   ⟨cstr "c2", test_fn.clo2, TE_CLOSURE2 ||| TE_FLAG_PURE, 6000⟩,
   ⟨cstr "cell", test_fn.cell, TE_CLOSURE1 ||| TE_FLAG_PURE, 7000⟩]

/-- A lookup table in which the names `a` and `b` bind the callable `cell` with two
contexts: the array `c` and the array from its third cell on. -/
def shared_lookup : List te_variable :=
  [⟨cstr "a", test_fn.cell, TE_CLOSURE1, 7000⟩, ⟨cstr "b", test_fn.cell, TE_CLOSURE1, 7008⟩]

/-- The function `te::eval` on what `te::compile` returns for a text: compile, then
evaluate the image against its own address table (NaN for the null handle). -/
def compile_and_eval (h : Host) (mem : Mem) (text : List Nat) (vars : List te_variable) :
    Outcome Scalar :=
  match compile h mem text vars with
  | .ok (some e, _) => eval_compiled h mem e
  | .ok (none, _) => .ok .nan
  | .fault => .fault
  | .timeout => .timeout

/-- The function `native::eval_native` on what `compile_native` returns for a text. -/
def compile_and_eval_native (h : Host) (mem : Mem) (text : List Nat) (vars : List te_variable) :
    Option Scalar :=
  match compile_native h mem text vars with
  | .ok (some e, _) => eval_native h mem e
  | _ => none

/-! ## The bytes of a tree in the image -/

/-- The type tag is the one of a call: a function or a closure. -/
def is_call_type (type : Nat) : Prop :=
  (type_mask type ≥ TE_FUNCTION0 ∧ type_mask type < TE_FUNCTION_MAX) ∨
    (type_mask type ≥ TE_CLOSURE0 ∧ type_mask type < TE_CLOSURE_MAX)

instance (type : Nat) : Decidable (is_call_type type) := by unfold is_call_type; infer_instance

/-- The bytes of the records of a tree in the image: 24 for a node, 8 more for each
parameter of a call, and the records of the arguments of a call. -/
def tree_bytes : expr_native → Nat
  | .null => 0
  | .node type _ ps _ =>
    if is_call_type type then
      sizeof_expr_native + sizeof_parameter * (type_mask type % 8) + list_bytes ps
    else sizeof_expr_native
where
  /-- The bytes of the records of the trees of a list. -/
  list_bytes : List expr_native → Nat
    | [] => 0
    | p :: ps => tree_bytes p + list_bytes ps

/-- The reads below `lo` are the same in the two buffers. -/
def same_below (buf buf1 : List Word) (lo : Nat) : Prop :=
  ∀ off, off < lo → read_word buf1 off = read_word buf off

/-- What pass 2 does to the buffer outside the records it writes: the cursor moves by
the bytes of the tree, the length stays, the reads below the cursor stay. -/
def write_frame (lookup : List te_variable) (ix : indexer) (n : expr_native) : Prop :=
  ∀ (size : Nat) (buf : List Word) (r : Nat × List Word),
    export_write lookup ix n (size, buf) = some r →
      r.1 = size + tree_bytes n ∧ r.2.length = buf.length ∧ same_below buf r.2 size

/-- The function `expr_details::get_data_size` of a handle (0 for the null pointer). -/
def get_data_size (n : Option compiled_expr) : Nat :=
  match n with
  | some e => e.build_buffer_size
  | none => 0

/-- The bytes written to an image: eight for each of its slots. -/
def bytes_written (buf : List Word) : Nat := 8 * buf.length

/-- The indexer after compiling `x+1` over the lookup table `{x}` from an empty one:
the built-in `add` has index 0, the variable `x` index 1. -/
def x_plus_one_indexer : indexer :=
  ⟨[(impl.add, cstr "add"), (5000, cstr "x")], [(impl.add, 0), (5000, 1)], 2⟩

/-- The handle of `x+1` over the lookup table `{x}`: the call of `add` at byte 0, the
variable at byte 40, the constant at byte 64, 88 bytes in all. -/
def x_plus_one_compiled : compiled_expr :=
  { index_to_address := [impl.add, 5000]
    index_to_name := [cstr "add", cstr "x"]
    build_buffer :=
      [.int (TE_FUNCTION2 ||| TE_FLAG_PURE), .int 0, .int 40, .int 64, .int 0,
       .int TE_VARIABLE, .int 1, .int 0,
       .int TE_CONSTANT, .flt (.num 1), .int 0]
    build_buffer_size := 88 }

/-! ## The pre-order layout of the image -/

/-- No child pointer of the tree is null, and neither is its root. -/
def no_null : expr_native → Bool
  | .null => false
  | .node _ _ ps _ => all_no_null ps
where
  /-- The same of every tree of a list. -/
  all_no_null : List expr_native → Bool
    | [] => true
    | p :: ps => no_null p && all_no_null ps

/-- The parameters `i`, `i + 1`, ... (`k` of them) of the record at byte `o` of the
image: each holds the byte `cur` at which the records read so far end, lies after `o` and
inside the `size` bytes of the image, and starts a subtree that `sub` reads to its end;
the result is the byte at which the last of them ends (`none`: not so). -/
def children_end (buf : List Word) (size : Nat) (sub : Nat → Option Nat) (o : Nat) :
    Nat → Nat → Nat → Option Nat
  | 0, _, cur => some cur
  | k + 1, i, cur =>
    match read_int buf (o + 16 + 8 * i) with
    | none => none
    | some c =>
      if c = cur ∧ o < c ∧ c < size then
        match sub c with
        | none => none
        | some e => children_end buf size sub o k (i + 1) e
      else none

/-- The byte at which the subtree ends whose root record starts at byte `o` of the
image of `size` bytes, when its records are laid out in pre-order: a record of 24
bytes, 8 more for each parameter of a call, lies inside the image; the first child of a
call starts where the record of the call ends and every other child where the subtree
of the child before it ends (`none`: not laid out so, or out of fuel). -/
def subtree_end (buf : List Word) (size : Nat) : Nat → Nat → Option Nat
  | 0, _ => none
  | fuel + 1, o =>
    match read_int buf o with
    | none => none
    | some type =>
      if is_call_type type then
        if o + 24 + 8 * arity type ≤ size then
          children_end buf size (subtree_end buf size fuel) o (arity type) 0
            (o + 24 + 8 * arity type)
        else none
      else if o + 24 ≤ size then some (o + 24)
      else none

/-- The records pass 2 writes for the tree are laid out in pre-order, in every buffer
that agrees with the one pass 2 returns on the bytes of these records. -/
def laid (lookup : List te_variable) (ix : indexer) (limit : Nat) (n : expr_native) : Prop :=
  ∀ (size : Nat) (buf : List Word) (r : Nat × List Word),
    export_write lookup ix n (size, buf) = some r →
    ∀ buf2 : List Word,
      (∀ off, size ≤ off → off < r.1 → read_word buf2 off = read_word r.2 off) →
      r.1 ≤ limit → ∀ fuel, tree_bytes n ≤ 24 * fuel →
        subtree_end buf2 limit fuel size = some r.1

/-- A parser result whose state is not the error token carries a tree without null
pointers. -/
def sound (q : expr_native × state) : Prop := q.2.type ≠ TOK_ERROR → no_null q.1 = true

/-- A loop of the parser that ends in a state other than the error token started in
one and keeps the tree free of null pointers. -/
def loop_sound (ret : expr_native) (s : state) (q : expr_native × state) : Prop :=
  q.2.type ≠ TOK_ERROR → s.type ≠ TOK_ERROR ∧ (no_null ret = true → no_null q.1 = true)

/-- The argument loop of `base` that ends in a state other than the error token has
stored a tree without null pointers in every parameter up to the last index. -/
def args_sound (c : Libc) (fuel : Nat) : Prop :=
  ∀ (ar i : Nat) (ret : expr_native) (s : state) (q : expr_native × state × Nat),
    base_args c fuel ar i ret s = some q → q.2.1.type ≠ TOK_ERROR →
    ∀ (t : Nat) (p : Payload) (ps : List expr_native) (ctx : Nat),
      ret = .node t p ps ctx → ps.length = ar →
      (∀ k x, k < i → ps[k]? = some x → no_null x = true) →
      ∃ ps1, q.1 = .node t p ps1 ctx ∧ ps1.length = ar ∧
        ∀ k x, k < q.2.2 + 1 → ps1[k]? = some x → no_null x = true

/-- The handle of `(x+1)*x` over the lookup table `{x}`: the call of `mul` at byte 0 with
its children at bytes 40 and 128, the call of `add` at byte 40 with its children at bytes
80 and 104, 152 bytes in all. -/
def nested_compiled : compiled_expr :=
  { index_to_address := [impl.mul, impl.add, 5000]
    index_to_name := [cstr "mul", cstr "add", cstr "x"]
    build_buffer :=
      [.int (TE_FUNCTION2 ||| TE_FLAG_PURE), .int 0, .int 40, .int 128, .int 0,
       .int (TE_FUNCTION2 ||| TE_FLAG_PURE), .int 1, .int 80, .int 104, .int 0,
       .int TE_VARIABLE, .int 2, .int 0,
       .int TE_CONSTANT, .flt (.num 1), .int 0,
       .int TE_VARIABLE, .int 2, .int 0]
    build_buffer_size := 152 }

/-! ## Built-in names and the lookup order -/

/-- The name `a` stands before the name `b` in the byte order of `name_compare`, the
terminating NUL of `a` included. -/
def name_before (a b : List Nat) : Prop := name_compare a b (a.length + 1) < 0

instance (a b : List Nat) : Decidable (name_before a b) := by unfold name_before; infer_instance

/-- The names of the table are strictly sorted in the byte order of `name_compare`. -/
def sorted_names (table : List te_variable) : Prop :=
  table.Pairwise (fun u v => name_before u.name v.name)

instance (table : List te_variable) : Decidable (sorted_names table) := by
  unfold sorted_names; infer_instance

/-- The entry of a table with the name `w`. -/
def entry_named (table : List te_variable) (w : List Nat) : Option te_variable :=
  table.find? (fun v => v.name == w)

/-- The text compiles: `compile` returns a handle and the error 0. -/
def compiles (h : Host) (mem : Mem) (text : List Nat) (vars : List te_variable) : Bool :=
  match compile h mem text vars with
  | .ok (some _, 0) => true
  | _ => false

/-- A lookup table whose entries are named like built-ins: the variable `sin`, the
closure `pi` with the context 6000, and a second variable `sin`. -/
def shadow_lookup : List te_variable :=
  [⟨cstr "sin", 5000, TE_VARIABLE, 0⟩, ⟨cstr "pi", test_fn.clo0, TE_CLOSURE0, 6000⟩,
   ⟨cstr "sin", 5008, TE_VARIABLE, 0⟩, ⟨cstr "e", test_fn.clo1, TE_FUNCTION1, 0⟩]

/-- Where control stands after `n` statements were executed from `statement_index` on:
the index of the statement to execute next, the host storage and the indexes of the
statements executed (`none`: the run ended before, by a return, a fault or the end of
the array). -/
def control (h : Host) (stmts : List statement) (buf : List Word) (ctx : Option (List Nat)) :
    Nat → Int → Mem → List Nat → Option (Int × Mem × List Nat)
  | 0, statement_index, mem, trace => some (statement_index, mem, trace)
  | n + 1, statement_index, mem, trace =>
    if 0 ≤ statement_index ∧ statement_index < stmts.length then
      match stmts.get? statement_index.toNat with
      | none => none
      | some st =>
        match exec_statement h buf ctx st statement_index mem with
        | .next j mem1 => control h stmts buf ctx n (j + 1) mem1 (trace ++ [statement_index.toNat])
        | _ => none
    else none

/-- The array holds a Return statement at the index. -/
def is_return (stmts : List statement) (k : Nat) : Prop :=
  (stmts.get? k).map (fun st => st.type) = some .return_value

instance (stmts : List statement) (k : Nat) : Decidable (is_return stmts k) := by
  unfold is_return; infer_instance

/-- An array with one Call statement, on the first expression of an image. -/
def call_statements : List statement := [⟨.call, 0, -1⟩]

/-! ## Labels and the statements of a program -/

/-- The label manager agrees with `def_of`, the statement index of each label name (the
placeholder for a name without definition so far): the handles are the positions of the
index vector, in the order of insertion, the entry of a handle is the index of its
name, and a name without handle has no definition. -/
structure lm_ok (lm : label_manager) (def_of : List Nat → Int) : Prop where
  handles : lm.m_label_handle_map.map Prod.snd = List.range lm.m_label_statement_indexes.length
  index : ∀ L h, smap_find lm.m_label_handle_map L = some h →
    lm.m_label_statement_indexes[h]? = some (def_of L)
  absent : ∀ L, smap_find lm.m_label_handle_map L = none → def_of L = placeholder_index

/-- The parsed statement adds a statement to the program (a label definition adds none). -/
def parsed_statement.emits : parsed_statement → Bool
  | .add_label _ => false
  | _ => true

/-- The parsed statement is a definition of the label `L`. -/
def parsed_statement.defines (L : List Nat) : parsed_statement → Bool
  | .add_label label => label.bytes == L
  | _ => false

/-- The parsed statement is a jump or a conditional jump that names the label `L`. -/
def parsed_statement.jumps_to (L : List Nat) : parsed_statement → Bool
  | .add_jump destination_label => destination_label.bytes == L
  | .add_jump_if destination_label _ => destination_label.bytes == L
  | _ => false

/-- The number of statements the parsed statements add to the program. -/
def emitted (items : List parsed_statement) : Nat := (items.filter (fun it => it.emits)).length

/-- The number of statements emitted before the first definition of the label `L`
(`none`: no definition). -/
def first_definition (L : List Nat) : List parsed_statement → Option Nat
  | [] => none
  | it :: rest =>
    if it.defines L then some 0
    else (first_definition L rest).map (fun k => k + (if it.emits then 1 else 0))

/-- The statement index of the label `L`: the number of statements emitted before its
first definition, the placeholder when it has none. -/
def label_index (L : List Nat) (items : List parsed_statement) : Int :=
  match first_definition L items with
  | some k => (k : Int)
  | none => placeholder_index

/-- The statement texts that the first loop of `compile` hands to `parse_statement`, in
order (`none`: out of fuel). -/
def statement_texts : Nat → string_view → Option (List string_view)
  | 0, _ => none
  | fuel + 1, program_remaining =>
    if program_remaining.length > 0 then
      let sr := split_at_char_excl program_remaining ';'.toNat
      (statement_texts fuel sr.2).map (fun l => sr.1 :: l)
    else some []

/-- The parsed statements of a program text, in order. -/
def program_items (text : List Nat) : Option (List parsed_statement) :=
  let body := text.takeWhile (fun b => b != 0)
  (statement_texts (body.length + 1) (trim_all_space ⟨body, body.length⟩)).map
    (fun l => l.map parse_statement)

/-- The statement of the program that a parsed statement added: of the same kind, and for
a jump with the handle of the label it names. -/
def handle_of (lm : label_manager) : parsed_statement → any_statement → Prop
  | .add_jump d, .jump_statement hd _ =>
    ∃ h : Nat, smap_find lm.m_label_handle_map d.bytes = some h ∧ hd = (h : Int)
  | .add_jump_if d _, .jump_if_statement hd _ _ _ =>
    ∃ h : Nat, smap_find lm.m_label_handle_map d.bytes = some h ∧ hd = (h : Int)
  | .add_return_value _, .return_value_statement _ _ => True
  | .add_assign _ _, .assign_statement _ _ _ => True
  | .add_call _, .call_statement _ _ => True
  | _, _ => False

/-- The state of the first loop of `compile` after the parsed statements `items`: the
label manager holds the statement index of every label, and the statements are those
the items added, one for one. -/
structure parsed_ok (items : List parsed_statement) (ps : parse_state) : Prop where
  labels : lm_ok ps.lm (fun L => label_index L items)
  count : ps.program_statements.length = emitted items
  stmts : List.Forall₂ (handle_of ps.lm) (items.filter (fun it => it.emits))
    ps.program_statements

/-- The target of a jump or conditional jump statement of the compiled program. -/
def jump_target (st : statement) : Option Int :=
  if st.type = .jump ∨ st.type = .jump_if then some st.arg_a else none

/-- The type of the statement a parsed statement adds to the program. -/
def parsed_statement.kind : parsed_statement → statement_type
  | .add_label _ => .other
  | .add_jump _ => .jump
  | .add_jump_if _ _ => .jump_if
  | .add_return_value _ => .return_value
  | .add_assign _ _ => .assign
  | .add_call _ => .call

/-- A program with a jump to a label that is defined later. -/
def forward_text : List Nat := cstr "jump: e; x: 1; label: e; return: x;"

/-- The parsed statements of `forward_text`; the views reach to the end of the text. -/
def forward_items : List parsed_statement :=
  [.add_jump ⟨cstr "e; x: 1; label: e; return: x;", 1⟩,
   .add_assign ⟨cstr "x: 1; label: e; return: x;", 1⟩ ⟨cstr "1; label: e; return: x;", 1⟩,
   .add_label ⟨cstr "e; return: x;", 1⟩,
   .add_return_value ⟨cstr "x;", 1⟩]

/-- The program `compile_program` returns for `forward_text` over the lookup table `{x}`. -/
def forward_compiled : compiled_program :=
  { program_statements := [⟨.jump, 2, -1⟩, ⟨.assign, 0, 0⟩, ⟨.return_value, 24, -1⟩]
    binding_table := [cstr "x"]
    address_table := [5000]
    program_expression_buffer :=
      [.int TE_CONSTANT, .flt (.num 1), .int 0, .int TE_VARIABLE, .int 0, .int 0]
    program_expression_buffer_size := 48 }

/-- A program with a conditional jump to a label that is defined before it. -/
def backward_text : List Nat := cstr "label: a; x: 1; jump: a ? x; return: x"

/-- The parsed statements of `backward_text`. -/
def backward_items : List parsed_statement :=
  [.add_label ⟨cstr "a; x: 1; jump: a ? x; return: x", 1⟩,
   .add_assign ⟨cstr "x: 1; jump: a ? x; return: x", 1⟩ ⟨cstr "1; jump: a ? x; return: x", 1⟩,
   .add_jump_if ⟨cstr "a ? x; return: x", 1⟩ ⟨cstr "x; return: x", 1⟩,
   .add_return_value ⟨cstr "x", 1⟩]

/-- The program `compile_program` returns for `backward_text` over the lookup table `{x}`. -/
def backward_compiled : compiled_program :=
  { program_statements := [⟨.assign, 0, 0⟩, ⟨.jump_if, 0, 24⟩, ⟨.return_value, 48, -1⟩]
    binding_table := [cstr "x"]
    address_table := [5000]
    program_expression_buffer :=
      [.int TE_CONSTANT, .flt (.num 1), .int 0, .int TE_VARIABLE, .int 0, .int 0,
       .int TE_VARIABLE, .int 0, .int 0]
    program_expression_buffer_size := 72 }

/-- A program whose only statement jumps to a label defined after it, at its end. -/
def end_label_text : List Nat := cstr "jump: e; label: e;"

/-- The parsed statements of `end_label_text`. -/
def end_label_items : List parsed_statement :=
  [.add_jump ⟨cstr "e; label: e;", 1⟩, .add_label ⟨cstr "e;", 1⟩]

/-- The program `compile_program` returns for `end_label_text`. -/
def end_label_compiled : compiled_program :=
  { program_statements := [⟨.jump, 1, -1⟩]
    binding_table := []
    address_table := []
    program_expression_buffer := []
    program_expression_buffer_size := 0 }

/-! ## The expressions of a program and their images -/

/-- The expression text a parsed statement hands to its callback (`none` for a label
definition and for an unconditional jump). -/
def parsed_statement.expression : parsed_statement → Option string_view
  | .add_jump_if _ condition => some condition
  | .add_return_value expression => some expression
  | .add_assign _ expression => some expression
  | .add_call expression => some expression
  | _ => none

/-- The fields `m_expression_index` and `m_expression_offset` of a statement of the
program under construction (`none` for a `jump_statement`, which has neither). -/
def any_statement.expression : any_statement → Option (Int × Int)
  | .jump_statement _ _ => none
  | .jump_if_statement _ e _ o => some (e, o)
  | .return_value_statement e o => some (e, o)
  | .assign_statement _ e o => some (e, o)
  | .call_statement e o => some (e, o)

/-- The field of a `statement` that `eval_program` passes to `eval` as the offset of the
expression: `arg_a` of a Return or Call, `arg_b` of a JumpIf or Assign (`none` for a
Jump, which evaluates nothing). -/
def statement.expression_offset (st : statement) : Option Int :=
  match st.type with
  | .jump_if => some st.arg_b
  | .return_value => some st.arg_a
  | .assign => some st.arg_b
  | .call => some st.arg_a
  | _ => none

/-- The images of the expressions `m_expressions` in the order in which the loop "Compile
all the expressions" compiles them, each with the indexer that the one before it left
(`none`: one of them does not compile). -/
def expression_images (h : Host) (mem : Mem) (vars : List te_variable) :
    List string_view → indexer → Option (List compiled_expr)
  | [], _ => some []
  | e :: es, ix =>
    match compile_using_indexer h mem ix e.data vars with
    | .ok (some compiled, _, ix1) =>
      (expression_images h mem vars es ix1).map (fun l => compiled :: l)
    | _ => none

/-- The sum of the sizes of the first `k` images. -/
def prefix_size (images : List compiled_expr) (k : Nat) : Nat :=
  ((images.take k).map (fun c => c.build_buffer_size)).sum

/-- The invariant of the first loop of `compile` for the expressions: `m_expressions` holds
the expression texts of the parsed statements in order, and the statements with an
expression carry the indexes `0, 1, ...` in order, with the offset still zero. -/
structure exprs_ok (items : List parsed_statement) (ps : parse_state) : Prop where
  exprs : ps.m_expressions = items.filterMap (fun it => it.expression)
  indexes : ps.program_statements.filterMap (fun s => s.expression) =
    (List.range ps.m_expressions.length).map (fun i : Nat => ((i : Int), (0 : Int)))

/-! ## C33: what a run writes -/

/-- The statement at index `k` of the array is an Assign whose destination index names
the cell `addr` of the address table. -/
def assigns_to (stmts : List statement) (ctx : Option (List Nat)) (addr : Nat) (k : Nat) :
    Prop :=
  ∃ st, stmts.get? k = some st ∧ st.type = .assign ∧ 0 ≤ st.arg_a ∧
    ctx.bind (fun table => table.get? st.arg_a.toNat) = some addr

/-- A statement array with a Call, an Assign, a Jump and a Return. -/
def frame_statements : List statement :=
  [⟨.call, 0, -1⟩, ⟨.assign, 1, 24⟩, ⟨.jump, 2, -1⟩, ⟨.return_value, 48, -1⟩]

/-- Host storage with three cells. -/
def frame_mem : Mem := [(5000, .num 1), (5008, .num 2), (5016, .num 3)]

/-! ## C36, C37: constant folding and unary operators -/

/-- A node flagged Pure is a constant or a call whose callable is a function of its
arguments and context alone: the type tag is not a Variable tag and the host gives,
for the address of the node, the same result in every state of host storage. -/
def pure_is_deterministic (h : Host) : expr_native → Prop
  | .null => True
  | .node type payload _ _ =>
    is_pure type = true →
      type_mask type ≠ TE_VARIABLE ∧
      ∀ fn, payload = .ptr fn →
        ∀ (c : Nat) (m1 m2 : Mem) (args : List Scalar), h.call fn c m1 args = h.call fn c m2 args

/-- The built-in of the operator token the lexer gives for a character of a unary prefix. -/
def unary_op (ch : Nat) : Nat :=
  if ch = '+'.toNat then impl.add else if ch = '-'.toNat then impl.sub else impl.logical_not

/-- One character of a unary prefix applied to a value: `+` the identity, `-` the
negation, `!` the test for zero. -/
def prefix_char_value (ch : Nat) (x : Scalar) : Scalar :=
  if ch = '+'.toNat then x
  else if ch = '-'.toNat then x.neg
  else Scalar.ofBool x.isZero

/-- The characters of a unary prefix applied to a value one at a time, from right to left. -/
def prefix_value (p : List Nat) (v : Scalar) : Scalar := p.foldr prefix_char_value v

/-- The string is over the characters `+`, `-` and `!`. -/
def is_unary_signs (p : List Nat) : Prop :=
  ∀ ch ∈ p, ch = '+'.toNat ∨ ch = '-'.toNat ∨ ch = '!'.toNat

instance (p : List Nat) : Decidable (is_unary_signs p) := by
  unfold is_unary_signs; infer_instance

/-- The value of the node `power` builds over an operand of value `v`. -/
def wrap_value (sign logical : Int) (v : Scalar) : Scalar :=
  if sign = 1 then
    if logical = 0 then v
    else if logical = -1 then Scalar.ofBool v.isZero
    else Scalar.ofBool v.nonZero
  else
    if logical = 0 then v.neg
    else if logical = -1 then (Scalar.ofBool v.isZero).neg
    else (Scalar.ofBool v.nonZero).neg

/-! ## C34: the parser of the build with TE_POW_FROM_RIGHT -/

/-- The child pointer `n->parameters[i]` (null for a null node or a missing child). -/
def expr_native.parameter : expr_native → Nat → expr_native
  | .null, _ => .null
  | .node _ _ ps _, i => ps.getD i .null

/-- The node reached from `n` by following `parameters[1]` for `d` steps. -/
def spine_get : expr_native → Nat → expr_native
  | n, 0 => n
  | n, d + 1 => spine_get (n.parameter 1) d

/-- The tree `n` after the node `d` steps down its second parameters was updated in place
by `f`. -/
def spine_update (f : expr_native → expr_native) : expr_native → Nat → expr_native
  | n, 0 => f n
  | .null, _ + 1 => .null
  | .node t p ps c, d + 1 => .node t p (ps.set 1 (spine_update f (ps.getD 1 .null) d)) c

/-- The start of `factor` with `TE_POW_FROM_RIGHT`: when `ret` is a node of type
`TE_FUNCTION1 | TE_FLAG_PURE` with one of the five unary built-ins, `left_function` is
its function and `ret` its operand; else `left_function` stays null. (A node of that
type carries a function pointer.) -/
def peel_unary (ret : expr_native) : Nat × expr_native :=
  match ret with
  | .node type (.ptr f) ps _ =>
    if type = (TE_FUNCTION1 ||| TE_FLAG_PURE) ∧
        (f = find_builtin_address "negate" ∨ f = find_builtin_address "logical_not" ∨
          f = find_builtin_address "logical_notnot" ∨
          f = find_builtin_address "negate_logical_not" ∨
          f = find_builtin_address "negate_logical_notnot") then
      (f, ps.getD 0 .null)
    else (0, ret)
  | _ => (0, ret)

namespace pow_from_right

mutual

/-- The parser `native::base`, calling the parsers of this build. -/
def base (c : Libc) : Nat → state → Option (expr_native × state)
  | 0, _ => none
  | fuel + 1, s =>
    let t := type_mask s.type
    if t = TOK_NUMBER then
      some ((new_expr TE_CONSTANT []).set_value s.value, next_token c s)
    else if t = TOK_VARIABLE then
      some ((new_expr TE_VARIABLE []).set_function s.function, next_token c s)
    else if (t ≥ TE_FUNCTION0 ∧ t < TE_FUNCTION_MAX) ∨ (t ≥ TE_CLOSURE0 ∧ t < TE_CLOSURE_MAX) then
      if arity s.type = 0 then
        let ret := call_node s
        let s1 := next_token c s
        if s1.type = TOK_OPEN then
          let s2 := next_token c s1
          if s2.type ≠ TOK_CLOSE then some (ret, { s2 with type := TOK_ERROR })
          else some (ret, next_token c s2)
        else some (ret, s1)
      else if arity s.type = 1 then
        let ret := call_node s
        match power c fuel (next_token c s) with
        | none => none
        | some (p, s1) => some (ret.set_parameter 0 p, s1)
      else
        let ret := call_node s
        let s1 := next_token c s
        if s1.type ≠ TOK_OPEN then some (ret, { s1 with type := TOK_ERROR })
        else
          match base_args c fuel (arity s.type) 0 ret s1 with
          | none => none
          | some (ret1, s2, i) =>
            if s2.type ≠ TOK_CLOSE ∨ i ≠ arity s.type - 1 then
              some (ret1, { s2 with type := TOK_ERROR })
            else some (ret1, next_token c s2)
    else if t = TOK_OPEN then
      match list c fuel (next_token c s) with
      | none => none
      | some (ret, s1) =>
        if s1.type ≠ TOK_CLOSE then some (ret, { s1 with type := TOK_ERROR })
        else some (ret, next_token c s1)
    else
      some ((new_expr 0 []).set_value .nan, { s with type := TOK_ERROR })

/-- The argument loop of `base`, `for (i = 0; i < arity; i++)`, from `i` on; gives the
node, the state and the final `i`. -/
def base_args (c : Libc) : Nat → Nat → Nat → expr_native → state →
    Option (expr_native × state × Nat)
  | 0, _, _, _, _ => none
  | fuel + 1, ar, i, ret, s =>
    if i < ar then
      match expr c fuel (next_token c s) with
      | none => none
      | some (e, s1) =>
        if s1.type ≠ TOK_SEP then some (ret.set_parameter i e, s1, i)
        else base_args c fuel ar (i + 1) (ret.set_parameter i e) s1
    else some (ret, s, i)

/-- The parser `native::power`. -/
def power (c : Libc) : Nat → state → Option (expr_native × state)
  | 0, _ => none
  | fuel + 1, s =>
    match power_sign c (fuel + 1) s 1 with
    | none => none
    | some (s1, sign) =>
      match power_logical c (fuel + 1) s1 0 with
      | none => none
      | some (s2, logical) =>
        match base c fuel s2 with
        | none => none
        | some (b, s3) => some (power_wrap sign logical b, s3)

/-- The parser `native::factor` of the build with `TE_POW_FROM_RIGHT`. -/
def factor (c : Libc) : Nat → state → Option (expr_native × state)
  | 0, _ => none
  | fuel + 1, s =>
    match power c fuel s with
    | none => none
    | some (ret0, s1) =>
      match factor_loop c fuel (peel_unary ret0).2 none s1 with
      | none => none
      | some (ret, s2) =>
        some (if (peel_unary ret0).1 ≠ 0 then
            (new_expr (TE_FUNCTION1 ||| TE_FLAG_PURE) [ret]).set_function (peel_unary ret0).1
          else ret, s2)

/-- The `while` loop of `factor` with `TE_POW_FROM_RIGHT`; `insertion` is the pointer of
that name: null (`none`), or the node `d` steps down the second parameters from `ret`
(`some d`). -/
def factor_loop (c : Libc) : Nat → expr_native → Option Nat → state →
    Option (expr_native × state)
  | 0, _, _, _ => none
  | fuel + 1, ret, insertion, s =>
    if s.is_op ["pow"] then
      match power c fuel (next_token c s) with
      | none => none
      | some (r, s1) =>
        match insertion with
        | some d =>
          factor_loop c fuel
            (spine_update
              (fun n => n.set_parameter 1 (binary_node s.function ((spine_get ret d).parameter 1) r))
              ret d)
            (some (d + 1)) s1
        | none => factor_loop c fuel (binary_node s.function ret r) (some 0) s1
    else some (ret, s)

/-- The parser `native::term`. -/
def term (c : Libc) : Nat → state → Option (expr_native × state)
  | 0, _ => none
  | fuel + 1, s =>
    match factor c fuel s with
    | none => none
    | some (ret, s1) => term_loop c fuel ret s1

/-- The `while` loop of `term`. -/
def term_loop (c : Libc) : Nat → expr_native → state → Option (expr_native × state)
  | 0, _, _ => none
  | fuel + 1, ret, s =>
    if s.is_op ["mul", "divide", "fmod"] then
      match factor c fuel (next_token c s) with
      | none => none
      | some (r, s1) => term_loop c fuel (binary_node s.function ret r) s1
    else some (ret, s)

/-- The parser `native::sum_expr`. -/
def sum_expr (c : Libc) : Nat → state → Option (expr_native × state)
  | 0, _ => none
  | fuel + 1, s =>
    match term c fuel s with
    | none => none
    | some (ret, s1) => sum_expr_loop c fuel ret s1

/-- The `while` loop of `sum_expr`. -/
def sum_expr_loop (c : Libc) : Nat → expr_native → state → Option (expr_native × state)
  | 0, _, _ => none
  | fuel + 1, ret, s =>
    if s.is_op ["add", "sub"] then
      match term c fuel (next_token c s) with
      | none => none
      | some (r, s1) => sum_expr_loop c fuel (binary_node s.function ret r) s1
    else some (ret, s)

/-- The parser `native::test_expr`. -/
def test_expr (c : Libc) : Nat → state → Option (expr_native × state)
  | 0, _ => none
  | fuel + 1, s =>
    match sum_expr c fuel s with
    | none => none
    | some (ret, s1) => test_expr_loop c fuel ret s1

/-- The `while` loop of `test_expr`. -/
def test_expr_loop (c : Libc) : Nat → expr_native → state → Option (expr_native × state)
  | 0, _, _ => none
  | fuel + 1, ret, s =>
    if s.is_op ["greater", "greater_eq", "lower", "lower_eq", "equal", "not_equal"] then
      match sum_expr c fuel (next_token c s) with
      | none => none
      | some (r, s1) => test_expr_loop c fuel (binary_node s.function ret r) s1
    else some (ret, s)

/-- The parser `native::expr`. -/
def expr (c : Libc) : Nat → state → Option (expr_native × state)
  | 0, _ => none
  | fuel + 1, s =>
    match test_expr c fuel s with
    | none => none
    | some (ret, s1) => expr_loop c fuel ret s1

/-- The `while` loop of `expr`. -/
def expr_loop (c : Libc) : Nat → expr_native → state → Option (expr_native × state)
  | 0, _, _ => none
  | fuel + 1, ret, s =>
    if s.is_op ["logical_and", "logical_or"] then
      match test_expr c fuel (next_token c s) with
      | none => none
      | some (r, s1) => expr_loop c fuel (binary_node s.function ret r) s1
    else some (ret, s)

/-- The parser `native::list`. -/
def list (c : Libc) : Nat → state → Option (expr_native × state)
  | 0, _ => none
  | fuel + 1, s =>
    match expr c fuel s with
    | none => none
    | some (ret, s1) => list_loop c fuel ret s1

/-- The `while` loop of `list`. -/
def list_loop (c : Libc) : Nat → expr_native → state → Option (expr_native × state)
  | 0, _, _ => none
  | fuel + 1, ret, s =>
    if s.type = TOK_SEP then
      match expr c fuel (next_token c s) with
      | none => none
      | some (r, s1) => list_loop c fuel (binary_node (find_builtin_address "comma") ret r) s1
    else some (ret, s)

end

/-- The parse of `compile_native` in the build with `TE_POW_FROM_RIGHT`. -/
def parse (c : Libc) (expression : List Nat) (vars : List te_variable) :
    Option (expr_native × state) :=
  list c (parse_fuel expression) (next_token c (init_state expression vars))

end pow_from_right

/-- The tree of a chain `a ^ x1 ^ ... ^ xk` nested to the right: the operators with their
right operands, in the order of the text. -/
def right_chain (a : expr_native) : List (Nat × expr_native) → expr_native
  | [] => a
  | (t, x) :: rest => binary t a (right_chain x rest)

/-- The last operand of a chain. -/
def chain_last (a : expr_native) : List (Nat × expr_native) → expr_native
  | [] => a
  | (_, x) :: rest => chain_last x rest

/-- From the token `s` on the text goes on with `^` and an operand that `power` parses,
once for each entry of the list, and `se` is the token after the last operand. -/
def reads_chain (c : Libc) : state → List (Nat × expr_native) → state → Prop
  | s, [], se => se = s
  | s, (t, x) :: rest, se =>
    s.is_op ["pow"] = true ∧ s.function = t ∧
      ∃ s1 n, yields (fun fuel => pow_from_right.power c fuel (next_token c s)) n (x, s1) ∧
        reads_chain c s1 rest se

/-- The lookup table of `test_pow`: the variables `a` and `b`. -/
def pow_lookup : List te_variable :=
  [⟨cstr "a", 5000, TE_VARIABLE, 0⟩, ⟨cstr "b", 5008, TE_VARIABLE, 0⟩]

/-! ## C31: a text that goes on after a semicolon -/

/-- The C library's `strtod` stops before a `;` and within the string: what it reads
from a text does not change when a `;` and more text are appended, and it consumes no
more bytes than the text has. -/
def strtod_stops (c : Libc) : Prop :=
  ∀ (r S : List Nat), ';'.toNat ∉ r →
    c.strtod (r ++ ';'.toNat :: S) = c.strtod r ∧ (c.strtod r).2 ≤ r.length

/-- The lexer state `s` with the rest of the input replaced. -/
def retail (s : state) (nx : List Nat) : state := { s with next := nx }

/-- The rest `nx` is the rest of the state `s`, which holds no `;`, followed by a `;` and
the text `S`, unless the token of `s` is the error token. -/
def tail_ok (S : List Nat) (s : state) (nx : List Nat) : Prop :=
  s.type ≠ TOK_ERROR → nx = s.next ++ ';'.toNat :: S ∧ ';'.toNat ∉ s.next

/-- The state `x1` is the state `x` of the text without the tail `; S`, at the same token. -/
def lex_sim (S : List Nat) (x x1 : state) : Prop := x1 = retail x x1.next ∧ tail_ok S x x1.next

/-- The parser function `p` does the same on a state and on the state whose text goes
on after a `;`. -/
def parse_sim (S : List Nat) (p : state → Option (expr_native × state)) : Prop :=
  ∀ (s : state) (nx : List Nat) (q : expr_native × state), tail_ok S s nx → p s = some q →
    ∃ nx1, p (retail s nx) = some (q.1, retail q.2 nx1) ∧ tail_ok S q.2 nx1

/-- The argument loop of `base` on a state and on the state whose text goes on. -/
def args_sim (S : List Nat) (c : Libc) (n : Nat) : Prop :=
  ∀ (ar i : Nat) (ret : expr_native) (s : state) (nx : List Nat)
    (q : expr_native × state × Nat), tail_ok S s nx → s.type ≠ TOK_ERROR →
    base_args c n ar i ret s = some q →
    ∃ nx1, base_args c n ar i ret (retail s nx) = some (q.1, retail q.2.1 nx1, q.2.2) ∧
      tail_ok S q.2.1 nx1

/-! ## C38: well-formed trees -/

/-- The address is that of an entry of a built-in table. -/
def is_builtin_address (a : Nat) : Bool := (functions ++ operators).any (fun v => v.address == a)

/-- The function (and, for a closure, the context) of a call node of type `type` are
those of a binding: for a closure, an entry of the lookup table of this type with this
address and this context; for a function, an entry of a built-in table or of the lookup
table with this address. -/
def bound_call (lookup : List te_variable) (type f ctx : Nat) : Bool :=
  if TE_CLOSURE0 ≤ type_mask type then
    lookup.any (fun v => v.address == f && v.type == type && v.context == ctx)
  else is_builtin_address f || lookup.any (fun v => v.address == f)

/-- The tree is well formed over the lookup table: no pointer is null; every node is a
Constant that holds a scalar, a Variable that holds the address of a variable of the
lookup table (which the placeholder of a failed parse does not) or a call; a call has
`arity(type)` parameters, each well formed, and the function and context of a binding. -/
def well_formed (lookup : List te_variable) : expr_native → Bool
  | .null => false
  | .node type payload ps ctx =>
    if type_mask type = TE_CONSTANT then payload.as_value.isSome
    else if type_mask type = TE_VARIABLE then
      match payload.as_ptr with
      | some a => lookup.any (fun v => v.address == a && type_mask v.type == TE_VARIABLE)
      | none => false
    else if is_call_type type then
      match payload.as_ptr with
      | some f => bound_call lookup type f ctx && ps.length == arity type && all_well_formed ps
      | none => false
    else false
where
  /-- The same of every tree of a list. -/
  all_well_formed : List expr_native → Bool
    | [] => true
    | p :: ps => well_formed lookup p && all_well_formed ps

/-- The token carries what its binding holds: the lexer state has the lookup table, a
variable token the address of a variable of the table, a call token the function and
context of a binding. -/
def token_bound (lookup : List te_variable) (s : state) : Prop :=
  s.lookup = lookup ∧
  (type_mask s.type = TOK_VARIABLE →
    lookup.any (fun v => v.address == s.function && type_mask v.type == TE_VARIABLE) = true) ∧
  (is_call_type s.type → bound_call lookup s.type s.function s.context = true)

/-- What a parser function entered in state `s` gives: a bound token; a well-formed tree
unless the token is the error token; and the state it was entered in when that was the
error token already. -/
def builds (lookup : List te_variable) (s : state) (q : expr_native × state) : Prop :=
  token_bound lookup q.2 ∧ (q.2.type ≠ TOK_ERROR → well_formed lookup q.1 = true) ∧
    (s.type = TOK_ERROR → q.2 = s)

/-- What a loop of the parser entered in state `s` with the tree `ret` gives: a bound
token; a well-formed tree if `ret` was one, unless the token is the error token; and `ret`
and `s` when the token was the error token already. -/
def loop_builds (lookup : List te_variable) (ret : expr_native) (s : state)
    (q : expr_native × state) : Prop :=
  token_bound lookup q.2 ∧
    (q.2.type ≠ TOK_ERROR → well_formed lookup ret = true → well_formed lookup q.1 = true) ∧
    (s.type = TOK_ERROR → q = (ret, s))

/-- What the argument loop of `base` gives: a bound token and, unless that is the error
token, a well-formed tree in every parameter up to the last index. -/
def args_builds (lookup : List te_variable) (c : Libc) (fuel : Nat) : Prop :=
  ∀ (ar i : Nat) (ret : expr_native) (s : state) (q : expr_native × state × Nat),
    token_bound lookup s → base_args c fuel ar i ret s = some q →
    token_bound lookup q.2.1 ∧ (q.2.1.type ≠ TOK_ERROR →
      ∀ (t : Nat) (p : Payload) (ps : List expr_native) (ctx : Nat),
        ret = .node t p ps ctx → ps.length = ar →
        (∀ k x, k < i → ps[k]? = some x → well_formed lookup x = true) →
        ∃ ps1, q.1 = .node t p ps1 ctx ∧ ps1.length = ar ∧
          ∀ k x, k < q.2.2 + 1 → ps1[k]? = some x → well_formed lookup x = true)

/-- The tree of `cell 2 + c2(1, 3)` over the lookup table `closure_lookup`. -/
def closure_sum_tree : expr_native :=
  .node (TE_FUNCTION2 ||| TE_FLAG_PURE) (.ptr impl.add)
    [.node TE_CLOSURE1 (.ptr test_fn.cell) [.node TE_CONSTANT (.value (.num 2)) [] 0] 7000,
     .node TE_CLOSURE2 (.ptr test_fn.clo2)
       [.node TE_CONSTANT (.value (.num 1)) [] 0, .node TE_CONSTANT (.value (.num 3)) [] 0]
       6000] 0

/-! ## C39, C40: the indexer -/

/-- The indexer has handed out its indices in order and without a hole: both maps have
the same keys in the same order, no key twice, and the indices are `0, 1, ...` up to the
counter. -/
def indexer.ordered (ix : indexer) : Prop :=
  ix.name_map.map Prod.fst = ix.index_map.map Prod.fst ∧
  ix.index_map.map Prod.snd = List.range ix.index_counter ∧
  (ix.index_map.map Prod.fst).Nodup

/-- The indexer `ix1` extends `ix`: it keeps every entry of both maps and adds further
ones behind them. -/
def indexer.extends_to (ix ix1 : indexer) : Prop :=
  ix.index_map <+: ix1.index_map ∧ ix.name_map <+: ix1.name_map ∧
  ix.index_counter ≤ ix1.index_counter

/-- The two statements `if (name_map.find(addr) == end) { name_map.emplace(addr, name);
index_map.insert(addr, index_counter++); }` of `handle_addr`. -/
def indexer.enter (ix : indexer) (addr : Nat) (name : List Nat) : indexer :=
  if (map_find ix.name_map addr).isNone then
    { name_map := ix.name_map ++ [(addr, name)],
      index_map := map_insert ix.index_map addr ix.index_counter,
      index_counter := ix.index_counter + 1 }
  else ix

/-- The three assertions of `register_func`, `assert(v != nullptr)`,
`assert(itor != indexer.index_map.end())` and, for a closure binding,
`assert(itor2 != indexer.index_map.end())`, hold for the address and the binding. -/
def register_asserts (ix : indexer) (addr : Option Nat) (v : Option te_variable) : Bool :=
  match v, addr.bind (map_find ix.index_map) with
  | some v, some _ =>
    if v.type ≥ TE_CLOSURE0 ∧ v.type < TE_CLOSURE_MAX then
      (map_find ix.index_map v.context).isSome
    else true
  | _, _ => false

/-- The assertions of `register_func` hold at every node for which pass 2 calls it. -/
def write_asserts (lookup : List te_variable) (ix : indexer) : expr_native → Bool
  | .null => true
  | .node type payload ps _ =>
    if type_mask type = TE_CONSTANT then true
    else if type_mask type = TE_VARIABLE then
      register_asserts ix payload.as_ptr
        (payload.as_ptr.bind (fun a => find_bind_by_addr a lookup))
    else if is_call_type type then
      register_asserts ix payload.as_ptr
        (payload.as_ptr.bind (fun a => find_bind_or_any_by_addr a lookup)) && all_asserts ps
    else true
where
  /-- The same of every tree of a list. -/
  all_asserts : List expr_native → Bool
    | [] => true
    | p :: ps => write_asserts lookup ix p && all_asserts ps

/-- What pass 1 does for a well-formed tree and an ordered indexer: it succeeds, the
indexer stays ordered and is extended, and the assertions of pass 2 hold for every
indexer that extends the result. -/
def estimates (lookup : List te_variable) (n : expr_native) : Prop :=
  well_formed lookup n = true → ∀ (size : Nat) (ix : indexer), ix.ordered →
    ∃ r, export_estimate lookup n (size, ix) = some r ∧ r.2.ordered ∧ ix.extends_to r.2 ∧
      ∀ ix2, r.2.extends_to ix2 → write_asserts lookup ix2 n = true

/-- The operator names the lexer and the parser resolve with `find_builtin_address`. -/
def resolved_operator_names : List String :=
  ["add", "sub", "mul", "divide", "pow", "fmod", "greater", "greater_eq", "lower", "lower_eq",
   "equal", "not_equal", "logical_and", "logical_or", "logical_not", "logical_notnot",
   "negate", "negate_logical_not", "negate_logical_notnot", "comma"]

/-- A lookup table in which the names `a` and `b` bind the same variable. -/
def alias_vars : List te_variable :=
  [⟨cstr "a", 5000, TE_VARIABLE, 0⟩, ⟨cstr "b", 5000, TE_VARIABLE, 0⟩]

/-- A program that assigns both names. -/
def alias_text : List Nat := cstr "a: 1; b: 2;"

/-- The indexer after the loop of `compile_program` that adds the assigned variables of
`alias_text`: one entry, and the counter at 2. -/
def alias_indexer : indexer := ⟨[(5000, cstr "a")], [(5000, 0)], 2⟩

/-- The indexer after pass 1 on `closure_sum_tree` from the empty indexer. -/
def closure_sum_indexer : indexer :=
  ⟨[(impl.add, cstr "add"), (test_fn.cell, cstr "cell"), (7000, cstr "cell_closure"),
    (test_fn.clo2, cstr "c2"), (6000, cstr "c2_closure")],
   [(impl.add, 0), (test_fn.cell, 1), (7000, 2), (test_fn.clo2, 3), (6000, 4)], 5⟩

/-- A program that assigns the same variable three times. -/
def thrice_text : List Nat := cstr "x: 1; x: 2; x: 3;"

/-- The program `compile_program` returns for `thrice_text`. -/
def thrice_compiled : compiled_program :=
  { program_statements := [⟨.assign, 0, 0⟩, ⟨.assign, 1, 24⟩, ⟨.assign, 2, 48⟩]
    binding_table := [cstr "x"]
    address_table := [5000]
    program_expression_buffer :=
      [.int 1, .flt (.num 1), .int 0, .int 1, .flt (.num 2), .int 0,
       .int 1, .flt (.num 3), .int 0]
    program_expression_buffer_size := 72 }

/-- The indexer after `compile_using_indexer` on `(x+1)*x` from the empty indexer. -/
def nested_indexer : indexer :=
  ⟨[(impl.mul, cstr "mul"), (impl.add, cstr "add"), (5000, cstr "x")],
   [(impl.mul, 0), (impl.add, 1), (5000, 2)], 3⟩

/-! # Theorems -/

/-! ## `eval_program`: one round of the loop -/

/-- One round of the loop of `eval_program` at a valid index: the statement is
executed and the loop goes on at one past the index the `switch` leaves. -/
theorem eval_program_loop_succ (h : Host) (stmts : List statement) (buf : List Word)
    (ctx : Option (List Nat)) (fuel : Nat) (i : Int) (mem : Mem) (trace : List Nat)
    (st : statement) (hi : 0 ≤ i) (hst : stmts.get? i.toNat = some st) :
    eval_program_loop h stmts buf ctx (fuel + 1) i mem trace =
      match exec_statement h buf ctx st i mem with
      | .next j mem1 => eval_program_loop h stmts buf ctx fuel (j + 1) mem1 (trace ++ [i.toNat])
      | .returned v => .ok ⟨v, mem, trace ++ [i.toNat]⟩
      | .fault => .fault
      | .timeout => .timeout := by
  have hlt : i.toNat < stmts.length := by
    rcases Nat.lt_or_ge i.toNat stmts.length with hl | hl
    · exact hl
    · rw [List.get?_eq_none.mpr hl] at hst; cases hst
  have h1 : (i < (stmts.length : Int)) := by omega
  have h2 : ¬ (i < 0) := by omega
  simp only [eval_program_loop, h1, h2, if_true, if_false, hst]

/-- The loop of `eval_program` at an index at or past the end returns NaN. -/
theorem eval_program_loop_end (h : Host) (stmts : List statement) (buf : List Word)
    (ctx : Option (List Nat)) (fuel : Nat) (i : Int) (mem : Mem) (trace : List Nat)
    (hi : (stmts.length : Int) ≤ i) :
    eval_program_loop h stmts buf ctx (fuel + 1) i mem trace = .ok ⟨.nan, mem, trace⟩ := by
  have h1 : ¬ (i < (stmts.length : Int)) := by omega
  simp only [eval_program_loop, h1, if_false]

/-! ## C1: the loop program -/

theorem loop_step0 :
    exec_statement plain_host loop_image (some loop_table) ⟨.assign, 0, 0⟩ 0 loop_mem =
      .next 0 loop_mem := by
  decide!

theorem loop_step1 :
    exec_statement plain_host loop_image (some loop_table) ⟨.assign, 1, 24⟩ 1 loop_mem =
      .fault := by
  decide!

theorem loop_lenient_step0 :
    exec_statement plain_host loop_image (some loop_table) ⟨.assign, 0, 0⟩ 0 loop_mem_lenient =
      .next 0 loop_mem_lenient := by
  decide!

theorem loop_lenient_step1 :
    exec_statement plain_host loop_image (some loop_table) ⟨.assign, 1, 24⟩ 1 loop_mem_lenient =
      .next 1 loop_mem_lenient := by
  decide!

theorem loop_lenient_step2 :
    exec_statement plain_host loop_image (some loop_table) ⟨.jump_if, 1, 112⟩ 2 loop_mem_lenient =
      .next 1 loop_mem_lenient := by
  decide!

/-- With the one cell of `x` as host storage the run stops in the second statement:
its destination index 1 is the entry of `add` in the address table. -/
theorem loop_run_faults (fuel : Nat) :
    eval_program plain_host loop_mem (fuel + 2) loop_statements loop_image (some loop_table) =
      .fault := by
  show eval_program_loop plain_host loop_statements loop_image (some loop_table)
    (fuel + 1 + 1) 0 loop_mem [] = .fault
  rw [eval_program_loop_succ plain_host loop_statements loop_image (some loop_table) (fuel + 1) 0
    loop_mem [] ⟨.assign, 0, 0⟩ (by decide) rfl, loop_step0]
  show eval_program_loop plain_host loop_statements loop_image (some loop_table)
    (fuel + 1) 1 loop_mem _ = .fault
  rw [eval_program_loop_succ plain_host loop_statements loop_image (some loop_table) fuel 1
    loop_mem _ ⟨.assign, 1, 24⟩ (by decide) rfl, loop_step1]

/-- Once at the conditional jump (index 2) with `x = 0`, the run stays there: every
round jumps to index 1 and the loop increment moves on to index 2 again. -/
theorem loop_lenient_spins (fuel : Nat) (trace : List Nat) :
    eval_program_loop plain_host loop_statements loop_image (some loop_table) fuel 2
      loop_mem_lenient trace = .timeout := by
  induction fuel generalizing trace with
  | zero => rfl
  | succ n ih =>
    rw [eval_program_loop_succ plain_host loop_statements loop_image (some loop_table) n 2
      loop_mem_lenient trace ⟨.jump_if, 1, 112⟩ (by decide) rfl, loop_lenient_step2]
    exact ih _

/-- With the code address of `add` treated as a writable cell the run never ends. -/
theorem loop_lenient_run (fuel : Nat) :
    eval_program plain_host loop_mem_lenient fuel loop_statements loop_image (some loop_table) =
      .timeout := by
  match fuel with
  | 0 => rfl
  | 1 =>
    show eval_program_loop plain_host loop_statements loop_image (some loop_table)
      (0 + 1) 0 loop_mem_lenient [] = .timeout
    rw [eval_program_loop_succ plain_host loop_statements loop_image (some loop_table) 0 0
      loop_mem_lenient [] ⟨.assign, 0, 0⟩ (by decide) rfl, loop_lenient_step0]
    rfl
  | n + 2 =>
    show eval_program_loop plain_host loop_statements loop_image (some loop_table)
      (n + 1 + 1) 0 loop_mem_lenient [] = .timeout
    rw [eval_program_loop_succ plain_host loop_statements loop_image (some loop_table) (n + 1) 0
      loop_mem_lenient [] ⟨.assign, 0, 0⟩ (by decide) rfl, loop_lenient_step0]
    show eval_program_loop plain_host loop_statements loop_image (some loop_table)
      (n + 1) 1 loop_mem_lenient _ = .timeout
    rw [eval_program_loop_succ plain_host loop_statements loop_image (some loop_table) n 1
      loop_mem_lenient _ ⟨.assign, 1, 24⟩ (by decide) rfl, loop_lenient_step1]
    exact loop_lenient_spins n _

/-- C1 (code_bug): what the code does on the loop program of scenario 6. It compiles
to `loop_compiled`, whose second assignment has destination index 1, the entry of
`add`, and whose conditional jump has target 1. With the cell of `x` as the only
host storage, no run returns a value (the second statement stores through the
address of `add`); with that address treated as a writable cell, no run returns
either (the jump lands on index 2, the jump itself, and `x` stays 0). The value
10 is never returned. -/
theorem C1_loop_program_never_returns :
    compile_program plain_host loop_mem id loop_text loop_vars 0 = .ok (some loop_compiled, 0) ∧
    (∀ fuel r, eval_program plain_host loop_mem fuel loop_compiled.program_statements
        loop_compiled.program_expression_buffer (some loop_compiled.address_table) ≠ .ok r) ∧
    (∀ fuel r, eval_program plain_host loop_mem_lenient fuel loop_compiled.program_statements
        loop_compiled.program_expression_buffer (some loop_compiled.address_table) ≠ .ok r) := by
  refine ⟨by decide!, ?_, ?_⟩
  · intro fuel r
    show eval_program plain_host loop_mem fuel loop_statements loop_image (some loop_table) ≠ .ok r
    match fuel with
    | 0 => intro hc; cases hc
    | 1 =>
      show eval_program_loop plain_host loop_statements loop_image (some loop_table)
        (0 + 1) 0 loop_mem [] ≠ .ok r
      rw [eval_program_loop_succ plain_host loop_statements loop_image (some loop_table) 0 0
        loop_mem [] ⟨.assign, 0, 0⟩ (by decide) rfl, loop_step0]
      intro hc; cases hc
    | n + 2 => rw [loop_run_faults n]; intro hc; cases hc
  · intro fuel r
    show eval_program plain_host loop_mem_lenient fuel loop_statements loop_image
      (some loop_table) ≠ .ok r
    rw [loop_lenient_run fuel]; intro hc; cases hc

/-! ## C2: where a jump lands -/

/-- The `switch` of `eval_program` leaves `statement_index` at the target of a jump. -/
theorem exec_statement_jump (h : Host) (buf : List Word) (ctx : Option (List Nat))
    (t b i : Int) (mem : Mem) :
    exec_statement h buf ctx ⟨.jump, t, b⟩ i mem = .next t mem := rfl

/-- After `Jump(t)` at a valid index the loop goes on at index `t + 1`. -/
theorem eval_program_loop_jump (h : Host) (stmts : List statement) (buf : List Word)
    (ctx : Option (List Nat)) (fuel : Nat) (i t b : Int) (mem : Mem) (trace : List Nat)
    (hi : 0 ≤ i) (hst : stmts.get? i.toNat = some ⟨.jump, t, b⟩) :
    eval_program_loop h stmts buf ctx (fuel + 1) i mem trace =
      eval_program_loop h stmts buf ctx fuel (t + 1) mem (trace ++ [i.toNat]) := by
  rw [eval_program_loop_succ h stmts buf ctx fuel i mem trace ⟨.jump, t, b⟩ hi hst]
  rfl

/-- C2 (code_bug): on the array `[Jump(2), Return c0, Return c1, Return c2]` the
statement executed after the jump is the one at index 3, not the one at index 2:
the run executes the statements 0 and 3 and returns the constant `30` of the
last statement. -/
theorem C2_jump_lands_one_past_target :
    eval_program plain_host [] 10 jump_statements three_constants none =
      .ok ⟨.num 30, [], [0, 3]⟩ := by
  decide!

/-! ## C3: the destination index of an assignment -/

/-- C3 (code_bug): for the program `x: 1; x: 2;` over the lookup table `{x}` the
compile succeeds (`*error` is 0), the address table has the single entry of `x`,
and the second assignment is emitted with destination index 1, which is not an
index of the address table. -/
theorem C3_assign_destination_not_remapped :
    compile_program plain_host loop_mem id twice_text loop_vars 0 =
      .ok (some twice_compiled, 0) ∧
    twice_compiled.program_statements.get? 1 = some ⟨.assign, 1, 24⟩ ∧
    twice_compiled.address_table = [5000] ∧
    twice_compiled.address_table.get? 1 = none := by
  refine ⟨by decide!, rfl, rfl, rfl⟩

/-! ## C10: the handle after a failed expression -/

/-- C10 (code_bug): for the program `return: 1+;` the embedded expression does not
compile, `*error` is set to `-1`, and the handle returned is not null. -/
theorem C10_failed_expression_returns_handle :
    compile_program plain_host [] id broken_text [] 0 = .ok (some broken_compiled, -1) := by
  decide!

/-! ## The lexer consumes input -/


theorem advance_length (s : state) (n : Nat) : (s.advance n).next.length = s.next.length - n := by
  simp [state.advance]

theorem headD_ne_zero_length {l : List Nat} (h : l.headD 0 ≠ 0) : 0 < l.length := by
  cases l with
  | nil => simp at h
  | cons a t => simp

theorem ident_len_pos {l : List Nat} (h : 'a'.toNat ≤ l.headD 0 ∧ l.headD 0 ≤ 'z'.toNat) :
    0 < (l.takeWhile is_ident_char).length := by
  cases l with
  | nil => simp at h
  | cons a t =>
    simp only [List.headD_cons] at h
    have : is_ident_char a = true := by
      simp only [is_ident_char, Bool.or_eq_true, Bool.and_eq_true, decide_eq_true_eq]
      exact Or.inl (Or.inl h)
    simp [List.takeWhile_cons, this]

theorem lexed_from_op (s : state) (k : Nat) (name : String) (hk : 0 < k)
    (hpos : 0 < s.next.length) : lexed_from s (s.op k name) := by
  have hl : (s.op k name).next.length = s.next.length - k := by simp [state.op, state.advance]
  exact ⟨by simp [state.op, TOK_INFIX, TOK_NULL], by omega, fun _ _ => by omega, rfl⟩

theorem lexed_from_tok (s : state) (k t : Nat) (hk : 0 < k) (ht : t ≠ TOK_NULL)
    (hpos : 0 < s.next.length) : lexed_from s (s.tok k t) := by
  have hl : (s.tok k t).next.length = s.next.length - k := by simp [state.tok, state.advance]
  exact ⟨by simpa [state.tok] using ht, by omega, fun _ _ => by omega, rfl⟩

theorem lexed_from_advance (s s1 : state) (k : Nat) (hk : 0 < k) (hpos : 0 < s.next.length)
    (h : lexed_from (s.advance k) s1) : lexed_from s s1 := by
  have hl := advance_length s k
  obtain ⟨a1, a2, a3, a4⟩ := h
  exact ⟨a1, by omega, fun h1 h2 => by have := a3 h1 h2; omega, by rw [a4]; rfl⟩

theorem lexed_from_ident (s : state) (k t f ctx : Nat) (hk : 0 < k) (hpos : 0 < s.next.length)
    (ht : t ≠ TOK_NULL) :
    lexed_from s { s.advance k with type := t, function := f, context := ctx } := by
  have hl := advance_length s k
  exact ⟨ht, by show (s.advance k).next.length ≤ _; omega,
    fun _ _ => by show (s.advance k).next.length < _; omega, rfl⟩

theorem type_mask_eq_mod (t : Nat) : type_mask t = t % 32 :=
  Nat.and_pow_two_sub_one_eq_mod t 5

theorem lexed_from_ite (s : state) (p : Prop) [Decidable p] (a b : state)
    (ha : p → lexed_from s a) (hb : ¬ p → lexed_from s b) :
    lexed_from s (if p then a else b) := by
  by_cases hp : p
  · rw [if_pos hp]; exact ha hp
  · rw [if_neg hp]; exact hb hp

theorem next_token_loop_spec (c : Libc) (fuel : Nat) (s : state) (hf : s.next.length < fuel) :
    lexed_from s (next_token_loop c fuel s) := by
  induction fuel generalizing s with
  | zero => omega
  | succ n ih =>
    rw [next_token_loop]
    apply lexed_from_ite
    · intro _
      exact ⟨by simp [TOK_END, TOK_NULL], le_refl _, fun h => absurd rfl h, rfl⟩
    intro h0
    have hpos : 0 < s.next.length := headD_ne_zero_length (fun hz => h0 (Or.inl hz))
    apply lexed_from_ite
    · intro _
      have hl := advance_length s (c.strtod s.next).2
      exact ⟨by simp [TOK_NUMBER, TOK_NULL], by show (s.advance _).next.length ≤ _; omega,
        fun _ h => absurd rfl h, rfl⟩
    intro _
    apply lexed_from_ite
    · intro hid
      have hlen := ident_len_pos hid
      have hrec : lexed_from s
          (next_token_loop c n (s.advance (s.next.takeWhile is_ident_char).length)) := by
        apply lexed_from_advance s _ _ hlen hpos
        apply ih
        rw [advance_length]; omega
      dsimp only
      generalize (find_lookup s.lookup s.next (s.next.takeWhile is_ident_char).length).orElse
          (fun _ => find_builtin s.next (s.next.takeWhile is_ident_char).length) = r
      cases r with
      | none => exact lexed_from_ident s _ TOK_ERROR s.function s.context hlen hpos (by decide)
      | some var =>
        dsimp only
        apply lexed_from_ite
        · intro _
          exact lexed_from_ident s _ TOK_VARIABLE var.address s.context hlen hpos (by decide)
        intro _
        apply lexed_from_ite
        · intro hm2
          apply lexed_from_ite
          · intro hm3
            have hmask := type_mask_eq_mod var.type
            simp only [TE_FUNCTION0, TE_FUNCTION_MAX] at hm2 hm3
            exact lexed_from_ident s _ var.type var.address s.context hlen hpos
              (by simp only [TOK_NULL]; intro hc; omega)
          intro _
          apply lexed_from_ite
          · intro hm4
            have hmask := type_mask_eq_mod var.type
            simp only [TE_CLOSURE0, TE_CLOSURE_MAX] at hm4
            exact lexed_from_ident s _ var.type var.address var.context hlen hpos
              (by simp only [TOK_NULL]; intro hc; omega)
          · intro _; exact hrec
        · intro _; exact hrec
    intro _
    have hrec : lexed_from s (next_token_loop c n (s.advance 1)) := by
      apply lexed_from_advance s _ 1 (by decide) hpos
      apply ih
      rw [advance_length]; omega
    repeat' (apply lexed_from_ite <;> intro _)
    all_goals first
      | exact lexed_from_op s _ _ (by decide) hpos
      | exact lexed_from_tok s _ _ (by decide) (by decide) hpos
      | exact hrec


theorem next_token_spec (c : Libc) (s : state) : lexed_from s (next_token c s) :=
  next_token_loop_spec c (s.next.length + 1) s (Nat.lt_succ_self _)

theorem potential_next_token_le (c : Libc) (s : state) :
    (next_token c s).potential ≤ s.potential := by
  obtain ⟨_, h2, h3, _⟩ := next_token_spec c s
  unfold state.potential
  by_cases hn : (next_token c s).type = TOK_END ∨ (next_token c s).type = TOK_NUMBER ∨
      (next_token c s).type = TOK_ERROR
  · rw [if_pos hn]; omega
  · rw [if_neg hn]
    have := h3 (fun hc => hn (Or.inl hc)) (fun hc => hn (Or.inr (Or.inl hc)))
    split <;> omega

theorem potential_next_token_lt (c : Libc) (s : state)
    (hs : ¬ (s.type = TOK_END ∨ s.type = TOK_NUMBER ∨ s.type = TOK_ERROR)) :
    (next_token c s).potential < s.potential := by
  obtain ⟨_, h2, h3, _⟩ := next_token_spec c s
  unfold state.potential
  rw [if_neg hs]
  by_cases hn : (next_token c s).type = TOK_END ∨ (next_token c s).type = TOK_NUMBER ∨
      (next_token c s).type = TOK_ERROR
  · rw [if_pos hn]; omega
  · rw [if_neg hn]
    have := h3 (fun hc => hn (Or.inl hc)) (fun hc => hn (Or.inr (Or.inl hc)))
    omega

theorem potential_error_le (s : state) : ({ s with type := TOK_ERROR } : state).potential ≤ s.potential := by
  unfold state.potential
  simp

/-- An operator token is none of `TOK_END`, `TOK_NUMBER`, `TOK_ERROR`. -/
theorem is_op_live (s : state) (names : List String) (h : s.is_op names = true) :
    ¬ (s.type = TOK_END ∨ s.type = TOK_NUMBER ∨ s.type = TOK_ERROR) := by
  simp only [state.is_op, Bool.and_eq_true, beq_iff_eq] at h
  rw [h.1]; decide

theorem power_sign_total (c : Libc) (fuel : Nat) (s : state) (sign : Int)
    (hf : s.potential < fuel) :
    ∃ s1 sign1, power_sign c fuel s sign = some (s1, sign1) ∧ s1.potential ≤ s.potential := by
  induction fuel generalizing s sign with
  | zero => omega
  | succ n ih =>
    rw [power_sign]
    by_cases hop : s.is_op ["add", "sub"] = true
    · rw [if_pos hop]
      have hlt := potential_next_token_lt c s (is_op_live s _ hop)
      obtain ⟨s1, sign1, h1, h2⟩ := ih (next_token c s)
        (if s.function = find_builtin_address "sub" then -sign else sign) (by omega)
      exact ⟨s1, sign1, h1, by omega⟩
    · rw [if_neg hop]; exact ⟨s, sign, rfl, le_refl _⟩

theorem power_logical_total (c : Libc) (fuel : Nat) (s : state) (logical : Int)
    (hf : s.potential < fuel) :
    ∃ s1 l1, power_logical c fuel s logical = some (s1, l1) ∧ s1.potential ≤ s.potential := by
  induction fuel generalizing s logical with
  | zero => omega
  | succ n ih =>
    rw [power_logical]
    by_cases hop : s.is_op ["add", "sub", "logical_not"] = true
    · rw [if_pos hop]
      have hlt := potential_next_token_lt c s (is_op_live s _ hop)
      obtain ⟨s1, l1, h1, h2⟩ := ih (next_token c s) _ (by omega)
      exact ⟨s1, l1, h1, by omega⟩
    · rw [if_neg hop]; exact ⟨s, logical, rfl, le_refl _⟩

/-! ## The parser returns: fuel that covers the potential is enough -/


theorem sep_live (s : state) (h : s.type = TOK_SEP) :
    ¬ (s.type = TOK_END ∨ s.type = TOK_NUMBER ∨ s.type = TOK_ERROR) := by
  rw [h]; decide

theorem open_live (s : state) (h : s.type = TOK_OPEN) :
    ¬ (s.type = TOK_END ∨ s.type = TOK_NUMBER ∨ s.type = TOK_ERROR) := by
  rw [h]; decide

theorem factor_loop_total_step (c : Libc) (n : Nat)
    (ihG : ∀ s, 8 * s.potential + 2 ≤ n → parser_ok s (power c n s))
    (ihL : ∀ ret s, 8 * s.potential + 1 ≤ n → parser_ok s (factor_loop c n ret s))
    (ret : expr_native) (s : state) (hf : 8 * s.potential + 1 ≤ n + 1) :
    parser_ok s (factor_loop c (n + 1) ret s) := by
  rw [factor_loop]
  by_cases hop : s.is_op ["pow"] = true
  · rw [if_pos hop]
    have hlt := potential_next_token_lt c s (is_op_live s _ hop)
    obtain ⟨r, s1, h1, h2⟩ := ihG (next_token c s) (by omega)
    simp only [h1]
    obtain ⟨e, s2, h3, h4⟩ := ihL (binary_node s.function ret r) s1 (by omega)
    exact ⟨e, s2, h3, by omega⟩
  · rw [if_neg hop]; exact ⟨ret, s, rfl, le_refl _⟩

theorem factor_total_step (c : Libc) (n : Nat)
    (ihG : ∀ s, 8 * s.potential + 2 ≤ n → parser_ok s (power c n s))
    (ihL : ∀ ret s, 8 * s.potential + 1 ≤ n → parser_ok s (factor_loop c n ret s))
    (s : state) (hf : 8 * s.potential + 3 ≤ n + 1) :
    parser_ok s (factor c (n + 1) s) := by
  rw [factor]
  obtain ⟨r, s1, h1, h2⟩ := ihG s (by omega)
  simp only [h1]
  obtain ⟨e, s2, h3, h4⟩ := ihL r s1 (by omega)
  exact ⟨e, s2, h3, by omega⟩

theorem term_loop_total_step (c : Libc) (n : Nat)
    (ihG : ∀ s, 8 * s.potential + 3 ≤ n → parser_ok s (factor c n s))
    (ihL : ∀ ret s, 8 * s.potential + 1 ≤ n → parser_ok s (term_loop c n ret s))
    (ret : expr_native) (s : state) (hf : 8 * s.potential + 1 ≤ n + 1) :
    parser_ok s (term_loop c (n + 1) ret s) := by
  rw [term_loop]
  by_cases hop : s.is_op ["mul", "divide", "fmod"] = true
  · rw [if_pos hop]
    have hlt := potential_next_token_lt c s (is_op_live s _ hop)
    obtain ⟨r, s1, h1, h2⟩ := ihG (next_token c s) (by omega)
    simp only [h1]
    obtain ⟨e, s2, h3, h4⟩ := ihL (binary_node s.function ret r) s1 (by omega)
    exact ⟨e, s2, h3, by omega⟩
  · rw [if_neg hop]; exact ⟨ret, s, rfl, le_refl _⟩

theorem term_total_step (c : Libc) (n : Nat)
    (ihG : ∀ s, 8 * s.potential + 3 ≤ n → parser_ok s (factor c n s))
    (ihL : ∀ ret s, 8 * s.potential + 1 ≤ n → parser_ok s (term_loop c n ret s))
    (s : state) (hf : 8 * s.potential + 4 ≤ n + 1) :
    parser_ok s (term c (n + 1) s) := by
  rw [term]
  obtain ⟨r, s1, h1, h2⟩ := ihG s (by omega)
  simp only [h1]
  obtain ⟨e, s2, h3, h4⟩ := ihL r s1 (by omega)
  exact ⟨e, s2, h3, by omega⟩

theorem sum_expr_loop_total_step (c : Libc) (n : Nat)
    (ihG : ∀ s, 8 * s.potential + 4 ≤ n → parser_ok s (term c n s))
    (ihL : ∀ ret s, 8 * s.potential + 1 ≤ n → parser_ok s (sum_expr_loop c n ret s))
    (ret : expr_native) (s : state) (hf : 8 * s.potential + 1 ≤ n + 1) :
    parser_ok s (sum_expr_loop c (n + 1) ret s) := by
  rw [sum_expr_loop]
  by_cases hop : s.is_op ["add", "sub"] = true
  · rw [if_pos hop]
    have hlt := potential_next_token_lt c s (is_op_live s _ hop)
    obtain ⟨r, s1, h1, h2⟩ := ihG (next_token c s) (by omega)
    simp only [h1]
    obtain ⟨e, s2, h3, h4⟩ := ihL (binary_node s.function ret r) s1 (by omega)
    exact ⟨e, s2, h3, by omega⟩
  · rw [if_neg hop]; exact ⟨ret, s, rfl, le_refl _⟩

theorem sum_expr_total_step (c : Libc) (n : Nat)
    (ihG : ∀ s, 8 * s.potential + 4 ≤ n → parser_ok s (term c n s))
    (ihL : ∀ ret s, 8 * s.potential + 1 ≤ n → parser_ok s (sum_expr_loop c n ret s))
    (s : state) (hf : 8 * s.potential + 5 ≤ n + 1) :
    parser_ok s (sum_expr c (n + 1) s) := by
  rw [sum_expr]
  obtain ⟨r, s1, h1, h2⟩ := ihG s (by omega)
  simp only [h1]
  obtain ⟨e, s2, h3, h4⟩ := ihL r s1 (by omega)
  exact ⟨e, s2, h3, by omega⟩

theorem test_expr_loop_total_step (c : Libc) (n : Nat)
    (ihG : ∀ s, 8 * s.potential + 5 ≤ n → parser_ok s (sum_expr c n s))
    (ihL : ∀ ret s, 8 * s.potential + 1 ≤ n → parser_ok s (test_expr_loop c n ret s))
    (ret : expr_native) (s : state) (hf : 8 * s.potential + 1 ≤ n + 1) :
    parser_ok s (test_expr_loop c (n + 1) ret s) := by
  rw [test_expr_loop]
  by_cases hop : s.is_op ["greater", "greater_eq", "lower", "lower_eq", "equal", "not_equal"] = true
  · rw [if_pos hop]
    have hlt := potential_next_token_lt c s (is_op_live s _ hop)
    obtain ⟨r, s1, h1, h2⟩ := ihG (next_token c s) (by omega)
    simp only [h1]
    obtain ⟨e, s2, h3, h4⟩ := ihL (binary_node s.function ret r) s1 (by omega)
    exact ⟨e, s2, h3, by omega⟩
  · rw [if_neg hop]; exact ⟨ret, s, rfl, le_refl _⟩

theorem test_expr_total_step (c : Libc) (n : Nat)
    (ihG : ∀ s, 8 * s.potential + 5 ≤ n → parser_ok s (sum_expr c n s))
    (ihL : ∀ ret s, 8 * s.potential + 1 ≤ n → parser_ok s (test_expr_loop c n ret s))
    (s : state) (hf : 8 * s.potential + 6 ≤ n + 1) :
    parser_ok s (test_expr c (n + 1) s) := by
  rw [test_expr]
  obtain ⟨r, s1, h1, h2⟩ := ihG s (by omega)
  simp only [h1]
  obtain ⟨e, s2, h3, h4⟩ := ihL r s1 (by omega)
  exact ⟨e, s2, h3, by omega⟩

theorem expr_loop_total_step (c : Libc) (n : Nat)
    (ihG : ∀ s, 8 * s.potential + 6 ≤ n → parser_ok s (test_expr c n s))
    (ihL : ∀ ret s, 8 * s.potential + 1 ≤ n → parser_ok s (expr_loop c n ret s))
    (ret : expr_native) (s : state) (hf : 8 * s.potential + 1 ≤ n + 1) :
    parser_ok s (expr_loop c (n + 1) ret s) := by
  rw [expr_loop]
  by_cases hop : s.is_op ["logical_and", "logical_or"] = true
  · rw [if_pos hop]
    have hlt := potential_next_token_lt c s (is_op_live s _ hop)
    obtain ⟨r, s1, h1, h2⟩ := ihG (next_token c s) (by omega)
    simp only [h1]
    obtain ⟨e, s2, h3, h4⟩ := ihL (binary_node s.function ret r) s1 (by omega)
    exact ⟨e, s2, h3, by omega⟩
  · rw [if_neg hop]; exact ⟨ret, s, rfl, le_refl _⟩

theorem expr_total_step (c : Libc) (n : Nat)
    (ihG : ∀ s, 8 * s.potential + 6 ≤ n → parser_ok s (test_expr c n s))
    (ihL : ∀ ret s, 8 * s.potential + 1 ≤ n → parser_ok s (expr_loop c n ret s))
    (s : state) (hf : 8 * s.potential + 7 ≤ n + 1) :
    parser_ok s (expr c (n + 1) s) := by
  rw [expr]
  obtain ⟨r, s1, h1, h2⟩ := ihG s (by omega)
  simp only [h1]
  obtain ⟨e, s2, h3, h4⟩ := ihL r s1 (by omega)
  exact ⟨e, s2, h3, by omega⟩

theorem list_loop_total_step (c : Libc) (n : Nat)
    (ihG : ∀ s, 8 * s.potential + 7 ≤ n → parser_ok s (expr c n s))
    (ihL : ∀ ret s, 8 * s.potential + 1 ≤ n → parser_ok s (list_loop c n ret s))
    (ret : expr_native) (s : state) (hf : 8 * s.potential + 1 ≤ n + 1) :
    parser_ok s (list_loop c (n + 1) ret s) := by
  rw [list_loop]
  by_cases hop : s.type = TOK_SEP
  · rw [if_pos hop]
    have hlt := potential_next_token_lt c s (sep_live s hop)
    obtain ⟨r, s1, h1, h2⟩ := ihG (next_token c s) (by omega)
    simp only [h1]
    obtain ⟨e, s2, h3, h4⟩ := ihL (binary_node (find_builtin_address "comma") ret r) s1 (by omega)
    exact ⟨e, s2, h3, by omega⟩
  · rw [if_neg hop]; exact ⟨ret, s, rfl, le_refl _⟩

theorem list_total_step (c : Libc) (n : Nat)
    (ihG : ∀ s, 8 * s.potential + 7 ≤ n → parser_ok s (expr c n s))
    (ihL : ∀ ret s, 8 * s.potential + 1 ≤ n → parser_ok s (list_loop c n ret s))
    (s : state) (hf : 8 * s.potential + 8 ≤ n + 1) :
    parser_ok s (list c (n + 1) s) := by
  rw [list]
  obtain ⟨r, s1, h1, h2⟩ := ihG s (by omega)
  simp only [h1]
  obtain ⟨e, s2, h3, h4⟩ := ihL r s1 (by omega)
  exact ⟨e, s2, h3, by omega⟩

theorem power_total_step (c : Libc) (n : Nat)
    (ihB : ∀ s, 8 * s.potential + 1 ≤ n → parser_ok s (base c n s))
    (s : state) (hf : 8 * s.potential + 2 ≤ n + 1) :
    parser_ok s (power c (n + 1) s) := by
  rw [power]
  obtain ⟨s1, sign, h1, h2⟩ := power_sign_total c (n + 1) s 1 (by omega)
  simp only [h1]
  obtain ⟨s2, logical, h3, h4⟩ := power_logical_total c (n + 1) s1 0 (by omega)
  simp only [h3]
  obtain ⟨b, s3, h5, h6⟩ := ihB s2 (by omega)
  simp only [h5]
  exact ⟨_, s3, rfl, by omega⟩

theorem base_args_total_step (c : Libc) (n : Nat)
    (ihE : ∀ s, 8 * s.potential + 7 ≤ n → parser_ok s (expr c n s))
    (ihA : ∀ ar i ret s, (s.type = TOK_OPEN ∨ s.type = TOK_SEP) → 8 * s.potential + 1 ≤ n →
      ∃ e s1 j, base_args c n ar i ret s = some (e, s1, j) ∧ s1.potential ≤ s.potential)
    (ar i : Nat) (ret : expr_native) (s : state) (hs : s.type = TOK_OPEN ∨ s.type = TOK_SEP)
    (hf : 8 * s.potential + 1 ≤ n + 1) :
    ∃ e s1 j, base_args c (n + 1) ar i ret s = some (e, s1, j) ∧ s1.potential ≤ s.potential := by
  rw [base_args]
  by_cases hi : i < ar
  · rw [if_pos hi]
    have hlt := potential_next_token_lt c s
      (hs.elim (fun h => open_live s h) (fun h => sep_live s h))
    obtain ⟨e, s1, h1, h2⟩ := ihE (next_token c s) (by omega)
    simp only [h1]
    by_cases hsep : s1.type ≠ TOK_SEP
    · rw [if_pos hsep]; exact ⟨_, s1, i, rfl, by omega⟩
    · rw [if_neg hsep]
      obtain ⟨e2, s2, j, h3, h4⟩ := ihA ar (i + 1) (ret.set_parameter i e) s1
        (Or.inr (not_not.mp hsep)) (by omega)
      exact ⟨e2, s2, j, h3, by omega⟩
  · rw [if_neg hi]; exact ⟨ret, s, i, rfl, le_refl _⟩

theorem base_total_step (c : Libc) (n : Nat)
    (ihP : ∀ s, 8 * s.potential + 2 ≤ n → parser_ok s (power c n s))
    (ihL : ∀ s, 8 * s.potential + 8 ≤ n → parser_ok s (list c n s))
    (ihA : ∀ ar i ret s, (s.type = TOK_OPEN ∨ s.type = TOK_SEP) → 8 * s.potential + 1 ≤ n →
      ∃ e s1 j, base_args c n ar i ret s = some (e, s1, j) ∧ s1.potential ≤ s.potential)
    (s : state) (hf : 8 * s.potential + 1 ≤ n + 1) :
    parser_ok s (base c (n + 1) s) := by
  rw [base]
  have hmask := type_mask_eq_mod s.type
  have hle := potential_next_token_le c s
  dsimp only
  by_cases h1 : type_mask s.type = TOK_NUMBER
  · rw [if_pos h1]; exact ⟨_, _, rfl, hle⟩
  rw [if_neg h1]
  by_cases h2 : type_mask s.type = TOK_VARIABLE
  · rw [if_pos h2]; exact ⟨_, _, rfl, hle⟩
  rw [if_neg h2]
  by_cases h3 : (type_mask s.type ≥ TE_FUNCTION0 ∧ type_mask s.type < TE_FUNCTION_MAX) ∨
      (type_mask s.type ≥ TE_CLOSURE0 ∧ type_mask s.type < TE_CLOSURE_MAX)
  · rw [if_pos h3]
    have hlive : ¬ (s.type = TOK_END ∨ s.type = TOK_NUMBER ∨ s.type = TOK_ERROR) := by
      simp only [TE_FUNCTION0, TE_FUNCTION_MAX, TE_CLOSURE0, TE_CLOSURE_MAX] at h3
      simp only [TOK_END, TOK_NUMBER, TOK_ERROR]
      omega
    have hlt := potential_next_token_lt c s hlive
    by_cases ha0 : arity s.type = 0
    · rw [if_pos ha0]
      by_cases ho : (next_token c s).type = TOK_OPEN
      · rw [if_pos ho]
        have hlt2 := potential_next_token_lt c (next_token c s) (open_live _ ho)
        by_cases hc : (next_token c (next_token c s)).type ≠ TOK_CLOSE
        · rw [if_pos hc]
          have := potential_error_le (next_token c (next_token c s))
          exact ⟨_, _, rfl, by omega⟩
        · rw [if_neg hc]
          have := potential_next_token_le c (next_token c (next_token c s))
          exact ⟨_, _, rfl, by omega⟩
      · rw [if_neg ho]; exact ⟨_, _, rfl, hle⟩
    rw [if_neg ha0]
    by_cases ha1 : arity s.type = 1
    · rw [if_pos ha1]
      obtain ⟨p, s1, h5, h6⟩ := ihP (next_token c s) (by omega)
      simp only [h5]
      exact ⟨_, s1, rfl, by omega⟩
    rw [if_neg ha1]
    by_cases ho : (next_token c s).type ≠ TOK_OPEN
    · rw [if_pos ho]
      have := potential_error_le (next_token c s)
      exact ⟨_, _, rfl, by omega⟩
    rw [if_neg ho]
    obtain ⟨e, s2, j, h5, h6⟩ := ihA (arity s.type) 0 (call_node s) (next_token c s)
      (Or.inl (not_not.mp ho)) (by omega)
    simp only [h5]
    by_cases hc : s2.type ≠ TOK_CLOSE ∨ j ≠ arity s.type - 1
    · rw [if_pos hc]
      have := potential_error_le s2
      exact ⟨_, _, rfl, by omega⟩
    · rw [if_neg hc]
      have := potential_next_token_le c s2
      exact ⟨_, _, rfl, by omega⟩
  rw [if_neg h3]
  by_cases h4 : type_mask s.type = TOK_OPEN
  · rw [if_pos h4]
    have hlive : ¬ (s.type = TOK_END ∨ s.type = TOK_NUMBER ∨ s.type = TOK_ERROR) := by
      simp only [TOK_OPEN] at h4
      simp only [TOK_END, TOK_NUMBER, TOK_ERROR]
      omega
    have hlt := potential_next_token_lt c s hlive
    obtain ⟨e, s1, h5, h6⟩ := ihL (next_token c s) (by omega)
    simp only [h5]
    by_cases hc : s1.type ≠ TOK_CLOSE
    · rw [if_pos hc]
      have := potential_error_le s1
      exact ⟨_, _, rfl, by omega⟩
    · rw [if_neg hc]
      have := potential_next_token_le c s1
      exact ⟨_, _, rfl, by omega⟩
  · rw [if_neg h4]
    have := potential_error_le s
    exact ⟨_, _, rfl, this⟩

/-- Every parser function returns when its fuel covers the potential of the state. -/
theorem parser_total (c : Libc) (fuel : Nat) :
    (∀ s, 8 * s.potential + 1 ≤ fuel → parser_ok s (base c fuel s)) ∧
    (∀ ar i ret s, (s.type = TOK_OPEN ∨ s.type = TOK_SEP) → 8 * s.potential + 1 ≤ fuel →
      ∃ e s1 j, base_args c fuel ar i ret s = some (e, s1, j) ∧ s1.potential ≤ s.potential) ∧
    (∀ s, 8 * s.potential + 2 ≤ fuel → parser_ok s (power c fuel s)) ∧
    (∀ s, 8 * s.potential + 3 ≤ fuel → parser_ok s (factor c fuel s)) ∧
    (∀ ret s, 8 * s.potential + 1 ≤ fuel → parser_ok s (factor_loop c fuel ret s)) ∧
    (∀ s, 8 * s.potential + 4 ≤ fuel → parser_ok s (term c fuel s)) ∧
    (∀ ret s, 8 * s.potential + 1 ≤ fuel → parser_ok s (term_loop c fuel ret s)) ∧
    (∀ s, 8 * s.potential + 5 ≤ fuel → parser_ok s (sum_expr c fuel s)) ∧
    (∀ ret s, 8 * s.potential + 1 ≤ fuel → parser_ok s (sum_expr_loop c fuel ret s)) ∧
    (∀ s, 8 * s.potential + 6 ≤ fuel → parser_ok s (test_expr c fuel s)) ∧
    (∀ ret s, 8 * s.potential + 1 ≤ fuel → parser_ok s (test_expr_loop c fuel ret s)) ∧
    (∀ s, 8 * s.potential + 7 ≤ fuel → parser_ok s (expr c fuel s)) ∧
    (∀ ret s, 8 * s.potential + 1 ≤ fuel → parser_ok s (expr_loop c fuel ret s)) ∧
    (∀ s, 8 * s.potential + 8 ≤ fuel → parser_ok s (list c fuel s)) ∧
    (∀ ret s, 8 * s.potential + 1 ≤ fuel → parser_ok s (list_loop c fuel ret s)) := by
  induction fuel with
  | zero =>
    refine ⟨?_, ?_, ?_, ?_, ?_, ?_, ?_, ?_, ?_, ?_, ?_, ?_, ?_, ?_, ?_⟩ <;> intros <;> omega
  | succ n ih =>
    obtain ⟨iBase, iArgs, iPower, iFactor, iFactorL, iTerm, iTermL, iSum, iSumL, iTest, iTestL,
      iExpr, iExprL, iList, iListL⟩ := ih
    exact ⟨base_total_step c n iPower iList iArgs,
      base_args_total_step c n iExpr iArgs,
      power_total_step c n iBase,
      factor_total_step c n iPower iFactorL,
      factor_loop_total_step c n iPower iFactorL,
      term_total_step c n iFactor iTermL,
      term_loop_total_step c n iFactor iTermL,
      sum_expr_total_step c n iTerm iSumL,
      sum_expr_loop_total_step c n iTerm iSumL,
      test_expr_total_step c n iSum iTestL,
      test_expr_loop_total_step c n iSum iTestL,
      expr_total_step c n iTest iExprL,
      expr_loop_total_step c n iTest iExprL,
      list_total_step c n iExpr iListL,
      list_loop_total_step c n iExpr iListL⟩

/-- The parser `list` returns on every state when given `8 * potential + 8` fuel. -/
theorem list_total (c : Libc) (fuel : Nat) (s : state) (hf : 8 * s.potential + 8 ≤ fuel) :
    ∃ e s1, list c fuel s = some (e, s1) :=
  let ⟨e, s1, h, _⟩ := (parser_total c fuel).2.2.2.2.2.2.2.2.2.2.2.2.2.1 s hf
  ⟨e, s1, h⟩

theorem potential_le (s : state) : s.potential ≤ 2 * s.next.length + 1 := by
  unfold state.potential; split <;> omega

/-- The parse of `compile_native` always returns: `parse_fuel` is enough fuel. -/
theorem parse_total (c : Libc) (expression : List Nat) (vars : List te_variable) :
    ∃ e s, parse c expression vars = some (e, s) := by
  apply list_total
  have h1 := potential_le (next_token c (init_state expression vars))
  have h2 := (next_token_spec c (init_state expression vars)).2.1
  have h3 : (init_state expression vars).next.length = expression.length := rfl
  unfold parse_fuel
  omega

/-! ## C6: the unary prefix in `power` -/

theorem fba_add : find_builtin_address "add" = impl.add := by decide
theorem fba_sub : find_builtin_address "sub" = impl.sub := by decide
theorem fba_mul : find_builtin_address "mul" = impl.mul := by decide
theorem fba_divide : find_builtin_address "divide" = impl.divide := by decide
theorem fba_fmod : find_builtin_address "fmod" = impl.fmod := by decide
theorem fba_pow : find_builtin_address "pow" = impl.pow := by decide
theorem fba_greater : find_builtin_address "greater" = impl.greater := by decide
theorem fba_greater_eq : find_builtin_address "greater_eq" = impl.greater_eq := by decide
theorem fba_lower : find_builtin_address "lower" = impl.lower := by decide
theorem fba_lower_eq : find_builtin_address "lower_eq" = impl.lower_eq := by decide
theorem fba_equal : find_builtin_address "equal" = impl.equal := by decide
theorem fba_not_equal : find_builtin_address "not_equal" = impl.not_equal := by decide
theorem fba_logical_and : find_builtin_address "logical_and" = impl.logical_and := by decide
theorem fba_logical_or : find_builtin_address "logical_or" = impl.logical_or := by decide
theorem fba_logical_not : find_builtin_address "logical_not" = impl.logical_not := by decide
theorem fba_logical_notnot : find_builtin_address "logical_notnot" = impl.logical_notnot := by
  decide
theorem fba_negate : find_builtin_address "negate" = impl.negate := by decide
theorem fba_negate_logical_not :
    find_builtin_address "negate_logical_not" = impl.negate_logical_not := by decide
theorem fba_negate_logical_notnot :
    find_builtin_address "negate_logical_notnot" = impl.negate_logical_notnot := by decide
theorem fba_comma : find_builtin_address "comma" = impl.comma := by decide

/-- `is_op` spelled out on the addresses of the built-ins. -/
theorem is_op_sign (s : state) :
    s.is_op ["add", "sub"] = (s.type == TOK_INFIX && (s.function == impl.add || s.function == impl.sub)) := by
  simp [state.is_op, fba_add, fba_sub]

theorem is_op_unary (s : state) :
    s.is_op ["add", "sub", "logical_not"] =
      (s.type == TOK_INFIX &&
        (s.function == impl.add || s.function == impl.sub || s.function == impl.logical_not)) := by
  simp [state.is_op, fba_add, fba_sub, fba_logical_not, Bool.or_assoc]

theorem power_sign_run (c : Libc) (signs : List Bool) :
    ∀ (s s1 : state) (sign : Int) (fuel : Nat),
      reads_ops c (signs.map (fun m => if m then impl.sub else impl.add)) s s1 →
      s1.is_op ["add", "sub"] = false → signs.length ≤ fuel →
      power_sign c (fuel + 1) s sign =
        some (s1, if signs.count true % 2 = 0 then sign else -sign) := by
  induction signs with
  | nil =>
    intro s s1 sign fuel h1 h2 _
    simp only [List.map_nil, reads_ops] at h1
    subst h1
    simp [power_sign, h2]
  | cons m ms ih =>
    intro s s1 sign fuel h1 h2 hf
    simp only [List.map_cons, reads_ops] at h1
    obtain ⟨ht, hfn, hrest⟩ := h1
    obtain ⟨k, rfl⟩ : ∃ k, fuel = k + 1 := ⟨fuel - 1, by simp at hf; omega⟩
    have hop : s.is_op ["add", "sub"] = true := by
      rw [is_op_sign, ht, hfn]; cases m <;> decide
    rw [power_sign, if_pos hop, ih (next_token c s) s1 _ k hrest h2 (by simp at hf; omega), fba_sub, hfn]
    cases m with
    | false =>
      have : impl.add ≠ impl.sub := by decide
      simp [this]
    | true =>
      simp only [if_true, List.count_cons_self]
      by_cases hp : List.count true ms % 2 = 0
      · have : (List.count true ms + 1) % 2 ≠ 0 := by omega
        simp [hp, this]
      · have : (List.count true ms + 1) % 2 = 0 := by omega
        simp [hp, this]

theorem power_logical_run (c : Libc) (bangs : Nat) :
    ∀ (s s2 : state) (logical : Int) (fuel : Nat),
      reads_ops c (List.replicate bangs impl.logical_not) s s2 →
      s2.is_op ["add", "sub", "logical_not"] = false → bangs ≤ fuel →
      power_logical c (fuel + 1) s logical = some (s2, logical_after bangs logical) := by
  induction bangs with
  | zero =>
    intro s s2 logical fuel h1 h2 _
    simp only [List.replicate_zero, reads_ops] at h1
    subst h1
    simp [power_logical, h2, logical_after]
  | succ n ih =>
    intro s s2 logical fuel h1 h2 hf
    simp only [List.replicate_succ, reads_ops] at h1
    obtain ⟨ht, hfn, hrest⟩ := h1
    obtain ⟨k, rfl⟩ : ∃ k, fuel = k + 1 := ⟨fuel - 1, by omega⟩
    have hop : s.is_op ["add", "sub", "logical_not"] = true := by
      rw [is_op_unary, ht, hfn]; decide
    rw [power_logical, if_pos hop, ih (next_token c s) s2 _ k hrest h2 (by omega), fba_logical_not,
      hfn]
    simp [logical_after]

theorem logical_after_neg_one (n : Nat) :
    logical_after n (-1) = if n % 2 = 0 then -1 else 1 := by
  induction n using Nat.strong_induction_on with
  | _ n ih =>
    match n with
    | 0 => rfl
    | 1 => rfl
    | k + 2 =>
      have := ih k (by omega)
      simp only [logical_after] at this ⊢
      have h2 : (k + 2) % 2 = k % 2 := by omega
      rw [h2]
      simpa using this

theorem logical_after_zero (n : Nat) :
    logical_after n 0 = if n = 0 then 0 else if n % 2 = 1 then -1 else 1 := by
  cases n with
  | zero => rfl
  | succ k =>
    simp only [logical_after, if_true]
    rw [logical_after_neg_one]
    by_cases hk : k % 2 = 0
    · have : (k + 1) % 2 = 1 := by omega
      simp [hk, this]
    · have : (k + 1) % 2 ≠ 1 := by omega
      simp [hk, this]

theorem power_wrap_eq (signs : List Bool) (bangs : Nat) (b : expr_native) :
    power_wrap (if signs.count true % 2 = 0 then 1 else -1) (logical_after bangs 0) b =
      prefix_node (signs.count true) bangs b := by
  rw [logical_after_zero]
  unfold power_wrap prefix_node unary_node new_expr expr_native.set_function
  rw [fba_logical_not, fba_logical_notnot, fba_negate, fba_negate_logical_not,
    fba_negate_logical_notnot]
  have ha : arity (TE_FUNCTION1 ||| TE_FLAG_PURE) = 1 := by decide
  by_cases hs : signs.count true % 2 = 0 <;> by_cases hb : bangs = 0 <;>
    by_cases hb2 : bangs % 2 = 1 <;> simp [hs, hb, hb2, ha]


/-- The unary prefix in `power` (the core of C6). -/
theorem power_unary_run (c : Libc) (signs : List Bool) (bangs : Nat)
    (s s1 s2 : state) (fuel : Nat)
    (h1 : reads_ops c (signs.map (fun m => if m then impl.sub else impl.add)) s s1)
    (h2 : reads_ops c (List.replicate bangs impl.logical_not) s1 s2)
    (h3 : s2.is_op ["add", "sub", "logical_not"] = false)
    (hf1 : signs.length ≤ fuel) (hf2 : bangs ≤ fuel) :
    power c (fuel + 1) s =
      (base c fuel s2).map (fun r => (prefix_node (signs.count true) bangs r.1, r.2)) := by
  have hs1 : s1.is_op ["add", "sub"] = false := by
    cases bangs with
    | zero =>
      simp only [List.replicate_zero, reads_ops] at h2
      subst h2
      rw [is_op_unary] at h3
      rw [is_op_sign]
      cases ht : (s2.type == TOK_INFIX) <;> simp_all
    | succ n =>
      simp only [List.replicate_succ, reads_ops] at h2
      rw [is_op_sign, h2.2.1]
      have : impl.logical_not ≠ impl.add ∧ impl.logical_not ≠ impl.sub := by decide
      simp [this.1, this.2]
  rw [power, power_sign_run c signs s s1 1 fuel h1 hs1 hf1]
  simp only []
  rw [power_logical_run c bangs s1 s2 0 fuel h2 h3 hf2]
  simp only []
  cases hb : base c fuel s2 with
  | none => rfl
  | some r =>
    obtain ⟨b, s3⟩ := r
    simp only [Option.map_some']
    rw [← power_wrap_eq signs bangs b]

/-- C6: for a unary prefix that is a run of `+`/`-` tokens (`signs`, `true` for `-`)
followed by a run of `bangs` `!` tokens, `power` returns what `base` returns on
the operand state, with the operand `b` replaced by: `b` itself when the
number of `-` is even and there is no `!`; otherwise one `TE_FUNCTION1 |
TE_FLAG_PURE` node over `b` whose function is `logical_not` (even, odd number
of `!`), `logical_notnot` (even, even positive), `negate` (odd, none),
`negate_logical_not` (odd, odd), `negate_logical_notnot` (odd, even
positive). -/
theorem C6_power_unary_prefix (c : Libc) (signs : List Bool) (bangs : Nat)
    (s s1 s2 : state) (fuel : Nat)
    (h1 : reads_ops c (signs.map (fun m => if m then impl.sub else impl.add)) s s1)
    (h2 : reads_ops c (List.replicate bangs impl.logical_not) s1 s2)
    (h3 : s2.is_op ["add", "sub", "logical_not"] = false)
    (hf1 : signs.length ≤ fuel) (hf2 : bangs ≤ fuel) :
    power c (fuel + 1) s =
      (base c fuel s2).map (fun r => (prefix_node (signs.count true) bangs r.1, r.2)) :=
  power_unary_run c signs bangs s s1 s2 fuel h1 h2 h3 hf1 hf2

/-- C6 at the text `-!!2`: the prefix is one `-` and two `!`; `power` returns
`negate_logical_notnot` over the constant `2`. -/
theorem C6_power_unary_prefix_witness :
    reads_ops exact_libc ([true].map (fun m => if m then impl.sub else impl.add)) prefix_example
      (next_token exact_libc prefix_example) ∧
    reads_ops exact_libc (List.replicate 2 impl.logical_not) (next_token exact_libc prefix_example)
      (next_token exact_libc (next_token exact_libc (next_token exact_libc prefix_example))) ∧
    power exact_libc (9 + 1) prefix_example =
      (base exact_libc 9
        (next_token exact_libc (next_token exact_libc (next_token exact_libc prefix_example)))).map
        (fun r => (prefix_node ([true].count true) 2 r.1, r.2)) ∧
    (power exact_libc (9 + 1) prefix_example).map Prod.fst =
      some (.node (TE_FUNCTION1 ||| TE_FLAG_PURE) (.ptr impl.negate_logical_notnot)
        [.node TE_CONSTANT (.value (.num 2)) [] 0] 0) := by
  have h1 : reads_ops exact_libc ([true].map (fun m => if m then impl.sub else impl.add))
      prefix_example (next_token exact_libc prefix_example) := by
    refine ⟨by decide!, by decide!, rfl⟩
  have h2 : reads_ops exact_libc (List.replicate 2 impl.logical_not)
      (next_token exact_libc prefix_example)
      (next_token exact_libc (next_token exact_libc (next_token exact_libc prefix_example))) := by
    refine ⟨by decide!, by decide!, by decide!, by decide!, rfl⟩
  exact ⟨h1, h2,
    C6_power_unary_prefix exact_libc [true] 2 prefix_example _ _ 9 h1 h2 (by decide!)
      (by decide) (by decide), by decide!⟩

/-! ## C4, C5: precedence and associativity -/

theorem binary_node_eq (f : Nat) (a b : expr_native) : binary_node f a b = binary f a b := by
  have ha : arity (TE_FUNCTION2 ||| TE_FLAG_PURE) = 2 := by decide
  simp [binary_node, binary, new_expr, expr_native.set_function, ha]

theorem level_parse_succ (c : Libc) (l : Nat) (hl : l ≤ 5) (fuel : Nat) (s : state) :
    level_parse c l (fuel + 1) s =
      (level_parse c (l + 1) fuel s).bind (fun r => level_loop c l fuel r.1 r.2) := by
  have : l = 0 ∨ l = 1 ∨ l = 2 ∨ l = 3 ∨ l = 4 ∨ l = 5 := by omega
  rcases this with h | h | h | h | h | h <;> subst h
  · simp only [level_parse, level_loop]; rw [list]; cases expr c fuel s <;> rfl
  · simp only [level_parse, level_loop]; rw [expr]; cases test_expr c fuel s <;> rfl
  · simp only [level_parse, level_loop]; rw [test_expr]; cases sum_expr c fuel s <;> rfl
  · simp only [level_parse, level_loop]; rw [sum_expr]; cases term c fuel s <;> rfl
  · simp only [level_parse, level_loop]; rw [term]; cases factor c fuel s <;> rfl
  · simp only [level_parse, level_loop]; rw [factor]; cases power c fuel s <;> rfl

theorem level_loop_succ (c : Libc) (l : Nat) (hl : l ≤ 5) (fuel : Nat) (ret : expr_native)
    (s : state) :
    level_loop c l (fuel + 1) ret s =
      if is_level_op l s = true then
        (level_parse c (l + 1) fuel (next_token c s)).bind
          (fun r => level_loop c l fuel (binary (level_function l s) ret r.1) r.2)
      else some (ret, s) := by
  have : l = 0 ∨ l = 1 ∨ l = 2 ∨ l = 3 ∨ l = 4 ∨ l = 5 := by omega
  rcases this with h | h | h | h | h | h <;> subst h
  · simp only [level_parse, level_loop, is_level_op, level_function, beq_iff_eq, if_true]
    rw [list_loop]; simp only [binary_node_eq, fba_comma]
    cases expr c fuel (next_token c s) <;> rfl
  · simp only [level_parse, level_loop, is_level_op, level_function]
    rw [expr_loop]; simp only [binary_node_eq]
    cases test_expr c fuel (next_token c s) <;> rfl
  · simp only [level_parse, level_loop, is_level_op, level_function]
    rw [test_expr_loop]; simp only [binary_node_eq]
    cases sum_expr c fuel (next_token c s) <;> rfl
  · simp only [level_parse, level_loop, is_level_op, level_function]
    rw [sum_expr_loop]; simp only [binary_node_eq]
    cases term c fuel (next_token c s) <;> rfl
  · simp only [level_parse, level_loop, is_level_op, level_function]
    rw [term_loop]; simp only [binary_node_eq]
    cases factor c fuel (next_token c s) <;> rfl
  · simp only [level_parse, level_loop, is_level_op, level_function]
    rw [factor_loop]; simp only [binary_node_eq]
    cases power c fuel (next_token c s) <;> rfl

theorem yields_mono {α : Type} {p : Nat → Option α} {n m : Nat} {r : α}
    (h : yields p n r) (hnm : n ≤ m) : yields p m r :=
  fun fuel hf => h fuel (le_trans hnm hf)

/-- An operand token is no operator of any level. -/
theorem operand_no_sign (s : state) (h : is_operand s) :
    s.is_op ["add", "sub"] = false ∧ s.is_op ["add", "sub", "logical_not"] = false := by
  rcases h with h | h <;> simp [state.is_op, h, TOK_NUMBER, TOK_VARIABLE, TOK_INFIX]

/-- On an operand token `base` builds the leaf and steps to the next token. -/
theorem base_operand (c : Libc) (s : state) (h : is_operand s) (fuel : Nat) :
    base c (fuel + 1) s = some (operand_node s, next_token c s) := by
  rw [base]
  rcases h with h | h
  · have h1 : type_mask s.type = TOK_NUMBER := by rw [h]; decide
    simp only [h1, if_true, operand_node, h]
    rfl
  · have h1 : type_mask s.type ≠ TOK_NUMBER := by rw [h]; decide
    have h2 : type_mask s.type = TOK_VARIABLE := by rw [h]; decide
    have h3 : s.type ≠ TOK_NUMBER := by rw [h]; decide
    simp only [h1, h2, if_true, if_false, operand_node, h3]
    rfl

/-- On an operand token `power` returns the leaf. -/
theorem power_operand (c : Libc) (s : state) (h : is_operand s) :
    yields (fun fuel => power c fuel s) 2 (operand_node s, next_token c s) := by
  intro fuel hf
  obtain ⟨k, rfl⟩ : ∃ k, fuel = k + 1 + 1 := ⟨fuel - 2, by omega⟩
  obtain ⟨h1, h2⟩ := operand_no_sign s h
  show power c (k + 1 + 1) s = _
  rw [power, power_sign, if_neg (by simp [h1])]
  simp only []
  rw [power_logical, if_neg (by simp [h2])]
  simp only []
  rw [base_operand c s h k]
  rfl


/-- A token is an operator of at most one level. -/
theorem is_level_op_unique (s : state) (l m : Nat) (hl : is_level_op l s = true)
    (hm : is_level_op m s = true) : l = m := by
  have h6 : ∀ k, 6 ≤ k → is_level_op k s = false := by
    intro k hk
    obtain ⟨j, rfl⟩ : ∃ j, k = j + 6 := ⟨k - 6, by omega⟩
    rfl
  have hl5 : l ≤ 5 := by
    by_contra hc
    rw [h6 l (by omega)] at hl; cases hl
  have hm5 : m ≤ 5 := by
    by_contra hc
    rw [h6 m (by omega)] at hm; cases hm
  have el : l = 0 ∨ l = 1 ∨ l = 2 ∨ l = 3 ∨ l = 4 ∨ l = 5 := by omega
  have em : m = 0 ∨ m = 1 ∨ m = 2 ∨ m = 3 ∨ m = 4 ∨ m = 5 := by omega
  rcases el with h | h | h | h | h | h <;> rcases em with g | g | g | g | g | g <;>
    subst h <;> subst g <;> first
    | rfl
    | (exfalso
       simp only [is_level_op, state.is_op, fba_add, fba_sub, fba_mul, fba_divide, fba_fmod,
         fba_pow, fba_greater, fba_greater_eq, fba_lower, fba_lower_eq, fba_equal, fba_not_equal,
         fba_logical_and, fba_logical_or, List.any_cons, List.any_nil, Bool.or_false,
         Bool.and_eq_true, Bool.or_eq_true, beq_iff_eq, TOK_SEP, TOK_INFIX, impl.add, impl.sub,
         impl.mul, impl.divide, impl.fmod, impl.pow, impl.greater, impl.greater_eq, impl.lower,
         impl.lower_eq, impl.equal, impl.not_equal, impl.logical_and, impl.logical_or] at hl hm
       omega)

/-- Lemma A: an operand followed by a token that is no operator of level `l` or above
parses, at level `l`, to its leaf. -/
theorem level_operand (c : Libc) (s : state) (h : is_operand s) (d : Nat) :
    ∀ l, l + d = 6 → (∀ m, l ≤ m → is_level_op m (next_token c s) = false) →
      yields (fun fuel => level_parse c l fuel s) (2 + 2 * d) (operand_node s, next_token c s) := by
  induction d with
  | zero =>
    intro l hl _
    have : l = 6 := by omega
    subst this
    exact yields_mono (power_operand c s h) (by omega)
  | succ d ih =>
    intro l hl hno fuel hf
    obtain ⟨k, rfl⟩ : ∃ k, fuel = k + 1 + 1 := ⟨fuel - 2, by omega⟩
    have e : level_parse c (l + 1) (k + 1) s = some (operand_node s, next_token c s) :=
      ih (l + 1) (by omega) (fun m hm => hno m (by omega)) (k + 1) (by omega)
    show level_parse c l (k + 1 + 1) s = _
    rw [level_parse_succ c l (by omega), e]
    show level_loop c l (k + 1) _ _ = _
    rw [level_loop_succ c l (by omega), if_neg (by simp [hno l (le_refl _)])]

/-- Lemma C: a parse at level `l1` that stops at a token that is no operator of the
levels from `l` up to `l1` is also the parse at level `l`. -/
theorem level_lift (c : Libc) (s t : state) (r : expr_native) (d : Nat) :
    ∀ l l1 n, l + d = l1 → l1 ≤ 6 → yields (fun fuel => level_parse c l1 fuel s) n (r, t) →
      (∀ m, l ≤ m → m < l1 → is_level_op m t = false) →
      yields (fun fuel => level_parse c l fuel s) (n + 2 * d) (r, t) := by
  induction d with
  | zero =>
    intro l l1 n hl _ hy _
    have : l = l1 := by omega
    subst this
    exact hy
  | succ d ih =>
    intro l l1 n hl hl1 hy hno fuel hf
    obtain ⟨k, rfl⟩ : ∃ k, fuel = k + 1 + 1 := ⟨fuel - 2, by omega⟩
    have e : level_parse c (l + 1) (k + 1) s = some (r, t) :=
      ih (l + 1) l1 n (by omega) hl1 hy (fun m hm hm1 => hno m (by omega) hm1) (k + 1) (by omega)
    show level_parse c l (k + 1 + 1) s = _
    rw [level_parse_succ c l (by omega), e]
    show level_loop c l (k + 1) _ _ = _
    rw [level_loop_succ c l (by omega), if_neg (by simp [hno l (le_refl _) (by omega)])]

/-- One round of the loop of level `l`: the operator token `t`, then a right operand
that parses at level `l + 1` to `r` and stops at `t1`. -/
theorem level_loop_round (c : Libc) (l : Nat) (hl : l ≤ 5) (t t1 : state) (ret r : expr_native)
    (n : Nat) (hop : is_level_op l t = true)
    (hr : yields (fun fuel => level_parse c (l + 1) fuel (next_token c t)) n (r, t1))
    (q : expr_native × state) (m : Nat)
    (hq : yields (fun fuel => level_loop c l fuel (binary (level_function l t) ret r) t1) m q) :
    yields (fun fuel => level_loop c l fuel ret t) (max n m + 1) q := by
  intro fuel hf
  obtain ⟨k, rfl⟩ : ∃ k, fuel = k + 1 := ⟨fuel - 1, by omega⟩
  have e : level_parse c (l + 1) k (next_token c t) = some (r, t1) := hr k (by omega)
  show level_loop c l (k + 1) ret t = _
  rw [level_loop_succ c l hl, if_pos hop, e]
  exact hq k (by omega)

/-- The loop of level `l` stops at a token that is no operator of the level. -/
theorem level_loop_stop (c : Libc) (l : Nat) (hl : l ≤ 5) (t : state) (ret : expr_native)
    (hop : is_level_op l t = false) :
    yields (fun fuel => level_loop c l fuel ret t) 1 (ret, t) := by
  intro fuel hf
  obtain ⟨k, rfl⟩ : ∃ k, fuel = k + 1 := ⟨fuel - 1, by omega⟩
  show level_loop c l (k + 1) ret t = _
  rw [level_loop_succ c l hl, if_neg (by simp [hop])]

/-- The parser of level `l`: the left operand at level `l + 1`, then the loop. -/
theorem level_parse_via (c : Libc) (l : Nat) (hl : l ≤ 5) (s t : state) (r : expr_native)
    (n : Nat) (hr : yields (fun fuel => level_parse c (l + 1) fuel s) n (r, t))
    (q : expr_native × state) (m : Nat)
    (hq : yields (fun fuel => level_loop c l fuel r t) m q) :
    yields (fun fuel => level_parse c l fuel s) (max n m + 1) q := by
  intro fuel hf
  obtain ⟨k, rfl⟩ : ∃ k, fuel = k + 1 := ⟨fuel - 1, by omega⟩
  have e : level_parse c (l + 1) k s = some (r, t) := hr k (by omega)
  show level_parse c l (k + 1) s = _
  rw [level_parse_succ c l hl, e]
  exact hq k (by omega)

theorem is_level_op_le (s : state) (l : Nat) (h : is_level_op l s = true) : l ≤ 5 := by
  by_contra hc
  obtain ⟨j, rfl⟩ : ∃ j, l = j + 6 := ⟨l - 6, by omega⟩
  cases h

theorem is_level_op_other (s : state) (l m : Nat) (h : is_level_op l s = true) (hm : m ≠ l) :
    is_level_op m s = false := by
  cases hv : is_level_op m s with
  | false => rfl
  | true => exact absurd (is_level_op_unique s m l hv h) hm

/-- The parse of `a op1 b op2 c` for operand tokens `a`, `b`, `c`, an operator `op1`
of level `l1` and an operator `op2` of level `l2`, up to a token that is no
operator: `op1(a, op2(b, c))` when `l1 < l2`, else `op2(op1(a, b), c)`. -/
theorem parse_two_operators (c : Libc) (sa t1 sb t2 sc se : state) (l1 l2 : Nat)
    (e1 : next_token c sa = t1) (e2 : next_token c t1 = sb) (e3 : next_token c sb = t2)
    (e4 : next_token c t2 = sc) (e5 : next_token c sc = se)
    (ha : is_operand sa) (h1 : is_level_op l1 t1 = true) (hb : is_operand sb)
    (h2 : is_level_op l2 t2 = true) (hc : is_operand sc) (he : ∀ m, is_level_op m se = false) :
    yields (fun fuel => list c fuel sa) 64
      (two_operator_tree l1 l2 (level_function l1 t1) (level_function l2 t2) (operand_node sa)
        (operand_node sb) (operand_node sc), se) := by
  have hl1 := is_level_op_le t1 l1 h1
  have hl2 := is_level_op_le t2 l2 h2
  subst e1 e2 e3 e4 e5
  by_cases hlt : l1 < l2
  · -- `op2` binds tighter: it is parsed inside the right operand of `op1`
    have Ab := level_operand c (next_token c (next_token c sa)) hb (5 - l2) (l2 + 1) (by omega)
      (fun m hm => is_level_op_other _ l2 m h2 (by omega))
    have Ac := level_operand c _ hc (5 - l2) (l2 + 1) (by omega) (fun m _ => he m)
    have R2 := level_loop_round c l2 hl2 _ _ (operand_node (next_token c (next_token c sa)))
      _ _ h2 Ac _ 1 (level_loop_stop c l2 hl2 _ _ (he l2))
    have P2 := level_parse_via c l2 hl2 _ _ _ _ Ab _ _ R2
    have L2 := level_lift c _ _ _ (l2 - (l1 + 1)) (l1 + 1) l2 _ (by omega) (by omega) P2
      (fun m _ _ => he m)
    have Aa := level_operand c sa ha (5 - l1) (l1 + 1) (by omega)
      (fun m hm => is_level_op_other _ l1 m h1 (by omega))
    have R1 := level_loop_round c l1 hl1 _ _ (operand_node sa) _ _ h1 L2 _ 1
      (level_loop_stop c l1 hl1 _ _ (he l1))
    have P1 := level_parse_via c l1 hl1 _ _ _ _ Aa _ _ R1
    have L1 := level_lift c _ _ _ l1 0 l1 _ (by omega) (by omega) P1 (fun m _ _ => he m)
    rw [two_operator_tree, if_pos hlt]
    exact yields_mono L1 (by omega)
  · have Aa := level_operand c sa ha (5 - l1) (l1 + 1) (by omega)
      (fun m hm => is_level_op_other _ l1 m h1 (by omega))
    have Ab := level_operand c (next_token c (next_token c sa)) hb (5 - l1) (l1 + 1) (by omega)
      (fun m hm => is_level_op_other _ l2 m h2 (by omega))
    rw [two_operator_tree, if_neg hlt]
    by_cases heq : l2 = l1
    · -- same level: the loop of the level takes both operators, left to right
      subst heq
      have Ac := level_operand c _ hc (5 - l2) (l2 + 1) (by omega) (fun m _ => he m)
      have R2 := level_loop_round c l2 hl2 _ _
        (binary (level_function l2 (next_token c sa)) (operand_node sa)
          (operand_node (next_token c (next_token c sa)))) _ _ h2 Ac _ 1
        (level_loop_stop c l2 hl2 _ _ (he l2))
      have R1 := level_loop_round c l2 hl2 _ _ (operand_node sa) _ _ h1 Ab _ _ R2
      have P1 := level_parse_via c l2 hl2 _ _ _ _ Aa _ _ R1
      have L1 := level_lift c _ _ _ l2 0 l2 _ (by omega) (by omega) P1 (fun m _ _ => he m)
      exact yields_mono L1 (by omega)
    · -- `op1` binds tighter: its node is the left operand of `op2`
      have hl21 : l2 < l1 := by omega
      have R1 := level_loop_round c l1 hl1 _ _ (operand_node sa) _ _ h1 Ab _ 1
        (level_loop_stop c l1 hl1 _ _ (is_level_op_other _ l2 l1 h2 (by omega)))
      have P1 := level_parse_via c l1 hl1 _ _ _ _ Aa _ _ R1
      have L1 := level_lift c _ _ _ (l1 - (l2 + 1)) (l2 + 1) l1 _ (by omega) (by omega) P1
        (fun m hm hm1 => is_level_op_other _ l2 m h2 (by omega))
      have Ac := level_operand c _ hc (5 - l2) (l2 + 1) (by omega) (fun m _ => he m)
      have R2 := level_loop_round c l2 hl2 _ _
        (binary (level_function l1 (next_token c sa)) (operand_node sa)
          (operand_node (next_token c (next_token c sa)))) _ _ h2 Ac _ 1
        (level_loop_stop c l2 hl2 _ _ (he l2))
      have P2 := level_parse_via c l2 hl2 _ _ _ _ L1 _ _ R2
      have L2 := level_lift c _ _ _ l2 0 l2 _ (by omega) (by omega) P2 (fun m _ _ => he m)
      exact yields_mono L2 (by omega)

theorem end_not_level_op (s : state) (h : s.type = TOK_END) (m : Nat) :
    is_level_op m s = false := by
  have h6 : ∀ k, 6 ≤ k → is_level_op k s = false := by
    intro k hk
    obtain ⟨j, rfl⟩ : ∃ j, k = j + 6 := ⟨k - 6, by omega⟩
    rfl
  by_cases hm : 6 ≤ m
  · exact h6 m hm
  · have em : m = 0 ∨ m = 1 ∨ m = 2 ∨ m = 3 ∨ m = 4 ∨ m = 5 := by omega
    rcases em with g | g | g | g | g | g <;> subst g <;>
      simp [is_level_op, state.is_op, h, TOK_END, TOK_SEP, TOK_INFIX]

/-- A unary prefix before an operand token: `power` returns the prefix node over the
leaf. -/
theorem power_prefix_operand (c : Libc) (signs : List Bool) (bangs : Nat) (s s1 sa : state)
    (h1 : reads_ops c (signs.map (fun m => if m then impl.sub else impl.add)) s s1)
    (h2 : reads_ops c (List.replicate bangs impl.logical_not) s1 sa)
    (ha : is_operand sa) :
    yields (fun fuel => power c fuel s) (signs.length + bangs + 2)
      (prefix_node (signs.count true) bangs (operand_node sa), next_token c sa) := by
  intro fuel hf
  obtain ⟨k, rfl⟩ : ∃ k, fuel = k + 1 + 1 := ⟨fuel - 2, by omega⟩
  show power c (k + 1 + 1) s = _
  rw [power_unary_run c signs bangs s s1 sa (k + 1) h1 h2 (operand_no_sign sa ha).2
    (by omega) (by omega), base_operand c sa ha k]
  rfl

/-- The parse of `prefix a ^ b`: the prefix node is the left operand of `pow`. -/
theorem parse_prefix_pow (c : Libc) (signs : List Bool) (bangs : Nat) (s s1 sa t sb se : state)
    (h1 : reads_ops c (signs.map (fun m => if m then impl.sub else impl.add)) s s1)
    (h2 : reads_ops c (List.replicate bangs impl.logical_not) s1 sa)
    (ha : is_operand sa) (e1 : next_token c sa = t) (ht : is_level_op 5 t = true)
    (e2 : next_token c t = sb) (hb : is_operand sb) (e3 : next_token c sb = se)
    (he : ∀ m, is_level_op m se = false) :
    yields (fun fuel => list c fuel s) (signs.length + bangs + 64)
      (binary impl.pow (prefix_node (signs.count true) bangs (operand_node sa)) (operand_node sb),
        se) := by
  subst e1 e2 e3
  have Pa := power_prefix_operand c signs bangs s s1 sa h1 h2 ha
  have Ab := level_operand c _ hb 0 6 (by omega) (fun m _ => he m)
  have hfn : level_function 5 (next_token c sa) = impl.pow := by
    simp only [is_level_op, state.is_op, fba_pow, List.any_cons, List.any_nil, Bool.or_false,
      Bool.and_eq_true, beq_iff_eq] at ht
    simp [level_function, ht.2]
  have R := level_loop_round c 5 (le_refl _) _ _
    (prefix_node (signs.count true) bangs (operand_node sa)) _ _ ht Ab _ 1
    (level_loop_stop c 5 (le_refl _) _ _ (he 5))
  rw [hfn] at R
  have P := level_parse_via c 5 (le_refl _) _ _ _ _ Pa _ _ R
  have L := level_lift c _ _ _ 5 0 5 _ (by omega) (by omega) P (fun m _ _ => he m)
  exact yields_mono L (by omega)

theorem parse_fuel_ge (expression : List Nat) : 64 ≤ parse_fuel expression := by
  unfold parse_fuel; omega

theorem lex_run_add (c : Libc) (a b : Nat) (s : state) :
    lex_run c (a + b) s = lex_run c b (lex_run c a s) := by
  induction b with
  | zero => rfl
  | succ b ih => show next_token c (lex_run c (a + b) s) = next_token c _; rw [ih]

theorem token_succ (c : Libc) (text : List Nat) (vars : List te_variable) (k : Nat) :
    next_token c (token c text vars k) = token c text vars (k + 1) := rfl

/-- Stepping over operator tokens shortens the rest of the input by one byte per
operator, the last one apart. -/
theorem reads_ops_length (c : Libc) (fs : List Nat) :
    ∀ s s1, reads_ops c fs s s1 → s1.next.length + fs.length ≤ s.next.length + 1 := by
  induction fs with
  | nil =>
    intro s s1 h
    simp only [reads_ops] at h
    subst h; simp
  | cons f fs ih =>
    intro s s1 h
    simp only [reads_ops] at h
    obtain ⟨_, _, hrest⟩ := h
    have hlex := next_token_spec c s
    have hi := ih (next_token c s) s1 hrest
    cases fs with
    | nil =>
      simp only [reads_ops] at hrest
      subst hrest
      have := hlex.2.1
      simp; omega
    | cons g gs =>
      simp only [reads_ops] at hrest
      have hlt := hlex.2.2.1 (by rw [hrest.1]; decide) (by rw [hrest.1]; decide)
      simp only [List.length_cons] at hi ⊢
      omega

theorem reads_ops_append (c : Libc) (fs gs : List Nat) :
    ∀ s s1 s2, reads_ops c fs s s1 → reads_ops c gs s1 s2 → reads_ops c (fs ++ gs) s s2 := by
  induction fs with
  | nil =>
    intro s s1 s2 h1 h2
    simp only [reads_ops] at h1
    subst h1; exact h2
  | cons f fs ih =>
    intro s s1 s2 h1 h2
    simp only [reads_ops] at h1
    exact ⟨h1.1, h1.2.1, ih _ _ _ h1.2.2 h2⟩

/-- A prefix read from the first token on has at most as many tokens as the text has
bytes. -/
theorem prefix_length_le (c : Libc) (text : List Nat) (vars : List te_variable)
    (fs : List Nat) (s1 : state) (h : reads_ops c fs (token c text vars 0) s1) :
    fs.length ≤ text.length := by
  cases fs with
  | nil => simp
  | cons f fs =>
    have hl := reads_ops_length c (f :: fs) _ _ h
    simp only [reads_ops] at h
    have hlex := next_token_spec c (init_state text vars)
    have hlt := hlex.2.2.1 (by show (token c text vars 0).type ≠ _; rw [h.1]; decide)
      (by show (token c text vars 0).type ≠ _; rw [h.1]; decide)
    have h0 : (init_state text vars).next.length = text.length := rfl
    have : (token c text vars 0).next.length < text.length := by rw [← h0]; exact hlt
    simp only [List.length_cons] at hl ⊢
    omega

/-- C4: the parse of `compile_native` follows the precedence levels `,` < `&&` `||` <
comparisons < `+` `-` < `*` `/` `%` < `^` < unary prefix. For operand tokens
`a`, `b`, `c` (numbers or bound variables), an operator of level `l1` and
one of a strictly higher level `l2`: `a op1 b op2 c` parses as `op1(a, op2(b,
c))` and `a op2 b op1 c` as `op1(op2(a, b), c)`; a unary prefix before `a` in
`a ^ b` (such as `-a^b`) ends up inside the left operand of `pow`. The texts
`1 + 2 * 3` and `-2^2` evaluate to 7 and 4. -/
theorem C4_precedence :
    (∀ (c : Libc) (text : List Nat) (vars : List te_variable) (l1 l2 : Nat),
      is_operand (token c text vars 0) → is_operand (token c text vars 2) →
      is_operand (token c text vars 4) → (token c text vars 5).type = TOK_END →
      l1 < l2 →
      (is_level_op l1 (token c text vars 1) = true →
        is_level_op l2 (token c text vars 3) = true →
        parse c text vars =
          some (binary (level_function l1 (token c text vars 1)) (operand_node (token c text vars 0))
            (binary (level_function l2 (token c text vars 3)) (operand_node (token c text vars 2))
              (operand_node (token c text vars 4))), token c text vars 5)) ∧
      (is_level_op l2 (token c text vars 1) = true →
        is_level_op l1 (token c text vars 3) = true →
        parse c text vars =
          some (binary (level_function l1 (token c text vars 3))
            (binary (level_function l2 (token c text vars 1)) (operand_node (token c text vars 0))
              (operand_node (token c text vars 2)))
            (operand_node (token c text vars 4)), token c text vars 5))) ∧
    (∀ (c : Libc) (text : List Nat) (vars : List te_variable) (signs : List Bool) (bangs : Nat),
      reads_ops c (signs.map (fun m => if m then impl.sub else impl.add)) (token c text vars 0)
        (token c text vars signs.length) →
      reads_ops c (List.replicate bangs impl.logical_not) (token c text vars signs.length)
        (token c text vars (signs.length + bangs)) →
      is_operand (token c text vars (signs.length + bangs)) →
      is_level_op 5 (token c text vars (signs.length + bangs + 1)) = true →
      is_operand (token c text vars (signs.length + bangs + 2)) →
      (token c text vars (signs.length + bangs + 3)).type = TOK_END →
      parse c text vars =
        some (binary impl.pow
          (prefix_node (signs.count true) bangs
            (operand_node (token c text vars (signs.length + bangs))))
          (operand_node (token c text vars (signs.length + bangs + 2))),
          token c text vars (signs.length + bangs + 3))) ∧
    interp plain_host [] (cstr "1 + 2 * 3") = .ok (.num 7, 0) ∧
    interp plain_host [] (cstr "-2^2") = .ok (.num 4, 0) := by
  refine ⟨?_, ?_, by decide!, by decide!⟩
  · intro c text vars l1 l2 ha hb hc he hlt
    constructor
    · intro h1 h2
      have := parse_two_operators c _ _ _ _ _ _ l1 l2 (token_succ c text vars 0)
        (token_succ c text vars 1) (token_succ c text vars 2) (token_succ c text vars 3)
        (token_succ c text vars 4) ha h1 hb h2 hc (end_not_level_op _ he)
        (parse_fuel text) (parse_fuel_ge text)
      rw [two_operator_tree, if_pos hlt] at this
      exact this
    · intro h1 h2
      have := parse_two_operators c _ _ _ _ _ _ l2 l1 (token_succ c text vars 0)
        (token_succ c text vars 1) (token_succ c text vars 2) (token_succ c text vars 3)
        (token_succ c text vars 4) ha h1 hb h2 hc (end_not_level_op _ he)
        (parse_fuel text) (parse_fuel_ge text)
      rw [two_operator_tree, if_neg (by omega)] at this
      exact this
  · intro c text vars signs bangs h1 h2 ha ht hb he
    have hlen := prefix_length_le c text vars _ _ (reads_ops_append c _ _ _ _ _ h1 h2)
    simp only [List.length_append, List.length_map, List.length_replicate] at hlen
    exact parse_prefix_pow c signs bangs _ _ _ _ _ _ h1 h2 ha
      (token_succ c text vars _) ht (token_succ c text vars _) hb (token_succ c text vars _)
      (end_not_level_op _ he) (parse_fuel text) (by unfold parse_fuel; omega)

/-- C4 at the texts `1 + 2 * 3`, `1 * 2 + 3` and `-2^2`. -/
theorem C4_precedence_witness :
    parse exact_libc (cstr "1 + 2 * 3") [] =
      some (binary impl.add (.node TE_CONSTANT (.value (.num 1)) [] 0)
        (binary impl.mul (.node TE_CONSTANT (.value (.num 2)) [] 0)
          (.node TE_CONSTANT (.value (.num 3)) [] 0)), token exact_libc (cstr "1 + 2 * 3") [] 5) ∧
    parse exact_libc (cstr "1 * 2 + 3") [] =
      some (binary impl.add
        (binary impl.mul (.node TE_CONSTANT (.value (.num 1)) [] 0)
          (.node TE_CONSTANT (.value (.num 2)) [] 0))
        (.node TE_CONSTANT (.value (.num 3)) [] 0), token exact_libc (cstr "1 * 2 + 3") [] 5) ∧
    parse exact_libc (cstr "-2^2") [] =
      some (binary impl.pow
        (.node (TE_FUNCTION1 ||| TE_FLAG_PURE) (.ptr impl.negate)
          [.node TE_CONSTANT (.value (.num 2)) [] 0] 0)
        (.node TE_CONSTANT (.value (.num 2)) [] 0), token exact_libc (cstr "-2^2") [] 4) := by
  refine ⟨?_, ?_, ?_⟩
  · exact ((C4_precedence.1 exact_libc (cstr "1 + 2 * 3") [] 3 4 (by decide!) (by decide!)
      (by decide!) (by decide!) (by decide)).1 (by decide!) (by decide!)).trans (by decide!)
  · exact ((C4_precedence.1 exact_libc (cstr "1 * 2 + 3") [] 3 4 (by decide!) (by decide!)
      (by decide!) (by decide!) (by decide)).2 (by decide!) (by decide!)).trans (by decide!)
  · exact (C4_precedence.2.1 exact_libc (cstr "-2^2") [] [true] 0
      ⟨by decide!, by decide!, rfl⟩ rfl (by decide!) (by decide!) (by decide!)
      (by decide!)).trans (by decide!)

/-- C5: every binary level is left-associative. For operand tokens `a`, `b`, `c` and
two operators of the same level `l` (also `^` with `^`), `a op b op2 c`
parses as `op2(op(a, b), c)`. The texts `3-2-4`, `3/2/4` and `2^3^4` evaluate
like `(3-2)-4`, `(3/2)/4` and `(2^3)^4`, the last to 4096. -/
theorem C5_left_associative :
    (∀ (c : Libc) (text : List Nat) (vars : List te_variable) (l : Nat),
      is_operand (token c text vars 0) → is_level_op l (token c text vars 1) = true →
      is_operand (token c text vars 2) → is_level_op l (token c text vars 3) = true →
      is_operand (token c text vars 4) → (token c text vars 5).type = TOK_END →
      parse c text vars =
        some (binary (level_function l (token c text vars 3))
          (binary (level_function l (token c text vars 1)) (operand_node (token c text vars 0))
            (operand_node (token c text vars 2)))
          (operand_node (token c text vars 4)), token c text vars 5)) ∧
    interp plain_host [] (cstr "3-2-4") = .ok (.num (-3), 0) ∧
    interp plain_host [] (cstr "(3-2)-4") = .ok (.num (-3), 0) ∧
    interp plain_host [] (cstr "3/2/4") = .ok (.num (3 / 8), 0) ∧
    interp plain_host [] (cstr "(3/2)/4") = .ok (.num (3 / 8), 0) ∧
    interp plain_host [] (cstr "2^3^4") = .ok (.num 4096, 0) ∧
    interp plain_host [] (cstr "(2^3)^4") = .ok (.num 4096, 0) := by
  refine ⟨?_, by decide!, by decide!, by decide!, by decide!, by decide!, by decide!⟩
  intro c text vars l ha h1 hb h2 hc he
  have := parse_two_operators c _ _ _ _ _ _ l l (token_succ c text vars 0)
    (token_succ c text vars 1) (token_succ c text vars 2) (token_succ c text vars 3)
    (token_succ c text vars 4) ha h1 hb h2 hc (end_not_level_op _ he)
    (parse_fuel text) (parse_fuel_ge text)
  rw [two_operator_tree, if_neg (by omega)] at this
  exact this

/-- C5 at the texts `3-2+4` (two operators of one level) and `2^3^4`. -/
theorem C5_left_associative_witness :
    parse exact_libc (cstr "3-2+4") [] =
      some (binary impl.add
        (binary impl.sub (.node TE_CONSTANT (.value (.num 3)) [] 0)
          (.node TE_CONSTANT (.value (.num 2)) [] 0))
        (.node TE_CONSTANT (.value (.num 4)) [] 0), token exact_libc (cstr "3-2+4") [] 5) ∧
    parse exact_libc (cstr "2^3^4") [] =
      some (binary impl.pow
        (binary impl.pow (.node TE_CONSTANT (.value (.num 2)) [] 0)
          (.node TE_CONSTANT (.value (.num 3)) [] 0))
        (.node TE_CONSTANT (.value (.num 4)) [] 0), token exact_libc (cstr "2^3^4") [] 5) := by
  refine ⟨?_, ?_⟩
  · exact (C5_left_associative.1 exact_libc (cstr "3-2+4") [] 3 (by decide!) (by decide!)
      (by decide!) (by decide!) (by decide!) (by decide!)).trans (by decide!)
  · exact (C5_left_associative.1 exact_libc (cstr "2^3^4") [] 5 (by decide!) (by decide!)
      (by decide!) (by decide!) (by decide!) (by decide!)).trans (by decide!)

/-! ## The tokens a parse steps over -/

theorem lex_reach_refl (c : Libc) (s : state) : lex_reach c s s :=
  ⟨0, Or.inl rfl, fun _ h => absurd h (Nat.not_lt_zero _)⟩

theorem lex_reach_error (c : Libc) (s : state) : lex_reach c s { s with type := TOK_ERROR } :=
  ⟨0, Or.inr rfl, fun _ h => absurd h (Nat.not_lt_zero _)⟩

theorem lex_reach_step (c : Libc) (s : state) (h1 : s.type ≠ TOK_END) (h2 : s.type ≠ TOK_ERROR) :
    lex_reach c s (next_token c s) :=
  ⟨1, Or.inl rfl, fun i hi => by
    have : i = 0 := by omega
    subst this; exact ⟨h1, h2⟩⟩

theorem lex_reach_trans (c : Libc) (s s1 s2 : state) (h1 : lex_reach c s s1)
    (h2 : lex_reach c s1 s2) : lex_reach c s s2 := by
  obtain ⟨k1, e1, l1⟩ := h1
  obtain ⟨k2, e2, l2⟩ := h2
  rcases e1 with e1 | e1
  · subst e1
    refine ⟨k1 + k2, ?_, ?_⟩
    · rw [lex_run_add]; exact e2
    · intro i hi
      by_cases hik : i < k1
      · exact l1 i hik
      · have := l2 (i - k1) (by omega)
        rw [← lex_run_add] at this
        have e : k1 + (i - k1) = i := by omega
        rw [e] at this
        exact this
  · -- `s1` is an error state: nothing is stepped over from it
    have hk2 : k2 = 0 := by
      by_contra hc
      have := (l2 0 (by omega)).2
      apply this
      show s1.type = TOK_ERROR
      rw [e1]
    subst hk2
    refine ⟨k1, Or.inr ?_, l1⟩
    rcases e2 with e2 | e2
    · rw [e2]; exact e1
    · rw [e2, e1]; rfl

theorem is_op_ne_end (s : state) (names : List String) (h : s.is_op names = true) :
    s.type ≠ TOK_END ∧ s.type ≠ TOK_ERROR := by
  simp only [state.is_op, Bool.and_eq_true, beq_iff_eq] at h
  rw [h.1]; decide

theorem factor_loop_reach_step (c : Libc) (n : Nat)
    (ihG : ∀ s q, power c n s = some q → lex_reach c s q.2)
    (ihL : ∀ ret s q, factor_loop c n ret s = some q → lex_reach c s q.2)
    (ret : expr_native) (s : state) (q : expr_native × state)
    (h : factor_loop c (n + 1) ret s = some q) : lex_reach c s q.2 := by
  rw [factor_loop] at h
  by_cases hop : s.is_op ["pow"] = true
  · rw [if_pos hop] at h
    cases hG : power c n (next_token c s) with
    | none => rw [hG] at h; cases h
    | some r =>
      rw [hG] at h
      exact lex_reach_trans c _ _ _ (lex_reach_step c s (is_op_ne_end s _ hop).1 (is_op_ne_end s _ hop).2)
        (lex_reach_trans c _ _ _ (ihG _ _ hG) (ihL _ _ _ h))
  · rw [if_neg hop] at h
    cases h; exact lex_reach_refl c s

theorem factor_reach_step (c : Libc) (n : Nat)
    (ihG : ∀ s q, power c n s = some q → lex_reach c s q.2)
    (ihL : ∀ ret s q, factor_loop c n ret s = some q → lex_reach c s q.2)
    (s : state) (q : expr_native × state)
    (h : factor c (n + 1) s = some q) : lex_reach c s q.2 := by
  rw [factor] at h
  cases hG : power c n s with
  | none => rw [hG] at h; cases h
  | some r =>
    rw [hG] at h
    exact lex_reach_trans c _ _ _ (ihG _ _ hG) (ihL _ _ _ h)

theorem term_loop_reach_step (c : Libc) (n : Nat)
    (ihG : ∀ s q, factor c n s = some q → lex_reach c s q.2)
    (ihL : ∀ ret s q, term_loop c n ret s = some q → lex_reach c s q.2)
    (ret : expr_native) (s : state) (q : expr_native × state)
    (h : term_loop c (n + 1) ret s = some q) : lex_reach c s q.2 := by
  rw [term_loop] at h
  by_cases hop : s.is_op ["mul", "divide", "fmod"] = true
  · rw [if_pos hop] at h
    cases hG : factor c n (next_token c s) with
    | none => rw [hG] at h; cases h
    | some r =>
      rw [hG] at h
      exact lex_reach_trans c _ _ _ (lex_reach_step c s (is_op_ne_end s _ hop).1 (is_op_ne_end s _ hop).2)
        (lex_reach_trans c _ _ _ (ihG _ _ hG) (ihL _ _ _ h))
  · rw [if_neg hop] at h
    cases h; exact lex_reach_refl c s

theorem term_reach_step (c : Libc) (n : Nat)
    (ihG : ∀ s q, factor c n s = some q → lex_reach c s q.2)
    (ihL : ∀ ret s q, term_loop c n ret s = some q → lex_reach c s q.2)
    (s : state) (q : expr_native × state)
    (h : term c (n + 1) s = some q) : lex_reach c s q.2 := by
  rw [term] at h
  cases hG : factor c n s with
  | none => rw [hG] at h; cases h
  | some r =>
    rw [hG] at h
    exact lex_reach_trans c _ _ _ (ihG _ _ hG) (ihL _ _ _ h)

theorem sum_expr_loop_reach_step (c : Libc) (n : Nat)
    (ihG : ∀ s q, term c n s = some q → lex_reach c s q.2)
    (ihL : ∀ ret s q, sum_expr_loop c n ret s = some q → lex_reach c s q.2)
    (ret : expr_native) (s : state) (q : expr_native × state)
    (h : sum_expr_loop c (n + 1) ret s = some q) : lex_reach c s q.2 := by
  rw [sum_expr_loop] at h
  by_cases hop : s.is_op ["add", "sub"] = true
  · rw [if_pos hop] at h
    cases hG : term c n (next_token c s) with
    | none => rw [hG] at h; cases h
    | some r =>
      rw [hG] at h
      exact lex_reach_trans c _ _ _ (lex_reach_step c s (is_op_ne_end s _ hop).1 (is_op_ne_end s _ hop).2)
        (lex_reach_trans c _ _ _ (ihG _ _ hG) (ihL _ _ _ h))
  · rw [if_neg hop] at h
    cases h; exact lex_reach_refl c s

theorem sum_expr_reach_step (c : Libc) (n : Nat)
    (ihG : ∀ s q, term c n s = some q → lex_reach c s q.2)
    (ihL : ∀ ret s q, sum_expr_loop c n ret s = some q → lex_reach c s q.2)
    (s : state) (q : expr_native × state)
    (h : sum_expr c (n + 1) s = some q) : lex_reach c s q.2 := by
  rw [sum_expr] at h
  cases hG : term c n s with
  | none => rw [hG] at h; cases h
  | some r =>
    rw [hG] at h
    exact lex_reach_trans c _ _ _ (ihG _ _ hG) (ihL _ _ _ h)

theorem test_expr_loop_reach_step (c : Libc) (n : Nat)
    (ihG : ∀ s q, sum_expr c n s = some q → lex_reach c s q.2)
    (ihL : ∀ ret s q, test_expr_loop c n ret s = some q → lex_reach c s q.2)
    (ret : expr_native) (s : state) (q : expr_native × state)
    (h : test_expr_loop c (n + 1) ret s = some q) : lex_reach c s q.2 := by
  rw [test_expr_loop] at h
  by_cases hop : s.is_op ["greater", "greater_eq", "lower", "lower_eq", "equal", "not_equal"] = true
  · rw [if_pos hop] at h
    cases hG : sum_expr c n (next_token c s) with
    | none => rw [hG] at h; cases h
    | some r =>
      rw [hG] at h
      exact lex_reach_trans c _ _ _ (lex_reach_step c s (is_op_ne_end s _ hop).1 (is_op_ne_end s _ hop).2)
        (lex_reach_trans c _ _ _ (ihG _ _ hG) (ihL _ _ _ h))
  · rw [if_neg hop] at h
    cases h; exact lex_reach_refl c s

theorem test_expr_reach_step (c : Libc) (n : Nat)
    (ihG : ∀ s q, sum_expr c n s = some q → lex_reach c s q.2)
    (ihL : ∀ ret s q, test_expr_loop c n ret s = some q → lex_reach c s q.2)
    (s : state) (q : expr_native × state)
    (h : test_expr c (n + 1) s = some q) : lex_reach c s q.2 := by
  rw [test_expr] at h
  cases hG : sum_expr c n s with
  | none => rw [hG] at h; cases h
  | some r =>
    rw [hG] at h
    exact lex_reach_trans c _ _ _ (ihG _ _ hG) (ihL _ _ _ h)

theorem expr_loop_reach_step (c : Libc) (n : Nat)
    (ihG : ∀ s q, test_expr c n s = some q → lex_reach c s q.2)
    (ihL : ∀ ret s q, expr_loop c n ret s = some q → lex_reach c s q.2)
    (ret : expr_native) (s : state) (q : expr_native × state)
    (h : expr_loop c (n + 1) ret s = some q) : lex_reach c s q.2 := by
  rw [expr_loop] at h
  by_cases hop : s.is_op ["logical_and", "logical_or"] = true
  · rw [if_pos hop] at h
    cases hG : test_expr c n (next_token c s) with
    | none => rw [hG] at h; cases h
    | some r =>
      rw [hG] at h
      exact lex_reach_trans c _ _ _ (lex_reach_step c s (is_op_ne_end s _ hop).1 (is_op_ne_end s _ hop).2)
        (lex_reach_trans c _ _ _ (ihG _ _ hG) (ihL _ _ _ h))
  · rw [if_neg hop] at h
    cases h; exact lex_reach_refl c s

theorem expr_reach_step (c : Libc) (n : Nat)
    (ihG : ∀ s q, test_expr c n s = some q → lex_reach c s q.2)
    (ihL : ∀ ret s q, expr_loop c n ret s = some q → lex_reach c s q.2)
    (s : state) (q : expr_native × state)
    (h : expr c (n + 1) s = some q) : lex_reach c s q.2 := by
  rw [expr] at h
  cases hG : test_expr c n s with
  | none => rw [hG] at h; cases h
  | some r =>
    rw [hG] at h
    exact lex_reach_trans c _ _ _ (ihG _ _ hG) (ihL _ _ _ h)

theorem list_loop_reach_step (c : Libc) (n : Nat)
    (ihG : ∀ s q, expr c n s = some q → lex_reach c s q.2)
    (ihL : ∀ ret s q, list_loop c n ret s = some q → lex_reach c s q.2)
    (ret : expr_native) (s : state) (q : expr_native × state)
    (h : list_loop c (n + 1) ret s = some q) : lex_reach c s q.2 := by
  rw [list_loop] at h
  by_cases hop : s.type = TOK_SEP
  · rw [if_pos hop] at h
    cases hG : expr c n (next_token c s) with
    | none => rw [hG] at h; cases h
    | some r =>
      rw [hG] at h
      exact lex_reach_trans c _ _ _ (lex_reach_step c s (by rw [hop]; decide) (by rw [hop]; decide))
        (lex_reach_trans c _ _ _ (ihG _ _ hG) (ihL _ _ _ h))
  · rw [if_neg hop] at h
    cases h; exact lex_reach_refl c s

theorem list_reach_step (c : Libc) (n : Nat)
    (ihG : ∀ s q, expr c n s = some q → lex_reach c s q.2)
    (ihL : ∀ ret s q, list_loop c n ret s = some q → lex_reach c s q.2)
    (s : state) (q : expr_native × state)
    (h : list c (n + 1) s = some q) : lex_reach c s q.2 := by
  rw [list] at h
  cases hG : expr c n s with
  | none => rw [hG] at h; cases h
  | some r =>
    rw [hG] at h
    exact lex_reach_trans c _ _ _ (ihG _ _ hG) (ihL _ _ _ h)

theorem power_sign_reach (c : Libc) (fuel : Nat) :
    ∀ s sign q, power_sign c fuel s sign = some q → lex_reach c s q.1 := by
  induction fuel with
  | zero => intro s sign q h; cases h
  | succ n ih =>
    intro s sign q h
    rw [power_sign] at h
    by_cases hop : s.is_op ["add", "sub"] = true
    · rw [if_pos hop] at h
      exact lex_reach_trans c _ _ _
        (lex_reach_step c s (is_op_ne_end s _ hop).1 (is_op_ne_end s _ hop).2) (ih _ _ _ h)
    · rw [if_neg hop] at h
      cases h; exact lex_reach_refl c s

theorem power_logical_reach (c : Libc) (fuel : Nat) :
    ∀ s l q, power_logical c fuel s l = some q → lex_reach c s q.1 := by
  induction fuel with
  | zero => intro s l q h; cases h
  | succ n ih =>
    intro s l q h
    rw [power_logical] at h
    by_cases hop : s.is_op ["add", "sub", "logical_not"] = true
    · rw [if_pos hop] at h
      exact lex_reach_trans c _ _ _
        (lex_reach_step c s (is_op_ne_end s _ hop).1 (is_op_ne_end s _ hop).2) (ih _ _ _ h)
    · rw [if_neg hop] at h
      cases h; exact lex_reach_refl c s

theorem power_reach_step (c : Libc) (n : Nat)
    (ihB : ∀ s q, base c n s = some q → lex_reach c s q.2)
    (s : state) (q : expr_native × state)
    (h : power c (n + 1) s = some q) : lex_reach c s q.2 := by
  rw [power] at h
  cases h1 : power_sign c (n + 1) s 1 with
  | none => rw [h1] at h; cases h
  | some r1 =>
    rw [h1] at h
    simp only [] at h
    cases h2 : power_logical c (n + 1) r1.1 0 with
    | none => rw [h2] at h; cases h
    | some r2 =>
      rw [h2] at h
      simp only [] at h
      cases h3 : base c n r2.1 with
      | none => rw [h3] at h; cases h
      | some r3 =>
        rw [h3] at h
        cases h
        exact lex_reach_trans c _ _ _ (power_sign_reach c _ _ _ _ h1)
          (lex_reach_trans c _ _ _ (power_logical_reach c _ _ _ _ h2) (ihB _ r3 h3))

theorem base_args_reach_step (c : Libc) (n : Nat)
    (ihE : ∀ s q, expr c n s = some q → lex_reach c s q.2)
    (ihA : ∀ ar i ret s q, (s.type = TOK_OPEN ∨ s.type = TOK_SEP) →
      base_args c n ar i ret s = some q → lex_reach c s q.2.1)
    (ar i : Nat) (ret : expr_native) (s : state) (q : expr_native × state × Nat)
    (hs : s.type = TOK_OPEN ∨ s.type = TOK_SEP)
    (h : base_args c (n + 1) ar i ret s = some q) : lex_reach c s q.2.1 := by
  rw [base_args] at h
  have hlive : s.type ≠ TOK_END ∧ s.type ≠ TOK_ERROR := by
    rcases hs with hs | hs <;> rw [hs] <;> decide
  by_cases hi : i < ar
  · rw [if_pos hi] at h
    cases hE : expr c n (next_token c s) with
    | none => rw [hE] at h; cases h
    | some r =>
      rw [hE] at h
      simp only [] at h
      have r1 := lex_reach_trans c _ _ _ (lex_reach_step c s hlive.1 hlive.2) (ihE _ _ hE)
      by_cases hsep : r.2.type ≠ TOK_SEP
      · rw [if_pos hsep] at h
        cases h; exact r1
      · rw [if_neg hsep] at h
        exact lex_reach_trans c _ _ _ r1 (ihA _ _ _ _ _ (Or.inr (not_not.mp hsep)) h)
  · rw [if_neg hi] at h
    cases h; exact lex_reach_refl c s

theorem lex_reach_then_error (c : Libc) (s s1 : state) (h : lex_reach c s s1) :
    lex_reach c s { s1 with type := TOK_ERROR } :=
  lex_reach_trans c _ _ _ h (lex_reach_error c s1)

theorem lex_reach_then_step (c : Libc) (s s1 : state) (h : lex_reach c s s1)
    (h1 : s1.type ≠ TOK_END) (h2 : s1.type ≠ TOK_ERROR) : lex_reach c s (next_token c s1) :=
  lex_reach_trans c _ _ _ h (lex_reach_step c s1 h1 h2)

theorem base_reach_step (c : Libc) (n : Nat)
    (ihP : ∀ s q, power c n s = some q → lex_reach c s q.2)
    (ihL : ∀ s q, list c n s = some q → lex_reach c s q.2)
    (ihA : ∀ ar i ret s q, (s.type = TOK_OPEN ∨ s.type = TOK_SEP) →
      base_args c n ar i ret s = some q → lex_reach c s q.2.1)
    (s : state) (q : expr_native × state)
    (h : base c (n + 1) s = some q) : lex_reach c s q.2 := by
  rw [base] at h
  have hmask := type_mask_eq_mod s.type
  dsimp only at h
  by_cases h1 : type_mask s.type = TOK_NUMBER
  · rw [if_pos h1] at h
    cases h
    simp only [TOK_NUMBER] at h1
    exact lex_reach_step c s (by simp only [TOK_END]; omega) (by simp only [TOK_ERROR]; omega)
  rw [if_neg h1] at h
  by_cases h2 : type_mask s.type = TOK_VARIABLE
  · rw [if_pos h2] at h
    cases h
    simp only [TOK_VARIABLE] at h2
    exact lex_reach_step c s (by simp only [TOK_END]; omega) (by simp only [TOK_ERROR]; omega)
  rw [if_neg h2] at h
  by_cases h3 : (type_mask s.type ≥ TE_FUNCTION0 ∧ type_mask s.type < TE_FUNCTION_MAX) ∨
      (type_mask s.type ≥ TE_CLOSURE0 ∧ type_mask s.type < TE_CLOSURE_MAX)
  · rw [if_pos h3] at h
    have hlive : s.type ≠ TOK_END ∧ s.type ≠ TOK_ERROR := by
      simp only [TE_FUNCTION0, TE_FUNCTION_MAX, TE_CLOSURE0, TE_CLOSURE_MAX] at h3
      simp only [TOK_END, TOK_ERROR]
      omega
    have r0 := lex_reach_step c s hlive.1 hlive.2
    by_cases ha0 : arity s.type = 0
    · rw [if_pos ha0] at h
      by_cases ho : (next_token c s).type = TOK_OPEN
      · rw [if_pos ho] at h
        have r1 := lex_reach_then_step c s _ r0 (by rw [ho]; decide) (by rw [ho]; decide)
        by_cases hc : (next_token c (next_token c s)).type ≠ TOK_CLOSE
        · rw [if_pos hc] at h
          cases h; exact lex_reach_then_error c s _ r1
        · rw [if_neg hc] at h
          cases h
          have hcl := not_not.mp hc
          exact lex_reach_then_step c s _ r1 (by rw [hcl]; decide) (by rw [hcl]; decide)
      · rw [if_neg ho] at h
        cases h; exact r0
    rw [if_neg ha0] at h
    by_cases ha1 : arity s.type = 1
    · rw [if_pos ha1] at h
      cases hP : power c n (next_token c s) with
      | none => rw [hP] at h; cases h
      | some r =>
        rw [hP] at h
        cases h
        exact lex_reach_trans c _ _ _ r0 (ihP _ r hP)
    rw [if_neg ha1] at h
    by_cases ho : (next_token c s).type ≠ TOK_OPEN
    · rw [if_pos ho] at h
      cases h; exact lex_reach_then_error c s _ r0
    rw [if_neg ho] at h
    cases hA : base_args c n (arity s.type) 0 (call_node s) (next_token c s) with
    | none => rw [hA] at h; cases h
    | some r =>
      rw [hA] at h
      simp only [] at h
      have r1 := lex_reach_trans c _ _ _ r0 (ihA _ _ _ _ r (Or.inl (not_not.mp ho)) hA)
      by_cases hc : r.2.1.type ≠ TOK_CLOSE ∨ r.2.2 ≠ arity s.type - 1
      · rw [if_pos hc] at h
        cases h; exact lex_reach_then_error c s _ r1
      · rw [if_neg hc] at h
        cases h
        have hcl : r.2.1.type = TOK_CLOSE := by
          by_contra hx; exact hc (Or.inl hx)
        exact lex_reach_then_step c s _ r1 (by rw [hcl]; decide) (by rw [hcl]; decide)
  rw [if_neg h3] at h
  by_cases h4 : type_mask s.type = TOK_OPEN
  · rw [if_pos h4] at h
    have hlive : s.type ≠ TOK_END ∧ s.type ≠ TOK_ERROR := by
      simp only [TOK_OPEN] at h4
      simp only [TOK_END, TOK_ERROR]
      omega
    have r0 := lex_reach_step c s hlive.1 hlive.2
    cases hL : list c n (next_token c s) with
    | none => rw [hL] at h; cases h
    | some r =>
      rw [hL] at h
      simp only [] at h
      have r1 := lex_reach_trans c _ _ _ r0 (ihL _ r hL)
      by_cases hc : r.2.type ≠ TOK_CLOSE
      · rw [if_pos hc] at h
        cases h; exact lex_reach_then_error c s _ r1
      · rw [if_neg hc] at h
        cases h
        have hcl := not_not.mp hc
        exact lex_reach_then_step c s _ r1 (by rw [hcl]; decide) (by rw [hcl]; decide)
  · rw [if_neg h4] at h
    cases h; exact lex_reach_error c s

/-- Every parser function leaves the lexer in a state reached from the one it started
in by stepping over tokens other than `TOK_END` and `TOK_ERROR`, possibly marked
as an error at the end. -/
theorem parser_reach (c : Libc) (fuel : Nat) :
    (∀ s q, base c fuel s = some q → lex_reach c s q.2) ∧
    (∀ ar i ret s q, (s.type = TOK_OPEN ∨ s.type = TOK_SEP) →
      base_args c fuel ar i ret s = some q → lex_reach c s q.2.1) ∧
    (∀ s q, power c fuel s = some q → lex_reach c s q.2) ∧
    (∀ s q, factor c fuel s = some q → lex_reach c s q.2) ∧
    (∀ ret s q, factor_loop c fuel ret s = some q → lex_reach c s q.2) ∧
    (∀ s q, term c fuel s = some q → lex_reach c s q.2) ∧
    (∀ ret s q, term_loop c fuel ret s = some q → lex_reach c s q.2) ∧
    (∀ s q, sum_expr c fuel s = some q → lex_reach c s q.2) ∧
    (∀ ret s q, sum_expr_loop c fuel ret s = some q → lex_reach c s q.2) ∧
    (∀ s q, test_expr c fuel s = some q → lex_reach c s q.2) ∧
    (∀ ret s q, test_expr_loop c fuel ret s = some q → lex_reach c s q.2) ∧
    (∀ s q, expr c fuel s = some q → lex_reach c s q.2) ∧
    (∀ ret s q, expr_loop c fuel ret s = some q → lex_reach c s q.2) ∧
    (∀ s q, list c fuel s = some q → lex_reach c s q.2) ∧
    (∀ ret s q, list_loop c fuel ret s = some q → lex_reach c s q.2) := by
  induction fuel with
  | zero =>
    refine ⟨?_, ?_, ?_, ?_, ?_, ?_, ?_, ?_, ?_, ?_, ?_, ?_, ?_, ?_, ?_⟩ <;> intros <;>
      rename_i h <;> first
      | (rw [base] at h; cases h)
      | (rw [base_args] at h; cases h)
      | (rw [power] at h; cases h)
      | (rw [factor] at h; cases h)
      | (rw [factor_loop] at h; cases h)
      | (rw [term] at h; cases h)
      | (rw [term_loop] at h; cases h)
      | (rw [sum_expr] at h; cases h)
      | (rw [sum_expr_loop] at h; cases h)
      | (rw [test_expr] at h; cases h)
      | (rw [test_expr_loop] at h; cases h)
      | (rw [expr] at h; cases h)
      | (rw [expr_loop] at h; cases h)
      | (rw [list] at h; cases h)
      | (rw [list_loop] at h; cases h)
  | succ n ih =>
    obtain ⟨iBase, iArgs, iPower, iFactor, iFactorL, iTerm, iTermL, iSum, iSumL, iTest, iTestL,
      iExpr, iExprL, iList, iListL⟩ := ih
    exact ⟨base_reach_step c n iPower iList iArgs,
      base_args_reach_step c n iExpr iArgs,
      power_reach_step c n iBase,
      factor_reach_step c n iPower iFactorL,
      factor_loop_reach_step c n iPower iFactorL,
      term_reach_step c n iFactor iTermL,
      term_loop_reach_step c n iFactor iTermL,
      sum_expr_reach_step c n iTerm iSumL,
      sum_expr_loop_reach_step c n iTerm iSumL,
      test_expr_reach_step c n iSum iTestL,
      test_expr_loop_reach_step c n iSum iTestL,
      expr_reach_step c n iTest iExprL,
      expr_loop_reach_step c n iTest iExprL,
      list_reach_step c n iExpr iListL,
      list_loop_reach_step c n iExpr iListL⟩

/-- The parse of `compile_native` ends in a state reached from the first token. -/
theorem parse_reach (c : Libc) (text : List Nat) (vars : List te_variable)
    (q : expr_native × state) (h : parse c text vars = some q) :
    lex_reach c (token c text vars 0) q.2 :=
  (parser_reach c (parse_fuel text)).2.2.2.2.2.2.2.2.2.2.2.2.2.1 _ q h

theorem ident_char_ne_zero (b : Nat) (h : is_ident_char b = true) : b ≠ 0 := by
  intro hb; subst hb; revert h; decide

/-! ## Name lookup: `strncmp`, `name_compare`, the binary search -/

/-- `strncmp` gives 0 on a text without NUL in its first `n` bytes only when the other
string starts with the same `n` bytes. -/
theorem strncmp_eq_zero (n : Nat) :
    ∀ (a b : List Nat), (∀ x ∈ a.take n, x ≠ 0) → n ≤ a.length → strncmp a b n = 0 →
      b.take n = a.take n := by
  induction n with
  | zero => intro a b _ _ _; simp
  | succ n ih =>
    intro a b hnz hlen h
    cases a with
    | nil => simp at hlen
    | cons x xs =>
      rw [strncmp] at h
      simp only [List.headD_cons, List.tail_cons] at h
      have hx : x ≠ 0 := hnz x (by simp)
      cases b with
      | nil =>
        simp only [List.headD_nil] at h
        rw [if_pos hx] at h
        omega
      | cons y ys =>
        simp only [List.headD_cons, List.tail_cons] at h
        by_cases hxy : x ≠ y
        · rw [if_pos hxy] at h; omega
        · rw [if_neg hxy, if_neg hx] at h
          have hxy' : x = y := not_not.mp hxy
          have := ih xs ys (fun z hz => hnz z (by simp [hz])) (by simpa using hlen) h
          simp [List.take_succ_cons, this, hxy']

/-- `name_compare` gives 0 on a text without NUL in its first `n` bytes only when the
other string starts with the same `n` bytes. -/
theorem name_compare_eq_zero (n : Nat) :
    ∀ (a b : List Nat), (∀ x ∈ a.take n, x ≠ 0) → n ≤ a.length → name_compare a b n = 0 →
      b.take n = a.take n := by
  induction n with
  | zero => intro a b _ _ _; simp
  | succ n ih =>
    intro a b hnz hlen h
    cases a with
    | nil => simp at hlen
    | cons x xs =>
      rw [name_compare] at h
      simp only [List.headD_cons, List.tail_cons] at h
      have hx : x ≠ 0 := hnz x (by simp)
      cases b with
      | nil =>
        simp only [List.headD_nil] at h
        rw [if_neg (by intro hc; exact hx hc.2)] at h
        omega
      | cons y ys =>
        simp only [List.headD_cons, List.tail_cons] at h
        by_cases hxy : x = y
        · rw [if_pos ⟨hx, hxy⟩] at h
          have := ih xs ys (fun z hz => hnz z (by simp [hz])) (by simpa using hlen) h
          simp [List.take_succ_cons, this, hxy]
        · rw [if_neg (by intro hc; exact hxy hc.2)] at h
          omega

/-- What `find_in_table` finds is an entry of the table whose name is exactly the
first `len` bytes of the text. -/
theorem find_in_table_some (table : List te_variable) (name : List Nat) (len : Nat)
    (hnz : ∀ x ∈ name.take len, x ≠ 0) (hlen : len ≤ name.length) (fuel : Nat) :
    ∀ (imin imax : Int) (v : te_variable),
      find_in_table table name len fuel imin imax = some v →
      v ∈ table ∧ is_name v.name (name.take len) := by
  induction fuel with
  | zero => intro imin imax v h; cases h
  | succ n ih =>
    intro imin imax v h
    rw [find_in_table] at h
    by_cases hge : imax ≥ imin
    · rw [if_pos hge] at h
      dsimp only at h
      cases hg : table.get? (imin + (imax - imin) / 2).toNat with
      | none => rw [hg] at h; cases h
      | some w =>
        rw [hg] at h
        dsimp only at h
        by_cases hc0 : name_compare name w.name len = 0
        · rw [if_pos hc0] at h
          by_cases hz : (0 : Int) - ((w.name.getD len 0 : Nat) : Int) = 0
          · rw [if_pos hz] at h
            cases h
            refine ⟨List.get?_mem hg, ?_, ?_⟩
            · rw [List.length_take, Nat.min_eq_left hlen]
              exact name_compare_eq_zero len name _ hnz hlen hc0
            · rw [List.length_take, Nat.min_eq_left hlen]; omega
          · rw [if_neg hz] at h
            split at h
            · exact ih _ _ _ h
            · exact ih _ _ _ h
        · rw [if_neg hc0, if_neg hc0] at h
          split at h
          · exact ih _ _ _ h
          · exact ih _ _ _ h
    · rw [if_neg hge] at h; cases h

/-- What `find_builtin` finds is an entry of a built-in table with exactly that name. -/
theorem find_builtin_some (name : List Nat) (len : Nat)
    (hnz : ∀ x ∈ name.take len, x ≠ 0) (hlen : len ≤ name.length) (v : te_variable)
    (h : find_builtin name len = some v) :
    v ∈ functions ++ operators ∧ is_name v.name (name.take len) := by
  unfold find_builtin at h
  cases hf : find_builtin_function name len with
  | some w =>
    rw [hf] at h
    cases h
    have := find_in_table_some functions name len hnz hlen _ _ _ _ hf
    exact ⟨List.mem_append_left _ this.1, this.2⟩
  | none =>
    rw [hf] at h
    have := find_in_table_some operators name len hnz hlen _ _ _ _ h
    exact ⟨List.mem_append_right _ this.1, this.2⟩

/-- What `find_lookup` finds is an entry of the lookup table with exactly that name. -/
theorem find_lookup_some (lookup : List te_variable) (name : List Nat) (len : Nat)
    (hnz : ∀ x ∈ name.take len, x ≠ 0) (hlen : len ≤ name.length) (v : te_variable)
    (h : find_lookup lookup name len = some v) :
    v ∈ lookup ∧ is_name v.name (name.take len) := by
  unfold find_lookup at h
  have hm := List.mem_of_find?_eq_some h
  have hp := List.find?_some h
  simp only [Bool.and_eq_true, beq_iff_eq] at hp
  refine ⟨hm, ?_, ?_⟩
  · rw [List.length_take, Nat.min_eq_left hlen]
    exact strncmp_eq_zero len name _ hnz hlen hp.1
  · rw [List.length_take, Nat.min_eq_left hlen]; exact hp.2

/-! ## The cursor -/

theorem advanced_from_ite (s : state) (p : Prop) [Decidable p] (a b : state)
    (ha : p → advanced_from s a) (hb : ¬ p → advanced_from s b) :
    advanced_from s (if p then a else b) := by
  by_cases hp : p
  · rw [if_pos hp]; exact ha hp
  · rw [if_neg hp]; exact hb hp

theorem advanced_from_trans (s s1 s2 : state) (h1 : advanced_from s s1)
    (h2 : advanced_from s1 s2) : advanced_from s s2 := by
  obtain ⟨n, a1, a2⟩ := h1
  obtain ⟨m, b1, b2⟩ := h2
  refine ⟨n + m, ?_, by omega⟩
  rw [b1, a1, List.drop_drop, Nat.add_comm]

theorem advanced_from_advance (s : state) (k : Nat) : advanced_from s (s.advance k) :=
  ⟨k, rfl, rfl⟩

theorem next_token_loop_advanced (c : Libc) (fuel : Nat) (s : state) :
    advanced_from s (next_token_loop c fuel s) := by
  induction fuel generalizing s with
  | zero => exact ⟨0, rfl, rfl⟩
  | succ n ih =>
    rw [next_token_loop]
    apply advanced_from_ite
    · intro _; exact ⟨0, rfl, rfl⟩
    intro _
    apply advanced_from_ite
    · intro _; exact ⟨_, rfl, rfl⟩
    intro _
    apply advanced_from_ite
    · intro _
      have hrec : advanced_from s
          (next_token_loop c n (s.advance (s.next.takeWhile is_ident_char).length)) :=
        advanced_from_trans _ _ _ (advanced_from_advance s _) (ih _)
      dsimp only
      generalize (find_lookup s.lookup s.next (s.next.takeWhile is_ident_char).length).orElse
          (fun _ => find_builtin s.next (s.next.takeWhile is_ident_char).length) = r
      cases r with
      | none => exact ⟨_, rfl, rfl⟩
      | some var =>
        dsimp only
        apply advanced_from_ite
        · intro _; exact ⟨_, rfl, rfl⟩
        intro _
        apply advanced_from_ite
        · intro _
          apply advanced_from_ite
          · intro _; exact ⟨_, rfl, rfl⟩
          intro _
          apply advanced_from_ite
          · intro _; exact ⟨_, rfl, rfl⟩
          · intro _; exact hrec
        · intro _; exact hrec
    intro _
    have hrec : advanced_from s (next_token_loop c n (s.advance 1)) :=
      advanced_from_trans _ _ _ (advanced_from_advance s _) (ih _)
    repeat' (apply advanced_from_ite <;> intro _)
    all_goals first
      | exact ⟨_, rfl, rfl⟩
      | exact hrec

/-- The lexer moves the cursor forward and counts the bytes in `pos`. -/
theorem next_token_advanced (c : Libc) (s : state) : advanced_from s (next_token c s) :=
  next_token_loop_advanced c _ s

theorem lex_run_advanced (c : Libc) (k : Nat) (s : state) : advanced_from s (lex_run c k s) := by
  induction k with
  | zero => exact ⟨0, rfl, rfl⟩
  | succ k ih => exact advanced_from_trans _ _ _ ih (next_token_advanced c _)

theorem lex_reach_advanced (c : Libc) (s s1 : state) (h : lex_reach c s s1) :
    advanced_from s s1 := by
  obtain ⟨k, e, _⟩ := h
  obtain ⟨n, a1, a2⟩ := lex_run_advanced c k s
  rcases e with e | e
  · rw [e]; exact ⟨n, a1, a2⟩
  · rw [e]; exact ⟨n, a1, a2⟩

/-- The parse of `compile_native` ends with the cursor `pos` bytes into the text. -/
theorem parse_cursor (c : Libc) (text : List Nat) (vars : List te_variable)
    (q : expr_native × state) (h : parse c text vars = some q) :
    q.2.next = text.drop q.2.pos := by
  have h1 := lex_reach_advanced c _ _ (parse_reach c text vars q h)
  have h0 : advanced_from (init_state text vars) (token c text vars 0) :=
    next_token_advanced c _
  obtain ⟨n, a1, a2⟩ := advanced_from_trans _ _ _ h0 h1
  rw [a1, a2]
  show List.drop n text = List.drop (0 + n) text
  rw [Nat.zero_add]

theorem lex_run_lookup (c : Libc) (k : Nat) (s : state) : (lex_run c k s).lookup = s.lookup := by
  induction k with
  | zero => rfl
  | succ k ih => show (next_token c _).lookup = _; rw [(next_token_spec c _).2.2.2, ih]

theorem lex_run_next (c : Libc) (k : Nat) (s : state) :
    lex_run c k (next_token c s) = lex_run c (k + 1) s := by
  induction k with
  | zero => rfl
  | succ k ih => show next_token c _ = next_token c _; rw [ih]

/-! ## C7: the error offset -/

theorem compile_native_of_parse (h : Host) (mem : Mem) (text : List Nat)
    (vars : List te_variable) (root : expr_native) (s : state)
    (hp : parse h.libc text vars = some (root, s)) :
    compile_native h mem text vars =
      if s.type ≠ TOK_END then .ok (none, if s.pos = 0 then 1 else (s.pos : Int))
      else
        match optimize h mem root with
        | none => .fault
        | some r => .ok (some r, 0) := by
  unfold compile_native
  rw [hp]

theorem compile_of_parse_not_end (h : Host) (mem : Mem) (text : List Nat)
    (vars : List te_variable) (root : expr_native) (s : state)
    (hp : parse h.libc text vars = some (root, s)) (hs : s.type ≠ TOK_END) :
    compile h mem text vars = .ok (none, max 1 (s.pos : Int)) := by
  have e : (if s.pos = 0 then (1 : Int) else (s.pos : Int)) = max 1 (s.pos : Int) := by
    split <;> omega
  unfold compile compile_using_indexer
  rw [compile_native_of_parse h mem text vars root s hp, if_pos hs, e]

theorem compile_of_parse_end (h : Host) (mem : Mem) (text : List Nat)
    (vars : List te_variable) (root : expr_native) (s : state)
    (hp : parse h.libc text vars = some (root, s)) (hs : s.type = TOK_END) :
    compile h mem text vars = .fault ∨ ∃ n, compile h mem text vars = .ok (some n, 0) := by
  unfold compile compile_using_indexer
  rw [compile_native_of_parse h mem text vars root s hp, if_neg (not_not.mpr hs)]
  cases optimize h mem root with
  | none => exact Or.inl rfl
  | some r =>
    dsimp only
    cases export_estimate vars r (0, indexer.empty) with
    | none => exact Or.inl rfl
    | some q =>
      dsimp only
      cases names_of q.2 q.2.get_address_table with
      | none => exact Or.inl rfl
      | some ns =>
        dsimp only
        cases export_write vars q.2 r (0, List.replicate (q.1 / 8) (.int 0)) with
        | none => exact Or.inl rfl
        | some w => exact Or.inr ⟨_, rfl⟩

/-! ## C8: unknown identifiers -/

theorem ite_neg_eq (p : Prop) [Decidable p] (a b t : state) (hp : ¬ p) (h : b = t) :
    (if p then a else b) = t := by
  rw [if_neg hp]; exact h

theorem next_token_loop_blank (c : Libc) (fuel : Nat) (s : state)
    (hb : is_blank (s.next.headD 0)) :
    next_token_loop c (fuel + 1) s = next_token_loop c fuel (s.advance 1) := by
  rw [next_token_loop]
  rcases hb with hh | hh | hh | hh
  all_goals
    repeat (refine ite_neg_eq _ _ _ _ (by rw [hh]; decide) ?_)
    exact if_pos (by rw [hh]; decide)

theorem takeWhile_ident (ident rest : List Nat) (hi : ∀ b ∈ ident, is_ident_char b = true)
    (hr : is_ident_char (rest.headD 0) = false) :
    (ident ++ rest).takeWhile is_ident_char = ident := by
  induction ident with
  | nil =>
    cases rest with
    | nil => rfl
    | cons r rs => simp only [List.nil_append, List.takeWhile_cons]; rw [show is_ident_char r = false from hr]; rfl
  | cons a tl ih =>
    simp only [List.cons_append, List.takeWhile_cons]
    rw [hi a (List.mem_cons_self _ _), if_pos rfl, ih (fun b hb => hi b (List.mem_cons_of_mem _ hb))]

theorem next_token_loop_unknown (c : Libc) (fuel : Nat) (s : state) (ident rest : List Nat)
    (hn : s.next = ident ++ rest) (hi : is_identifier ident)
    (hr : is_ident_char (rest.headD 0) = false)
    (hu : ∀ v ∈ s.lookup ++ (functions ++ operators), ¬ is_name v.name ident) :
    next_token_loop c (fuel + 1) s = { s.advance ident.length with type := TOK_ERROR } := by
  have htw : s.next.takeWhile is_ident_char = ident := by rw [hn]; exact takeWhile_ident _ _ hi.2 hr
  have hhead : s.next.headD 0 = ident.headD 0 := by
    rw [hn]
    cases ident with
    | nil => exfalso; have := hi.1.1; revert this; decide
    | cons a tl => rfl
  have htake : s.next.take ident.length = ident := by rw [hn]; simp
  have hnz : ∀ x ∈ s.next.take ident.length, x ≠ 0 := by
    rw [htake]; exact fun x hx => ident_char_ne_zero x (hi.2 x hx)
  have hlen : ident.length ≤ s.next.length := by rw [hn]; simp
  have h1 : find_lookup s.lookup s.next ident.length = none := by
    cases hf : find_lookup s.lookup s.next ident.length with
    | none => rfl
    | some v =>
      exfalso
      have := find_lookup_some _ _ _ hnz hlen v hf
      rw [htake] at this
      exact hu v (List.mem_append_left _ this.1) this.2
  have h2 : find_builtin s.next ident.length = none := by
    cases hf : find_builtin s.next ident.length with
    | none => rfl
    | some v =>
      exfalso
      have := find_builtin_some _ _ hnz hlen v hf
      rw [htake] at this
      exact hu v (List.mem_append_right _ this.1) this.2
  have ha := hi.1
  rw [← hhead] at ha
  rw [next_token_loop]
  refine ite_neg_eq _ _ _ _ ?_ ?_
  · have e1 : 'a'.toNat = 97 := rfl
    have e2 : ';'.toNat = 59 := rfl
    omega
  refine ite_neg_eq _ _ _ _ ?_ ?_
  · have e1 : 'a'.toNat = 97 := rfl
    have e2 : '9'.toNat = 57 := rfl
    have e3 : '.'.toNat = 46 := rfl
    omega
  refine (if_pos ha).trans ?_
  dsimp only
  rw [htw, h1, h2]
  rfl

/-- An identifier that no table holds makes the lexer give the error token, with the
cursor right after the identifier; blanks before the identifier are skipped. -/
theorem next_token_unknown (c : Libc) (ident rest : List Nat) (hi : is_identifier ident)
    (hr : is_ident_char (rest.headD 0) = false) :
    ∀ (ws : List Nat) (fuel : Nat) (s : state), s.next = ws ++ (ident ++ rest) →
      (∀ b ∈ ws, is_blank b) → ws.length < fuel →
      (∀ v ∈ s.lookup ++ (functions ++ operators), ¬ is_name v.name ident) →
      (next_token_loop c fuel s).type = TOK_ERROR := by
  intro ws
  induction ws with
  | nil =>
    intro fuel s hn _ hf hu
    obtain ⟨n, rfl⟩ : ∃ n, fuel = n + 1 := ⟨fuel - 1, by omega⟩
    rw [next_token_loop_unknown c n s ident rest hn hi hr hu]
  | cons b ws ih =>
    intro fuel s hn hb hf hu
    obtain ⟨n, rfl⟩ : ∃ n, fuel = n + 1 := ⟨fuel - 1, by omega⟩
    have hh : is_blank (s.next.headD 0) := by
      rw [hn]; exact hb b (List.mem_cons_self _ _)
    rw [next_token_loop_blank c n s hh]
    apply ih
    · show s.next.drop 1 = _
      rw [hn]; rfl
    · exact fun x hx => hb x (List.mem_cons_of_mem _ hx)
    · simp only [List.length_cons] at hf; omega
    · exact hu

/-- The token after an unknown identifier is the error token. -/
theorem lex_run_unknown (c : Libc) (text : List Nat) (vars : List te_variable) (k : Nat)
    (ws ident rest : List Nat)
    (hk : (lex_run c k (init_state text vars)).next = ws ++ (ident ++ rest))
    (hws : ∀ b ∈ ws, is_blank b) (hi : is_identifier ident)
    (hr : is_ident_char (rest.headD 0) = false)
    (hu : ∀ v ∈ vars ++ (functions ++ operators), ¬ is_name v.name ident) :
    (lex_run c (k + 1) (init_state text vars)).type = TOK_ERROR := by
  show (next_token_loop c _ _).type = TOK_ERROR
  apply next_token_unknown c ident rest hi hr ws _ _ hk hws
  · rw [hk]; simp only [List.length_append]; omega
  · rw [lex_run_lookup]; exact hu

/-- A parse that meets an unknown identifier before any end token does not stop on the
end token. -/
theorem parse_unknown (c : Libc) (text : List Nat) (vars : List te_variable) (k : Nat)
    (ws ident rest : List Nat)
    (hk : (lex_run c k (init_state text vars)).next = ws ++ (ident ++ rest))
    (hend : ∀ i, 1 ≤ i → i ≤ k → (lex_run c i (init_state text vars)).type ≠ TOK_END)
    (hws : ∀ b ∈ ws, is_blank b) (hi : is_identifier ident)
    (hr : is_ident_char (rest.headD 0) = false)
    (hu : ∀ v ∈ vars ++ (functions ++ operators), ¬ is_name v.name ident)
    (q : expr_native × state) (hp : parse c text vars = some q) : q.2.type ≠ TOK_END := by
  have hE := lex_run_unknown c text vars k ws ident rest hk hws hi hr hu
  obtain ⟨j, e, hall⟩ := parse_reach c text vars q hp
  have hT : ∀ i, lex_run c i (token c text vars 0) = lex_run c (i + 1) (init_state text vars) :=
    fun i => lex_run_next c i _
  have hne : TOK_ERROR ≠ TOK_END := by decide
  by_cases hjk : k < j
  · exact absurd (by rw [← hT k]; exact (hall k hjk).2) (not_not.mpr hE)
  · rcases e with e | e
    · rw [e, hT j]
      by_cases hj : j = k
      · rw [hj, hE]; exact hne
      · exact hend (j + 1) (by omega) (by omega)
    · rw [e]; exact hne

/-- C8 (amended): when the lexer comes to an identifier (after `k` tokens none of
which is the end token, and after blanks) and no entry of the lookup table or of the
built-in tables has exactly that name, `compile` returns the null handle and a
positive error. -/
theorem C8_unknown_identifier (h : Host) (mem : Mem) (text : List Nat)
    (vars : List te_variable) (k : Nat) (ws ident rest : List Nat)
    (hk : (lex_run h.libc k (init_state text vars)).next = ws ++ (ident ++ rest))
    (hend : ∀ i, 1 ≤ i → i ≤ k → (lex_run h.libc i (init_state text vars)).type ≠ TOK_END)
    (hws : ∀ b ∈ ws, is_blank b) (hi : is_identifier ident)
    (hr : is_ident_char (rest.headD 0) = false)
    (hu : ∀ v ∈ vars ++ (functions ++ operators), ¬ is_name v.name ident) :
    ∃ e : Int, 0 < e ∧ compile h mem text vars = .ok (none, e) := by
  obtain ⟨root, s, hp⟩ := parse_total h.libc text vars
  have hs := parse_unknown h.libc text vars k ws ident rest hk hend hws hi hr hu (root, s) hp
  exact ⟨max 1 (s.pos : Int), by omega, compile_of_parse_not_end h mem text vars root s hp hs⟩

/-- C8 (amended) at the text `y* tes+1` over the lookup table `{x, y, te_st}`, where
`tes` is the third token, and the four texts of `test_variables`, which fail at the
offsets 2, 3, 4 and 2. -/
theorem C8_unknown_identifier_witness :
    (lex_run exact_libc 2 (init_state (cstr "y* tes+1") test_lookup)).next =
        cstr " " ++ (cstr "tes" ++ cstr "+1") ∧
      (∃ e : Int, 0 < e ∧
        compile plain_host [] (cstr "y* tes+1") test_lookup = .ok (none, e)) ∧
      compile plain_host [] (cstr "xx*y^3") test_lookup = .ok (none, 2) ∧
      compile plain_host [] (cstr "tes") test_lookup = .ok (none, 3) ∧
      compile plain_host [] (cstr "sinn x") test_lookup = .ok (none, 4) ∧
      compile plain_host [] (cstr "si x") test_lookup = .ok (none, 2) :=
  ⟨by decide!,
   C8_unknown_identifier plain_host [] (cstr "y* tes+1") test_lookup 2
     (cstr " ") (cstr "tes") (cstr "+1") (by decide!)
     (by intro i h1 h2; interval_cases i <;> decide!)
     (by decide) (by decide) (by decide) (by decide!),
   by decide!, by decide!, by decide!, by decide!⟩

/-- C8 as written fails on a text whose unknown identifier stands after a `;`: the
lexer gives the end token at the `;` and never reads the identifier. -/
theorem C8_identifier_after_end :
    compile plain_host [] (cstr "1;xx") test_lookup =
      .ok (some ⟨[], [], [.int TE_CONSTANT, .flt (.num 1), .int 0], 24⟩, 0) := by decide!

/-! ## More fuel does not change a parse -/

theorem power_sign_mono (c : Libc) (fuel : Nat) :
    ∀ s sign q, power_sign c fuel s sign = some q → power_sign c (fuel + 1) s sign = some q := by
  induction fuel with
  | zero => intro s sign q h; cases h
  | succ n ih =>
    intro s sign q h
    rw [power_sign] at h
    rw [power_sign]
    by_cases hop : s.is_op ["add", "sub"] = true
    · rw [if_pos hop] at h ⊢
      exact ih _ _ _ h
    · rw [if_neg hop] at h ⊢
      exact h

theorem power_logical_mono (c : Libc) (fuel : Nat) :
    ∀ s l q, power_logical c fuel s l = some q → power_logical c (fuel + 1) s l = some q := by
  induction fuel with
  | zero => intro s l q h; cases h
  | succ n ih =>
    intro s l q h
    rw [power_logical] at h
    rw [power_logical]
    by_cases hop : s.is_op ["add", "sub", "logical_not"] = true
    · rw [if_pos hop] at h ⊢
      exact ih _ _ _ h
    · rw [if_neg hop] at h ⊢
      exact h

theorem power_mono_step (c : Libc) (n : Nat)
    (ihB : ∀ s q, base c n s = some q → base c (n + 1) s = some q)
    (s : state) (q : expr_native × state)
    (h : power c (n + 1) s = some q) : power c (n + 1 + 1) s = some q := by
  rw [power] at h
  rw [power]
  cases h1 : power_sign c (n + 1) s 1 with
  | none => rw [h1] at h; cases h
  | some r1 =>
    rw [h1] at h
    rw [power_sign_mono c _ _ _ _ h1]
    simp only [] at h ⊢
    cases h2 : power_logical c (n + 1) r1.1 0 with
    | none => rw [h2] at h; cases h
    | some r2 =>
      rw [h2] at h
      rw [power_logical_mono c _ _ _ _ h2]
      simp only [] at h ⊢
      cases h3 : base c n r2.1 with
      | none => rw [h3] at h; cases h
      | some r3 =>
        rw [h3] at h
        rw [ihB _ _ h3]
        exact h

theorem level_parse_mono_step (c : Libc) (n : Nat)
    (ihP : ∀ l s q, level_parse c l n s = some q → level_parse c l (n + 1) s = some q)
    (ihL : ∀ l ret s q, level_loop c l n ret s = some q → level_loop c l (n + 1) ret s = some q)
    (ihB : ∀ s q, base c n s = some q → base c (n + 1) s = some q)
    (l : Nat) (s : state) (q : expr_native × state)
    (h : level_parse c l (n + 1) s = some q) : level_parse c l (n + 1 + 1) s = some q := by
  by_cases hl : l ≤ 5
  · rw [level_parse_succ c l hl] at h ⊢
    cases hG : level_parse c (l + 1) n s with
    | none => rw [hG] at h; cases h
    | some r =>
      rw [hG] at h
      rw [ihP _ _ _ hG]
      exact ihL _ _ _ _ h
  · obtain ⟨j, rfl⟩ : ∃ j, l = j + 6 := ⟨l - 6, by omega⟩
    exact power_mono_step c n ihB s q h

theorem level_loop_five (c : Libc) (l : Nat) (hl : ¬ l ≤ 5) : level_loop c l = level_loop c 5 := by
  obtain ⟨j, rfl⟩ : ∃ j, l = j + 6 := ⟨l - 6, by omega⟩
  rfl

theorem level_loop_mono_step (c : Libc) (n : Nat)
    (ihP : ∀ l s q, level_parse c l n s = some q → level_parse c l (n + 1) s = some q)
    (ihL : ∀ l ret s q, level_loop c l n ret s = some q → level_loop c l (n + 1) ret s = some q)
    (l : Nat) (ret : expr_native) (s : state) (q : expr_native × state)
    (h : level_loop c l (n + 1) ret s = some q) : level_loop c l (n + 1 + 1) ret s = some q := by
  have main : ∀ l, l ≤ 5 → ∀ ret s q, level_loop c l (n + 1) ret s = some q →
      level_loop c l (n + 1 + 1) ret s = some q := by
    intro l hl ret s q h
    rw [level_loop_succ c l hl] at h ⊢
    by_cases hop : is_level_op l s = true
    · rw [if_pos hop] at h ⊢
      cases hG : level_parse c (l + 1) n (next_token c s) with
      | none => rw [hG] at h; cases h
      | some r =>
        rw [hG] at h
        rw [ihP _ _ _ hG]
        exact ihL _ _ _ _ h
    · rw [if_neg hop] at h ⊢
      exact h
  by_cases hl : l ≤ 5
  · exact main l hl ret s q h
  · rw [level_loop_five c l hl] at h ⊢
    exact main 5 (by omega) ret s q h

theorem base_args_mono_step (c : Libc) (n : Nat)
    (ihE : ∀ s q, expr c n s = some q → expr c (n + 1) s = some q)
    (ihA : ∀ ar i ret s q, base_args c n ar i ret s = some q →
      base_args c (n + 1) ar i ret s = some q)
    (ar i : Nat) (ret : expr_native) (s : state) (q : expr_native × state × Nat)
    (h : base_args c (n + 1) ar i ret s = some q) :
    base_args c (n + 1 + 1) ar i ret s = some q := by
  rw [base_args] at h
  rw [base_args]
  by_cases hi : i < ar
  · rw [if_pos hi] at h ⊢
    cases hE : expr c n (next_token c s) with
    | none => rw [hE] at h; cases h
    | some r =>
      rw [hE] at h
      rw [ihE _ _ hE]
      simp only [] at h ⊢
      by_cases hsep : r.2.type ≠ TOK_SEP
      · rw [if_pos hsep] at h ⊢
        exact h
      · rw [if_neg hsep] at h ⊢
        exact ihA _ _ _ _ _ h
  · rw [if_neg hi] at h ⊢
    exact h

theorem base_mono_step (c : Libc) (n : Nat)
    (ihP : ∀ s q, power c n s = some q → power c (n + 1) s = some q)
    (ihL : ∀ s q, list c n s = some q → list c (n + 1) s = some q)
    (ihA : ∀ ar i ret s q, base_args c n ar i ret s = some q →
      base_args c (n + 1) ar i ret s = some q)
    (s : state) (q : expr_native × state)
    (h : base c (n + 1) s = some q) : base c (n + 1 + 1) s = some q := by
  rw [base] at h
  rw [base]
  dsimp only at h ⊢
  by_cases h1 : type_mask s.type = TOK_NUMBER
  · rw [if_pos h1] at h ⊢
    exact h
  rw [if_neg h1] at h ⊢
  by_cases h2 : type_mask s.type = TOK_VARIABLE
  · rw [if_pos h2] at h ⊢
    exact h
  rw [if_neg h2] at h ⊢
  by_cases h3 : (type_mask s.type ≥ TE_FUNCTION0 ∧ type_mask s.type < TE_FUNCTION_MAX) ∨
      (type_mask s.type ≥ TE_CLOSURE0 ∧ type_mask s.type < TE_CLOSURE_MAX)
  · rw [if_pos h3] at h ⊢
    by_cases ha0 : arity s.type = 0
    · rw [if_pos ha0] at h ⊢
      exact h
    rw [if_neg ha0] at h ⊢
    by_cases ha1 : arity s.type = 1
    · rw [if_pos ha1] at h ⊢
      cases hP : power c n (next_token c s) with
      | none => rw [hP] at h; cases h
      | some r =>
        rw [hP] at h
        rw [ihP _ _ hP]
        exact h
    rw [if_neg ha1] at h ⊢
    by_cases ho : (next_token c s).type ≠ TOK_OPEN
    · rw [if_pos ho] at h ⊢
      exact h
    rw [if_neg ho] at h ⊢
    cases hA : base_args c n (arity s.type) 0 (call_node s) (next_token c s) with
    | none => rw [hA] at h; cases h
    | some r =>
      rw [hA] at h
      rw [ihA _ _ _ _ _ hA]
      exact h
  rw [if_neg h3] at h ⊢
  by_cases h4 : type_mask s.type = TOK_OPEN
  · rw [if_pos h4] at h ⊢
    cases hL : list c n (next_token c s) with
    | none => rw [hL] at h; cases h
    | some r =>
      rw [hL] at h
      rw [ihL _ _ hL]
      exact h
  · rw [if_neg h4] at h ⊢
    exact h

/-- More fuel does not change the result of a parser function. -/
theorem parser_mono (c : Libc) (fuel : Nat) :
    (∀ s q, base c fuel s = some q → base c (fuel + 1) s = some q) ∧
    (∀ ar i ret s q, base_args c fuel ar i ret s = some q →
      base_args c (fuel + 1) ar i ret s = some q) ∧
    (∀ l s q, level_parse c l fuel s = some q → level_parse c l (fuel + 1) s = some q) ∧
    (∀ l ret s q, level_loop c l fuel ret s = some q →
      level_loop c l (fuel + 1) ret s = some q) := by
  induction fuel with
  | zero =>
    refine ⟨?_, ?_, ?_, ?_⟩
    · intro s q h; rw [base] at h; cases h
    · intro ar i ret s q h; rw [base_args] at h; cases h
    · intro l s q h
      by_cases hl : l ≤ 5
      · have : l = 0 ∨ l = 1 ∨ l = 2 ∨ l = 3 ∨ l = 4 ∨ l = 5 := by omega
        rcases this with g | g | g | g | g | g <;> subst g <;> simp only [level_parse] at h
        · rw [list] at h; cases h
        · rw [expr] at h; cases h
        · rw [test_expr] at h; cases h
        · rw [sum_expr] at h; cases h
        · rw [term] at h; cases h
        · rw [factor] at h; cases h
      · obtain ⟨j, rfl⟩ : ∃ j, l = j + 6 := ⟨l - 6, by omega⟩
        simp only [level_parse] at h
        rw [power] at h; cases h
    · intro l ret s q h
      by_cases hl : l ≤ 5
      · have : l = 0 ∨ l = 1 ∨ l = 2 ∨ l = 3 ∨ l = 4 ∨ l = 5 := by omega
        rcases this with g | g | g | g | g | g <;> subst g <;> simp only [level_loop] at h
        · rw [list_loop] at h; cases h
        · rw [expr_loop] at h; cases h
        · rw [test_expr_loop] at h; cases h
        · rw [sum_expr_loop] at h; cases h
        · rw [term_loop] at h; cases h
        · rw [factor_loop] at h; cases h
      · rw [level_loop_five c l hl] at h
        simp only [level_loop] at h
        rw [factor_loop] at h; cases h
  | succ n ih =>
    obtain ⟨iB, iA, iP, iL⟩ := ih
    exact ⟨base_mono_step c n (iP 6) (iP 0) iA,
      base_args_mono_step c n (iP 1) iA,
      level_parse_mono_step c n iP iL iB,
      level_loop_mono_step c n iP iL⟩

theorem level_parse_mono (c : Libc) (l : Nat) (s : state) (q : expr_native × state) (n : Nat)
    (h : level_parse c l n s = some q) : ∀ m, n ≤ m → level_parse c l m s = some q := by
  intro m hm
  induction m with
  | zero =>
    have : n = 0 := by omega
    subst this; exact h
  | succ m ih =>
    by_cases e : n = m + 1
    · subst e; exact h
    · exact (parser_mono c m).2.2.1 l s q (ih (by omega))

/-- A result the parser gives from some fuel on is the result of `parse`. -/
theorem parse_of_yields (c : Libc) (text : List Nat) (vars : List te_variable) (n : Nat)
    (r : expr_native × state)
    (h : yields (fun fuel => list c fuel (token c text vars 0)) n r) :
    parse c text vars = some r := by
  obtain ⟨e, s, hp⟩ := parse_total c text vars
  have h1 := level_parse_mono c 0 _ _ _ hp (max n (parse_fuel text)) (le_max_right _ _)
  have h2 := h (max n (parse_fuel text)) (le_max_left _ _)
  rw [hp]
  exact h1.symm.trans h2

/-! ## C9: calls and their arity -/

theorem yields_unique {α : Type} {p : Nat → Option α} {n m : Nat} {r r2 : α}
    (h1 : yields p n r) (h2 : yields p m r2) : r = r2 := by
  have a := h1 (max n m) (le_max_left _ _)
  have b := h2 (max n m) (le_max_right _ _)
  rw [a] at b
  exact Option.some.inj b

theorem not_level_op (s : state) (h1 : s.type ≠ TOK_INFIX) (h2 : s.type ≠ TOK_SEP) (m : Nat) :
    is_level_op m s = false := by
  have h6 : ∀ k, 6 ≤ k → is_level_op k s = false := by
    intro k hk
    obtain ⟨j, rfl⟩ : ∃ j, k = j + 6 := ⟨k - 6, by omega⟩
    rfl
  by_cases hm : 6 ≤ m
  · exact h6 m hm
  · have em : m = 0 ∨ m = 1 ∨ m = 2 ∨ m = 3 ∨ m = 4 ∨ m = 5 := by omega
    rcases em with g | g | g | g | g | g <;> subst g <;>
      simp [is_level_op, state.is_op, h1, h2]

theorem not_prefix_of_type (s : state) (h : s.type ≠ TOK_INFIX) :
    s.is_op ["add", "sub", "logical_not"] = false := by
  simp [state.is_op, h]

/-- A token that is no prefix operator: the parser of every level gives what `base`
gives, when `base` stops at a token that is no binary operator. -/
theorem level_of_base (c : Libc) (s t : state) (b : expr_native) (n : Nat)
    (hs : s.is_op ["add", "sub", "logical_not"] = false)
    (hb : yields (fun fuel => base c fuel s) n (b, t))
    (ht : ∀ m, is_level_op m t = false) (l : Nat) (hl : l ≤ 6) :
    yields (fun fuel => level_parse c l fuel s) (n + 1 + 2 * (6 - l)) (b, t) := by
  have hp : yields (fun fuel => level_parse c 6 fuel s) (n + 1) (b, t) := by
    intro fuel hf
    obtain ⟨k, rfl⟩ : ∃ k, fuel = k + 1 := ⟨fuel - 1, by omega⟩
    have e : base c k s = some (b, t) := hb k (by omega)
    show power c (k + 1) s = _
    rw [power_unary_run c [] 0 s s s k rfl rfl hs (Nat.zero_le _) (Nat.zero_le _), e]
    rfl
  exact level_lift c s t b (6 - l) l 6 (n + 1) (by omega) (le_refl _) hp (fun m _ _ => ht m)

theorem call_no_sign (s : state) (h : is_call s) :
    s.is_op ["add", "sub", "logical_not"] = false := by
  apply not_prefix_of_type
  intro e
  unfold is_call at h
  rw [e] at h
  revert h
  decide

theorem call_mask (s : state) (h : is_call s) :
    type_mask s.type ≠ TOK_NUMBER ∧ type_mask s.type ≠ TOK_VARIABLE := by
  unfold is_call at h
  simp only [TE_FUNCTION0, TE_FUNCTION_MAX, TE_CLOSURE0, TE_CLOSURE_MAX] at h
  simp only [TOK_NUMBER, TOK_VARIABLE]
  omega

/-- On a token that starts no operand `base` gives the error leaf and marks the error. -/
theorem base_no_operand (c : Libc) (s : state) (fuel : Nat)
    (h : s.type = TOK_CLOSE ∨ s.type = TOK_END ∨ s.type = TOK_SEP ∨ s.type = TOK_ERROR) :
    base c (fuel + 1) s = some (error_node, { s with type := TOK_ERROR }) := by
  rw [base]
  dsimp only
  have hm : type_mask s.type = s.type := by rcases h with h | h | h | h <;> rw [h] <;> rfl
  rw [hm]
  rw [if_neg (by rcases h with h | h | h | h <;> rw [h] <;> decide),
    if_neg (by rcases h with h | h | h | h <;> rw [h] <;> decide),
    if_neg (by rcases h with h | h | h | h <;> rw [h] <;> decide),
    if_neg (by rcases h with h | h | h | h <;> rw [h] <;> decide)]
  rfl

/-- On such a token the parser of every level gives the error leaf and the error token. -/
theorem level_no_operand (c : Libc) (s : state)
    (h : s.type = TOK_CLOSE ∨ s.type = TOK_END ∨ s.type = TOK_SEP ∨ s.type = TOK_ERROR)
    (l : Nat) (hl : l ≤ 6) :
    yields (fun fuel => level_parse c l fuel s) (2 + 2 * (6 - l))
      (error_node, { s with type := TOK_ERROR }) := by
  have hb : yields (fun fuel => base c fuel s) 1 (error_node, { s with type := TOK_ERROR }) := by
    intro fuel hf
    obtain ⟨k, rfl⟩ : ∃ k, fuel = k + 1 := ⟨fuel - 1, by omega⟩
    exact base_no_operand c s k h
  have hs : s.is_op ["add", "sub", "logical_not"] = false :=
    not_prefix_of_type s (by rcases h with h | h | h | h <;> rw [h] <;> decide)
  have := level_of_base c s _ _ 1 hs hb
    (not_level_op _ (by show TOK_ERROR ≠ _; decide) (by show TOK_ERROR ≠ _; decide)) l hl
  exact yields_mono this (by omega)

/-- The argument loop of `base` on at most as many arguments as are left to read: it
stores them and stops at the token after the last one. -/
theorem base_args_run (c : Libc) :
    ∀ (as : List expr_native) (d dl : state) (ar i : Nat) (ret : expr_native), as ≠ [] →
      reads_args c d as dl → dl.type ≠ TOK_SEP → i + as.length ≤ ar →
      ∃ n, yields (fun fuel => base_args c fuel ar i ret d) n
        (set_parameters ret i as, dl, i + as.length - 1) := by
  intro as
  induction as with
  | nil => intro d dl ar i ret h; exact absurd rfl h
  | cons a rest ih =>
    intro d dl ar i ret _ hr hdl hlen
    obtain ⟨d1, n, hy, hsep, hrest⟩ := hr
    simp only [List.length_cons] at hlen
    have hi : i < ar := by omega
    cases rest with
    | nil =>
      have e : dl = d1 := hrest
      subst e
      refine ⟨n + 1, ?_⟩
      intro fuel hf
      obtain ⟨k, rfl⟩ : ∃ k, fuel = k + 1 := ⟨fuel - 1, by omega⟩
      have e : expr c k (next_token c d) = some (a, dl) := hy k (by omega)
      show base_args c (k + 1) ar i ret d = _
      rw [base_args, if_pos hi, e]
      simp only []
      rw [if_pos hdl]
      rfl
    | cons b r =>
      have hs : d1.type = TOK_SEP := hsep (by simp)
      obtain ⟨m, hm⟩ := ih d1 dl ar (i + 1) (ret.set_parameter i a) (by simp) hrest hdl
        (by simp only [List.length_cons] at hlen ⊢; omega)
      refine ⟨max n m + 1, ?_⟩
      intro fuel hf
      obtain ⟨k, rfl⟩ : ∃ k, fuel = k + 1 := ⟨fuel - 1, by omega⟩
      have e : expr c k (next_token c d) = some (a, d1) := hy k (by omega)
      have e2 := hm k (by omega)
      show base_args c (k + 1) ar i ret d = _
      rw [base_args, if_pos hi, e]
      simp only []
      rw [if_neg (not_not.mpr hs)]
      rw [show base_args c k ar (i + 1) (ret.set_parameter i a) d1 = _ from e2]
      simp only [set_parameters, List.length_cons]
      congr 3
      omega

/-- The argument loop of `base` on more arguments than the arity: it runs to `i = arity`
and stops at a comma. -/
theorem base_args_over (c : Libc) :
    ∀ (as : List expr_native) (d dl : state) (ar i : Nat) (ret : expr_native),
      reads_args c d as dl → i < ar → ar - i < as.length →
      ∃ n ret1 s2, yields (fun fuel => base_args c fuel ar i ret d) n (ret1, s2, ar) ∧
        s2.type = TOK_SEP := by
  intro as
  induction as with
  | nil => intro d dl ar i ret _ hi hlen; simp only [List.length_nil] at hlen; omega
  | cons a rest ih =>
    intro d dl ar i ret hr hi hlen
    obtain ⟨d1, n, hy, hsep, hrest⟩ := hr
    simp only [List.length_cons] at hlen
    have hne : rest ≠ [] := by
      intro e; subst e; simp only [List.length_nil] at hlen; omega
    have hs : d1.type = TOK_SEP := hsep hne
    by_cases hi1 : i + 1 < ar
    · obtain ⟨m, ret1, s2, hm, hs2⟩ := ih d1 dl ar (i + 1) (ret.set_parameter i a) hrest hi1
        (by omega)
      refine ⟨max n m + 1, ret1, s2, ?_, hs2⟩
      intro fuel hf
      obtain ⟨k, rfl⟩ : ∃ k, fuel = k + 1 := ⟨fuel - 1, by omega⟩
      have e : expr c k (next_token c d) = some (a, d1) := hy k (by omega)
      have e2 := hm k (by omega)
      show base_args c (k + 1) ar i ret d = _
      rw [base_args, if_pos hi, e]
      simp only []
      rw [if_neg (not_not.mpr hs)]
      exact e2
    · have e1 : i + 1 = ar := by omega
      refine ⟨n + 2, ret.set_parameter i a, d1, ?_, hs⟩
      intro fuel hf
      obtain ⟨k, rfl⟩ : ∃ k, fuel = k + 1 + 1 := ⟨fuel - 2, by omega⟩
      have e : expr c (k + 1) (next_token c d) = some (a, d1) := hy (k + 1) (by omega)
      show base_args c (k + 1 + 1) ar i ret d = _
      rw [base_args, if_pos hi, e]
      simp only []
      rw [if_neg (not_not.mpr hs), base_args, if_neg (by omega), e1]

/-- The loop of `list` over the arguments: commas nested to the left. -/
theorem list_loop_run (c : Libc) :
    ∀ (as : List expr_native) (d dl : state) (ret : expr_native),
      (as ≠ [] → d.type = TOK_SEP) → reads_args c d as dl → dl.type ≠ TOK_SEP →
      ∃ n, yields (fun fuel => list_loop c fuel ret d) n (comma_tree ret as, dl) := by
  intro as
  induction as with
  | nil =>
    intro d dl ret _ hr hdl
    have e : dl = d := hr
    subst e
    refine ⟨1, ?_⟩
    intro fuel hf
    obtain ⟨k, rfl⟩ : ∃ k, fuel = k + 1 := ⟨fuel - 1, by omega⟩
    show list_loop c (k + 1) ret dl = _
    rw [list_loop, if_neg hdl]
    rfl
  | cons a rest ih =>
    intro d dl ret hd hr hdl
    obtain ⟨d1, n, hy, hsep, hrest⟩ := hr
    have hs : d.type = TOK_SEP := hd (by simp)
    obtain ⟨m, hm⟩ := ih d1 dl (binary impl.comma ret a) hsep hrest hdl
    refine ⟨max n m + 1, ?_⟩
    intro fuel hf
    obtain ⟨k, rfl⟩ : ∃ k, fuel = k + 1 := ⟨fuel - 1, by omega⟩
    have e : expr c k (next_token c d) = some (a, d1) := hy k (by omega)
    have e2 := hm k (by omega)
    show list_loop c (k + 1) ret d = _
    rw [list_loop, if_pos hs, e]
    simp only []
    rw [binary_node_eq, fba_comma]
    exact e2

/-- The parser `list` on the arguments after the token `d`. -/
theorem list_run (c : Libc) (a : expr_native) (rest : List expr_native) (d dl : state)
    (hr : reads_args c d (a :: rest) dl) (hdl : dl.type ≠ TOK_SEP) :
    ∃ n, yields (fun fuel => list c fuel (next_token c d)) n (comma_tree a rest, dl) := by
  obtain ⟨d1, n, hy, hsep, hrest⟩ := hr
  obtain ⟨m, hm⟩ := list_loop_run c rest d1 dl a hsep hrest hdl
  refine ⟨max n m + 1, ?_⟩
  intro fuel hf
  obtain ⟨k, rfl⟩ : ∃ k, fuel = k + 1 := ⟨fuel - 1, by omega⟩
  have e : expr c k (next_token c d) = some (a, d1) := hy k (by omega)
  have e2 := hm k (by omega)
  show list c (k + 1) (next_token c d) = _
  rw [list, e]
  exact e2

/-- The first argument does not start at a closing parenthesis. -/
theorem reads_args_not_close (c : Libc) (a : expr_native) (rest : List expr_native)
    (d dl : state) (hr : reads_args c d (a :: rest) dl)
    (hdl : dl.type = TOK_CLOSE) : (next_token c d).type ≠ TOK_CLOSE := by
  intro hc
  obtain ⟨d1, n, hy, hsep, hrest⟩ := hr
  have he := level_no_operand c (next_token c d) (Or.inl hc) 1 (by omega)
  have e := yields_unique hy he
  have e1 : d1.type = TOK_ERROR := by rw [(Prod.mk.inj e).2]
  cases rest with
  | nil =>
    have e2 : dl = d1 := hrest
    rw [e2, e1] at hdl
    revert hdl; decide
  | cons b r =>
    have e2 := hsep (by simp)
    rw [e1] at e2
    revert e2; decide

/-- The call of an arity-0 function or closure: `name`, then `(` and the next token. -/
theorem base_call_zero (c : Libc) (s : state) (fuel : Nat) (hc : is_call s)
    (ha : arity s.type = 0) (ho : (next_token c s).type = TOK_OPEN) :
    base c (fuel + 1) s =
      some (call_node s,
        if (next_token c (next_token c s)).type ≠ TOK_CLOSE then
          { next_token c (next_token c s) with type := TOK_ERROR }
        else next_token c (next_token c (next_token c s))) := by
  rw [base]
  dsimp only
  rw [if_neg (call_mask s hc).1, if_neg (call_mask s hc).2, if_pos (show (type_mask s.type ≥ TE_FUNCTION0 ∧ type_mask s.type < TE_FUNCTION_MAX) ∨
      (type_mask s.type ≥ TE_CLOSURE0 ∧ type_mask s.type < TE_CLOSURE_MAX) from hc), if_pos ha, if_pos ho]
  by_cases h : (next_token c (next_token c s)).type ≠ TOK_CLOSE
  · rw [if_pos h, if_pos h]
  · rw [if_neg h, if_neg h]

/-- The call of an arity-1 function or closure: the operand is a `power`. -/
theorem base_call_one (c : Libc) (s t : state) (p : expr_native) (n : Nat) (hc : is_call s)
    (ha : arity s.type = 1)
    (hp : yields (fun fuel => power c fuel (next_token c s)) n (p, t)) :
    yields (fun fuel => base c fuel s) (n + 1) ((call_node s).set_parameter 0 p, t) := by
  intro fuel hf
  obtain ⟨k, rfl⟩ : ∃ k, fuel = k + 1 := ⟨fuel - 1, by omega⟩
  have e : power c k (next_token c s) = some (p, t) := hp k (by omega)
  show base c (k + 1) s = _
  rw [base]
  dsimp only
  rw [if_neg (call_mask s hc).1, if_neg (call_mask s hc).2, if_pos (show (type_mask s.type ≥ TE_FUNCTION0 ∧ type_mask s.type < TE_FUNCTION_MAX) ∨
      (type_mask s.type ≥ TE_CLOSURE0 ∧ type_mask s.type < TE_CLOSURE_MAX) from hc), if_neg (by omega),
    if_pos ha, e]

/-- The call of a function or closure of arity 2 or more: the argument loop, then the
test `s->type != TOK_CLOSE || i != arity - 1`. -/
theorem base_call_many (c : Libc) (s s2 : state) (ret1 : expr_native) (i n : Nat)
    (hc : is_call s) (ha : 2 ≤ arity s.type) (ho : (next_token c s).type = TOK_OPEN)
    (hA : yields (fun fuel => base_args c fuel (arity s.type) 0 (call_node s) (next_token c s)) n
      (ret1, s2, i)) :
    yields (fun fuel => base c fuel s) (n + 1)
      (ret1, if s2.type ≠ TOK_CLOSE ∨ i ≠ arity s.type - 1 then { s2 with type := TOK_ERROR }
        else next_token c s2) := by
  intro fuel hf
  obtain ⟨k, rfl⟩ : ∃ k, fuel = k + 1 := ⟨fuel - 1, by omega⟩
  have e : base_args c k (arity s.type) 0 (call_node s) (next_token c s) = some (ret1, s2, i) :=
    hA k (by omega)
  show base c (k + 1) s = _
  rw [base]
  dsimp only
  rw [if_neg (call_mask s hc).1, if_neg (call_mask s hc).2, if_pos (show (type_mask s.type ≥ TE_FUNCTION0 ∧ type_mask s.type < TE_FUNCTION_MAX) ∨
      (type_mask s.type ≥ TE_CLOSURE0 ∧ type_mask s.type < TE_CLOSURE_MAX) from hc), if_neg (by omega),
    if_neg (by omega), if_neg (not_not.mpr ho), e]
  simp only []
  by_cases h : s2.type ≠ TOK_CLOSE ∨ i ≠ arity s.type - 1
  · rw [if_pos h, if_pos h]
  · rw [if_neg h, if_neg h]

/-- The parenthesised list: `(`, a `list`, and the test for `)`. -/
theorem base_open (c : Libc) (s dl : state) (r : expr_native) (n : Nat)
    (ho : s.type = TOK_OPEN)
    (hl : yields (fun fuel => list c fuel (next_token c s)) n (r, dl)) :
    yields (fun fuel => base c fuel s) (n + 1)
      (r, if dl.type ≠ TOK_CLOSE then { dl with type := TOK_ERROR } else next_token c dl) := by
  intro fuel hf
  obtain ⟨k, rfl⟩ : ∃ k, fuel = k + 1 := ⟨fuel - 1, by omega⟩
  have e : list c k (next_token c s) = some (r, dl) := hl k (by omega)
  show base c (k + 1) s = _
  rw [base]
  dsimp only
  have hm : type_mask s.type = TOK_OPEN := by rw [ho]; rfl
  rw [hm, if_neg (by decide), if_neg (by decide), if_neg (by decide), if_pos rfl, e]
  simp only []
  by_cases h : dl.type ≠ TOK_CLOSE
  · rw [if_pos h, if_pos h]
  · rw [if_neg h, if_neg h]

/-- The parse of a text that is one call: what `base` gives on the first token, when
it stops at the end token or at an error. -/
theorem parse_of_base (c : Libc) (text : List Nat) (vars : List te_variable)
    (b : expr_native) (t : state) (n : Nat)
    (hs : (token c text vars 0).is_op ["add", "sub", "logical_not"] = false)
    (hb : yields (fun fuel => base c fuel (token c text vars 0)) n (b, t))
    (ht : t.type = TOK_END ∨ t.type = TOK_ERROR) :
    parse c text vars = some (b, t) := by
  have hno : ∀ m, is_level_op m t = false :=
    not_level_op t (by rcases ht with h | h <;> rw [h] <;> decide)
      (by rcases ht with h | h <;> rw [h] <;> decide)
  exact parse_of_yields c text vars _ _ (level_of_base c _ t b n hs hb hno 0 (by omega))

/-- A parse that ends at an error token: `compile` returns null and a positive error. -/
theorem compile_of_parse_error (h : Host) (mem : Mem) (text : List Nat)
    (vars : List te_variable) (b : expr_native) (t : state)
    (hp : parse h.libc text vars = some (b, t)) (ht : t.type = TOK_ERROR) :
    ∃ e : Int, 0 < e ∧ compile h mem text vars = .ok (none, e) :=
  ⟨max 1 (t.pos : Int), by omega,
    compile_of_parse_not_end h mem text vars b t hp (by rw [ht]; decide)⟩

/-- The call of an arity-1 function or closure on a parenthesised list. -/
theorem base_call_one_open (c : Libc) (s dl : state) (r : expr_native) (n : Nat)
    (hc : is_call s) (ha : arity s.type = 1) (ho : (next_token c s).type = TOK_OPEN)
    (hl : yields (fun fuel => list c fuel (next_token c (next_token c s))) n (r, dl))
    (ht : dl.type = TOK_CLOSE → (next_token c dl).type = TOK_END) :
    yields (fun fuel => base c fuel s) (n + 4)
      ((call_node s).set_parameter 0 r,
        if dl.type ≠ TOK_CLOSE then { dl with type := TOK_ERROR } else next_token c dl) := by
  have hb := base_open c (next_token c s) dl r n ho hl
  have hno : ∀ m, is_level_op m
      (if dl.type ≠ TOK_CLOSE then { dl with type := TOK_ERROR } else next_token c dl) = false := by
    by_cases hcl : dl.type ≠ TOK_CLOSE
    · rw [if_pos hcl]
      exact not_level_op _ (by show TOK_ERROR ≠ _; decide) (by show TOK_ERROR ≠ _; decide)
    · rw [if_neg hcl]
      exact end_not_level_op _ (ht (not_not.mp hcl))
  have hp := level_of_base c (next_token c s) _ r (n + 1)
    (not_prefix_of_type _ (by rw [ho]; decide)) hb hno 6 (le_refl _)
  exact yields_mono (base_call_one c s _ r _ hc ha hp) (by omega)

/-- The text `name()` for a function or closure of arity 1 or more: the closing
parenthesis starts no argument, and `compile` returns null and a positive error. -/
theorem call_no_argument (h : Host) (mem : Mem) (text : List Nat) (vars : List te_variable)
    (hc : is_call (token h.libc text vars 0))
    (ho : (token h.libc text vars 1).type = TOK_OPEN)
    (hcl : (token h.libc text vars 2).type = TOK_CLOSE)
    (ha : arity (token h.libc text vars 0).type ≠ 0) :
    ∃ e : Int, 0 < e ∧ compile h mem text vars = .ok (none, e) := by
  have hE := level_no_operand h.libc (token h.libc text vars 2) (Or.inl hcl)
  by_cases ha1 : arity (token h.libc text vars 0).type = 1
  · have hb := base_call_one_open h.libc (token h.libc text vars 0) _ _ _ hc ha1 ho
      (hE 0 (by omega)) (fun hx => absurd hx (by show TOK_ERROR ≠ _; decide))
    rw [if_pos (by show TOK_ERROR ≠ _; decide)] at hb
    exact compile_of_parse_error h mem text vars _ _
      (parse_of_base h.libc text vars _ _ _ (call_no_sign _ hc) hb (Or.inr rfl)) rfl
  · have hr : reads_args h.libc (token h.libc text vars 1) [error_node]
        { token h.libc text vars 2 with type := TOK_ERROR } :=
      ⟨_, _, hE 1 (by omega), fun hx => absurd rfl hx, rfl⟩
    obtain ⟨n, hA⟩ := base_args_run h.libc [error_node] _ _
      (arity (token h.libc text vars 0).type) 0 (call_node (token h.libc text vars 0))
      (by simp) hr (by show TOK_ERROR ≠ _; decide) (by simp only [List.length_singleton]; omega)
    have hb := base_call_many h.libc (token h.libc text vars 0) _ _ _ _ hc (by omega) ho hA
    rw [if_pos (Or.inl (by show TOK_ERROR ≠ _; decide))] at hb
    exact compile_of_parse_error h mem text vars _ _
      (parse_of_base h.libc text vars _ _ _ (call_no_sign _ hc) hb (Or.inr rfl)) rfl

/-- C9 (amended): a text `name(e1, ..., ek)` whose `name` is bound to a function or
closure of arity `n`. With `n = 0` it compiles for `k = 0` and fails for `k > 0`; with
`n = 1` it fails for `k = 0` and is parsed, for every `k > 0`, as the call of `name`
on the one operand `(e1, ..., ek)`, the comma list; with `n > 1` it is parsed as
the call on `e1, ..., ek` for `k = n` and fails for every other `k`. To fail is to
return null and a positive error; a parsed text ends at the end token, and `compile`
returns a handle and the error 0 unless the lowering runs into undefined behaviour. -/
theorem C9_call_arity (h : Host) (mem : Mem) (text : List Nat) (vars : List te_variable)
    (hc : is_call (token h.libc text vars 0))
    (ho : (token h.libc text vars 1).type = TOK_OPEN) :
    ((token h.libc text vars 2).type = TOK_CLOSE →
      (arity (token h.libc text vars 0).type = 0 → (token h.libc text vars 3).type = TOK_END →
        parse h.libc text vars =
            some (call_node (token h.libc text vars 0), token h.libc text vars 3) ∧
          (compile h mem text vars = .fault ∨ ∃ n, compile h mem text vars = .ok (some n, 0))) ∧
      (arity (token h.libc text vars 0).type ≠ 0 →
        ∃ e : Int, 0 < e ∧ compile h mem text vars = .ok (none, e))) ∧
    (∀ (a : expr_native) (rest : List expr_native) (dl : state),
      reads_args h.libc (token h.libc text vars 1) (a :: rest) dl → dl.type = TOK_CLOSE →
      (arity (token h.libc text vars 0).type = 0 →
        ∃ e : Int, 0 < e ∧ compile h mem text vars = .ok (none, e)) ∧
      (2 ≤ arity (token h.libc text vars 0).type →
        (a :: rest).length ≠ arity (token h.libc text vars 0).type →
        ∃ e : Int, 0 < e ∧ compile h mem text vars = .ok (none, e)) ∧
      ((next_token h.libc dl).type = TOK_END →
        (arity (token h.libc text vars 0).type = 1 →
          parse h.libc text vars =
              some ((call_node (token h.libc text vars 0)).set_parameter 0 (comma_tree a rest),
                next_token h.libc dl) ∧
            (compile h mem text vars = .fault ∨
              ∃ n, compile h mem text vars = .ok (some n, 0))) ∧
        (2 ≤ arity (token h.libc text vars 0).type →
          (a :: rest).length = arity (token h.libc text vars 0).type →
          parse h.libc text vars =
              some (set_parameters (call_node (token h.libc text vars 0)) 0 (a :: rest),
                next_token h.libc dl) ∧
            (compile h mem text vars = .fault ∨
              ∃ n, compile h mem text vars = .ok (some n, 0))))) := by
  have hs := call_no_sign _ hc
  refine ⟨fun hcl => ⟨?_, call_no_argument h mem text vars hc ho hcl⟩, ?_⟩
  · intro ha he
    have hb : yields (fun fuel => base h.libc fuel (token h.libc text vars 0)) 1
        (call_node (token h.libc text vars 0), token h.libc text vars 3) := by
      intro fuel hf
      obtain ⟨k, rfl⟩ : ∃ k, fuel = k + 1 := ⟨fuel - 1, by omega⟩
      have e := base_call_zero h.libc (token h.libc text vars 0) k hc ha ho
      rw [if_neg (show ¬ (next_token h.libc (next_token h.libc (token h.libc text vars 0))).type ≠
        TOK_CLOSE from not_not.mpr hcl)] at e
      exact e
    have hp := parse_of_base h.libc text vars _ _ _ hs hb (Or.inl he)
    exact ⟨hp, compile_of_parse_end h mem text vars _ _ hp he⟩
  · intro a rest dl hr hdl
    have hsep : dl.type ≠ TOK_SEP := by rw [hdl]; decide
    refine ⟨?_, ?_, ?_⟩
    · intro ha
      have hnc := reads_args_not_close h.libc a rest _ dl hr hdl
      have hb : yields (fun fuel => base h.libc fuel (token h.libc text vars 0)) 1
          (call_node (token h.libc text vars 0),
            { token h.libc text vars 2 with type := TOK_ERROR }) := by
        intro fuel hf
        obtain ⟨k, rfl⟩ : ∃ k, fuel = k + 1 := ⟨fuel - 1, by omega⟩
        have e := base_call_zero h.libc (token h.libc text vars 0) k hc ha ho
        rw [if_pos (show (next_token h.libc (next_token h.libc (token h.libc text vars 0))).type ≠
          TOK_CLOSE from hnc)] at e
        exact e
      exact compile_of_parse_error h mem text vars _ _
        (parse_of_base h.libc text vars _ _ _ hs hb (Or.inr rfl)) rfl
    · intro ha hk
      by_cases hlt : (a :: rest).length ≤ arity (token h.libc text vars 0).type
      · obtain ⟨n, hA⟩ := base_args_run h.libc (a :: rest) _ dl
          (arity (token h.libc text vars 0).type) 0 (call_node (token h.libc text vars 0))
          (by simp) hr hsep (by omega)
        have hb := base_call_many h.libc (token h.libc text vars 0) _ _ _ _ hc ha ho hA
        rw [if_pos (Or.inr (by simp only [List.length_cons] at hk hlt ⊢; omega))] at hb
        exact compile_of_parse_error h mem text vars _ _
          (parse_of_base h.libc text vars _ _ _ hs hb (Or.inr rfl)) rfl
      · obtain ⟨n, ret1, s2, hA, hs2⟩ := base_args_over h.libc (a :: rest) _ dl
          (arity (token h.libc text vars 0).type) 0 (call_node (token h.libc text vars 0))
          hr (by omega) (by omega)
        have hb := base_call_many h.libc (token h.libc text vars 0) _ _ _ _ hc ha ho hA
        rw [if_pos (Or.inl (by rw [hs2]; decide))] at hb
        exact compile_of_parse_error h mem text vars _ _
          (parse_of_base h.libc text vars _ _ _ hs hb (Or.inr rfl)) rfl
    · intro he
      refine ⟨?_, ?_⟩
      · intro ha
        obtain ⟨n, hl⟩ := list_run h.libc a rest _ dl hr hsep
        have hb := base_call_one_open h.libc (token h.libc text vars 0) dl _ n hc ha ho hl
          (fun _ => he)
        rw [if_neg (not_not.mpr hdl)] at hb
        have hp := parse_of_base h.libc text vars _ _ _ hs hb (Or.inl he)
        exact ⟨hp, compile_of_parse_end h mem text vars _ _ hp he⟩
      · intro ha hk
        obtain ⟨n, hA⟩ := base_args_run h.libc (a :: rest) _ dl
          (arity (token h.libc text vars 0).type) 0 (call_node (token h.libc text vars 0))
          (by simp) hr hsep (by omega)
        have hb := base_call_many h.libc (token h.libc text vars 0) _ _ _ _ hc ha ho hA
        rw [if_neg (by
          rw [hdl]
          simp only [List.length_cons] at hk ⊢
          omega)] at hb
        have hp := parse_of_base h.libc text vars _ _ _ hs hb (Or.inl he)
        exact ⟨hp, compile_of_parse_end h mem text vars _ _ hp he⟩

/-- An operand token before a comma or a closing parenthesis is an argument. -/
theorem expr_operand (c : Libc) (s : state) (h : is_operand s)
    (hn : (next_token c s).type = TOK_SEP ∨ (next_token c s).type = TOK_CLOSE) :
    yields (fun fuel => expr c fuel s) 12 (operand_node s, next_token c s) := by
  have hno : ∀ m, 1 ≤ m → is_level_op m (next_token c s) = false := by
    intro m hm
    rcases hn with hn | hn
    · by_cases h6 : 6 ≤ m
      · obtain ⟨j, rfl⟩ : ∃ j, m = j + 6 := ⟨m - 6, by omega⟩
        rfl
      · have em : m = 1 ∨ m = 2 ∨ m = 3 ∨ m = 4 ∨ m = 5 := by omega
        rcases em with g | g | g | g | g <;> subst g <;> simp [is_level_op, state.is_op, hn] <;>
          intro hx <;> exact absurd hx (by decide)
    · exact not_level_op _ (by rw [hn]; decide) (by rw [hn]; decide) m
  exact level_operand c s h 5 1 rfl hno

theorem reads_args_one (c : Libc) (d dl : state) (a : expr_native) (n : Nat)
    (hy : yields (fun fuel => expr c fuel (next_token c d)) n (a, dl)) :
    reads_args c d [a] dl :=
  ⟨dl, n, hy, fun hx => absurd rfl hx, rfl⟩

theorem reads_args_cons (c : Libc) (d d1 dl : state) (a : expr_native) (as : List expr_native)
    (n : Nat) (hy : yields (fun fuel => expr c fuel (next_token c d)) n (a, d1))
    (hs : d1.type = TOK_SEP) (hr : reads_args c d1 as dl) :
    reads_args c d (a :: as) dl :=
  ⟨d1, n, hy, fun _ => hs, hr⟩

/-- C9 as written fails for the arity 1: `sum1(2,3)` compiles, the two arguments being
read as the one operand `(2,3)`. -/
theorem C9_one_argument_takes_list :
    compile plain_host [] (cstr "sum1(2,3)") dynamic_lookup =
      .ok (some ⟨[611, impl.comma], [cstr "sum1", cstr "comma"],
        [.int TE_FUNCTION1, .int 0, .int 32, .int 0,
         .int (TE_FUNCTION2 ||| TE_FLAG_PURE), .int 1, .int 72, .int 96, .int 0,
         .int TE_CONSTANT, .flt (.num 2), .int 0,
         .int TE_CONSTANT, .flt (.num 3), .int 0], 120⟩, 0) := by decide!

/-- C9 (amended) at `sum2(2,3,4)` and `sum0(2)`, which fail, and at `sum2(2,3)` and
`sum1(2,3)`, which are parsed as calls. -/
theorem C9_call_arity_witness :
    (∃ e : Int, 0 < e ∧
      compile plain_host [] (cstr "sum2(2,3,4)") dynamic_lookup = .ok (none, e)) ∧
    (∃ e : Int, 0 < e ∧
      compile plain_host [] (cstr "sum0(2)") dynamic_lookup = .ok (none, e)) ∧
    parse exact_libc (cstr "sum2(2,3)") dynamic_lookup =
      some (.node TE_FUNCTION2 (.ptr 612)
        [.node TE_CONSTANT (.value (.num 2)) [] 0, .node TE_CONSTANT (.value (.num 3)) [] 0] 0,
        token exact_libc (cstr "sum2(2,3)") dynamic_lookup 6) ∧
    parse exact_libc (cstr "sum1(2,3)") dynamic_lookup =
      some (.node TE_FUNCTION1 (.ptr 611)
        [binary impl.comma (.node TE_CONSTANT (.value (.num 2)) [] 0)
          (.node TE_CONSTANT (.value (.num 3)) [] 0)] 0,
        token exact_libc (cstr "sum1(2,3)") dynamic_lookup 6) := by
  refine ⟨?_, ?_, ?_, ?_⟩
  · exact ((C9_call_arity plain_host [] (cstr "sum2(2,3,4)") dynamic_lookup (by decide!)
      (by decide!)).2 _ _ (token exact_libc (cstr "sum2(2,3,4)") dynamic_lookup 7)
      (reads_args_cons _ _ _ _ _ _ _
        (expr_operand exact_libc (token exact_libc (cstr "sum2(2,3,4)") dynamic_lookup 2)
          (by decide!) (by decide!)) (by decide!)
        (reads_args_cons _ _ _ _ _ _ _
          (expr_operand exact_libc (token exact_libc (cstr "sum2(2,3,4)") dynamic_lookup 4)
            (by decide!) (by decide!)) (by decide!)
          (reads_args_one _ _ _ _ _
            (expr_operand exact_libc (token exact_libc (cstr "sum2(2,3,4)") dynamic_lookup 6)
              (by decide!) (by decide!)))))
      (by decide!)).2.1 (by decide!) (by decide!)
  · exact ((C9_call_arity plain_host [] (cstr "sum0(2)") dynamic_lookup (by decide!)
      (by decide!)).2 _ _ (token exact_libc (cstr "sum0(2)") dynamic_lookup 3)
      (reads_args_one _ _ _ _ _
        (expr_operand exact_libc (token exact_libc (cstr "sum0(2)") dynamic_lookup 2)
          (by decide!) (by decide!)))
      (by decide!)).1 (by decide!)
  · exact ((((C9_call_arity plain_host [] (cstr "sum2(2,3)") dynamic_lookup (by decide!)
      (by decide!)).2 _ _ (token exact_libc (cstr "sum2(2,3)") dynamic_lookup 5)
      (reads_args_cons _ _ _ _ _ _ _
        (expr_operand exact_libc (token exact_libc (cstr "sum2(2,3)") dynamic_lookup 2)
          (by decide!) (by decide!)) (by decide!)
        (reads_args_one _ _ _ _ _
          (expr_operand exact_libc (token exact_libc (cstr "sum2(2,3)") dynamic_lookup 4)
            (by decide!) (by decide!))))
      (by decide!)).2.2 (by decide!)).2 (by decide!) (by decide!)).1.trans (by decide!)
  · exact ((((C9_call_arity plain_host [] (cstr "sum1(2,3)") dynamic_lookup (by decide!)
      (by decide!)).2 _ _ (token exact_libc (cstr "sum1(2,3)") dynamic_lookup 5)
      (reads_args_cons _ _ _ _ _ _ _
        (expr_operand exact_libc (token exact_libc (cstr "sum1(2,3)") dynamic_lookup 2)
          (by decide!) (by decide!)) (by decide!)
        (reads_args_one _ _ _ _ _
          (expr_operand exact_libc (token exact_libc (cstr "sum1(2,3)") dynamic_lookup 4)
            (by decide!) (by decide!))))
      (by decide!)).2.2 (by decide!)).1 (by decide!)).1.trans (by decide!)

/-! ## C17, C16: `optimize` -/

/-- Induction over syntax trees: a property of the null pointer that carries over from
the children of a node to the node holds of every tree. -/
theorem expr_native.tree_induction (P : expr_native → Prop) (hnull : P .null)
    (hnode : ∀ t p ps c, (∀ x ∈ ps, P x) → P (.node t p ps c)) : ∀ n, P n :=
  @expr_native.rec P (fun l => ∀ x ∈ l, P x) hnull (fun t p ps c ih => hnode t p ps c ih)
    (fun x hx => absurd hx (List.not_mem_nil x))
    (fun a l ha hl x hx => by
      rcases List.mem_cons.mp hx with e | e
      · rw [e]; exact ha
      · exact hl x e)

theorem forall2_mem_right {α β : Type} {R : α → β → Prop} {l1 : List α} {l2 : List β}
    (h : List.Forall₂ R l1 l2) : ∀ b ∈ l2, ∃ a ∈ l1, R a b := by
  induction h with
  | nil => intro b hb; exact absurd hb (List.not_mem_nil b)
  | cons hab _ ih =>
    intro b hb
    rcases List.mem_cons.mp hb with e | e
    · subst e; exact ⟨_, List.mem_cons_self _ _, hab⟩
    · obtain ⟨a, ha, hr⟩ := ih b e
      exact ⟨a, List.mem_cons_of_mem _ ha, hr⟩

theorem optimize_args_nil (h : Host) (mem : Mem) :
    optimize.optimize_args h mem [] = some [] := by
  rw [optimize.optimize_args]

theorem optimize_args_cons (h : Host) (mem : Mem) (p : expr_native) (ps : List expr_native) :
    optimize.optimize_args h mem (p :: ps) =
      (optimize h mem p).bind (fun q => (optimize.optimize_args h mem ps).map (fun qs => q :: qs)) := by
  rw [optimize.optimize_args]
  cases optimize h mem p <;> cases optimize.optimize_args h mem ps <;> rfl

/-- The arguments after `optimize_args` are the optimized arguments, one by one. -/
theorem optimize_args_forall (h : Host) (mem : Mem) :
    ∀ (ps ps1 : List expr_native), optimize.optimize_args h mem ps = some ps1 →
      List.Forall₂ (fun p q => optimize h mem p = some q) ps ps1 := by
  intro ps
  induction ps with
  | nil =>
    intro ps1 e
    rw [optimize_args_nil] at e
    cases e; exact List.Forall₂.nil
  | cons p ps ih =>
    intro ps1 e
    rw [optimize_args_cons] at e
    cases hp : optimize h mem p with
    | none => rw [hp] at e; cases e
    | some q =>
      rw [hp] at e
      cases hq : optimize.optimize_args h mem ps with
      | none => rw [hq] at e; cases e
      | some qs =>
        rw [hq] at e
        cases e
        exact List.Forall₂.cons hp (ih qs hq)

theorem optimize_args_fixed (h : Host) (mem : Mem) :
    ∀ (qs : List expr_native), (∀ q ∈ qs, optimize h mem q = some q) →
      optimize.optimize_args h mem qs = some qs := by
  intro qs
  induction qs with
  | nil => intro _; exact optimize_args_nil h mem
  | cons q qs ih =>
    intro hq
    rw [optimize_args_cons, hq q (List.mem_cons_self _ _),
      ih (fun x hx => hq x (List.mem_cons_of_mem _ hx))]
    rfl

theorem optimize_node (h : Host) (mem : Mem) (type : Nat) (payload : Payload)
    (ps : List expr_native) (ctx : Nat) :
    optimize h mem (.node type payload ps ctx) =
      if type = TE_CONSTANT then some (.node type payload ps ctx)
      else if type = TE_VARIABLE then some (.node type payload ps ctx)
      else if is_pure type then
        match optimize.optimize_args h mem ps with
        | none => none
        | some ps1 =>
          if ps1.all (fun p => p.type == some TE_CONSTANT) then
            match eval_native h mem (.node type payload ps1 ctx) with
            | none => none
            | some value => some (.node TE_CONSTANT (.value value) [] 0)
          else some (.node type payload ps1 ctx)
      else some (.node type payload ps ctx) := by
  rw [optimize]

/-- A tree `optimize` returns is left as it is by `optimize`. -/
theorem optimize_fixed (h : Host) (mem : Mem) :
    ∀ (t r : expr_native), optimize h mem t = some r → optimize h mem r = some r := by
  intro t
  induction t using expr_native.tree_induction with
  | hnull => intro r e; rw [optimize] at e; cases e
  | hnode type payload ps ctx ih =>
    intro r e
    rw [optimize_node] at e
    by_cases h1 : type = TE_CONSTANT
    · rw [if_pos h1] at e
      cases e
      rw [optimize_node, if_pos h1]
    rw [if_neg h1] at e
    by_cases h2 : type = TE_VARIABLE
    · rw [if_pos h2] at e
      cases e
      rw [optimize_node, if_neg h1, if_pos h2]
    rw [if_neg h2] at e
    by_cases h3 : is_pure type = true
    · rw [if_pos h3] at e
      cases hps : optimize.optimize_args h mem ps with
      | none => rw [hps] at e; cases e
      | some ps1 =>
        rw [hps] at e
        simp only [] at e
        have hfa := optimize_args_forall h mem ps ps1 hps
        have hfix : ∀ q ∈ ps1, optimize h mem q = some q := by
          intro q hq
          obtain ⟨p, hp, hpq⟩ := forall2_mem_right hfa q hq
          exact ih p hp q hpq
        by_cases hall : ps1.all (fun p => p.type == some TE_CONSTANT) = true
        · rw [if_pos hall] at e
          cases hv : eval_native h mem (.node type payload ps1 ctx) with
          | none => rw [hv] at e; cases e
          | some value =>
            rw [hv] at e
            cases e
            rw [optimize_node, if_pos rfl]
        · rw [if_neg hall] at e
          cases e
          rw [optimize_node, if_neg h1, if_neg h2, if_pos h3, optimize_args_fixed h mem ps1 hfix]
          simp only []
          rw [if_neg hall]
    · rw [if_neg h3] at e
      cases e
      rw [optimize_node, if_neg h1, if_neg h2, if_neg h3]

/-- C17: `optimize` is idempotent: for every host (a deterministic function of the
callable, context, storage and arguments), storage and tree `t`, running `optimize`
on the tree `optimize` returned gives that tree again, node for node; and where
`optimize(t)` is undefined behaviour, so is the composition. -/
theorem C17_optimize_idempotent (h : Host) (mem : Mem) (t : expr_native) :
    (optimize h mem t).bind (optimize h mem) = optimize h mem t := by
  cases e : optimize h mem t with
  | none => rfl
  | some r => exact optimize_fixed h mem t r e

theorem all_const_pure_iff (ps : List expr_native) :
    const_pure.all_const_pure ps = true ↔ ∀ q ∈ ps, const_pure q = true := by
  induction ps with
  | nil => simp [const_pure.all_const_pure]
  | cons p ps ih => simp [const_pure.all_const_pure, ih]

theorem mem_all_under_pure (ps : List expr_native) (u : expr_native) :
    u ∈ under_pure.all_under_pure ps ↔ ∃ q ∈ ps, u ∈ under_pure q := by
  induction ps with
  | nil => simp [under_pure.all_under_pure]
  | cons p ps ih => simp [under_pure.all_under_pure, ih]

theorem const_pure_mem_under (q : expr_native) (h : const_pure q = true) : q ∈ under_pure q := by
  cases q with
  | null => rw [const_pure] at h; cases h
  | node t p ps c => rw [under_pure]; exact List.mem_cons_self _ _

/-- After `optimize`, a subtree below Pure nodes only whose leaves are constants and
whose other nodes are Pure is a Constant node. -/
theorem optimize_folds (h : Host) (mem : Mem) :
    ∀ (t r : expr_native), optimize h mem t = some r →
      ∀ u ∈ under_pure r, const_pure u = true → u.type = some TE_CONSTANT := by
  intro t
  induction t using expr_native.tree_induction with
  | hnull => intro r e; rw [optimize] at e; cases e
  | hnode type payload ps ctx ih =>
    intro r e u hu hc
    rw [optimize_node] at e
    by_cases h1 : type = TE_CONSTANT
    · rw [if_pos h1] at e
      cases e
      have hp : is_pure type = false := by rw [h1]; rfl
      rw [under_pure, hp] at hu
      simp only [Bool.false_eq_true, if_false, List.mem_singleton] at hu
      rw [hu, h1]; rfl
    rw [if_neg h1] at e
    by_cases h2 : type = TE_VARIABLE
    · rw [if_pos h2] at e
      cases e
      have hp : is_pure type = false := by rw [h2]; rfl
      rw [under_pure, hp] at hu
      simp only [Bool.false_eq_true, if_false, List.mem_singleton] at hu
      rw [hu, const_pure, hp] at hc
      simp only [beq_iff_eq, Bool.false_and, Bool.or_false] at hc
      exact absurd hc h1
    rw [if_neg h2] at e
    by_cases h3 : is_pure type = true
    · rw [if_pos h3] at e
      cases hps : optimize.optimize_args h mem ps with
      | none => rw [hps] at e; cases e
      | some ps1 =>
        rw [hps] at e
        simp only [] at e
        have hfa := optimize_args_forall h mem ps ps1 hps
        have hkids : ∀ q ∈ ps1, ∀ v ∈ under_pure q, const_pure v = true →
            v.type = some TE_CONSTANT := by
          intro q hq
          obtain ⟨p, hp, hpq⟩ := forall2_mem_right hfa q hq
          exact ih p hp q hpq
        by_cases hall : ps1.all (fun p => p.type == some TE_CONSTANT) = true
        · rw [if_pos hall] at e
          cases hv : eval_native h mem (.node type payload ps1 ctx) with
          | none => rw [hv] at e; cases e
          | some value =>
            rw [hv] at e
            cases e
            have hp : is_pure TE_CONSTANT = false := rfl
            rw [under_pure, hp] at hu
            simp only [Bool.false_eq_true, if_false, List.mem_singleton] at hu
            rw [hu]; rfl
        · rw [if_neg hall] at e
          cases e
          rw [under_pure, if_pos h3] at hu
          rcases List.mem_cons.mp hu with hu | hu
          · exfalso
            rw [hu, const_pure] at hc
            simp only [Bool.or_eq_true, beq_iff_eq, Bool.and_eq_true] at hc
            rcases hc with hc | hc
            · exact h1 hc
            · apply hall
              rw [List.all_eq_true]
              intro q hq
              have hq1 := (all_const_pure_iff ps1).mp hc.2 q hq
              rw [hkids q hq q (const_pure_mem_under q hq1) hq1]
              rfl
          · obtain ⟨q, hq, huq⟩ := (mem_all_under_pure ps1 u).mp hu
            exact hkids q hq u huq hc
    · rw [if_neg h3] at e
      cases e
      have hp : is_pure type = false := by
        cases hx : is_pure type with
        | false => rfl
        | true => exact absurd hx h3
      rw [under_pure, hp] at hu
      simp only [Bool.false_eq_true, if_false, List.mem_singleton] at hu
      rw [hu, const_pure, hp] at hc
      simp only [beq_iff_eq, Bool.false_and, Bool.or_false] at hc
      exact absurd hc h1

/-- A call that does not carry the Pure flag is returned as it is, with its arguments. -/
theorem optimize_not_pure (h : Host) (mem : Mem) (type : Nat) (payload : Payload)
    (ps : List expr_native) (ctx : Nat) (hp : is_pure type = false) :
    optimize h mem (.node type payload ps ctx) = some (.node type payload ps ctx) := by
  rw [optimize_node, hp]
  by_cases h1 : type = TE_CONSTANT
  · rw [if_pos h1]
  · rw [if_neg h1]
    by_cases h2 : type = TE_VARIABLE
    · rw [if_pos h2]
    · rw [if_neg h2]; rfl

/-- C16 (amended): after `optimize`, every subtree of the result that stands below
Pure nodes only, all of whose leaves are constants and all of whose other nodes carry
the Pure flag, is a Constant node; and a call that does not carry the Pure flag is
returned as it is, with its arguments as they were. -/
theorem C16_optimize_folds_under_pure (h : Host) (mem : Mem) (t r : expr_native)
    (e : optimize h mem t = some r) :
    (∀ u ∈ under_pure r, const_pure u = true → u.type = some TE_CONSTANT) ∧
    (∀ type payload ps ctx, t = .node type payload ps ctx → is_pure type = false → r = t) := by
  refine ⟨optimize_folds h mem t r e, ?_⟩
  intro type payload ps ctx ht hp
  rw [ht, optimize_not_pure h mem type payload ps ctx hp] at e
  rw [ht]
  exact (Option.some.inj e).symm

/-- C16 as written fails below a call that is not flagged Pure: `sum1(1+2)` is parsed
to the call of `sum1` on `add(1, 2)`, `optimize` returns this tree as it is, and
`compile_native` with it; the argument is a subtree with Constant leaves and a Pure
node that is not a Constant. -/
theorem C16_argument_of_call_kept :
    parse exact_libc (cstr "sum1(1+2)") dynamic_lookup =
      some (sum1_of_sum, token exact_libc (cstr "sum1(1+2)") dynamic_lookup 6) ∧
    optimize plain_host [] sum1_of_sum = some sum1_of_sum ∧
    compile_native plain_host [] (cstr "sum1(1+2)") dynamic_lookup = .ok (some sum1_of_sum, 0) ∧
    const_pure (binary impl.add (.node TE_CONSTANT (.value (.num 1)) [] 0)
      (.node TE_CONSTANT (.value (.num 2)) [] 0)) = true := by
  refine ⟨by decide!, by decide!, by decide!, by decide!⟩

/-- C16 (amended) at the tree of `x+(1+2)`: `optimize` gives `x+3`, in which the
subtrees below Pure nodes are `x+3`, `x` and `3`. -/
theorem C16_optimize_folds_under_pure_witness :
    compile_native plain_host [] (cstr "x+(1+2)") loop_vars = .ok (some
      (binary impl.add (.node TE_VARIABLE (.ptr 5000) [] 0)
        (.node TE_CONSTANT (.value (.num 3)) [] 0)), 0) ∧
    optimize plain_host [] x_plus_sum =
      some (binary impl.add (.node TE_VARIABLE (.ptr 5000) [] 0)
        (.node TE_CONSTANT (.value (.num 3)) [] 0)) ∧
    ∀ u ∈ under_pure (binary impl.add (.node TE_VARIABLE (.ptr 5000) [] 0)
        (.node TE_CONSTANT (.value (.num 3)) [] 0)),
      const_pure u = true → u.type = some TE_CONSTANT :=
  ⟨by decide!, by decide!,
    (C16_optimize_folds_under_pure plain_host [] x_plus_sum _ (by decide!)).1⟩

/-! ## C18: the portable evaluators -/

theorem eval_params_spec (h : Host) (mem : Mem) (buf : List Word) (base : Nat)
    (ctx : Option (List Nat)) (fuel : Nat) :
    ∀ (a slot : Nat), eval_portable_impl.eval_params h mem buf base ctx fuel slot a =
      spec_parameter_values buf (fun o => eval_portable_impl h mem buf base ctx fuel o) slot a := by
  intro a
  induction a with
  | zero => intro slot; rw [eval_portable_impl.eval_params, spec_parameter_values]
  | succ a iha =>
    intro slot
    rw [eval_portable_impl.eval_params, spec_parameter_values]
    cases read_int buf slot with
    | none => rfl
    | some off =>
      simp only []
      rw [iha (slot + 8)]

theorem M_spec (h : Host) (mem : Mem) (buf : List Word) (base : Nat)
    (ctx : Option (List Nat)) (fuel : Nat) :
    ∀ (a slot : Nat), te_eval_portable_impl.M h mem buf base ctx fuel slot a =
      spec_parameter_values buf (fun o => te_eval_portable_impl h mem buf base ctx fuel o) slot a := by
  intro a
  induction a with
  | zero => intro slot; rw [te_eval_portable_impl.M, spec_parameter_values]
  | succ a iha =>
    intro slot
    rw [te_eval_portable_impl.M, spec_parameter_values]
    cases read_int buf slot with
    | none => rfl
    | some off =>
      simp only []
      rw [iha (slot + 8)]

theorem te_arity_eq (type : Nat) (h : 8 ≤ type % 32 ∧ type % 32 ≤ 23) :
    te_arity type = type % 32 % 8 := by
  have h7 : type &&& 7 = type % 8 := Nat.and_pow_two_sub_one_eq_mod type 3
  have h31 : type &&& 31 = type % 32 := Nat.and_pow_two_sub_one_eq_mod type 5
  have h24 : type &&& 24 = (type &&& 31) &&& 24 := by
    rw [Nat.and_assoc]; rfl
  unfold te_arity
  have e : TE_FUNCTION0 ||| TE_CLOSURE0 = 24 := rfl
  rw [e, h24, h31, h7]
  have hlt : type % 32 < 32 := Nat.mod_lt _ (by decide)
  have hne : (type % 32) &&& 24 ≠ 0 := by
    generalize type % 32 = m at h hlt
    obtain ⟨h1, h2⟩ := h
    interval_cases m <;> decide
  rw [if_pos hne]
  omega

/-- One step of `eval_portable_impl` is the dispatch of the spec on the low five bits. -/
theorem eval_portable_impl_succ (h : Host) (mem : Mem) (buf : List Word) (base : Nat)
    (ctx : Option (List Nat)) (fuel off : Nat) :
    eval_portable_impl h mem buf base ctx (fuel + 1) off =
      spec_node_value h mem buf base ctx
        (fun o => eval_portable_impl h mem buf base ctx fuel o) off := by
  cases ctx with
  | none =>
    rw [eval_portable_impl, spec_node_value]
    cases read_int buf (base + off) with
    | none => rfl
    | some type =>
      simp only []
      rw [type_mask_eq_mod, spec_tag_value]
      have hlt : type % 32 < 32 := Nat.mod_lt _ (by decide)
      generalize type % 32 = tag at hlt
      by_cases h1 : tag = 1
      · rw [if_pos (show tag = TE_CONSTANT from h1), if_pos h1]
      rw [if_neg (show ¬ tag = TE_CONSTANT from h1), if_neg h1]
      by_cases h0 : tag = 0
      · rw [if_pos (show tag = TE_VARIABLE from h0), if_pos h0]
      rw [if_neg (show ¬ tag = TE_VARIABLE from h0), if_neg h0]
      by_cases hf : 8 ≤ tag ∧ tag ≤ 15
      · rw [if_pos (show tag ≥ TE_FUNCTION0 ∧ tag < TE_FUNCTION_MAX from
          ⟨hf.1, Nat.lt_succ_of_le hf.2⟩), if_pos hf]
        rfl
      rw [if_neg (show ¬ (tag ≥ TE_FUNCTION0 ∧ tag < TE_FUNCTION_MAX) from
        fun hx => hf ⟨hx.1, Nat.le_of_lt_succ hx.2⟩), if_neg hf]
      by_cases hc : 16 ≤ tag ∧ tag ≤ 23
      · rw [if_pos (show tag ≥ TE_CLOSURE0 ∧ tag < TE_CLOSURE_MAX from
          ⟨hc.1, Nat.lt_succ_of_le hc.2⟩), if_pos hc]
        rfl
      · rw [if_neg (show ¬ (tag ≥ TE_CLOSURE0 ∧ tag < TE_CLOSURE_MAX) from
          fun hx => hc ⟨hx.1, Nat.le_of_lt_succ hx.2⟩), if_neg hc]
  | some table =>
    rw [eval_portable_impl, spec_node_value]
    cases read_int buf (base + off) with
    | none => rfl
    | some type =>
      simp only []
      rw [type_mask_eq_mod, spec_tag_value]
      have hlt : type % 32 < 32 := Nat.mod_lt _ (by decide)
      generalize type % 32 = tag at hlt
      by_cases h1 : tag = 1
      · rw [if_pos (show tag = TE_CONSTANT from h1), if_pos h1]
      rw [if_neg (show ¬ tag = TE_CONSTANT from h1), if_neg h1]
      by_cases h0 : tag = 0
      · rw [if_pos (show tag = TE_VARIABLE from h0), if_pos h0]
        cases (read_int buf (base + off + 8)).bind table.get? with
        | none => rfl
        | some addr =>
          try simp only [Option.bind]
      rw [if_neg (show ¬ tag = TE_VARIABLE from h0), if_neg h0]
      by_cases hf : 8 ≤ tag ∧ tag ≤ 15
      · rw [if_pos (show tag ≥ TE_FUNCTION0 ∧ tag < TE_FUNCTION_MAX from
          ⟨hf.1, Nat.lt_succ_of_le hf.2⟩), if_pos hf]
        cases (some table).bind (fun table => (read_int buf (base + off + 8)).bind table.get?) with
        | none => rfl
        | some fn =>
          simp only []
          rw [eval_params_spec h mem buf base (some table) fuel]
          rfl
      rw [if_neg (show ¬ (tag ≥ TE_FUNCTION0 ∧ tag < TE_FUNCTION_MAX) from
        fun hx => hf ⟨hx.1, Nat.le_of_lt_succ hx.2⟩), if_neg hf]
      by_cases hc : 16 ≤ tag ∧ tag ≤ 23
      · rw [if_pos (show tag ≥ TE_CLOSURE0 ∧ tag < TE_CLOSURE_MAX from
          ⟨hc.1, Nat.lt_succ_of_le hc.2⟩), if_pos hc]
        rw [show TE_CLOSURE0 = 16 from rfl]
        cases (some table).bind
            (fun table => (read_int buf (base + off + 8)).bind table.get?) with
        | none => rfl
        | some fn =>
          cases (some table).bind (fun table =>
              (read_int buf (base + off + 16 + 8 * (tag - 16))).bind table.get?) with
          | none => rfl
          | some context =>
            simp only []
            rw [eval_params_spec h mem buf base (some table) fuel]
            rfl
      · rw [if_neg (show ¬ (tag ≥ TE_CLOSURE0 ∧ tag < TE_CLOSURE_MAX) from
          fun hx => hc ⟨hx.1, Nat.le_of_lt_succ hx.2⟩), if_neg hc]

/-- The evaluator of `tinyprog.h` is the evaluation the spec describes. -/
theorem eval_portable_impl_spec (h : Host) (mem : Mem) (buf : List Word) (base : Nat)
    (ctx : Option (List Nat)) :
    ∀ (fuel off : Nat), eval_portable_impl h mem buf base ctx fuel off =
      spec_eval h mem buf base ctx fuel off := by
  intro fuel
  induction fuel with
  | zero => intro off; rw [eval_portable_impl.eq_1, spec_eval]
  | succ fuel ih =>
    intro off
    rw [eval_portable_impl_succ, spec_eval]
    have e : (fun o => eval_portable_impl h mem buf base ctx fuel o) =
        (fun o => spec_eval h mem buf base ctx fuel o) := funext ih
    rw [e]

theorem te_type_mask_eq_mod (t : Nat) : te_type_mask t = t % 32 :=
  Nat.and_pow_two_sub_one_eq_mod t 5

/-- One step of `te_eval_portable_impl` is the dispatch of the spec on the low five
bits. -/
theorem te_eval_portable_impl_succ (h : Host) (mem : Mem) (buf : List Word) (base : Nat)
    (ctx : Option (List Nat)) (fuel off : Nat) :
    te_eval_portable_impl h mem buf base ctx (fuel + 1) off =
      spec_node_value h mem buf base ctx
        (fun o => te_eval_portable_impl h mem buf base ctx fuel o) off := by
  cases ctx with
  | none =>
    rw [te_eval_portable_impl, spec_node_value]
    cases read_int buf (base + off) with
    | none => rfl
    | some type =>
      simp only []
      rw [te_type_mask_eq_mod, spec_tag_value]
      by_cases h1 : type % 32 = 1
      · rw [if_pos (show type % 32 = TE_CONSTANT from h1), if_pos h1]
      rw [if_neg (show ¬ type % 32 = TE_CONSTANT from h1), if_neg h1]
      by_cases h0 : type % 32 = 0
      · rw [if_pos (show type % 32 = TE_VARIABLE from h0), if_pos h0]
      rw [if_neg (show ¬ type % 32 = TE_VARIABLE from h0), if_neg h0]
      by_cases hf : 8 ≤ type % 32 ∧ type % 32 ≤ 15
      · rw [if_pos (show TE_FUNCTION0 ≤ type % 32 ∧ type % 32 ≤ TE_FUNCTION7 from hf), if_pos hf,
          te_arity_eq type ⟨hf.1, by omega⟩, if_pos (by omega)]
        all_goals rfl
      rw [if_neg (show ¬ (TE_FUNCTION0 ≤ type % 32 ∧ type % 32 ≤ TE_FUNCTION7) from hf), if_neg hf]
      by_cases hc : 16 ≤ type % 32 ∧ type % 32 ≤ 23
      · rw [if_pos (show TE_CLOSURE0 ≤ type % 32 ∧ type % 32 ≤ TE_CLOSURE7 from hc), if_pos hc]
        rfl
      · rw [if_neg (show ¬ (TE_CLOSURE0 ≤ type % 32 ∧ type % 32 ≤ TE_CLOSURE7) from hc), if_neg hc]
  | some table =>
    rw [te_eval_portable_impl, spec_node_value]
    cases read_int buf (base + off) with
    | none => rfl
    | some type =>
      simp only []
      rw [te_type_mask_eq_mod, spec_tag_value]
      by_cases h1 : type % 32 = 1
      · rw [if_pos (show type % 32 = TE_CONSTANT from h1), if_pos h1]
      rw [if_neg (show ¬ type % 32 = TE_CONSTANT from h1), if_neg h1]
      by_cases h0 : type % 32 = 0
      · rw [if_pos (show type % 32 = TE_VARIABLE from h0), if_pos h0]
        cases (read_int buf (base + off + 8)).bind table.get? with
        | none => rfl
        | some addr =>
          try simp only [Option.bind]
      rw [if_neg (show ¬ type % 32 = TE_VARIABLE from h0), if_neg h0]
      by_cases hf : 8 ≤ type % 32 ∧ type % 32 ≤ 15
      · rw [if_pos (show TE_FUNCTION0 ≤ type % 32 ∧ type % 32 ≤ TE_FUNCTION7 from hf), if_pos hf,
          te_arity_eq type ⟨hf.1, by omega⟩, if_pos (by omega),
          show type % 32 % 8 = type % 32 - 8 from by omega]
        cases (some table).bind (fun table => (read_int buf (base + off + 8)).bind table.get?) with
        | none => rfl
        | some fn =>
          simp only []
          rw [M_spec h mem buf base (some table) fuel]
          rfl
      rw [if_neg (show ¬ (TE_FUNCTION0 ≤ type % 32 ∧ type % 32 ≤ TE_FUNCTION7) from hf), if_neg hf]
      by_cases hc : 16 ≤ type % 32 ∧ type % 32 ≤ 23
      · have hle : type % 32 % 8 ≤ 7 := by omega
        rw [if_pos (show TE_CLOSURE0 ≤ type % 32 ∧ type % 32 ≤ TE_CLOSURE7 from hc), if_pos hc,
          te_arity_eq type ⟨by omega, hc.2⟩]
        simp only [hle, if_true]
        rw [show type % 32 % 8 = type % 32 - 16 from by omega]
        cases (some table).bind
            (fun table => (read_int buf (base + off + 8)).bind table.get?) with
        | none =>
          cases (some table).bind (fun table =>
              (read_int buf (base + off + 16 + 8 * (type % 32 - 16))).bind table.get?) <;> rfl
        | some fn =>
          cases (some table).bind (fun table =>
              (read_int buf (base + off + 16 + 8 * (type % 32 - 16))).bind table.get?) with
          | none => rfl
          | some context =>
            simp only []
            rw [M_spec h mem buf base (some table) fuel]
            rfl
      · rw [if_neg (show ¬ (TE_CLOSURE0 ≤ type % 32 ∧ type % 32 ≤ TE_CLOSURE7) from hc), if_neg hc]

/-- The evaluator of `tinyexpr.h` is the evaluation the spec describes. -/
theorem te_eval_portable_impl_spec (h : Host) (mem : Mem) (buf : List Word) (base : Nat)
    (ctx : Option (List Nat)) :
    ∀ (fuel off : Nat), te_eval_portable_impl h mem buf base ctx fuel off =
      spec_eval h mem buf base ctx fuel off := by
  intro fuel
  induction fuel with
  | zero => intro off; rw [te_eval_portable_impl.eq_1, spec_eval]
  | succ fuel ih =>
    intro off
    rw [te_eval_portable_impl_succ, spec_eval]
    have e : (fun o => te_eval_portable_impl h mem buf base ctx fuel o) =
        (fun o => spec_eval h mem buf base ctx fuel o) := funext ih
    rw [e]

theorem type_mask_pure (type : Nat) : (type ||| TE_FLAG_PURE) % 32 = type % 32 := by
  have e : TE_FLAG_PURE = 2 ^ 5 := rfl
  rw [← Nat.and_pow_two_sub_one_eq_mod _ 5, ← Nat.and_pow_two_sub_one_eq_mod type 5, e]
  apply Nat.eq_of_testBit_eq
  intro i
  rw [Nat.testBit_and, Nat.testBit_and, Nat.testBit_or, Nat.testBit_two_pow_sub_one,
    Nat.testBit_two_pow]
  by_cases hi : i < 5
  · have : ¬ (5 = i) := by omega
    simp [hi, this]
  · simp [hi]

/-- C18: the evaluator `eval_portable_impl` of `tinyprog.h` (behind `te::eval`) and the
evaluator `te_eval_portable_impl` of `tinyexpr.h` (behind `te_eval`) are both the
evaluation the spec describes, `spec_eval`, which looks at the type of a node through
its low five bits only: tag 1 gives the stored constant; tag 0 gives NaN when the
address table is null and else the scalar at `address_table[bound]`; the tags 8..15
call `address_table[function]` on the values of `parameters[0..tag-9]`; the tags
16..23 do so with the context `address_table[parameters[tag-16]]`; every other tag
gives NaN. Setting the Pure flag does not change the low five bits. -/
theorem C18_portable_dispatch :
    (∀ (h : Host) (mem : Mem) (buf : List Word) (base : Nat) (ctx : Option (List Nat))
        (fuel off : Nat),
      eval_portable_impl h mem buf base ctx fuel off = spec_eval h mem buf base ctx fuel off ∧
      te_eval_portable_impl h mem buf base ctx fuel off =
        spec_eval h mem buf base ctx fuel off) ∧
    (∀ (h : Host) (mem : Mem) (buf : List Word) (base : Nat) (ctx : Option (List Nat)),
      te_eval h mem buf base ctx = eval h mem buf base ctx) ∧
    (∀ type : Nat, type_mask (type ||| TE_FLAG_PURE) = type_mask type ∧
      te_type_mask (type ||| TE_FLAG_PURE) = te_type_mask type ∧ type_mask type = type % 32 ∧
      te_type_mask type = type % 32) := by
  refine ⟨fun h mem buf base ctx fuel off =>
    ⟨eval_portable_impl_spec h mem buf base ctx fuel off,
      te_eval_portable_impl_spec h mem buf base ctx fuel off⟩, ?_, ?_⟩
  · intro h mem buf base ctx
    unfold te_eval eval
    rw [eval_portable_impl_spec, te_eval_portable_impl_spec]
  · intro type
    rw [type_mask_eq_mod, type_mask_eq_mod, te_type_mask_eq_mod, te_type_mask_eq_mod]
    exact ⟨type_mask_pure type, type_mask_pure type, rfl, rfl⟩

/-! ## C20: `parse_statement` -/

theorem bytes_length (v : string_view) (hv : v.valid) : v.bytes.length = v.length := by
  unfold string_view.bytes
  rw [List.length_take]
  exact Nat.min_eq_left hv

theorem dropWhile_idem (p : Nat → Bool) (l : List Nat) :
    (l.dropWhile p).dropWhile p = l.dropWhile p := by
  induction l with
  | nil => rfl
  | cons a l ih =>
    rw [List.dropWhile_cons]
    by_cases h : p a = true
    · rw [if_pos h]; exact ih
    · rw [if_neg h, List.dropWhile_cons, if_neg h]

theorem drop_takeWhile_length (p : Nat → Bool) (l : List Nat) :
    l.drop (l.takeWhile p).length = l.dropWhile p := by
  induction l with
  | nil => rfl
  | cons a l ih =>
    rw [List.takeWhile_cons, List.dropWhile_cons]
    by_cases h : p a = true
    · rw [if_pos h, if_pos h]; exact ih
    · rw [if_neg h, if_neg h]; rfl

theorem take_takeWhile_length (p : Nat → Bool) (l : List Nat) :
    l.take (l.takeWhile p).length = l.takeWhile p := by
  induction l with
  | nil => rfl
  | cons a l ih =>
    rw [List.takeWhile_cons]
    by_cases h : p a = true
    · rw [if_pos h]; simp only [List.length_cons, List.take_succ_cons]; rw [ih]
    · rw [if_neg h]; rfl

theorem takeWhile_length_le (p : Nat → Bool) (l : List Nat) : (l.takeWhile p).length ≤ l.length := by
  have := congrArg List.length (List.takeWhile_append_dropWhile p l)
  rw [List.length_append] at this
  omega

/-- Cutting the trailing whitespace off by length, as `trim_trailing_space` does. -/
theorem take_trim_end (l : List Nat) :
    l.take (l.length - (l.reverse.takeWhile isspace).length) = trim_end l := by
  unfold trim_end
  have e := List.takeWhile_append_dropWhile isspace l.reverse
  have e2 : l = (l.reverse.dropWhile isspace).reverse ++ (l.reverse.takeWhile isspace).reverse := by
    have := congrArg List.reverse e
    rw [List.reverse_append, List.reverse_reverse] at this
    exact this.symm
  have hl : ((l.reverse.dropWhile isspace).reverse).length =
      l.length - (l.reverse.takeWhile isspace).length := by
    have := congrArg List.length e
    rw [List.length_append, List.length_reverse] at this
    rw [List.length_reverse]
    omega
  rw [← hl]
  have := List.take_left (l.reverse.dropWhile isspace).reverse (l.reverse.takeWhile isspace).reverse
  rw [← e2] at this
  exact this

theorem trim_trailing_space_bytes (v : string_view) (hv : v.valid) :
    (trim_trailing_space v).bytes = trim_end v.bytes ∧ (trim_trailing_space v).valid := by
  unfold trim_trailing_space
  by_cases h : v.length > 0
  · rw [if_pos h]
    constructor
    · unfold string_view.sub string_view.bytes
      simp only [List.drop_zero]
      have := take_trim_end (v.data.take v.length)
      rw [List.take_take] at this
      have hlen : (v.data.take v.length).length = v.length := bytes_length v hv
      rw [hlen] at this
      rw [← this]
      congr 1
      omega
    · unfold string_view.valid string_view.sub
      simp only [List.drop_zero]
      unfold string_view.valid at hv
      omega
  · rw [if_neg h]
    have h0 : v.length = 0 := by omega
    refine ⟨?_, hv⟩
    unfold string_view.bytes trim_end
    rw [h0]; rfl

theorem trim_leading_space_bytes (v : string_view) (hv : v.valid) :
    (trim_leading_space v).bytes = v.bytes.dropWhile isspace ∧ (trim_leading_space v).valid := by
  unfold trim_leading_space
  by_cases h : v.length > 0
  · rw [if_pos h]
    have hle := takeWhile_length_le isspace v.bytes
    rw [bytes_length v hv] at hle
    constructor
    · unfold string_view.sub
      show ((v.data.drop _).take _) = _
      rw [List.take_drop, Nat.add_sub_cancel' hle]
      exact drop_takeWhile_length isspace v.bytes
    · unfold string_view.valid string_view.sub
      simp only [List.length_drop]
      unfold string_view.valid at hv
      omega
  · rw [if_neg h]
    have h0 : v.length = 0 := by omega
    refine ⟨?_, hv⟩
    unfold string_view.bytes
    rw [h0]; rfl

/-- The function `trim_all_space` removes the whitespace at the two ends of a view. -/
theorem trim_all_space_bytes (v : string_view) (hv : v.valid) :
    (trim_all_space v).bytes = trim_bytes v.bytes ∧ (trim_all_space v).valid := by
  unfold trim_all_space trim_bytes
  obtain ⟨e1, v1⟩ := trim_trailing_space_bytes v hv
  obtain ⟨e2, v2⟩ := trim_leading_space_bytes _ v1
  exact ⟨by rw [e2, e1], v2⟩

theorem findIdx_first (ch : Nat) (l : List Nat) :
    ∀ i, List.findIdx? (fun x => x == ch) l i =
      if ch ∈ l then some (i + (l.takeWhile (fun b => b != ch)).length) else none := by
  induction l with
  | nil => intro i; simp
  | cons a l ih =>
    intro i
    rw [List.findIdx?_cons, List.takeWhile_cons]
    by_cases h : a = ch
    · subst h
      simp
    · have h1 : (a == ch) = false := by simp [h]
      have h2 : (a != ch) = true := by simp [h]
      rw [h1, h2, ih (i + 1)]
      simp only [Bool.false_eq_true, if_false, if_true, List.mem_cons, List.length_cons]
      have hne : ¬ ch = a := fun e => h e.symm
      by_cases hm : ch ∈ l
      · simp [hm]; omega
      · simp [hm, hne]

theorem indexOf_first (ch : Nat) (l : List Nat) :
    l.indexOf? ch = if ch ∈ l then some (l.takeWhile (fun b => b != ch)).length else none := by
  unfold List.indexOf?
  have := findIdx_first ch l 0
  rw [Nat.zero_add] at this
  exact this

theorem dropWhile_ne_head (ch : Nat) (l : List Nat) (h : ch ∈ l) :
    l.dropWhile (fun b => b != ch) = ch :: (l.dropWhile (fun b => b != ch)).drop 1 := by
  induction l with
  | nil => cases h
  | cons a l ih =>
    rw [List.dropWhile_cons]
    by_cases e : a = ch
    · subst e; simp
    · have h2 : (a != ch) = true := by simp [e]
      rw [if_pos h2]
      rcases List.mem_cons.mp h with h | h
      · exact absurd h.symm e
      · exact ih h

theorem takeWhile_ne_lt (ch : Nat) (l : List Nat) (h : ch ∈ l) :
    (l.takeWhile (fun b => b != ch)).length < l.length := by
  have e := congrArg List.length (List.takeWhile_append_dropWhile (fun b => b != ch) l)
  rw [List.length_append, dropWhile_ne_head ch l h, List.length_cons] at e
  omega

theorem trim_end_cons (ch : Nat) (b : List Nat) (h : isspace ch = false) :
    trim_end (ch :: b) = ch :: trim_end b := by
  unfold trim_end
  rw [List.reverse_cons, List.dropWhile_append]
  by_cases he : (List.dropWhile isspace b.reverse).isEmpty = true
  · rw [if_pos he]
    have : List.dropWhile isspace b.reverse = [] := List.isEmpty_iff.mp he
    rw [this, List.dropWhile_cons, h]
    rfl
  · rw [if_neg he, List.reverse_append]
    rfl

theorem trim_end_idem (l : List Nat) : trim_end (trim_end l) = trim_end l := by
  unfold trim_end
  rw [List.reverse_reverse, dropWhile_idem]

theorem dropWhile_fixed (p : Nat → Bool) (l : List Nat) (h : ∀ x, l.head? = some x → p x = false) :
    l.dropWhile p = l := by
  cases l with
  | nil => rfl
  | cons a l => rw [List.dropWhile_cons, h a rfl]; rfl

theorem dropWhile_head (p : Nat → Bool) (l : List Nat) :
    ∀ x, (l.dropWhile p).head? = some x → p x = false := by
  induction l with
  | nil => intro x h; cases h
  | cons a l ih =>
    intro x h
    rw [List.dropWhile_cons] at h
    by_cases e : p a = true
    · rw [if_pos e] at h; exact ih x h
    · rw [if_neg e] at h
      cases h
      cases hp : p a with
      | false => rfl
      | true => exact absurd hp e

/-- The last byte of a text without trailing whitespace stays the last byte when
bytes are dropped at the front. -/
theorem trim_end_dropWhile (l : List Nat) (h : trim_end l = l) :
    trim_end (l.dropWhile isspace) = l.dropWhile isspace := by
  have e := List.takeWhile_append_dropWhile isspace l
  cases hd : l.dropWhile isspace with
  | nil => rfl
  | cons a d =>
    unfold trim_end at h ⊢
    have hr : l.reverse = (a :: d).reverse ++ (l.takeWhile isspace).reverse := by
      rw [← List.reverse_append, ← hd, e]
    have hfix : l.reverse.dropWhile isspace = l.reverse := by
      have := congrArg List.reverse h
      rw [List.reverse_reverse] at this
      exact this
    have hne : (a :: d).reverse ≠ [] := by simp
    have : ∀ x, ((a :: d).reverse).head? = some x → isspace x = false := by
      intro x hx
      apply dropWhile_head isspace l.reverse x
      rw [hfix, hr]
      cases hq : (a :: d).reverse with
      | nil => exact absurd hq hne
      | cons y ys => rw [hq] at hx; exact hx
    rw [dropWhile_fixed isspace _ this, List.reverse_reverse]

theorem trim_bytes_idem (l : List Nat) : trim_bytes (trim_bytes l) = trim_bytes l := by
  unfold trim_bytes
  rw [trim_end_dropWhile (trim_end l) (trim_end_idem l), dropWhile_idem]

theorem trim_bytes_trim_end (l : List Nat) : trim_bytes (trim_end l) = trim_bytes l := by
  unfold trim_bytes
  rw [trim_end_idem]

theorem trim_bytes_cons (ch : Nat) (b : List Nat) (h : isspace ch = false) :
    trim_bytes (ch :: b) = ch :: trim_end b := by
  unfold trim_bytes
  rw [trim_end_cons ch b h, List.dropWhile_cons, h]
  rfl

theorem trim_bytes_of_trim_end_nil (l : List Nat) (h : trim_end l = []) : trim_bytes l = [] := by
  unfold trim_bytes
  rw [h]; rfl

theorem sub_bytes (v : string_view) (hv : v.valid) (i n : Nat) (h : i + n ≤ v.length) :
    (v.sub i n).bytes = (v.bytes.drop i).take n ∧ (v.sub i n).valid := by
  unfold string_view.valid at hv
  constructor
  · unfold string_view.sub string_view.bytes
    show (v.data.drop i).take n = ((v.data.take v.length).drop i).take n
    rw [List.drop_take, List.take_take]
    congr 1
    omega
  · unfold string_view.valid string_view.sub
    simp only [List.length_drop]
    omega

theorem sub_tail (v : string_view) (hv : v.valid) (x : Nat) (xs : List Nat)
    (e : v.bytes = x :: xs) :
    (v.sub 1 (v.length - 1)).bytes = xs ∧ (v.sub 1 (v.length - 1)).valid := by
  have hl := bytes_length v hv
  rw [e, List.length_cons] at hl
  obtain ⟨e1, v1⟩ := sub_bytes v hv 1 (v.length - 1) (by omega)
  refine ⟨?_, v1⟩
  rw [e1, e, List.drop_succ_cons, List.drop_zero]
  exact List.take_of_length_le (by omega)

theorem split_at_char_excl_none (v : string_view) (ch : Nat) (h : ch ∉ v.bytes) :
    split_at_char_excl v ch = (v, string_view.empty) := by
  unfold split_at_char_excl
  rw [indexOf_first, if_neg h]

/-- The function `split_at_char_excl` on a view that holds the byte `ch`: the trimmed
bytes before the first `ch` and the trimmed bytes after it. -/
theorem split_at_char_excl_some (v : string_view) (hv : v.valid) (ch : Nat)
    (hch : isspace ch = false) (h : ch ∈ v.bytes) :
    (split_at_char_excl v ch).1.bytes = trim_bytes (v.bytes.takeWhile (fun b => b != ch)) ∧
    (split_at_char_excl v ch).2.bytes =
      trim_bytes ((v.bytes.dropWhile (fun b => b != ch)).drop 1) ∧
    (split_at_char_excl v ch).1.valid ∧ (split_at_char_excl v ch).2.valid := by
  have hlt := takeWhile_ne_lt ch v.bytes h
  rw [bytes_length v hv] at hlt
  obtain ⟨eL, vL⟩ := sub_bytes v hv 0 (v.bytes.takeWhile (fun b => b != ch)).length (by omega)
  obtain ⟨eR, vR⟩ := sub_bytes v hv (v.bytes.takeWhile (fun b => b != ch)).length
    (v.length - (v.bytes.takeWhile (fun b => b != ch)).length) (by omega)
  rw [List.drop_zero, take_takeWhile_length] at eL
  have hdl : (v.bytes.drop (v.bytes.takeWhile (fun b => b != ch)).length).length =
      v.length - (v.bytes.takeWhile (fun b => b != ch)).length := by
    rw [List.length_drop, bytes_length v hv]
  rw [List.take_of_length_le (by rw [hdl]), drop_takeWhile_length] at eR
  have eR := eR.trans (dropWhile_ne_head ch v.bytes h)
  obtain ⟨eTL, vTL⟩ := trim_all_space_bytes _ vL
  obtain ⟨eTR, vTR⟩ := trim_all_space_bytes _ vR
  rw [eL] at eTL
  rw [eR, trim_bytes_cons ch _ hch] at eTR
  obtain ⟨eTTL, vTTL⟩ := trim_all_space_bytes _ vTL
  rw [eTL, trim_bytes_idem] at eTTL
  have hRlen := bytes_length _ vTR
  rw [eTR, List.length_cons] at hRlen
  unfold split_at_char_excl
  rw [indexOf_first, if_pos h]
  simp only []
  unfold split_at_index_excl split_at_index
  rw [if_pos hlt]
  simp only []
  by_cases hgt : (trim_all_space (v.sub (v.bytes.takeWhile (fun b => b != ch)).length
      (v.length - (v.bytes.takeWhile (fun b => b != ch)).length))).length > 1
  · rw [if_pos hgt]
    obtain ⟨eS, vS⟩ := sub_tail _ vTR _ _ eTR
    obtain ⟨eTS, vTS⟩ := trim_all_space_bytes _ vS
    rw [eS, trim_bytes_trim_end] at eTS
    exact ⟨eTTL, eTS, vTTL, vTS⟩
  · rw [if_neg hgt]
    have hnil : trim_end ((v.bytes.dropWhile (fun b => b != ch)).drop 1) = [] := by
      apply List.eq_nil_of_length_eq_zero
      omega
    refine ⟨eTL, ?_, vTL, Nat.zero_le _⟩
    rw [trim_bytes_of_trim_end_nil _ hnil]
    rfl

theorem split_first_none (l : List Nat) (ch : Nat) (h : ch ∉ l) : split_first l ch = none := by
  unfold split_first
  rw [if_neg h]

theorem split_first_some (l : List Nat) (ch : Nat) (h : ch ∈ l) :
    split_first l ch =
      some (l.takeWhile (fun b => b != ch), (l.dropWhile (fun b => b != ch)).drop 1) := by
  unfold split_first
  rw [if_pos h]

theorem length_eq_zero_iff_bytes (v : string_view) (hv : v.valid) :
    v.length = 0 ↔ v.bytes = [] := by
  rw [← bytes_length v hv]
  exact List.length_eq_zero

/-- The function `parse_statement` emits the statement the spec describes. -/
theorem parse_statement_form (s : string_view) (hs : s.valid) :
    (parse_statement s).form = spec_parse_statement s.bytes := by
  unfold parse_statement spec_parse_statement
  by_cases h : ':'.toNat ∈ s.bytes
  · obtain ⟨e1, e2, v1, v2⟩ := split_at_char_excl_some s hs ':'.toNat (by decide) h
    rw [split_first_some _ _ h]
    simp only []
    have hz : (split_at_char_excl s ':'.toNat).2.length = 0 ↔
        trim_bytes ((s.bytes.dropWhile (fun b => b != ':'.toNat)).drop 1) = [] := by
      rw [length_eq_zero_iff_bytes _ v2, e2]
    by_cases ht : trim_bytes ((s.bytes.dropWhile (fun b => b != ':'.toNat)).drop 1) = []
    · rw [if_pos (hz.mpr ht), if_pos ht]
      simp only [parsed_statement.form, e1]
    rw [if_neg (fun hx => ht (hz.mp hx)), if_neg ht, e1]
    by_cases hl : trim_bytes (s.bytes.takeWhile (fun b => b != ':'.toNat)) = cstr "label"
    · rw [if_pos hl, if_pos hl]
      simp only [parsed_statement.form, e2]
    rw [if_neg hl, if_neg hl]
    by_cases hj : trim_bytes (s.bytes.takeWhile (fun b => b != ':'.toNat)) = cstr "jump"
    · rw [if_pos hj, if_pos hj]
      rw [← e2]
      by_cases hq : '?'.toNat ∈ (split_at_char_excl s ':'.toNat).2.bytes
      · obtain ⟨f1, f2, w1, w2⟩ := split_at_char_excl_some _ v2 '?'.toNat (by decide) hq
        rw [split_first_some _ _ hq]
        simp only []
        have hpos : (split_at_char_excl (split_at_char_excl s ':'.toNat).2 '?'.toNat).2.length > 0 ↔
            ¬ (trim_bytes (((split_at_char_excl s ':'.toNat).2.bytes.dropWhile
              (fun b => b != '?'.toNat)).drop 1) = []) := by
          rw [← f2, ← length_eq_zero_iff_bytes _ w2]
          omega
        by_cases hc : trim_bytes (((split_at_char_excl s ':'.toNat).2.bytes.dropWhile
              (fun b => b != '?'.toNat)).drop 1) = []
        · rw [if_neg (fun hx => hpos.mp hx hc), if_pos hc]
          simp only [parsed_statement.form, f1]
        · rw [if_pos (hpos.mpr hc), if_neg hc]
          simp only [parsed_statement.form, f1, f2]
      · rw [split_first_none _ _ hq, split_at_char_excl_none _ _ hq]
        simp only []
        rw [if_neg (by show ¬ (0 > 0); omega)]
        simp only [parsed_statement.form]
    rw [if_neg hj, if_neg hj]
    by_cases hr : trim_bytes (s.bytes.takeWhile (fun b => b != ':'.toNat)) = cstr "return"
    · rw [if_pos hr, if_pos hr]
      simp only [parsed_statement.form, e2]
    · rw [if_neg hr, if_neg hr]
      simp only [parsed_statement.form, e1, e2]
  · rw [split_first_none _ _ h, split_at_char_excl_none _ _ h]
    simp only []
    rw [if_pos (show string_view.empty.length = 0 from rfl)]
    simp only [parsed_statement.form]

/-- C20 as written fails for a statement whose tail is empty: `return:` is emitted as
the call of `return`, not as a return, `x:` as the call of `x`, not as an assignment,
and `label:` as the call of `label`; and `jump: a ?`, with an empty condition, is the
jump to `a`. -/
theorem C20_empty_tail_is_call :
    parse_statement (view "return:") = .add_call ⟨cstr "return:", 6⟩ ∧
    (parse_statement (view "return:")).form = .call (cstr "return") ∧
    (parse_statement (view "x:")).form = .call (cstr "x") ∧
    (parse_statement (view "label:")).form = .call (cstr "label") ∧
    (parse_statement (view "jump: a ?")).form = .jump (cstr "a") := by
  refine ⟨by decide, by decide, by decide, by decide, by decide⟩

/-- C20 (amended): for every statement text `s`, `parse_statement` emits what the spec
describes, `spec_parse_statement`: the call of `s` when `s` holds no `:`; else, with
the head and the tail the trimmed texts before and after the first `:`, the call of
the head when the tail is empty, a label definition for the head `label`, for the head
`jump` the jump to the tail or, when the tail is `NAME ? COND` with a condition that is
not empty, the conditional jump, the return of the tail for the head `return`, and the
assignment of the tail to the head for every other head. In `compile` a label
definition records the current statement count and adds no statement; each of the
other five adds one statement. -/
theorem C20_parse_statement :
    (∀ s : string_view, s.valid → (parse_statement s).form = spec_parse_statement s.bytes) ∧
    (∀ (ps : parse_state) (label : string_view),
      (ps.add (.add_label label)).program_statements = ps.program_statements ∧
      (ps.add (.add_label label)).lm = ps.lm.add_label label ps.program_statements.length) ∧
    (∀ (ps : parse_state) (a b : string_view),
      (ps.add (.add_jump a)).program_statements =
        ps.program_statements ++ [.jump_statement (ps.lm.find_label a).1 0] ∧
      (ps.add (.add_jump_if a b)).program_statements =
        ps.program_statements ++
          [.jump_if_statement (ps.lm.find_label a).1 ps.m_expressions.length 0 0] ∧
      (ps.add (.add_return_value a)).program_statements =
        ps.program_statements ++ [.return_value_statement ps.m_expressions.length 0] ∧
      (ps.add (.add_assign a b)).program_statements =
        ps.program_statements ++
          [.assign_statement (ps.vm.find_label a).1 ps.m_expressions.length 0] ∧
      (ps.add (.add_call a)).program_statements =
        ps.program_statements ++ [.call_statement ps.m_expressions.length 0]) :=
  ⟨parse_statement_form, fun _ _ => ⟨rfl, rfl⟩, fun _ _ _ => ⟨rfl, rfl, rfl, rfl, rfl⟩⟩

/-- C20 (amended) at the statements of the loop program and at a call. -/
theorem C20_parse_statement_witness :
    (parse_statement (view "x: x + 1")).form = .assign (cstr "x") (cstr "x + 1") ∧
    (parse_statement (view "label: loop")).form = .label (cstr "loop") ∧
    (parse_statement (view "jump: loop ? x < 10")).form = .jump_if (cstr "loop") (cstr "x < 10") ∧
    (parse_statement (view "jump : loop")).form = .jump (cstr "loop") ∧
    (parse_statement (view "return: x")).form = .return_value (cstr "x") ∧
    (parse_statement (view "f(x)")).form = .call (cstr "f(x)") :=
  ⟨(C20_parse_statement.1 (view "x: x + 1") (by decide)).trans (by decide),
   (C20_parse_statement.1 (view "label: loop") (by decide)).trans (by decide),
   (C20_parse_statement.1 (view "jump: loop ? x < 10") (by decide)).trans (by decide),
   (C20_parse_statement.1 (view "jump : loop") (by decide)).trans (by decide),
   (C20_parse_statement.1 (view "return: x") (by decide)).trans (by decide),
   (C20_parse_statement.1 (view "f(x)") (by decide)).trans (by decide)⟩

/-! ## C13, C14, C15, C19: the context of a closure in the image -/

/-- C14 (code_bug): for the closure `cell` flagged Pure, `cell x` compiles to a closure
node whose entry `parameters[1]` was never stored: it holds 0, and `address_table[0]`
is the code address of `cell`; the context 7000 of the binding is not in the address
table at all. Evaluating the image passes the code address as context (a fault
here), where the tree evaluates to `c[1] = 6`. -/
theorem C14_pure_closure_context_not_stored :
    compile_native test_host closure_mem (cstr "cell x") pure_closure_lookup =
      .ok (some (.node (TE_CLOSURE1 ||| TE_FLAG_PURE) (.ptr test_fn.cell)
        [.node TE_VARIABLE (.ptr 5000) [] 0] 7000), 0) ∧
    compile test_host closure_mem (cstr "cell x") pure_closure_lookup =
      .ok (some ⟨[test_fn.cell, 5000], [cstr "cell", cstr "x"],
        [.int (TE_CLOSURE1 ||| TE_FLAG_PURE), .int 0, .int 32, .int 0,
         .int TE_VARIABLE, .int 1, .int 0], 56⟩, 0) ∧
    compile_and_eval_native test_host closure_mem (cstr "cell x") pure_closure_lookup =
      some (.num 6) ∧
    compile_and_eval test_host closure_mem (cstr "cell x") pure_closure_lookup = .fault := by
  refine ⟨by decide!, by decide!, by decide!, by decide!⟩

/-- C13 (code_bug): for the closure `c2` flagged Pure, in the image of `c2(x, 1)` the
context entry `parameters[2]` of the closure node holds the index 0, and
`address_table[0]` is the code address of `c2`, not the context 6000 the node of the
tree refers to. -/
theorem C13_context_index_of_pure_closure :
    compile_native test_host closure_mem (cstr "c2(x, 1)") pure_closure_lookup =
      .ok (some (.node (TE_CLOSURE2 ||| TE_FLAG_PURE) (.ptr test_fn.clo2)
        [.node TE_VARIABLE (.ptr 5000) [] 0, .node TE_CONSTANT (.value (.num 1)) [] 0] 6000), 0) ∧
    compile test_host closure_mem (cstr "c2(x, 1)") pure_closure_lookup =
      .ok (some ⟨[test_fn.clo2, 5000], [cstr "c2", cstr "x"],
        [.int (TE_CLOSURE2 ||| TE_FLAG_PURE), .int 0, .int 40, .int 64, .int 0,
         .int TE_VARIABLE, .int 1, .int 0,
         .int TE_CONSTANT, .flt (.num 1), .int 0], 88⟩, 0) ∧
    [test_fn.clo2, 5000].get? 0 = some test_fn.clo2 ∧ test_fn.clo2 ≠ 6000 := by
  refine ⟨by decide!, by decide!, by decide!, by decide!⟩

/-- C15 (code_bug): for the closure `c1` flagged Pure, `c1 x` compiles with the address
table `[c1, x]` and the name table `["c1", "x"]`: the context 6000 of the call, which
the walk of the tree meets after the function and before the argument, gets no index
and no name `c1_closure`. Without the Pure flag the tables are `[c1, 6000, x]` and
`["c1", "c1_closure", "x"]`. -/
theorem C15_pure_closure_context_not_in_table :
    compile_native test_host closure_mem (cstr "c1 x") pure_closure_lookup =
      .ok (some (.node (TE_CLOSURE1 ||| TE_FLAG_PURE) (.ptr test_fn.clo1)
        [.node TE_VARIABLE (.ptr 5000) [] 0] 6000), 0) ∧
    compile test_host closure_mem (cstr "c1 x") pure_closure_lookup =
      .ok (some ⟨[test_fn.clo1, 5000], [cstr "c1", cstr "x"],
        [.int (TE_CLOSURE1 ||| TE_FLAG_PURE), .int 0, .int 32, .int 0,
         .int TE_VARIABLE, .int 1, .int 0], 56⟩, 0) ∧
    compile test_host closure_mem (cstr "c1 x")
        (⟨cstr "x", 5000, TE_VARIABLE, 0⟩ :: closure_lookup) =
      .ok (some ⟨[test_fn.clo1, 6000, 5000], [cstr "c1", cstr "c1_closure", cstr "x"],
        [.int TE_CLOSURE1, .int 0, .int 32, .int 1,
         .int TE_VARIABLE, .int 2, .int 0], 56⟩, 0) := by
  refine ⟨by decide!, by decide!, by decide!⟩

/-- C19 (code_bug): with the names `a` and `b` bound to the callable `cell` with the
contexts 7000 and 7008, the image of `b 1` holds the context of `a`: evaluating it
gives `c[1] = 6`, where the tree of `b 1` evaluates to `c[3] = 8`, the value with the
context of `b`. With one binding per callable the image calls it with the context of
the binding: `cell 1 * cell 3 + cell 4` evaluates to 57. -/
theorem C19_context_of_first_binding_with_callable :
    compile test_host closure_mem (cstr "b 1") shared_lookup =
      .ok (some ⟨[test_fn.cell, 7000], [cstr "a", cstr "a_closure"],
        [.int TE_CLOSURE1, .int 0, .int 32, .int 1,
         .int TE_CONSTANT, .flt (.num 1), .int 0], 56⟩, 0) ∧
    compile_and_eval test_host closure_mem (cstr "b 1") shared_lookup = .ok (.num 6) ∧
    compile_and_eval_native test_host closure_mem (cstr "b 1") shared_lookup = some (.num 8) ∧
    compile_and_eval test_host closure_mem (cstr "a 1") shared_lookup = .ok (.num 6) ∧
    compile_and_eval test_host closure_mem (cstr "cell 1 * cell 3 + cell 4") closure_lookup =
      .ok (.num 57) := by
  refine ⟨by decide!, by decide!, by decide!, by decide!, by decide!⟩

/-! ## C11: the two passes of the lowering agree on the size -/

theorem arity_eq (type : Nat) (h : is_call_type type) : arity type = type_mask type % 8 := by
  have h7 : type &&& 7 = type % 8 := Nat.and_pow_two_sub_one_eq_mod type 3
  have h31 : type &&& 31 = type % 32 := Nat.and_pow_two_sub_one_eq_mod type 5
  have h24 : type &&& 24 = (type &&& 31) &&& 24 := by
    rw [Nat.and_assoc]; rfl
  unfold is_call_type at h
  rw [type_mask_eq_mod] at h ⊢
  simp only [TE_FUNCTION0, TE_FUNCTION_MAX, TE_CLOSURE0, TE_CLOSURE_MAX] at h
  unfold arity
  have e : TE_FUNCTION0 ||| TE_CLOSURE0 = 24 := rfl
  rw [e, h24, h31, h7]
  have hlt : type % 32 < 32 := Nat.mod_lt _ (by decide)
  have hne : (type % 32) &&& 24 ≠ 0 := by
    generalize type % 32 = m at h hlt
    have h1 : 8 ≤ m := by omega
    have h2 : m ≤ 23 := by omega
    interval_cases m <;> decide
  rw [if_pos hne]
  omega

theorem estimate_args_bytes (lookup : List te_variable) :
    ∀ (ps : List expr_native),
      (∀ p ∈ ps, ∀ size ix r, export_estimate lookup p (size, ix) = some r →
        r.1 = size + tree_bytes p) →
      ∀ size ix r, export_estimate.estimate_args lookup ps (size, ix) = some r →
        r.1 = size + tree_bytes.list_bytes ps := by
  intro ps
  induction ps with
  | nil =>
    intro _ size ix r e
    rw [export_estimate.estimate_args] at e
    cases e
    rfl
  | cons p ps ih =>
    intro hp size ix r e
    rw [export_estimate.estimate_args] at e
    cases h1 : export_estimate lookup p (size, ix) with
    | none => rw [h1] at e; cases e
    | some st1 =>
      rw [h1] at e
      simp only [] at e
      have a := hp p (List.mem_cons_self _ _) size ix st1 h1
      have b := ih (fun q hq => hp q (List.mem_cons_of_mem _ hq)) st1.1 st1.2 r e
      rw [b, a, tree_bytes.list_bytes]
      omega

/-- Pass 1 adds the bytes of the records of the tree to the running size. -/
theorem export_estimate_bytes (lookup : List te_variable) :
    ∀ (n : expr_native) (size : Nat) (ix : indexer) (r : Nat × indexer),
      export_estimate lookup n (size, ix) = some r → r.1 = size + tree_bytes n := by
  intro n
  induction n using expr_native.tree_induction with
  | hnull =>
    intro size ix r e
    rw [export_estimate] at e
    cases e
    rfl
  | hnode type payload ps ctx ih =>
    intro size ix r e
    rw [export_estimate] at e
    rw [tree_bytes]
    by_cases h1 : type_mask type = TE_CONSTANT
    · rw [if_pos h1] at e
      cases e
      have : ¬ is_call_type type := by unfold is_call_type; rw [h1]; decide
      rw [if_neg this]
    rw [if_neg h1] at e
    by_cases h2 : type_mask type = TE_VARIABLE
    · rw [if_pos h2] at e
      have : ¬ is_call_type type := by unfold is_call_type; rw [h2]; decide
      rw [if_neg this]
      cases hh : handle_addr (payload.as_ptr.bind fun a => find_bind_by_addr a lookup) ix with
      | none => rw [hh] at e; cases e
      | some ix1 => rw [hh] at e; cases e; rfl
    rw [if_neg h2] at e
    by_cases h3 : is_call_type type
    · have h3u : (type_mask type ≥ TE_FUNCTION0 ∧ type_mask type < TE_FUNCTION_MAX) ∨
          (type_mask type ≥ TE_CLOSURE0 ∧ type_mask type < TE_CLOSURE_MAX) := h3
      rw [if_pos h3u] at e
      rw [if_pos h3]
      cases hh : handle_addr (payload.as_ptr.bind fun a => find_bind_or_any_by_addr a lookup)
          ix with
      | none => rw [hh] at e; cases e
      | some ix1 =>
        rw [hh] at e
        simp only [] at e
        by_cases hl : ps.length = type_mask type % 8
        · rw [if_pos hl] at e
          have := estimate_args_bytes lookup ps ih _ _ r e
          rw [this]
          omega
        · rw [if_neg hl] at e; cases e
    · have h3u : ¬ ((type_mask type ≥ TE_FUNCTION0 ∧ type_mask type < TE_FUNCTION_MAX) ∨
          (type_mask type ≥ TE_CLOSURE0 ∧ type_mask type < TE_CLOSURE_MAX)) := h3
      rw [if_neg h3u] at e
      cases e
      rw [if_neg h3]

/-- A store changes the slot it writes and no other, and keeps the length. -/
theorem write_word_spec (buf buf1 : List Word) (off : Nat) (w : Word)
    (h : write_word buf off w = some buf1) :
    buf1.length = buf.length ∧ read_word buf1 off = some w ∧
      ∀ off2, off2 ≠ off → read_word buf1 off2 = read_word buf off2 := by
  unfold write_word at h
  by_cases hc : off % 8 = 0 ∧ off / 8 < buf.length
  · rw [if_pos hc] at h
    cases h
    refine ⟨List.length_set _ _ _, ?_, ?_⟩
    · unfold read_word
      rw [if_pos hc.1, List.get?_eq_getElem?, List.getElem?_set_self (by exact hc.2)]
    · intro off2 hne
      unfold read_word
      by_cases h2 : off2 % 8 = 0
      · rw [if_pos h2, if_pos h2, List.get?_eq_getElem?, List.get?_eq_getElem?,
          List.getElem?_set_ne (by omega)]
      · rw [if_neg h2, if_neg h2]
  · rw [if_neg hc] at h; cases h

theorem same_below_refl (buf : List Word) (lo : Nat) : same_below buf buf lo := fun _ _ => rfl

theorem same_below_trans (a b c : List Word) (lo : Nat) (h1 : same_below a b lo)
    (h2 : same_below b c lo) : same_below a c lo :=
  fun off h => (h2 off h).trans (h1 off h)

theorem same_below_mono (a b : List Word) (lo hi : Nat) (h : same_below a b hi) (hle : lo ≤ hi) :
    same_below a b lo :=
  fun off ho => h off (by omega)

theorem write_word_same_below (buf buf1 : List Word) (off : Nat) (w : Word) (lo : Nat)
    (h : write_word buf off w = some buf1) (hlo : lo ≤ off) : same_below buf buf1 lo :=
  fun off2 h2 => (write_word_spec buf buf1 off w h).2.2 off2 (by omega)

theorem write_word_length (buf buf1 : List Word) (off : Nat) (w : Word)
    (h : write_word buf off w = some buf1) : buf1.length = buf.length :=
  (write_word_spec buf buf1 off w h).1

/-- The stores of `register_func` for the node at `out` are at `out + 8` or above. -/
theorem register_func_frame (ix : indexer) (addr : Option Nat) (out : Nat)
    (v : Option te_variable) (buf buf1 : List Word)
    (h : register_func ix addr out v buf = some buf1) :
    buf1.length = buf.length ∧ same_below buf buf1 (out + 8) := by
  unfold register_func at h
  cases v with
  | none => simp only [] at h; cases h
  | some v =>
    cases hi : addr.bind (map_find ix.index_map) with
    | none => rw [hi] at h; simp only [] at h; cases h
    | some idx =>
      rw [hi] at h
      simp only [] at h
      cases hw : write_word buf (out + 8) (.int idx) with
      | none => rw [hw] at h; cases h
      | some b1 =>
        rw [hw] at h
        simp only [] at h
        have l1 := write_word_length _ _ _ _ hw
        have f1 := write_word_same_below _ _ _ _ (out + 8) hw (le_refl _)
        by_cases hc : v.type ≥ TE_CLOSURE0 ∧ v.type < TE_CLOSURE_MAX
        · rw [if_pos hc] at h
          cases hm : map_find ix.index_map v.context with
          | none => rw [hm] at h; cases h
          | some idx2 =>
            rw [hm] at h
            simp only [] at h
            have l2 := write_word_length _ _ _ _ h
            have f2 := write_word_same_below _ _ _ _ (out + 8) h (by omega)
            exact ⟨l2.trans l1, same_below_trans _ _ _ _ f1 f2⟩
        · rw [if_neg hc] at h
          cases h
          exact ⟨l1, f1⟩

theorem write_args_frame (lookup : List te_variable) (ix : indexer) :
    ∀ (ps : List expr_native), (∀ p ∈ ps, write_frame lookup ix p) →
      ∀ (i out cur : Nat) (buf : List Word) (r : Nat × List Word),
        export_write.write_args lookup ix ps i out (cur, buf) = some r →
        out + 16 + 8 * (i + ps.length) ≤ cur →
        r.1 = cur + tree_bytes.list_bytes ps ∧ r.2.length = buf.length ∧
          ∀ off, (off < out + 16 + 8 * i ∨ (out + 16 + 8 * (i + ps.length) ≤ off ∧ off < cur)) →
            read_word r.2 off = read_word buf off := by
  intro ps
  induction ps with
  | nil =>
    intro _ i out cur buf r e _
    rw [export_write.write_args] at e
    cases e
    exact ⟨rfl, rfl, fun _ _ => rfl⟩
  | cons p ps ih =>
    intro hp i out cur buf r e hcur
    simp only [List.length_cons] at hcur
    rw [export_write.write_args] at e
    cases hw : write_word buf (out + 16 + 8 * i) (.int cur) with
    | none => rw [hw] at e; cases e
    | some buf1 =>
      rw [hw] at e
      simp only [] at e
      cases hx : export_write lookup ix p (cur, buf1) with
      | none => rw [hx] at e; cases e
      | some st1 =>
        rw [hx] at e
        simp only [] at e
        obtain ⟨a1, a2, a3⟩ := hp p (List.mem_cons_self _ _) cur buf1 st1 hx
        obtain ⟨b1, b2, b3⟩ := ih (fun q hq => hp q (List.mem_cons_of_mem _ hq)) (i + 1) out st1.1
          st1.2 r (by rw [← Prod.eta st1] at e; exact e) (by rw [a1]; omega)
        have ws := write_word_spec _ _ _ _ hw
        refine ⟨?_, ?_, ?_⟩
        · rw [b1, a1, tree_bytes.list_bytes]; omega
        · rw [b2, a2, ws.1]
        · intro off ho
          simp only [List.length_cons] at ho
          have e1 : read_word r.2 off = read_word st1.2 off :=
            b3 off (by rcases ho with ho | ho
                       · exact Or.inl (by omega)
                       · exact Or.inr ⟨by omega, by rw [a1]; omega⟩)
          have e2 : read_word st1.2 off = read_word buf1 off := a3 off (by omega)
          have e3 : read_word buf1 off = read_word buf off := ws.2.2 off (by omega)
          rw [e1, e2, e3]

/-- Pass 2 moves the cursor by the bytes of the tree and writes at the cursor or above. -/
theorem export_write_frame (lookup : List te_variable) (ix : indexer) :
    ∀ n : expr_native, write_frame lookup ix n := by
  intro n
  induction n using expr_native.tree_induction with
  | hnull =>
    intro size buf r e
    rw [export_write] at e
    cases e
    exact ⟨rfl, rfl, same_below_refl _ _⟩
  | hnode type payload ps ctx ih =>
    intro size buf r e
    rw [export_write] at e
    rw [tree_bytes]
    cases hw : write_word buf size (.int type) with
    | none => rw [hw] at e; cases e
    | some buf1 =>
      rw [hw] at e
      simp only [] at e
      have l1 := write_word_length _ _ _ _ hw
      have f1 := write_word_same_below _ _ _ _ size hw (le_refl _)
      by_cases h1 : type_mask type = TE_CONSTANT
      · rw [if_pos h1] at e
        have hnc : ¬ is_call_type type := by unfold is_call_type; rw [h1]; decide
        rw [if_neg hnc]
        cases hv : payload.as_value with
        | none => rw [hv] at e; cases e
        | some v =>
          rw [hv] at e
          simp only [] at e
          cases hw2 : write_word buf1 (size + 8) (.flt v) with
          | none => rw [hw2] at e; cases e
          | some buf2 =>
            rw [hw2] at e
            cases e
            exact ⟨rfl, (write_word_length _ _ _ _ hw2).trans l1,
              same_below_trans _ _ _ _ f1 (write_word_same_below _ _ _ _ size hw2 (by omega))⟩
      rw [if_neg h1] at e
      by_cases h2 : type_mask type = TE_VARIABLE
      · rw [if_pos h2] at e
        have hnc : ¬ is_call_type type := by unfold is_call_type; rw [h2]; decide
        rw [if_neg hnc]
        cases hr : register_func ix payload.as_ptr size
            (payload.as_ptr.bind fun a => find_bind_by_addr a lookup) buf1 with
        | none => rw [hr] at e; cases e
        | some buf2 =>
          rw [hr] at e
          cases e
          obtain ⟨l2, f2⟩ := register_func_frame _ _ _ _ _ _ hr
          exact ⟨rfl, l2.trans l1,
            same_below_trans _ _ _ _ f1 (same_below_mono _ _ _ _ f2 (by omega))⟩
      rw [if_neg h2] at e
      by_cases h3 : is_call_type type
      · have h3u : (type_mask type ≥ TE_FUNCTION0 ∧ type_mask type < TE_FUNCTION_MAX) ∨
            (type_mask type ≥ TE_CLOSURE0 ∧ type_mask type < TE_CLOSURE_MAX) := h3
        rw [if_pos h3u] at e
        rw [if_pos h3]
        cases hr : register_func ix payload.as_ptr size
            (payload.as_ptr.bind fun a => find_bind_or_any_by_addr a lookup) buf1 with
        | none => rw [hr] at e; cases e
        | some buf2 =>
          rw [hr] at e
          simp only [] at e
          obtain ⟨l2, f2⟩ := register_func_frame _ _ _ _ _ _ hr
          by_cases hl : ps.length = arity type
          · rw [if_pos hl] at e
            have ha := arity_eq type h3
            obtain ⟨b1, b2, b3⟩ := write_args_frame lookup ix ps ih 0 size _ buf2 r e
              (by rw [hl]; unfold sizeof_expr_native sizeof_parameter; omega)
            refine ⟨?_, ?_, ?_⟩
            · rw [b1, ha]; omega
            · rw [b2, l2, l1]
            · intro off ho
              rw [b3 off (Or.inl (by omega)), f2 off (by omega), f1 off ho]
          · rw [if_neg hl] at e; cases e
      · have h3u : ¬ ((type_mask type ≥ TE_FUNCTION0 ∧ type_mask type < TE_FUNCTION_MAX) ∨
            (type_mask type ≥ TE_CLOSURE0 ∧ type_mask type < TE_CLOSURE_MAX)) := h3
        rw [if_neg h3u] at e
        cases e
        rw [if_neg h3]
        exact ⟨rfl, l1, f1⟩

theorem list_bytes_dvd : ∀ ps : List expr_native, (∀ p ∈ ps, 8 ∣ tree_bytes p) →
    8 ∣ tree_bytes.list_bytes ps := by
  intro ps
  induction ps with
  | nil => intro _; rw [tree_bytes.list_bytes]; exact dvd_zero 8
  | cons p ps ih =>
    intro h
    rw [tree_bytes.list_bytes]
    exact dvd_add (h p (List.mem_cons_self _ _)) (ih (fun q hq => h q (List.mem_cons_of_mem _ hq)))

/-- The records of a tree take a whole number of 8-byte slots. -/
theorem tree_bytes_dvd : ∀ n : expr_native, 8 ∣ tree_bytes n := by
  intro n
  induction n using expr_native.tree_induction with
  | hnull => rw [tree_bytes]; exact dvd_zero 8
  | hnode type payload ps ctx ih =>
    rw [tree_bytes]
    by_cases h : is_call_type type
    · rw [if_pos h]
      exact dvd_add (dvd_add ⟨3, rfl⟩ ⟨type_mask type % 8, rfl⟩) (list_bytes_dvd ps ih)
    · rw [if_neg h]; exact ⟨3, rfl⟩

/-- What a handle returned by `compile_using_indexer` was built from. -/
theorem compile_using_indexer_ok (h : Host) (mem : Mem) (ix : indexer) (text : List Nat)
    (vars : List te_variable) (e : compiled_expr) (err : Int) (ix1 : indexer)
    (hc : compile_using_indexer h mem ix text vars = .ok (some e, err, ix1)) :
    ∃ root cur, compile_native h mem text vars = .ok (some root, err) ∧
      export_estimate vars root (0, ix) = some (e.build_buffer_size, ix1) ∧
      export_write vars ix1 root (0, List.replicate (e.build_buffer_size / 8) (.int 0)) =
        some (cur, e.build_buffer) ∧
      e.index_to_address = ix1.get_address_table := by
  unfold compile_using_indexer at hc
  cases hn : compile_native h mem text vars with
  | timeout => rw [hn] at hc; cases hc
  | fault => rw [hn] at hc; cases hc
  | ok r =>
    rw [hn] at hc
    obtain ⟨root, error⟩ := r
    cases root with
    | none => cases hc
    | some root =>
      simp only [] at hc
      cases he : export_estimate vars root (0, ix) with
      | none => rw [he] at hc; cases hc
      | some est =>
        rw [he] at hc
        obtain ⟨size, ix2⟩ := est
        simp only [] at hc
        cases hnm : names_of ix2 ix2.get_address_table with
        | none => rw [hnm] at hc; cases hc
        | some names =>
          rw [hnm] at hc
          simp only [] at hc
          cases hw : export_write vars ix2 root (0, List.replicate (size / 8) (.int 0)) with
          | none => rw [hw] at hc; cases hc
          | some w =>
            rw [hw] at hc
            obtain ⟨cur, buf⟩ := w
            simp only [] at hc
            cases hc
            exact ⟨root, cur, rfl, he, hw, rfl⟩

theorem cursor_is_estimate (lookup : List te_variable) (ix0 ix : indexer) (n : expr_native)
    (size : Nat) (buf : List Word) (e : Nat × indexer) (w : Nat × List Word)
    (he : export_estimate lookup n (size, ix0) = some e)
    (hw : export_write lookup ix n (size, buf) = some w) :
    w.1 = e.1 ∧ w.2.length = buf.length := by
  obtain ⟨a1, a2, _⟩ := export_write_frame lookup ix n size buf w hw
  have b := export_estimate_bytes lookup n size ix0 e he
  exact ⟨by rw [a1, b], a2⟩

theorem image_is_estimate (h : Host) (mem : Mem) (ix : indexer) (text : List Nat)
    (vars : List te_variable) (e : compiled_expr) (err : Int) (ix1 : indexer)
    (hc : compile_using_indexer h mem ix text vars = .ok (some e, err, ix1)) :
    bytes_written e.build_buffer = get_data_size (some e) ∧
      ∃ root, compile_native h mem text vars = .ok (some root, err) ∧
        export_estimate vars root (0, ix) = some (get_data_size (some e), ix1) ∧
        export_write vars ix1 root (0, List.replicate (get_data_size (some e) / 8) (.int 0)) =
          some (get_data_size (some e), e.build_buffer) := by
  obtain ⟨root, cur, h1, h2, h3, _⟩ := compile_using_indexer_ok h mem ix text vars e err ix1 hc
  have c := cursor_is_estimate vars ix ix1 root 0 _ _ _ h2 h3
  have hb := export_estimate_bytes vars root 0 ix _ h2
  simp only [] at c hb
  have hd : 8 ∣ e.build_buffer_size := by rw [hb, Nat.zero_add]; exact tree_bytes_dvd root
  refine ⟨?_, root, h1, h2, ?_⟩
  · unfold bytes_written get_data_size
    rw [c.2, List.length_replicate]
    exact Nat.mul_div_cancel' hd
  · unfold get_data_size
    rw [h3, c.1]

/-- C11: for every tree the cursor pass 2 returns is the size pass 1 computes from the same
start, and pass 2 keeps the length of the buffer; so the image of a handle returned by
`compile_using_indexer` has exactly `get_data_size` bytes, which is the size pass 1
computed for the compiled tree and the cursor pass 2 ended at. -/
theorem C11_write_cursor_is_estimate :
    (∀ (lookup : List te_variable) (ix0 ix : indexer) (n : expr_native) (size : Nat)
        (buf : List Word) (e : Nat × indexer) (w : Nat × List Word),
      export_estimate lookup n (size, ix0) = some e →
      export_write lookup ix n (size, buf) = some w →
        w.1 = e.1 ∧ w.2.length = buf.length) ∧
    (∀ (h : Host) (mem : Mem) (ix : indexer) (text : List Nat) (vars : List te_variable)
        (e : compiled_expr) (err : Int) (ix1 : indexer),
      compile_using_indexer h mem ix text vars = .ok (some e, err, ix1) →
        bytes_written e.build_buffer = get_data_size (some e) ∧
        ∃ root, compile_native h mem text vars = .ok (some root, err) ∧
          export_estimate vars root (0, ix) = some (get_data_size (some e), ix1) ∧
          export_write vars ix1 root
            (0, List.replicate (get_data_size (some e) / 8) (.int 0)) =
              some (get_data_size (some e), e.build_buffer)) :=
  ⟨cursor_is_estimate, image_is_estimate⟩

theorem C11_write_cursor_is_estimate_witness :
    (export_estimate loop_vars (.node TE_CONSTANT (.value (.num 1)) [] 0) (24, indexer.empty) =
        some (48, indexer.empty) ∧
      export_write loop_vars indexer.empty (.node TE_CONSTANT (.value (.num 1)) [] 0)
          (24, List.replicate 6 (.int 0)) =
        some (48, [.int 0, .int 0, .int 0, .int TE_CONSTANT, .flt (.num 1), .int 0]) ∧
      (48 = 48 ∧
        [Word.int 0, .int 0, .int 0, .int TE_CONSTANT, .flt (.num 1), .int 0].length =
          (List.replicate 6 (Word.int 0)).length)) ∧
    (compile_using_indexer plain_host loop_mem indexer.empty (cstr "x+1") loop_vars =
        .ok (some x_plus_one_compiled, 0, x_plus_one_indexer) ∧
      bytes_written x_plus_one_compiled.build_buffer = 88 ∧
      get_data_size (some x_plus_one_compiled) = 88 ∧
      (bytes_written x_plus_one_compiled.build_buffer = get_data_size (some x_plus_one_compiled) ∧
        ∃ root, compile_native plain_host loop_mem (cstr "x+1") loop_vars = .ok (some root, 0) ∧
          export_estimate loop_vars root (0, indexer.empty) =
            some (get_data_size (some x_plus_one_compiled), x_plus_one_indexer) ∧
          export_write loop_vars x_plus_one_indexer root
            (0, List.replicate (get_data_size (some x_plus_one_compiled) / 8) (.int 0)) =
              some (get_data_size (some x_plus_one_compiled), x_plus_one_compiled.build_buffer))) :=
  ⟨⟨by decide!, by decide!,
      C11_write_cursor_is_estimate.1 loop_vars indexer.empty indexer.empty
        (.node TE_CONSTANT (.value (.num 1)) [] 0) 24 (List.replicate 6 (.int 0))
        (48, indexer.empty)
        (48, [.int 0, .int 0, .int 0, .int TE_CONSTANT, .flt (.num 1), .int 0])
        (by decide!) (by decide!)⟩,
    ⟨by decide!, by decide!, by decide!,
      C11_write_cursor_is_estimate.2 plain_host loop_mem indexer.empty (cstr "x+1") loop_vars
        x_plus_one_compiled 0 x_plus_one_indexer (by decide!)⟩⟩

/-! ## C12: the image is laid out in pre-order -/

theorem all_no_null_iff (ps : List expr_native) :
    no_null.all_no_null ps = true ↔ ∀ q ∈ ps, no_null q = true := by
  induction ps with
  | nil => simp [no_null.all_no_null]
  | cons p ps ih => simp [no_null.all_no_null, ih]

theorem no_null_node (t : Nat) (p : Payload) (ps : List expr_native) (c : Nat) :
    no_null (.node t p ps c) = true ↔ ∀ q ∈ ps, no_null q = true := by
  rw [no_null]; exact all_no_null_iff ps

theorem tree_bytes_pos (n : expr_native) (h : no_null n = true) : 24 ≤ tree_bytes n := by
  cases n with
  | null => rw [no_null] at h; cases h
  | node t p ps c =>
    rw [tree_bytes]
    by_cases hc : is_call_type t
    · rw [if_pos hc]; unfold sizeof_expr_native; omega
    · rw [if_neg hc]; unfold sizeof_expr_native; omega

theorem read_int_of_word (buf : List Word) (off n : Nat)
    (h : read_word buf off = some (.int n)) : read_int buf off = some n := by
  unfold read_int; rw [h]

theorem write_args_laid (lookup : List te_variable) (ix : indexer) (limit : Nat) :
    ∀ (ps : List expr_native), (∀ p ∈ ps, no_null p = true) →
      (∀ p ∈ ps, laid lookup ix limit p) →
      ∀ (i out cur : Nat) (buf : List Word) (r : Nat × List Word),
        export_write.write_args lookup ix ps i out (cur, buf) = some r →
        out + 16 + 8 * (i + ps.length) ≤ cur →
        ∀ buf2 : List Word,
          (∀ off, ((out + 16 + 8 * i ≤ off ∧ off < out + 16 + 8 * (i + ps.length)) ∨
              (cur ≤ off ∧ off < r.1)) → read_word buf2 off = read_word r.2 off) →
          r.1 ≤ limit → ∀ fuel, tree_bytes.list_bytes ps ≤ 24 * fuel →
            children_end buf2 limit (subtree_end buf2 limit fuel) out ps.length i cur =
              some r.1 := by
  intro ps
  induction ps with
  | nil =>
    intro _ _ i out cur buf r e _ buf2 _ _ fuel _
    rw [export_write.write_args] at e
    cases e
    rfl
  | cons p ps ih =>
    intro hnn hl i out cur buf r e hcur buf2 hag hlim fuel hfuel
    simp only [List.length_cons] at hcur hag ⊢
    rw [export_write.write_args] at e
    rw [tree_bytes.list_bytes] at hfuel
    cases hw : write_word buf (out + 16 + 8 * i) (.int cur) with
    | none => rw [hw] at e; cases e
    | some buf1 =>
      rw [hw] at e
      simp only [] at e
      cases hx : export_write lookup ix p (cur, buf1) with
      | none => rw [hx] at e; cases e
      | some st1 =>
        rw [hx] at e
        simp only [] at e
        have e1 : export_write.write_args lookup ix ps (i + 1) out (st1.1, st1.2) = some r := by
          rw [← Prod.eta st1] at e; exact e
        obtain ⟨a1, _, a3⟩ := export_write_frame lookup ix p cur buf1 st1 hx
        have hpos := tree_bytes_pos p (hnn p (List.mem_cons_self _ _))
        obtain ⟨b1, _, b3⟩ := write_args_frame lookup ix ps
          (fun q _ => export_write_frame lookup ix q) (i + 1) out st1.1 st1.2 r e1
          (by rw [a1]; omega)
        have ws := write_word_spec _ _ _ _ hw
        have hslot : read_int buf2 (out + 16 + 8 * i) = some cur := by
          apply read_int_of_word
          rw [hag _ (Or.inl ⟨le_refl _, by omega⟩), b3 _ (Or.inl (by omega)), a3 _ (by omega)]
          exact ws.2.1
        have hsub : subtree_end buf2 limit fuel cur = some st1.1 := by
          apply hl p (List.mem_cons_self _ _) cur buf1 st1 hx buf2 _ (by omega) fuel (by omega)
          intro off h1 h2
          rw [hag off (Or.inr ⟨h1, by omega⟩), b3 off (Or.inr ⟨by omega, h2⟩)]
        have hrest := ih (fun q hq => hnn q (List.mem_cons_of_mem _ hq))
          (fun q hq => hl q (List.mem_cons_of_mem _ hq)) (i + 1) out st1.1 st1.2 r e1
          (by rw [a1]; omega) buf2
          (by
            intro off ho
            apply hag off
            rcases ho with ho | ho
            · exact Or.inl ⟨by omega, by omega⟩
            · exact Or.inr ⟨by omega, ho.2⟩)
          hlim fuel (by omega)
        rw [children_end, hslot]
        simp only []
        rw [if_pos ⟨trivial, by omega, by omega⟩, hsub]
        exact hrest

/-- Pass 2 lays the records of a tree without null pointers out in pre-order. -/
theorem export_write_laid (lookup : List te_variable) (ix : indexer) (limit : Nat) :
    ∀ n : expr_native, no_null n = true → laid lookup ix limit n := by
  intro n
  induction n using expr_native.tree_induction with
  | hnull => intro h; rw [no_null] at h; cases h
  | hnode type payload ps ctx ih =>
    intro hnn size buf r e buf2 hag hlim fuel hfuel
    have hch := (no_null_node type payload ps ctx).mp hnn
    have hfr := export_write_frame lookup ix (.node type payload ps ctx) size buf r e
    have hpos := tree_bytes_pos _ hnn
    cases fuel with
    | zero => omega
    | succ f =>
      rw [export_write] at e
      rw [tree_bytes] at hfuel
      rw [subtree_end]
      cases hw : write_word buf size (.int type) with
      | none => rw [hw] at e; cases e
      | some buf1 =>
        rw [hw] at e
        simp only [] at e
        have ws := write_word_spec _ _ _ _ hw
        have key : ∀ b : List Word, same_below buf1 b (size + 8) → r.2 = b →
            read_int buf2 size = some type := by
          intro b hb hr
          apply read_int_of_word
          rw [hag size (le_refl _) (by rw [hfr.1]; omega), hr, hb size (by omega)]
          exact ws.2.1
        by_cases h1 : type_mask type = TE_CONSTANT
        · rw [if_pos h1] at e
          have hnc : ¬ is_call_type type := by unfold is_call_type; rw [h1]; decide
          cases hv : payload.as_value with
          | none => rw [hv] at e; cases e
          | some v =>
            rw [hv] at e
            simp only [] at e
            cases hw2 : write_word buf1 (size + 8) (.flt v) with
            | none => rw [hw2] at e; cases e
            | some b2 =>
              rw [hw2] at e
              cases e
              rw [key b2 (write_word_same_below _ _ _ _ _ hw2 (le_refl _)) rfl]
              simp only []
              rw [if_neg hnc, if_pos (by unfold sizeof_expr_native at hlim; exact hlim)]
              rfl
        rw [if_neg h1] at e
        by_cases h2 : type_mask type = TE_VARIABLE
        · rw [if_pos h2] at e
          have hnc : ¬ is_call_type type := by unfold is_call_type; rw [h2]; decide
          cases hr : register_func ix payload.as_ptr size
              (payload.as_ptr.bind fun a => find_bind_by_addr a lookup) buf1 with
          | none => rw [hr] at e; cases e
          | some b2 =>
            rw [hr] at e
            cases e
            rw [key b2 (register_func_frame _ _ _ _ _ _ hr).2 rfl]
            simp only []
            rw [if_neg hnc, if_pos (by unfold sizeof_expr_native at hlim; exact hlim)]
            rfl
        rw [if_neg h2] at e
        by_cases h3 : is_call_type type
        · have h3u : (type_mask type ≥ TE_FUNCTION0 ∧ type_mask type < TE_FUNCTION_MAX) ∨
              (type_mask type ≥ TE_CLOSURE0 ∧ type_mask type < TE_CLOSURE_MAX) := h3
          rw [if_pos h3u] at e
          rw [if_pos h3] at hfuel
          cases hr : register_func ix payload.as_ptr size
              (payload.as_ptr.bind fun a => find_bind_or_any_by_addr a lookup) buf1 with
          | none => rw [hr] at e; cases e
          | some b2 =>
            rw [hr] at e
            simp only [] at e
            by_cases hl : ps.length = arity type
            · rw [if_pos hl] at e
              have ha := arity_eq type h3
              have hf2 := (register_func_frame _ _ _ _ _ _ hr).2
              obtain ⟨c1, _, c3⟩ := write_args_frame lookup ix ps
                (fun q _ => export_write_frame lookup ix q) 0 size _ b2 r e
                (by rw [hl]; unfold sizeof_expr_native sizeof_parameter; omega)
              have hty : read_int buf2 size = some type := by
                apply read_int_of_word
                rw [hag size (le_refl _) (by rw [hfr.1]; omega), c3 size (Or.inl (by omega)),
                  hf2 size (by omega)]
                exact ws.2.1
              have hargs := write_args_laid lookup ix limit ps hch
                (fun q hq => ih q hq (hch q hq)) 0 size _ b2 r e
                (by rw [hl]; unfold sizeof_expr_native sizeof_parameter; omega) buf2
                (by
                  intro off ho
                  apply hag off
                  · rcases ho with ho | ho
                    · omega
                    · unfold sizeof_expr_native at ho; omega
                  · rcases ho with ho | ho
                    · rw [c1]; unfold sizeof_expr_native sizeof_parameter; rw [← hl]; omega
                    · exact ho.2)
                hlim f (by unfold sizeof_expr_native at hfuel; omega)
              rw [hty]
              simp only []
              rw [if_pos h3, if_pos (by
                rw [c1] at hlim; unfold sizeof_expr_native sizeof_parameter at hlim; omega)]
              rw [← hl]
              unfold sizeof_expr_native sizeof_parameter at hargs
              rw [hl] at hargs ⊢
              exact hargs
            · rw [if_neg hl] at e; cases e
        · have h3u : ¬ ((type_mask type ≥ TE_FUNCTION0 ∧ type_mask type < TE_FUNCTION_MAX) ∨
              (type_mask type ≥ TE_CLOSURE0 ∧ type_mask type < TE_CLOSURE_MAX)) := h3
          rw [if_neg h3u] at e
          cases e
          rw [key buf1 (same_below_refl _ _) rfl]
          simp only []
          rw [if_neg h3, if_pos (by unfold sizeof_expr_native at hlim; exact hlim)]
          rfl

/-- The pass `optimize` makes no null pointer. -/
theorem optimize_no_null (h : Host) (mem : Mem) :
    ∀ (t r : expr_native), optimize h mem t = some r → no_null t = true → no_null r = true := by
  intro t
  induction t using expr_native.tree_induction with
  | hnull => intro r e; rw [optimize] at e; cases e
  | hnode type payload ps ctx ih =>
    intro r e hn
    have hch := (no_null_node type payload ps ctx).mp hn
    rw [optimize_node] at e
    by_cases h1 : type = TE_CONSTANT
    · rw [if_pos h1] at e; cases e; exact hn
    rw [if_neg h1] at e
    by_cases h2 : type = TE_VARIABLE
    · rw [if_pos h2] at e; cases e; exact hn
    rw [if_neg h2] at e
    by_cases h3 : is_pure type = true
    · rw [if_pos h3] at e
      cases hps : optimize.optimize_args h mem ps with
      | none => rw [hps] at e; cases e
      | some ps1 =>
        rw [hps] at e
        simp only [] at e
        have hfa := optimize_args_forall h mem ps ps1 hps
        by_cases hall : ps1.all (fun p => p.type == some TE_CONSTANT) = true
        · rw [if_pos hall] at e
          cases hv : eval_native h mem (.node type payload ps1 ctx) with
          | none => rw [hv] at e; cases e
          | some value =>
            rw [hv] at e
            cases e
            rfl
        · rw [if_neg hall] at e
          cases e
          rw [no_null_node]
          intro q hq
          obtain ⟨p, hp, hpq⟩ := forall2_mem_right hfa q hq
          exact ih p hp q hpq (hch p hp)
    · rw [if_neg h3] at e; cases e; exact hn

theorem no_null_binary (f : Nat) (a b : expr_native) (ha : no_null a = true)
    (hb : no_null b = true) : no_null (binary_node f a b) = true := by
  have e : binary_node f a b = .node (TE_FUNCTION2 ||| TE_FLAG_PURE) (.ptr f) [a, b] 0 := rfl
  rw [e, no_null_node]
  intro q hq
  simp only [List.mem_cons, List.mem_singleton, List.not_mem_nil, or_false] at hq
  rcases hq with hq | hq <;> rw [hq] <;> assumption

theorem no_null_unary (f : String) (a : expr_native) (ha : no_null a = true) :
    no_null (unary_node f a) = true := by
  have e : unary_node f a =
      .node (TE_FUNCTION1 ||| TE_FLAG_PURE) (.ptr (find_builtin_address f)) [a] 0 := rfl
  rw [e, no_null_node]
  intro q hq
  simp only [List.mem_singleton] at hq
  rw [hq]; exact ha

theorem no_null_power_wrap (sign logical : Int) (b : expr_native) (hb : no_null b = true) :
    no_null (power_wrap sign logical b) = true := by
  unfold power_wrap
  split
  · split
    · exact hb
    · split <;> exact no_null_unary _ _ hb
  · split
    · exact no_null_unary _ _ hb
    · split <;> exact no_null_unary _ _ hb

/-- The node a call token starts has the token's type and null parameters. -/
theorem call_node_shape (s : state) :
    ∃ p ctx, call_node s = .node s.type p (List.replicate (arity s.type) .null) ctx := by
  unfold call_node
  split
  · exact ⟨_, _, rfl⟩
  · exact ⟨_, _, rfl⟩

theorem set_keeps_sound (ps : List expr_native) (i : Nat) (e : expr_native)
    (h : ∀ k x, k < i → ps[k]? = some x → no_null x = true) (he : no_null e = true) :
    ∀ k x, k < i + 1 → (ps.set i e)[k]? = some x → no_null x = true := by
  intro k x hk hx
  rw [List.getElem?_set] at hx
  by_cases hik : i = k
  · rw [if_pos hik] at hx
    by_cases hl : i < ps.length
    · rw [if_pos hl] at hx
      cases hx; exact he
    · rw [if_neg hl] at hx; cases hx
  · rw [if_neg hik] at hx
    exact h k x (by omega) hx

theorem all_of_indexed (ps : List expr_native) (n : Nat) (hl : ps.length ≤ n)
    (h : ∀ k x, k < n → ps[k]? = some x → no_null x = true) :
    ∀ q ∈ ps, no_null q = true := by
  intro q hq
  obtain ⟨k, hk, e⟩ := List.getElem_of_mem hq
  exact h k q (by omega) (by rw [List.getElem?_eq_getElem hk, e])

theorem factor_loop_sound_step (c : Libc) (n : Nat)
    (ihG : ∀ s q, power c n s = some q → sound q)
    (ihL : ∀ ret s q, factor_loop c n ret s = some q → loop_sound ret s q)
    (ret : expr_native) (s : state) (q : expr_native × state)
    (h : factor_loop c (n + 1) ret s = some q) : loop_sound ret s q := by
  intro hq
  rw [factor_loop] at h
  by_cases hop : s.is_op ["pow"] = true
  · rw [if_pos hop] at h
    cases hG : power c n (next_token c s) with
    | none => rw [hG] at h; cases h
    | some r =>
      rw [hG] at h
      obtain ⟨a1, a2⟩ := ihL _ _ _ h hq
      exact ⟨(is_op_ne_end s _ hop).2, fun hr => a2 (no_null_binary _ _ _ hr (ihG _ _ hG a1))⟩
  · rw [if_neg hop] at h
    cases h; exact ⟨hq, id⟩

theorem factor_sound_step (c : Libc) (n : Nat)
    (ihG : ∀ s q, power c n s = some q → sound q)
    (ihL : ∀ ret s q, factor_loop c n ret s = some q → loop_sound ret s q)
    (s : state) (q : expr_native × state)
    (h : factor c (n + 1) s = some q) : sound q := by
  intro hq
  rw [factor] at h
  cases hG : power c n s with
  | none => rw [hG] at h; cases h
  | some r =>
    rw [hG] at h
    obtain ⟨a1, a2⟩ := ihL _ _ _ h hq
    exact a2 (ihG _ _ hG a1)

theorem term_loop_sound_step (c : Libc) (n : Nat)
    (ihG : ∀ s q, factor c n s = some q → sound q)
    (ihL : ∀ ret s q, term_loop c n ret s = some q → loop_sound ret s q)
    (ret : expr_native) (s : state) (q : expr_native × state)
    (h : term_loop c (n + 1) ret s = some q) : loop_sound ret s q := by
  intro hq
  rw [term_loop] at h
  by_cases hop : s.is_op ["mul", "divide", "fmod"] = true
  · rw [if_pos hop] at h
    cases hG : factor c n (next_token c s) with
    | none => rw [hG] at h; cases h
    | some r =>
      rw [hG] at h
      obtain ⟨a1, a2⟩ := ihL _ _ _ h hq
      exact ⟨(is_op_ne_end s _ hop).2, fun hr => a2 (no_null_binary _ _ _ hr (ihG _ _ hG a1))⟩
  · rw [if_neg hop] at h
    cases h; exact ⟨hq, id⟩

theorem term_sound_step (c : Libc) (n : Nat)
    (ihG : ∀ s q, factor c n s = some q → sound q)
    (ihL : ∀ ret s q, term_loop c n ret s = some q → loop_sound ret s q)
    (s : state) (q : expr_native × state)
    (h : term c (n + 1) s = some q) : sound q := by
  intro hq
  rw [term] at h
  cases hG : factor c n s with
  | none => rw [hG] at h; cases h
  | some r =>
    rw [hG] at h
    obtain ⟨a1, a2⟩ := ihL _ _ _ h hq
    exact a2 (ihG _ _ hG a1)

theorem sum_expr_loop_sound_step (c : Libc) (n : Nat)
    (ihG : ∀ s q, term c n s = some q → sound q)
    (ihL : ∀ ret s q, sum_expr_loop c n ret s = some q → loop_sound ret s q)
    (ret : expr_native) (s : state) (q : expr_native × state)
    (h : sum_expr_loop c (n + 1) ret s = some q) : loop_sound ret s q := by
  intro hq
  rw [sum_expr_loop] at h
  by_cases hop : s.is_op ["add", "sub"] = true
  · rw [if_pos hop] at h
    cases hG : term c n (next_token c s) with
    | none => rw [hG] at h; cases h
    | some r =>
      rw [hG] at h
      obtain ⟨a1, a2⟩ := ihL _ _ _ h hq
      exact ⟨(is_op_ne_end s _ hop).2, fun hr => a2 (no_null_binary _ _ _ hr (ihG _ _ hG a1))⟩
  · rw [if_neg hop] at h
    cases h; exact ⟨hq, id⟩

theorem sum_expr_sound_step (c : Libc) (n : Nat)
    (ihG : ∀ s q, term c n s = some q → sound q)
    (ihL : ∀ ret s q, sum_expr_loop c n ret s = some q → loop_sound ret s q)
    (s : state) (q : expr_native × state)
    (h : sum_expr c (n + 1) s = some q) : sound q := by
  intro hq
  rw [sum_expr] at h
  cases hG : term c n s with
  | none => rw [hG] at h; cases h
  | some r =>
    rw [hG] at h
    obtain ⟨a1, a2⟩ := ihL _ _ _ h hq
    exact a2 (ihG _ _ hG a1)

theorem test_expr_loop_sound_step (c : Libc) (n : Nat)
    (ihG : ∀ s q, sum_expr c n s = some q → sound q)
    (ihL : ∀ ret s q, test_expr_loop c n ret s = some q → loop_sound ret s q)
    (ret : expr_native) (s : state) (q : expr_native × state)
    (h : test_expr_loop c (n + 1) ret s = some q) : loop_sound ret s q := by
  intro hq
  rw [test_expr_loop] at h
  by_cases hop : s.is_op ["greater", "greater_eq", "lower", "lower_eq", "equal", "not_equal"] = true
  · rw [if_pos hop] at h
    cases hG : sum_expr c n (next_token c s) with
    | none => rw [hG] at h; cases h
    | some r =>
      rw [hG] at h
      obtain ⟨a1, a2⟩ := ihL _ _ _ h hq
      exact ⟨(is_op_ne_end s _ hop).2, fun hr => a2 (no_null_binary _ _ _ hr (ihG _ _ hG a1))⟩
  · rw [if_neg hop] at h
    cases h; exact ⟨hq, id⟩

theorem test_expr_sound_step (c : Libc) (n : Nat)
    (ihG : ∀ s q, sum_expr c n s = some q → sound q)
    (ihL : ∀ ret s q, test_expr_loop c n ret s = some q → loop_sound ret s q)
    (s : state) (q : expr_native × state)
    (h : test_expr c (n + 1) s = some q) : sound q := by
  intro hq
  rw [test_expr] at h
  cases hG : sum_expr c n s with
  | none => rw [hG] at h; cases h
  | some r =>
    rw [hG] at h
    obtain ⟨a1, a2⟩ := ihL _ _ _ h hq
    exact a2 (ihG _ _ hG a1)

theorem expr_loop_sound_step (c : Libc) (n : Nat)
    (ihG : ∀ s q, test_expr c n s = some q → sound q)
    (ihL : ∀ ret s q, expr_loop c n ret s = some q → loop_sound ret s q)
    (ret : expr_native) (s : state) (q : expr_native × state)
    (h : expr_loop c (n + 1) ret s = some q) : loop_sound ret s q := by
  intro hq
  rw [expr_loop] at h
  by_cases hop : s.is_op ["logical_and", "logical_or"] = true
  · rw [if_pos hop] at h
    cases hG : test_expr c n (next_token c s) with
    | none => rw [hG] at h; cases h
    | some r =>
      rw [hG] at h
      obtain ⟨a1, a2⟩ := ihL _ _ _ h hq
      exact ⟨(is_op_ne_end s _ hop).2, fun hr => a2 (no_null_binary _ _ _ hr (ihG _ _ hG a1))⟩
  · rw [if_neg hop] at h
    cases h; exact ⟨hq, id⟩

theorem expr_sound_step (c : Libc) (n : Nat)
    (ihG : ∀ s q, test_expr c n s = some q → sound q)
    (ihL : ∀ ret s q, expr_loop c n ret s = some q → loop_sound ret s q)
    (s : state) (q : expr_native × state)
    (h : expr c (n + 1) s = some q) : sound q := by
  intro hq
  rw [expr] at h
  cases hG : test_expr c n s with
  | none => rw [hG] at h; cases h
  | some r =>
    rw [hG] at h
    obtain ⟨a1, a2⟩ := ihL _ _ _ h hq
    exact a2 (ihG _ _ hG a1)

theorem list_loop_sound_step (c : Libc) (n : Nat)
    (ihG : ∀ s q, expr c n s = some q → sound q)
    (ihL : ∀ ret s q, list_loop c n ret s = some q → loop_sound ret s q)
    (ret : expr_native) (s : state) (q : expr_native × state)
    (h : list_loop c (n + 1) ret s = some q) : loop_sound ret s q := by
  intro hq
  rw [list_loop] at h
  by_cases hop : s.type = TOK_SEP
  · rw [if_pos hop] at h
    cases hG : expr c n (next_token c s) with
    | none => rw [hG] at h; cases h
    | some r =>
      rw [hG] at h
      obtain ⟨a1, a2⟩ := ihL _ _ _ h hq
      exact ⟨by rw [hop]; decide, fun hr => a2 (no_null_binary _ _ _ hr (ihG _ _ hG a1))⟩
  · rw [if_neg hop] at h
    cases h; exact ⟨hq, id⟩

theorem list_sound_step (c : Libc) (n : Nat)
    (ihG : ∀ s q, expr c n s = some q → sound q)
    (ihL : ∀ ret s q, list_loop c n ret s = some q → loop_sound ret s q)
    (s : state) (q : expr_native × state)
    (h : list c (n + 1) s = some q) : sound q := by
  intro hq
  rw [list] at h
  cases hG : expr c n s with
  | none => rw [hG] at h; cases h
  | some r =>
    rw [hG] at h
    obtain ⟨a1, a2⟩ := ihL _ _ _ h hq
    exact a2 (ihG _ _ hG a1)

theorem power_sound_step (c : Libc) (n : Nat)
    (ihB : ∀ s q, base c n s = some q → sound q)
    (s : state) (q : expr_native × state)
    (h : power c (n + 1) s = some q) : sound q := by
  rw [power] at h
  cases h1 : power_sign c (n + 1) s 1 with
  | none => rw [h1] at h; cases h
  | some r1 =>
    rw [h1] at h
    simp only [] at h
    cases h2 : power_logical c (n + 1) r1.1 0 with
    | none => rw [h2] at h; cases h
    | some r2 =>
      rw [h2] at h
      simp only [] at h
      cases h3 : base c n r2.1 with
      | none => rw [h3] at h; cases h
      | some r3 =>
        rw [h3] at h
        cases h
        intro hq
        exact no_null_power_wrap _ _ _ (ihB _ _ h3 hq)

theorem base_args_sound_step (c : Libc) (n : Nat)
    (ihE : ∀ s q, expr c n s = some q → sound q) (ihA : args_sound c n) :
    args_sound c (n + 1) := by
  intro ar i ret s q h hq t p ps ctx hret hlen hpre
  rw [base_args] at h
  by_cases hi : i < ar
  · rw [if_pos hi] at h
    cases hE : expr c n (next_token c s) with
    | none => rw [hE] at h; cases h
    | some r =>
      rw [hE] at h
      simp only [] at h
      have hset : ret.set_parameter i r.1 = .node t p (ps.set i r.1) ctx := by rw [hret]; rfl
      by_cases hsep : r.2.type ≠ TOK_SEP
      · rw [if_pos hsep] at h
        cases h
        exact ⟨ps.set i r.1, hset, by rw [List.length_set]; exact hlen,
          set_keeps_sound ps i r.1 hpre (ihE _ _ hE hq)⟩
      · rw [if_neg hsep] at h
        have hs : r.2.type = TOK_SEP := not_not.mp hsep
        exact ihA ar (i + 1) _ r.2 q h hq t p (ps.set i r.1) ctx hset
          (by rw [List.length_set]; exact hlen)
          (set_keeps_sound ps i r.1 hpre (ihE _ _ hE (by rw [hs]; decide)))
  · rw [if_neg hi] at h
    cases h
    refine ⟨ps, hret, hlen, ?_⟩
    intro k x hk hx
    by_cases hki : k < i
    · exact hpre k x hki hx
    · rw [List.getElem?_eq_none (by omega)] at hx; cases hx

theorem base_sound_step (c : Libc) (n : Nat)
    (ihP : ∀ s q, power c n s = some q → sound q)
    (ihL : ∀ s q, list c n s = some q → sound q)
    (ihA : args_sound c n)
    (s : state) (q : expr_native × state)
    (h : base c (n + 1) s = some q) : sound q := by
  rw [base] at h
  dsimp only at h
  by_cases h1 : type_mask s.type = TOK_NUMBER
  · rw [if_pos h1] at h
    cases h
    intro _; rfl
  rw [if_neg h1] at h
  by_cases h2 : type_mask s.type = TOK_VARIABLE
  · rw [if_pos h2] at h
    cases h
    intro _; rfl
  rw [if_neg h2] at h
  by_cases h3 : (type_mask s.type ≥ TE_FUNCTION0 ∧ type_mask s.type < TE_FUNCTION_MAX) ∨
      (type_mask s.type ≥ TE_CLOSURE0 ∧ type_mask s.type < TE_CLOSURE_MAX)
  · rw [if_pos h3] at h
    obtain ⟨p0, ctx0, hshape⟩ := call_node_shape s
    by_cases ha0 : arity s.type = 0
    · rw [if_pos ha0] at h
      have hnn : no_null (call_node s) = true := by
        rw [hshape, ha0]; rfl
      by_cases ho : (next_token c s).type = TOK_OPEN
      · rw [if_pos ho] at h
        by_cases hc : (next_token c (next_token c s)).type ≠ TOK_CLOSE
        · rw [if_pos hc] at h
          cases h; intro _; exact hnn
        · rw [if_neg hc] at h
          cases h; intro _; exact hnn
      · rw [if_neg ho] at h
        cases h; intro _; exact hnn
    rw [if_neg ha0] at h
    by_cases ha1 : arity s.type = 1
    · rw [if_pos ha1] at h
      cases hP : power c n (next_token c s) with
      | none => rw [hP] at h; cases h
      | some r =>
        rw [hP] at h
        cases h
        intro hq
        have hr := ihP _ _ hP hq
        show no_null ((call_node s).set_parameter 0 r.1) = true
        rw [hshape, ha1]
        show no_null (.node s.type p0 [r.1] ctx0) = true
        rw [no_null_node]
        intro x hx
        simp only [List.mem_singleton] at hx
        rw [hx]; exact hr
    rw [if_neg ha1] at h
    by_cases ho : (next_token c s).type ≠ TOK_OPEN
    · rw [if_pos ho] at h
      cases h; intro hq; exact absurd rfl hq
    rw [if_neg ho] at h
    cases hA : base_args c n (arity s.type) 0 (call_node s) (next_token c s) with
    | none => rw [hA] at h; cases h
    | some r =>
      rw [hA] at h
      simp only [] at h
      by_cases hc : r.2.1.type ≠ TOK_CLOSE ∨ r.2.2 ≠ arity s.type - 1
      · rw [if_pos hc] at h
        cases h; intro hq; exact absurd rfl hq
      · rw [if_neg hc] at h
        cases h
        intro _
        have hcl : r.2.1.type = TOK_CLOSE := by
          by_contra hx; exact hc (Or.inl hx)
        have hix : r.2.2 = arity s.type - 1 := by
          by_contra hx; exact hc (Or.inr hx)
        obtain ⟨ps1, e1, l1, a1⟩ := ihA _ _ _ _ r hA (by rw [hcl]; decide) s.type p0
          (List.replicate (arity s.type) .null) ctx0 hshape (List.length_replicate _ _)
          (fun k x hk _ => absurd hk (Nat.not_lt_zero k))
        show no_null r.1 = true
        rw [e1, no_null_node]
        exact all_of_indexed ps1 (r.2.2 + 1) (by rw [l1, hix]; omega) a1
  rw [if_neg h3] at h
  by_cases h4 : type_mask s.type = TOK_OPEN
  · rw [if_pos h4] at h
    cases hL : list c n (next_token c s) with
    | none => rw [hL] at h; cases h
    | some r =>
      rw [hL] at h
      simp only [] at h
      by_cases hc : r.2.type ≠ TOK_CLOSE
      · rw [if_pos hc] at h
        cases h; intro hq; exact absurd rfl hq
      · rw [if_neg hc] at h
        cases h
        intro _
        exact ihL _ _ hL (by rw [not_not.mp hc]; decide)
  · rw [if_neg h4] at h
    cases h; intro hq; exact absurd rfl hq

/-- Every parser function that ends in a state other than the error token returns a
tree without null pointers. -/
theorem parser_sound (c : Libc) (fuel : Nat) :
    (∀ s q, base c fuel s = some q → sound q) ∧
    args_sound c fuel ∧
    (∀ s q, power c fuel s = some q → sound q) ∧
    (∀ s q, factor c fuel s = some q → sound q) ∧
    (∀ ret s q, factor_loop c fuel ret s = some q → loop_sound ret s q) ∧
    (∀ s q, term c fuel s = some q → sound q) ∧
    (∀ ret s q, term_loop c fuel ret s = some q → loop_sound ret s q) ∧
    (∀ s q, sum_expr c fuel s = some q → sound q) ∧
    (∀ ret s q, sum_expr_loop c fuel ret s = some q → loop_sound ret s q) ∧
    (∀ s q, test_expr c fuel s = some q → sound q) ∧
    (∀ ret s q, test_expr_loop c fuel ret s = some q → loop_sound ret s q) ∧
    (∀ s q, expr c fuel s = some q → sound q) ∧
    (∀ ret s q, expr_loop c fuel ret s = some q → loop_sound ret s q) ∧
    (∀ s q, list c fuel s = some q → sound q) ∧
    (∀ ret s q, list_loop c fuel ret s = some q → loop_sound ret s q) := by
  induction fuel with
  | zero =>
    refine ⟨?_, ?_, ?_, ?_, ?_, ?_, ?_, ?_, ?_, ?_, ?_, ?_, ?_, ?_, ?_⟩
    · intro s q h; rw [base] at h; cases h
    · intro ar i ret s q h; rw [base_args] at h; cases h
    · intro s q h; rw [power] at h; cases h
    · intro s q h; rw [factor] at h; cases h
    · intro ret s q h; rw [factor_loop] at h; cases h
    · intro s q h; rw [term] at h; cases h
    · intro ret s q h; rw [term_loop] at h; cases h
    · intro s q h; rw [sum_expr] at h; cases h
    · intro ret s q h; rw [sum_expr_loop] at h; cases h
    · intro s q h; rw [test_expr] at h; cases h
    · intro ret s q h; rw [test_expr_loop] at h; cases h
    · intro s q h; rw [expr] at h; cases h
    · intro ret s q h; rw [expr_loop] at h; cases h
    · intro s q h; rw [list] at h; cases h
    · intro ret s q h; rw [list_loop] at h; cases h
  | succ n ih =>
    obtain ⟨iBase, iArgs, iPower, iFactor, iFactorL, iTerm, iTermL, iSum, iSumL, iTest, iTestL,
      iExpr, iExprL, iList, iListL⟩ := ih
    exact ⟨base_sound_step c n iPower iList iArgs,
      base_args_sound_step c n iExpr iArgs,
      power_sound_step c n iBase,
      factor_sound_step c n iPower iFactorL,
      factor_loop_sound_step c n iPower iFactorL,
      term_sound_step c n iFactor iTermL,
      term_loop_sound_step c n iFactor iTermL,
      sum_expr_sound_step c n iTerm iSumL,
      sum_expr_loop_sound_step c n iTerm iSumL,
      test_expr_sound_step c n iSum iTestL,
      test_expr_loop_sound_step c n iSum iTestL,
      expr_sound_step c n iTest iExprL,
      expr_loop_sound_step c n iTest iExprL,
      list_sound_step c n iExpr iListL,
      list_loop_sound_step c n iExpr iListL⟩

/-- The tree of a parse that ends at the end of the text has no null pointer. -/
theorem parse_no_null (c : Libc) (text : List Nat) (vars : List te_variable)
    (q : expr_native × state) (h : parse c text vars = some q) (hq : q.2.type = TOK_END) :
    no_null q.1 = true :=
  (parser_sound c (parse_fuel text)).2.2.2.2.2.2.2.2.2.2.2.2.2.1 _ q h (by rw [hq]; decide)

/-- What a root returned by `compile_native` was built from. -/
theorem compile_native_ok (h : Host) (mem : Mem) (text : List Nat) (vars : List te_variable)
    (root : expr_native) (err : Int)
    (hc : compile_native h mem text vars = .ok (some root, err)) :
    ∃ q, parse h.libc text vars = some q ∧ q.2.type = TOK_END ∧
      optimize h mem q.1 = some root := by
  unfold compile_native at hc
  cases hp : parse h.libc text vars with
  | none => rw [hp] at hc; cases hc
  | some q =>
    rw [hp] at hc
    simp only [] at hc
    by_cases he : q.2.type ≠ TOK_END
    · rw [if_pos he] at hc; cases hc
    · rw [if_neg he] at hc
      cases ho : optimize h mem q.1 with
      | none => rw [ho] at hc; cases hc
      | some r =>
        rw [ho] at hc
        cases hc
        exact ⟨q, rfl, not_not.mp he, ho⟩

/-- A root returned by `compile_native` has no null pointer. -/
theorem compile_native_no_null (h : Host) (mem : Mem) (text : List Nat)
    (vars : List te_variable) (root : expr_native) (err : Int)
    (hc : compile_native h mem text vars = .ok (some root, err)) : no_null root = true := by
  obtain ⟨q, hp, he, ho⟩ := compile_native_ok h mem text vars root err hc
  exact optimize_no_null h mem q.1 root ho (parse_no_null h.libc text vars q hp he)

theorem compile_ok (h : Host) (mem : Mem) (text : List Nat) (vars : List te_variable)
    (e : compiled_expr) (err : Int) (hc : compile h mem text vars = .ok (some e, err)) :
    ∃ ix1, compile_using_indexer h mem indexer.empty text vars = .ok (some e, err, ix1) := by
  unfold compile at hc
  cases hx : compile_using_indexer h mem indexer.empty text vars with
  | timeout => rw [hx] at hc; cases hc
  | fault => rw [hx] at hc; cases hc
  | ok r =>
    rw [hx] at hc
    obtain ⟨e1, err1, ix1⟩ := r
    cases hc
    exact ⟨ix1, rfl⟩

/-- The image of a handle returned by `compile` is laid out in pre-order from byte 0 to
its end. -/
theorem image_laid_out (h : Host) (mem : Mem) (text : List Nat) (vars : List te_variable)
    (e : compiled_expr) (err : Int) (hc : compile h mem text vars = .ok (some e, err))
    (fuel : Nat) (hf : e.build_buffer.length + 1 ≤ fuel) :
    subtree_end e.build_buffer (get_data_size (some e)) fuel 0 = some (get_data_size (some e)) := by
  obtain ⟨ix1, hx⟩ := compile_ok h mem text vars e err hc
  obtain ⟨hb, root, h1, h2, h3⟩ := image_is_estimate h mem indexer.empty text vars e err ix1 hx
  have hnn := compile_native_no_null h mem text vars root err h1
  have hsz := export_estimate_bytes vars root 0 indexer.empty _ h2
  simp only [Nat.zero_add] at hsz
  unfold bytes_written at hb
  exact export_write_laid vars ix1 (get_data_size (some e)) root hnn 0 _ _ h3 e.build_buffer
    (fun _ _ _ => rfl) (le_refl _) fuel (by rw [← hsz]; omega)

/-- C12: in every image `compile` returns, the records are laid out in pre-order from the
root record at byte 0 to the end of the image: each record lies inside the image, and for
a function or closure record at byte `o` with arity `k` every child offset
`parameters[i]`, `i < k`, is greater than `o`, less than the image size and starts a
record; `parameters[0]` is the byte at which the record at `o` ends and
`parameters[i+1]` the byte at which the subtree of child `i` ends, the last subtree
ending where the image ends. -/
theorem C12_image_preorder (h : Host) (mem : Mem) (text : List Nat) (vars : List te_variable)
    (e : compiled_expr) (err : Int) (hc : compile h mem text vars = .ok (some e, err))
    (fuel : Nat) (hf : e.build_buffer.length + 1 ≤ fuel) :
    subtree_end e.build_buffer (get_data_size (some e)) fuel 0 = some (get_data_size (some e)) :=
  image_laid_out h mem text vars e err hc fuel hf

theorem C12_image_preorder_witness :
    compile plain_host loop_mem (cstr "(x+1)*x") loop_vars = .ok (some nested_compiled, 0) ∧
    nested_compiled.build_buffer.length + 1 ≤ 20 ∧
    subtree_end nested_compiled.build_buffer 152 20 0 = some 152 ∧
    subtree_end nested_compiled.build_buffer 152 19 40 = some 128 ∧
    read_int nested_compiled.build_buffer (0 + 16 + 8 * 1) = some 128 :=
  ⟨by decide!, by decide,
    C12_image_preorder plain_host loop_mem (cstr "(x+1)*x") loop_vars nested_compiled 0
      (by decide!) 20 (by decide),
    by decide!, by decide!⟩

/-! ## C27, C29, C30, C28: the built-in tables and the lookup order -/

theorem name_compare_append (w rest b : List Nat) :
    name_compare (w ++ rest) b w.length = name_compare w b w.length := by
  induction w generalizing b with
  | nil => rw [List.length_nil, name_compare, name_compare]
  | cons x xs ih =>
    rw [List.length_cons, name_compare, name_compare]
    simp only [List.cons_append, List.headD_cons, List.tail_cons]
    rw [ih]

theorem find_in_table_append (table : List te_variable) (w rest : List Nat) (fuel : Nat) :
    ∀ imin imax : Int, find_in_table table (w ++ rest) w.length fuel imin imax =
      find_in_table table w w.length fuel imin imax := by
  induction fuel with
  | zero => intro imin imax; rw [find_in_table, find_in_table]
  | succ n ih =>
    intro imin imax
    rw [find_in_table, find_in_table]
    simp only [name_compare_append, ih]

/-- A NUL-terminated name without inner NUL that reads `w` is `w`. -/
theorem is_name_eq (name w : List Nat) (h : is_name name w) (hnz : ∀ x ∈ name, x ≠ 0) :
    name = w := by
  obtain ⟨h1, h2⟩ := h
  by_cases hl : w.length < name.length
  · exfalso
    rw [List.getD_eq_getElem _ _ hl] at h2
    exact hnz _ (List.getElem_mem hl) h2
  · rw [List.take_of_length_le (by omega)] at h1
    exact h1

theorem functions_found : ∀ v ∈ functions, find_builtin_function v.name v.name.length = some v := by
  decide!

theorem operators_found : ∀ v ∈ operators, find_builtin_operator v.name v.name.length = some v := by
  decide!

theorem functions_named : ∀ v ∈ functions, entry_named functions v.name = some v := by decide!

theorem operators_named : ∀ v ∈ operators, entry_named operators v.name = some v := by decide!

theorem builtin_names_no_nul : ∀ v ∈ functions ++ operators, ∀ x ∈ v.name, x ≠ 0 := by decide!

theorem entry_named_some (table : List te_variable) (w : List Nat) (v : te_variable)
    (h : entry_named table w = some v) : v ∈ table ∧ v.name = w := by
  unfold entry_named at h
  have hp := List.find?_some h
  simp only [beq_iff_eq] at hp
  exact ⟨List.mem_of_find?_eq_some h, hp⟩

/-- The binary search over a table finds the entry named `w`, when every entry is found
under its own name, no name holds a NUL and no two entries share a name. -/
theorem find_in_table_named (table : List te_variable) (w rest : List Nat)
    (hw : ∀ x ∈ w, x ≠ 0)
    (hfound : ∀ v ∈ table, find_in_table table v.name v.name.length (table.length + 1) 0
      ((table.length : Int) - 1) = some v)
    (hnamed : ∀ v ∈ table, entry_named table v.name = some v)
    (hnul : ∀ v ∈ table, ∀ x ∈ v.name, x ≠ 0) :
    find_in_table table (w ++ rest) w.length (table.length + 1) 0 ((table.length : Int) - 1) =
      entry_named table w := by
  rw [find_in_table_append]
  cases hf : find_in_table table w w.length (table.length + 1) 0 ((table.length : Int) - 1) with
  | some v =>
    have hs := find_in_table_some table w w.length
      (by rw [List.take_length]; exact hw) (le_refl _) _ _ _ _ hf
    rw [List.take_length] at hs
    have e := is_name_eq v.name w hs.2 (hnul v hs.1)
    rw [← e]
    exact (hnamed v hs.1).symm
  | none =>
    cases hn : entry_named table w with
    | none => rfl
    | some v =>
      exfalso
      obtain ⟨hm, e⟩ := entry_named_some table w v hn
      have := hfound v hm
      rw [e, hf] at this
      cases this

theorem find_builtin_function_named (w rest : List Nat) (hw : ∀ x ∈ w, x ≠ 0) :
    find_builtin_function (w ++ rest) w.length = entry_named functions w :=
  find_in_table_named functions w rest hw functions_found functions_named
    (fun v hv => builtin_names_no_nul v (List.mem_append_left _ hv))

theorem find_builtin_operator_named (w rest : List Nat) (hw : ∀ x ∈ w, x ≠ 0) :
    find_builtin_operator (w ++ rest) w.length = entry_named operators w :=
  find_in_table_named operators w rest hw operators_found operators_named
    (fun v hv => builtin_names_no_nul v (List.mem_append_right _ hv))

theorem find_builtin_named (w rest : List Nat) (hw : ∀ x ∈ w, x ≠ 0) :
    find_builtin (w ++ rest) w.length =
      (entry_named functions w).orElse (fun _ => entry_named operators w) := by
  unfold find_builtin
  rw [find_builtin_function_named w rest hw, find_builtin_operator_named w rest hw]
  cases entry_named functions w <;> rfl

/-- C27: for every byte string `w` (no NUL among its bytes, whatever follows it in the
text), `find_builtin_function` returns the entry of the functions table named exactly
`w`, or null when there is none; `find_builtin_operator` does the same for the operators
table; `find_builtin` returns the functions-table match if there is one and else the
operators-table match. Both tables are strictly sorted in the byte order of
`name_compare`. -/
theorem C27_find_builtin (w rest : List Nat) (hw : ∀ x ∈ w, x ≠ 0) :
    find_builtin_function (w ++ rest) w.length = entry_named functions w ∧
    find_builtin_operator (w ++ rest) w.length = entry_named operators w ∧
    find_builtin (w ++ rest) w.length =
      (entry_named functions w).orElse (fun _ => entry_named operators w) ∧
    sorted_names functions ∧ sorted_names operators :=
  ⟨find_builtin_function_named w rest hw, find_builtin_operator_named w rest hw,
    find_builtin_named w rest hw, by decide!, by decide!⟩

theorem C27_find_builtin_witness :
    (∀ x ∈ cstr "sin", x ≠ 0) ∧
    find_builtin_function (cstr "sin" ++ cstr "(x)") 3 =
      some ⟨cstr "sin", impl.sin, TE_FUNCTION1 ||| TE_FLAG_PURE, 0⟩ ∧
    find_builtin_operator (cstr "sin" ++ cstr "(x)") 3 = none ∧
    find_builtin (cstr "sin" ++ cstr "(x)") 3 =
      some ⟨cstr "sin", impl.sin, TE_FUNCTION1 ||| TE_FLAG_PURE, 0⟩ ∧
    find_builtin (cstr "add" ++ cstr "(1,2)") 3 =
      some ⟨cstr "add", impl.add, TE_FUNCTION2 ||| TE_FLAG_PURE, 0⟩ ∧
    find_builtin (cstr "si" ++ cstr "n") 2 = none ∧
    find_builtin (cstr "sinh" ++ []) 4 =
      some ⟨cstr "sinh", impl.sinh, TE_FUNCTION1 ||| TE_FLAG_PURE, 0⟩ :=
  ⟨by decide,
    (C27_find_builtin (cstr "sin") (cstr "(x)") (by decide)).1.trans (by decide),
    (C27_find_builtin (cstr "sin") (cstr "(x)") (by decide)).2.1.trans (by decide),
    (C27_find_builtin (cstr "sin") (cstr "(x)") (by decide)).2.2.1.trans (by decide),
    (C27_find_builtin (cstr "add") (cstr "(1,2)") (by decide)).2.2.1.trans (by decide),
    (C27_find_builtin (cstr "si") (cstr "n") (by decide)).2.2.1.trans (by decide),
    (C27_find_builtin (cstr "sinh") [] (by decide)).2.2.1.trans (by decide)⟩

theorem find_any_by_addr_eq (addr : Nat) :
    find_any_by_addr addr =
      (functions.find? (fun v => v.address == addr)).orElse
        (fun _ => operators.find? (fun v => v.address == addr)) := by
  have hn : find_builtin (cstr "nul") (cstr "nul").length = none := by decide
  unfold find_any_by_addr find_function_by_addr find_operator_by_addr
  rw [hn]
  cases functions.find? (fun v => v.address == addr) with
  | some v => rfl
  | none =>
    cases operators.find? (fun v => v.address == addr) <;> rfl

theorem find_bind_or_any_by_addr_eq (addr : Nat) (lookup : List te_variable) :
    find_bind_or_any_by_addr addr lookup =
      (find_any_by_addr addr).orElse (fun _ =>
        (lookup.find? (fun v => v.address == addr)).orElse
          (fun _ => lookup.find? (fun v => v.context == addr))) := by
  unfold find_bind_or_any_by_addr find_bind_by_addr find_closure_by_addr
  cases find_any_by_addr addr with
  | some v => rfl
  | none =>
    cases lookup.find? (fun v => v.address == addr) <;> rfl

/-- C29 as written fails for the null address and for the address of the built-in
implementation `nul` itself: `find_any_by_addr` returns the null pointer and not an entry
named `nul`: no entry of either table has such an address, and the fallback
`find_builtin("nul")` finds nothing, because neither table has an entry named `nul`. -/
theorem C29_no_entry_named_nul :
    find_any_by_addr 0 = none ∧ find_any_by_addr impl.nul = none ∧
    find_builtin (cstr "nul") (cstr "nul").length = none ∧
    entry_named functions (cstr "nul") = none ∧ entry_named operators (cstr "nul") = none ∧
    functions.find? (fun v => v.address == impl.nul) = none ∧
    operators.find? (fun v => v.address == impl.nul) = none :=
  ⟨by decide, by decide, by decide, by decide, by decide, by decide, by decide⟩

/-- C29: for every address, `find_any_by_addr` returns the first functions-table entry with
that address, else the first operators-table entry with that address, and else (when no
entry of either table has that address) the null pointer. The null pointer is what its
caller `find_bind_or_any_by_addr` tests for: only then it searches the lookup table of the
user, by address first and by context second. -/
theorem C29_find_any_by_addr :
    (∀ addr : Nat, find_any_by_addr addr =
      (functions.find? (fun v => v.address == addr)).orElse
        (fun _ => operators.find? (fun v => v.address == addr))) ∧
    (∀ (addr : Nat) (lookup : List te_variable), find_bind_or_any_by_addr addr lookup =
      (find_any_by_addr addr).orElse (fun _ =>
        (lookup.find? (fun v => v.address == addr)).orElse
          (fun _ => lookup.find? (fun v => v.context == addr)))) ∧
    find_any_by_addr impl.sin = some ⟨cstr "sin", impl.sin, TE_FUNCTION1 ||| TE_FLAG_PURE, 0⟩ ∧
    find_any_by_addr impl.add = some ⟨cstr "add", impl.add, TE_FUNCTION2 ||| TE_FLAG_PURE, 0⟩ ∧
    find_any_by_addr impl.negate =
      some ⟨cstr "negate", impl.negate, TE_FUNCTION1 ||| TE_FLAG_PURE, 0⟩ ∧
    find_any_by_addr 5000 = none ∧
    find_bind_or_any_by_addr 5000 [⟨cstr "f", 5000, TE_FUNCTION1, 0⟩] =
      some ⟨cstr "f", 5000, TE_FUNCTION1, 0⟩ :=
  ⟨find_any_by_addr_eq, find_bind_or_any_by_addr_eq,
    by decide, by decide, by decide, by decide, by decide⟩

theorem strncmp_of_take (n : Nat) :
    ∀ (a b : List Nat), b.take n = a.take n → n ≤ a.length → strncmp a b n = 0 := by
  induction n with
  | zero => intro a b _ _; rw [strncmp]
  | succ n ih =>
    intro a b h hl
    cases a with
    | nil => simp at hl
    | cons x xs =>
      cases b with
      | nil => simp at h
      | cons y ys =>
        simp only [List.take_succ_cons, List.cons.injEq] at h
        rw [strncmp]
        simp only [List.headD_cons, List.tail_cons]
        rw [if_neg (by rw [h.1]; exact fun hc => hc rfl)]
        by_cases hx : x = 0
        · rw [if_pos hx]
        · rw [if_neg hx]
          exact ih xs ys h.2 (by simpa using hl)

/-- The linear search of the lookup table finds the first entry named `ident`. -/
theorem find_lookup_named (lookup : List te_variable) (ident rest : List Nat)
    (hnz : ∀ x ∈ ident, x ≠ 0) :
    find_lookup lookup (ident ++ rest) ident.length =
      lookup.find? (fun u => decide (is_name u.name ident)) := by
  unfold find_lookup
  congr 1
  funext u
  have htake : (ident ++ rest).take ident.length = ident := by simp
  have hlen : ident.length ≤ (ident ++ rest).length := by simp
  by_cases hu : is_name u.name ident
  · rw [decide_eq_true hu]
    have e := strncmp_of_take ident.length (ident ++ rest) u.name (by rw [htake]; exact hu.1) hlen
    rw [e, hu.2]
    rfl
  · rw [decide_eq_false hu]
    rw [Bool.eq_false_iff]
    intro hc
    simp only [Bool.and_eq_true, beq_iff_eq] at hc
    apply hu
    have := strncmp_eq_zero ident.length (ident ++ rest) u.name (by rw [htake]; exact hnz) hlen hc.1
    rw [htake] at this
    exact ⟨this, hc.2⟩

theorem advance_advance (s : state) (a b : Nat) : (s.advance a).advance b = s.advance (a + b) := by
  unfold state.advance
  simp only [List.drop_drop, Nat.add_assoc]

/-- The token of an identifier that the tables resolve to the entry `v`. -/
theorem next_token_loop_resolved (c : Libc) (fuel : Nat) (s : state) (ident rest : List Nat)
    (v : te_variable) (hn : s.next = ident ++ rest) (hi : is_identifier ident)
    (hr : is_ident_char (rest.headD 0) = false)
    (hv : (find_lookup s.lookup s.next ident.length).orElse
      (fun _ => find_builtin s.next ident.length) = some v) :
    next_token_loop c (fuel + 1) s =
      if type_mask v.type = TE_VARIABLE then
        { s.advance ident.length with type := TOK_VARIABLE, function := v.address }
      else if type_mask v.type ≥ TE_FUNCTION0 then
        if type_mask v.type < TE_FUNCTION_MAX then
          { s.advance ident.length with type := v.type, function := v.address }
        else if type_mask v.type ≥ TE_CLOSURE0 ∧ type_mask v.type < TE_CLOSURE_MAX then
          { s.advance ident.length with
            context := v.context, type := v.type, function := v.address }
        else next_token_loop c fuel (s.advance ident.length)
      else next_token_loop c fuel (s.advance ident.length) := by
  have htw : s.next.takeWhile is_ident_char = ident := by rw [hn]; exact takeWhile_ident _ _ hi.2 hr
  have hhead : s.next.headD 0 = ident.headD 0 := by
    rw [hn]
    cases ident with
    | nil => exfalso; have := hi.1.1; revert this; decide
    | cons a tl => rfl
  have ha := hi.1
  rw [← hhead] at ha
  rw [next_token_loop]
  refine ite_neg_eq _ _ _ _ ?_ ?_
  · have e1 : 'a'.toNat = 97 := rfl
    have e2 : ';'.toNat = 59 := rfl
    omega
  refine ite_neg_eq _ _ _ _ ?_ ?_
  · have e1 : 'a'.toNat = 97 := rfl
    have e2 : '9'.toNat = 57 := rfl
    have e3 : '.'.toNat = 46 := rfl
    omega
  refine (if_pos ha).trans ?_
  dsimp only
  rw [htw, hv]

/-- The lexer steps over the blanks before a token. -/
theorem next_token_loop_blanks (c : Libc) :
    ∀ (ws : List Nat) (fuel : Nat) (s : state) (tail : List Nat), s.next = ws ++ tail →
      (∀ b ∈ ws, is_blank b) →
      next_token_loop c (fuel + ws.length) s = next_token_loop c fuel (s.advance ws.length) := by
  intro ws
  induction ws with
  | nil =>
    intro fuel s tail _ _
    show next_token_loop c fuel s = next_token_loop c fuel (s.advance 0)
    rfl
  | cons b ws ih =>
    intro fuel s tail hn hb
    have hh : is_blank (s.next.headD 0) := by
      rw [hn]; exact hb b (List.mem_cons_self _ _)
    rw [List.length_cons, ← Nat.add_assoc, next_token_loop_blank c _ s hh,
      ih fuel (s.advance 1) tail (by show s.next.drop 1 = _; rw [hn]; rfl)
        (fun x hx => hb x (List.mem_cons_of_mem _ hx)),
      advance_advance, Nat.add_comm 1]

/-- The token `next_token` gives at an identifier, after blanks, that the tables resolve
to the entry `v`. -/
theorem next_token_resolved (c : Libc) (s : state) (ws ident rest : List Nat) (v : te_variable)
    (hn : s.next = ws ++ (ident ++ rest)) (hws : ∀ b ∈ ws, is_blank b)
    (hi : is_identifier ident) (hr : is_ident_char (rest.headD 0) = false)
    (hv : (find_lookup s.lookup (ident ++ rest) ident.length).orElse
      (fun _ => find_builtin (ident ++ rest) ident.length) = some v) :
    (type_mask v.type = TE_VARIABLE →
      next_token c s =
        { s.advance (ws.length + ident.length) with
          type := TOK_VARIABLE, function := v.address }) ∧
    (type_mask v.type ≥ TE_FUNCTION0 ∧ type_mask v.type < TE_FUNCTION_MAX →
      next_token c s =
        { s.advance (ws.length + ident.length) with type := v.type, function := v.address }) ∧
    (type_mask v.type ≥ TE_CLOSURE0 ∧ type_mask v.type < TE_CLOSURE_MAX →
      next_token c s =
        { s.advance (ws.length + ident.length) with
          context := v.context, type := v.type, function := v.address }) := by
  have hnext : (s.advance ws.length).next = ident ++ rest := by
    show s.next.drop ws.length = _
    rw [hn]; simp
  have hfuel : s.next.length + 1 = (ident.length + rest.length) + 1 + ws.length := by
    rw [hn]; simp only [List.length_append]; omega
  have hlook : (s.advance ws.length).lookup = s.lookup := rfl
  have key := next_token_loop_resolved c (ident.length + rest.length) (s.advance ws.length)
    ident rest v hnext hi hr (by rw [hnext, hlook]; exact hv)
  have e : next_token c s =
      next_token_loop c ((ident.length + rest.length) + 1) (s.advance ws.length) := by
    unfold next_token
    rw [hfuel]
    exact next_token_loop_blanks c ws _ s _ hn hws
  rw [e, key, advance_advance]
  refine ⟨?_, ?_, ?_⟩
  · intro h1
    rw [if_pos h1]
  · intro h2
    have hne : ¬ type_mask v.type = TE_VARIABLE := by
      simp only [TE_FUNCTION0, TE_VARIABLE] at h2 ⊢; omega
    rw [if_neg hne, if_pos h2.1, if_pos h2.2]
  · intro h3
    have hne : ¬ type_mask v.type = TE_VARIABLE := by
      simp only [TE_CLOSURE0, TE_VARIABLE] at h3 ⊢; omega
    have hge : type_mask v.type ≥ TE_FUNCTION0 := by
      simp only [TE_CLOSURE0, TE_FUNCTION0] at h3 ⊢; omega
    have hnl : ¬ type_mask v.type < TE_FUNCTION_MAX := by
      simp only [TE_CLOSURE0, TE_FUNCTION_MAX] at h3 ⊢; omega
    rw [if_neg hne, if_pos hge, if_neg hnl, if_pos h3]

theorem identifier_no_nul (ident : List Nat) (hi : is_identifier ident) : ∀ x ∈ ident, x ≠ 0 :=
  fun x hx => ident_char_ne_zero x (hi.2 x hx)

/-- An identifier that the lookup table holds is resolved to its first entry of that
name, whatever the built-in tables hold. -/
theorem resolve_user (lookup : List te_variable) (ident rest : List Nat) (v : te_variable)
    (hi : is_identifier ident)
    (hv : lookup.find? (fun u => decide (is_name u.name ident)) = some v) :
    (find_lookup lookup (ident ++ rest) ident.length).orElse
      (fun _ => find_builtin (ident ++ rest) ident.length) = some v := by
  rw [find_lookup_named lookup ident rest (identifier_no_nul ident hi), hv]
  rfl

theorem operators_identifiers : ∀ v ∈ operators, is_identifier v.name := by decide

theorem operators_resolved : ∀ v ∈ operators,
    ((entry_named functions v.name).orElse (fun _ => entry_named operators v.name)).map
      (fun u => (u.type, u.address)) = some (v.type, v.address) := by decide

theorem operators_category : ∀ v ∈ operators,
    type_mask v.type ≥ TE_FUNCTION0 ∧ type_mask v.type < TE_FUNCTION_MAX := by decide

theorem operators_compile : ∀ v ∈ operators,
    compiles plain_host [] (v.name ++ cstr "(1,2)") [] = true := by decide!

/-- The token of an operator name that the lookup table does not hold. -/
theorem next_token_operator (c : Libc) (s : state) (ws rest : List Nat) (v : te_variable)
    (hv : v ∈ operators) (hn : s.next = ws ++ (v.name ++ rest)) (hws : ∀ b ∈ ws, is_blank b)
    (hr : is_ident_char (rest.headD 0) = false)
    (hu : s.lookup.find? (fun u => decide (is_name u.name v.name)) = none) :
    next_token c s =
      { s.advance (ws.length + v.name.length) with type := v.type, function := v.address } := by
  have hi := operators_identifiers v hv
  have hres := operators_resolved v hv
  cases hb : (entry_named functions v.name).orElse (fun _ => entry_named operators v.name) with
  | none => rw [hb] at hres; cases hres
  | some u =>
    rw [hb] at hres
    simp only [Option.map_some', Option.some.injEq, Prod.mk.injEq] at hres
    have hfind : (find_lookup s.lookup (v.name ++ rest) v.name.length).orElse
        (fun _ => find_builtin (v.name ++ rest) v.name.length) = some u := by
      rw [find_lookup_named s.lookup v.name rest (identifier_no_nul v.name hi), hu,
        find_builtin_named v.name rest (identifier_no_nul v.name hi)]
      exact hb
    have key := (next_token_resolved c s ws v.name rest u hn hws hi hr hfind).2.1
      (by rw [hres.1]; exact operators_category v hv)
    rw [key, hres.1, hres.2]

/-- C30: at an identifier (after blanks) the lexer takes the first entry of the user
lookup table with exactly that name, whatever the built-in tables hold, and the token
carries that entry's category and address: the variable token with the entry's
address for a variable, the entry's type and address for a function, and the entry's
type, address and context for a closure. -/
theorem C30_user_lookup_first (c : Libc) (s : state) (ws ident rest : List Nat)
    (v : te_variable) (hn : s.next = ws ++ (ident ++ rest)) (hws : ∀ b ∈ ws, is_blank b)
    (hi : is_identifier ident) (hr : is_ident_char (rest.headD 0) = false)
    (hv : s.lookup.find? (fun u => decide (is_name u.name ident)) = some v) :
    (type_mask v.type = TE_VARIABLE →
      next_token c s =
        { s.advance (ws.length + ident.length) with
          type := TOK_VARIABLE, function := v.address }) ∧
    (type_mask v.type ≥ TE_FUNCTION0 ∧ type_mask v.type < TE_FUNCTION_MAX →
      next_token c s =
        { s.advance (ws.length + ident.length) with type := v.type, function := v.address }) ∧
    (type_mask v.type ≥ TE_CLOSURE0 ∧ type_mask v.type < TE_CLOSURE_MAX →
      next_token c s =
        { s.advance (ws.length + ident.length) with
          context := v.context, type := v.type, function := v.address }) :=
  next_token_resolved c s ws ident rest v hn hws hi hr
    (resolve_user s.lookup ident rest v hi hv)

/-- C30 at the texts ` sin x`, `pi` and `e 2` over a lookup table that binds `sin` to
two variables, `pi` to a closure and `e` to a function of one argument: the tokens
carry the first variable `sin`, the closure with its context, and the user function. -/
theorem C30_user_lookup_first_witness :
    next_token exact_libc (init_state (cstr " sin x") shadow_lookup) =
      { next := cstr " x", pos := 4, type := TOK_VARIABLE, value := .nan, function := 5000,
        context := 0, lookup := shadow_lookup } ∧
    next_token exact_libc (init_state (cstr "pi") shadow_lookup) =
      { next := [], pos := 2, type := TE_CLOSURE0, value := .nan, function := test_fn.clo0,
        context := 6000, lookup := shadow_lookup } ∧
    next_token exact_libc (init_state (cstr "e 2") shadow_lookup) =
      { next := cstr " 2", pos := 1, type := TE_FUNCTION1, value := .nan,
        function := test_fn.clo1, context := 0, lookup := shadow_lookup } :=
  ⟨((C30_user_lookup_first exact_libc (init_state (cstr " sin x") shadow_lookup) (cstr " ")
      (cstr "sin") (cstr " x") ⟨cstr "sin", 5000, TE_VARIABLE, 0⟩ (by decide) (by decide)
      (by decide) (by decide) (by decide)).1 (by decide)).trans (by decide!),
    ((C30_user_lookup_first exact_libc (init_state (cstr "pi") shadow_lookup) []
      (cstr "pi") [] ⟨cstr "pi", test_fn.clo0, TE_CLOSURE0, 6000⟩ (by decide) (by decide)
      (by decide) (by decide) (by decide)).2.2 (by decide)).trans (by decide!),
    ((C30_user_lookup_first exact_libc (init_state (cstr "e 2") shadow_lookup) []
      (cstr "e") (cstr " 2") ⟨cstr "e", test_fn.clo1, TE_FUNCTION1, 0⟩ (by decide) (by decide)
      (by decide) (by decide) (by decide)).2.1 (by decide)).trans (by decide!)⟩

/-- C28 as written fails: with an empty lookup table `add(1,2)` compiles, to the
constant 3, and `negate 3` compiles and evaluates to -3. -/
theorem C28_operator_name_compiles :
    compile plain_host [] (cstr "add(1,2)") [] =
      .ok (some ⟨[], [], [.int TE_CONSTANT, .flt (.num 3), .int 0], 24⟩, 0) ∧
    compile_and_eval plain_host [] (cstr "add(1,2)") [] = .ok (.num 3) ∧
    compiles plain_host [] (cstr "negate 3") [] = true ∧
    compile_and_eval plain_host [] (cstr "negate 3") [] = .ok (.num (-3)) := by
  refine ⟨by decide!, by decide!, by decide!, by decide!⟩

/-- C28 (amended): operator-table entries are callable by name. At the name of an entry
of the operators table (after blanks) that the lookup table does not hold, the lexer
gives the function token with the entry's type and address, as for a name of the
functions table; and with an empty lookup table the call of the name on `(1,2)`
compiles. -/
theorem C28_operator_names_resolve (c : Libc) (s : state) (ws rest : List Nat)
    (v : te_variable) (hv : v ∈ operators) (hn : s.next = ws ++ (v.name ++ rest))
    (hws : ∀ b ∈ ws, is_blank b) (hr : is_ident_char (rest.headD 0) = false)
    (hu : s.lookup.find? (fun u => decide (is_name u.name v.name)) = none) :
    next_token c s =
      { s.advance (ws.length + v.name.length) with type := v.type, function := v.address } ∧
    compiles plain_host [] (v.name ++ cstr "(1,2)") [] = true :=
  ⟨next_token_operator c s ws rest v hv hn hws hr hu, operators_compile v hv⟩

/-- C28 (amended) at the text ` negate 3` with an empty lookup table. -/
theorem C28_operator_names_resolve_witness :
    next_token exact_libc (init_state (cstr " negate 3") []) =
      { next := cstr " 3", pos := 7, type := TE_FUNCTION1 ||| TE_FLAG_PURE, value := .nan,
        function := impl.negate, context := 0, lookup := [] } ∧
    compiles plain_host [] (cstr "negate" ++ cstr "(1,2)") [] = true :=
  ⟨(C28_operator_names_resolve exact_libc (init_state (cstr " negate 3") []) (cstr " ")
      (cstr " 3") ⟨cstr "negate", impl.negate, TE_FUNCTION1 ||| TE_FLAG_PURE, 0⟩ (by decide)
      (by decide) (by decide) (by decide) (by decide)).1.trans (by decide!),
    (C28_operator_names_resolve exact_libc (init_state (cstr " negate 3") []) (cstr " ")
      (cstr " 3") ⟨cstr "negate", impl.negate, TE_FUNCTION1 ||| TE_FLAG_PURE, 0⟩ (by decide)
      (by decide) (by decide) (by decide) (by decide)).2⟩

/-! ## C24: the result of `eval_program` -/

/-- The run of `eval_program` goes through the states of `control`. -/
theorem eval_program_loop_control (h : Host) (stmts : List statement) (buf : List Word)
    (ctx : Option (List Nat)) :
    ∀ (n : Nat) (i : Int) (mem : Mem) (trace : List Nat) (r : Int × Mem × List Nat),
      control h stmts buf ctx n i mem trace = some r →
      ∀ fuel, eval_program_loop h stmts buf ctx (n + fuel) i mem trace =
        eval_program_loop h stmts buf ctx fuel r.1 r.2.1 r.2.2 := by
  intro n
  induction n with
  | zero =>
    intro i mem trace r hc fuel
    rw [control] at hc
    cases hc
    rw [Nat.zero_add]
  | succ n ih =>
    intro i mem trace r hc fuel
    rw [control] at hc
    by_cases hi : 0 ≤ i ∧ i < (stmts.length : Int)
    · rw [if_pos hi] at hc
      cases hst : stmts.get? i.toNat with
      | none => rw [hst] at hc; cases hc
      | some st =>
        rw [hst] at hc
        simp only [] at hc
        have e : n + 1 + fuel = (n + fuel) + 1 := by omega
        rw [e, eval_program_loop_succ h stmts buf ctx (n + fuel) i mem trace st hi.1 hst]
        cases hx : exec_statement h buf ctx st i mem with
        | next j mem1 =>
          rw [hx] at hc
          simp only [] at hc ⊢
          exact ih _ _ _ r hc fuel
        | returned v => rw [hx] at hc; cases hc
        | fault => rw [hx] at hc; cases hc
        | timeout => rw [hx] at hc; cases hc
    · rw [if_neg hi] at hc; cases hc

/-- A Return statement ends the run: it never hands control on. -/
theorem exec_return_not_next (h : Host) (buf : List Word) (ctx : Option (List Nat))
    (st : statement) (i : Int) (mem : Mem) (hr : st.type = .return_value) (j : Int) (mem1 : Mem) :
    exec_statement h buf ctx st i mem ≠ .next j mem1 := by
  unfold exec_statement
  rw [hr]
  simp only []
  cases eval_at h mem buf ctx st.arg_a <;> intro hc <;> cases hc

/-- The statements `control` has gone through are in the array and none is a Return. -/
theorem control_no_return (h : Host) (stmts : List statement) (buf : List Word)
    (ctx : Option (List Nat)) :
    ∀ (n : Nat) (i : Int) (mem : Mem) (trace : List Nat) (r : Int × Mem × List Nat),
      control h stmts buf ctx n i mem trace = some r →
      ∃ new, r.2.2 = trace ++ new ∧ new.length = n ∧ ∀ k ∈ new, ¬ is_return stmts k := by
  intro n
  induction n with
  | zero =>
    intro i mem trace r hc
    rw [control] at hc
    cases hc
    exact ⟨[], (List.append_nil _).symm, rfl, fun k hk => absurd hk (List.not_mem_nil k)⟩
  | succ n ih =>
    intro i mem trace r hc
    rw [control] at hc
    by_cases hi : 0 ≤ i ∧ i < (stmts.length : Int)
    · rw [if_pos hi] at hc
      cases hst : stmts.get? i.toNat with
      | none => rw [hst] at hc; cases hc
      | some st =>
        rw [hst] at hc
        simp only [] at hc
        cases hx : exec_statement h buf ctx st i mem with
        | next j mem1 =>
          rw [hx] at hc
          simp only [] at hc
          obtain ⟨new, e, hl, hn⟩ := ih _ _ _ r hc
          refine ⟨i.toNat :: new, by rw [e, List.append_assoc]; rfl, by simp [hl], ?_⟩
          intro k hk
          rcases List.mem_cons.mp hk with hk | hk
          · rw [hk]
            intro hret
            unfold is_return at hret
            rw [hst] at hret
            simp only [Option.map_some', Option.some.injEq] at hret
            exact exec_return_not_next h buf ctx st i mem hret j mem1 hx
          · exact hn k hk
        | returned v => rw [hx] at hc; cases hc
        | fault => rw [hx] at hc; cases hc
        | timeout => rw [hx] at hc; cases hc
    · rw [if_neg hi] at hc; cases hc

theorem eval_program_return (h : Host) (stmts : List statement) (buf : List Word)
    (ctx : Option (List Nat)) (mem : Mem) (n : Nat) (i : Int) (mem2 : Mem) (tr : List Nat)
    (st : statement) (v : Scalar)
    (hc : control h stmts buf ctx n 0 mem [] = some (i, mem2, tr)) (hi : 0 ≤ i)
    (hst : stmts.get? i.toNat = some st) (hr : st.type = .return_value)
    (hv : eval_at h mem2 buf ctx st.arg_a = .ok v) (fuel : Nat) (hf : n < fuel) :
    eval_program h mem fuel stmts buf ctx = .ok ⟨v, mem2, tr ++ [i.toNat]⟩ ∧
      ∀ k ∈ tr, ¬ is_return stmts k := by
  obtain ⟨f, rfl⟩ : ∃ f, fuel = n + (f + 1) := ⟨fuel - n - 1, by omega⟩
  obtain ⟨new, e, _, hn⟩ := control_no_return h stmts buf ctx n 0 mem [] _ hc
  simp only [List.nil_append] at e
  refine ⟨?_, by rw [e]; exact hn⟩
  unfold eval_program
  rw [eval_program_loop_control h stmts buf ctx n 0 mem [] _ hc (f + 1)]
  simp only []
  rw [eval_program_loop_succ h stmts buf ctx f i mem2 tr st hi hst]
  unfold exec_statement
  rw [hr]
  simp only []
  rw [hv]

theorem eval_program_end (h : Host) (stmts : List statement) (buf : List Word)
    (ctx : Option (List Nat)) (mem : Mem) (n : Nat) (i : Int) (mem2 : Mem) (tr : List Nat)
    (hc : control h stmts buf ctx n 0 mem [] = some (i, mem2, tr))
    (hi : (stmts.length : Int) ≤ i) (fuel : Nat) (hf : n < fuel) :
    eval_program h mem fuel stmts buf ctx = .ok ⟨.nan, mem2, tr⟩ ∧
      ∀ k ∈ tr, ¬ is_return stmts k := by
  obtain ⟨f, rfl⟩ : ∃ f, fuel = n + (f + 1) := ⟨fuel - n - 1, by omega⟩
  obtain ⟨new, e, _, hn⟩ := control_no_return h stmts buf ctx n 0 mem [] _ hc
  simp only [List.nil_append] at e
  refine ⟨?_, by rw [e]; exact hn⟩
  unfold eval_program
  rw [eval_program_loop_control h stmts buf ctx n 0 mem [] _ hc (f + 1)]
  exact eval_program_loop_end h stmts buf ctx f i mem2 tr hi

/-- C24: when control, after `n` statements, reaches a Return statement whose expression
has the value `v`, `eval_program` run for more than `n` statements returns `v`; that
statement is the last one executed and none of the statements executed before it is a
Return. When control reaches an index at or past the end of the array, `eval_program`
returns NaN and no statement executed was a Return. For the empty array it returns
NaN at once. -/
theorem C24_eval_program_result :
    (∀ (h : Host) (stmts : List statement) (buf : List Word) (ctx : Option (List Nat))
        (mem : Mem) (n : Nat) (i : Int) (mem2 : Mem) (tr : List Nat) (st : statement)
        (v : Scalar) (fuel : Nat),
      control h stmts buf ctx n 0 mem [] = some (i, mem2, tr) → 0 ≤ i →
      stmts.get? i.toNat = some st → st.type = .return_value →
      eval_at h mem2 buf ctx st.arg_a = .ok v → n < fuel →
        eval_program h mem fuel stmts buf ctx = .ok ⟨v, mem2, tr ++ [i.toNat]⟩ ∧
          ∀ k ∈ tr, ¬ is_return stmts k) ∧
    (∀ (h : Host) (stmts : List statement) (buf : List Word) (ctx : Option (List Nat))
        (mem : Mem) (n : Nat) (i : Int) (mem2 : Mem) (tr : List Nat) (fuel : Nat),
      control h stmts buf ctx n 0 mem [] = some (i, mem2, tr) → (stmts.length : Int) ≤ i →
      n < fuel →
        eval_program h mem fuel stmts buf ctx = .ok ⟨.nan, mem2, tr⟩ ∧
          ∀ k ∈ tr, ¬ is_return stmts k) ∧
    (∀ (h : Host) (buf : List Word) (ctx : Option (List Nat)) (mem : Mem) (fuel : Nat),
      eval_program h mem (fuel + 1) [] buf ctx = .ok ⟨.nan, mem, []⟩) :=
  ⟨fun h stmts buf ctx mem n i mem2 tr st v fuel hc hi hst hr hv hf =>
      eval_program_return h stmts buf ctx mem n i mem2 tr st v hc hi hst hr hv fuel hf,
    fun h stmts buf ctx mem n i mem2 tr fuel hc hi hf =>
      eval_program_end h stmts buf ctx mem n i mem2 tr hc hi fuel hf,
    fun h buf ctx mem fuel =>
      eval_program_loop_end h [] buf ctx fuel 0 mem [] (le_refl _)⟩

/-- C24 on the array `[Jump(2), Return c0, Return c1, Return c2]`, where control reaches
the Return at index 3 after one statement, and on an array with one Call, where
control reaches the end after one statement. -/
theorem C24_eval_program_result_witness :
    control plain_host jump_statements three_constants none 1 0 [] [] = some (3, [], [0]) ∧
    (eval_program plain_host [] 2 jump_statements three_constants none =
        .ok ⟨.num 30, [], [0] ++ [3]⟩ ∧ ∀ k ∈ [0], ¬ is_return jump_statements k) ∧
    control plain_host call_statements three_constants none 1 0 [] [] = some (1, [], [0]) ∧
    (eval_program plain_host [] 2 call_statements three_constants none =
        .ok ⟨.nan, [], [0]⟩ ∧ ∀ k ∈ [0], ¬ is_return call_statements k) :=
  ⟨by decide!,
    C24_eval_program_result.1 plain_host jump_statements three_constants none [] 1 3 [] [0]
      ⟨.return_value, 48, -1⟩ (.num 30) 2 (by decide!) (by decide) (by decide) rfl
      (by decide!) (by decide),
    by decide!,
    C24_eval_program_result.2.1 plain_host call_statements three_constants none [] 1 1 [] [0]
      2 (by decide!) (by decide) (by decide)⟩

/-! ## C21, C22: targets of jumps -/

theorem smap_find_append_some {β : Type} (m : List (List Nat × β)) (x : List Nat × β)
    (k : List Nat) (v : β) (h : smap_find m k = some v) : smap_find (m ++ [x]) k = some v := by
  unfold smap_find at h ⊢
  cases hf : m.find? (fun e => e.1 == k) with
  | none => rw [hf] at h; cases h
  | some e =>
    rw [hf] at h
    rw [List.find?_append, hf]
    exact h

theorem smap_find_append_none {β : Type} (m : List (List Nat × β)) (k2 : List Nat) (v : β)
    (k : List Nat) (h : smap_find m k = none) :
    smap_find (m ++ [(k2, v)]) k = if k2 = k then some v else none := by
  unfold smap_find at h ⊢
  cases hf : m.find? (fun e => e.1 == k) with
  | some e => rw [hf] at h; cases h
  | none =>
    rw [List.find?_append, hf]
    by_cases hk : k2 = k
    · rw [if_pos hk]
      simp [List.find?, hk]
    · rw [if_neg hk]
      have hb : (k2 == k) = false := by simpa using hk
      simp [List.find?, hb]

theorem smap_find_mem {β : Type} (m : List (List Nat × β)) (k : List Nat) (v : β)
    (h : smap_find m k = some v) : (k, v) ∈ m := by
  unfold smap_find at h
  cases hf : m.find? (fun e => e.1 == k) with
  | none => rw [hf] at h; cases h
  | some e =>
    rw [hf] at h
    have hp := List.find?_some hf
    simp only [beq_iff_eq] at hp
    simp only [Option.map_some', Option.some.injEq] at h
    have hm := List.mem_of_find?_eq_some hf
    have : e = (k, v) := by
      rw [← hp, ← h]
    rw [← this]; exact hm

/-- A handle of the map is a position of the index vector. -/
theorem lm_ok.handle_lt {lm : label_manager} {f : List Nat → Int} (hok : lm_ok lm f)
    (L : List Nat) (h : Nat) (hf : smap_find lm.m_label_handle_map L = some h) :
    h < lm.m_label_statement_indexes.length := by
  have hm := smap_find_mem _ _ _ hf
  have : h ∈ lm.m_label_handle_map.map Prod.snd := List.mem_map.mpr ⟨(L, h), hm, rfl⟩
  rw [hok.handles] at this
  exact List.mem_range.mp this

/-- Two names with the same handle are the same name. -/
theorem lm_ok.handle_inj {lm : label_manager} {f : List Nat → Int} (hok : lm_ok lm f)
    (L L2 : List Nat) (h : Nat) (h1 : smap_find lm.m_label_handle_map L = some h)
    (h2 : smap_find lm.m_label_handle_map L2 = some h) : L = L2 := by
  have m1 := smap_find_mem _ _ _ h1
  have m2 := smap_find_mem _ _ _ h2
  have nd : (lm.m_label_handle_map.map Prod.snd).Nodup := by
    rw [hok.handles]; exact List.nodup_range _
  have := List.inj_on_of_nodup_map nd m1 m2 rfl
  exact (Prod.mk.inj this).1

/-- The method `find_label` keeps the agreement, returns the handle of the name, and
keeps the handles the map had. -/
theorem find_label_ok (lm : label_manager) (f : List Nat → Int) (d : string_view)
    (hok : lm_ok lm f) :
    lm_ok (lm.find_label d).2 f ∧
    smap_find (lm.find_label d).2.m_label_handle_map d.bytes = some (lm.find_label d).1 ∧
    ∀ L h, smap_find lm.m_label_handle_map L = some h →
      smap_find (lm.find_label d).2.m_label_handle_map L = some h := by
  unfold label_manager.find_label
  cases hd : smap_find lm.m_label_handle_map d.bytes with
  | some h => exact ⟨hok, hd, fun _ _ hx => hx⟩
  | none =>
    simp only []
    refine ⟨⟨?_, ?_, ?_⟩, ?_, ?_⟩
    · simp only [List.map_append, List.map_cons, List.map_nil, List.length_append,
        List.length_singleton, List.range_succ, hok.handles]
    · intro L h hx
      cases ho : smap_find lm.m_label_handle_map L with
      | some h0 =>
        rw [smap_find_append_some _ _ _ _ ho] at hx
        rw [← Option.some.inj hx]
        have hlt := hok.handle_lt L h0 ho
        show (lm.m_label_statement_indexes ++ [placeholder_index])[h0]? = _
        rw [List.getElem?_append_left hlt]
        exact hok.index L h0 ho
      | none =>
        rw [smap_find_append_none _ _ _ _ ho] at hx
        by_cases hk : d.bytes = L
        · rw [if_pos hk] at hx
          cases hx
          show (lm.m_label_statement_indexes ++ [placeholder_index])[
            lm.m_label_statement_indexes.length]? = _
          rw [List.getElem?_append_right (le_refl _), Nat.sub_self, hok.absent L ho]
          rfl
        · rw [if_neg hk] at hx; cases hx
    · intro L hx
      cases ho : smap_find lm.m_label_handle_map L with
      | some h0 => rw [smap_find_append_some _ _ _ _ ho] at hx; cases hx
      | none => exact hok.absent L ho
    · rw [smap_find_append_none _ _ _ _ hd, if_pos rfl]
    · intro L h hx
      exact smap_find_append_some _ _ _ _ hx

/-- The method `add_label` with a statement index other than the placeholder: the name
gets this index unless it has one, every other name keeps its index, and the map keeps
its handles. -/
theorem add_label_ok (lm : label_manager) (f : List Nat → Int) (lab : string_view) (k : Int)
    (hok : lm_ok lm f) (_hk : k ≠ placeholder_index) :
    lm_ok (lm.add_label lab k)
      (fun L => if L = lab.bytes ∧ f L = placeholder_index then k else f L) ∧
    ∀ L h, smap_find lm.m_label_handle_map L = some h →
      smap_find (lm.add_label lab k).m_label_handle_map L = some h := by
  unfold label_manager.add_label
  cases hd : smap_find lm.m_label_handle_map lab.bytes with
  | some h =>
    simp only []
    have hidx := hok.index lab.bytes h hd
    have hlt := hok.handle_lt lab.bytes h hd
    have hget : lm.m_label_statement_indexes.getD h 0 = f lab.bytes := by
      rw [List.getD_eq_getElem?_getD, hidx]; rfl
    rw [hget]
    by_cases hp : f lab.bytes ≠ placeholder_index
    · rw [if_pos hp]
      refine ⟨⟨hok.handles, ?_, ?_⟩, fun _ _ hx => hx⟩
      · intro L h2 hx
        rw [hok.index L h2 hx]
        by_cases hc : L = lab.bytes ∧ f L = placeholder_index
        · exfalso; rw [hc.1] at hc; exact hp hc.2
        · rw [if_neg hc]
      · intro L hx
        have := hok.absent L hx
        by_cases hc : L = lab.bytes ∧ f L = placeholder_index
        · exfalso; rw [hc.1] at hx; rw [hx] at hd; cases hd
        · rw [if_neg hc]; exact this
    · rw [if_neg hp]
      have hp2 : f lab.bytes = placeholder_index := not_not.mp hp
      refine ⟨⟨?_, ?_, ?_⟩, fun _ _ hx => hx⟩
      · show _ = List.range (lm.m_label_statement_indexes.set h k).length
        rw [List.length_set]; exact hok.handles
      · intro L h2 hx
        show (lm.m_label_statement_indexes.set h k)[h2]? = _
        by_cases hL : L = lab.bytes
        · rw [hL] at hx
          rw [hd] at hx
          cases hx
          rw [List.getElem?_set_self hlt, if_pos ⟨hL, by rw [hL]; exact hp2⟩]
        · have hne : h ≠ h2 := by
            intro he
            rw [← he] at hx
            exact hL (hok.handle_inj L lab.bytes h hx hd)
          rw [List.getElem?_set_ne hne, hok.index L h2 hx, if_neg (fun hc => hL hc.1)]
      · intro L hx
        have hL : L ≠ lab.bytes := by
          intro he; rw [he] at hx; rw [hx] at hd; cases hd
        rw [if_neg (fun hc => hL hc.1)]
        exact hok.absent L hx
  | none =>
    simp only []
    have hp2 : f lab.bytes = placeholder_index := hok.absent _ hd
    refine ⟨⟨?_, ?_, ?_⟩, ?_⟩
    · simp only [List.map_append, List.map_cons, List.map_nil, List.length_append,
        List.length_singleton, List.range_succ, hok.handles]
    · intro L h2 hx
      cases ho : smap_find lm.m_label_handle_map L with
      | some h0 =>
        rw [smap_find_append_some _ _ _ _ ho] at hx
        rw [← Option.some.inj hx]
        have hlt := hok.handle_lt L h0 ho
        have hL : L ≠ lab.bytes := by
          intro he; rw [he] at ho; rw [ho] at hd; cases hd
        show (lm.m_label_statement_indexes ++ [k])[h0]? = _
        rw [List.getElem?_append_left hlt, hok.index L h0 ho, if_neg (fun hc => hL hc.1)]
      | none =>
        rw [smap_find_append_none _ _ _ _ ho] at hx
        by_cases hk2 : lab.bytes = L
        · rw [if_pos hk2] at hx
          cases hx
          show (lm.m_label_statement_indexes ++ [k])[lm.m_label_statement_indexes.length]? = _
          rw [List.getElem?_append_right (le_refl _), Nat.sub_self,
            if_pos ⟨hk2.symm, by rw [← hk2]; exact hp2⟩]
          rfl
        · rw [if_neg hk2] at hx; cases hx
    · intro L hx
      cases ho : smap_find lm.m_label_handle_map L with
      | some h0 => rw [smap_find_append_some _ _ _ _ ho] at hx; cases hx
      | none =>
        rw [smap_find_append_none _ _ _ _ ho] at hx
        by_cases hk2 : lab.bytes = L
        · rw [if_pos hk2] at hx; cases hx
        · rw [if_neg (fun hc => hk2 hc.1.symm)]
          exact hok.absent L ho
    · intro L h hx
      exact smap_find_append_some _ _ _ _ hx

theorem emitted_append (items : List parsed_statement) (it : parsed_statement) :
    emitted (items ++ [it]) = emitted items + (if it.emits then 1 else 0) := by
  unfold emitted
  rw [List.filter_append, List.length_append]
  cases hit : it.emits <;> simp [List.filter, hit]

theorem emitted_cons (items : List parsed_statement) (it : parsed_statement) :
    emitted (it :: items) = emitted items + (if it.emits then 1 else 0) := by
  unfold emitted
  cases hit : it.emits <;> simp [List.filter, hit]

theorem first_definition_append (L : List Nat) (it : parsed_statement) :
    ∀ items : List parsed_statement, first_definition L (items ++ [it]) =
      match first_definition L items with
      | some k => some k
      | none => if it.defines L then some (emitted items) else none := by
  intro items
  induction items with
  | nil =>
    show first_definition L [it] = _
    rw [first_definition, first_definition, first_definition]
    by_cases hd : it.defines L = true
    · rw [if_pos hd]; simp only []; rw [if_pos hd]; rfl
    · rw [if_neg hd]; simp only []; rw [if_neg hd]; rfl
  | cons x xs ih =>
    show first_definition L (x :: (xs ++ [it])) = _
    rw [first_definition, first_definition]
    by_cases hx : x.defines L = true
    · rw [if_pos hx, if_pos hx]
    · rw [if_neg hx, if_neg hx, ih]
      cases hf : first_definition L xs with
      | some k => rfl
      | none =>
        simp only [Option.map_none']
        by_cases hd : it.defines L = true
        · rw [if_pos hd, if_pos hd, emitted_cons]; rfl
        · rw [if_neg hd, if_neg hd]; rfl

theorem label_index_append (L : List Nat) (items : List parsed_statement)
    (it : parsed_statement) :
    label_index L (items ++ [it]) =
      if it.defines L = true ∧ label_index L items = placeholder_index then (emitted items : Int)
      else label_index L items := by
  unfold label_index
  rw [first_definition_append]
  cases hf : first_definition L items with
  | some k =>
    simp only []
    rw [if_neg]
    intro hc
    have := hc.2
    unfold placeholder_index at this
    omega
  | none =>
    simp only []
    by_cases hd : it.defines L = true
    · rw [if_pos hd, if_pos ⟨hd, trivial⟩]
    · rw [if_neg hd, if_neg (fun hc => hd hc.1)]

theorem handle_of_mono (lm lm2 : label_manager) (it : parsed_statement) (st : any_statement)
    (hm : ∀ L h, smap_find lm.m_label_handle_map L = some h →
      smap_find lm2.m_label_handle_map L = some h)
    (h : handle_of lm it st) : handle_of lm2 it st := by
  cases it <;> cases st <;> simp only [handle_of] at h ⊢
  all_goals
    obtain ⟨k, h1, h2⟩ := h
    exact ⟨k, hm _ _ h1, h2⟩

theorem forall2_mono {α β : Type} {R S : α → β → Prop} (hrs : ∀ a b, R a b → S a b)
    {l1 : List α} {l2 : List β} (h : List.Forall₂ R l1 l2) : List.Forall₂ S l1 l2 := by
  induction h with
  | nil => exact List.Forall₂.nil
  | cons hab _ ih => exact List.Forall₂.cons (hrs _ _ hab) ih

theorem forall2_snoc {α β : Type} {R : α → β → Prop} {l1 : List α} {l2 : List β} {a : α} {b : β}
    (h : List.Forall₂ R l1 l2) (hab : R a b) : List.Forall₂ R (l1 ++ [a]) (l2 ++ [b]) := by
  induction h with
  | nil => exact List.Forall₂.cons hab List.Forall₂.nil
  | cons hxy _ ih => exact List.Forall₂.cons hxy ih

theorem forall2_get {α β : Type} {R : α → β → Prop} {l1 : List α} {l2 : List β}
    (h : List.Forall₂ R l1 l2) : ∀ (j : Nat) (a : α), l1[j]? = some a →
      ∃ b, l2[j]? = some b ∧ R a b := by
  induction h with
  | nil => intro j a hj; simp at hj
  | cons hab _ ih =>
    intro j a hj
    cases j with
    | zero =>
      simp only [List.getElem?_cons_zero, Option.some.injEq] at hj
      rw [← hj]
      exact ⟨_, List.getElem?_cons_zero, hab⟩
    | succ j =>
      simp only [List.getElem?_cons_succ] at hj ⊢
      exact ih j a hj

theorem filter_emits_append (items : List parsed_statement) (it : parsed_statement) :
    (items ++ [it]).filter (fun x => x.emits) =
      items.filter (fun x => x.emits) ++ (if it.emits then [it] else []) := by
  rw [List.filter_append]
  cases hit : it.emits <;> simp [List.filter, hit]

theorem parsed_ok_empty : parsed_ok [] parse_state.empty :=
  ⟨⟨rfl, fun L h hx => (by cases hx), fun L _ => rfl⟩, rfl, List.Forall₂.nil⟩

/-- One round of the first loop of `compile` keeps the state in step with the parsed
statements. -/
theorem parsed_ok_add (items : List parsed_statement) (ps : parse_state)
    (it : parsed_statement) (hok : parsed_ok items ps) :
    parsed_ok (items ++ [it]) (ps.add it) := by
  have hcount := hok.count
  cases it with
  | add_label lab =>
    have hk : ((ps.program_statements.length : Nat) : Int) ≠ placeholder_index := by
      unfold placeholder_index; omega
    obtain ⟨a1, a2⟩ := add_label_ok ps.lm _ lab _ hok.labels hk
    have hf : (fun L => label_index L (items ++ [parsed_statement.add_label lab])) =
        fun L => if L = lab.bytes ∧ label_index L items = placeholder_index
          then ((ps.program_statements.length : Nat) : Int) else label_index L items := by
      funext L
      rw [label_index_append, hcount]
      by_cases hL : L = lab.bytes
      · have hd : (parsed_statement.add_label lab).defines L = true := by
          show (lab.bytes == L) = true
          rw [hL]; exact beq_self_eq_true _
        by_cases hp : label_index L items = placeholder_index
        · rw [if_pos ⟨hd, hp⟩, if_pos ⟨hL, hp⟩]
        · rw [if_neg (fun hc => hp hc.2), if_neg (fun hc => hp hc.2)]
      · have hd : ¬ (parsed_statement.add_label lab).defines L = true := by
          show ¬ (lab.bytes == L) = true
          intro hc
          exact hL (beq_iff_eq.mp hc).symm
        rw [if_neg (fun hc => hd hc.1), if_neg (fun hc => hL hc.1)]
    refine ⟨?_, ?_, ?_⟩
    · show lm_ok (ps.lm.add_label lab ps.program_statements.length) _
      rw [hf]; exact a1
    · show ps.program_statements.length = _
      rw [emitted_append, hcount]; rfl
    · show List.Forall₂ (handle_of (ps.lm.add_label lab ps.program_statements.length)) _
        ps.program_statements
      rw [filter_emits_append]
      show List.Forall₂ _ (_ ++ []) _
      rw [List.append_nil]
      exact forall2_mono (fun a b hab => handle_of_mono _ _ a b a2 hab) hok.stmts
  | add_jump d =>
    obtain ⟨a1, a2, a3⟩ := find_label_ok ps.lm _ d hok.labels
    have hf : (fun L => label_index L (items ++ [parsed_statement.add_jump d])) =
        fun L => label_index L items := by
      funext L
      rw [label_index_append, if_neg (fun hc => by cases hc.1)]
    refine ⟨?_, ?_, ?_⟩
    · show lm_ok (ps.lm.find_label d).2 _
      rw [hf]; exact a1
    · show (ps.program_statements ++ [_]).length = _
      rw [emitted_append, List.length_append, hcount]; rfl
    · show List.Forall₂ (handle_of (ps.lm.find_label d).2) _ (ps.program_statements ++ [_])
      rw [filter_emits_append]
      exact forall2_snoc (forall2_mono (fun a b hab => handle_of_mono _ _ a b a3 hab) hok.stmts)
        ⟨_, a2, rfl⟩
  | add_jump_if d cond =>
    obtain ⟨a1, a2, a3⟩ := find_label_ok ps.lm _ d hok.labels
    have hf : (fun L => label_index L (items ++ [parsed_statement.add_jump_if d cond])) =
        fun L => label_index L items := by
      funext L
      rw [label_index_append, if_neg (fun hc => by cases hc.1)]
    refine ⟨?_, ?_, ?_⟩
    · show lm_ok (ps.lm.find_label d).2 _
      rw [hf]; exact a1
    · show (ps.program_statements ++ [_]).length = _
      rw [emitted_append, List.length_append, hcount]; rfl
    · show List.Forall₂ (handle_of (ps.lm.find_label d).2) _ (ps.program_statements ++ [_])
      rw [filter_emits_append]
      exact forall2_snoc (forall2_mono (fun a b hab => handle_of_mono _ _ a b a3 hab) hok.stmts)
        ⟨_, a2, rfl⟩
  | add_return_value e =>
    have hf : (fun L => label_index L (items ++ [parsed_statement.add_return_value e])) =
        fun L => label_index L items := by
      funext L
      rw [label_index_append, if_neg (fun hc => by cases hc.1)]
    refine ⟨?_, ?_, ?_⟩
    · show lm_ok ps.lm _
      rw [hf]; exact hok.labels
    · show (ps.program_statements ++ [_]).length = _
      rw [emitted_append, List.length_append, hcount]; rfl
    · show List.Forall₂ (handle_of ps.lm) _ (ps.program_statements ++ [_])
      rw [filter_emits_append]
      exact forall2_snoc hok.stmts trivial
  | add_assign dst e =>
    have hf : (fun L => label_index L (items ++ [parsed_statement.add_assign dst e])) =
        fun L => label_index L items := by
      funext L
      rw [label_index_append, if_neg (fun hc => by cases hc.1)]
    refine ⟨?_, ?_, ?_⟩
    · show lm_ok ps.lm _
      rw [hf]; exact hok.labels
    · show (ps.program_statements ++ [_]).length = _
      rw [emitted_append, List.length_append, hcount]; rfl
    · show List.Forall₂ (handle_of ps.lm) _ (ps.program_statements ++ [_])
      rw [filter_emits_append]
      exact forall2_snoc hok.stmts trivial
  | add_call e =>
    have hf : (fun L => label_index L (items ++ [parsed_statement.add_call e])) =
        fun L => label_index L items := by
      funext L
      rw [label_index_append, if_neg (fun hc => by cases hc.1)]
    refine ⟨?_, ?_, ?_⟩
    · show lm_ok ps.lm _
      rw [hf]; exact hok.labels
    · show (ps.program_statements ++ [_]).length = _
      rw [emitted_append, List.length_append, hcount]; rfl
    · show List.Forall₂ (handle_of ps.lm) _ (ps.program_statements ++ [_])
      rw [filter_emits_append]
      exact forall2_snoc hok.stmts trivial

theorem parsed_ok_foldl : ∀ (rest items : List parsed_statement) (ps : parse_state),
    parsed_ok items ps → parsed_ok (items ++ rest) (rest.foldl parse_state.add ps) := by
  intro rest
  induction rest with
  | nil => intro items ps h; rw [List.append_nil]; exact h
  | cons it rest ih =>
    intro items ps h
    have := ih (items ++ [it]) (ps.add it) (parsed_ok_add items ps it h)
    rw [List.append_assoc] at this
    exact this

/-- The first loop of `compile` folds the callbacks over the parsed statements. -/
theorem parse_program_loop_items : ∀ (fuel : Nat) (rem : string_view) (ps : parse_state),
    parse_program_loop fuel rem ps =
      (statement_texts fuel rem).map
        (fun l => (l.map parse_statement).foldl parse_state.add ps) := by
  intro fuel
  induction fuel with
  | zero => intro rem ps; rw [parse_program_loop, statement_texts]; rfl
  | succ n ih =>
    intro rem ps
    rw [parse_program_loop, statement_texts]
    by_cases hl : rem.length > 0
    · rw [if_pos hl, if_pos hl]
      simp only []
      rw [ih]
      cases statement_texts n (split_at_char_excl rem ';'.toNat).2 <;> rfl
    · rw [if_neg hl, if_neg hl]; rfl

/-- The state after the first loop of `compile` is in step with the parsed statements of
the text. -/
theorem parse_program_ok (text : List Nat) (ps : parse_state) (items : List parsed_statement)
    (hp : parse_program text = some ps) (hi : program_items text = some items) :
    parsed_ok items ps := by
  unfold parse_program at hp
  unfold program_items at hi
  simp only [] at hp hi
  rw [parse_program_loop_items] at hp
  cases ht : statement_texts ((text.takeWhile (fun b => b != 0)).length + 1)
      (trim_all_space ⟨text.takeWhile (fun b => b != 0),
        (text.takeWhile (fun b => b != 0)).length⟩) with
  | none => rw [ht] at hp; cases hp
  | some l =>
    rw [ht] at hp hi
    simp only [Option.map_some', Option.some.injEq] at hp hi
    rw [← hp, ← hi]
    have := parsed_ok_foldl (l.map parse_statement) [] parse_state.empty parsed_ok_empty
    rw [List.nil_append] at this
    exact this

/-- A text that `parse_program` parses has parsed statements. -/
theorem program_items_of_parse (text : List Nat) (ps : parse_state)
    (hp : parse_program text = some ps) : ∃ items, program_items text = some items := by
  unfold parse_program at hp
  unfold program_items
  simp only [] at hp ⊢
  rw [parse_program_loop_items] at hp
  cases ht : statement_texts ((text.takeWhile (fun b => b != 0)).length + 1)
      (trim_all_space ⟨text.takeWhile (fun b => b != 0),
        (text.takeWhile (fun b => b != 0)).length⟩) with
  | none => rw [ht] at hp; cases hp
  | some l => exact ⟨_, rfl⟩

theorem compile_expressions_nil (h : Host) (mem : Mem) (vars : List te_variable)
    (expr_idx : Nat) (bs : build_state) :
    compile_expressions h mem vars [] expr_idx bs = .ok bs := rfl

theorem compile_expressions_cons (h : Host) (mem : Mem) (vars : List te_variable)
    (e : string_view) (es : List string_view) (expr_idx : Nat) (bs : build_state) :
    compile_expressions h mem vars (e :: es) expr_idx bs =
      match compile_using_indexer h mem bs.ix e.data vars with
      | .timeout => .timeout
      | .fault => .fault
      | .ok (none, _, ix1) => .ok { bs with ix := ix1, error := -1 }
      | .ok (some compiled, error, ix1) =>
        compile_expressions h mem vars es (expr_idx + 1)
          { program_statements :=
              fixup_offsets expr_idx bs.program_expression_buffer_size bs.program_statements
            ix := ix1
            program_expression_buffer := bs.program_expression_buffer ++ compiled.build_buffer
            program_expression_buffer_size :=
              bs.program_expression_buffer_size + compiled.build_buffer_size
            error := error } := rfl

theorem fixup_offsets_emit (expr_idx offset : Int) (stmts : List any_statement) :
    (fixup_offsets expr_idx offset stmts).map
        (fun s => ((emit_statement s).type, jump_target (emit_statement s))) =
      stmts.map (fun s => ((emit_statement s).type, jump_target (emit_statement s))) := by
  unfold fixup_offsets
  rw [List.map_map]
  apply List.map_congr_left
  intro s _
  cases s <;> rfl

/-- The loop that compiles the expressions keeps the type and the jump target of every
statement. -/
theorem compile_expressions_emit (h : Host) (mem : Mem) (vars : List te_variable) :
    ∀ (es : List string_view) (expr_idx : Nat) (bs bs2 : build_state),
      compile_expressions h mem vars es expr_idx bs = .ok bs2 →
      bs2.program_statements.map
          (fun s => ((emit_statement s).type, jump_target (emit_statement s))) =
        bs.program_statements.map
          (fun s => ((emit_statement s).type, jump_target (emit_statement s))) := by
  intro es
  induction es with
  | nil =>
    intro expr_idx bs bs2 hc
    rw [compile_expressions_nil] at hc
    rw [← Outcome.ok.inj hc]
  | cons e es ih =>
    intro expr_idx bs bs2 hc
    rw [compile_expressions_cons] at hc
    cases hx : compile_using_indexer h mem bs.ix e.data vars with
    | timeout => rw [hx] at hc; cases hc
    | fault => rw [hx] at hc; cases hc
    | ok r =>
      rw [hx] at hc
      obtain ⟨c, error, ix1⟩ := r
      cases c with
      | none =>
        simp only [] at hc
        rw [← Outcome.ok.inj hc]
      | some c =>
        simp only [] at hc
        rw [ih _ _ _ hc]
        exact fixup_offsets_emit _ _ _

/-- What a handle returned by `compile_program` was built from. -/
theorem compile_program_ok (h : Host) (mem : Mem)
    (iter : List (List Nat × Nat) → List (List Nat × Nat)) (text : List Nat)
    (vars : List te_variable) (error : Int) (p : compiled_program) (error2 : Int)
    (hc : compile_program h mem iter text vars error = .ok (some p, error2)) :
    ∃ ps ix bs, parse_program text = some ps ∧
      add_referenced vars (iter ps.vm.m_variable_map) indexer.empty = some ix ∧
      compile_expressions h mem vars ps.m_expressions 0
        ⟨fixup_jumps ps.lm ps.program_statements, ix, [], 0, error⟩ = .ok bs ∧
      p = { program_statements := bs.program_statements.map emit_statement
            binding_table := bs.ix.get_binding_table
            address_table := bs.ix.get_address_table
            program_expression_buffer := bs.program_expression_buffer
            program_expression_buffer_size := bs.program_expression_buffer_size } ∧
      error2 = bs.error := by
  unfold compile_program at hc
  cases hp : parse_program text with
  | none => rw [hp] at hc; cases hc
  | some ps =>
    rw [hp] at hc
    simp only [] at hc
    unfold compile_parsed at hc
    cases ha : add_referenced vars (iter ps.vm.m_variable_map) indexer.empty with
    | none => rw [ha] at hc; cases hc
    | some ix =>
      rw [ha] at hc
      simp only [] at hc
      cases hb : compile_expressions h mem vars ps.m_expressions 0
          ⟨fixup_jumps ps.lm ps.program_statements, ix, [], 0, error⟩ with
      | timeout => rw [hb] at hc; cases hc
      | fault => rw [hb] at hc; cases hc
      | ok bs =>
        rw [hb] at hc
        simp only [Outcome.ok.injEq, Prod.mk.injEq, Option.some.injEq] at hc
        exact ⟨ps, ix, bs, rfl, ha, hb, hc.1.symm, hc.2.symm⟩

theorem forall2_map_eq {α β γ : Type} {R : α → β → Prop} {f : α → γ} {g : β → γ}
    (hfg : ∀ a b, R a b → f a = g b) {l1 : List α} {l2 : List β} (h : List.Forall₂ R l1 l2) :
    l1.map f = l2.map g := by
  induction h with
  | nil => rfl
  | cons hab _ ih => rw [List.map_cons, List.map_cons, hfg _ _ hab, ih]

theorem handle_of_kind (lm : label_manager) (it : parsed_statement) (st : any_statement)
    (h : handle_of lm it st) : it.kind = (emit_statement st).type := by
  cases it <;> cases st <;> simp only [handle_of] at h <;> rfl

theorem fixup_jumps_kind (lm : label_manager) (stmts : List any_statement) :
    (fixup_jumps lm stmts).map (fun s => (emit_statement s).type) =
      stmts.map (fun s => (emit_statement s).type) := by
  unfold fixup_jumps
  rw [List.map_map]
  apply List.map_congr_left
  intro s _
  cases s <;> rfl

/-- The jump target the fix-up loop stores for the statement of a jump item. -/
theorem fixup_jumps_target (items : List parsed_statement) (ps : parse_state)
    (hok : parsed_ok items ps) (j : Nat) (it : parsed_statement) (L : List Nat)
    (hj : (items.filter (fun x => x.emits))[j]? = some it) (hjump : it.jumps_to L = true) :
    ((fixup_jumps ps.lm ps.program_statements).map
      (fun s => jump_target (emit_statement s)))[j]? = some (some (label_index L items)) := by
  obtain ⟨st, hst, hh⟩ := forall2_get hok.stmts j it hj
  unfold fixup_jumps
  rw [List.map_map, List.getElem?_map, hst]
  simp only [Option.map_some', Function.comp_apply, Option.some.injEq]
  cases it with
  | add_jump d =>
    cases st <;> simp only [handle_of] at hh
    obtain ⟨k, h1, h2⟩ := hh
    have hd : d.bytes = L := beq_iff_eq.mp hjump
    rw [hd] at h1
    have hidx := hok.labels.index L k h1
    simp only []
    show jump_target ⟨.jump, ps.lm.get_label_statement_index _, -1⟩ = _
    unfold jump_target label_manager.get_label_statement_index
    rw [h2, Int.toNat_natCast, List.getD_eq_getElem?_getD, hidx]
    rfl
  | add_jump_if d c =>
    cases st <;> simp only [handle_of] at hh
    obtain ⟨k, h1, h2⟩ := hh
    have hd : d.bytes = L := beq_iff_eq.mp hjump
    rw [hd] at h1
    have hidx := hok.labels.index L k h1
    simp only []
    show jump_target ⟨.jump_if, ps.lm.get_label_statement_index _, _⟩ = _
    unfold jump_target label_manager.get_label_statement_index
    rw [h2, Int.toNat_natCast, List.getD_eq_getElem?_getD, hidx]
    rfl
  | add_label _ => cases hjump
  | add_return_value _ => cases hjump
  | add_assign _ _ => cases hjump
  | add_call _ => cases hjump

theorem first_definition_le (L : List Nat) : ∀ (items : List parsed_statement) (k : Nat),
    first_definition L items = some k → k ≤ emitted items := by
  intro items
  induction items with
  | nil => intro k h; rw [first_definition] at h; cases h
  | cons x xs ih =>
    intro k h
    rw [first_definition] at h
    rw [emitted_cons]
    by_cases hx : x.defines L = true
    · rw [if_pos hx] at h; cases h; omega
    · rw [if_neg hx] at h
      cases hf : first_definition L xs with
      | none => rw [hf] at h; cases h
      | some k0 =>
        rw [hf] at h
        simp only [Option.map_some', Option.some.injEq] at h
        have := ih k0 hf
        omega

theorem first_definition_some (L : List Nat) : ∀ (items : List parsed_statement),
    (∃ x ∈ items, x.defines L = true) → ∃ k, first_definition L items = some k := by
  intro items
  induction items with
  | nil => intro ⟨x, hx, _⟩; exact absurd hx (List.not_mem_nil x)
  | cons y ys ih =>
    intro ⟨x, hx, hd⟩
    rw [first_definition]
    by_cases hy : y.defines L = true
    · rw [if_pos hy]; exact ⟨0, rfl⟩
    · rw [if_neg hy]
      rcases List.mem_cons.mp hx with e | e
      · rw [e] at hd; exact absurd hd hy
      · obtain ⟨k, hk⟩ := ih ⟨x, e, hd⟩
        rw [hk]; exact ⟨_, rfl⟩

theorem first_definition_at (L : List Nat) (x : parsed_statement) (post : List parsed_statement)
    (hx : x.defines L = true) : ∀ pre : List parsed_statement,
    (∀ it ∈ pre, it.defines L = false) →
      first_definition L (pre ++ x :: post) = some (emitted pre) := by
  intro pre
  induction pre with
  | nil => intro _; show first_definition L (x :: post) = _; rw [first_definition, if_pos hx]; rfl
  | cons y ys ih =>
    intro h
    show first_definition L (y :: (ys ++ x :: post)) = _
    have hy := h y (List.mem_cons_self _ _)
    rw [first_definition, if_neg (by rw [hy]; exact Bool.false_ne_true),
      ih (fun it hit => h it (List.mem_cons_of_mem _ hit)), emitted_cons]
    rfl

/-- The statements of a compiled program: one for each parsed statement other than a
label definition, of its kind, and each jump or conditional jump with the statement
index of the label it names as target. -/
theorem compile_program_jumps (h : Host) (mem : Mem)
    (iter : List (List Nat × Nat) → List (List Nat × Nat)) (text : List Nat)
    (vars : List te_variable) (error : Int) (p : compiled_program) (error2 : Int)
    (items : List parsed_statement)
    (hc : compile_program h mem iter text vars error = .ok (some p, error2))
    (hi : program_items text = some items) :
    p.program_statements.map (fun st => st.type) =
        (items.filter (fun x => x.emits)).map (fun x => x.kind) ∧
    p.program_statements.length = emitted items ∧
    ∀ (j : Nat) (it : parsed_statement) (L : List Nat),
      (items.filter (fun x => x.emits))[j]? = some it → it.jumps_to L = true →
      ∃ st, p.program_statements[j]? = some st ∧ (st.type = .jump ∨ st.type = .jump_if) ∧
        st.arg_a = label_index L items := by
  obtain ⟨ps, ix, bs, hp, _, hb, he, _⟩ := compile_program_ok h mem iter text vars error p error2 hc
  have hok := parse_program_ok text ps items hp hi
  have hemit := compile_expressions_emit h mem vars _ _ _ _ hb
  simp only [] at hemit
  have hty : p.program_statements.map (fun st => st.type) =
      (items.filter (fun x => x.emits)).map (fun x => x.kind) := by
    rw [he]
    simp only [List.map_map]
    have h1 := congrArg (List.map Prod.fst) hemit
    simp only [List.map_map] at h1
    have h2 := fixup_jumps_kind ps.lm ps.program_statements
    have h3 := forall2_map_eq (fun a b hab => handle_of_kind ps.lm a b hab) hok.stmts
    exact (h1.trans h2).trans h3.symm
  have htg : p.program_statements.map jump_target =
      (fixup_jumps ps.lm ps.program_statements).map (fun s => jump_target (emit_statement s)) := by
    rw [he]
    simp only [List.map_map]
    have h1 := congrArg (List.map Prod.snd) hemit
    simp only [List.map_map] at h1
    exact h1
  refine ⟨hty, ?_, ?_⟩
  · have := congrArg List.length hty
    simp only [List.length_map] at this
    rw [this]; rfl
  · intro j it L hj hjump
    have ht := fixup_jumps_target items ps hok j it L hj hjump
    rw [← htg, List.getElem?_map] at ht
    cases hst : p.program_statements[j]? with
    | none => rw [hst] at ht; cases ht
    | some st =>
      rw [hst] at ht
      simp only [Option.map_some', Option.some.injEq] at ht
      refine ⟨st, rfl, ?_⟩
      unfold jump_target at ht
      by_cases hk : st.type = .jump ∨ st.type = .jump_if
      · rw [if_pos hk] at ht
        exact ⟨hk, Option.some.inj ht⟩
      · rw [if_neg hk] at ht; cases ht

theorem jump_to_first_definition (h : Host) (mem : Mem)
    (iter : List (List Nat × Nat) → List (List Nat × Nat)) (text : List Nat)
    (vars : List te_variable) (error : Int) (p : compiled_program) (error2 : Int)
    (items pre post : List parsed_statement) (lab : string_view) (j : Nat)
    (it : parsed_statement)
    (hc : compile_program h mem iter text vars error = .ok (some p, error2))
    (hi : program_items text = some items)
    (hs : items = pre ++ parsed_statement.add_label lab :: post)
    (hpre : ∀ x ∈ pre, x.defines lab.bytes = false)
    (hj : (items.filter (fun x => x.emits))[j]? = some it)
    (hjump : it.jumps_to lab.bytes = true) :
    ∃ st, p.program_statements[j]? = some st ∧ (st.type = .jump ∨ st.type = .jump_if) ∧
      st.arg_a = (emitted pre : Int) := by
  obtain ⟨st, h1, h2, h3⟩ :=
    (compile_program_jumps h mem iter text vars error p error2 items hc hi).2.2 j it lab.bytes
      hj hjump
  refine ⟨st, h1, h2, ?_⟩
  rw [h3]
  unfold label_index
  rw [hs, first_definition_at lab.bytes (.add_label lab) post
    (show (lab.bytes == lab.bytes) = true from beq_self_eq_true _) pre hpre]

theorem jump_to_defined_label (h : Host) (mem : Mem)
    (iter : List (List Nat × Nat) → List (List Nat × Nat)) (text : List Nat)
    (vars : List te_variable) (error : Int) (p : compiled_program) (error2 : Int)
    (items : List parsed_statement)
    (hc : compile_program h mem iter text vars error = .ok (some p, error2))
    (hi : program_items text = some items) :
    p.program_statements.map (fun st => st.type) =
        (items.filter (fun x => x.emits)).map (fun x => x.kind) ∧
    ∀ (j : Nat) (it : parsed_statement) (L : List Nat),
      (items.filter (fun x => x.emits))[j]? = some it → it.jumps_to L = true →
      (∃ x ∈ items, x.defines L = true) →
      ∃ (st : statement) (t : Nat), p.program_statements[j]? = some st ∧
        (st.type = .jump ∨ st.type = .jump_if) ∧ st.arg_a = (t : Int) ∧
        first_definition L items = some t ∧ t ≤ p.program_statements.length := by
  obtain ⟨a1, a2, a3⟩ := compile_program_jumps h mem iter text vars error p error2 items hc hi
  refine ⟨a1, ?_⟩
  intro j it L hj hjump hdef
  obtain ⟨st, h1, h2, h3⟩ := a3 j it L hj hjump
  obtain ⟨t, ht⟩ := first_definition_some L items hdef
  refine ⟨st, t, h1, h2, ?_, ht, ?_⟩
  · rw [h3]; unfold label_index; rw [ht]
  · rw [a2]; exact first_definition_le L items t ht

/-- C21: when the label `L` is defined, for the first time (so also when it is defined
exactly once), at a point where `k` statements have been emitted, every Jump and JumpIf
that names `L` has the target index `k` in the statement array of the compiled
program, whether it stands before the definition or after it. -/
theorem C21_jump_target_is_label_index (h : Host) (mem : Mem)
    (iter : List (List Nat × Nat) → List (List Nat × Nat)) (text : List Nat)
    (vars : List te_variable) (error : Int) (p : compiled_program) (error2 : Int)
    (items pre post : List parsed_statement) (lab : string_view) (j : Nat)
    (it : parsed_statement)
    (hc : compile_program h mem iter text vars error = .ok (some p, error2))
    (hi : program_items text = some items)
    (hs : items = pre ++ parsed_statement.add_label lab :: post)
    (hpre : ∀ x ∈ pre, x.defines lab.bytes = false)
    (hj : (items.filter (fun x => x.emits))[j]? = some it)
    (hjump : it.jumps_to lab.bytes = true) :
    ∃ st, p.program_statements[j]? = some st ∧ (st.type = .jump ∨ st.type = .jump_if) ∧
      st.arg_a = (emitted pre : Int) :=
  jump_to_first_definition h mem iter text vars error p error2 items pre post lab j it hc hi hs
    hpre hj hjump

/-- C21 at a jump that stands before the definition of its label (`forward_text`,
target 2) and at a conditional jump that stands after it (`backward_text`, target 0). -/
theorem C21_jump_target_is_label_index_witness :
    (compile_program plain_host [] id forward_text loop_vars 0 = .ok (some forward_compiled, 0) ∧
      program_items forward_text = some forward_items ∧
      emitted (forward_items.take 2) = 2 ∧
      ∃ st, forward_compiled.program_statements[0]? = some st ∧
        (st.type = .jump ∨ st.type = .jump_if) ∧
        st.arg_a = (emitted (forward_items.take 2) : Int)) ∧
    (compile_program plain_host [] id backward_text loop_vars 0 =
        .ok (some backward_compiled, 0) ∧
      program_items backward_text = some backward_items ∧
      ∃ st, backward_compiled.program_statements[1]? = some st ∧
        (st.type = .jump ∨ st.type = .jump_if) ∧ st.arg_a = (emitted [] : Int)) :=
  ⟨⟨by decide!, by decide, by decide,
      C21_jump_target_is_label_index plain_host [] id forward_text loop_vars 0 forward_compiled 0
        forward_items (forward_items.take 2) (forward_items.drop 3) ⟨cstr "e; return: x;", 1⟩ 0
        (.add_jump ⟨cstr "e; x: 1; label: e; return: x;", 1⟩)
        (by decide!) (by decide) (by decide) (by decide) (by decide) (by decide)⟩,
    ⟨by decide!, by decide,
      C21_jump_target_is_label_index plain_host [] id backward_text loop_vars 0
        backward_compiled 0 backward_items [] (backward_items.drop 1)
        ⟨cstr "a; x: 1; jump: a ? x; return: x", 1⟩ 1
        (.add_jump_if ⟨cstr "a ? x; return: x", 1⟩ ⟨cstr "x; return: x", 1⟩)
        (by decide!) (by decide) (by decide) (by decide) (by decide) (by decide)⟩⟩

/-- C22 as written fails for a label defined after the last statement: the program
`jump: e; label: e;` compiles into the one statement `Jump` with the target 1, which
is the number of statements and no index of the array. (A jump to a label without
definition keeps the placeholder: `jump: e;` compiles with the target -1.) -/
theorem C22_label_at_end_target :
    compile_program plain_host [] id end_label_text [] 0 = .ok (some end_label_compiled, 0) ∧
    end_label_compiled.program_statements = [⟨.jump, 1, -1⟩] ∧
    end_label_compiled.program_statements.length = 1 ∧
    compile_program plain_host [] id (cstr "jump: e;") [] 0 =
      .ok (some ⟨[⟨.jump, -1, -1⟩], [], [], [], 0⟩, 0) := by
  refine ⟨by decide!, by decide, by decide, by decide!⟩

/-- C22 (amended): in a program that `compile_program` compiles, the statements are those
of the parsed statements other than label definitions, kind for kind, and every Jump
and JumpIf whose label has a definition has as target `t` the number of statements
emitted before the first definition of the label, with `0 ≤ t ≤ n` for the number `n`
of statements (`t = n` for a label defined after the last statement). -/
theorem C22_defined_label_target_range (h : Host) (mem : Mem)
    (iter : List (List Nat × Nat) → List (List Nat × Nat)) (text : List Nat)
    (vars : List te_variable) (error : Int) (p : compiled_program) (error2 : Int)
    (items : List parsed_statement)
    (hc : compile_program h mem iter text vars error = .ok (some p, error2))
    (hi : program_items text = some items) :
    p.program_statements.map (fun st => st.type) =
        (items.filter (fun x => x.emits)).map (fun x => x.kind) ∧
    ∀ (j : Nat) (it : parsed_statement) (L : List Nat),
      (items.filter (fun x => x.emits))[j]? = some it → it.jumps_to L = true →
      (∃ x ∈ items, x.defines L = true) →
      ∃ (st : statement) (t : Nat), p.program_statements[j]? = some st ∧
        (st.type = .jump ∨ st.type = .jump_if) ∧ st.arg_a = (t : Int) ∧
        first_definition L items = some t ∧ t ≤ p.program_statements.length :=
  jump_to_defined_label h mem iter text vars error p error2 items hc hi

/-- C22 (amended) at `end_label_text`, where the target is the number of statements, and
at `forward_text`, where it is the index of the Return statement. -/
theorem C22_defined_label_target_range_witness :
    (compile_program plain_host [] id end_label_text [] 0 = .ok (some end_label_compiled, 0) ∧
      program_items end_label_text = some end_label_items ∧
      ∃ (st : statement) (t : Nat), end_label_compiled.program_statements[0]? = some st ∧
        (st.type = .jump ∨ st.type = .jump_if) ∧ st.arg_a = (t : Int) ∧
        first_definition (cstr "e") end_label_items = some t ∧
        t ≤ end_label_compiled.program_statements.length) ∧
    (forward_compiled.program_statements.map (fun st => st.type) =
        (forward_items.filter (fun x => x.emits)).map (fun x => x.kind) ∧
      first_definition (cstr "e") forward_items = some 2) :=
  ⟨⟨by decide!, by decide,
      (C22_defined_label_target_range plain_host [] id end_label_text [] 0 end_label_compiled 0
        end_label_items (by decide!) (by decide)).2 0 (.add_jump ⟨cstr "e; label: e;", 1⟩)
        (cstr "e") (by decide) (by decide) ⟨.add_label ⟨cstr "e;", 1⟩, by decide, by decide⟩⟩,
    ⟨(C22_defined_label_target_range plain_host [] id forward_text loop_vars 0 forward_compiled 0
        forward_items (by decide!) (by decide)).1, by decide⟩⟩

/-! ## C23: the program image -/

theorem read_int_agree (buf bufL : List Word) (a x : Nat)
    (h : read_word buf a = read_word bufL x) : read_int buf a = read_int bufL x := by
  unfold read_int; rw [h]

theorem read_flt_agree (buf bufL : List Word) (a x : Nat)
    (h : read_word buf a = read_word bufL x) : read_flt buf a = read_flt bufL x := by
  unfold read_flt; rw [h]

theorem children_end_ge (buf : List Word) (size : Nat) (sub : Nat → Option Nat) (o : Nat)
    (hsub : ∀ c e, sub c = some e → c ≤ e) :
    ∀ k i cur e, children_end buf size sub o k i cur = some e → cur ≤ e := by
  intro k
  induction k with
  | zero =>
    intro i cur e hc
    rw [children_end] at hc
    exact Nat.le_of_eq (Option.some.inj hc)
  | succ k ih =>
    intro i cur e hc
    rw [children_end] at hc
    cases hr : read_int buf (o + 16 + 8 * i) with
    | none => rw [hr] at hc; cases hc
    | some c =>
      rw [hr] at hc
      simp only [] at hc
      by_cases hcond : c = cur ∧ o < c ∧ c < size
      · rw [if_pos hcond] at hc
        cases hs : sub c with
        | none => rw [hs] at hc; cases hc
        | some e1 =>
          rw [hs] at hc
          simp only [] at hc
          have a := ih (i + 1) e1 e hc
          have b := hsub c e1 hs
          omega
      · rw [if_neg hcond] at hc; cases hc

/-- A subtree that `subtree_end` reads holds at least the 24 bytes of its root record. -/
theorem subtree_end_ge (buf : List Word) (size : Nat) :
    ∀ fuel o e, subtree_end buf size fuel o = some e → o + 24 ≤ e := by
  intro fuel
  induction fuel with
  | zero => intro o e hs; rw [subtree_end] at hs; cases hs
  | succ fuel ih =>
    intro o e hs
    rw [subtree_end] at hs
    cases hr : read_int buf o with
    | none => rw [hr] at hs; cases hs
    | some type =>
      rw [hr] at hs
      simp only [] at hs
      by_cases hc : is_call_type type
      · rw [if_pos hc] at hs
        by_cases hb : o + 24 + 8 * arity type ≤ size
        · rw [if_pos hb] at hs
          have a := children_end_ge buf size (subtree_end buf size fuel) o
            (fun c e1 h1 => by have := ih c e1 h1; omega) _ _ _ _ hs
          omega
        · rw [if_neg hb] at hs; cases hs
      · rw [if_neg hc] at hs
        by_cases hb : o + 24 ≤ size
        · rw [if_pos hb] at hs
          exact Nat.le_of_eq (Option.some.inj hs)
        · rw [if_neg hb] at hs; cases hs

/-- The parameters of a record evaluate alike in two buffers that agree on the bytes of
the subtree of the record. -/
theorem eval_params_local (h : Host) (mem : Mem) (ctx : Option (List Nat))
    (bufL : List Word) (size fL : Nat) (buf : List Word) (base f : Nat)
    (ih : ∀ c e1, subtree_end bufL size fL c = some e1 →
      (∀ x, c ≤ x → x < e1 → read_word buf (base + x) = read_word bufL x) →
      e1 ≤ c + 24 * f →
      eval_portable_impl h mem buf base ctx f c = eval_portable_impl h mem bufL 0 ctx fL c)
    (off e : Nat)
    (hag : ∀ x, off ≤ x → x < e → read_word buf (base + x) = read_word bufL x)
    (hfuel : e ≤ off + 24 + 24 * f) :
    ∀ k i cur slot slotL,
      children_end bufL size (subtree_end bufL size fL) off k i cur = some e →
      off + 16 + 8 * (i + k) ≤ cur → slot = base + (off + 16 + 8 * i) →
      slotL = off + 16 + 8 * i →
      eval_portable_impl.eval_params h mem buf base ctx f slot k =
        eval_portable_impl.eval_params h mem bufL 0 ctx fL slotL k := by
  intro k
  induction k with
  | zero =>
    intro i cur slot slotL _ _ _ _
    rw [eval_portable_impl.eval_params, eval_portable_impl.eval_params]
  | succ k ihk =>
    intro i cur slot slotL hc hcur hslot hslotL
    rw [children_end] at hc
    cases hr : read_int bufL (off + 16 + 8 * i) with
    | none => rw [hr] at hc; cases hc
    | some c =>
      rw [hr] at hc
      simp only [] at hc
      by_cases hcond : c = cur ∧ off < c ∧ c < size
      · rw [if_pos hcond] at hc
        cases hs : subtree_end bufL size fL c with
        | none => rw [hs] at hc; cases hc
        | some e1 =>
          rw [hs] at hc
          simp only [] at hc
          have hge1 := subtree_end_ge bufL size fL c e1 hs
          have hle := children_end_ge bufL size (subtree_end bufL size fL) off
            (fun c e1 h1 => by have := subtree_end_ge bufL size fL c e1 h1; omega) _ _ _ _ hc
          have hslotlt : off + 16 + 8 * i < e := by omega
          have hrd : read_int buf slot = some c := by
            rw [hslot, read_int_agree buf bufL _ _ (hag _ (by omega) hslotlt), hr]
          have hrdL : read_int bufL slotL = some c := by rw [hslotL, hr]
          have hchild := ih c e1 hs (fun x hx1 hx2 => hag x (by omega) (by omega)) (by omega)
          have hrest := ihk (i + 1) e1 (slot + 8) (slotL + 8) hc (by omega) (by omega) (by omega)
          rw [eval_portable_impl.eval_params, eval_portable_impl.eval_params, hrd, hrdL]
          simp only []
          rw [hchild, hrest]
      · rw [if_neg hcond] at hc; cases hc

/-- The subtree at byte `off` of an image laid out in pre-order evaluates in the same
way wherever its bytes are placed: in a buffer that holds them from byte `base + off` on
the evaluator run at `base` does what it does on the image itself. -/
theorem eval_local (h : Host) (mem : Mem) (ctx : Option (List Nat)) (bufL : List Word)
    (size : Nat) :
    ∀ fL off e, subtree_end bufL size fL off = some e →
      ∀ (buf : List Word) (base fuel : Nat),
        (∀ x, off ≤ x → x < e → read_word buf (base + x) = read_word bufL x) →
        e ≤ off + 24 * fuel →
        eval_portable_impl h mem buf base ctx fuel off =
          eval_portable_impl h mem bufL 0 ctx fL off := by
  intro fL
  induction fL with
  | zero => intro off e hs; rw [subtree_end] at hs; cases hs
  | succ fL ih =>
    intro off e hs buf base fuel hag hfuel
    have hge := subtree_end_ge bufL size (fL + 1) off e hs
    cases fuel with
    | zero => omega
    | succ f =>
      rw [subtree_end] at hs
      cases hty : read_int bufL off with
      | none => rw [hty] at hs; cases hs
      | some type =>
        rw [hty] at hs
        simp only [] at hs
        have hty0 : read_int buf (base + off) = some type := by
          rw [read_int_agree buf bufL _ _ (hag off (le_refl _) (by omega)), hty]
        have htyL : read_int bufL (0 + off) = some type := by rw [Nat.zero_add, hty]
        have hflt : read_flt buf (base + off + 8) = read_flt bufL (0 + off + 8) := by
          rw [Nat.zero_add, Nat.add_assoc]
          exact read_flt_agree buf bufL _ _ (hag (off + 8) (by omega) (by omega))
        have hint : read_int buf (base + off + 8) = read_int bufL (0 + off + 8) := by
          rw [Nat.zero_add, Nat.add_assoc]
          exact read_int_agree buf bufL _ _ (hag (off + 8) (by omega) (by omega))
        have hpar : is_call_type type →
            eval_portable_impl.eval_params h mem buf base ctx f (base + off + 16)
                (type_mask type % 8) =
              eval_portable_impl.eval_params h mem bufL 0 ctx fL (0 + off + 16)
                (type_mask type % 8) ∧
            read_int buf (base + off + 16 + 8 * (type_mask type % 8)) =
              read_int bufL (0 + off + 16 + 8 * (type_mask type % 8)) := by
          intro hcall
          rw [if_pos hcall] at hs
          by_cases hb : off + 24 + 8 * arity type ≤ size
          · rw [if_pos hb] at hs
            have hle := children_end_ge bufL size (subtree_end bufL size fL) off
              (fun c e1 h1 => by have := subtree_end_ge bufL size fL c e1 h1; omega) _ _ _ _ hs
            rw [arity_eq type hcall] at hs hle
            refine ⟨eval_params_local h mem ctx bufL size fL buf base f
              (fun c e1 h1 h2 h3 => ih c e1 h1 buf base f h2 h3) off e hag (by omega)
              _ 0 _ _ _ hs (by omega) (by omega) (by omega), ?_⟩
            have e1 : base + off + 16 + 8 * (type_mask type % 8) =
                base + (off + 16 + 8 * (type_mask type % 8)) := by omega
            rw [Nat.zero_add, e1]
            exact read_int_agree buf bufL _ _ (hag _ (by omega) (by omega))
          · rw [if_neg hb] at hs; cases hs
        have hlt : type_mask type < 32 := by
          rw [type_mask_eq_mod]; exact Nat.mod_lt _ (by decide)
        cases ctx with
        | none =>
          rw [eval_portable_impl, eval_portable_impl, hty0, htyL]
          simp only []
          by_cases h1 : type_mask type = TE_CONSTANT
          · rw [if_pos h1, if_pos h1, hflt]
          rw [if_neg h1, if_neg h1]
          by_cases h0 : type_mask type = TE_VARIABLE
          · rw [if_pos h0, if_pos h0]
          rw [if_neg h0, if_neg h0]
          by_cases hf : type_mask type ≥ TE_FUNCTION0 ∧ type_mask type < TE_FUNCTION_MAX
          · rw [if_pos hf, if_pos hf]
            rfl
          rw [if_neg hf, if_neg hf]
          by_cases hc : type_mask type ≥ TE_CLOSURE0 ∧ type_mask type < TE_CLOSURE_MAX
          · rw [if_pos hc, if_pos hc]
            rfl
          · rw [if_neg hc, if_neg hc]
        | some table =>
          rw [eval_portable_impl, eval_portable_impl, hty0, htyL]
          simp only []
          by_cases h1 : type_mask type = TE_CONSTANT
          · rw [if_pos h1, if_pos h1, hflt]
          rw [if_neg h1, if_neg h1]
          by_cases h0 : type_mask type = TE_VARIABLE
          · rw [if_pos h0, if_pos h0, hint]
          rw [if_neg h0, if_neg h0]
          by_cases hf : type_mask type ≥ TE_FUNCTION0 ∧ type_mask type < TE_FUNCTION_MAX
          · rw [if_pos hf, if_pos hf, hint]
            have hk : type_mask type - TE_FUNCTION0 = type_mask type % 8 := by
              simp only [TE_FUNCTION0, TE_FUNCTION_MAX] at hf ⊢; omega
            rw [hk, (hpar (Or.inl hf)).1]
          rw [if_neg hf, if_neg hf]
          by_cases hc : type_mask type ≥ TE_CLOSURE0 ∧ type_mask type < TE_CLOSURE_MAX
          · rw [if_pos hc, if_pos hc, hint]
            have hk : type_mask type - TE_CLOSURE0 = type_mask type % 8 := by
              simp only [TE_CLOSURE0, TE_CLOSURE_MAX] at hc ⊢; omega
            rw [hk, (hpar (Or.inr hc)).1, (hpar (Or.inr hc)).2]
          · rw [if_neg hc, if_neg hc]

theorem exprs_ok_empty : exprs_ok [] parse_state.empty := ⟨rfl, rfl⟩

theorem exprs_ok_add (items : List parsed_statement) (ps : parse_state)
    (it : parsed_statement) (hok : exprs_ok items ps) :
    exprs_ok (items ++ [it]) (ps.add it) := by
  obtain ⟨h1, h2⟩ := hok
  cases it with
  | add_label lab =>
    refine ⟨?_, ?_⟩
    · show ps.m_expressions = _
      rw [List.filterMap_append, h1]
      simp [parsed_statement.expression]
    · exact h2
  | add_jump d =>
    refine ⟨?_, ?_⟩
    · show ps.m_expressions = _
      rw [List.filterMap_append, h1]
      simp [parsed_statement.expression]
    · show (ps.program_statements ++ [_]).filterMap _ = _
      rw [List.filterMap_append, h2]
      simp only [any_statement.expression, List.filterMap_cons, List.filterMap_nil,
        List.append_nil]
      rfl
  | add_jump_if d c =>
    refine ⟨?_, ?_⟩
    · show ps.m_expressions ++ [c] = _
      rw [List.filterMap_append, h1]
      simp [parsed_statement.expression]
    · show (ps.program_statements ++ [_]).filterMap _ =
        (List.range (ps.m_expressions ++ [c]).length).map _
      rw [List.filterMap_append, h2, List.length_append, List.length_singleton,
        List.range_succ, List.map_append]
      simp [any_statement.expression]
  | add_return_value c =>
    refine ⟨?_, ?_⟩
    · show ps.m_expressions ++ [c] = _
      rw [List.filterMap_append, h1]
      simp [parsed_statement.expression]
    · show (ps.program_statements ++ [_]).filterMap _ =
        (List.range (ps.m_expressions ++ [c]).length).map _
      rw [List.filterMap_append, h2, List.length_append, List.length_singleton,
        List.range_succ, List.map_append]
      simp [any_statement.expression]
  | add_assign d c =>
    refine ⟨?_, ?_⟩
    · show ps.m_expressions ++ [c] = _
      rw [List.filterMap_append, h1]
      simp [parsed_statement.expression]
    · show (ps.program_statements ++ [_]).filterMap _ =
        (List.range (ps.m_expressions ++ [c]).length).map _
      rw [List.filterMap_append, h2, List.length_append, List.length_singleton,
        List.range_succ, List.map_append]
      simp [any_statement.expression]
  | add_call c =>
    refine ⟨?_, ?_⟩
    · show ps.m_expressions ++ [c] = _
      rw [List.filterMap_append, h1]
      simp [parsed_statement.expression]
    · show (ps.program_statements ++ [_]).filterMap _ =
        (List.range (ps.m_expressions ++ [c]).length).map _
      rw [List.filterMap_append, h2, List.length_append, List.length_singleton,
        List.range_succ, List.map_append]
      simp [any_statement.expression]

theorem exprs_ok_foldl : ∀ (rest items : List parsed_statement) (ps : parse_state),
    exprs_ok items ps → exprs_ok (items ++ rest) (rest.foldl parse_state.add ps) := by
  intro rest
  induction rest with
  | nil => intro items ps h; rw [List.append_nil]; exact h
  | cons it rest ih =>
    intro items ps h
    have := ih (items ++ [it]) (ps.add it) (exprs_ok_add items ps it h)
    rw [List.append_assoc] at this
    exact this

/-- The state the first loop of `compile` leaves satisfies the invariant. -/
theorem parse_program_exprs (text : List Nat) (ps : parse_state)
    (items : List parsed_statement)
    (hp : parse_program text = some ps) (hi : program_items text = some items) :
    exprs_ok items ps := by
  unfold parse_program at hp
  unfold program_items at hi
  simp only [] at hp hi
  rw [parse_program_loop_items] at hp
  cases ht : statement_texts ((text.takeWhile (fun b => b != 0)).length + 1)
      (trim_all_space ⟨text.takeWhile (fun b => b != 0),
        (text.takeWhile (fun b => b != 0)).length⟩) with
  | none => rw [ht] at hp; cases hp
  | some l =>
    rw [ht] at hp hi
    simp only [Option.map_some', Option.some.injEq] at hp hi
    rw [← hp, ← hi]
    have := exprs_ok_foldl (l.map parse_statement) [] parse_state.empty exprs_ok_empty
    rw [List.nil_append] at this
    exact this

theorem fixup_jumps_expression (lm : label_manager) (stmts : List any_statement) :
    (fixup_jumps lm stmts).filterMap (fun s => s.expression) =
      stmts.filterMap (fun s => s.expression) := by
  unfold fixup_jumps
  rw [List.filterMap_map]
  apply List.filterMap_congr
  intro s _
  cases s <;> rfl

theorem fixup_offsets_expression (expr_idx offset : Int) (stmts : List any_statement) :
    (fixup_offsets expr_idx offset stmts).filterMap (fun s => s.expression) =
      (stmts.filterMap (fun s => s.expression)).map
        (fun eo => (eo.1, if eo.1 = expr_idx then offset else eo.2)) := by
  unfold fixup_offsets
  rw [List.filterMap_map, List.map_filterMap]
  apply List.filterMap_congr
  intro s _
  cases s <;> rfl

theorem emit_statement_offset (stmts : List any_statement) :
    (stmts.map emit_statement).filterMap (fun st => st.expression_offset) =
      (stmts.filterMap (fun s => s.expression)).map (fun eo => eo.2) := by
  rw [List.filterMap_map, List.map_filterMap]
  apply List.filterMap_congr
  intro s _
  cases s <;> rfl

theorem prefix_size_zero (images : List compiled_expr) : prefix_size images 0 = 0 := rfl

theorem prefix_size_cons_succ (c : compiled_expr) (images : List compiled_expr) (k : Nat) :
    prefix_size (c :: images) (k + 1) = c.build_buffer_size + prefix_size images k := by
  unfold prefix_size
  rw [List.take_succ_cons, List.map_cons, List.sum_cons]

theorem expression_images_nil (h : Host) (mem : Mem) (vars : List te_variable)
    (ix : indexer) : expression_images h mem vars [] ix = some [] := rfl

theorem expression_images_cons (h : Host) (mem : Mem) (vars : List te_variable)
    (e : string_view) (es : List string_view) (ix : indexer) :
    expression_images h mem vars (e :: es) ix =
      match compile_using_indexer h mem ix e.data vars with
      | .ok (some compiled, _, ix1) =>
        (expression_images h mem vars es ix1).map (fun l => compiled :: l)
      | _ => none := rfl

theorem expression_images_length (h : Host) (mem : Mem) (vars : List te_variable) :
    ∀ (es : List string_view) (ix : indexer) (images : List compiled_expr),
      expression_images h mem vars es ix = some images → images.length = es.length := by
  intro es
  induction es with
  | nil =>
    intro ix images hi
    rw [expression_images_nil] at hi
    rw [← Option.some.inj hi]
    rfl
  | cons e es ih =>
    intro ix images hi
    rw [expression_images_cons] at hi
    cases hx : compile_using_indexer h mem ix e.data vars with
    | timeout => rw [hx] at hi; cases hi
    | fault => rw [hx] at hi; cases hi
    | ok r =>
      rw [hx] at hi
      obtain ⟨c, error, ix1⟩ := r
      cases c with
      | none => cases hi
      | some c =>
        simp only [] at hi
        cases hr : expression_images h mem vars es ix1 with
        | none => rw [hr] at hi; cases hi
        | some l =>
          rw [hr] at hi
          rw [← Option.some.inj hi, List.length_cons, List.length_cons, ih ix1 l hr]

/-- Every image of `expression_images` is the image of a handle that
`compile_using_indexer` returned. -/
theorem expression_images_mem (h : Host) (mem : Mem) (vars : List te_variable) :
    ∀ (es : List string_view) (ix : indexer) (images : List compiled_expr),
      expression_images h mem vars es ix = some images →
      ∀ img ∈ images, ∃ ix0 text error ix1,
        compile_using_indexer h mem ix0 text vars = .ok (some img, error, ix1) := by
  intro es
  induction es with
  | nil =>
    intro ix images hi img hm
    rw [expression_images_nil] at hi
    rw [← Option.some.inj hi] at hm
    cases hm
  | cons e es ih =>
    intro ix images hi img hm
    rw [expression_images_cons] at hi
    cases hx : compile_using_indexer h mem ix e.data vars with
    | timeout => rw [hx] at hi; cases hi
    | fault => rw [hx] at hi; cases hi
    | ok r =>
      rw [hx] at hi
      obtain ⟨c, error, ix1⟩ := r
      cases c with
      | none => cases hi
      | some c =>
        simp only [] at hi
        cases hr : expression_images h mem vars es ix1 with
        | none => rw [hr] at hi; cases hi
        | some l =>
          rw [hr] at hi
          rw [← Option.some.inj hi] at hm
          rcases List.mem_cons.mp hm with h0 | h1
          · rw [h0]; exact ⟨ix, e.data, error, ix1, hx⟩
          · exact ih ix1 l hr img h1

/-- The loop "Compile all the expressions", when it ends without the error `-1`, has
appended the image of every expression to the buffer and stored, for the expression
with index `expr_idx + k`, the size of the buffer before its image as the offset. -/
theorem compile_expressions_images (h : Host) (mem : Mem) (vars : List te_variable) :
    ∀ (es : List string_view) (expr_idx : Nat) (bs bs2 : build_state) (n : Nat)
      (off : Nat → Int),
      compile_expressions h mem vars es expr_idx bs = .ok bs2 → bs2.error ≠ -1 →
      bs.program_statements.filterMap (fun s => s.expression) =
        (List.range n).map (fun i : Nat => ((i : Int), off i)) →
      ∃ images, expression_images h mem vars es bs.ix = some images ∧
        bs2.program_expression_buffer =
          bs.program_expression_buffer ++ (images.map (fun c => c.build_buffer)).flatten ∧
        bs2.program_expression_buffer_size =
          bs.program_expression_buffer_size +
            (images.map (fun c => c.build_buffer_size)).sum ∧
        bs2.program_statements.filterMap (fun s => s.expression) =
          (List.range n).map (fun i : Nat => ((i : Int),
            if expr_idx ≤ i ∧ i < expr_idx + images.length then
              ((bs.program_expression_buffer_size + prefix_size images (i - expr_idx) : Nat) : Int)
            else off i)) := by
  intro es
  induction es with
  | nil =>
    intro expr_idx bs bs2 n off hc _ hst
    rw [compile_expressions_nil] at hc
    rw [← Outcome.ok.inj hc]
    refine ⟨[], rfl, ?_, ?_, ?_⟩
    · simp
    · simp
    · rw [hst]
      apply List.map_congr_left
      intro i _
      rw [if_neg (by simp)]
  | cons e es ih =>
    intro expr_idx bs bs2 n off hc herr hst
    rw [compile_expressions_cons] at hc
    cases hx : compile_using_indexer h mem bs.ix e.data vars with
    | timeout => rw [hx] at hc; cases hc
    | fault => rw [hx] at hc; cases hc
    | ok r =>
      rw [hx] at hc
      obtain ⟨c, error, ix1⟩ := r
      cases c with
      | none =>
        simp only [] at hc
        rw [← Outcome.ok.inj hc] at herr
        exact absurd rfl herr
      | some c =>
        simp only [] at hc
        have hst1 : (fixup_offsets expr_idx bs.program_expression_buffer_size
            bs.program_statements).filterMap (fun s => s.expression) =
            (List.range n).map (fun i : Nat => ((i : Int),
              if i = expr_idx then (bs.program_expression_buffer_size : Int) else off i)) := by
          rw [fixup_offsets_expression, hst, List.map_map]
          apply List.map_congr_left
          intro i _
          simp only [Function.comp, Nat.cast_inj]
        obtain ⟨images, a1, a2, a3, a4⟩ := ih (expr_idx + 1) _ bs2 n _ hc herr hst1
        simp only [] at a1 a2 a3 a4
        refine ⟨c :: images, ?_, ?_, ?_, ?_⟩
        · rw [expression_images_cons, hx]
          simp only []
          rw [a1]; rfl
        · rw [a2, List.map_cons, List.flatten_cons, List.append_assoc]
        · rw [a3, List.map_cons, List.sum_cons, Nat.add_assoc]
        · rw [a4]
          apply List.map_congr_left
          intro i _
          rw [List.length_cons]
          by_cases hi : i = expr_idx
          · rw [if_neg (by omega), if_pos hi, if_pos (by omega), hi, Nat.sub_self,
              prefix_size_zero, Nat.add_zero]
          · by_cases hr : expr_idx + 1 ≤ i ∧ i < expr_idx + 1 + images.length
            · rw [if_pos hr, if_pos (by omega)]
              have e1 : i - expr_idx = (i - (expr_idx + 1)) + 1 := by omega
              rw [e1, prefix_size_cons_succ, Nat.add_assoc]
            · rw [if_neg hr, if_neg hi, if_neg (by omega)]

/-- The image of a handle returned by `compile_using_indexer` has eight bytes for each of
its slots and is laid out in pre-order from byte 0 to its end. -/
theorem image_laid_out_from (h : Host) (mem : Mem) (ix : indexer) (text : List Nat)
    (vars : List te_variable) (e : compiled_expr) (err : Int) (ix1 : indexer)
    (hx : compile_using_indexer h mem ix text vars = .ok (some e, err, ix1)) :
    8 * e.build_buffer.length = e.build_buffer_size ∧
    subtree_end e.build_buffer e.build_buffer_size (e.build_buffer.length + 1) 0 =
      some e.build_buffer_size := by
  obtain ⟨hb, root, h1, h2, h3⟩ := image_is_estimate h mem ix text vars e err ix1 hx
  have hnn := compile_native_no_null h mem text vars root err h1
  have hsz := export_estimate_bytes vars root 0 ix _ h2
  simp only [Nat.zero_add] at hsz
  unfold bytes_written at hb
  refine ⟨hb, ?_⟩
  exact export_write_laid vars ix1 (get_data_size (some e)) root hnn 0 _ _ h3 e.build_buffer
    (fun _ _ _ => rfl) (le_refl _) (e.build_buffer.length + 1) (by rw [← hsz]; omega)

theorem read_word_middle (pre img post : List Word) (x : Nat) (hx : x < 8 * img.length) :
    read_word (pre ++ img ++ post) (8 * pre.length + x) = read_word img x := by
  unfold read_word
  rw [Nat.mul_add_mod]
  by_cases h0 : x % 8 = 0
  · rw [if_pos h0, if_pos h0, Nat.mul_add_div (by decide)]
    have hlt : x / 8 < img.length := by omega
    simp only [List.get?_eq_getElem?]
    rw [List.append_assoc, List.getElem?_append_right (by omega),
      Nat.add_sub_cancel_left, List.getElem?_append_left hlt]
  · rw [if_neg h0, if_neg h0]

/-- An image laid out in pre-order evaluates, at the byte where it starts inside a longer
buffer, to what it evaluates to at byte 0 of a buffer of its own. -/
theorem eval_image_at (h : Host) (mem : Mem) (ctx : Option (List Nat)) (img : List Word)
    (size : Nat) (hl : 8 * img.length = size)
    (hs : subtree_end img size (img.length + 1) 0 = some size) (pre post : List Word) :
    eval h mem (pre ++ img ++ post) (8 * pre.length) ctx = eval h mem img 0 ctx := by
  unfold eval
  refine eval_local h mem ctx img size (img.length + 1) 0 size hs (pre ++ img ++ post)
    (8 * pre.length) ((pre ++ img ++ post).length + 1) ?_ ?_
  · intro x _ hx
    exact read_word_middle pre img post x (by omega)
  · simp only [List.length_append]; omega

theorem images_split : ∀ (images : List compiled_expr) (i : Nat) (img : compiled_expr),
    images[i]? = some img →
    (∀ c ∈ images, 8 * c.build_buffer.length = c.build_buffer_size) →
    ∃ pre post, (images.map (fun c => c.build_buffer)).flatten =
        pre ++ img.build_buffer ++ post ∧ 8 * pre.length = prefix_size images i := by
  intro images
  induction images with
  | nil => intro i img hi; cases hi
  | cons c rest ih =>
    intro i img hi hall
    cases i with
    | zero =>
      have : c = img := by simpa using hi
      rw [← this]
      exact ⟨[], (rest.map (fun c => c.build_buffer)).flatten, by simp, rfl⟩
    | succ k =>
      have hk : rest[k]? = some img := by simpa using hi
      obtain ⟨pre, post, a1, a2⟩ := ih k img hk (fun x hx => hall x (List.mem_cons_of_mem _ hx))
      refine ⟨c.build_buffer ++ pre, post, ?_, ?_⟩
      · rw [List.map_cons, List.flatten_cons, a1]
        simp only [List.append_assoc]
      · rw [prefix_size_cons_succ, List.length_append, Nat.mul_add, a2,
          hall c (List.mem_cons_self _ _)]

/-- The image of a program compiled without error, its statements' offsets, and the
evaluation of the image at these offsets. -/
theorem program_image (h : Host) (mem : Mem)
    (iter : List (List Nat × Nat) → List (List Nat × Nat)) (text : List Nat)
    (vars : List te_variable) (error : Int) (p : compiled_program)
    (hc : compile_program h mem iter text vars error = .ok (some p, 0)) :
    ∃ ps ix items images, parse_program text = some ps ∧
      add_referenced vars (iter ps.vm.m_variable_map) indexer.empty = some ix ∧
      program_items text = some items ∧
      expression_images h mem vars (items.filterMap (fun it => it.expression)) ix =
        some images ∧
      p.program_expression_buffer = (images.map (fun c => c.build_buffer)).flatten ∧
      p.program_expression_buffer_size = (images.map (fun c => c.build_buffer_size)).sum ∧
      p.program_statements.filterMap (fun st => st.expression_offset) =
        (List.range images.length).map (fun i : Nat => (prefix_size images i : Int)) ∧
      ∀ (i : Nat) (img : compiled_expr), images[i]? = some img →
        ∀ (h2 : Host) (mem2 : Mem) (ctx : Option (List Nat)),
          eval_at h2 mem2 p.program_expression_buffer ctx (prefix_size images i : Int) =
            eval h2 mem2 img.build_buffer 0 ctx := by
  obtain ⟨ps, ix, bs, hp, ha, hb, hpe, herr⟩ :=
    compile_program_ok h mem iter text vars error p 0 hc
  obtain ⟨items, hi⟩ := program_items_of_parse text ps hp
  obtain ⟨e1, e2⟩ := parse_program_exprs text ps items hp hi
  have hst : (fixup_jumps ps.lm ps.program_statements).filterMap (fun s => s.expression) =
      (List.range ps.m_expressions.length).map (fun i : Nat => ((i : Int), (0 : Int))) := by
    rw [fixup_jumps_expression, e2]
  obtain ⟨images, a1, a2, a3, a4⟩ := compile_expressions_images h mem vars ps.m_expressions 0
    _ bs ps.m_expressions.length (fun _ => 0) hb (by rw [← herr]; decide) hst
  simp only [List.nil_append, Nat.zero_add] at a1 a2 a3 a4
  have hlen := expression_images_length h mem vars _ _ _ a1
  have hlaid : ∀ c ∈ images, 8 * c.build_buffer.length = c.build_buffer_size ∧
      subtree_end c.build_buffer c.build_buffer_size (c.build_buffer.length + 1) 0 =
        some c.build_buffer_size := by
    intro c hm
    obtain ⟨ix0, t, er, ix1, hx⟩ := expression_images_mem h mem vars _ _ _ a1 c hm
    exact image_laid_out_from h mem ix0 t vars c er ix1 hx
  refine ⟨ps, ix, items, images, hp, ha, hi, ?_, ?_, ?_, ?_, ?_⟩
  · rw [← e1]; exact a1
  · rw [hpe]; exact a2
  · rw [hpe]; exact a3
  · rw [hpe]
    show (bs.program_statements.map emit_statement).filterMap _ = _
    rw [emit_statement_offset, a4, List.map_map, hlen]
    apply List.map_congr_left
    intro i hm
    have hlt : i < ps.m_expressions.length := List.mem_range.mp hm
    simp only [Function.comp]
    rw [if_pos ⟨Nat.zero_le _, by omega⟩]
    rfl
  · intro i img him h2 mem2 ctx
    obtain ⟨pre, post, b1, b2⟩ := images_split images i img him (fun c hm => (hlaid c hm).1)
    have hm : img ∈ images := by
      obtain ⟨hlt, hget⟩ := List.getElem?_eq_some_iff.mp him
      rw [← hget]; exact List.getElem_mem hlt
    obtain ⟨c1, c2⟩ := hlaid img hm
    rw [hpe]
    show eval_at h2 mem2 bs.program_expression_buffer ctx _ = _
    rw [a2, b1, ← b2]
    unfold eval_at
    rw [if_neg (by omega), Int.toNat_ofNat]
    exact eval_image_at h2 mem2 ctx img.build_buffer img.build_buffer_size c1 c2 pre post

/-- C23: for every program that `compile_program` compiles with the error code 0, the
program image is the concatenation of the images of the expressions of its statements,
in statement order (each compiled by `compile_using_indexer` with the indexer that the
one before it left) and its size the sum of their sizes; the expression offsets of the
statements that have an expression are, in order, the sums of the sizes of the images
that precede; and for every host, storage and address table `eval` of the program image
at such an offset gives what `eval` of the expression's own image gives at offset 0 of
a buffer of its own. -/
theorem C23_program_image_concatenation (h : Host) (mem : Mem)
    (iter : List (List Nat × Nat) → List (List Nat × Nat)) (text : List Nat)
    (vars : List te_variable) (error : Int) (p : compiled_program)
    (hc : compile_program h mem iter text vars error = .ok (some p, 0)) :
    ∃ ps ix items images, parse_program text = some ps ∧
      add_referenced vars (iter ps.vm.m_variable_map) indexer.empty = some ix ∧
      program_items text = some items ∧
      expression_images h mem vars (items.filterMap (fun it => it.expression)) ix =
        some images ∧
      p.program_expression_buffer = (images.map (fun c => c.build_buffer)).flatten ∧
      p.program_expression_buffer_size = (images.map (fun c => c.build_buffer_size)).sum ∧
      p.program_statements.filterMap (fun st => st.expression_offset) =
        (List.range images.length).map (fun i : Nat => (prefix_size images i : Int)) ∧
      ∀ (i : Nat) (img : compiled_expr), images[i]? = some img →
        ∀ (h2 : Host) (mem2 : Mem) (ctx : Option (List Nat)),
          eval_at h2 mem2 p.program_expression_buffer ctx (prefix_size images i : Int) =
            eval h2 mem2 img.build_buffer 0 ctx :=
  program_image h mem iter text vars error p hc

/-- C23 at `backward_text`, whose three expressions `1`, `x` and `x` have images of 24
bytes each, at the offsets 0, 24 and 48 of the program image of 72 bytes. -/
theorem C23_program_image_concatenation_witness :
    compile_program plain_host [] id backward_text loop_vars 0 =
      .ok (some backward_compiled, 0) ∧
    backward_compiled.program_statements.filterMap (fun st => st.expression_offset) =
      [0, 24, 48] ∧
    backward_compiled.program_expression_buffer_size = 72 ∧
    ∃ ps ix items images, parse_program backward_text = some ps ∧
      add_referenced loop_vars (id ps.vm.m_variable_map) indexer.empty = some ix ∧
      program_items backward_text = some items ∧
      expression_images plain_host [] loop_vars (items.filterMap (fun it => it.expression)) ix =
        some images ∧
      backward_compiled.program_expression_buffer =
        (images.map (fun c => c.build_buffer)).flatten ∧
      backward_compiled.program_expression_buffer_size =
        (images.map (fun c => c.build_buffer_size)).sum ∧
      backward_compiled.program_statements.filterMap (fun st => st.expression_offset) =
        (List.range images.length).map (fun i : Nat => (prefix_size images i : Int)) ∧
      ∀ (i : Nat) (img : compiled_expr), images[i]? = some img →
        ∀ (h2 : Host) (mem2 : Mem) (ctx : Option (List Nat)),
          eval_at h2 mem2 backward_compiled.program_expression_buffer ctx
              (prefix_size images i : Int) =
            eval h2 mem2 img.build_buffer 0 ctx :=
  ⟨by decide!, by decide, by decide,
    C23_program_image_concatenation plain_host [] id backward_text loop_vars 0
      backward_compiled (by decide!)⟩

/-! ## C33: only an Assign statement writes host memory -/

theorem mem_write_read_other : ∀ (m : Mem) (a : Nat) (v : Scalar) (m1 : Mem),
    m.write a v = some m1 → ∀ b, b ≠ a → m1.read b = m.read b := by
  intro m
  induction m with
  | nil => intro a v m1 hw; cases hw
  | cons p m ih =>
    intro a v m1 hw b hb
    obtain ⟨c, w⟩ := p
    rw [Mem.write] at hw
    by_cases hc : c = a
    · rw [if_pos hc] at hw
      rw [← Option.some.inj hw]
      have h1 : (c == b) = false := by
        rw [hc]; exact beq_false_of_ne (fun h => hb h.symm)
      simp [Mem.read, List.find?, h1]
    · rw [if_neg hc] at hw
      cases hr : Mem.write m a v with
      | none => rw [hr] at hw; cases hw
      | some m2 =>
        rw [hr] at hw
        rw [← Option.some.inj hw]
        have := ih a v m2 hr b hb
        unfold Mem.read at this ⊢
        by_cases hcb : c = b
        · have h1 : (c == b) = true := by rw [hcb]; exact beq_self_eq_true _
          simp [List.find?, h1]
        · have h1 : (c == b) = false := beq_false_of_ne hcb
          simp only [List.find?, h1]
          exact this

theorem mem_write_addresses : ∀ (m : Mem) (a : Nat) (v : Scalar) (m1 : Mem),
    m.write a v = some m1 → m1.map Prod.fst = m.map Prod.fst := by
  intro m
  induction m with
  | nil => intro a v m1 hw; cases hw
  | cons p m ih =>
    intro a v m1 hw
    obtain ⟨c, w⟩ := p
    rw [Mem.write] at hw
    by_cases hc : c = a
    · rw [if_pos hc] at hw
      rw [← Option.some.inj hw]
      rfl
    · rw [if_neg hc] at hw
      cases hr : Mem.write m a v with
      | none => rw [hr] at hw; cases hw
      | some m2 =>
        rw [hr] at hw
        rw [← Option.some.inj hw, List.map_cons, List.map_cons, ih a v m2 hr]

/-- One round of the `switch` of `eval_program` leaves host storage as it is, except that
an Assign statement stores to the cell its destination index names. -/
theorem exec_statement_frame (h : Host) (buf : List Word) (ctx : Option (List Nat))
    (st : statement) (i : Int) (mem : Mem) (j : Int) (mem1 : Mem)
    (he : exec_statement h buf ctx st i mem = .next j mem1) :
    mem1.map Prod.fst = mem.map Prod.fst ∧
    (st.type ≠ .assign → mem1 = mem) ∧
    ∀ addr, mem1.read addr ≠ mem.read addr →
      st.type = .assign ∧ 0 ≤ st.arg_a ∧
        ctx.bind (fun table => table.get? st.arg_a.toNat) = some addr := by
  unfold exec_statement at he
  cases ht : st.type with
  | jump =>
    rw [ht] at he
    simp only [step_result.next.injEq] at he
    rw [← he.2]
    exact ⟨rfl, fun _ => rfl, fun addr hne => absurd rfl hne⟩
  | jump_if =>
    rw [ht] at he
    simp only [] at he
    cases hv : eval_at h mem buf ctx st.arg_b with
    | ok v =>
      rw [hv] at he
      simp only [] at he
      by_cases hz : v.nonZero = true
      · rw [if_pos hz] at he
        simp only [step_result.next.injEq] at he
        rw [← he.2]
        exact ⟨rfl, fun _ => rfl, fun addr hne => absurd rfl hne⟩
      · rw [if_neg hz] at he
        simp only [step_result.next.injEq] at he
        rw [← he.2]
        exact ⟨rfl, fun _ => rfl, fun addr hne => absurd rfl hne⟩
    | fault => rw [hv] at he; cases he
    | timeout => rw [hv] at he; cases he
  | return_value =>
    rw [ht] at he
    simp only [] at he
    cases hv : eval_at h mem buf ctx st.arg_a with
    | ok v => rw [hv] at he; cases he
    | fault => rw [hv] at he; cases he
    | timeout => rw [hv] at he; cases he
  | assign =>
    rw [ht] at he
    simp only [] at he
    cases hv : eval_at h mem buf ctx st.arg_b with
    | ok v =>
      rw [hv] at he
      simp only [] at he
      by_cases hn : st.arg_a < 0
      · rw [if_pos hn] at he; cases he
      · rw [if_neg hn] at he
        cases hd : ctx.bind (fun table => table.get? st.arg_a.toNat) with
        | none => rw [hd] at he; cases he
        | some dest =>
          rw [hd] at he
          simp only [Option.bind] at he
          cases hw : mem.write dest v with
          | none => rw [hw] at he; cases he
          | some m2 =>
            rw [hw] at he
            simp only [step_result.next.injEq] at he
            rw [← he.2]
            refine ⟨mem_write_addresses mem dest v m2 hw, fun hc => absurd rfl hc, ?_⟩
            intro addr hne
            refine ⟨rfl, by omega, ?_⟩
            by_cases ha : addr = dest
            · rw [ha]
            · exact absurd (mem_write_read_other mem dest v m2 hw addr ha) hne
    | fault => rw [hv] at he; cases he
    | timeout => rw [hv] at he; cases he
  | call =>
    rw [ht] at he
    simp only [] at he
    cases hv : eval_at h mem buf ctx st.arg_a with
    | ok v =>
      rw [hv] at he
      simp only [step_result.next.injEq] at he
      rw [← he.2]
      exact ⟨rfl, fun _ => rfl, fun addr hne => absurd rfl hne⟩
    | fault => rw [hv] at he; cases he
    | timeout => rw [hv] at he; cases he
  | other => rw [ht] at he; cases he

/-- The run of `eval_program` from a statement on: the trace grows, the cells of host
storage stay the same cells, and a cell whose contents changed was the destination of
an Assign statement that was executed. -/
theorem eval_program_loop_frame (h : Host) (stmts : List statement) (buf : List Word)
    (ctx : Option (List Nat)) :
    ∀ (fuel : Nat) (i : Int) (mem : Mem) (trace : List Nat) (r : run),
      eval_program_loop h stmts buf ctx fuel i mem trace = .ok r →
      (∃ rest, r.trace = trace ++ rest ∧
        ∀ addr, r.mem.read addr ≠ mem.read addr → ∃ k ∈ rest, assigns_to stmts ctx addr k) ∧
      r.mem.map Prod.fst = mem.map Prod.fst := by
  intro fuel
  induction fuel with
  | zero => intro i mem trace r he; rw [eval_program_loop] at he; cases he
  | succ n ih =>
    intro i mem trace r he
    rw [eval_program_loop] at he
    by_cases hlt : i < stmts.length
    · rw [if_pos hlt] at he
      by_cases hneg : i < 0
      · rw [if_pos hneg] at he; cases he
      · rw [if_neg hneg] at he
        cases hst : stmts.get? i.toNat with
        | none => rw [hst] at he; cases he
        | some st =>
          rw [hst] at he
          simp only [] at he
          cases hx : exec_statement h buf ctx st i mem with
          | next j mem1 =>
            rw [hx] at he
            simp only [] at he
            obtain ⟨⟨rest, h1, h2⟩, h3⟩ := ih _ _ _ _ he
            obtain ⟨f1, _, f3⟩ := exec_statement_frame h buf ctx st i mem j mem1 hx
            refine ⟨⟨i.toNat :: rest, by rw [h1, List.append_assoc]; rfl, ?_⟩, by rw [h3, f1]⟩
            intro addr hne
            by_cases hm : mem1.read addr = mem.read addr
            · rw [← hm] at hne
              obtain ⟨k, hk, ha⟩ := h2 addr hne
              exact ⟨k, List.mem_cons_of_mem _ hk, ha⟩
            · obtain ⟨g1, g2, g3⟩ := f3 addr hm
              exact ⟨i.toNat, List.mem_cons_self _ _, st, hst, g1, g2, g3⟩
          | returned v =>
            rw [hx] at he
            simp only [Outcome.ok.injEq] at he
            rw [← he]
            exact ⟨⟨[i.toNat], rfl, fun addr hne => absurd rfl hne⟩, rfl⟩
          | fault => rw [hx] at he; cases he
          | timeout => rw [hx] at he; cases he
    · rw [if_neg hlt] at he
      simp only [Outcome.ok.injEq] at he
      rw [← he]
      exact ⟨⟨[], (List.append_nil _).symm, fun addr hne => absurd rfl hne⟩, rfl⟩

/-- C33: after `eval_program` has run, host storage has the cells it had, and every cell
whose contents differ from before is the cell `address_table[d]` of an Assign statement
`Assign(d, e)` that was executed; a Jump, JumpIf, Return or Call statement leaves host
storage as it is. (Evaluating an expression gives a value and no storage, and host
callables read storage only, by the types of `eval` and `Host.call`.) -/
theorem C33_only_assign_writes :
    (∀ (h : Host) (mem : Mem) (fuel : Nat) (stmts : List statement) (buf : List Word)
        (ctx : Option (List Nat)) (r : run),
      eval_program h mem fuel stmts buf ctx = .ok r →
        r.mem.map Prod.fst = mem.map Prod.fst ∧
        ∀ addr, r.mem.read addr ≠ mem.read addr →
          ∃ k ∈ r.trace, assigns_to stmts ctx addr k) ∧
    (∀ (h : Host) (buf : List Word) (ctx : Option (List Nat)) (st : statement) (i j : Int)
        (mem mem1 : Mem),
      exec_statement h buf ctx st i mem = .next j mem1 → st.type ≠ .assign → mem1 = mem) := by
  refine ⟨?_, ?_⟩
  · intro h mem fuel stmts buf ctx r he
    unfold eval_program at he
    obtain ⟨⟨rest, h1, h2⟩, h3⟩ := eval_program_loop_frame h stmts buf ctx fuel 0 mem [] r he
    rw [List.nil_append] at h1
    rw [h1]
    exact ⟨h3, h2⟩
  · intro h buf ctx st i j mem mem1 he hne
    exact (exec_statement_frame h buf ctx st i mem j mem1 he).2.1 hne

/-- C33 on `frame_statements` over three cells: the run executes the Call, the Assign to
the cell of index 1, the Jump and the Return; only the cell at 5008 has changed. -/
theorem C33_only_assign_writes_witness :
    eval_program plain_host frame_mem 10 frame_statements three_constants
        (some [5000, 5008, 5016]) =
      .ok ⟨.num 30, [(5000, .num 1), (5008, .num 20), (5016, .num 3)], [0, 1, 2, 3]⟩ ∧
    (∀ addr, Mem.read [(5000, .num 1), (5008, .num 20), (5016, .num 3)] addr ≠
        frame_mem.read addr →
      ∃ k ∈ [0, 1, 2, 3], assigns_to frame_statements (some [5000, 5008, 5016]) addr k) :=
  ⟨by decide!,
    (C33_only_assign_writes.1 plain_host frame_mem 10 frame_statements three_constants
      (some [5000, 5008, 5016])
      ⟨.num 30, [(5000, .num 1), (5008, .num 20), (5016, .num 3)], [0, 1, 2, 3]⟩
      (by decide!)).2⟩

/-! ## C36: constant folding keeps the value; C37: the value of a unary operator run -/

theorem eval_native_node (h : Host) (mem : Mem) (type : Nat) (payload : Payload)
    (ps : List expr_native) (ctx : Nat) :
    eval_native h mem (.node type payload ps ctx) =
      if type_mask type = TE_CONSTANT then payload.as_value
      else if type_mask type = TE_VARIABLE then payload.as_ptr.bind mem.read
      else if type_mask type ≥ TE_FUNCTION0 ∧ type_mask type < TE_FUNCTION_MAX then
        match payload.as_ptr, eval_native.eval_args h mem ps with
        | some fn, some args =>
          if args.length = type_mask type - TE_FUNCTION0 then call_address h fn 0 mem args
          else none
        | _, _ => none
      else if type_mask type ≥ TE_CLOSURE0 ∧ type_mask type < TE_CLOSURE_MAX then
        match payload.as_ptr, eval_native.eval_args h mem ps with
        | some fn, some args =>
          if args.length = type_mask type - TE_CLOSURE0 then call_address h fn ctx mem args
          else none
        | _, _ => none
      else some .nan := by
  rw [eval_native]

theorem eval_args_nil (h : Host) (mem : Mem) : eval_native.eval_args h mem [] = some [] := by
  rw [eval_native.eval_args]

theorem eval_args_cons (h : Host) (mem : Mem) (p : expr_native) (ps : List expr_native) :
    eval_native.eval_args h mem (p :: ps) =
      (eval_native h mem p).bind
        (fun v => (eval_native.eval_args h mem ps).map (fun vs => v :: vs)) := by
  rw [eval_native.eval_args]
  cases eval_native h mem p <;> cases eval_native.eval_args h mem ps <;> rfl

theorem eval_args_congr (h : Host) (mem mem2 : Mem) {ps qs : List expr_native}
    (hf : List.Forall₂ (fun p q => eval_native h mem2 q = eval_native h mem p) ps qs) :
    eval_native.eval_args h mem2 qs = eval_native.eval_args h mem ps := by
  induction hf with
  | nil => rw [eval_args_nil, eval_args_nil]
  | cons hab _ ih => rw [eval_args_cons, eval_args_cons, hab, ih]

/-- The value of a call depends on its arguments only through their values. -/
theorem eval_native_args (h : Host) (mem : Mem) (type : Nat) (payload : Payload)
    (ps qs : List expr_native) (ctx : Nat)
    (ha : eval_native.eval_args h mem qs = eval_native.eval_args h mem ps) :
    eval_native h mem (.node type payload qs ctx) = eval_native h mem (.node type payload ps ctx) := by
  rw [eval_native_node, eval_native_node, ha]

theorem call_address_mem (h : Host) (fn c : Nat) (m1 m2 : Mem) (args : List Scalar)
    (hd : ∀ (m1 m2 : Mem) (args : List Scalar), h.call fn c m1 args = h.call fn c m2 args) :
    call_address h fn c m1 args = call_address h fn c m2 args := by
  unfold call_address
  cases builtin_impl h.libc fn with
  | some f => rfl
  | none => exact hd m1 m2 args

/-- A call flagged Pure on constants has the same value in every state of host storage. -/
theorem eval_native_pure_const (h : Host) (mem mem2 : Mem) (type : Nat) (payload : Payload)
    (ps : List expr_native) (ctx : Nat)
    (hc : ps.all (fun p => p.type == some TE_CONSTANT) = true)
    (hp : is_pure type = true)
    (hd : pure_is_deterministic h (.node type payload ps ctx)) :
    eval_native h mem2 (.node type payload ps ctx) = eval_native h mem (.node type payload ps ctx) := by
  have ha : eval_native.eval_args h mem2 ps = eval_native.eval_args h mem ps := by
    apply eval_args_congr
    have : ∀ l : List expr_native, l.all (fun p => p.type == some TE_CONSTANT) = true →
        List.Forall₂ (fun p q => eval_native h mem2 q = eval_native h mem p) l l := by
      intro l
      induction l with
      | nil => intro _; exact List.Forall₂.nil
      | cons x l ih =>
        intro hall
        rw [List.all_cons, Bool.and_eq_true] at hall
        refine List.Forall₂.cons ?_ (ih hall.2)
        cases x with
        | null => exact absurd hall.1 (by decide)
        | node t p xs c =>
          have ht : t = TE_CONSTANT := by simpa [expr_native.type] using hall.1
          rw [eval_native_node, eval_native_node, ht]
          rfl
    exact this ps hc
  obtain ⟨hv, hcall⟩ := hd hp
  rw [eval_native_node, eval_native_node, ha, if_neg hv, if_neg hv]
  by_cases h1 : type_mask type = TE_CONSTANT
  · rw [if_pos h1, if_pos h1]
  rw [if_neg h1, if_neg h1]
  cases hpl : payload with
  | value v => rfl
  | ptr fn =>
    cases eval_native.eval_args h mem ps with
    | none => rfl
    | some args =>
      simp only [Payload.as_ptr]
      rw [call_address_mem h fn 0 mem2 mem args (hcall fn hpl 0),
        call_address_mem h fn ctx mem2 mem args (hcall fn hpl ctx)]

/-- The tree `optimize` returns has, in every state of host storage, the value of the tree
it was given. -/
theorem optimize_value (h : Host) (mem mem2 : Mem) :
    ∀ (t r : expr_native), optimize h mem t = some r →
      (∀ u ∈ under_pure t, pure_is_deterministic h u) →
      eval_native h mem2 r = eval_native h mem2 t := by
  intro t
  induction t using expr_native.tree_induction with
  | hnull => intro r e; rw [optimize] at e; cases e
  | hnode type payload ps ctx ih =>
    intro r e hw
    rw [optimize_node] at e
    by_cases h1 : type = TE_CONSTANT
    · rw [if_pos h1] at e; rw [← Option.some.inj e]
    rw [if_neg h1] at e
    by_cases h2 : type = TE_VARIABLE
    · rw [if_pos h2] at e; rw [← Option.some.inj e]
    rw [if_neg h2] at e
    by_cases h3 : is_pure type = true
    · rw [if_pos h3] at e
      cases hps : optimize.optimize_args h mem ps with
      | none => rw [hps] at e; cases e
      | some ps1 =>
        rw [hps] at e
        simp only [] at e
        have hfa := optimize_args_forall h mem ps ps1 hps
        have hmem : ∀ x ∈ ps, ∀ u ∈ under_pure x, pure_is_deterministic h u := by
          intro x hx u hu
          apply hw
          rw [under_pure, if_pos h3]
          exact List.mem_cons_of_mem _ ((mem_all_under_pure ps u).mpr ⟨x, hx, hu⟩)
        have hroot : pure_is_deterministic h (.node type payload ps ctx) := by
          apply hw
          rw [under_pure]
          exact List.mem_cons_self _ _
        have hargs : eval_native.eval_args h mem2 ps1 = eval_native.eval_args h mem2 ps := by
          apply eval_args_congr
          have : ∀ (l l1 : List expr_native),
              List.Forall₂ (fun p q => optimize h mem p = some q) l l1 → (∀ x ∈ l, x ∈ ps) →
              List.Forall₂ (fun p q => eval_native h mem2 q = eval_native h mem2 p) l l1 := by
            intro l l1 hf
            induction hf with
            | nil => intro _; exact List.Forall₂.nil
            | cons hab _ ih2 =>
              intro hsub
              exact List.Forall₂.cons
                (ih _ (hsub _ (List.mem_cons_self _ _)) _ hab
                  (hmem _ (hsub _ (List.mem_cons_self _ _))))
                (ih2 (fun x hx => hsub x (List.mem_cons_of_mem _ hx)))
          exact this ps ps1 hfa (fun x hx => hx)
        have hnode := eval_native_args h mem2 type payload ps ps1 ctx hargs
        by_cases hall : ps1.all (fun p => p.type == some TE_CONSTANT) = true
        · rw [if_pos hall] at e
          cases hv : eval_native h mem (.node type payload ps1 ctx) with
          | none => rw [hv] at e; cases e
          | some value =>
            rw [hv] at e
            rw [← Option.some.inj e, ← hnode,
              eval_native_pure_const h mem mem2 type payload ps1 ctx hall h3 hroot, hv,
              eval_native_node]
            rfl
        · rw [if_neg hall] at e
          rw [← Option.some.inj e]
          exact hnode
    · rw [if_neg h3] at e; rw [← Option.some.inj e]

/-- C36: the tree `optimize` returns has, in every state of host storage, the value
`eval_native` gives for the tree it was given, when every node flagged Pure that
`optimize` comes to is a constant or a call whose host callable is a function of its
arguments and context alone; and a Variable node or a call not flagged Pure is returned
as it is. -/
theorem C36_optimize_preserves_value (h : Host) (mem mem2 : Mem) (t r : expr_native)
    (e : optimize h mem t = some r)
    (hw : ∀ u ∈ under_pure t, pure_is_deterministic h u) :
    eval_native h mem2 r = eval_native h mem2 t ∧
    (∀ type payload ps ctx, t = .node type payload ps ctx →
      type = TE_VARIABLE ∨ is_pure type = false → r = t) := by
  refine ⟨optimize_value h mem mem2 t r e hw, ?_⟩
  intro type payload ps ctx ht hp
  have hpure : is_pure type = false := by
    rcases hp with hp | hp
    · rw [hp]; rfl
    · exact hp
  rw [ht, optimize_not_pure h mem type payload ps ctx hpure] at e
  rw [ht]
  exact (Option.some.inj e).symm

/-- C36 at the tree of `x+(1+2)`, folded to `x+3`: both have the value 10 when the cell
of `x` holds 7, whatever the cell held when `optimize` ran. -/
theorem C36_optimize_preserves_value_witness :
    optimize plain_host [(5000, .num 0)] x_plus_sum =
      some (binary impl.add (.node TE_VARIABLE (.ptr 5000) [] 0)
        (.node TE_CONSTANT (.value (.num 3)) [] 0)) ∧
    eval_native plain_host [(5000, .num 7)] x_plus_sum = some (.num 10) ∧
    eval_native plain_host [(5000, .num 7)]
        (binary impl.add (.node TE_VARIABLE (.ptr 5000) [] 0)
          (.node TE_CONSTANT (.value (.num 3)) [] 0)) =
      eval_native plain_host [(5000, .num 7)] x_plus_sum :=
  ⟨by decide!, by decide!,
    (C36_optimize_preserves_value plain_host [(5000, .num 0)] [(5000, .num 7)] x_plus_sum _
      (by decide!)
      (fun u hu => by
        have hm : u ∈ [x_plus_sum, .node TE_VARIABLE (.ptr 5000) [] 0,
            binary impl.add (.node TE_CONSTANT (.value (.num 1)) [] 0)
              (.node TE_CONSTANT (.value (.num 2)) [] 0),
            .node TE_CONSTANT (.value (.num 1)) [] 0,
            .node TE_CONSTANT (.value (.num 2)) [] 0] := hu
        simp only [List.mem_cons, List.mem_singleton, List.not_mem_nil, or_false] at hm
        rcases hm with e | e | e | e | e <;> rw [e] <;>
          first
          | exact fun hp => absurd hp (by decide)
          | exact fun _ => ⟨by decide, fun _ _ _ _ _ _ => rfl⟩)).1⟩

theorem reads_ops_split (c : Libc) (fs gs : List Nat) :
    ∀ s s2, reads_ops c (fs ++ gs) s s2 → ∃ s1, reads_ops c fs s s1 ∧ reads_ops c gs s1 s2 := by
  induction fs with
  | nil => intro s s2 h; exact ⟨s, rfl, h⟩
  | cons f fs ih =>
    intro s s2 h
    simp only [List.cons_append, reads_ops] at h
    obtain ⟨s1, a, b⟩ := ih _ _ h.2.2
    exact ⟨s1, ⟨h.1, h.2.1, a⟩, b⟩

theorem eval_unary_builtin (h : Host) (mem : Mem) (fn : Nat) (g : Scalar → Scalar)
    (b : expr_native) (v : Scalar) (hb : builtin_impl h.libc fn = some (fn1 g))
    (hv : eval_native h mem b = some v) :
    eval_native h mem (.node (TE_FUNCTION1 ||| TE_FLAG_PURE) (.ptr fn) [b] 0) = some (g v) := by
  rw [eval_native_node, eval_args_cons, eval_args_nil, hv]
  have h1 : type_mask (TE_FUNCTION1 ||| TE_FLAG_PURE) = 9 := by decide
  rw [h1]
  simp only [TE_CONSTANT, TE_VARIABLE, TE_FUNCTION0, TE_FUNCTION_MAX, Payload.as_ptr,
    Option.bind, Option.map, List.length_cons, List.length_nil]
  unfold call_address
  rw [hb]
  rfl

/-- The node `power` builds has the value `wrap_value` of the value of the operand. -/
theorem eval_power_wrap (h : Host) (mem : Mem) (sign logical : Int) (b : expr_native)
    (v : Scalar) (hv : eval_native h mem b = some v) :
    eval_native h mem (power_wrap sign logical b) = some (wrap_value sign logical v) := by
  have ha : arity (TE_FUNCTION1 ||| TE_FLAG_PURE) = 1 := by decide
  have hn : ∀ f, unary_node f b =
      .node (TE_FUNCTION1 ||| TE_FLAG_PURE) (.ptr (find_builtin_address f)) [b] 0 := by
    intro f
    simp [unary_node, new_expr, expr_native.set_function, ha]
  unfold power_wrap wrap_value
  by_cases hs : sign = 1
  · rw [if_pos hs, if_pos hs]
    by_cases h0 : logical = 0
    · rw [if_pos h0, if_pos h0]; exact hv
    rw [if_neg h0, if_neg h0]
    by_cases h1 : logical = -1
    · rw [if_pos h1, if_pos h1, hn, fba_logical_not]
      exact eval_unary_builtin h mem impl.logical_not (fun a => .ofBool a.isZero) b v rfl hv
    · rw [if_neg h1, if_neg h1, hn, fba_logical_notnot]
      exact eval_unary_builtin h mem impl.logical_notnot (fun a => .ofBool a.nonZero) b v rfl hv
  · rw [if_neg hs, if_neg hs]
    by_cases h0 : logical = 0
    · rw [if_pos h0, if_pos h0, hn, fba_negate]
      exact eval_unary_builtin h mem impl.negate Scalar.neg b v rfl hv
    rw [if_neg h0, if_neg h0]
    by_cases h1 : logical = -1
    · rw [if_pos h1, if_pos h1, hn, fba_negate_logical_not]
      exact eval_unary_builtin h mem impl.negate_logical_not
        (fun a => (Scalar.ofBool a.isZero).neg) b v rfl hv
    · rw [if_neg h1, if_neg h1, hn, fba_negate_logical_notnot]
      exact eval_unary_builtin h mem impl.negate_logical_notnot
        (fun a => (Scalar.ofBool a.nonZero).neg) b v rfl hv

theorem neg_neg_scalar (x : Scalar) : x.neg.neg = x := by
  cases x <;> simp [Scalar.neg]

theorem isZero_neg (x : Scalar) : x.neg.isZero = x.isZero := by
  cases x <;> simp [Scalar.neg, Scalar.isZero]

theorem isZero_ofBool (b : Bool) : (Scalar.ofBool b).isZero = !b := by
  cases b <;> decide

theorem is_unary_signs_cons (ch : Nat) (p : List Nat) (hp : is_unary_signs (ch :: p)) :
    (ch = '+'.toNat ∨ ch = '-'.toNat ∨ ch = '!'.toNat) ∧ is_unary_signs p :=
  ⟨hp ch (List.mem_cons_self _ _), fun x hx => hp x (List.mem_cons_of_mem _ hx)⟩

/-- Whether the value after a unary prefix is zero, by the number of `!` in the prefix. -/
theorem prefix_value_isZero (p : List Nat) (v : Scalar) (hp : is_unary_signs p) :
    (prefix_value p v).isZero =
      if p.count '!'.toNat % 2 = 0 then v.isZero else !v.isZero := by
  induction p with
  | nil => rfl
  | cons ch p ih =>
    obtain ⟨hch, hp1⟩ := is_unary_signs_cons ch p hp
    have ih := ih hp1
    show (prefix_char_value ch (prefix_value p v)).isZero = _
    unfold prefix_char_value
    by_cases h1 : ch = '+'.toNat
    · rw [if_pos h1, ih, List.count_cons_of_ne (by rw [h1]; decide)]
    rw [if_neg h1]
    by_cases h2 : ch = '-'.toNat
    · rw [if_pos h2, isZero_neg, ih, List.count_cons_of_ne (by rw [h2]; decide)]
    rw [if_neg h2, isZero_ofBool, ih]
    have h3 : ch = '!'.toNat := by
      rcases hch with e | e | e
      · exact absurd e h1
      · exact absurd e h2
      · exact e
    rw [h3, List.count_cons_self]
    by_cases hc : p.count '!'.toNat % 2 = 0
    · rw [if_pos hc, if_neg (by omega)]
    · rw [if_neg hc, if_pos (by omega), Bool.not_not]

/-- The value after a run of `+` and `-`. -/
theorem prefix_value_signs (p1 : List Nat) (w : Scalar)
    (h1 : ∀ ch ∈ p1, ch = '+'.toNat ∨ ch = '-'.toNat) :
    prefix_value p1 w = if p1.count '-'.toNat % 2 = 0 then w else w.neg := by
  induction p1 with
  | nil => rfl
  | cons ch p ih =>
    have ih := ih (fun x hx => h1 x (List.mem_cons_of_mem _ hx))
    show prefix_char_value ch (prefix_value p w) = _
    unfold prefix_char_value
    rcases h1 ch (List.mem_cons_self _ _) with e | e
    · rw [if_pos e, ih, List.count_cons_of_ne (by rw [e]; decide)]
    · rw [if_neg (by rw [e]; decide), if_pos e, ih, e, List.count_cons_self]
      by_cases hc : p.count '-'.toNat % 2 = 0
      · rw [if_pos hc, if_neg (by omega)]
      · rw [if_neg hc, if_pos (by omega), neg_neg_scalar]

/-- The value `power` gives for the counts it collects is the value of the prefix applied
character by character. -/
theorem wrap_value_signs (p1 p2 : List Nat) (v : Scalar)
    (h1 : ∀ ch ∈ p1, ch = '+'.toNat ∨ ch = '-'.toNat)
    (h2 : p2 = [] ∨ ∃ q, p2 = '!'.toNat :: q ∧ is_unary_signs q) :
    wrap_value (if p1.count '-'.toNat % 2 = 0 then 1 else -1)
        (logical_after (p2.count '!'.toNat) 0) v =
      prefix_value (p1 ++ p2) v := by
  have hw : prefix_value (p1 ++ p2) v = prefix_value p1 (prefix_value p2 v) := by
    unfold prefix_value; rw [List.foldr_append]
  rw [hw, prefix_value_signs p1 _ h1, logical_after_zero]
  have h3 : wrap_value (if p1.count '-'.toNat % 2 = 0 then 1 else -1)
      (if p2.count '!'.toNat = 0 then 0 else if p2.count '!'.toNat % 2 = 1 then -1 else 1) v =
      if p1.count '-'.toNat % 2 = 0 then
        wrap_value 1
          (if p2.count '!'.toNat = 0 then 0 else if p2.count '!'.toNat % 2 = 1 then -1 else 1) v
      else
        (wrap_value 1
          (if p2.count '!'.toNat = 0 then 0
           else if p2.count '!'.toNat % 2 = 1 then -1 else 1) v).neg := by
    by_cases hc : p1.count '-'.toNat % 2 = 0
    · rw [if_pos hc, if_pos hc]
    · rw [if_neg hc, if_neg hc]
      unfold wrap_value
      rw [if_neg (by decide), if_pos rfl]
      by_cases a : (if p2.count '!'.toNat = 0 then (0 : Int)
          else if p2.count '!'.toNat % 2 = 1 then -1 else 1) = 0
      · rw [if_pos a, if_pos a]
      · rw [if_neg a, if_neg a]
        by_cases b : (if p2.count '!'.toNat = 0 then (0 : Int)
            else if p2.count '!'.toNat % 2 = 1 then -1 else 1) = -1
        · rw [if_pos b, if_pos b]
        · rw [if_neg b, if_neg b]
  rw [h3]
  have h4 : wrap_value 1
      (if p2.count '!'.toNat = 0 then 0 else if p2.count '!'.toNat % 2 = 1 then -1 else 1) v =
      prefix_value p2 v := by
    rcases h2 with e | ⟨q, e, hq⟩
    · rw [e]; rfl
    · rw [e, List.count_cons_self]
      show _ = prefix_char_value '!'.toNat (prefix_value q v)
      have hpc : prefix_char_value '!'.toNat (prefix_value q v) =
          Scalar.ofBool (prefix_value q v).isZero := by
        unfold prefix_char_value
        rw [if_neg (by decide), if_neg (by decide)]
      rw [hpc, prefix_value_isZero q v hq]
      by_cases hc : q.count '!'.toNat % 2 = 0
      · have hl : (if q.count '!'.toNat + 1 = 0 then (0 : Int)
            else if (q.count '!'.toNat + 1) % 2 = 1 then -1 else 1) = -1 := by
          rw [if_neg (by omega), if_pos (by omega)]
        rw [hl, if_pos hc]
        unfold wrap_value
        rw [if_pos rfl, if_neg (by decide), if_pos rfl]
      · have hl : (if q.count '!'.toNat + 1 = 0 then (0 : Int)
            else if (q.count '!'.toNat + 1) % 2 = 1 then -1 else 1) = 1 := by
          rw [if_neg (by omega), if_neg (by omega)]
        rw [hl, if_neg hc]
        unfold wrap_value
        rw [if_pos rfl, if_neg (by decide), if_neg (by decide)]
        rfl
  rw [h4]

theorem prefix_split (p : List Nat) (hp : is_unary_signs p) :
    ∃ p1 p2, p = p1 ++ p2 ∧ (∀ ch ∈ p1, ch = '+'.toNat ∨ ch = '-'.toNat) ∧
      (p2 = [] ∨ ∃ q, p2 = '!'.toNat :: q ∧ is_unary_signs q) := by
  induction p with
  | nil => exact ⟨[], [], rfl, fun _ hx => absurd hx (List.not_mem_nil _), Or.inl rfl⟩
  | cons ch p ih =>
    obtain ⟨hch, hp1⟩ := is_unary_signs_cons ch p hp
    by_cases hb : ch = '!'.toNat
    · exact ⟨[], ch :: p, rfl, fun _ hx => absurd hx (List.not_mem_nil _),
        Or.inr ⟨p, by rw [hb], hp1⟩⟩
    · obtain ⟨p1, p2, a, b, c⟩ := ih hp1
      refine ⟨ch :: p1, p2, by rw [a]; rfl, ?_, c⟩
      intro x hx
      rcases List.mem_cons.mp hx with e | e
      · rw [e]
        rcases hch with e1 | e1 | e1
        · exact Or.inl e1
        · exact Or.inr e1
        · exact absurd e1 hb
      · exact b x e

theorem power_sign_chars (c : Libc) (p1 : List Nat)
    (h1 : ∀ ch ∈ p1, ch = '+'.toNat ∨ ch = '-'.toNat) :
    ∀ (s s1 : state) (sign : Int) (fuel : Nat),
      reads_ops c (p1.map unary_op) s s1 → s1.is_op ["add", "sub"] = false →
      p1.length ≤ fuel →
      power_sign c (fuel + 1) s sign =
        some (s1, if p1.count '-'.toNat % 2 = 0 then sign else -sign) := by
  induction p1 with
  | nil =>
    intro s s1 sign fuel hr hn _
    simp only [List.map_nil, reads_ops] at hr
    subst hr
    simp [power_sign, hn]
  | cons ch p ih =>
    intro s s1 sign fuel hr hn hf
    have ih := ih (fun x hx => h1 x (List.mem_cons_of_mem _ hx))
    simp only [List.map_cons, reads_ops] at hr
    obtain ⟨ht, hfn, hrest⟩ := hr
    obtain ⟨k, rfl⟩ : ∃ k, fuel = k + 1 := ⟨fuel - 1, by simp at hf; omega⟩
    rcases h1 ch (List.mem_cons_self _ _) with e | e
    · have hu : unary_op ch = impl.add := by rw [e]; rfl
      have hop : s.is_op ["add", "sub"] = true := by
        rw [is_op_sign, ht, hfn, hu]; decide
      rw [power_sign, if_pos hop, fba_sub, hfn, hu, if_neg (by decide),
        ih (next_token c s) s1 sign k hrest hn (by simp at hf; omega),
        List.count_cons_of_ne (by rw [e]; decide)]
    · have hu : unary_op ch = impl.sub := by rw [e]; rfl
      have hop : s.is_op ["add", "sub"] = true := by
        rw [is_op_sign, ht, hfn, hu]; decide
      rw [power_sign, if_pos hop, fba_sub, hfn, hu, if_pos rfl,
        ih (next_token c s) s1 (-sign) k hrest hn (by simp at hf; omega), e,
        List.count_cons_self]
      by_cases hc : p.count '-'.toNat % 2 = 0
      · rw [if_pos hc, if_neg (by omega)]
      · rw [if_neg hc, if_pos (by omega), neg_neg]

theorem power_logical_chars (c : Libc) (q : List Nat) (hq : is_unary_signs q) :
    ∀ (s s2 : state) (logical : Int) (fuel : Nat),
      reads_ops c (q.map unary_op) s s2 → s2.is_op ["add", "sub", "logical_not"] = false →
      q.length ≤ fuel →
      power_logical c (fuel + 1) s logical =
        some (s2, logical_after (q.count '!'.toNat) logical) := by
  induction q with
  | nil =>
    intro s s2 logical fuel hr hn _
    simp only [List.map_nil, reads_ops] at hr
    subst hr
    simp [power_logical, hn, logical_after]
  | cons ch p ih =>
    intro s s2 logical fuel hr hn hf
    obtain ⟨hch, hp1⟩ := is_unary_signs_cons ch p hq
    have ih := ih hp1
    simp only [List.map_cons, reads_ops] at hr
    obtain ⟨ht, hfn, hrest⟩ := hr
    obtain ⟨k, rfl⟩ : ∃ k, fuel = k + 1 := ⟨fuel - 1, by simp at hf; omega⟩
    have hop : s.is_op ["add", "sub", "logical_not"] = true := by
      rw [is_op_unary, ht, hfn]
      rcases hch with e | e | e <;> rw [e] <;> decide
    rw [power_logical, if_pos hop, fba_logical_not, hfn]
    rcases hch with e | e | e
    · rw [e, if_neg (by decide), ih (next_token c s) s2 logical k hrest hn (by simp at hf; omega),
        List.count_cons_of_ne (by decide)]
    · rw [e, if_neg (by decide), ih (next_token c s) s2 logical k hrest hn (by simp at hf; omega),
        List.count_cons_of_ne (by decide)]
    · rw [e, if_pos (by decide), ih (next_token c s) s2 _ k hrest hn (by simp at hf; omega),
        List.count_cons_self]
      rfl

/-- The parser `power` on a unary prefix: the operand wrapped by the counts of the prefix,
with the value of the prefix applied from right to left. -/
theorem power_prefix_value (h : Host) (mem : Mem) (p : List Nat) (hp : is_unary_signs p)
    (s s2 s3 : state) (b : expr_native) (v : Scalar) (fuel : Nat)
    (hr : reads_ops h.libc (p.map unary_op) s s2)
    (hn : s2.is_op ["add", "sub", "logical_not"] = false) (hf : p.length ≤ fuel)
    (hb : base h.libc fuel s2 = some (b, s3)) (hv : eval_native h mem b = some v) :
    ∃ node, power h.libc (fuel + 1) s = some (node, s3) ∧
      eval_native h mem node = some (prefix_value p v) := by
  obtain ⟨p1, p2, e, h1, h2⟩ := prefix_split p hp
  rw [e, List.map_append] at hr
  obtain ⟨s1, r1, r2⟩ := reads_ops_split h.libc _ _ s s2 hr
  have hlen : p1.length ≤ fuel ∧ p2.length ≤ fuel := by
    rw [e, List.length_append] at hf; omega
  have hp2 : is_unary_signs p2 := by
    intro x hx
    exact hp x (by rw [e]; exact List.mem_append_right _ hx)
  have hs1 : s1.is_op ["add", "sub"] = false := by
    rcases h2 with e2 | ⟨q, e2, _⟩
    · rw [e2] at r2
      simp only [List.map_nil, reads_ops] at r2
      subst r2
      rw [is_op_unary] at hn
      rw [is_op_sign]
      cases ht : (s2.type == TOK_INFIX) <;> simp_all
    · rw [e2] at r2
      simp only [List.map_cons, reads_ops] at r2
      rw [is_op_sign, r2.2.1]
      have hu : unary_op '!'.toNat = impl.logical_not := rfl
      rw [hu]
      cases (s1.type == TOK_INFIX) <;> decide
  refine ⟨power_wrap (if p1.count '-'.toNat % 2 = 0 then 1 else -1)
    (logical_after (p2.count '!'.toNat) 0) b, ?_, ?_⟩
  · rw [power, power_sign_chars h.libc p1 h1 s s1 1 fuel r1 hs1 hlen.1]
    simp only []
    rw [power_logical_chars h.libc p2 hp2 s1 s2 0 fuel r2 hn hlen.2]
    simp only []
    rw [hb]
  · rw [eval_power_wrap h mem _ _ b v hv, wrap_value_signs p1 p2 v h1 h2, e]

/-- C37: for every string `p` over `+`, `-` and `!` that the lexer reads as operator
tokens before an operand, `power` returns one node over the operand, and the value of
this node is the value of the operand with the characters of `p` applied one at a time
from right to left, `+` as the identity, `-` as the negation and `!` as the map of zero
to 1 and of every other value to 0; so the `+` and `-` that `power` steps over after the
first `!` do not change the value. -/
theorem C37_unary_prefix_value (h : Host) (mem : Mem) (p : List Nat) (hp : is_unary_signs p)
    (s s2 s3 : state) (b : expr_native) (v : Scalar) (fuel : Nat)
    (hr : reads_ops h.libc (p.map unary_op) s s2)
    (hn : s2.is_op ["add", "sub", "logical_not"] = false) (hf : p.length ≤ fuel)
    (hb : base h.libc fuel s2 = some (b, s3)) (hv : eval_native h mem b = some v) :
    ∃ node, power h.libc (fuel + 1) s = some (node, s3) ∧
      eval_native h mem node = some (prefix_value p v) :=
  power_prefix_value h mem p hp s s2 s3 b v fuel hr hn hf hb hv

/-- C37 at the texts `!-2`, `!-!2`, `-!!2` and `--!!2`, with the values 0, 1, -1 and 1, and
at the prefix `!-!` of the second text read by `power`. -/
theorem C37_unary_prefix_value_witness :
    compile_and_eval plain_host [] (cstr "!-2") [] = .ok (.num 0) ∧
    compile_and_eval plain_host [] (cstr "!-!2") [] = .ok (.num 1) ∧
    compile_and_eval plain_host [] (cstr "-!!2") [] = .ok (.num (-1)) ∧
    compile_and_eval plain_host [] (cstr "--!!2") [] = .ok (.num 1) ∧
    prefix_value (cstr "!-!") (.num 2) = .num 1 ∧
    ∃ node, power exact_libc (9 + 1) (token exact_libc (cstr "!-!2") [] 0) =
        some (node, token exact_libc (cstr "!-!2") [] 4) ∧
      eval_native plain_host [] node = some (prefix_value (cstr "!-!") (.num 2)) :=
  ⟨by decide!, by decide!, by decide!, by decide!, by decide!,
    C37_unary_prefix_value plain_host [] (cstr "!-!") (by decide)
      (token exact_libc (cstr "!-!2") [] 0) (token exact_libc (cstr "!-!2") [] 3)
      (token exact_libc (cstr "!-!2") [] 4) (.node TE_CONSTANT (.value (.num 2)) [] 0) (.num 2) 9
      ⟨by decide!, by decide!, by decide!, by decide!, by decide!, by decide!, rfl⟩
      (by decide!) (by decide) (by decide!) (by decide!)⟩

/-! ## C32: calls without parentheses -/

/-- On a token that is no prefix operator `power` gives what `base` gives. -/
theorem power_of_base (c : Libc) (s t : state) (b : expr_native) (n : Nat)
    (hs : s.is_op ["add", "sub", "logical_not"] = false)
    (hb : yields (fun fuel => base c fuel s) n (b, t)) :
    yields (fun fuel => power c fuel s) (n + 1) (b, t) := by
  intro fuel hf
  obtain ⟨k, rfl⟩ : ∃ k, fuel = k + 1 := ⟨fuel - 1, by omega⟩
  have e : base c k s = some (b, t) := hb k (by omega)
  show power c (k + 1) s = _
  rw [power_unary_run c [] 0 s s s k rfl rfl hs (Nat.zero_le _) (Nat.zero_le _), e]
  rfl

/-- The application of an arity-1 function or closure without parentheses: `power` returns
the call on what `power` returns from the next token on. -/
theorem power_call_one (c : Libc) (s t : state) (p : expr_native) (n : Nat) (hc : is_call s)
    (ha : arity s.type = 1)
    (hp : yields (fun fuel => power c fuel (next_token c s)) n (p, t)) :
    yields (fun fuel => power c fuel s) (n + 2) ((call_node s).set_parameter 0 p, t) :=
  power_of_base c s t _ (n + 1) (call_no_sign s hc) (base_call_one c s t p n hc ha hp)

/-- What `power` returns, when the token after it is no binary operator, is what `list`
returns. -/
theorem list_of_power (c : Libc) (s t : state) (x : expr_native) (n : Nat)
    (hx : yields (fun fuel => power c fuel s) n (x, t))
    (he : ∀ m, is_level_op m t = false) :
    yields (fun fuel => list c fuel s) (n + 12) (x, t) :=
  level_lift c s t x 6 0 6 n rfl (le_refl _) hx (fun m _ _ => he m)

/-- What `power` returns, followed by a binary operator of level `l` and an operand token,
is the left operand of the operator. -/
theorem list_of_power_op (c : Libc) (s t : state) (x : expr_native) (n l : Nat)
    (hx : yields (fun fuel => power c fuel s) n (x, t))
    (hop : is_level_op l t = true) (hb : is_operand (next_token c t))
    (he : ∀ m, is_level_op m (next_token c (next_token c t)) = false) :
    yields (fun fuel => list c fuel s) (n + 40)
      (binary (level_function l t) x (operand_node (next_token c t)),
        next_token c (next_token c t)) := by
  have hl := is_level_op_le t l hop
  have X1 := level_lift c s t x (5 - l) (l + 1) 6 n (by omega) (le_refl _) hx
    (fun m hm _ => is_level_op_other t l m hop (by omega))
  have B1 := level_operand c (next_token c t) hb (5 - l) (l + 1) (by omega) (fun m _ => he m)
  have St := level_loop_stop c l hl (next_token c (next_token c t))
    (binary (level_function l t) x (operand_node (next_token c t))) (he l)
  have R := level_loop_round c l hl t _ x (operand_node (next_token c t)) _ hop B1 _ 1 St
  have V := level_parse_via c l hl s t x _ X1 _ _ R
  have L := level_lift c s _ _ l 0 l _ (by omega) (by omega) V (fun m _ _ => he m)
  exact yields_mono L (by omega)

/-- The parse of `f a op b` for a function or closure `f` of arity 1, operand tokens `a`
and `b` and a binary operator `op`. -/
theorem parse_call_op (c : Libc) (text : List Nat) (vars : List te_variable) (l : Nat)
    (hc : is_call (token c text vars 0)) (ha : arity (token c text vars 0).type = 1)
    (h1 : is_operand (token c text vars 1)) (h2 : is_level_op l (token c text vars 2) = true)
    (h3 : is_operand (token c text vars 3)) (h4 : (token c text vars 4).type = TOK_END) :
    parse c text vars =
      some (binary (level_function l (token c text vars 2))
        ((call_node (token c text vars 0)).set_parameter 0 (operand_node (token c text vars 1)))
        (operand_node (token c text vars 3)), token c text vars 4) := by
  have P := power_call_one c (token c text vars 0) _ _ 2 hc ha (power_operand c _ h1)
  exact parse_of_yields c text vars _ _
    (list_of_power_op c _ _ _ _ l P h2 h3 (end_not_level_op _ h4))

/-- The parse of `f -a` for a function or closure `f` of arity 1 and an operand token `a`. -/
theorem parse_call_negate (c : Libc) (text : List Nat) (vars : List te_variable)
    (hc : is_call (token c text vars 0)) (ha : arity (token c text vars 0).type = 1)
    (h1 : (token c text vars 1).type = TOK_INFIX ∧ (token c text vars 1).function = impl.sub)
    (h2 : is_operand (token c text vars 2)) (h3 : (token c text vars 3).type = TOK_END) :
    parse c text vars =
      some ((call_node (token c text vars 0)).set_parameter 0
        (.node (TE_FUNCTION1 ||| TE_FLAG_PURE) (.ptr impl.negate)
          [operand_node (token c text vars 2)] 0), token c text vars 3) := by
  have Q := power_prefix_operand c [true] 0 (token c text vars 1) (token c text vars 2)
    (token c text vars 2) ⟨h1.1, h1.2, rfl⟩ rfl h2
  have P := power_call_one c (token c text vars 0) _ _ _ hc ha Q
  exact parse_of_yields c text vars _ _ (list_of_power c _ _ _ _ P (end_not_level_op _ h3))

/-- The parse of `f g a` for functions or closures `f` and `g` of arity 1 and an operand
token `a`. -/
theorem parse_call_call (c : Libc) (text : List Nat) (vars : List te_variable)
    (hc : is_call (token c text vars 0)) (ha : arity (token c text vars 0).type = 1)
    (hc1 : is_call (token c text vars 1)) (ha1 : arity (token c text vars 1).type = 1)
    (h2 : is_operand (token c text vars 2)) (h3 : (token c text vars 3).type = TOK_END) :
    parse c text vars =
      some ((call_node (token c text vars 0)).set_parameter 0
        ((call_node (token c text vars 1)).set_parameter 0
          (operand_node (token c text vars 2))), token c text vars 3) := by
  have Q := power_call_one c (token c text vars 1) _ _ 2 hc1 ha1 (power_operand c _ h2)
  have P := power_call_one c (token c text vars 0) _ _ _ hc ha Q
  exact parse_of_yields c text vars _ _ (list_of_power c _ _ _ _ P (end_not_level_op _ h3))

/-- C32: a function or closure `f` of arity 1 applied without parentheses takes what `power`
parses from the next token on (the unary prefixes and one base) as its argument. So for
operand tokens `a`, `b`: `f a op b` parses as `op(f(a), b)` for every binary operator
`op` (`+`, `*` and the others), `f -a` as `f(negate(a))`, and `f g a` as `f(g(a))` for
`g` of arity 1. -/
theorem C32_call_without_parentheses :
    (∀ (c : Libc) (s t : state) (p : expr_native) (n : Nat),
      is_call s → arity s.type = 1 →
      yields (fun fuel => power c fuel (next_token c s)) n (p, t) →
      yields (fun fuel => base c fuel s) (n + 1) ((call_node s).set_parameter 0 p, t)) ∧
    (∀ (c : Libc) (text : List Nat) (vars : List te_variable) (l : Nat),
      is_call (token c text vars 0) → arity (token c text vars 0).type = 1 →
      is_operand (token c text vars 1) → is_level_op l (token c text vars 2) = true →
      is_operand (token c text vars 3) → (token c text vars 4).type = TOK_END →
      parse c text vars =
        some (binary (level_function l (token c text vars 2))
          ((call_node (token c text vars 0)).set_parameter 0 (operand_node (token c text vars 1)))
          (operand_node (token c text vars 3)), token c text vars 4)) ∧
    (∀ (c : Libc) (text : List Nat) (vars : List te_variable),
      is_call (token c text vars 0) → arity (token c text vars 0).type = 1 →
      (token c text vars 1).type = TOK_INFIX ∧ (token c text vars 1).function = impl.sub →
      is_operand (token c text vars 2) → (token c text vars 3).type = TOK_END →
      parse c text vars =
        some ((call_node (token c text vars 0)).set_parameter 0
          (.node (TE_FUNCTION1 ||| TE_FLAG_PURE) (.ptr impl.negate)
            [operand_node (token c text vars 2)] 0), token c text vars 3)) ∧
    (∀ (c : Libc) (text : List Nat) (vars : List te_variable),
      is_call (token c text vars 0) → arity (token c text vars 0).type = 1 →
      is_call (token c text vars 1) → arity (token c text vars 1).type = 1 →
      is_operand (token c text vars 2) → (token c text vars 3).type = TOK_END →
      parse c text vars =
        some ((call_node (token c text vars 0)).set_parameter 0
          ((call_node (token c text vars 1)).set_parameter 0
            (operand_node (token c text vars 2))), token c text vars 3)) :=
  ⟨fun c s t p n hc ha hp => base_call_one c s t p n hc ha hp,
    fun c text vars l hc ha h1 h2 h3 h4 => parse_call_op c text vars l hc ha h1 h2 h3 h4,
    fun c text vars hc ha h1 h2 h3 => parse_call_negate c text vars hc ha h1 h2 h3,
    fun c text vars hc ha hc1 ha1 h2 h3 => parse_call_call c text vars hc ha hc1 ha1 h2 h3⟩

/-- C32 at `sqrt 100 + 7` = 17 and `sqrt 100 * 7` = 70, at `sqrt -4`, and at
`asin sin -0.5`, which parses as `asin(sin(negate(0.5)))`. -/
theorem C32_call_without_parentheses_witness :
    compile_and_eval plain_host [] (cstr "sqrt 100 + 7") [] = .ok (.num 17) ∧
    compile_and_eval plain_host [] (cstr "sqrt 100 * 7") [] = .ok (.num 70) ∧
    parse exact_libc (cstr "sqrt 100 + 7") [] =
      some (binary (level_function 3 (token exact_libc (cstr "sqrt 100 + 7") [] 2))
        ((call_node (token exact_libc (cstr "sqrt 100 + 7") [] 0)).set_parameter 0
          (operand_node (token exact_libc (cstr "sqrt 100 + 7") [] 1)))
        (operand_node (token exact_libc (cstr "sqrt 100 + 7") [] 3)),
        token exact_libc (cstr "sqrt 100 + 7") [] 4) ∧
    parse exact_libc (cstr "sqrt -4") [] =
      some ((call_node (token exact_libc (cstr "sqrt -4") [] 0)).set_parameter 0
        (.node (TE_FUNCTION1 ||| TE_FLAG_PURE) (.ptr impl.negate)
          [operand_node (token exact_libc (cstr "sqrt -4") [] 2)] 0),
        token exact_libc (cstr "sqrt -4") [] 3) ∧
    (parse exact_libc (cstr "asin sin -0.5") []).map Prod.fst =
      some (.node (TE_FUNCTION1 ||| TE_FLAG_PURE) (.ptr impl.asin)
        [.node (TE_FUNCTION1 ||| TE_FLAG_PURE) (.ptr impl.sin)
          [.node (TE_FUNCTION1 ||| TE_FLAG_PURE) (.ptr impl.negate)
            [.node TE_CONSTANT (.value (.num (1 / 2))) [] 0] 0] 0] 0) :=
  ⟨by decide!, by decide!,
    C32_call_without_parentheses.2.1 exact_libc (cstr "sqrt 100 + 7") [] 3
      (by decide!) (by decide!) (by decide!) (by decide!) (by decide!) (by decide!),
    C32_call_without_parentheses.2.2.1 exact_libc (cstr "sqrt -4") []
      (by decide!) (by decide!) (by decide!) (by decide!) (by decide!),
    by decide!⟩

/-! ## C34: right-associative exponentiation -/

theorem pow_right_base_operand (c : Libc) (s : state) (h : is_operand s) (fuel : Nat) :
    pow_from_right.base c (fuel + 1) s = some (operand_node s, next_token c s) := by
  rw [pow_from_right.base]
  rcases h with h | h
  · have h1 : type_mask s.type = TOK_NUMBER := by rw [h]; decide
    simp only [h1, if_true, operand_node, h]
    rfl
  · have h1 : type_mask s.type ≠ TOK_NUMBER := by rw [h]; decide
    have h2 : type_mask s.type = TOK_VARIABLE := by rw [h]; decide
    have h3 : s.type ≠ TOK_NUMBER := by rw [h]; decide
    simp only [h1, h2, if_true, if_false, operand_node, h3]
    rfl

theorem pow_right_power_unary (c : Libc) (signs : List Bool) (bangs : Nat)
    (s s1 s2 : state) (fuel : Nat)
    (h1 : reads_ops c (signs.map (fun m => if m then impl.sub else impl.add)) s s1)
    (h2 : reads_ops c (List.replicate bangs impl.logical_not) s1 s2)
    (h3 : s2.is_op ["add", "sub", "logical_not"] = false)
    (hf1 : signs.length ≤ fuel) (hf2 : bangs ≤ fuel) :
    pow_from_right.power c (fuel + 1) s =
      (pow_from_right.base c fuel s2).map
        (fun r => (prefix_node (signs.count true) bangs r.1, r.2)) := by
  have hs1 : s1.is_op ["add", "sub"] = false := by
    cases bangs with
    | zero =>
      simp only [List.replicate_zero, reads_ops] at h2
      subst h2
      rw [is_op_unary] at h3
      rw [is_op_sign]
      cases ht : (s2.type == TOK_INFIX) <;> simp_all
    | succ n =>
      simp only [List.replicate_succ, reads_ops] at h2
      rw [is_op_sign, h2.2.1]
      have : impl.logical_not ≠ impl.add ∧ impl.logical_not ≠ impl.sub := by decide
      simp [this.1, this.2]
  rw [pow_from_right.power, power_sign_run c signs s s1 1 fuel h1 hs1 hf1]
  simp only []
  rw [power_logical_run c bangs s1 s2 0 fuel h2 h3 hf2]
  simp only []
  cases hb : pow_from_right.base c fuel s2 with
  | none => rfl
  | some r =>
    obtain ⟨b, s3⟩ := r
    simp only [Option.map_some']
    rw [← power_wrap_eq signs bangs b]

/-- A unary prefix before an operand token, in the build with `TE_POW_FROM_RIGHT`. -/
theorem pow_right_power_operand (c : Libc) (signs : List Bool) (bangs : Nat) (s s1 sa : state)
    (h1 : reads_ops c (signs.map (fun m => if m then impl.sub else impl.add)) s s1)
    (h2 : reads_ops c (List.replicate bangs impl.logical_not) s1 sa)
    (ha : is_operand sa) :
    yields (fun fuel => pow_from_right.power c fuel s) (signs.length + bangs + 2)
      (prefix_node (signs.count true) bangs (operand_node sa), next_token c sa) := by
  intro fuel hf
  obtain ⟨k, rfl⟩ : ∃ k, fuel = k + 1 + 1 := ⟨fuel - 2, by omega⟩
  show pow_from_right.power c (k + 1 + 1) s = _
  rw [pow_right_power_unary c signs bangs s s1 sa (k + 1) h1 h2 (operand_no_sign sa ha).2
    (by omega) (by omega), pow_right_base_operand c sa ha k]
  rfl

theorem right_chain_cons (a : expr_native) (t0 : Nat) (x0 : expr_native)
    (pre : List (Nat × expr_native)) :
    right_chain a ((t0, x0) :: pre) =
      .node (TE_FUNCTION2 ||| TE_FLAG_PURE) (.ptr t0) [a, right_chain x0 pre] 0 := rfl

/-- In the tree of a chain the node `insertion` points to has the last operand as its
second parameter, and hanging a new node there gives the tree of the longer chain. -/
theorem spine_chain (t : Nat) (r : expr_native) :
    ∀ (pre : List (Nat × expr_native)) (a : expr_native) (t0 : Nat) (x0 : expr_native),
      (spine_get (right_chain a ((t0, x0) :: pre)) pre.length).parameter 1 = chain_last x0 pre ∧
      spine_update (fun n => n.set_parameter 1 (binary t (chain_last x0 pre) r))
          (right_chain a ((t0, x0) :: pre)) pre.length =
        right_chain a ((t0, x0) :: pre ++ [(t, r)]) := by
  intro pre
  induction pre with
  | nil =>
    intro a t0 x0
    exact ⟨rfl, rfl⟩
  | cons p pre ih =>
    intro a t0 x0
    obtain ⟨t1, x1⟩ := p
    obtain ⟨i1, i2⟩ := ih x0 t1 x1
    refine ⟨?_, ?_⟩
    · show (spine_get (right_chain x0 ((t1, x1) :: pre)) pre.length).parameter 1 = _
      rw [i1]; rfl
    · rw [right_chain_cons a t0 x0]
      show expr_native.node _ _
        ([a, right_chain x0 ((t1, x1) :: pre)].set 1
          (spine_update _ (right_chain x0 ((t1, x1) :: pre)) pre.length)) 0 = _
      show expr_native.node _ _
        ([a, right_chain x0 ((t1, x1) :: pre)].set 1
          (spine_update (fun n => n.set_parameter 1 (binary t (chain_last x1 pre) r))
            (right_chain x0 ((t1, x1) :: pre)) pre.length)) 0 = _
      rw [i2]
      rfl

/-- The loop of `factor` with `TE_POW_FROM_RIGHT` on the rest of a chain. -/
theorem pow_right_loop (c : Libc) :
    ∀ (post : List (Nat × expr_native)) (a : expr_native) (t0 : Nat) (x0 : expr_native)
      (pre : List (Nat × expr_native)) (s se : state),
      reads_chain c s post se → se.is_op ["pow"] = false →
      ∃ m, yields (fun fuel => pow_from_right.factor_loop c fuel
          (right_chain a ((t0, x0) :: pre)) (some pre.length) s) m
        (right_chain a ((t0, x0) :: pre ++ post), se) := by
  intro post
  induction post with
  | nil =>
    intro a t0 x0 pre s se hr he
    simp only [reads_chain] at hr
    subst hr
    refine ⟨1, ?_⟩
    intro fuel hf
    obtain ⟨k, rfl⟩ : ∃ k, fuel = k + 1 := ⟨fuel - 1, by omega⟩
    show pow_from_right.factor_loop c (k + 1) _ _ se = _
    rw [pow_from_right.factor_loop, if_neg (by simp [he]), List.append_nil]
  | cons p post ih =>
    intro a t0 x0 pre s se hr he
    obtain ⟨t, x⟩ := p
    simp only [reads_chain] at hr
    obtain ⟨hop, hfn, s1, n, hy, hrest⟩ := hr
    obtain ⟨m, hm⟩ := ih a t0 x0 (pre ++ [(t, x)]) s1 se hrest he
    refine ⟨max n m + 1, ?_⟩
    intro fuel hf
    obtain ⟨k, rfl⟩ : ∃ k, fuel = k + 1 := ⟨fuel - 1, by omega⟩
    have e : pow_from_right.power c k (next_token c s) = some (x, s1) := hy k (by omega)
    show pow_from_right.factor_loop c (k + 1) _ _ s = _
    rw [pow_from_right.factor_loop, if_pos hop, e]
    simp only []
    obtain ⟨g1, g2⟩ := spine_chain t x pre a t0 x0
    rw [g1, binary_node_eq, hfn, g2]
    have := hm k (by omega)
    simp only [List.length_append, List.length_singleton, List.append_assoc,
      List.singleton_append, List.cons_append, List.nil_append] at this
    exact this

/-- The parser `factor` with `TE_POW_FROM_RIGHT` on a chain `x0 ^ x1 ^ ... ^ xk`: the unary
wrapper of `x0`, if it has one, over the chain nested to the right. -/
theorem pow_right_factor_chain (c : Libc) (s s1 se : state) (x0 : expr_native)
    (chain : List (Nat × expr_native)) (n : Nat)
    (h0 : yields (fun fuel => pow_from_right.power c fuel s) n (x0, s1))
    (hc : reads_chain c s1 chain se) (he : se.is_op ["pow"] = false) :
    ∃ m, yields (fun fuel => pow_from_right.factor c fuel s) m
      (if (peel_unary x0).1 ≠ 0 then
          (new_expr (TE_FUNCTION1 ||| TE_FLAG_PURE)
            [right_chain (peel_unary x0).2 chain]).set_function (peel_unary x0).1
        else right_chain (peel_unary x0).2 chain, se) := by
  have hloop : ∃ m, yields (fun fuel => pow_from_right.factor_loop c fuel (peel_unary x0).2
      none s1) m (right_chain (peel_unary x0).2 chain, se) := by
    cases chain with
    | nil =>
      simp only [reads_chain] at hc
      subst hc
      refine ⟨1, ?_⟩
      intro fuel hf
      obtain ⟨k, rfl⟩ : ∃ k, fuel = k + 1 := ⟨fuel - 1, by omega⟩
      show pow_from_right.factor_loop c (k + 1) _ _ se = _
      rw [pow_from_right.factor_loop, if_neg (by simp [he])]
      rfl
    | cons p post =>
      obtain ⟨t, x⟩ := p
      simp only [reads_chain] at hc
      obtain ⟨hop, hfn, s2, n2, hy, hrest⟩ := hc
      obtain ⟨m, hm⟩ := pow_right_loop c post (peel_unary x0).2 t x [] s2 se hrest he
      refine ⟨max n2 m + 1, ?_⟩
      intro fuel hf
      obtain ⟨k, rfl⟩ : ∃ k, fuel = k + 1 := ⟨fuel - 1, by omega⟩
      have e : pow_from_right.power c k (next_token c s1) = some (x, s2) := hy k (by omega)
      show pow_from_right.factor_loop c (k + 1) _ _ s1 = _
      rw [pow_from_right.factor_loop, if_pos hop, e]
      simp only []
      rw [binary_node_eq, hfn]
      exact hm k (by omega)
  obtain ⟨m, hm⟩ := hloop
  refine ⟨max n m + 1, ?_⟩
  intro fuel hf
  obtain ⟨k, rfl⟩ : ∃ k, fuel = k + 1 := ⟨fuel - 1, by omega⟩
  have e : pow_from_right.power c k s = some (x0, s1) := h0 k (by omega)
  show pow_from_right.factor c (k + 1) s = _
  have e2 : pow_from_right.factor_loop c k (peel_unary x0).2 none s1 =
      some (right_chain (peel_unary x0).2 chain, se) := hm k (by omega)
  rw [pow_from_right.factor, e]
  simp only []
  rw [e2]

theorem peel_unary_operand (s : state) : peel_unary (operand_node s) = (0, operand_node s) := by
  unfold operand_node
  by_cases h : s.type = TOK_NUMBER
  · rw [if_pos h]; rfl
  · rw [if_neg h]; rfl

theorem peel_unary_negate (b : expr_native) :
    peel_unary (.node (TE_FUNCTION1 ||| TE_FLAG_PURE) (.ptr impl.negate) [b] 0) =
      (impl.negate, b) := by
  unfold peel_unary
  simp only []
  rw [if_pos ⟨trivial, Or.inl fba_negate.symm⟩]
  rfl

theorem pow_op_function (s : state) (h : s.is_op ["pow"] = true) : s.function = impl.pow := by
  simp only [state.is_op, fba_pow, List.any_cons, List.any_nil, Bool.or_false,
    Bool.and_eq_true, beq_iff_eq] at h
  exact h.2

theorem pow_right_operand (c : Libc) (s : state) (h : is_operand s) :
    yields (fun fuel => pow_from_right.power c fuel s) 2 (operand_node s, next_token c s) :=
  pow_right_power_operand c [] 0 s s s rfl rfl h

theorem pow_right_negated (c : Libc) (s : state)
    (h1 : s.type = TOK_INFIX ∧ s.function = impl.sub) (h : is_operand (next_token c s)) :
    yields (fun fuel => pow_from_right.power c fuel s) 3
      (.node (TE_FUNCTION1 ||| TE_FLAG_PURE) (.ptr impl.negate)
        [operand_node (next_token c s)] 0, next_token c (next_token c s)) :=
  pow_right_power_operand c [true] 0 s (next_token c s) (next_token c s)
    ⟨h1.1, h1.2, rfl⟩ rfl h

/-- The chain `a ^ b ^ c` of operand tokens. -/
theorem pow_right_three (c : Libc) (s : state) (ha : is_operand s)
    (h1 : (lex_run c 1 s).is_op ["pow"] = true) (hb : is_operand (lex_run c 2 s))
    (h3 : (lex_run c 3 s).is_op ["pow"] = true) (hc : is_operand (lex_run c 4 s))
    (he : (lex_run c 5 s).is_op ["pow"] = false) :
    ∃ m, yields (fun fuel => pow_from_right.factor c fuel s) m
      (binary impl.pow (operand_node s)
        (binary impl.pow (operand_node (lex_run c 2 s)) (operand_node (lex_run c 4 s))),
        lex_run c 5 s) := by
  have h := pow_right_factor_chain c s (lex_run c 1 s) (lex_run c 5 s) (operand_node s)
    [(impl.pow, operand_node (lex_run c 2 s)), (impl.pow, operand_node (lex_run c 4 s))] 2
    (pow_right_operand c s ha)
    ⟨h1, pow_op_function _ h1, lex_run c 3 s, 2, pow_right_operand c _ hb,
      h3, pow_op_function _ h3, lex_run c 5 s, 2, pow_right_operand c _ hc, rfl⟩ he
  rw [peel_unary_operand] at h
  exact h

/-- The text `-a ^ b` for operand tokens `a` and `b`. -/
theorem pow_right_negate_left (c : Libc) (s : state)
    (h0 : s.type = TOK_INFIX ∧ s.function = impl.sub) (ha : is_operand (lex_run c 1 s))
    (h2 : (lex_run c 2 s).is_op ["pow"] = true) (hb : is_operand (lex_run c 3 s))
    (he : (lex_run c 4 s).is_op ["pow"] = false) :
    ∃ m, yields (fun fuel => pow_from_right.factor c fuel s) m
      (.node (TE_FUNCTION1 ||| TE_FLAG_PURE) (.ptr impl.negate)
        [binary impl.pow (operand_node (lex_run c 1 s)) (operand_node (lex_run c 3 s))] 0,
        lex_run c 4 s) := by
  have h := pow_right_factor_chain c s (lex_run c 2 s) (lex_run c 4 s) _
    [(impl.pow, operand_node (lex_run c 3 s))] 3
    (pow_right_negated c s h0 ha)
    ⟨h2, pow_op_function _ h2, lex_run c 4 s, 2, pow_right_operand c _ hb, rfl⟩ he
  rw [peel_unary_negate] at h
  exact h

/-- The text `-a ^ -b` for operand tokens `a` and `b`. -/
theorem pow_right_negate_both (c : Libc) (s : state)
    (h0 : s.type = TOK_INFIX ∧ s.function = impl.sub) (ha : is_operand (lex_run c 1 s))
    (h2 : (lex_run c 2 s).is_op ["pow"] = true)
    (h3 : (lex_run c 3 s).type = TOK_INFIX ∧ (lex_run c 3 s).function = impl.sub)
    (hb : is_operand (lex_run c 4 s))
    (he : (lex_run c 5 s).is_op ["pow"] = false) :
    ∃ m, yields (fun fuel => pow_from_right.factor c fuel s) m
      (.node (TE_FUNCTION1 ||| TE_FLAG_PURE) (.ptr impl.negate)
        [binary impl.pow (operand_node (lex_run c 1 s))
          (.node (TE_FUNCTION1 ||| TE_FLAG_PURE) (.ptr impl.negate)
            [operand_node (lex_run c 4 s)] 0)] 0,
        lex_run c 5 s) := by
  have h := pow_right_factor_chain c s (lex_run c 2 s) (lex_run c 5 s) _
    [(impl.pow, .node (TE_FUNCTION1 ||| TE_FLAG_PURE) (.ptr impl.negate)
      [operand_node (lex_run c 4 s)] 0)] 3
    (pow_right_negated c s h0 ha)
    ⟨h2, pow_op_function _ h2, lex_run c 5 s, 3, pow_right_negated c _ h3 hb, rfl⟩ he
  rw [peel_unary_negate] at h
  exact h

/-- C34: with `TE_POW_FROM_RIGHT`, `factor` parses a chain `x0 ^ x1 ^ ... ^ xk` of operands of
`power` as the tree nested to the right, under the unary wrapper of `x0` when `power`
returned `x0` with one; so for operand tokens `a ^ b ^ c` gives `pow(a, pow(b, c))`, `-a ^ b`
gives `negate(pow(a, b))` and `-a ^ -b` gives `negate(pow(a, negate(b)))`, from some amount
of fuel on. -/
theorem C34_pow_from_right :
    (∀ (c : Libc) (s s1 se : state) (x0 : expr_native) (chain : List (Nat × expr_native))
        (n : Nat),
      yields (fun fuel => pow_from_right.power c fuel s) n (x0, s1) →
      reads_chain c s1 chain se → se.is_op ["pow"] = false →
      ∃ m, yields (fun fuel => pow_from_right.factor c fuel s) m
        (if (peel_unary x0).1 ≠ 0 then
            (new_expr (TE_FUNCTION1 ||| TE_FLAG_PURE)
              [right_chain (peel_unary x0).2 chain]).set_function (peel_unary x0).1
          else right_chain (peel_unary x0).2 chain, se)) ∧
    (∀ (c : Libc) (s : state), is_operand s →
      (lex_run c 1 s).is_op ["pow"] = true → is_operand (lex_run c 2 s) →
      (lex_run c 3 s).is_op ["pow"] = true → is_operand (lex_run c 4 s) →
      (lex_run c 5 s).is_op ["pow"] = false →
      ∃ m, yields (fun fuel => pow_from_right.factor c fuel s) m
        (binary impl.pow (operand_node s)
          (binary impl.pow (operand_node (lex_run c 2 s)) (operand_node (lex_run c 4 s))),
          lex_run c 5 s)) ∧
    (∀ (c : Libc) (s : state), s.type = TOK_INFIX ∧ s.function = impl.sub →
      is_operand (lex_run c 1 s) → (lex_run c 2 s).is_op ["pow"] = true →
      is_operand (lex_run c 3 s) → (lex_run c 4 s).is_op ["pow"] = false →
      ∃ m, yields (fun fuel => pow_from_right.factor c fuel s) m
        (.node (TE_FUNCTION1 ||| TE_FLAG_PURE) (.ptr impl.negate)
          [binary impl.pow (operand_node (lex_run c 1 s)) (operand_node (lex_run c 3 s))] 0,
          lex_run c 4 s)) ∧
    (∀ (c : Libc) (s : state), s.type = TOK_INFIX ∧ s.function = impl.sub →
      is_operand (lex_run c 1 s) → (lex_run c 2 s).is_op ["pow"] = true →
      (lex_run c 3 s).type = TOK_INFIX ∧ (lex_run c 3 s).function = impl.sub →
      is_operand (lex_run c 4 s) → (lex_run c 5 s).is_op ["pow"] = false →
      ∃ m, yields (fun fuel => pow_from_right.factor c fuel s) m
        (.node (TE_FUNCTION1 ||| TE_FLAG_PURE) (.ptr impl.negate)
          [binary impl.pow (operand_node (lex_run c 1 s))
            (.node (TE_FUNCTION1 ||| TE_FLAG_PURE) (.ptr impl.negate)
              [operand_node (lex_run c 4 s)] 0)] 0,
          lex_run c 5 s)) :=
  ⟨fun c s s1 se x0 chain n h0 hc he => pow_right_factor_chain c s s1 se x0 chain n h0 hc he,
    fun c s ha h1 hb h3 hc he => pow_right_three c s ha h1 hb h3 hc he,
    fun c s h0 ha h2 hb he => pow_right_negate_left c s h0 ha h2 hb he,
    fun c s h0 ha h2 h3 hb he => pow_right_negate_both c s h0 ha h2 h3 hb he⟩

/-- C34 at the texts of `test_pow`: `2^3^4` parses as `2^(3^4)` does and has its value,
`-2^2` has the value -4 of `-(2^2)`, and `-a^-b` parses as `-(a^-b)` does. -/
theorem C34_pow_from_right_witness :
    (pow_from_right.parse exact_libc (cstr "2^3^4") []).map Prod.fst =
      (pow_from_right.parse exact_libc (cstr "2^(3^4)") []).map Prod.fst ∧
    (pow_from_right.parse exact_libc (cstr "2^3^4") []).bind
        (fun r => eval_native plain_host [] r.1) = some (.num (2 ^ 81)) ∧
    (pow_from_right.parse exact_libc (cstr "-2^2") []).bind
        (fun r => eval_native plain_host [] r.1) = some (.num (-4)) ∧
    (pow_from_right.parse exact_libc (cstr "-(2^2)") []).bind
        (fun r => eval_native plain_host [] r.1) = some (.num (-4)) ∧
    (pow_from_right.parse exact_libc (cstr "-a^-b") pow_lookup).map Prod.fst =
      (pow_from_right.parse exact_libc (cstr "-(a^-b)") pow_lookup).map Prod.fst ∧
    (∃ m, yields (fun fuel => pow_from_right.factor exact_libc fuel
        (token exact_libc (cstr "2^3^4") [] 0)) m
      (binary impl.pow (operand_node (token exact_libc (cstr "2^3^4") [] 0))
        (binary impl.pow (operand_node (lex_run exact_libc 2 (token exact_libc (cstr "2^3^4") [] 0)))
          (operand_node (lex_run exact_libc 4 (token exact_libc (cstr "2^3^4") [] 0)))),
        lex_run exact_libc 5 (token exact_libc (cstr "2^3^4") [] 0))) :=
  ⟨by decide!, by decide!, by decide!, by decide!, by decide!,
    C34_pow_from_right.2.1 exact_libc (token exact_libc (cstr "2^3^4") [] 0)
      (by decide!) (by decide!) (by decide!) (by decide!) (by decide!) (by decide!)⟩

/-! ## C31: the semicolon ends the expression -/

theorem lex_sim_ite (S : List Nat) (p p1 : Prop) [Decidable p] [Decidable p1]
    (a b a1 b1 : state) (hp : p1 ↔ p) (ha : p → lex_sim S a a1) (hb : ¬ p → lex_sim S b b1) :
    lex_sim S (if p then a else b) (if p1 then a1 else b1) := by
  by_cases h : p
  · rw [if_pos h, if_pos (hp.mpr h)]; exact ha h
  · rw [if_neg h, if_neg (fun h1 => h (hp.mp h1))]; exact hb h

theorem not_mem_drop {l : List Nat} {a : Nat} (h : a ∉ l) (k : Nat) : a ∉ l.drop k :=
  fun hx => h (List.mem_of_mem_drop hx)

/-- A token made from the state after `k` bytes, by setting fields other than the rest. -/
theorem lex_sim_upd (S : List Nat) (s : state) (k : Nat) (hk : k ≤ s.next.length)
    (hs : ';'.toNat ∉ s.next) (g : state → state)
    (hg1 : ∀ u nx, g (retail u nx) = retail (g u) nx) (hg2 : ∀ u, (g u).next = u.next) :
    lex_sim S (g (s.advance k)) (g ((retail s (s.next ++ ';'.toNat :: S)).advance k)) := by
  have e : (retail s (s.next ++ ';'.toNat :: S)).advance k =
      retail (s.advance k) ((s.advance k).next ++ ';'.toNat :: S) := by
    unfold retail state.advance
    simp only [List.drop_append_of_le_length hk]
  rw [e, hg1]
  refine ⟨rfl, fun _ => ⟨?_, ?_⟩⟩
  · show (s.advance k).next ++ _ = (g (s.advance k)).next ++ _
    rw [hg2]
  · rw [hg2]; exact not_mem_drop hs k

/-- An error token made from the state after `k` bytes. -/
theorem lex_sim_error (S : List Nat) (s : state) (nx : List Nat) (k : Nat) (g : state → state)
    (hg1 : ∀ u nx, g (retail u nx) = retail (g u) nx)
    (hg3 : ∀ u, (g u).type = TOK_ERROR) :
    lex_sim S (g (s.advance k)) (g ((retail s nx).advance k)) := by
  have e : (retail s nx).advance k = retail (s.advance k) (nx.drop k) := rfl
  rw [e, hg1]
  exact ⟨rfl, fun h => absurd (hg3 _) h⟩

theorem lex_sim_op (S : List Nat) (s : state) (k : Nat) (name : String)
    (hk : k ≤ s.next.length) (hs : ';'.toNat ∉ s.next) :
    lex_sim S (s.op k name) ((retail s (s.next ++ ';'.toNat :: S)).op k name) :=
  lex_sim_upd S s k hk hs
    (fun u => { u with type := TOK_INFIX, function := find_builtin_address name })
    (fun _ _ => rfl) (fun _ => rfl)

theorem lex_sim_tok (S : List Nat) (s : state) (k t : Nat)
    (hk : k ≤ s.next.length) (hs : ';'.toNat ∉ s.next) :
    lex_sim S (s.tok k t) ((retail s (s.next ++ ';'.toNat :: S)).tok k t) :=
  lex_sim_upd S s k hk hs (fun u => { u with type := t }) (fun _ _ => rfl) (fun _ => rfl)

theorem lex_sim_tok_error (S : List Nat) (s : state) (nx : List Nat) (k : Nat) :
    lex_sim S (s.tok k TOK_ERROR) ((retail s nx).tok k TOK_ERROR) :=
  lex_sim_error S s nx k (fun u => { u with type := TOK_ERROR }) (fun _ _ => rfl) (fun _ => rfl)

/-- The token of an identifier that no table resolves. -/
theorem next_token_loop_unresolved (c : Libc) (fuel : Nat) (s : state) (ident rest : List Nat)
    (hn : s.next = ident ++ rest) (hi : is_identifier ident)
    (hr : is_ident_char (rest.headD 0) = false)
    (hv : (find_lookup s.lookup s.next ident.length).orElse
      (fun _ => find_builtin s.next ident.length) = none) :
    next_token_loop c (fuel + 1) s = { s.advance ident.length with type := TOK_ERROR } := by
  have htw : s.next.takeWhile is_ident_char = ident := by rw [hn]; exact takeWhile_ident _ _ hi.2 hr
  have hhead : s.next.headD 0 = ident.headD 0 := by
    rw [hn]
    cases ident with
    | nil => exfalso; have := hi.1.1; revert this; decide
    | cons a tl => rfl
  have ha := hi.1
  rw [← hhead] at ha
  rw [next_token_loop]
  refine ite_neg_eq _ _ _ _ ?_ ?_
  · have e1 : 'a'.toNat = 97 := rfl
    have e2 : ';'.toNat = 59 := rfl
    omega
  refine ite_neg_eq _ _ _ _ ?_ ?_
  · have e1 : 'a'.toNat = 97 := rfl
    have e2 : '9'.toNat = 57 := rfl
    have e3 : '.'.toNat = 46 := rfl
    omega
  refine (if_pos ha).trans ?_
  dsimp only
  rw [htw, hv]

/-- A text that starts with a lower-case letter starts with an identifier. -/
theorem identifier_split (l : List Nat) (h : 'a'.toNat ≤ l.headD 0 ∧ l.headD 0 ≤ 'z'.toNat) :
    l = l.takeWhile is_ident_char ++ l.dropWhile is_ident_char ∧
    is_identifier (l.takeWhile is_ident_char) ∧
    is_ident_char ((l.dropWhile is_ident_char).headD 0) = false := by
  refine ⟨(List.takeWhile_append_dropWhile _ _).symm, ⟨?_, ?_⟩, ?_⟩
  · cases l with
    | nil => exfalso; revert h; decide
    | cons a t =>
      have ha : is_ident_char a = true := by
        have h1 : 'a'.toNat ≤ a ∧ a ≤ 'z'.toNat := h
        simp only [is_ident_char, Bool.or_eq_true, Bool.and_eq_true, decide_eq_true_eq]
        exact Or.inl (Or.inl h1)
      rw [List.takeWhile_cons, ha]
      exact h
  · intro b hb
    exact (List.mem_takeWhile_imp hb)
  · cases hd : l.dropWhile is_ident_char with
    | nil => rfl
    | cons y ys =>
      have := List.head_dropWhile_not is_ident_char l (by rw [hd]; exact List.cons_ne_nil _ _)
      simp only [hd, List.head_cons] at this
      simpa using this

/-- The lexer gives the same token on a text and on the text followed by `;` and more. -/
theorem next_token_loop_tail (c : Libc) (hc : strtod_stops c) (S : List Nat) :
    ∀ (fuel : Nat) (s : state) (fuel2 : Nat), s.next.length < fuel →
      s.next.length < fuel2 → ';'.toNat ∉ s.next →
      lex_sim S (next_token_loop c fuel s)
        (next_token_loop c fuel2 (retail s (s.next ++ ';'.toNat :: S))) := by
  intro fuel
  induction fuel with
  | zero => intro s fuel2 hf; omega
  | succ n ih =>
    intro s fuel2 hf hf2 hs
    obtain ⟨m, rfl⟩ : ∃ m, fuel2 = m + 1 := ⟨fuel2 - 1, by omega⟩
    cases hnx : s.next with
    | nil =>
      have h0 : s.next.headD 0 = 0 := by rw [hnx]; rfl
      have h1 : (retail s (s.next ++ ';'.toNat :: S)).next.headD 0 = ';'.toNat := by
        show (s.next ++ ';'.toNat :: S).headD 0 = _
        rw [hnx]; rfl
      rw [← hnx, next_token_loop, next_token_loop, if_pos (Or.inl h0), if_pos (Or.inr h1)]
      exact ⟨rfl, fun _ => ⟨rfl, hs⟩⟩
    | cons x xs =>
      rw [← hnx]
      have hch : s.next.headD 0 = x := by rw [hnx]; rfl
      have hch1 : (retail s (s.next ++ ';'.toNat :: S)).next.headD 0 = x := by
        show (s.next ++ ';'.toNat :: S).headD 0 = _
        rw [hnx]; rfl
      have hx : x ≠ ';'.toNat := by
        intro e; apply hs; rw [hnx, e]; exact List.mem_cons_self _ _
      have hlen : 1 ≤ s.next.length := by rw [hnx]; simp
      have h2 : ∀ k, k ≠ 0 → k ≠ ';'.toNat →
          (((retail s (s.next ++ ';'.toNat :: S)).next.drop 1).headD 0 = k ↔
            (s.next.drop 1).headD 0 = k) := by
        intro k hk0 hk1
        show ((s.next ++ ';'.toNat :: S).drop 1).headD 0 = k ↔ _
        rw [hnx]
        cases xs with
        | nil =>
          show ';'.toNat = k ↔ 0 = k
          exact ⟨fun e => absurd e.symm hk1, fun e => absurd e.symm hk0⟩
        | cons y ys => exact Iff.rfl
      have hlen2 : ∀ k, k ≠ 0 → (s.next.drop 1).headD 0 = k → 2 ≤ s.next.length := by
        intro k hk0 e
        rw [hnx] at e ⊢
        cases xs with
        | nil => exact absurd e.symm hk0
        | cons y ys => simp
      by_cases hz : x = 0
      · rw [next_token_loop, next_token_loop, if_pos (Or.inl (by rw [hch, hz])),
          if_pos (Or.inl (by rw [hch1, hz]))]
        exact ⟨rfl, fun _ => ⟨rfl, hs⟩⟩
      by_cases hletter : 'a'.toNat ≤ x ∧ x ≤ 'z'.toNat
      · -- an identifier
        obtain ⟨e1, e2, e3⟩ := identifier_split s.next (by rw [hch]; exact hletter)
        have e1b : (retail s (s.next ++ ';'.toNat :: S)).next =
            s.next.takeWhile is_ident_char ++
              (s.next.dropWhile is_ident_char ++ ';'.toNat :: S) := by
          show s.next ++ _ = _
          rw [← List.append_assoc, ← e1]
        have e3b : is_ident_char
            ((s.next.dropWhile is_ident_char ++ ';'.toNat :: S).headD 0) = false := by
          cases hd : s.next.dropWhile is_ident_char with
          | nil => rfl
          | cons y ys => rw [hd] at e3; exact e3
        have hnz := identifier_no_nul _ e2
        have hlk : (find_lookup (retail s (s.next ++ ';'.toNat :: S)).lookup
              (retail s (s.next ++ ';'.toNat :: S)).next
              (s.next.takeWhile is_ident_char).length).orElse
            (fun _ => find_builtin (retail s (s.next ++ ';'.toNat :: S)).next
              (s.next.takeWhile is_ident_char).length) =
            (find_lookup s.lookup s.next (s.next.takeWhile is_ident_char).length).orElse
              (fun _ => find_builtin s.next (s.next.takeWhile is_ident_char).length) := by
          have a1 : (retail s (s.next ++ ';'.toNat :: S)).lookup = s.lookup := rfl
          have b1 := find_lookup_named s.lookup _ (s.next.dropWhile is_ident_char) hnz
          have b2 := find_builtin_named _ (s.next.dropWhile is_ident_char) hnz
          rw [← e1] at b1 b2
          rw [a1, e1b, find_lookup_named _ _ _ hnz, find_builtin_named _ _ hnz, b1, b2]
        have hk : (s.next.takeWhile is_ident_char).length ≤ s.next.length :=
          (List.takeWhile_prefix _).length_le
        have hpos : 0 < (s.next.takeWhile is_ident_char).length :=
          ident_len_pos (by rw [hch]; exact hletter)
        cases hv : (find_lookup s.lookup s.next (s.next.takeWhile is_ident_char).length).orElse
            (fun _ => find_builtin s.next (s.next.takeWhile is_ident_char).length) with
        | none =>
          rw [next_token_loop_unresolved c n s _ _ e1 e2 e3 hv,
            next_token_loop_unresolved c m _ _ _ e1b e2 e3b (hlk.trans hv)]
          exact lex_sim_error S s _ _ (fun u => { u with type := TOK_ERROR }) (fun _ _ => rfl)
            (fun _ => rfl)
        | some v =>
          rw [next_token_loop_resolved c n s _ _ v e1 e2 e3 hv,
            next_token_loop_resolved c m _ _ _ v e1b e2 e3b (hlk.trans hv)]
          have hrec : lex_sim S
              (next_token_loop c n (s.advance (s.next.takeWhile is_ident_char).length))
              (next_token_loop c m ((retail s (s.next ++ ';'.toNat :: S)).advance
                (s.next.takeWhile is_ident_char).length)) := by
            have e : (retail s (s.next ++ ';'.toNat :: S)).advance
                (s.next.takeWhile is_ident_char).length =
                retail (s.advance (s.next.takeWhile is_ident_char).length)
                  ((s.advance (s.next.takeWhile is_ident_char).length).next ++
                    ';'.toNat :: S) := by
              unfold retail state.advance
              simp only [List.drop_append_of_le_length hk]
            rw [e]
            have hl := advance_length s (s.next.takeWhile is_ident_char).length
            exact ih _ _ (by omega) (by omega) (not_mem_drop hs _)
          refine lex_sim_ite S _ _ _ _ _ _ Iff.rfl (fun _ => ?_) (fun _ => ?_)
          · exact lex_sim_upd S s _ hk hs
              (fun u => { u with type := TOK_VARIABLE, function := v.address })
              (fun _ _ => rfl) (fun _ => rfl)
          refine lex_sim_ite S _ _ _ _ _ _ Iff.rfl (fun _ => ?_) (fun _ => hrec)
          refine lex_sim_ite S _ _ _ _ _ _ Iff.rfl (fun _ => ?_) (fun _ => ?_)
          · exact lex_sim_upd S s _ hk hs
              (fun u => { u with type := v.type, function := v.address })
              (fun _ _ => rfl) (fun _ => rfl)
          refine lex_sim_ite S _ _ _ _ _ _ Iff.rfl (fun _ => ?_) (fun _ => hrec)
          exact lex_sim_upd S s _ hk hs
            (fun u => { u with context := v.context, type := v.type, function := v.address })
            (fun _ _ => rfl) (fun _ => rfl)
      · -- no identifier
        rw [next_token_loop, next_token_loop]
        refine lex_sim_ite S _ _ _ _ _ _ (by rw [hch1, hch])
          (fun h => absurd h (by rw [hch]; exact fun e => e.elim hz hx)) (fun _ => ?_)
        refine lex_sim_ite S _ _ _ _ _ _ (by rw [hch1, hch]) (fun _ => ?_) (fun _ => ?_)
        · have e : c.strtod (retail s (s.next ++ ';'.toNat :: S)).next = c.strtod s.next :=
            (hc s.next S hs).1
          rw [e]
          exact lex_sim_upd S s _ (hc s.next S hs).2 hs
            (fun u => { u with value := (c.strtod s.next).1, type := TOK_NUMBER })
            (fun _ _ => rfl) (fun _ => rfl)
        refine lex_sim_ite S _ _ _ _ _ _ (by rw [hch1, hch])
          (fun h => absurd h (by rw [hch]; exact hletter)) (fun _ => ?_)
        refine lex_sim_ite S _ _ _ _ _ _ (by rw [hch1, hch])
          (fun _ => lex_sim_op S s 1 _ hlen hs) (fun _ => ?_)
        refine lex_sim_ite S _ _ _ _ _ _ (by rw [hch1, hch])
          (fun _ => lex_sim_op S s 1 _ hlen hs) (fun _ => ?_)
        refine lex_sim_ite S _ _ _ _ _ _ (by rw [hch1, hch])
          (fun _ => lex_sim_op S s 1 _ hlen hs) (fun _ => ?_)
        refine lex_sim_ite S _ _ _ _ _ _ (by rw [hch1, hch])
          (fun _ => lex_sim_op S s 1 _ hlen hs) (fun _ => ?_)
        refine lex_sim_ite S _ _ _ _ _ _ (by rw [hch1, hch])
          (fun _ => lex_sim_op S s 1 _ hlen hs) (fun _ => ?_)
        refine lex_sim_ite S _ _ _ _ _ _ (by rw [hch1, hch])
          (fun _ => lex_sim_op S s 1 _ hlen hs) (fun _ => ?_)
        -- `!`
        refine lex_sim_ite S _ _ _ _ _ _ (by rw [hch1, hch]) (fun _ => ?_) (fun _ => ?_)
        · exact lex_sim_ite S _ _ _ _ _ _ (h2 _ (by decide) (by decide))
            (fun h => lex_sim_op S s 2 _ (hlen2 _ (by decide) h) hs)
            (fun _ => lex_sim_op S s 1 _ hlen hs)
        -- `=`
        refine lex_sim_ite S _ _ _ _ _ _ (by rw [hch1, hch]) (fun _ => ?_) (fun _ => ?_)
        · exact lex_sim_ite S _ _ _ _ _ _ (h2 _ (by decide) (by decide))
            (fun h => lex_sim_op S s 2 _ (hlen2 _ (by decide) h) hs)
            (fun _ => lex_sim_tok_error S s _ 2)
        -- `<`
        refine lex_sim_ite S _ _ _ _ _ _ (by rw [hch1, hch]) (fun _ => ?_) (fun _ => ?_)
        · exact lex_sim_ite S _ _ _ _ _ _ (h2 _ (by decide) (by decide))
            (fun h => lex_sim_op S s 2 _ (hlen2 _ (by decide) h) hs)
            (fun _ => lex_sim_op S s 1 _ hlen hs)
        -- `>`
        refine lex_sim_ite S _ _ _ _ _ _ (by rw [hch1, hch]) (fun _ => ?_) (fun _ => ?_)
        · exact lex_sim_ite S _ _ _ _ _ _ (h2 _ (by decide) (by decide))
            (fun h => lex_sim_op S s 2 _ (hlen2 _ (by decide) h) hs)
            (fun _ => lex_sim_op S s 1 _ hlen hs)
        -- `&`
        refine lex_sim_ite S _ _ _ _ _ _ (by rw [hch1, hch]) (fun _ => ?_) (fun _ => ?_)
        · exact lex_sim_ite S _ _ _ _ _ _ (h2 _ (by decide) (by decide))
            (fun h => lex_sim_op S s 2 _ (hlen2 _ (by decide) h) hs)
            (fun _ => lex_sim_tok_error S s _ 2)
        -- `|`
        refine lex_sim_ite S _ _ _ _ _ _ (by rw [hch1, hch]) (fun _ => ?_) (fun _ => ?_)
        · exact lex_sim_ite S _ _ _ _ _ _ (h2 _ (by decide) (by decide))
            (fun h => lex_sim_op S s 2 _ (hlen2 _ (by decide) h) hs)
            (fun _ => lex_sim_tok_error S s _ 2)
        refine lex_sim_ite S _ _ _ _ _ _ (by rw [hch1, hch])
          (fun _ => lex_sim_tok S s 1 _ hlen hs) (fun _ => ?_)
        refine lex_sim_ite S _ _ _ _ _ _ (by rw [hch1, hch])
          (fun _ => lex_sim_tok S s 1 _ hlen hs) (fun _ => ?_)
        refine lex_sim_ite S _ _ _ _ _ _ (by rw [hch1, hch])
          (fun _ => lex_sim_tok S s 1 _ hlen hs) (fun _ => ?_)
        refine lex_sim_ite S _ _ _ _ _ _ (by rw [hch1, hch]) (fun _ => ?_)
          (fun _ => lex_sim_tok_error S s _ 1)
        have e : (retail s (s.next ++ ';'.toNat :: S)).advance 1 =
            retail (s.advance 1) ((s.advance 1).next ++ ';'.toNat :: S) := by
          unfold retail state.advance
          simp only [List.drop_append_of_le_length hlen]
        rw [e]
        have hl := advance_length s 1
        exact ih _ _ (by omega) (by omega) (not_mem_drop hs _)

/-- The lexer `next_token` on a text and on the text followed by `;` and more. -/
theorem next_token_tail (c : Libc) (hc : strtod_stops c) (S : List Nat) (s : state)
    (hs : ';'.toNat ∉ s.next) :
    lex_sim S (next_token c s) (next_token c (retail s (s.next ++ ';'.toNat :: S))) := by
  unfold next_token
  refine next_token_loop_tail c hc S _ s _ (Nat.lt_succ_self _) ?_ hs
  show s.next.length < (s.next ++ ';'.toNat :: S).length + 1
  rw [List.length_append]
  omega

theorem tail_ok_error (S : List Nat) (s : state) (nx : List Nat) :
    tail_ok S { s with type := TOK_ERROR } nx := fun h => absurd rfl h

theorem next_token_sim (c : Libc) (hc : strtod_stops c) (S : List Nat) (s : state)
    (nx : List Nat) (ht : tail_ok S s nx) (he : s.type ≠ TOK_ERROR) :
    ∃ nx1, next_token c (retail s nx) = retail (next_token c s) nx1 ∧
      tail_ok S (next_token c s) nx1 := by
  obtain ⟨e, hs⟩ := ht he
  subst e
  have h := next_token_tail c hc S s hs
  exact ⟨_, h.1, h.2⟩

theorem type_mask_ne_error (t k : Nat) (h : type_mask t = k) (hk : k ≠ TOK_ERROR) :
    t ≠ TOK_ERROR := by
  intro e
  rw [e] at h
  exact hk (h.symm.trans (by decide))

theorem is_op_ne_error (s : state) (names : List String) (h : s.is_op names = true) :
    s.type ≠ TOK_ERROR := by
  unfold state.is_op at h
  simp only [Bool.and_eq_true, beq_iff_eq] at h
  rw [h.1]
  decide

theorem power_sign_sim (c : Libc) (hc : strtod_stops c) (S : List Nat) (fuel : Nat) :
    ∀ (s : state) (sign : Int) (nx : List Nat) (q : state × Int), tail_ok S s nx →
      power_sign c fuel s sign = some q →
      ∃ nx1, power_sign c fuel (retail s nx) sign = some (retail q.1 nx1, q.2) ∧
        tail_ok S q.1 nx1 := by
  induction fuel with
  | zero => intro s sign nx q _ h; cases h
  | succ n ih =>
    intro s sign nx q ht h
    rw [power_sign] at h
    rw [power_sign]
    have e : (retail s nx).is_op ["add", "sub"] = s.is_op ["add", "sub"] := rfl
    rw [e]
    by_cases hop : s.is_op ["add", "sub"] = true
    · rw [if_pos hop] at h ⊢
      obtain ⟨nx1, e1, t1⟩ := next_token_sim c hc S s nx ht (is_op_ne_error s _ hop)
      rw [e1]
      exact ih _ _ _ _ t1 h
    · rw [if_neg hop] at h ⊢
      cases h
      exact ⟨nx, rfl, ht⟩

theorem power_logical_sim (c : Libc) (hc : strtod_stops c) (S : List Nat) (fuel : Nat) :
    ∀ (s : state) (l : Int) (nx : List Nat) (q : state × Int), tail_ok S s nx →
      power_logical c fuel s l = some q →
      ∃ nx1, power_logical c fuel (retail s nx) l = some (retail q.1 nx1, q.2) ∧
        tail_ok S q.1 nx1 := by
  induction fuel with
  | zero => intro s l nx q _ h; cases h
  | succ n ih =>
    intro s l nx q ht h
    rw [power_logical] at h
    rw [power_logical]
    have e : (retail s nx).is_op ["add", "sub", "logical_not"] =
        s.is_op ["add", "sub", "logical_not"] := rfl
    rw [e]
    by_cases hop : s.is_op ["add", "sub", "logical_not"] = true
    · rw [if_pos hop] at h ⊢
      obtain ⟨nx1, e1, t1⟩ := next_token_sim c hc S s nx ht (is_op_ne_error s _ hop)
      rw [e1]
      exact ih _ _ _ _ t1 h
    · rw [if_neg hop] at h ⊢
      cases h
      exact ⟨nx, rfl, ht⟩

theorem power_sim_step (c : Libc) (hc : strtod_stops c) (S : List Nat) (n : Nat)
    (ihB : parse_sim S (base c n)) : parse_sim S (power c (n + 1)) := by
  intro s nx q ht h
  rw [power] at h
  rw [power]
  cases h1 : power_sign c (n + 1) s 1 with
  | none => rw [h1] at h; cases h
  | some r1 =>
    rw [h1] at h
    obtain ⟨nx1, e1, t1⟩ := power_sign_sim c hc S _ _ _ _ _ ht h1
    rw [e1]
    simp only [] at h ⊢
    cases h2 : power_logical c (n + 1) r1.1 0 with
    | none => rw [h2] at h; cases h
    | some r2 =>
      rw [h2] at h
      obtain ⟨nx2, e2, t2⟩ := power_logical_sim c hc S _ _ _ _ _ t1 h2
      rw [e2]
      simp only [] at h ⊢
      cases h3 : base c n r2.1 with
      | none => rw [h3] at h; cases h
      | some r3 =>
        rw [h3] at h
        obtain ⟨nx3, e3, t3⟩ := ihB _ _ _ t2 h3
        rw [e3]
        cases h
        exact ⟨nx3, rfl, t3⟩

theorem level_parse_sim_step (c : Libc) (hc : strtod_stops c) (S : List Nat) (n : Nat)
    (ihP : ∀ l, parse_sim S (level_parse c l n))
    (ihL : ∀ l ret, parse_sim S (level_loop c l n ret))
    (ihB : parse_sim S (base c n)) (l : Nat) : parse_sim S (level_parse c l (n + 1)) := by
  by_cases hl : l ≤ 5
  · intro s nx q ht h
    rw [level_parse_succ c l hl] at h ⊢
    cases hG : level_parse c (l + 1) n s with
    | none => rw [hG] at h; cases h
    | some r =>
      rw [hG] at h
      obtain ⟨nx1, e1, t1⟩ := ihP _ _ _ _ ht hG
      rw [e1]
      exact ihL _ _ _ _ _ t1 h
  · obtain ⟨j, rfl⟩ : ∃ j, l = j + 6 := ⟨l - 6, by omega⟩
    exact power_sim_step c hc S n ihB

theorem is_level_op_ne_error (l : Nat) (s : state) (h : is_level_op l s = true) :
    s.type ≠ TOK_ERROR := by
  have hl := is_level_op_le s l h
  have : l = 0 ∨ l = 1 ∨ l = 2 ∨ l = 3 ∨ l = 4 ∨ l = 5 := by omega
  rcases this with g | g | g | g | g | g <;> subst g <;> simp only [is_level_op] at h
  · rw [beq_iff_eq] at h; rw [h]; decide
  all_goals exact is_op_ne_error s _ h

theorem level_loop_sim_step (c : Libc) (hc : strtod_stops c) (S : List Nat) (n : Nat)
    (ihP : ∀ l, parse_sim S (level_parse c l n))
    (ihL : ∀ l ret, parse_sim S (level_loop c l n ret))
    (l : Nat) (ret : expr_native) : parse_sim S (level_loop c l (n + 1) ret) := by
  have main : ∀ l, l ≤ 5 → ∀ ret, parse_sim S (level_loop c l (n + 1) ret) := by
    intro l hl ret s nx q ht h
    rw [level_loop_succ c l hl] at h ⊢
    have e : is_level_op l (retail s nx) = is_level_op l s := by
      have : l = 0 ∨ l = 1 ∨ l = 2 ∨ l = 3 ∨ l = 4 ∨ l = 5 := by omega
      rcases this with g | g | g | g | g | g <;> subst g <;> rfl
    have e2 : level_function l (retail s nx) = level_function l s := rfl
    rw [e, e2]
    by_cases hop : is_level_op l s = true
    · rw [if_pos hop] at h ⊢
      obtain ⟨nx1, e1, t1⟩ := next_token_sim c hc S s nx ht (is_level_op_ne_error l s hop)
      rw [e1]
      cases hG : level_parse c (l + 1) n (next_token c s) with
      | none => rw [hG] at h; cases h
      | some r =>
        rw [hG] at h
        obtain ⟨nx2, e3, t2⟩ := ihP _ _ _ _ t1 hG
        rw [e3]
        exact ihL _ _ _ _ _ t2 h
    · rw [if_neg hop] at h ⊢
      cases h
      exact ⟨nx, rfl, ht⟩
  by_cases hl : l ≤ 5
  · exact main l hl ret
  · rw [level_loop_five c l hl]
    exact main 5 (by omega) ret

theorem base_args_sim_step (c : Libc) (hc : strtod_stops c) (S : List Nat) (n : Nat)
    (ihE : parse_sim S (expr c n)) (ihA : args_sim S c n) : args_sim S c (n + 1) := by
  intro ar i ret s nx q ht he h
  rw [base_args] at h
  rw [base_args]
  by_cases hi : i < ar
  · rw [if_pos hi] at h ⊢
    obtain ⟨nx1, e1, t1⟩ := next_token_sim c hc S s nx ht he
    rw [e1]
    cases hE : expr c n (next_token c s) with
    | none => rw [hE] at h; cases h
    | some r =>
      rw [hE] at h
      obtain ⟨nx2, e2, t2⟩ := ihE _ _ _ t1 hE
      rw [e2]
      simp only [] at h ⊢
      have e3 : (retail r.2 nx2).type = r.2.type := rfl
      rw [e3]
      by_cases hsep : r.2.type ≠ TOK_SEP
      · rw [if_pos hsep] at h ⊢
        cases h
        exact ⟨nx2, rfl, t2⟩
      · rw [if_neg hsep] at h ⊢
        refine ihA _ _ _ _ _ _ t2 ?_ h
        rw [not_not.mp hsep]
        decide
  · rw [if_neg hi] at h ⊢
    cases h
    exact ⟨nx, rfl, ht⟩

theorem base_sim_step (c : Libc) (hc : strtod_stops c) (S : List Nat) (n : Nat)
    (ihP : parse_sim S (power c n)) (ihL : parse_sim S (list c n)) (ihA : args_sim S c n) :
    parse_sim S (base c (n + 1)) := by
  intro s nx q ht h
  rw [base] at h
  rw [base]
  have et : (retail s nx).type = s.type := rfl
  have ev : (retail s nx).value = s.value := rfl
  have ef : (retail s nx).function = s.function := rfl
  have ec : call_node (retail s nx) = call_node s := rfl
  dsimp only at h ⊢
  rw [et, ev, ef, ec]
  by_cases h1 : type_mask s.type = TOK_NUMBER
  · rw [if_pos h1] at h ⊢
    obtain ⟨nx1, e1, t1⟩ := next_token_sim c hc S s nx ht
      (type_mask_ne_error _ _ h1 (by decide))
    rw [e1]
    cases h
    exact ⟨nx1, rfl, t1⟩
  rw [if_neg h1] at h ⊢
  by_cases h2 : type_mask s.type = TOK_VARIABLE
  · rw [if_pos h2] at h ⊢
    obtain ⟨nx1, e1, t1⟩ := next_token_sim c hc S s nx ht
      (type_mask_ne_error _ _ h2 (by decide))
    rw [e1]
    cases h
    exact ⟨nx1, rfl, t1⟩
  rw [if_neg h2] at h ⊢
  by_cases h3 : (type_mask s.type ≥ TE_FUNCTION0 ∧ type_mask s.type < TE_FUNCTION_MAX) ∨
      (type_mask s.type ≥ TE_CLOSURE0 ∧ type_mask s.type < TE_CLOSURE_MAX)
  · rw [if_pos h3] at h ⊢
    have hne : s.type ≠ TOK_ERROR := by
      intro e
      rw [e] at h3
      revert h3
      decide
    obtain ⟨nx1, e1, t1⟩ := next_token_sim c hc S s nx ht hne
    rw [e1]
    have et1 : (retail (next_token c s) nx1).type = (next_token c s).type := rfl
    by_cases ha0 : arity s.type = 0
    · rw [if_pos ha0] at h ⊢
      rw [et1]
      by_cases ho : (next_token c s).type = TOK_OPEN
      · rw [if_pos ho] at h ⊢
        obtain ⟨nx2, e2, t2⟩ := next_token_sim c hc S _ nx1 t1 (by rw [ho]; decide)
        rw [e2]
        have et2 : (retail (next_token c (next_token c s)) nx2).type =
            (next_token c (next_token c s)).type := rfl
        rw [et2]
        by_cases hcl : (next_token c (next_token c s)).type ≠ TOK_CLOSE
        · rw [if_pos hcl] at h ⊢
          cases h
          exact ⟨nx2, rfl, tail_ok_error S _ _⟩
        · rw [if_neg hcl] at h ⊢
          obtain ⟨nx3, e3, t3⟩ := next_token_sim c hc S _ nx2 t2
            (by rw [not_not.mp hcl]; decide)
          rw [e3]
          cases h
          exact ⟨nx3, rfl, t3⟩
      · rw [if_neg ho] at h ⊢
        cases h
        exact ⟨nx1, rfl, t1⟩
    rw [if_neg ha0] at h ⊢
    by_cases ha1 : arity s.type = 1
    · rw [if_pos ha1] at h ⊢
      cases hP : power c n (next_token c s) with
      | none => rw [hP] at h; cases h
      | some r =>
        rw [hP] at h
        obtain ⟨nx2, e2, t2⟩ := ihP _ _ _ t1 hP
        rw [e2]
        cases h
        exact ⟨nx2, rfl, t2⟩
    rw [if_neg ha1] at h ⊢
    rw [et1]
    by_cases ho : (next_token c s).type ≠ TOK_OPEN
    · rw [if_pos ho] at h ⊢
      cases h
      exact ⟨nx1, rfl, tail_ok_error S _ _⟩
    rw [if_neg ho] at h ⊢
    cases hA : base_args c n (arity s.type) 0 (call_node s) (next_token c s) with
    | none => rw [hA] at h; cases h
    | some r =>
      rw [hA] at h
      obtain ⟨nx2, e2, t2⟩ := ihA _ _ _ _ _ _ t1 (by rw [not_not.mp ho]; decide) hA
      rw [e2]
      simp only [] at h ⊢
      have et2 : (retail r.2.1 nx2).type = r.2.1.type := rfl
      rw [et2]
      by_cases hcl : r.2.1.type ≠ TOK_CLOSE ∨ r.2.2 ≠ arity s.type - 1
      · rw [if_pos hcl] at h ⊢
        cases h
        exact ⟨nx2, rfl, tail_ok_error S _ _⟩
      · rw [if_neg hcl] at h ⊢
        have hcl2 : r.2.1.type = TOK_CLOSE := by
          by_contra hx
          exact hcl (Or.inl hx)
        obtain ⟨nx3, e3, t3⟩ := next_token_sim c hc S _ nx2 t2 (by rw [hcl2]; decide)
        rw [e3]
        cases h
        exact ⟨nx3, rfl, t3⟩
  rw [if_neg h3] at h ⊢
  by_cases h4 : type_mask s.type = TOK_OPEN
  · rw [if_pos h4] at h ⊢
    obtain ⟨nx1, e1, t1⟩ := next_token_sim c hc S s nx ht
      (type_mask_ne_error _ _ h4 (by decide))
    rw [e1]
    cases hL : list c n (next_token c s) with
    | none => rw [hL] at h; cases h
    | some r =>
      rw [hL] at h
      obtain ⟨nx2, e2, t2⟩ := ihL _ _ _ t1 hL
      rw [e2]
      simp only [] at h ⊢
      have et2 : (retail r.2 nx2).type = r.2.type := rfl
      rw [et2]
      by_cases hcl : r.2.type ≠ TOK_CLOSE
      · rw [if_pos hcl] at h ⊢
        cases h
        exact ⟨nx2, rfl, tail_ok_error S _ _⟩
      · rw [if_neg hcl] at h ⊢
        obtain ⟨nx3, e3, t3⟩ := next_token_sim c hc S _ nx2 t2
          (by rw [not_not.mp hcl]; decide)
        rw [e3]
        cases h
        exact ⟨nx3, rfl, t3⟩
  · rw [if_neg h4] at h ⊢
    cases h
    exact ⟨nx, rfl, tail_ok_error S _ _⟩

/-- Every parser function does the same on a text and on the text followed by `;` and
more. -/
theorem parser_sim (c : Libc) (hc : strtod_stops c) (S : List Nat) (fuel : Nat) :
    parse_sim S (base c fuel) ∧ args_sim S c fuel ∧
    (∀ l, parse_sim S (level_parse c l fuel)) ∧
    (∀ l ret, parse_sim S (level_loop c l fuel ret)) := by
  induction fuel with
  | zero =>
    refine ⟨?_, ?_, ?_, ?_⟩
    · intro s nx q _ h; rw [base] at h; cases h
    · intro ar i ret s nx q _ _ h; rw [base_args] at h; cases h
    · intro l s nx q _ h
      by_cases hl : l ≤ 5
      · have : l = 0 ∨ l = 1 ∨ l = 2 ∨ l = 3 ∨ l = 4 ∨ l = 5 := by omega
        rcases this with g | g | g | g | g | g <;> subst g <;> simp only [level_parse] at h
        · rw [list] at h; cases h
        · rw [expr] at h; cases h
        · rw [test_expr] at h; cases h
        · rw [sum_expr] at h; cases h
        · rw [term] at h; cases h
        · rw [factor] at h; cases h
      · obtain ⟨j, rfl⟩ : ∃ j, l = j + 6 := ⟨l - 6, by omega⟩
        simp only [level_parse] at h
        rw [power] at h; cases h
    · intro l ret s nx q _ h
      by_cases hl : l ≤ 5
      · have : l = 0 ∨ l = 1 ∨ l = 2 ∨ l = 3 ∨ l = 4 ∨ l = 5 := by omega
        rcases this with g | g | g | g | g | g <;> subst g <;> simp only [level_loop] at h
        · rw [list_loop] at h; cases h
        · rw [expr_loop] at h; cases h
        · rw [test_expr_loop] at h; cases h
        · rw [sum_expr_loop] at h; cases h
        · rw [term_loop] at h; cases h
        · rw [factor_loop] at h; cases h
      · rw [level_loop_five c l hl] at h
        simp only [level_loop] at h
        rw [factor_loop] at h; cases h
  | succ n ih =>
    obtain ⟨iB, iA, iP, iL⟩ := ih
    exact ⟨base_sim_step c hc S n (iP 6) (iP 0) iA,
      base_args_sim_step c hc S n (iP 1) iA,
      level_parse_sim_step c hc S n iP iL iB,
      level_loop_sim_step c hc S n iP iL⟩

theorem takeWhile_append_stop (p : Nat → Bool) (z : Nat) (hz : p z = false) (r S : List Nat) :
    (r ++ z :: S).takeWhile p = r.takeWhile p := by
  induction r with
  | nil => simp [List.takeWhile, hz]
  | cons a t ih =>
    simp only [List.cons_append, List.takeWhile_cons]
    cases p a
    · rfl
    · simp only [if_true]; rw [ih]

theorem headD_append_stop (z k : Nat) (hk0 : k ≠ 0) (hkz : k ≠ z) (r S : List Nat) :
    ((r ++ z :: S).headD 0 = k) = (r.headD 0 = k) := by
  cases r with
  | nil =>
    apply propext
    exact ⟨fun e => absurd e.symm hkz, fun e => absurd e.symm hk0⟩
  | cons a t => rfl

theorem headD_stop_e (r S : List Nat) :
    ((r ++ ';'.toNat :: S).headD 0 = 'e'.toNat) = (r.headD 0 = 'e'.toNat) :=
  headD_append_stop _ _ (by decide) (by decide) r S

theorem headD_stop_E (r S : List Nat) :
    ((r ++ ';'.toNat :: S).headD 0 = 'E'.toNat) = (r.headD 0 = 'E'.toNat) :=
  headD_append_stop _ _ (by decide) (by decide) r S

theorem headD_stop_plus (r S : List Nat) :
    ((r ++ ';'.toNat :: S).headD 0 = '+'.toNat) = (r.headD 0 = '+'.toNat) :=
  headD_append_stop _ _ (by decide) (by decide) r S

theorem headD_stop_minus (r S : List Nat) :
    ((r ++ ';'.toNat :: S).headD 0 = '-'.toNat) = (r.headD 0 = '-'.toNat) :=
  headD_append_stop _ _ (by decide) (by decide) r S

theorem headD_stop_dot (r S : List Nat) :
    ((r ++ ';'.toNat :: S).headD 0 = '.'.toNat) = (r.headD 0 = '.'.toNat) :=
  headD_append_stop _ _ (by decide) (by decide) r S

theorem is_digit_stop : is_digit ';'.toNat = false := by decide

theorem headD_length_pos (r : List Nat) (k : Nat) (hk : k ≠ 0) (h : r.headD 0 = k) :
    1 ≤ r.length := by
  cases r with
  | nil => exact absurd h.symm hk
  | cons a t => simp

theorem strtod_exponent_stop (r S : List Nat) :
    strtod_exponent (r ++ ';'.toNat :: S) = strtod_exponent r := by
  unfold strtod_exponent
  simp only [headD_stop_e, headD_stop_E]
  by_cases he : r.headD 0 = 'e'.toNat ∨ r.headD 0 = 'E'.toNat
  · have hl : 1 ≤ r.length :=
      he.elim (headD_length_pos r _ (by decide)) (headD_length_pos r _ (by decide))
    simp only [if_pos he, List.drop_append_of_le_length hl, headD_stop_plus, headD_stop_minus]
    by_cases hs : (r.drop 1).headD 0 = '+'.toNat ∨ (r.drop 1).headD 0 = '-'.toNat
    · have hl2 : 1 ≤ (r.drop 1).length :=
        hs.elim (headD_length_pos _ _ (by decide)) (headD_length_pos _ _ (by decide))
      simp only [if_pos hs, List.drop_append_of_le_length hl2,
        takeWhile_append_stop is_digit _ is_digit_stop]
    · simp only [if_neg hs, takeWhile_append_stop is_digit _ is_digit_stop]
  · simp only [if_neg he]

theorem strtod_exponent_le (r : List Nat) : (strtod_exponent r).2 ≤ r.length := by
  unfold strtod_exponent
  by_cases he : r.headD 0 = 'e'.toNat ∨ r.headD 0 = 'E'.toNat
  · have hl : 1 ≤ r.length :=
      he.elim (headD_length_pos r _ (by decide)) (headD_length_pos r _ (by decide))
    simp only [if_pos he]
    by_cases hs : (r.drop 1).headD 0 = '+'.toNat ∨ (r.drop 1).headD 0 = '-'.toNat
    · have hl2 : 1 ≤ (r.drop 1).length :=
        hs.elim (headD_length_pos _ _ (by decide)) (headD_length_pos _ _ (by decide))
      simp only [if_pos hs]
      have b := (List.takeWhile_prefix is_digit (l := (r.drop 1).drop 1)).length_le
      simp only [List.length_drop] at b hl2
      split
      · exact Nat.zero_le _
      · show 1 + 1 + _ ≤ _
        omega
    · simp only [if_neg hs]
      have b := (List.takeWhile_prefix is_digit (l := r.drop 1)).length_le
      simp only [List.length_drop] at b
      split
      · exact Nat.zero_le _
      · show 1 + 0 + _ ≤ _
        omega
  · simp only [if_neg he]
    exact Nat.zero_le _

theorem strtod_decimal_stop (r S : List Nat) :
    strtod_decimal (r ++ ';'.toNat :: S) = strtod_decimal r := by
  unfold strtod_decimal
  have hip := (List.takeWhile_prefix is_digit (l := r)).length_le
  simp only [takeWhile_append_stop is_digit _ is_digit_stop,
    List.drop_append_of_le_length hip, headD_stop_dot]
  by_cases hd : (r.drop (r.takeWhile is_digit).length).headD 0 = '.'.toNat
  · have hl0 := headD_length_pos _ _ (by decide) hd
    have hl := hl0
    have hfp := (List.takeWhile_prefix is_digit
      (l := (r.drop (r.takeWhile is_digit).length).drop 1)).length_le
    simp only [List.length_drop] at hl hfp
    have hn : (r.takeWhile is_digit).length + (1 + (List.takeWhile is_digit
        ((r.drop (r.takeWhile is_digit).length).drop 1)).length) ≤ r.length := by omega
    simp only [if_pos hd, List.drop_append_of_le_length hl0,
      takeWhile_append_stop is_digit _ is_digit_stop, List.drop_append_of_le_length hn,
      strtod_exponent_stop]
  · have hn : (r.takeWhile is_digit).length + 0 ≤ r.length := by omega
    simp only [if_neg hd, List.drop_append_of_le_length hn, strtod_exponent_stop]

theorem strtod_decimal_le (r : List Nat) : (strtod_decimal r).2 ≤ r.length := by
  unfold strtod_decimal
  have hip := (List.takeWhile_prefix is_digit (l := r)).length_le
  have he := strtod_exponent_le
  simp only []
  by_cases hd : (r.drop (r.takeWhile is_digit).length).headD 0 = '.'.toNat
  · have hl := headD_length_pos _ _ (by decide) hd
    have hfp := (List.takeWhile_prefix is_digit
      (l := (r.drop (r.takeWhile is_digit).length).drop 1)).length_le
    simp only [List.length_drop] at hl hfp
    simp only [if_pos hd]
    have h2 := he (r.drop ((r.takeWhile is_digit).length + (1 + (List.takeWhile is_digit
      ((r.drop (r.takeWhile is_digit).length).drop 1)).length)))
    simp only [List.length_drop] at h2
    split
    · exact Nat.zero_le _
    · dsimp only
      omega
  · simp only [if_neg hd]
    have h2 := he (r.drop ((r.takeWhile is_digit).length + 0))
    simp only [List.length_drop] at h2
    split
    · exact Nat.zero_le _
    · dsimp only
      omega

/-- The reference `strtod` stops before a `;`. -/
theorem exact_libc_stops : strtod_stops exact_libc :=
  fun r S _ => ⟨strtod_decimal_stop r S, strtod_decimal_le r⟩

theorem parse_tail (c : Libc) (hc : strtod_stops c) (E S : List Nat) (vars : List te_variable)
    (hE : ';'.toNat ∉ E) (q : expr_native × state) (h : parse c E vars = some q) :
    ∃ nx, parse c (E ++ ';'.toNat :: S) vars = some (q.1, retail q.2 nx) := by
  unfold parse at h ⊢
  have t0 : tail_ok S (init_state E vars) (E ++ ';'.toNat :: S) := fun _ => ⟨rfl, hE⟩
  have e0 : init_state (E ++ ';'.toNat :: S) vars =
      retail (init_state E vars) (E ++ ';'.toNat :: S) := rfl
  have n0 : (init_state E vars).type ≠ TOK_ERROR := fun e => by cases e
  obtain ⟨nx1, e1, t1⟩ := next_token_sim c hc S _ _ t0 n0
  rw [e0, e1]
  obtain ⟨nx2, e2, _⟩ := (parser_sim c hc S (parse_fuel E)).2.2.1 0 _ _ _ t1 h
  have hf : parse_fuel E ≤ parse_fuel (E ++ ';'.toNat :: S) := by
    unfold parse_fuel
    rw [List.length_append]
    omega
  exact ⟨nx2, level_parse_mono c 0 _ _ _ e2 _ hf⟩

theorem compile_native_tail (h : Host) (mem : Mem) (hc : strtod_stops h.libc)
    (E S : List Nat) (vars : List te_variable) (hE : ';'.toNat ∉ E) :
    compile_native h mem (E ++ ';'.toNat :: S) vars = compile_native h mem E vars := by
  obtain ⟨e, s, hp⟩ := parse_total h.libc E vars
  obtain ⟨nx, hp2⟩ := parse_tail h.libc hc E S vars hE _ hp
  unfold compile_native
  rw [hp, hp2]
  rfl

theorem compile_using_indexer_tail (h : Host) (mem : Mem) (hc : strtod_stops h.libc)
    (ix : indexer) (E S : List Nat) (vars : List te_variable) (hE : ';'.toNat ∉ E) :
    compile_using_indexer h mem ix (E ++ ';'.toNat :: S) vars =
      compile_using_indexer h mem ix E vars := by
  unfold compile_using_indexer
  rw [compile_native_tail h mem hc E S vars hE]

/-- C31: the lexer gives `End` at a `;` as it does at the end of the text, and for every
text `E` without `;` and every suffix `S`, `compile` of `E ++ ";" ++ S` returns what
`compile` of `E` returns: the same handle (image, address table, names, or none) and the
same error value. The C library's `strtod` is assumed to read no `;`. -/
theorem C31_semicolon_ends_text (h : Host) (mem : Mem) (E S : List Nat)
    (vars : List te_variable) (hc : strtod_stops h.libc) (hE : ';'.toNat ∉ E) :
    (∀ s : state, s.next = [] ∨ s.next.head? = some ';'.toNat →
      next_token h.libc s = { s with type := TOK_END }) ∧
    compile h mem (E ++ ';'.toNat :: S) vars = compile h mem E vars := by
  refine ⟨?_, ?_⟩
  · intro s hs
    unfold next_token
    rw [next_token_loop]
    refine if_pos ?_
    rcases hs with e | e
    · left; rw [e]; rfl
    · right
      cases hn : s.next with
      | nil => rw [hn] at e; cases e
      | cons a t =>
        rw [hn] at e
        exact Option.some.inj e
  · unfold compile
    rw [compile_using_indexer_tail h mem hc _ E S vars hE]

/-- C31 on `x+1` followed by `;` and more text, and on the failing `1+`. -/
theorem C31_semicolon_ends_text_witness :
    strtod_stops plain_host.libc ∧ ';'.toNat ∉ cstr "x+1" ∧ ';'.toNat ∉ cstr "1+" ∧
    compile plain_host [] (cstr "x+1" ++ ';'.toNat :: cstr "y: 2") test_lookup =
      compile plain_host [] (cstr "x+1") test_lookup ∧
    compile plain_host [] (cstr "1+" ++ ';'.toNat :: cstr "2") test_lookup =
      compile plain_host [] (cstr "1+") test_lookup :=
  ⟨exact_libc_stops, by decide, by decide,
    (C31_semicolon_ends_text plain_host [] (cstr "x+1") (cstr "y: 2") test_lookup
      exact_libc_stops (by decide)).2,
    (C31_semicolon_ends_text plain_host [] (cstr "1+") (cstr "2") test_lookup
      exact_libc_stops (by decide)).2⟩

/-! ## C38: the tree of a successful parse is well formed -/

theorem find_in_table_mem (table : List te_variable) (name : List Nat) (len : Nat)
    (fuel : Nat) : ∀ (imin imax : Int) (v : te_variable),
      find_in_table table name len fuel imin imax = some v → v ∈ table := by
  induction fuel with
  | zero => intro imin imax v h; cases h
  | succ n ih =>
    intro imin imax v h
    rw [find_in_table] at h
    by_cases hge : imax ≥ imin
    · rw [if_pos hge] at h
      dsimp only at h
      cases hg : table.get? (imin + (imax - imin) / 2).toNat with
      | none => rw [hg] at h; cases h
      | some w =>
        rw [hg] at h
        dsimp only at h
        by_cases hc0 : name_compare name w.name len = 0
        · rw [if_pos hc0] at h
          by_cases hz : (0 : Int) - ((w.name.getD len 0 : Nat) : Int) = 0
          · rw [if_pos hz] at h
            cases h
            exact List.get?_mem hg
          · rw [if_neg hz] at h
            split at h
            · exact ih _ _ _ h
            · exact ih _ _ _ h
        · rw [if_neg hc0, if_neg hc0] at h
          split at h
          · exact ih _ _ _ h
          · exact ih _ _ _ h
    · rw [if_neg hge] at h; cases h

theorem find_builtin_mem (name : List Nat) (len : Nat) (v : te_variable)
    (h : find_builtin name len = some v) : v ∈ functions ++ operators := by
  unfold find_builtin at h
  cases hf : find_builtin_function name len with
  | some w =>
    rw [hf] at h
    cases h
    exact List.mem_append_left _ (find_in_table_mem _ _ _ _ _ _ _ hf)
  | none =>
    rw [hf] at h
    exact List.mem_append_right _ (find_in_table_mem _ _ _ _ _ _ _ h)

theorem resolved_mem (lookup : List te_variable) (name : List Nat) (len : Nat)
    (v : te_variable)
    (h : (find_lookup lookup name len).orElse (fun _ => find_builtin name len) = some v) :
    v ∈ lookup ∨ v ∈ functions ++ operators := by
  cases hl : find_lookup lookup name len with
  | some w =>
    rw [hl] at h
    cases h
    exact Or.inl (List.mem_of_find?_eq_some hl)
  | none =>
    rw [hl] at h
    exact Or.inr (find_builtin_mem _ _ _ h)

theorem builtin_types : ∀ v ∈ functions ++ operators,
    type_mask v.type ≠ TE_VARIABLE ∧ type_mask v.type < TE_CLOSURE0 := by
  have h : (functions ++ operators).all
      (fun v => decide (type_mask v.type ≠ TE_VARIABLE ∧ type_mask v.type < TE_CLOSURE0)) =
      true := by decide
  intro v hv
  exact of_decide_eq_true (List.all_eq_true.mp h v hv)

theorem builtin_address_of_mem (v : te_variable) (hv : v ∈ functions ++ operators) :
    is_builtin_address v.address = true := by
  unfold is_builtin_address
  rw [List.any_eq_true]
  exact ⟨v, hv, beq_self_eq_true _⟩

/-- A state whose token is neither a variable nor a call is bound. -/
theorem token_bound_plain (lookup : List te_variable) (s : state) (hl : s.lookup = lookup)
    (t : Nat) (ht : s.type = t) (hv : type_mask t ≠ TOK_VARIABLE) (hc : ¬ is_call_type t) :
    token_bound lookup s :=
  ⟨hl, fun h => absurd (ht ▸ h) hv, fun h => absurd (ht ▸ h) hc⟩

theorem token_bound_ite (lookup : List te_variable) (p : Prop) [Decidable p] (a b : state)
    (ha : p → token_bound lookup a) (hb : ¬ p → token_bound lookup b) :
    token_bound lookup (if p then a else b) := by
  by_cases h : p
  · rw [if_pos h]; exact ha h
  · rw [if_neg h]; exact hb h

theorem token_bound_op (lookup : List te_variable) (s : state) (hl : s.lookup = lookup)
    (n : Nat) (name : String) : token_bound lookup (s.op n name) :=
  token_bound_plain lookup _ hl TOK_INFIX rfl (by decide) (by decide)

theorem token_bound_tok (lookup : List te_variable) (s : state) (hl : s.lookup = lookup)
    (n t : Nat) (hv : type_mask t ≠ TOK_VARIABLE) (hc : ¬ is_call_type t) :
    token_bound lookup (s.tok n t) :=
  token_bound_plain lookup _ hl t rfl hv hc

/-- The token of a resolved identifier is bound. -/
theorem token_bound_resolved (lookup : List te_variable) (s1 : state)
    (hl1 : s1.lookup = lookup) (r : state)
    (hr : token_bound lookup r) (var : te_variable)
    (hm : var ∈ lookup ∨ var ∈ functions ++ operators) :
    token_bound lookup
      (if type_mask var.type = TE_VARIABLE then
        { s1 with type := TOK_VARIABLE, function := var.address }
      else if type_mask var.type ≥ TE_FUNCTION0 then
        if type_mask var.type < TE_FUNCTION_MAX then
          { s1 with type := var.type, function := var.address }
        else if type_mask var.type ≥ TE_CLOSURE0 ∧ type_mask var.type < TE_CLOSURE_MAX then
          { s1 with context := var.context, type := var.type, function := var.address }
        else r
      else r) := by
  refine token_bound_ite lookup _ _ _ (fun hv => ?_) (fun _ => ?_)
  · refine ⟨hl1, fun _ => ?_, fun h => ?_⟩
    swap
    · have h2 : is_call_type TOK_VARIABLE := h
      exact absurd h2 (by decide)
    rcases hm with hm | hm
    · rw [List.any_eq_true]
      exact ⟨var, hm, by simp [hv]⟩
    · exact absurd hv (builtin_types var hm).1
  refine token_bound_ite lookup _ _ _ (fun h0 => ?_) (fun _ => hr)
  refine token_bound_ite lookup _ _ _ (fun h1 => ?_) (fun h1 => ?_)
  · refine ⟨hl1, fun h => ?_, fun _ => ?_⟩
    · exfalso
      have e : type_mask var.type = TOK_VARIABLE := h
      rw [e] at h1
      exact absurd h1 (by decide)
    · show bound_call lookup var.type var.address s1.context = true
      unfold bound_call
      have : ¬ TE_CLOSURE0 ≤ type_mask var.type := by
        have a : TE_FUNCTION_MAX = TE_CLOSURE0 := rfl
        rw [← a]; omega
      rw [if_neg this, Bool.or_eq_true]
      rcases hm with hm | hm
      · right
        rw [List.any_eq_true]
        exact ⟨var, hm, beq_self_eq_true _⟩
      · left
        exact builtin_address_of_mem var hm
  refine token_bound_ite lookup _ _ _ (fun h2 => ?_) (fun _ => hr)
  refine ⟨hl1, fun h => ?_, fun _ => ?_⟩
  · exfalso
    have e : type_mask var.type = TOK_VARIABLE := h
    rw [e] at h2
    exact absurd h2.2 (by decide)
  · show bound_call lookup var.type var.address var.context = true
    unfold bound_call
    rw [if_pos h2.1]
    rcases hm with hm | hm
    · rw [List.any_eq_true]
      exact ⟨var, hm, by simp⟩
    · exact absurd (builtin_types var hm).2 (by omega)

/-- Every token of the lexer is bound. -/
theorem next_token_loop_bound (lookup : List te_variable) (c : Libc) :
    ∀ (fuel : Nat) (s : state), s.lookup = lookup →
      token_bound lookup (next_token_loop c fuel s) := by
  intro fuel
  induction fuel with
  | zero =>
    intro s hl
    rw [next_token_loop]
    exact token_bound_plain lookup _ hl TOK_NULL rfl (by decide) (by decide)
  | succ n ih =>
    intro s hl
    rw [next_token_loop]
    simp only []
    refine token_bound_ite lookup _ _ _
      (fun _ => token_bound_plain lookup _ hl TOK_END rfl (by decide) (by decide)) (fun _ => ?_)
    refine token_bound_ite lookup _ _ _
      (fun _ => token_bound_plain lookup _ hl TOK_NUMBER rfl (by decide) (by decide))
      (fun _ => ?_)
    refine token_bound_ite lookup _ _ _ (fun _ => ?_) (fun _ => ?_)
    · split
      · exact token_bound_plain lookup _ hl TOK_ERROR rfl (by decide) (by decide)
      · rename_i var hv
        rw [hl] at hv
        exact token_bound_resolved lookup (s.advance (s.next.takeWhile is_ident_char).length) hl _
          (ih (s.advance (s.next.takeWhile is_ident_char).length) hl) var
          (resolved_mem _ _ _ _ hv)
    refine token_bound_ite lookup _ _ _ (fun _ => token_bound_op lookup s hl _ _) (fun _ => ?_)
    refine token_bound_ite lookup _ _ _ (fun _ => token_bound_op lookup s hl _ _) (fun _ => ?_)
    refine token_bound_ite lookup _ _ _ (fun _ => token_bound_op lookup s hl _ _) (fun _ => ?_)
    refine token_bound_ite lookup _ _ _ (fun _ => token_bound_op lookup s hl _ _) (fun _ => ?_)
    refine token_bound_ite lookup _ _ _ (fun _ => token_bound_op lookup s hl _ _) (fun _ => ?_)
    refine token_bound_ite lookup _ _ _ (fun _ => token_bound_op lookup s hl _ _) (fun _ => ?_)
    refine token_bound_ite lookup _ _ _ (fun _ => token_bound_ite lookup _ _ _
      (fun _ => token_bound_op lookup s hl _ _) (fun _ => token_bound_op lookup s hl _ _))
      (fun _ => ?_)
    refine token_bound_ite lookup _ _ _ (fun _ => token_bound_ite lookup _ _ _
      (fun _ => token_bound_op lookup s hl _ _)
      (fun _ => token_bound_tok lookup s hl _ _ (by decide) (by decide)))
      (fun _ => ?_)
    refine token_bound_ite lookup _ _ _ (fun _ => token_bound_ite lookup _ _ _
      (fun _ => token_bound_op lookup s hl _ _) (fun _ => token_bound_op lookup s hl _ _))
      (fun _ => ?_)
    refine token_bound_ite lookup _ _ _ (fun _ => token_bound_ite lookup _ _ _
      (fun _ => token_bound_op lookup s hl _ _) (fun _ => token_bound_op lookup s hl _ _))
      (fun _ => ?_)
    refine token_bound_ite lookup _ _ _ (fun _ => token_bound_ite lookup _ _ _
      (fun _ => token_bound_op lookup s hl _ _)
      (fun _ => token_bound_tok lookup s hl _ _ (by decide) (by decide)))
      (fun _ => ?_)
    refine token_bound_ite lookup _ _ _ (fun _ => token_bound_ite lookup _ _ _
      (fun _ => token_bound_op lookup s hl _ _)
      (fun _ => token_bound_tok lookup s hl _ _ (by decide) (by decide)))
      (fun _ => ?_)
    refine token_bound_ite lookup _ _ _
      (fun _ => token_bound_tok lookup s hl _ _ (by decide) (by decide)) (fun _ => ?_)
    refine token_bound_ite lookup _ _ _
      (fun _ => token_bound_tok lookup s hl _ _ (by decide) (by decide)) (fun _ => ?_)
    refine token_bound_ite lookup _ _ _
      (fun _ => token_bound_tok lookup s hl _ _ (by decide) (by decide)) (fun _ => ?_)
    exact token_bound_ite lookup _ _ _ (fun _ => ih _ hl)
      (fun _ => token_bound_tok lookup s hl _ _ (by decide) (by decide))

theorem next_token_bound (lookup : List te_variable) (c : Libc) (s : state)
    (hl : s.lookup = lookup) : token_bound lookup (next_token c s) :=
  next_token_loop_bound lookup c _ s hl

theorem all_well_formed_iff (lookup : List te_variable) (ps : List expr_native) :
    well_formed.all_well_formed lookup ps = true ↔ ∀ q ∈ ps, well_formed lookup q = true := by
  induction ps with
  | nil => rw [well_formed.all_well_formed]; simp
  | cons p ps ih =>
    rw [well_formed.all_well_formed, Bool.and_eq_true, ih]
    simp

theorem call_type_mask (type : Nat) (h : is_call_type type) :
    type_mask type ≠ TE_CONSTANT ∧ type_mask type ≠ TE_VARIABLE := by
  unfold is_call_type at h
  simp only [TE_FUNCTION0, TE_FUNCTION_MAX, TE_CLOSURE0, TE_CLOSURE_MAX] at h
  simp only [TE_CONSTANT, TE_VARIABLE]
  omega

theorem well_formed_call (lookup : List te_variable) (type f : Nat) (ps : List expr_native)
    (ctx : Nat) (hc : is_call_type type) (hb : bound_call lookup type f ctx = true)
    (hl : ps.length = arity type) (hps : ∀ x ∈ ps, well_formed lookup x = true) :
    well_formed lookup (.node type (.ptr f) ps ctx) = true := by
  rw [well_formed, if_neg (call_type_mask type hc).1, if_neg (call_type_mask type hc).2,
    if_pos hc]
  show (bound_call lookup type f ctx && ps.length == arity type &&
    well_formed.all_well_formed lookup ps) = true
  rw [hb, (all_well_formed_iff lookup ps).mpr hps, hl]
  simp

theorem well_formed_constant (lookup : List te_variable) (v : Scalar) :
    well_formed lookup ((new_expr TE_CONSTANT []).set_value v) = true := rfl

theorem well_formed_binary (lookup : List te_variable) (f : Nat) (a b : expr_native)
    (hf : is_builtin_address f = true) (ha : well_formed lookup a = true)
    (hb : well_formed lookup b = true) : well_formed lookup (binary f a b) = true := by
  have ha2 : arity (TE_FUNCTION2 ||| TE_FLAG_PURE) = 2 := by decide
  refine well_formed_call lookup _ f [a, b] 0 (by decide) ?_ ha2.symm ?_
  · unfold bound_call
    rw [if_neg (by decide), hf]
    rfl
  · intro x hx
    simp only [List.mem_cons, List.mem_singleton, List.not_mem_nil, or_false] at hx
    rcases hx with hx | hx <;> rw [hx] <;> assumption

theorem well_formed_unary (lookup : List te_variable) (f : String) (a : expr_native)
    (hf : is_builtin_address (find_builtin_address f) = true)
    (ha : well_formed lookup a = true) : well_formed lookup (unary_node f a) = true := by
  have e : unary_node f a =
      .node (TE_FUNCTION1 ||| TE_FLAG_PURE) (.ptr (find_builtin_address f)) [a] 0 := rfl
  rw [e]
  have ha1 : arity (TE_FUNCTION1 ||| TE_FLAG_PURE) = 1 := by decide
  refine well_formed_call lookup _ _ [a] 0 (by decide) ?_ ha1.symm ?_
  · unfold bound_call
    rw [if_neg (by decide), hf]
    rfl
  · intro x hx
    simp only [List.mem_singleton] at hx
    rw [hx]; exact ha

theorem well_formed_power_wrap (lookup : List te_variable) (sign logical : Int)
    (b : expr_native) (hb : well_formed lookup b = true) :
    well_formed lookup (power_wrap sign logical b) = true := by
  unfold power_wrap
  split
  · split
    · exact hb
    · split
      · exact well_formed_unary lookup _ _ (by decide) hb
      · exact well_formed_unary lookup _ _ (by decide) hb
  · split
    · exact well_formed_unary lookup _ _ (by decide) hb
    · split
      · exact well_formed_unary lookup _ _ (by decide) hb
      · exact well_formed_unary lookup _ _ (by decide) hb

theorem error_state_eq (s : state) (h : s.type = TOK_ERROR) :
    ({ s with type := TOK_ERROR } : state) = s := by
  cases s
  simp only [state.mk.injEq, true_and, and_true] at h ⊢
  exact h.symm

theorem token_bound_error (lookup : List te_variable) (s : state)
    (h : token_bound lookup s) : token_bound lookup { s with type := TOK_ERROR } :=
  token_bound_plain lookup _ h.1 TOK_ERROR rfl (by decide) (by decide)

theorem is_op_builtin (s : state) (names : List String) (h : s.is_op names = true)
    (hn : ∀ n ∈ names, is_builtin_address (find_builtin_address n) = true) :
    is_builtin_address s.function = true := by
  unfold state.is_op at h
  rw [Bool.and_eq_true, List.any_eq_true] at h
  obtain ⟨_, n, hm, e⟩ := h
  rw [beq_iff_eq] at e
  rw [e]
  exact hn n hm

theorem level_function_builtin (l : Nat) (s : state) (h : is_level_op l s = true) :
    is_builtin_address (level_function l s) = true := by
  have hl := is_level_op_le s l h
  have : l = 0 ∨ l = 1 ∨ l = 2 ∨ l = 3 ∨ l = 4 ∨ l = 5 := by omega
  rcases this with g | g | g | g | g | g <;> subst g
  · rfl
  all_goals
    simp only [is_level_op] at h
    refine is_op_builtin s _ h ?_
    decide

theorem power_sign_builds (lookup : List te_variable) (c : Libc) (fuel : Nat) :
    ∀ (s : state) (sign : Int) (q : state × Int), token_bound lookup s →
      power_sign c fuel s sign = some q →
      token_bound lookup q.1 ∧ (s.type = TOK_ERROR → q.1 = s) := by
  induction fuel with
  | zero => intro s sign q _ h; cases h
  | succ n ih =>
    intro s sign q ht h
    rw [power_sign] at h
    by_cases hop : s.is_op ["add", "sub"] = true
    · rw [if_pos hop] at h
      obtain ⟨a, _⟩ := ih _ _ _ (next_token_bound lookup c s ht.1) h
      exact ⟨a, fun e => absurd e (is_op_ne_end s _ hop).2⟩
    · rw [if_neg hop] at h
      cases h
      exact ⟨ht, fun _ => rfl⟩

theorem power_logical_builds (lookup : List te_variable) (c : Libc) (fuel : Nat) :
    ∀ (s : state) (l : Int) (q : state × Int), token_bound lookup s →
      power_logical c fuel s l = some q →
      token_bound lookup q.1 ∧ (s.type = TOK_ERROR → q.1 = s) := by
  induction fuel with
  | zero => intro s l q _ h; cases h
  | succ n ih =>
    intro s l q ht h
    rw [power_logical] at h
    by_cases hop : s.is_op ["add", "sub", "logical_not"] = true
    · rw [if_pos hop] at h
      obtain ⟨a, _⟩ := ih _ _ _ (next_token_bound lookup c s ht.1) h
      exact ⟨a, fun e => absurd e (is_op_ne_end s _ hop).2⟩
    · rw [if_neg hop] at h
      cases h
      exact ⟨ht, fun _ => rfl⟩

theorem power_builds_step (lookup : List te_variable) (c : Libc) (n : Nat)
    (ihB : ∀ s q, token_bound lookup s → base c n s = some q → builds lookup s q)
    (s : state) (q : expr_native × state) (ht : token_bound lookup s)
    (h : power c (n + 1) s = some q) : builds lookup s q := by
  rw [power] at h
  cases h1 : power_sign c (n + 1) s 1 with
  | none => rw [h1] at h; cases h
  | some r1 =>
    rw [h1] at h
    obtain ⟨t1, k1⟩ := power_sign_builds lookup c _ _ _ _ ht h1
    simp only [] at h
    cases h2 : power_logical c (n + 1) r1.1 0 with
    | none => rw [h2] at h; cases h
    | some r2 =>
      rw [h2] at h
      obtain ⟨t2, k2⟩ := power_logical_builds lookup c _ _ _ _ t1 h2
      simp only [] at h
      cases h3 : base c n r2.1 with
      | none => rw [h3] at h; cases h
      | some r3 =>
        rw [h3] at h
        obtain ⟨t3, w3, k3⟩ := ihB _ _ t2 h3
        cases h
        refine ⟨t3, fun hq => well_formed_power_wrap lookup _ _ _ (w3 hq), fun he => ?_⟩
        have e1 := k1 he
        have e2 := k2 (by rw [e1]; exact he)
        have e3 := k3 (by rw [e2, e1]; exact he)
        show r3.2 = s
        rw [e3, e2, e1]

theorem level_parse_builds_step (lookup : List te_variable) (c : Libc) (n : Nat)
    (ihP : ∀ l s q, token_bound lookup s → level_parse c l n s = some q → builds lookup s q)
    (ihL : ∀ l ret s q, token_bound lookup s → level_loop c l n ret s = some q →
      loop_builds lookup ret s q)
    (ihB : ∀ s q, token_bound lookup s → base c n s = some q → builds lookup s q)
    (l : Nat) (s : state) (q : expr_native × state) (ht : token_bound lookup s)
    (h : level_parse c l (n + 1) s = some q) : builds lookup s q := by
  by_cases hl : l ≤ 5
  · rw [level_parse_succ c l hl] at h
    cases hG : level_parse c (l + 1) n s with
    | none => rw [hG] at h; cases h
    | some r =>
      rw [hG] at h
      obtain ⟨t1, w1, k1⟩ := ihP _ _ _ ht hG
      obtain ⟨t2, w2, k2⟩ := ihL _ _ _ _ t1 h
      refine ⟨t2, fun hq => w2 hq (w1 ?_), fun he => ?_⟩
      · intro hr
        have := k2 hr
        rw [this] at hq
        exact hq hr
      · have e1 := k1 he
        have e2 := k2 (by rw [e1]; exact he)
        rw [e2]
        exact e1
  · obtain ⟨j, rfl⟩ : ∃ j, l = j + 6 := ⟨l - 6, by omega⟩
    exact power_builds_step lookup c n ihB s q ht h

theorem is_level_op_ne_error2 (l : Nat) (s : state) (h : is_level_op l s = true) :
    s.type ≠ TOK_ERROR := by
  have hl := is_level_op_le s l h
  have : l = 0 ∨ l = 1 ∨ l = 2 ∨ l = 3 ∨ l = 4 ∨ l = 5 := by omega
  rcases this with g | g | g | g | g | g <;> subst g <;> simp only [is_level_op] at h
  · rw [beq_iff_eq] at h; rw [h]; decide
  all_goals exact (is_op_ne_end s _ h).2

theorem level_loop_builds_step (lookup : List te_variable) (c : Libc) (n : Nat)
    (ihP : ∀ l s q, token_bound lookup s → level_parse c l n s = some q → builds lookup s q)
    (ihL : ∀ l ret s q, token_bound lookup s → level_loop c l n ret s = some q →
      loop_builds lookup ret s q)
    (l : Nat) (ret : expr_native) (s : state) (q : expr_native × state)
    (ht : token_bound lookup s) (h : level_loop c l (n + 1) ret s = some q) :
    loop_builds lookup ret s q := by
  have main : ∀ l, l ≤ 5 → ∀ ret s q, token_bound lookup s →
      level_loop c l (n + 1) ret s = some q → loop_builds lookup ret s q := by
    intro l hl ret s q ht h
    rw [level_loop_succ c l hl] at h
    by_cases hop : is_level_op l s = true
    · rw [if_pos hop] at h
      cases hG : level_parse c (l + 1) n (next_token c s) with
      | none => rw [hG] at h; cases h
      | some r =>
        rw [hG] at h
        obtain ⟨t1, w1, _⟩ := ihP _ _ _ (next_token_bound lookup c s ht.1) hG
        obtain ⟨t2, w2, k2⟩ := ihL _ _ _ _ t1 h
        refine ⟨t2, fun hq hr => w2 hq ?_, fun he => absurd he (is_level_op_ne_error2 l s hop)⟩
        refine well_formed_binary lookup _ _ _ (level_function_builtin l s hop) hr (w1 ?_)
        intro hr2
        have := k2 hr2
        rw [this] at hq
        exact hq hr2
    · rw [if_neg hop] at h
      cases h
      exact ⟨ht, fun _ hr => hr, fun _ => rfl⟩
  by_cases hl : l ≤ 5
  · exact main l hl ret s q ht h
  · rw [level_loop_five c l hl] at h
    exact main 5 (by omega) ret s q ht h

theorem is_closure_of_mask (type : Nat) (h : TE_CLOSURE0 ≤ type_mask type)
    (h2 : type_mask type < TE_CLOSURE_MAX) : is_closure type = true := by
  have h31 : type &&& 31 = type % 32 := Nat.and_pow_two_sub_one_eq_mod type 5
  have h16 : type &&& 16 = (type &&& 31) &&& 16 := by
    rw [Nat.and_assoc]; rfl
  rw [type_mask_eq_mod] at h h2
  simp only [TE_CLOSURE0, TE_CLOSURE_MAX] at h h2
  unfold is_closure
  have e : TE_CLOSURE0 = 16 := rfl
  rw [e, h16, h31]
  have hne : (type % 32) &&& 16 ≠ 0 := by
    generalize type % 32 = m at h h2
    interval_cases m <;> decide
  simp [hne]

/-- The node a call token starts. -/
theorem call_node_eq (s : state) :
    call_node s = .node s.type (.ptr s.function) (List.replicate (arity s.type) .null)
      (if is_closure s.type then s.context else 0) := by
  unfold call_node
  by_cases h : is_closure s.type = true
  · rw [if_pos h, if_pos h]; rfl
  · rw [if_neg h, if_neg h]; rfl

theorem bound_call_node (lookup : List te_variable) (s : state) (ht : token_bound lookup s)
    (hc : is_call_type s.type) :
    bound_call lookup s.type s.function (if is_closure s.type then s.context else 0) = true := by
  have hb := ht.2.2 hc
  unfold bound_call at hb ⊢
  by_cases hcl : TE_CLOSURE0 ≤ type_mask s.type
  · rw [if_pos hcl] at hb ⊢
    have h2 : type_mask s.type < TE_CLOSURE_MAX := by
      rcases hc with a | a
      · have e : TE_FUNCTION_MAX = TE_CLOSURE0 := rfl
        rw [e] at a
        omega
      · exact a.2
    rw [if_pos (is_closure_of_mask s.type hcl h2)]
    exact hb
  · rw [if_neg hcl] at hb ⊢
    exact hb

theorem set_keeps_formed (lookup : List te_variable) (ps : List expr_native) (i : Nat)
    (e : expr_native)
    (h : ∀ k x, k < i → ps[k]? = some x → well_formed lookup x = true)
    (he : well_formed lookup e = true) :
    ∀ k x, k < i + 1 → (ps.set i e)[k]? = some x → well_formed lookup x = true := by
  intro k x hk hx
  rw [List.getElem?_set] at hx
  by_cases hik : i = k
  · rw [if_pos hik] at hx
    by_cases hl : i < ps.length
    · rw [if_pos hl] at hx
      cases hx; exact he
    · rw [if_neg hl] at hx; cases hx
  · rw [if_neg hik] at hx
    exact h k x (by omega) hx

theorem formed_of_indexed (lookup : List te_variable) (ps : List expr_native) (n : Nat)
    (hl : ps.length ≤ n)
    (h : ∀ k x, k < n → ps[k]? = some x → well_formed lookup x = true) :
    ∀ q ∈ ps, well_formed lookup q = true := by
  intro q hq
  obtain ⟨k, hk, e⟩ := List.getElem_of_mem hq
  exact h k q (by omega) (by rw [List.getElem?_eq_getElem hk, e])

theorem base_args_builds_step (lookup : List te_variable) (c : Libc) (n : Nat)
    (ihE : ∀ s q, token_bound lookup s → expr c n s = some q → builds lookup s q)
    (ihA : args_builds lookup c n) : args_builds lookup c (n + 1) := by
  intro ar i ret s q ht h
  rw [base_args] at h
  by_cases hi : i < ar
  · rw [if_pos hi] at h
    cases hE : expr c n (next_token c s) with
    | none => rw [hE] at h; cases h
    | some r =>
      rw [hE] at h
      simp only [] at h
      obtain ⟨t1, w1, _⟩ := ihE _ _ (next_token_bound lookup c s ht.1) hE
      by_cases hsep : r.2.type ≠ TOK_SEP
      · rw [if_pos hsep] at h
        cases h
        refine ⟨t1, fun hq t p ps ctx hret hlen hpre => ?_⟩
        have hset : ret.set_parameter i r.1 = .node t p (ps.set i r.1) ctx := by rw [hret]; rfl
        exact ⟨ps.set i r.1, hset, by rw [List.length_set]; exact hlen,
          set_keeps_formed lookup ps i r.1 hpre (w1 hq)⟩
      · rw [if_neg hsep] at h
        have hs : r.2.type = TOK_SEP := not_not.mp hsep
        obtain ⟨t2, w2⟩ := ihA ar (i + 1) _ r.2 q t1 h
        refine ⟨t2, fun hq t p ps ctx hret hlen hpre => ?_⟩
        have hset : ret.set_parameter i r.1 = .node t p (ps.set i r.1) ctx := by rw [hret]; rfl
        exact w2 hq t p (ps.set i r.1) ctx hset (by rw [List.length_set]; exact hlen)
          (set_keeps_formed lookup ps i r.1 hpre (w1 (by rw [hs]; decide)))
  · rw [if_neg hi] at h
    cases h
    refine ⟨ht, fun _ t p ps ctx hret hlen hpre => ⟨ps, hret, hlen, ?_⟩⟩
    intro k x hk hx
    by_cases hki : k < i
    · exact hpre k x hki hx
    · rw [List.getElem?_eq_none (by omega)] at hx; cases hx

theorem well_formed_variable (lookup : List te_variable) (s : state)
    (ht : token_bound lookup s) (h : type_mask s.type = TOK_VARIABLE) :
    well_formed lookup ((new_expr TE_VARIABLE []).set_function s.function) = true := by
  have e : (new_expr TE_VARIABLE []).set_function s.function =
      .node TE_VARIABLE (.ptr s.function) [] 0 := rfl
  rw [e, well_formed, if_neg (by decide), if_pos (by decide)]
  exact ht.2.1 h

theorem mask_error (s : state) (h : s.type = TOK_ERROR) (k : Nat) (hk : k ≠ TOK_ERROR) :
    type_mask s.type ≠ k := by
  rw [h]
  exact fun e => hk (e.symm.trans (by decide))

theorem base_builds_step (lookup : List te_variable) (c : Libc) (n : Nat)
    (ihP : ∀ s q, token_bound lookup s → power c n s = some q → builds lookup s q)
    (ihL : ∀ s q, token_bound lookup s → list c n s = some q → builds lookup s q)
    (ihA : args_builds lookup c n)
    (s : state) (q : expr_native × state) (ht : token_bound lookup s)
    (h : base c (n + 1) s = some q) : builds lookup s q := by
  rw [base] at h
  dsimp only at h
  have hnt := next_token_bound lookup c s ht.1
  by_cases h1 : type_mask s.type = TOK_NUMBER
  · rw [if_pos h1] at h
    cases h
    exact ⟨hnt, fun _ => well_formed_constant lookup _,
      fun he => absurd h1 (mask_error s he _ (by decide))⟩
  rw [if_neg h1] at h
  by_cases h2 : type_mask s.type = TOK_VARIABLE
  · rw [if_pos h2] at h
    cases h
    exact ⟨hnt, fun _ => well_formed_variable lookup s ht h2,
      fun he => absurd h2 (mask_error s he _ (by decide))⟩
  rw [if_neg h2] at h
  by_cases h3 : (type_mask s.type ≥ TE_FUNCTION0 ∧ type_mask s.type < TE_FUNCTION_MAX) ∨
      (type_mask s.type ≥ TE_CLOSURE0 ∧ type_mask s.type < TE_CLOSURE_MAX)
  · rw [if_pos h3] at h
    have hcall : is_call_type s.type := h3
    have hne : s.type = TOK_ERROR → False := by
      intro e
      rw [e] at h3
      revert h3
      decide
    have hbc := bound_call_node lookup s ht hcall
    by_cases ha0 : arity s.type = 0
    · rw [if_pos ha0] at h
      have hw : well_formed lookup (call_node s) = true := by
        rw [call_node_eq]
        refine well_formed_call lookup _ _ _ _ hcall hbc (List.length_replicate _ _) ?_
        rw [ha0]
        intro x hx
        cases hx
      by_cases ho : (next_token c s).type = TOK_OPEN
      · rw [if_pos ho] at h
        have hnt2 := next_token_bound lookup c _ hnt.1
        by_cases hc : (next_token c (next_token c s)).type ≠ TOK_CLOSE
        · rw [if_pos hc] at h
          cases h
          exact ⟨token_bound_error lookup _ hnt2, fun _ => hw, fun he => (hne he).elim⟩
        · rw [if_neg hc] at h
          cases h
          exact ⟨next_token_bound lookup c _ hnt2.1, fun _ => hw, fun he => (hne he).elim⟩
      · rw [if_neg ho] at h
        cases h
        exact ⟨hnt, fun _ => hw, fun he => (hne he).elim⟩
    rw [if_neg ha0] at h
    by_cases ha1 : arity s.type = 1
    · rw [if_pos ha1] at h
      cases hP : power c n (next_token c s) with
      | none => rw [hP] at h; cases h
      | some r =>
        rw [hP] at h
        cases h
        obtain ⟨t1, w1, _⟩ := ihP _ _ hnt hP
        refine ⟨t1, fun hq => ?_, fun he => (hne he).elim⟩
        show well_formed lookup ((call_node s).set_parameter 0 r.1) = true
        rw [call_node_eq, ha1]
        show well_formed lookup (.node s.type (.ptr s.function) [r.1] _) = true
        refine well_formed_call lookup _ _ _ _ hcall hbc ha1.symm ?_
        intro x hx
        simp only [List.mem_singleton] at hx
        rw [hx]; exact w1 hq
    rw [if_neg ha1] at h
    by_cases ho : (next_token c s).type ≠ TOK_OPEN
    · rw [if_pos ho] at h
      cases h
      exact ⟨token_bound_error lookup _ hnt, fun hq => absurd rfl hq, fun he => (hne he).elim⟩
    rw [if_neg ho] at h
    cases hA : base_args c n (arity s.type) 0 (call_node s) (next_token c s) with
    | none => rw [hA] at h; cases h
    | some r =>
      rw [hA] at h
      simp only [] at h
      obtain ⟨t1, w1⟩ := ihA _ _ _ _ r hnt hA
      by_cases hc : r.2.1.type ≠ TOK_CLOSE ∨ r.2.2 ≠ arity s.type - 1
      · rw [if_pos hc] at h
        cases h
        exact ⟨token_bound_error lookup _ t1, fun hq => absurd rfl hq, fun he => (hne he).elim⟩
      · rw [if_neg hc] at h
        cases h
        have hcl : r.2.1.type = TOK_CLOSE := by
          by_contra hx; exact hc (Or.inl hx)
        have hix : r.2.2 = arity s.type - 1 := by
          by_contra hx; exact hc (Or.inr hx)
        refine ⟨next_token_bound lookup c _ t1.1, fun _ => ?_, fun he => (hne he).elim⟩
        obtain ⟨ps1, e1, l1, a1⟩ := w1 (by rw [hcl]; decide) s.type (.ptr s.function)
          (List.replicate (arity s.type) .null) (if is_closure s.type then s.context else 0)
          (call_node_eq s) (List.length_replicate _ _)
          (fun k x hk _ => absurd hk (Nat.not_lt_zero k))
        show well_formed lookup r.1 = true
        rw [e1]
        exact well_formed_call lookup _ _ _ _ hcall hbc l1
          (formed_of_indexed lookup ps1 (r.2.2 + 1) (by rw [l1, hix]; omega) a1)
  rw [if_neg h3] at h
  by_cases h4 : type_mask s.type = TOK_OPEN
  · rw [if_pos h4] at h
    cases hL : list c n (next_token c s) with
    | none => rw [hL] at h; cases h
    | some r =>
      rw [hL] at h
      simp only [] at h
      obtain ⟨t1, w1, _⟩ := ihL _ _ hnt hL
      by_cases hc : r.2.type ≠ TOK_CLOSE
      · rw [if_pos hc] at h
        cases h
        exact ⟨token_bound_error lookup _ t1, fun hq => absurd rfl hq,
          fun he => absurd h4 (mask_error s he _ (by decide))⟩
      · rw [if_neg hc] at h
        cases h
        exact ⟨next_token_bound lookup c _ t1.1, fun _ => w1 (by rw [not_not.mp hc]; decide),
          fun he => absurd h4 (mask_error s he _ (by decide))⟩
  · rw [if_neg h4] at h
    cases h
    exact ⟨token_bound_error lookup _ ht, fun hq => absurd rfl hq, fun he => error_state_eq s he⟩

/-- Every parser function returns a bound token and, unless that is the error token, a
well-formed tree; entered on the error token it returns the state it was entered in. -/
theorem parser_builds (lookup : List te_variable) (c : Libc) (fuel : Nat) :
    (∀ s q, token_bound lookup s → base c fuel s = some q → builds lookup s q) ∧
    args_builds lookup c fuel ∧
    (∀ l s q, token_bound lookup s → level_parse c l fuel s = some q → builds lookup s q) ∧
    (∀ l ret s q, token_bound lookup s → level_loop c l fuel ret s = some q →
      loop_builds lookup ret s q) := by
  induction fuel with
  | zero =>
    refine ⟨?_, ?_, ?_, ?_⟩
    · intro s q _ h; rw [base] at h; cases h
    · intro ar i ret s q _ h; rw [base_args] at h; cases h
    · intro l s q _ h
      by_cases hl : l ≤ 5
      · have : l = 0 ∨ l = 1 ∨ l = 2 ∨ l = 3 ∨ l = 4 ∨ l = 5 := by omega
        rcases this with g | g | g | g | g | g <;> subst g <;> simp only [level_parse] at h
        · rw [list] at h; cases h
        · rw [expr] at h; cases h
        · rw [test_expr] at h; cases h
        · rw [sum_expr] at h; cases h
        · rw [term] at h; cases h
        · rw [factor] at h; cases h
      · obtain ⟨j, rfl⟩ : ∃ j, l = j + 6 := ⟨l - 6, by omega⟩
        simp only [level_parse] at h
        rw [power] at h; cases h
    · intro l ret s q _ h
      by_cases hl : l ≤ 5
      · have : l = 0 ∨ l = 1 ∨ l = 2 ∨ l = 3 ∨ l = 4 ∨ l = 5 := by omega
        rcases this with g | g | g | g | g | g <;> subst g <;> simp only [level_loop] at h
        · rw [list_loop] at h; cases h
        · rw [expr_loop] at h; cases h
        · rw [test_expr_loop] at h; cases h
        · rw [sum_expr_loop] at h; cases h
        · rw [term_loop] at h; cases h
        · rw [factor_loop] at h; cases h
      · rw [level_loop_five c l hl] at h
        simp only [level_loop] at h
        rw [factor_loop] at h; cases h
  | succ n ih =>
    obtain ⟨iB, iA, iP, iL⟩ := ih
    exact ⟨base_builds_step lookup c n (iP 6) (iP 0) iA,
      base_args_builds_step lookup c n (iP 1) iA,
      level_parse_builds_step lookup c n iP iL iB,
      level_loop_builds_step lookup c n iP iL⟩

/-- What a well-formed call node holds. -/
theorem well_formed_call_inv (lookup : List te_variable) (type : Nat) (payload : Payload)
    (ps : List expr_native) (ctx : Nat)
    (h : well_formed lookup (.node type payload ps ctx) = true) (hc : is_call_type type) :
    ∃ f, payload = .ptr f ∧ bound_call lookup type f ctx = true ∧ ps.length = arity type ∧
      ∀ x ∈ ps, well_formed lookup x = true := by
  rw [well_formed, if_neg (call_type_mask type hc).1, if_neg (call_type_mask type hc).2,
    if_pos hc] at h
  cases payload with
  | value v => cases h
  | ptr f =>
    have h2 : (bound_call lookup type f ctx && ps.length == arity type &&
      well_formed.all_well_formed lookup ps) = true := h
    rw [Bool.and_eq_true, Bool.and_eq_true, beq_iff_eq] at h2
    exact ⟨f, rfl, h2.1.1, h2.1.2, (all_well_formed_iff lookup ps).mp h2.2⟩

/-- The category of a well-formed node. -/
theorem well_formed_category (lookup : List te_variable) (type : Nat) (payload : Payload)
    (ps : List expr_native) (ctx : Nat)
    (h : well_formed lookup (.node type payload ps ctx) = true) :
    type_mask type = TE_CONSTANT ∨ type_mask type = TE_VARIABLE ∨ is_call_type type := by
  by_cases h1 : type_mask type = TE_CONSTANT
  · exact Or.inl h1
  by_cases h2 : type_mask type = TE_VARIABLE
  · exact Or.inr (Or.inl h2)
  by_cases h3 : is_call_type type
  · exact Or.inr (Or.inr h3)
  rw [well_formed, if_neg h1, if_neg h2, if_neg h3] at h
  cases h

/-- A well-formed node stays well formed when its parameters are replaced by as many
well-formed trees. -/
theorem well_formed_children (lookup : List te_variable) (type : Nat) (payload : Payload)
    (ps ps1 : List expr_native) (ctx : Nat)
    (h : well_formed lookup (.node type payload ps ctx) = true)
    (hl : ps1.length = ps.length) (hps : ∀ x ∈ ps1, well_formed lookup x = true) :
    well_formed lookup (.node type payload ps1 ctx) = true := by
  by_cases h1 : type_mask type = TE_CONSTANT
  · rw [well_formed, if_pos h1] at h ⊢
    exact h
  by_cases h2 : type_mask type = TE_VARIABLE
  · rw [well_formed, if_neg h1, if_pos h2] at h ⊢
    exact h
  by_cases h3 : is_call_type type
  · obtain ⟨f, e, hb, hlen, _⟩ := well_formed_call_inv lookup type payload ps ctx h h3
    rw [e]
    exact well_formed_call lookup type f ps1 ctx h3 hb (hl.trans hlen) hps
  · rw [well_formed, if_neg h1, if_neg h2, if_neg h3] at h
    cases h

theorem forall2_length {α β : Type} {R : α → β → Prop} {l1 : List α} {l2 : List β}
    (h : List.Forall₂ R l1 l2) : l2.length = l1.length := by
  induction h with
  | nil => rfl
  | cons _ _ ih => simp [ih]

/-- The pass `optimize` keeps a tree well formed. -/
theorem optimize_well_formed (lookup : List te_variable) (h : Host) (mem : Mem) :
    ∀ (t r : expr_native), optimize h mem t = some r → well_formed lookup t = true →
      well_formed lookup r = true := by
  intro t
  induction t using expr_native.tree_induction with
  | hnull => intro r e; rw [optimize] at e; cases e
  | hnode type payload ps ctx ih =>
    intro r e hn
    rw [optimize_node] at e
    by_cases h1 : type = TE_CONSTANT
    · rw [if_pos h1] at e; cases e; exact hn
    rw [if_neg h1] at e
    by_cases h2 : type = TE_VARIABLE
    · rw [if_pos h2] at e; cases e; exact hn
    rw [if_neg h2] at e
    by_cases h3 : is_pure type = true
    · rw [if_pos h3] at e
      cases hps : optimize.optimize_args h mem ps with
      | none => rw [hps] at e; cases e
      | some ps1 =>
        rw [hps] at e
        simp only [] at e
        have hfa := optimize_args_forall h mem ps ps1 hps
        by_cases hall : ps1.all (fun p => p.type == some TE_CONSTANT) = true
        · rw [if_pos hall] at e
          cases hv : eval_native h mem (.node type payload ps1 ctx) with
          | none => rw [hv] at e; cases e
          | some value =>
            rw [hv] at e
            cases e
            rfl
        · rw [if_neg hall] at e
          cases e
          rcases well_formed_category lookup type payload ps ctx hn with hk | hk | hk
          · rw [well_formed, if_pos hk] at hn ⊢
            exact hn
          · have hk1 : type_mask type ≠ TE_CONSTANT := by rw [hk]; decide
            rw [well_formed, if_neg hk1, if_pos hk] at hn ⊢
            exact hn
          · obtain ⟨f, _, _, _, hch⟩ := well_formed_call_inv lookup type payload ps ctx hn hk
            refine well_formed_children lookup type payload ps ps1 ctx hn (forall2_length hfa) ?_
            intro q hq
            obtain ⟨p, hp, hpq⟩ := forall2_mem_right hfa q hq
            exact ih p hp q hpq (hch p hp)
    · rw [if_neg h3] at e; cases e; exact hn

/-- The tree of a parse that ends at the end of the text is well formed. -/
theorem parse_well_formed (c : Libc) (text : List Nat) (vars : List te_variable)
    (q : expr_native × state) (h : parse c text vars = some q) (hq : q.2.type = TOK_END) :
    well_formed vars q.1 = true :=
  ((parser_builds vars c (parse_fuel text)).2.2.1 0 _ q
    (next_token_bound vars c (init_state text vars) rfl) h).2.1 (by rw [hq]; decide)

/-- C38: the tree a successful `compile_native` returns is well formed over the lookup
table: it is not null and not the placeholder of a failed parse; the category of every
node is Constant, Variable, Function0..7 or Closure0..7; a call node has `arity(type)`
parameters, each a well-formed tree again; and a closure node holds the address, the
type and the context of one entry of the lookup table. The error token is sticky: every
parser function entered on it returns the state it was entered in, a loop also the tree
it was entered with, and a parse that ends on it makes `compile_native` fail. -/
theorem C38_well_formed_tree (h : Host) (mem : Mem) (text : List Nat)
    (vars : List te_variable) (root : expr_native) (err : Int)
    (hc : compile_native h mem text vars = .ok (some root, err)) :
    well_formed vars root = true ∧
    (well_formed vars .null = false ∧ well_formed vars error_node = false) ∧
    (∀ type payload ps ctx, well_formed vars (.node type payload ps ctx) = true →
      (type_mask type = TE_CONSTANT ∨ type_mask type = TE_VARIABLE ∨ is_call_type type) ∧
      (is_call_type type → ps.length = arity type ∧
        (∀ p ∈ ps, well_formed vars p = true) ∧
        (TE_CLOSURE0 ≤ type_mask type → ∃ v ∈ vars,
          payload = .ptr v.address ∧ v.type = type ∧ v.context = ctx))) ∧
    (∀ fuel s q, s.type = TOK_ERROR → base h.libc fuel s = some q → q.2 = s) ∧
    (∀ l fuel s q, s.type = TOK_ERROR → level_parse h.libc l fuel s = some q → q.2 = s) ∧
    (∀ l fuel ret s q, s.type = TOK_ERROR → level_loop h.libc l fuel ret s = some q →
      q = (ret, s)) ∧
    (∀ text2 q, parse h.libc text2 vars = some q → q.2.type = TOK_ERROR →
      ∃ e : Int, e ≠ 0 ∧ compile_native h mem text2 vars = .ok (none, e)) := by
  have plain : ∀ s : state, s.type = TOK_ERROR → token_bound s.lookup s := fun s e =>
    token_bound_plain s.lookup s rfl TOK_ERROR e (by decide) (by decide)
  refine ⟨?_, ⟨rfl, rfl⟩, ?_, ?_, ?_, ?_, ?_⟩
  · obtain ⟨q, hp, he, ho⟩ := compile_native_ok h mem text vars root err hc
    exact optimize_well_formed vars h mem q.1 root ho (parse_well_formed h.libc text vars q hp he)
  · intro type payload ps ctx hw
    refine ⟨well_formed_category vars type payload ps ctx hw, fun hcall => ?_⟩
    obtain ⟨f, e, hb, hl, hps⟩ := well_formed_call_inv vars type payload ps ctx hw hcall
    refine ⟨hl, hps, fun hcl => ?_⟩
    unfold bound_call at hb
    rw [if_pos hcl, List.any_eq_true] at hb
    obtain ⟨v, hv, hb⟩ := hb
    simp only [Bool.and_eq_true, beq_iff_eq] at hb
    exact ⟨v, hv, by rw [e, hb.1.1], hb.1.2, hb.2⟩
  · intro fuel s q he hb
    exact ((parser_builds s.lookup h.libc fuel).1 s q (plain s he) hb).2.2 he
  · intro l fuel s q he hp
    exact ((parser_builds s.lookup h.libc fuel).2.2.1 l s q (plain s he) hp).2.2 he
  · intro l fuel ret s q he hp
    exact ((parser_builds s.lookup h.libc fuel).2.2.2 l ret s q (plain s he) hp).2.2 he
  · intro text2 q hp he
    refine ⟨if q.2.pos = 0 then 1 else (q.2.pos : Int), ?_, ?_⟩
    · split <;> omega
    · rw [compile_native_of_parse h mem text2 vars q.1 q.2 hp, if_pos (by rw [he]; decide)]

/-- C38 on `cell 2 + c2(1, 3)` over the closures of `closure_lookup`. -/
theorem C38_well_formed_tree_witness :
    compile_native test_host closure_mem (cstr "cell 2 + c2(1, 3)") closure_lookup =
      .ok (some closure_sum_tree, 0) ∧
    well_formed closure_lookup closure_sum_tree = true :=
  ⟨by decide!,
    (C38_well_formed_tree test_host closure_mem (cstr "cell 2 + c2(1, 3)") closure_lookup
      closure_sum_tree 0 (by decide!)).1⟩

/-! ## C39: the reverse lookups of the lowering -/

theorem map_find_isSome {β : Type} (m : List (Nat × β)) (k : Nat) :
    (map_find m k).isSome = true ↔ k ∈ m.map Prod.fst := by
  unfold map_find
  rw [Option.isSome_map', List.find?_isSome]
  constructor
  · rintro ⟨e, he, hk⟩
    rw [beq_iff_eq] at hk
    rw [← hk]
    exact List.mem_map_of_mem _ he
  · intro h
    obtain ⟨e, he, hk⟩ := List.mem_map.mp h
    exact ⟨e, he, by rw [hk]; exact beq_self_eq_true _⟩

theorem map_find_isNone {β : Type} (m : List (Nat × β)) (k : Nat) :
    (map_find m k).isNone = true ↔ k ∉ m.map Prod.fst := by
  rw [← map_find_isSome, Option.isNone_iff_eq_none]
  cases map_find m k <;> simp

theorem handle_addr_enter (v : te_variable) (ix : indexer) :
    handle_addr (some v) ix =
      some (if v.type ≥ TE_CLOSURE0 ∧ v.type < TE_CLOSURE_MAX then
        (ix.enter v.address v.name).enter v.context (v.name ++ cstr "_closure")
      else ix.enter v.address v.name) := by
  unfold handle_addr
  simp only []
  have e : (if (map_find ix.name_map v.address).isNone then
      ({ name_map := ix.name_map ++ [(v.address, v.name)],
         index_map := map_insert ix.index_map v.address ix.index_counter,
         index_counter := ix.index_counter + 1 } : indexer)
    else ix) = ix.enter v.address v.name := rfl
  rw [e]
  by_cases hcl : v.type ≥ TE_CLOSURE0 ∧ v.type < TE_CLOSURE_MAX
  · rw [if_pos hcl, if_pos hcl]
    unfold indexer.enter
    by_cases h2 : (map_find (ix.enter v.address v.name).name_map v.context).isNone = true
    · have h3 := h2
      unfold indexer.enter at h3
      rw [if_pos h3, if_pos h3]
    · have h3 := h2
      unfold indexer.enter at h3
      rw [if_neg h3, if_neg h3]
  · rw [if_neg hcl, if_neg hcl]

theorem extends_refl (ix : indexer) : ix.extends_to ix :=
  ⟨List.prefix_refl _, List.prefix_refl _, Nat.le_refl _⟩

theorem extends_trans {a b c : indexer} (h1 : a.extends_to b) (h2 : b.extends_to c) :
    a.extends_to c :=
  ⟨h1.1.trans h2.1, h1.2.1.trans h2.2.1, Nat.le_trans h1.2.2 h2.2.2⟩

theorem enter_ordered (ix : indexer) (addr : Nat) (name : List Nat) (h : ix.ordered) :
    (ix.enter addr name).ordered ∧ ix.extends_to (ix.enter addr name) ∧
      addr ∈ (ix.enter addr name).index_map.map Prod.fst := by
  unfold indexer.enter
  by_cases hn : (map_find ix.name_map addr).isNone = true
  · rw [if_pos hn]
    have hk : addr ∉ ix.index_map.map Prod.fst := by
      rw [← h.1]
      exact (map_find_isNone _ _).mp hn
    have hi : map_insert ix.index_map addr ix.index_counter =
        ix.index_map ++ [(addr, ix.index_counter)] := by
      unfold map_insert
      have : (map_find ix.index_map addr).isSome = false := by
        cases hs : (map_find ix.index_map addr).isSome with
        | false => rfl
        | true => exact absurd ((map_find_isSome _ _).mp hs) hk
      rw [this]
      rfl
    refine ⟨⟨?_, ?_, ?_⟩, ⟨?_, ?_, ?_⟩, ?_⟩
    · show (ix.name_map ++ [(addr, name)]).map Prod.fst = (map_insert _ _ _).map Prod.fst
      rw [hi, List.map_append, List.map_append, h.1]
      rfl
    · show (map_insert _ _ _).map Prod.snd = List.range (ix.index_counter + 1)
      rw [hi, List.map_append, h.2.1, List.range_succ]
      rfl
    · show ((map_insert _ _ _).map Prod.fst).Nodup
      rw [hi, List.map_append]
      refine List.Nodup.append h.2.2 (List.nodup_singleton _) ?_
      intro a ha hb
      simp only [List.map_cons, List.map_nil, List.mem_singleton] at hb
      rw [hb] at ha
      exact hk ha
    · show ix.index_map <+: map_insert _ _ _
      rw [hi]
      exact List.prefix_append _ _
    · exact List.prefix_append _ _
    · exact Nat.le_succ _
    · show addr ∈ (map_insert _ _ _).map Prod.fst
      rw [hi, List.map_append]
      exact List.mem_append_right _ (List.mem_singleton.mpr rfl)
  · rw [if_neg hn]
    refine ⟨h, extends_refl ix, ?_⟩
    rw [← h.1]
    by_contra hc
    exact hn ((map_find_isNone _ _).mpr hc)

theorem keys_of_extends {a b : indexer} (h : a.extends_to b) (k : Nat)
    (hk : k ∈ a.index_map.map Prod.fst) : k ∈ b.index_map.map Prod.fst := by
  obtain ⟨t, e⟩ := h.1
  rw [← e, List.map_append]
  exact List.mem_append_left _ hk

/-- What `handle_addr` does to an ordered indexer for a binding that was found. -/
theorem handle_addr_ordered (v : te_variable) (ix : indexer) (h : ix.ordered) :
    ∃ ix1, handle_addr (some v) ix = some ix1 ∧ ix1.ordered ∧ ix.extends_to ix1 ∧
      v.address ∈ ix1.index_map.map Prod.fst ∧
      ((v.type ≥ TE_CLOSURE0 ∧ v.type < TE_CLOSURE_MAX) →
        v.context ∈ ix1.index_map.map Prod.fst) := by
  rw [handle_addr_enter]
  obtain ⟨o1, e1, k1⟩ := enter_ordered ix v.address v.name h
  by_cases hcl : v.type ≥ TE_CLOSURE0 ∧ v.type < TE_CLOSURE_MAX
  · rw [if_pos hcl]
    obtain ⟨o2, e2, k2⟩ := enter_ordered _ v.context (v.name ++ cstr "_closure") o1
    exact ⟨_, rfl, o2, extends_trans e1 e2, keys_of_extends e2 _ k1, fun _ => k2⟩
  · rw [if_neg hcl]
    exact ⟨_, rfl, o1, e1, k1, fun hc => absurd hc hcl⟩

theorem set_at_length (t1 : List Nat) (x a : Nat) (r : List Nat) :
    (t1 ++ x :: r).set t1.length a = t1 ++ a :: r := by
  induction t1 with
  | nil => rfl
  | cons y t1 ih =>
    show y :: (t1 ++ x :: r).set t1.length a = _
    rw [ih]
    rfl

theorem fill_zip (as : List Nat) : ∀ (t1 t2 t3 : List Nat), t2.length = as.length →
    (List.zip (List.range' t1.length as.length) as).foldl (fun t e => t.set e.1 e.2)
      (t1 ++ t2 ++ t3) = t1 ++ as ++ t3 := by
  induction as with
  | nil =>
    intro t1 t2 t3 h
    cases t2 with
    | nil => rfl
    | cons x t2 => cases h
  | cons a as ih =>
    intro t1 t2 t3 h
    cases t2 with
    | nil => cases h
    | cons x t2 =>
      have hl : t2.length = as.length := by simpa using h
      have e : List.range' t1.length (a :: as).length =
          t1.length :: List.range' (t1 ++ [a]).length as.length := by
        simp [List.range'_succ]
      rw [e, List.zip_cons_cons, List.foldl_cons]
      have e1 : (t1 ++ x :: t2 ++ t3).set t1.length a = (t1 ++ [a]) ++ t2 ++ t3 := by
        have := set_at_length t1 x a (t2 ++ t3)
        simp only [List.append_assoc, List.cons_append, List.nil_append] at this ⊢
        exact this
      show List.foldl _ ((t1 ++ x :: t2 ++ t3).set t1.length a) _ = _
      rw [e1, ih (t1 ++ [a]) t2 t3 hl]
      simp

/-- The address table of an ordered indexer is the list of its keys. -/
theorem ordered_address_table (ix : indexer) (h : ix.ordered) :
    ix.get_address_table = ix.index_map.map Prod.fst := by
  unfold indexer.get_address_table fill_table
  have hl : ix.index_map.length = ix.index_counter := by
    have := congrArg List.length h.2.1
    simpa using this
  have e : ix.index_map.map (fun e => (e.2, e.1)) =
      List.zip (List.range' 0 (ix.index_map.map Prod.fst).length) (ix.index_map.map Prod.fst) := by
    rw [List.length_map, hl, ← List.range_eq_range', ← h.2.1, List.zip_map']
  have h0 := fill_zip (ix.index_map.map Prod.fst) [] (List.replicate ix.index_counter 0) []
    (by simp [hl])
  simp only [List.nil_append, List.append_nil, List.length_nil] at h0
  rw [e]
  exact h0

theorem names_of_keys (ix : indexer) : ∀ (l : List Nat),
    (∀ a ∈ l, a ∈ ix.name_map.map Prod.fst) → ∃ names, names_of ix l = some names := by
  intro l
  induction l with
  | nil => intro _; exact ⟨[], rfl⟩
  | cons a as ih =>
    intro h
    obtain ⟨ns, e⟩ := ih (fun b hb => h b (List.mem_cons_of_mem _ hb))
    have hs := (map_find_isSome ix.name_map a).mpr (h a (List.mem_cons_self _ _))
    cases hm : map_find ix.name_map a with
    | none => rw [hm] at hs; cases hs
    | some n =>
      refine ⟨n :: ns, ?_⟩
      rw [names_of, hm, e]

/-- The assertion `itor != indexer.name_map.end()` holds for every index of an ordered
indexer. -/
theorem ordered_names (ix : indexer) (h : ix.ordered) :
    ∃ names, names_of ix ix.get_address_table = some names := by
  rw [ordered_address_table ix h]
  exact names_of_keys ix _ (fun a ha => by rw [h.1]; exact ha)

theorem empty_ordered : indexer.empty.ordered := ⟨rfl, rfl, List.nodup_nil⟩

theorem all_asserts_iff (lookup : List te_variable) (ix : indexer) (ps : List expr_native) :
    write_asserts.all_asserts lookup ix ps = true ↔
      ∀ q ∈ ps, write_asserts lookup ix q = true := by
  induction ps with
  | nil => rw [write_asserts.all_asserts]; simp
  | cons p ps ih =>
    rw [write_asserts.all_asserts, Bool.and_eq_true, ih]
    simp

/-- With its assertions passed, `register_func` is its stores. -/
theorem register_func_stores (ix : indexer) (addr : Option Nat) (out : Nat)
    (v : Option te_variable) (buf : List Word) (h : register_asserts ix addr v = true) :
    ∃ v0 idx, v = some v0 ∧ addr.bind (map_find ix.index_map) = some idx ∧
      register_func ix addr out v buf =
        (write_word buf (out + 8) (.int idx)).bind (fun buf1 =>
          if v0.type ≥ TE_CLOSURE0 ∧ v0.type < TE_CLOSURE_MAX then
            (map_find ix.index_map v0.context).bind (fun idx2 =>
              write_word buf1 (out + 16 + 8 * arity v0.type) (.int idx2))
          else some buf1) ∧
      ((v0.type ≥ TE_CLOSURE0 ∧ v0.type < TE_CLOSURE_MAX) →
        (map_find ix.index_map v0.context).isSome = true) := by
  unfold register_asserts at h
  cases v with
  | none => cases h
  | some v0 =>
    cases hi : addr.bind (map_find ix.index_map) with
    | none => rw [hi] at h; cases h
    | some idx =>
      rw [hi] at h
      simp only [] at h
      refine ⟨v0, idx, rfl, rfl, ?_, ?_⟩
      · unfold register_func
        rw [hi]
        simp only []
        cases hw : write_word buf (out + 8) (.int idx) with
        | none => rfl
        | some buf1 =>
          simp only [Option.bind]
          by_cases hcl : v0.type ≥ TE_CLOSURE0 ∧ v0.type < TE_CLOSURE_MAX
          · rw [if_pos hcl, if_pos hcl]
            cases map_find ix.index_map v0.context <;> rfl
          · rw [if_neg hcl, if_neg hcl]
      · intro hcl
        rw [if_pos hcl] at h
        exact h

theorem find_by_address (l : List te_variable) (a : Nat)
    (h : ∃ v ∈ l, v.address = a) :
    ∃ v, l.find? (fun v => v.address == a) = some v ∧ v.address = a := by
  cases hf : l.find? (fun v => v.address == a) with
  | none =>
    obtain ⟨v, hv, e⟩ := h
    have := List.find?_eq_none.mp hf v hv
    rw [e] at this
    simp at this
  | some v =>
    have := List.find?_some hf
    exact ⟨v, rfl, by simpa using this⟩

theorem find_any_by_addr_address (a : Nat) (v : te_variable)
    (h : find_any_by_addr a = some v) : v.address = a := by
  unfold find_any_by_addr at h
  cases hf : find_function_by_addr a with
  | some w =>
    rw [hf] at h
    cases h
    have := List.find?_some hf
    simpa using this
  | none =>
    rw [hf] at h
    simp only [] at h
    cases ho : find_operator_by_addr a with
    | some w =>
      rw [ho] at h
      cases h
      have := List.find?_some ho
      simpa using this
    | none =>
      rw [ho] at h
      simp only [] at h
      have e : find_builtin (cstr "nul") (cstr "nul").length = none := by decide
      rw [e] at h
      cases h

theorem find_any_of_builtin (a : Nat) (h : is_builtin_address a = true) :
    ∃ v, find_any_by_addr a = some v := by
  unfold is_builtin_address at h
  rw [List.any_append, Bool.or_eq_true, List.any_eq_true, List.any_eq_true] at h
  unfold find_any_by_addr
  cases hf : find_function_by_addr a with
  | some w => exact ⟨w, rfl⟩
  | none =>
    simp only []
    cases ho : find_operator_by_addr a with
    | some w => exact ⟨w, rfl⟩
    | none =>
      exfalso
      rcases h with ⟨v, hv, e⟩ | ⟨v, hv, e⟩
      · have := List.find?_eq_none.mp hf v hv
        rw [e] at this
        exact this rfl
      · have := List.find?_eq_none.mp ho v hv
        rw [e] at this
        exact this rfl

/-- The reverse lookup of a call node's function succeeds and finds a binding with that
address. -/
theorem find_bind_or_any_of_bound (lookup : List te_variable) (type f ctx : Nat)
    (h : bound_call lookup type f ctx = true) :
    ∃ v, find_bind_or_any_by_addr f lookup = some v ∧ v.address = f := by
  have key : is_builtin_address f = true ∨ ∃ v ∈ lookup, v.address = f := by
    unfold bound_call at h
    by_cases hcl : TE_CLOSURE0 ≤ type_mask type
    · rw [if_pos hcl, List.any_eq_true] at h
      obtain ⟨v, hv, e⟩ := h
      simp only [Bool.and_eq_true, beq_iff_eq] at e
      exact Or.inr ⟨v, hv, e.1.1⟩
    · rw [if_neg hcl, Bool.or_eq_true, List.any_eq_true] at h
      rcases h with h | ⟨v, hv, e⟩
      · exact Or.inl h
      · exact Or.inr ⟨v, hv, by simpa using e⟩
  unfold find_bind_or_any_by_addr
  cases ha : find_any_by_addr f with
  | some v => exact ⟨v, rfl, find_any_by_addr_address f v ha⟩
  | none =>
    simp only []
    rcases key with hb | hl
    · obtain ⟨v, e⟩ := find_any_of_builtin f hb
      rw [e] at ha
      cases ha
    · obtain ⟨v, e, hv⟩ := find_by_address lookup f hl
      unfold find_bind_by_addr
      rw [e]
      exact ⟨v, rfl, hv⟩

/-- The reverse lookup of a Variable node's address succeeds. -/
theorem find_bind_of_variable (lookup : List te_variable) (a : Nat)
    (h : lookup.any (fun v => v.address == a && type_mask v.type == TE_VARIABLE) = true) :
    ∃ v, find_bind_by_addr a lookup = some v ∧ v.address = a := by
  rw [List.any_eq_true] at h
  obtain ⟨v, hv, e⟩ := h
  simp only [Bool.and_eq_true, beq_iff_eq] at e
  exact find_by_address lookup a ⟨v, hv, e.1⟩

theorem register_asserts_of_keys (ix : indexer) (a : Nat) (v : te_variable)
    (ha : a ∈ ix.index_map.map Prod.fst)
    (hc : (v.type ≥ TE_CLOSURE0 ∧ v.type < TE_CLOSURE_MAX) →
      v.context ∈ ix.index_map.map Prod.fst) :
    register_asserts ix (some a) (some v) = true := by
  unfold register_asserts
  have hs := (map_find_isSome ix.index_map a).mpr ha
  show (match some v, map_find ix.index_map a with
    | some v, some _ =>
      if v.type ≥ TE_CLOSURE0 ∧ v.type < TE_CLOSURE_MAX then
        (map_find ix.index_map v.context).isSome
      else true
    | _, _ => false) = true
  cases hm : map_find ix.index_map a with
  | none => rw [hm] at hs; cases hs
  | some i =>
    simp only []
    by_cases hcl : v.type ≥ TE_CLOSURE0 ∧ v.type < TE_CLOSURE_MAX
    · rw [if_pos hcl]
      exact (map_find_isSome _ _).mpr (hc hcl)
    · rw [if_neg hcl]

theorem estimate_args_ok (lookup : List te_variable) : ∀ (ps : List expr_native),
    (∀ p ∈ ps, estimates lookup p) → (∀ p ∈ ps, well_formed lookup p = true) →
    ∀ (size : Nat) (ix : indexer), ix.ordered →
      ∃ r, export_estimate.estimate_args lookup ps (size, ix) = some r ∧ r.2.ordered ∧
        ix.extends_to r.2 ∧
        ∀ ix2, r.2.extends_to ix2 → ∀ p ∈ ps, write_asserts lookup ix2 p = true := by
  intro ps
  induction ps with
  | nil =>
    intro _ _ size ix ho
    exact ⟨(size, ix), rfl, ho, extends_refl ix, fun _ _ p hp => absurd hp (List.not_mem_nil p)⟩
  | cons p ps ih =>
    intro hs hw size ix ho
    obtain ⟨r1, e1, o1, x1, a1⟩ :=
      hs p (List.mem_cons_self _ _) (hw p (List.mem_cons_self _ _)) size ix ho
    obtain ⟨r2, e2, o2, x2, a2⟩ := ih (fun q hq => hs q (List.mem_cons_of_mem _ hq))
      (fun q hq => hw q (List.mem_cons_of_mem _ hq)) r1.1 r1.2 o1
    refine ⟨r2, ?_, o2, extends_trans x1 x2, ?_⟩
    · rw [export_estimate.estimate_args, e1]
      exact e2
    · intro ix2 hx q hq
      rcases List.mem_cons.mp hq with e | e
      · rw [e]
        exact a1 ix2 (extends_trans x2 hx)
      · exact a2 ix2 hx q e

/-- Pass 1 on a well-formed tree. -/
theorem export_estimate_ok (lookup : List te_variable) : ∀ n, estimates lookup n := by
  intro n
  induction n using expr_native.tree_induction with
  | hnull => intro hw; rw [well_formed] at hw; cases hw
  | hnode type payload ps ctx ih =>
    intro hw size ix ho
    rw [export_estimate]
    by_cases h1 : type_mask type = TE_CONSTANT
    · rw [if_pos h1]
      refine ⟨_, rfl, ho, extends_refl ix, fun ix2 _ => ?_⟩
      rw [write_asserts, if_pos h1]
    rw [if_neg h1]
    by_cases h2 : type_mask type = TE_VARIABLE
    · rw [if_pos h2]
      rw [well_formed, if_neg h1, if_pos h2] at hw
      cases payload with
      | value v => cases hw
      | ptr a =>
        have hw2 : lookup.any
            (fun v => v.address == a && type_mask v.type == TE_VARIABLE) = true := hw
        obtain ⟨v, hv, hva⟩ := find_bind_of_variable lookup a hw2
        obtain ⟨ix1, e1, o1, x1, k1, k2⟩ := handle_addr_ordered v ix ho
        have ep : (Payload.ptr a).as_ptr.bind (fun a => find_bind_by_addr a lookup) =
            some v := hv
        rw [ep, e1]
        refine ⟨_, rfl, o1, x1, fun ix2 hx => ?_⟩
        rw [write_asserts, if_neg h1, if_pos h2, ep]
        refine register_asserts_of_keys ix2 a v (keys_of_extends hx _ (hva ▸ k1))
          (fun hcl => keys_of_extends hx _ (k2 hcl))
    rw [if_neg h2]
    by_cases h3 : is_call_type type
    · have h3u : (type_mask type ≥ TE_FUNCTION0 ∧ type_mask type < TE_FUNCTION_MAX) ∨
          (type_mask type ≥ TE_CLOSURE0 ∧ type_mask type < TE_CLOSURE_MAX) := h3
      rw [if_pos h3u]
      obtain ⟨f, ep, hb, hl, hps⟩ := well_formed_call_inv lookup type payload ps ctx hw h3
      obtain ⟨v, hv, hva⟩ := find_bind_or_any_of_bound lookup type f ctx hb
      obtain ⟨ix1, e1, o1, x1, k1, k2⟩ := handle_addr_ordered v ix ho
      have ep2 : payload.as_ptr.bind (fun a => find_bind_or_any_by_addr a lookup) = some v := by
        rw [ep]; exact hv
      rw [ep2, e1]
      simp only []
      rw [if_pos (hl.trans (arity_eq type h3))]
      obtain ⟨r, e2, o2, x2, a2⟩ := estimate_args_ok lookup ps ih hps
        (size + sizeof_expr_native + sizeof_parameter * (type_mask type % 8)) ix1 o1
      refine ⟨r, e2, o2, extends_trans x1 x2, fun ix2 hx => ?_⟩
      rw [write_asserts, if_neg h1, if_neg h2, if_pos h3, ep2, Bool.and_eq_true,
        all_asserts_iff]
      refine ⟨?_, a2 ix2 hx⟩
      rw [ep]
      have hx2 := extends_trans x2 hx
      exact register_asserts_of_keys ix2 f v (keys_of_extends hx2 _ (hva ▸ k1))
        (fun hcl => keys_of_extends hx2 _ (k2 hcl))
    · rcases well_formed_category lookup type payload ps ctx hw with hk | hk | hk
      · exact absurd hk h1
      · exact absurd hk h2
      · exact absurd hk h3

/-- The lowering of a tree that `compile_native` returned, from an ordered indexer: pass
1 succeeds and leaves an ordered indexer that extends the one it was given; every index
of it has a name; and the assertions of pass 2 hold. -/
theorem lowering_asserts (h : Host) (mem : Mem) (text : List Nat) (vars : List te_variable)
    (root : expr_native) (err : Int)
    (hc : compile_native h mem text vars = .ok (some root, err))
    (ix : indexer) (hix : ix.ordered) :
    ∃ size ix1, export_estimate vars root (0, ix) = some (size, ix1) ∧ ix1.ordered ∧
      ix.extends_to ix1 ∧
      (∃ names, names_of ix1 ix1.get_address_table = some names) ∧
      write_asserts vars ix1 root = true := by
  obtain ⟨q, hp, he, hopt⟩ := compile_native_ok h mem text vars root err hc
  have hw := optimize_well_formed vars h mem q.1 root hopt
    (parse_well_formed h.libc text vars q hp he)
  obtain ⟨r, e, o, x, a⟩ := export_estimate_ok vars root hw 0 ix hix
  exact ⟨r.1, r.2, e, o, x, ordered_names r.2 o, a r.2 (extends_refl _)⟩

/-- C39: for a tree that a successful `compile_native` returned and an indexer that
handed out its indices in order (the empty indexer of `compile` is one), the reverse
lookups of the lowering succeed: pass 1 finds a binding for every Variable and call node
and returns, the indexer stays in order, every index of the address table has a name,
and the assertions of `register_func` hold at every node; the operator names the lexer
and the parser resolve are in the built-in tables. The indexer of `compile_program` need
not be in order: for `a: 1; b: 2;` with `a` and `b` bound to one address
`add_referenced_variable` counts two indices and enters one, the address table gets a
null entry, and the assertion `itor != indexer.name_map.end()` of `compile_using_indexer`
fails. -/
theorem C39_name_assertion_fails_on_aliases :
    (∀ (h : Host) (mem : Mem) (text : List Nat) (vars : List te_variable)
        (root : expr_native) (err : Int) (ix : indexer),
      compile_native h mem text vars = .ok (some root, err) → ix.ordered →
      ∃ size ix1, export_estimate vars root (0, ix) = some (size, ix1) ∧ ix1.ordered ∧
        (∃ names, names_of ix1 ix1.get_address_table = some names) ∧
        write_asserts vars ix1 root = true) ∧
    indexer.empty.ordered ∧
    (∀ n ∈ resolved_operator_names,
      (find_builtin (cstr n) (cstr n).length).isSome = true ∧
        is_builtin_address (find_builtin_address n) = true) ∧
    (add_referenced alias_vars [(cstr "a", 0), (cstr "b", 1)] indexer.empty =
        some alias_indexer ∧
      alias_indexer.get_address_table = [5000, 0] ∧
      names_of alias_indexer alias_indexer.get_address_table = none ∧
      compile_using_indexer plain_host loop_mem alias_indexer (cstr "1") alias_vars = .fault ∧
      compile_program plain_host loop_mem id alias_text alias_vars 0 = .fault ∧
      compile_program plain_host loop_mem List.reverse alias_text alias_vars 0 = .fault) := by
  refine ⟨?_, empty_ordered, by decide, ?_⟩
  · intro h mem text vars root err ix hc hix
    obtain ⟨size, ix1, e, o, _, n, a⟩ := lowering_asserts h mem text vars root err hc ix hix
    exact ⟨size, ix1, e, o, n, a⟩
  · refine ⟨by decide, by decide, by decide, by decide!, by decide!, by decide!⟩

/-- C39 on the tree of `cell 2 + c2(1, 3)`, lowered from the empty indexer. -/
theorem C39_name_assertion_fails_on_aliases_witness :
    compile_native test_host closure_mem (cstr "cell 2 + c2(1, 3)") closure_lookup =
      .ok (some closure_sum_tree, 0) ∧
    indexer.empty.ordered ∧
    export_estimate closure_lookup closure_sum_tree (0, indexer.empty) =
      some (184, closure_sum_indexer) ∧
    ∃ size ix1, export_estimate closure_lookup closure_sum_tree (0, indexer.empty) =
        some (size, ix1) ∧ ix1.ordered ∧
      (∃ names, names_of ix1 ix1.get_address_table = some names) ∧
      write_asserts closure_lookup ix1 closure_sum_tree = true :=
  ⟨by decide!, empty_ordered, by decide,
    C39_name_assertion_fails_on_aliases.1 test_host closure_mem (cstr "cell 2 + c2(1, 3)")
      closure_lookup closure_sum_tree 0 indexer.empty (by decide!) empty_ordered⟩

/-! ## C40: the shared indexer grows -/

theorem map_insert_extends {β : Type} (m : List (Nat × β)) (k : Nat) (v : β) :
    m <+: map_insert m k v := by
  unfold map_insert
  split
  · exact List.prefix_refl _
  · exact List.prefix_append _ _

theorem enter_extends (ix : indexer) (addr : Nat) (name : List Nat) :
    ix.extends_to (ix.enter addr name) := by
  unfold indexer.enter
  split
  · exact ⟨map_insert_extends _ _ _, List.prefix_append _ _, Nat.le_succ _⟩
  · exact extends_refl ix

theorem handle_addr_extends (v : Option te_variable) (ix ix1 : indexer)
    (h : handle_addr v ix = some ix1) : ix.extends_to ix1 := by
  cases v with
  | none => cases h
  | some v =>
    rw [handle_addr_enter] at h
    cases h
    split
    · exact extends_trans (enter_extends _ _ _) (enter_extends _ _ _)
    · exact enter_extends _ _ _

theorem estimate_args_extends (lookup : List te_variable) : ∀ (ps : List expr_native),
    (∀ p ∈ ps, ∀ size ix r, export_estimate lookup p (size, ix) = some r →
      ix.extends_to r.2) →
    ∀ size ix r, export_estimate.estimate_args lookup ps (size, ix) = some r →
      ix.extends_to r.2 := by
  intro ps
  induction ps with
  | nil =>
    intro _ size ix r e
    rw [export_estimate.estimate_args] at e
    cases e
    exact extends_refl ix
  | cons p ps ih =>
    intro hp size ix r e
    rw [export_estimate.estimate_args] at e
    cases h1 : export_estimate lookup p (size, ix) with
    | none => rw [h1] at e; cases e
    | some st1 =>
      rw [h1] at e
      simp only [] at e
      exact extends_trans (hp p (List.mem_cons_self _ _) size ix st1 h1)
        (ih (fun q hq => hp q (List.mem_cons_of_mem _ hq)) st1.1 st1.2 r e)

/-- Pass 1 only extends the indexer. -/
theorem export_estimate_extends (lookup : List te_variable) :
    ∀ (n : expr_native) (size : Nat) (ix : indexer) (r : Nat × indexer),
      export_estimate lookup n (size, ix) = some r → ix.extends_to r.2 := by
  intro n
  induction n using expr_native.tree_induction with
  | hnull =>
    intro size ix r e
    rw [export_estimate] at e
    cases e
    exact extends_refl ix
  | hnode type payload ps ctx ih =>
    intro size ix r e
    rw [export_estimate] at e
    by_cases h1 : type_mask type = TE_CONSTANT
    · rw [if_pos h1] at e
      cases e
      exact extends_refl ix
    rw [if_neg h1] at e
    by_cases h2 : type_mask type = TE_VARIABLE
    · rw [if_pos h2] at e
      cases hh : handle_addr (payload.as_ptr.bind fun a => find_bind_by_addr a lookup) ix with
      | none => rw [hh] at e; cases e
      | some ix1 =>
        rw [hh] at e
        cases e
        exact handle_addr_extends _ _ _ hh
    rw [if_neg h2] at e
    by_cases h3 : (type_mask type ≥ TE_FUNCTION0 ∧ type_mask type < TE_FUNCTION_MAX) ∨
        (type_mask type ≥ TE_CLOSURE0 ∧ type_mask type < TE_CLOSURE_MAX)
    · rw [if_pos h3] at e
      cases hh : handle_addr (payload.as_ptr.bind fun a => find_bind_or_any_by_addr a lookup)
          ix with
      | none => rw [hh] at e; cases e
      | some ix1 =>
        rw [hh] at e
        simp only [] at e
        by_cases hl : ps.length = type_mask type % 8
        · rw [if_pos hl] at e
          exact extends_trans (handle_addr_extends _ _ _ hh)
            (estimate_args_extends lookup ps ih _ _ r e)
        · rw [if_neg hl] at e; cases e
    · rw [if_neg h3] at e
      cases e
      exact extends_refl ix

/-- The call `compile_using_indexer` only extends the indexer. -/
theorem compile_using_indexer_extends (h : Host) (mem : Mem) (ix : indexer) (text : List Nat)
    (vars : List te_variable) (e : Option compiled_expr) (err : Int) (ix1 : indexer)
    (hc : compile_using_indexer h mem ix text vars = .ok (e, err, ix1)) :
    ix.extends_to ix1 := by
  cases e with
  | some e =>
    obtain ⟨root, cur, _, he, _, _⟩ := compile_using_indexer_ok h mem ix text vars e err ix1 hc
    exact export_estimate_extends vars root 0 ix _ he
  | none =>
    unfold compile_using_indexer at hc
    cases hn : compile_native h mem text vars with
    | timeout => rw [hn] at hc; cases hc
    | fault => rw [hn] at hc; cases hc
    | ok r =>
      rw [hn] at hc
      obtain ⟨root, error⟩ := r
      cases root with
      | none =>
        cases hc
        exact extends_refl ix
      | some root =>
        simp only [] at hc
        cases he : export_estimate vars root (0, ix) with
        | none => rw [he] at hc; cases hc
        | some est =>
          rw [he] at hc
          simp only [] at hc
          cases hnm : names_of est.2 est.2.get_address_table with
          | none => rw [hnm] at hc; cases hc
          | some names =>
            rw [hnm] at hc
            simp only [] at hc
            cases hw : export_write vars est.2 root
                (0, List.replicate (est.1 / 8) (.int 0)) with
            | none => rw [hw] at hc; cases hc
            | some w => rw [hw] at hc; cases hc

/-- The loop over the expressions of a program only extends the indexer. -/
theorem compile_expressions_extends (h : Host) (mem : Mem) (vars : List te_variable) :
    ∀ (es : List string_view) (expr_idx : Nat) (bs bs2 : build_state),
      compile_expressions h mem vars es expr_idx bs = .ok bs2 → bs.ix.extends_to bs2.ix := by
  intro es
  induction es with
  | nil =>
    intro expr_idx bs bs2 hc
    rw [compile_expressions_nil] at hc
    cases hc
    exact extends_refl _
  | cons e es ih =>
    intro expr_idx bs bs2 hc
    rw [compile_expressions_cons] at hc
    cases hx : compile_using_indexer h mem bs.ix e.data vars with
    | timeout => rw [hx] at hc; cases hc
    | fault => rw [hx] at hc; cases hc
    | ok r =>
      rw [hx] at hc
      obtain ⟨c, err, ix1⟩ := r
      have x1 := compile_using_indexer_extends h mem bs.ix e.data vars c err ix1 hx
      cases c with
      | none =>
        cases hc
        exact x1
      | some c =>
        simp only [] at hc
        exact extends_trans x1 (ih _ _ _ hc)

/-- From an ordered indexer `compile_using_indexer` leaves an ordered one, and the
address table of the handle is the list of its keys. -/
theorem compile_using_indexer_ordered (h : Host) (mem : Mem) (ix : indexer) (text : List Nat)
    (vars : List te_variable) (e : compiled_expr) (err : Int) (ix1 : indexer)
    (hc : compile_using_indexer h mem ix text vars = .ok (some e, err, ix1))
    (hix : ix.ordered) :
    ix1.ordered ∧ e.index_to_address = ix1.index_map.map Prod.fst := by
  obtain ⟨root, cur, hn, he, _, ht⟩ := compile_using_indexer_ok h mem ix text vars e err ix1 hc
  obtain ⟨size, ix2, he2, o2, _, _, _⟩ := lowering_asserts h mem text vars root err hn ix hix
  rw [he] at he2
  cases he2
  exact ⟨o2, by rw [ht, ordered_address_table ix1 o2]⟩

theorem map_find_mem {β : Type} (m : List (Nat × β)) (k : Nat) (v : β)
    (h : map_find m k = some v) : (k, v) ∈ m := by
  unfold map_find at h
  cases hf : m.find? (fun e => e.1 == k) with
  | none => rw [hf] at h; cases h
  | some e =>
    rw [hf] at h
    cases h
    have h1 := List.find?_some hf
    have h2 := List.mem_of_find?_eq_some hf
    rw [beq_iff_eq] at h1
    rw [← h1]
    exact h2

/-- An index that an ordered indexer holds for an address is an index of its address
table, and the table holds the address there. -/
theorem ordered_index_valid (ix : indexer) (h : ix.ordered) (a i : Nat)
    (hm : map_find ix.index_map a = some i) : ix.get_address_table[i]? = some a := by
  rw [ordered_address_table ix h]
  obtain ⟨k, hk, e⟩ := List.getElem_of_mem (map_find_mem _ _ _ hm)
  have hs : (ix.index_map.map Prod.snd)[k]? = some i := by
    rw [List.getElem?_map, List.getElem?_eq_getElem hk, e]
    rfl
  have hl : ix.index_map.length = ix.index_counter := by
    have := congrArg List.length h.2.1
    simpa using this
  rw [h.2.1, List.getElem?_range (by rw [← hl]; exact hk)] at hs
  have hki : k = i := Option.some.inj hs
  rw [← hki, List.getElem?_map, List.getElem?_eq_getElem hk, e]
  rfl

/-- C40: the shared indexer only grows: `compile_using_indexer`, and with it the loop
of `compile_program` over the expressions, keeps every entry of the name map and of the
index map and adds entries behind them; from an indexer that handed out its indices in
order it leaves such an indexer, the address table of the handle is the list of its
keys, each once, and extends the address table before the call; and an index such an
indexer holds for an address is an index of its address table, which holds the address
there. The index of an Assign statement is not one of these: `x: 1; x: 2; x: 3;` compiles
to the assignments 0, 1 and 2 with an address table of one entry. -/
theorem C40_assign_index_outside_table :
    (∀ (h : Host) (mem : Mem) (ix : indexer) (text : List Nat) (vars : List te_variable)
        (e : Option compiled_expr) (err : Int) (ix1 : indexer),
      compile_using_indexer h mem ix text vars = .ok (e, err, ix1) → ix.extends_to ix1) ∧
    (∀ (h : Host) (mem : Mem) (vars : List te_variable) (es : List string_view)
        (expr_idx : Nat) (bs bs2 : build_state),
      compile_expressions h mem vars es expr_idx bs = .ok bs2 → bs.ix.extends_to bs2.ix) ∧
    (∀ (h : Host) (mem : Mem) (ix : indexer) (text : List Nat) (vars : List te_variable)
        (e : compiled_expr) (err : Int) (ix1 : indexer),
      compile_using_indexer h mem ix text vars = .ok (some e, err, ix1) → ix.ordered →
      ix1.ordered ∧ e.index_to_address = ix1.index_map.map Prod.fst ∧
        e.index_to_address.Nodup ∧ ix.get_address_table <+: e.index_to_address) ∧
    (∀ (ix : indexer) (a i : Nat), ix.ordered → map_find ix.index_map a = some i →
      ix.get_address_table[i]? = some a) ∧
    (compile_program plain_host loop_mem id thrice_text loop_vars 0 =
        .ok (some thrice_compiled, 0) ∧
      thrice_compiled.program_statements[2]? = some ⟨.assign, 2, 48⟩ ∧
      thrice_compiled.address_table = [5000] ∧
      thrice_compiled.address_table[2]? = none) := by
  refine ⟨compile_using_indexer_extends, compile_expressions_extends, ?_,
    fun ix a i h hm => ordered_index_valid ix h a i hm, ?_⟩
  · intro h mem ix text vars e err ix1 hc hix
    obtain ⟨o1, e1⟩ := compile_using_indexer_ordered h mem ix text vars e err ix1 hc hix
    have x1 := compile_using_indexer_extends h mem ix text vars (some e) err ix1 hc
    refine ⟨o1, e1, ?_, ?_⟩
    · rw [e1]; exact o1.2.2
    · rw [e1, ordered_address_table ix hix]
      exact List.IsPrefix.map _ x1.1
  · refine ⟨by decide!, rfl, rfl, rfl⟩

/-- C40 on `(x+1)*x` compiled from the empty indexer. -/
theorem C40_assign_index_outside_table_witness :
    compile_using_indexer plain_host loop_mem indexer.empty (cstr "(x+1)*x") loop_vars =
      .ok (some nested_compiled, 0, nested_indexer) ∧
    indexer.empty.ordered ∧ nested_indexer.ordered ∧
    nested_compiled.index_to_address = nested_indexer.index_map.map Prod.fst ∧
    nested_compiled.index_to_address.Nodup ∧
    indexer.empty.get_address_table <+: nested_compiled.index_to_address :=
  ⟨by decide!, empty_ordered,
    C40_assign_index_outside_table.2.2.1 plain_host loop_mem indexer.empty (cstr "(x+1)*x")
      loop_vars nested_compiled 0 nested_indexer (by decide!) empty_ordered⟩

/-! ## C35: the image and the tree -/

/-- C35: the image does not always evaluate to what the tree evaluates to. For `a 0 + b 0`
with `a` and `b` binding the callable `cell` with the contexts `c` and `c + 2`, the tree
evaluates to `c[0] + c[2] = 12`, and the image, in which both closure records name the
context of `a`, to `c[0] + c[0] = 10`. For `c1 x` with the closure `c1` flagged Pure the
tree evaluates to `extra + 2 * x = 12`; the context entry of the closure record of the
image was never stored and names the code address of `c1`, and evaluating the image is
undefined behaviour. With one binding per callable and no Pure flag the two agree: the
image and the tree of `cell 2 + c2(1, 3)` evaluate to 21. -/
theorem C35_lowering_changes_meaning :
    compile_and_eval test_host closure_mem (cstr "a 0 + b 0") shared_lookup = .ok (.num 10) ∧
    compile_and_eval_native test_host closure_mem (cstr "a 0 + b 0") shared_lookup =
      some (.num 12) ∧
    compile test_host closure_mem (cstr "c1 x") pure_closure_lookup =
      .ok (some ⟨[test_fn.clo1, 5000], [cstr "c1", cstr "x"],
        [.int (TE_CLOSURE1 ||| TE_FLAG_PURE), .int 0, .int 32, .int 0,
         .int TE_VARIABLE, .int 1, .int 0], 56⟩, 0) ∧
    compile_and_eval test_host closure_mem (cstr "c1 x") pure_closure_lookup = .fault ∧
    compile_and_eval_native test_host closure_mem (cstr "c1 x") pure_closure_lookup =
      some (.num 12) ∧
    compile_and_eval test_host closure_mem (cstr "cell 2 + c2(1, 3)") closure_lookup =
      .ok (.num 21) ∧
    compile_and_eval_native test_host closure_mem (cstr "cell 2 + c2(1, 3)") closure_lookup =
      some (.num 21) := by
  refine ⟨by decide!, by decide!, by decide!, by decide!, by decide!, by decide!, by decide!⟩

/-! ## C7: the outcome of `compile` -/

theorem write_word_ok (buf : List Word) (off : Nat) (w : Word) (h8 : off % 8 = 0)
    (hb : off + 8 ≤ 8 * buf.length) :
    ∃ b, write_word buf off w = some b ∧ b.length = buf.length := by
  unfold write_word
  rw [if_pos ⟨h8, by omega⟩]
  exact ⟨_, rfl, List.length_set _ _ _⟩

theorem builtin_not_closure :
    ∀ v ∈ functions ++ operators, ¬ (v.type ≥ TE_CLOSURE0 ∧ v.type < TE_CLOSURE_MAX) := by
  decide

theorem find_bind_mem (a : Nat) (lookup : List te_variable) (v : te_variable)
    (h : find_bind_by_addr a lookup = some v) : v ∈ lookup :=
  List.mem_of_find?_eq_some h

theorem find_bind_or_any_mem (a : Nat) (lookup : List te_variable) (v : te_variable)
    (h : find_bind_or_any_by_addr a lookup = some v) :
    v ∈ lookup ∨ v ∈ functions ++ operators := by
  rw [find_bind_or_any_by_addr_eq, find_any_by_addr_eq] at h
  cases hf : functions.find? (fun v => v.address == a) with
  | some w =>
    rw [hf] at h
    cases h
    exact Or.inr (List.mem_append_left _ (List.mem_of_find?_eq_some hf))
  | none =>
    rw [hf] at h
    cases ho : operators.find? (fun v => v.address == a) with
    | some w =>
      rw [ho] at h
      cases h
      exact Or.inr (List.mem_append_right _ (List.mem_of_find?_eq_some ho))
    | none =>
      rw [ho] at h
      cases hl : lookup.find? (fun v => v.address == a) with
      | some w =>
        rw [hl] at h
        cases h
        exact Or.inl (List.mem_of_find?_eq_some hl)
      | none =>
        rw [hl] at h
        exact Or.inl (List.mem_of_find?_eq_some (show lookup.find? _ = some v from h))

/-- With its assertions passed and a binding that is no closure, `register_func` is one
store into the record of the node. -/
theorem register_func_ok (ix : indexer) (addr : Option Nat) (out : Nat)
    (v : Option te_variable) (buf : List Word) (ha : register_asserts ix addr v = true)
    (hv : ∀ v0, v = some v0 → ¬ (v0.type ≥ TE_CLOSURE0 ∧ v0.type < TE_CLOSURE_MAX))
    (h8 : out % 8 = 0) (hb : out + 16 ≤ 8 * buf.length) :
    ∃ b, register_func ix addr out v buf = some b ∧ b.length = buf.length := by
  obtain ⟨v0, idx, e0, _, e2, _⟩ := register_func_stores ix addr out v buf ha
  obtain ⟨b, eb, lb⟩ := write_word_ok buf (out + 8) (.int idx) (by omega) (by omega)
  rw [e2, eb]
  refine ⟨b, ?_, lb⟩
  show (if v0.type ≥ TE_CLOSURE0 ∧ v0.type < TE_CLOSURE_MAX then _ else some b) = some b
  rw [if_neg (hv v0 e0)]

theorem write_args_ok (lookup : List te_variable) (ix : indexer) :
    ∀ (ps : List expr_native),
      (∀ p ∈ ps, ∀ (size : Nat) (buf : List Word), size % 8 = 0 →
        size + tree_bytes p ≤ 8 * buf.length →
        ∃ r, export_write lookup ix p (size, buf) = some r) →
      ∀ (i out cur : Nat) (buf : List Word), out % 8 = 0 → cur % 8 = 0 →
        out + 16 + 8 * (i + ps.length) ≤ cur →
        cur + tree_bytes.list_bytes ps ≤ 8 * buf.length →
        ∃ r, export_write.write_args lookup ix ps i out (cur, buf) = some r := by
  intro ps
  induction ps with
  | nil =>
    intro _ i out cur buf _ _ _ _
    exact ⟨_, by rw [export_write.write_args]⟩
  | cons p ps ih =>
    intro hp i out cur buf ho hc hle hb
    simp only [List.length_cons] at hle
    rw [tree_bytes.list_bytes] at hb
    rw [export_write.write_args]
    obtain ⟨b1, e1, l1⟩ := write_word_ok buf (out + 16 + 8 * i) (.int cur) (by omega) (by omega)
    rw [e1]
    simp only []
    obtain ⟨r1, er⟩ := hp p (List.mem_cons_self _ _) cur b1 hc (by rw [l1]; omega)
    rw [er]
    simp only []
    obtain ⟨a1, a2, _⟩ := export_write_frame lookup ix p cur b1 r1 er
    have hd := tree_bytes_dvd p
    obtain ⟨r2, e2⟩ := ih (fun q hq => hp q (List.mem_cons_of_mem _ hq)) (i + 1) out r1.1 r1.2 ho
      (by rw [a1]; omega) (by rw [a1]; omega) (by rw [a1, a2, l1]; omega)
    exact ⟨r2, e2⟩

/-- Pass 2 returns for a well-formed tree whose assertions hold, over a lookup table that
binds no closure, when the buffer has room for the records from the cursor on. -/
theorem export_write_ok (lookup : List te_variable) (ix : indexer)
    (hnc : ∀ v ∈ lookup, ¬ (v.type ≥ TE_CLOSURE0 ∧ v.type < TE_CLOSURE_MAX)) :
    ∀ n : expr_native, well_formed lookup n = true → write_asserts lookup ix n = true →
      ∀ (size : Nat) (buf : List Word), size % 8 = 0 → size + tree_bytes n ≤ 8 * buf.length →
        ∃ r, export_write lookup ix n (size, buf) = some r := by
  intro n
  induction n using expr_native.tree_induction with
  | hnull => intro hw; rw [well_formed] at hw; cases hw
  | hnode type payload ps ctx ih =>
    intro hw ha size buf h8 hb
    rw [export_write]
    have h24 : 24 ≤ tree_bytes (.node type payload ps ctx) := by
      rw [tree_bytes]; unfold sizeof_expr_native; split <;> omega
    obtain ⟨b1, e1, l1⟩ := write_word_ok buf size (.int type) h8 (by omega)
    rw [e1]
    simp only []
    by_cases h1 : type_mask type = TE_CONSTANT
    · rw [if_pos h1]
      rw [well_formed, if_pos h1] at hw
      cases hv : payload.as_value with
      | none => rw [hv] at hw; cases hw
      | some v =>
        simp only []
        obtain ⟨b2, e2, _⟩ := write_word_ok b1 (size + 8) (.flt v) (by omega) (by rw [l1]; omega)
        rw [e2]
        exact ⟨_, rfl⟩
    rw [if_neg h1]
    by_cases h2 : type_mask type = TE_VARIABLE
    · rw [if_pos h2]
      rw [write_asserts, if_neg h1, if_pos h2] at ha
      obtain ⟨b2, e2, _⟩ := register_func_ok ix payload.as_ptr size
        (payload.as_ptr.bind (fun a => find_bind_by_addr a lookup)) b1 ha
        (fun v0 e0 => by
          cases hp : payload.as_ptr with
          | none => rw [hp] at e0; cases e0
          | some a =>
            rw [hp] at e0
            exact hnc v0 (find_bind_mem a lookup v0 e0))
        h8 (by rw [l1]; omega)
      rw [e2]
      exact ⟨_, rfl⟩
    rw [if_neg h2]
    rcases well_formed_category lookup type payload ps ctx hw with hk | hk | h3
    · exact absurd hk h1
    · exact absurd hk h2
    have h3u : (type_mask type ≥ TE_FUNCTION0 ∧ type_mask type < TE_FUNCTION_MAX) ∨
        (type_mask type ≥ TE_CLOSURE0 ∧ type_mask type < TE_CLOSURE_MAX) := h3
    rw [if_pos h3u]
    rw [write_asserts, if_neg h1, if_neg h2, if_pos h3, Bool.and_eq_true, all_asserts_iff] at ha
    obtain ⟨f, ep, _, hl, hps⟩ := well_formed_call_inv lookup type payload ps ctx hw h3
    have hbytes : tree_bytes (.node type payload ps ctx) =
        sizeof_expr_native + sizeof_parameter * arity type + tree_bytes.list_bytes ps := by
      rw [tree_bytes, if_pos h3, arity_eq type h3]
    rw [hbytes] at hb
    unfold sizeof_expr_native sizeof_parameter at hb
    obtain ⟨b2, e2, l2⟩ := register_func_ok ix payload.as_ptr size
      (payload.as_ptr.bind (fun a => find_bind_or_any_by_addr a lookup)) b1 ha.1
      (fun v0 e0 => by
        rw [ep] at e0
        rcases find_bind_or_any_mem f lookup v0 e0 with hm | hm
        · exact hnc v0 hm
        · exact builtin_not_closure v0 hm)
      h8 (by rw [l1]; omega)
    rw [e2]
    simp only []
    rw [if_pos hl]
    exact write_args_ok lookup ix ps
      (fun p hp size1 buf1 hs hb1 => ih p hp (hps p hp) (ha.2 p hp) size1 buf1 hs hb1)
      0 size _ b2 h8 (by unfold sizeof_expr_native sizeof_parameter; omega)
      (by rw [hl]; unfold sizeof_expr_native sizeof_parameter; omega)
      (by rw [l2, l1]; unfold sizeof_expr_native sizeof_parameter; omega)

/-- What `compile` does when the parse stops on the end token: it faults when the folding
of `optimize` runs into undefined behaviour; else pass 1 and the names succeed, and
`compile` returns the handle that pass 2 fills, with the error 0, unless a store of pass
2 falls outside the buffer, which takes a closure in the lookup table. -/
theorem compile_of_parse_end_exact (h : Host) (mem : Mem) (text : List Nat)
    (vars : List te_variable) (root : expr_native) (s : state)
    (hp : parse h.libc text vars = some (root, s)) (hs : s.type = TOK_END) :
    (optimize h mem root = none ∧ compile h mem text vars = .fault) ∨
    ∃ r size ix names, optimize h mem root = some r ∧ well_formed vars r = true ∧
      export_estimate vars r (0, indexer.empty) = some (size, ix) ∧ size = tree_bytes r ∧
      names_of ix ix.get_address_table = some names ∧
      ((∃ buf, export_write vars ix r (0, List.replicate (size / 8) (.int 0)) =
            some (size, buf) ∧
          compile h mem text vars =
            .ok (some ⟨ix.get_address_table, names, buf, size⟩, 0)) ∨
        (export_write vars ix r (0, List.replicate (size / 8) (.int 0)) = none ∧
          compile h mem text vars = .fault ∧
          ∃ v ∈ vars, v.type ≥ TE_CLOSURE0 ∧ v.type < TE_CLOSURE_MAX)) := by
  have hn := compile_native_of_parse h mem text vars root s hp
  rw [if_neg (not_not.mpr hs)] at hn
  cases ho : optimize h mem root with
  | none =>
    rw [ho] at hn
    refine Or.inl ⟨rfl, ?_⟩
    unfold compile compile_using_indexer
    rw [hn]
  | some r =>
    rw [ho] at hn
    have hn2 : compile_native h mem text vars = .ok (some r, 0) := hn
    right
    obtain ⟨size, ix, e, _, _, ⟨names, hnm⟩, ha⟩ :=
      lowering_asserts h mem text vars r 0 hn2 indexer.empty empty_ordered
    have hw := optimize_well_formed vars h mem root r ho
      (parse_well_formed h.libc text vars (root, s) hp hs)
    have hb : size = tree_bytes r := by
      have := export_estimate_bytes vars r 0 indexer.empty _ e
      simpa using this
    refine ⟨r, size, ix, names, rfl, hw, e, hb, hnm, ?_⟩
    have hc : compile h mem text vars =
        match export_write vars ix r (0, List.replicate (size / 8) (.int 0)) with
        | none => .fault
        | some w => .ok (some ⟨ix.get_address_table, names, w.2, size⟩, 0) := by
      unfold compile compile_using_indexer
      rw [hn2]
      simp only []
      rw [e]
      simp only []
      rw [hnm]
      simp only []
      cases export_write vars ix r (0, List.replicate (size / 8) (.int 0)) <;> rfl
    cases hx : export_write vars ix r (0, List.replicate (size / 8) (.int 0)) with
    | some w =>
      left
      rw [hx] at hc
      have hcur : w.1 = size :=
        (cursor_is_estimate vars indexer.empty ix r 0 _ (size, ix) w e hx).1
      refine ⟨w.2, ?_, hc⟩
      rw [← hcur]
    | none =>
      right
      rw [hx] at hc
      refine ⟨rfl, hc, ?_⟩
      by_contra hcl
      have hnc : ∀ v ∈ vars, ¬ (v.type ≥ TE_CLOSURE0 ∧ v.type < TE_CLOSURE_MAX) :=
        fun v hv hc2 => hcl ⟨v, hv, hc2⟩
      have hd : 8 ∣ size := by rw [hb]; exact tree_bytes_dvd r
      obtain ⟨w, ew⟩ := export_write_ok vars ix hnc r hw ha 0
        (List.replicate (size / 8) (.int 0)) rfl
        (by rw [List.length_replicate, Nat.mul_div_cancel' hd, ← hb]; omega)
      rw [ew] at hx
      cases hx

/-- C7: `compile` always comes back from the parse, with the cursor `s.pos` bytes into
the text. When the parse does not stop on the end token, `compile` returns the null handle
and the error `max(1, s.pos)`. When it does, the folding of `optimize` either runs into
undefined behaviour (a folded call that is undefined) or returns a well-formed tree; for
that tree pass 1 and the names always succeed, and `compile` returns the handle that pass
2 fills, and the error 0; a store of pass 2 can fall outside the buffer only when the
lookup table binds a closure. So the error is 0 exactly when the handle is not null.
The offsets of `test_syntax` follow, four texts for which a handle is returned, and one
whose folded call `fac(4294967296)` is undefined. -/
theorem C7_error_offset (h : Host) (mem : Mem) (text : List Nat) (vars : List te_variable) :
    (∃ root s, parse h.libc text vars = some (root, s) ∧ s.next = text.drop s.pos ∧
      ((s.type ≠ TOK_END ∧ compile h mem text vars = .ok (none, max 1 (s.pos : Int))) ∨
       (s.type = TOK_END ∧
         ((optimize h mem root = none ∧ compile h mem text vars = .fault) ∨
          ∃ r size ix names, optimize h mem root = some r ∧ well_formed vars r = true ∧
            export_estimate vars r (0, indexer.empty) = some (size, ix) ∧
            size = tree_bytes r ∧ names_of ix ix.get_address_table = some names ∧
            ((∃ buf, export_write vars ix r (0, List.replicate (size / 8) (.int 0)) =
                  some (size, buf) ∧
                compile h mem text vars =
                  .ok (some ⟨ix.get_address_table, names, buf, size⟩, 0)) ∨
              (export_write vars ix r (0, List.replicate (size / 8) (.int 0)) = none ∧
                compile h mem text vars = .fault ∧
                ∃ v ∈ vars, v.type ≥ TE_CLOSURE0 ∧ v.type < TE_CLOSURE_MAX)))))) ∧
    (compile plain_host [] (cstr "") [] = .ok (none, 1) ∧
      compile plain_host [] (cstr "1+") [] = .ok (none, 2) ∧
      compile plain_host [] (cstr "(1") [] = .ok (none, 2) ∧
      compile plain_host [] (cstr "1**1") [] = .ok (none, 3) ∧
      compile plain_host [] (cstr "1*2(+4") [] = .ok (none, 4) ∧
      compile plain_host [] (cstr "sin(cos5") [] = .ok (none, 8)) ∧
    (compile plain_host [] (cstr "1+2") [] =
        .ok (some ⟨[], [], [.int TE_CONSTANT, .flt (.num 3), .int 0], 24⟩, 0) ∧
      compile plain_host loop_mem (cstr "x+1") loop_vars =
        .ok (some ⟨[impl.add, 5000], [cstr "add", cstr "x"],
          [.int (TE_FUNCTION2 ||| TE_FLAG_PURE), .int 0, .int 40, .int 64, .int 0,
            .int TE_VARIABLE, .int 1, .int 0,
            .int TE_CONSTANT, .flt (.num 1), .int 0], 88⟩, 0) ∧
      compile plain_host loop_mem (cstr "sin x") loop_vars =
        .ok (some ⟨[impl.sin, 5000], [cstr "sin", cstr "x"],
          [.int (TE_FUNCTION1 ||| TE_FLAG_PURE), .int 0, .int 32, .int 0,
            .int TE_VARIABLE, .int 1, .int 0], 56⟩, 0) ∧
      compile test_host closure_mem (cstr "c0") closure_lookup =
        .ok (some ⟨[test_fn.clo0, 6000], [cstr "c0", cstr "c0_closure"],
          [.int TE_CLOSURE0, .int 0, .int 1], 24⟩, 0)) ∧
    compile plain_host [] (cstr "fac(4294967296)") [] = .fault := by
  refine ⟨?_, ⟨by decide!, by decide!, by decide!, by decide!, by decide!, by decide!⟩,
    ⟨by decide!, by decide!, by decide!, by decide!⟩, by decide!⟩
  obtain ⟨root, s, hp⟩ := parse_total h.libc text vars
  refine ⟨root, s, hp, parse_cursor h.libc text vars (root, s) hp, ?_⟩
  by_cases hs : s.type = TOK_END
  · exact Or.inr ⟨hs, compile_of_parse_end_exact h mem text vars root s hp hs⟩
  · exact Or.inl ⟨hs, compile_of_parse_not_end h mem text vars root s hp hs⟩

/-! ## C25, C26: factorial, combinations, permutations -/

theorem ulong_max_succ_pos : 0 < ULONG_MAX + 1 := Nat.succ_pos _

theorem bit_length_le : ∀ (fuel n k : Nat), n < 2 ^ k → bit_length fuel n ≤ k := by
  intro fuel
  induction fuel with
  | zero => intro n k _; rw [bit_length]; exact Nat.zero_le _
  | succ fuel ih =>
    intro n k h
    rw [bit_length]
    by_cases h0 : n = 0
    · rw [if_pos h0]; exact Nat.zero_le _
    · rw [if_neg h0]
      cases k with
      | zero => rw [Nat.pow_zero] at h; omega
      | succ k =>
        have : n / 2 < 2 ^ k := by rw [Nat.pow_succ] at h; omega
        have := ih (n / 2) k this
        omega

theorem lt_two_pow_bit_length : ∀ (fuel n : Nat), n ≤ fuel → n < 2 ^ bit_length fuel n := by
  intro fuel
  induction fuel with
  | zero => intro n h; rw [bit_length, Nat.pow_zero]; omega
  | succ fuel ih =>
    intro n h
    rw [bit_length]
    by_cases h0 : n = 0
    · rw [if_pos h0, h0, Nat.pow_zero]; exact Nat.one_pos
    · rw [if_neg h0, Nat.pow_succ]
      have := ih (n / 2) (by omega)
      omega

/-- A natural number below `2 ^ 24` is a `float`: the rounding leaves it as it is. -/
theorem round_ratio_nat (n : Nat) (h : n < 2 ^ 24) : round_ratio n 1 = .num n := by
  have hb : bit_length 1 1 = 1 := by decide
  have hlt := lt_two_pow_bit_length n n (le_refl _)
  obtain ⟨k, hk, hk25⟩ : ∃ k : Nat,
      max (ratio_exponent n 1) (-126) - 23 = -(k : Int) ∧ bit_length n n + k ≤ 25 := by
    have ha : bit_length n n ≤ 24 := bit_length_le n n 24 h
    unfold ratio_exponent
    rw [hb]
    simp only []
    split
    · exact ⟨24 - bit_length n n, by omega, by omega⟩
    · exact ⟨25 - bit_length n n, by omega, by omega⟩
  unfold round_ratio
  simp only []
  rw [hk]
  have e1 : (-(k : Int)).toNat = 0 := by omega
  have e2 : (- -(k : Int)).toNat = k := by omega
  rw [e1, e2]
  simp only [Nat.pow_zero, Nat.mul_one, Nat.mod_one, Nat.div_one, Nat.mul_zero]
  have hlt2 : n * 2 ^ k < 2 ^ 128 := by
    calc n * 2 ^ k < 2 ^ bit_length n n * 2 ^ k :=
          Nat.mul_lt_mul_of_pos_right hlt (Nat.two_pow_pos k)
      _ = 2 ^ (bit_length n n + k) := (Nat.pow_add _ _ _).symm
      _ ≤ 2 ^ 25 := Nat.pow_le_pow_right (by decide) hk25
      _ < 2 ^ 128 := by decide
  have c1 : ¬ (0 > 1 ∨ (0 = 1 ∧ n * 2 ^ k % 2 = 1)) := by omega
  rw [if_neg c1, if_neg (by omega)]
  congr 1
  push_cast
  field_simp

theorem to_float_nat (n : Nat) (h : n < 2 ^ 24) : to_float n = .num n := round_ratio_nat n h

theorem bit_length_zero (fuel : Nat) : bit_length fuel 0 = 0 := by
  cases fuel <;> rfl

theorem two_pow_bit_length_le : ∀ (fuel n : Nat), n ≤ fuel → 0 < n →
    2 ^ bit_length fuel n ≤ 2 * n := by
  intro fuel
  induction fuel with
  | zero => intro n h h0; omega
  | succ fuel ih =>
    intro n h h0
    rw [bit_length, if_neg (by omega), Nat.pow_succ]
    by_cases h2 : n / 2 = 0
    · rw [h2, bit_length_zero, Nat.pow_zero]; omega
    · have := ih (n / 2) (by omega) (by omega)
      omega

/-- The conversion `(float)n` keeps the 24 leading binary digits of `n` and rounds to
nearest, a tie to the even significand: the result is `m * 2 ^ e` with `m ≤ 2 ^ 24`, where
`e = 0` or `2 ^ 23 ≤ m`, it is within `2 ^ e / 2` of `n`, and at that distance `m` is
even. -/
theorem to_float_nearest (n : Nat) (hn : n < 2 ^ 127) :
    ∃ m e : Nat, to_float n = .num ((m * 2 ^ e : ℕ) : ℚ) ∧ m ≤ 2 ^ 24 ∧
      (e = 0 ∨ 2 ^ 23 ≤ m) ∧
      2 * (m * 2 ^ e) ≤ 2 * n + 2 ^ e ∧ 2 * n ≤ 2 * (m * 2 ^ e) + 2 ^ e ∧
      ((2 * (m * 2 ^ e) = 2 * n + 2 ^ e ∨ 2 * n = 2 * (m * 2 ^ e) + 2 ^ e) → m % 2 = 0) := by
  by_cases h24 : n < 2 ^ 24
  · refine ⟨n, 0, ?_, by omega, Or.inl rfl, by omega, by omega, fun h => by omega⟩
    rw [to_float_nat n h24, Nat.pow_zero, Nat.mul_one]
  have h0 : 0 < n := by
    have : 0 < 2 ^ 24 := Nat.two_pow_pos 24
    omega
  have hlt := lt_two_pow_bit_length n n (le_refl _)
  have hle := two_pow_bit_length_le n n (le_refl _) h0
  have ha127 : bit_length n n ≤ 127 := bit_length_le n n 127 hn
  have ha25 : 25 ≤ bit_length n n := by
    by_contra hc
    have : 2 ^ bit_length n n ≤ 2 ^ 24 := Nat.pow_le_pow_right (by decide) (by omega)
    omega
  obtain ⟨k, hk⟩ : ∃ k, bit_length n n = k + 24 := ⟨bit_length n n - 24, by omega⟩
  have hk1 : 1 ≤ k := by omega
  have hk103 : k ≤ 103 := by omega
  rw [hk] at hlt hle
  have hX : 0 < 2 ^ k := Nat.two_pow_pos k
  have e24 : 2 ^ (k + 24) = 2 ^ k * 2 ^ 24 := Nat.pow_add 2 k 24
  have hXle : 2 ^ k ≤ 2 ^ 103 := Nat.pow_le_pow_right (by decide) hk103
  have hb : bit_length 1 1 = 1 := by decide
  have hE : max (ratio_exponent n 1) (-126) - 23 = (k : Int) := by
    unfold ratio_exponent
    rw [hb, hk]
    simp only []
    rw [if_pos (by rw [Nat.one_mul, Nat.pow_one]; omega)]
    omega
  have hdm := Nat.div_add_mod n (2 ^ k)
  have hr := Nat.mod_lt n hX
  have hq1 : n / 2 ^ k < 2 ^ 24 := by
    rw [Nat.div_lt_iff_lt_mul hX, Nat.mul_comm]; omega
  have hq0 : 2 ^ 23 ≤ n / 2 ^ k := by
    rw [Nat.le_div_iff_mul_le hX]
    have : 2 ^ 24 = 2 * 2 ^ 23 := by decide
    rw [e24, this] at hle
    have h3 := Nat.mul_comm (2 ^ k) (2 * 2 ^ 23)
    nlinarith
  have key : to_float n =
      .num (((if 2 * (n % 2 ^ k) > 2 ^ k ∨ (2 * (n % 2 ^ k) = 2 ^ k ∧ n / 2 ^ k % 2 = 1)
        then n / 2 ^ k + 1 else n / 2 ^ k) * 2 ^ k : ℕ) : ℚ) := by
    unfold to_float round_ratio
    simp only []
    rw [hE]
    have e1 : ((k : Int)).toNat = k := Int.toNat_natCast k
    have e2 : (-(k : Int)).toNat = 0 := by omega
    rw [e1, e2]
    simp only [Nat.pow_zero, Nat.mul_one, Nat.one_mul]
    have hm : (if 2 * (n % 2 ^ k) > 2 ^ k ∨ (2 * (n % 2 ^ k) = 2 ^ k ∧ n / 2 ^ k % 2 = 1)
        then n / 2 ^ k + 1 else n / 2 ^ k) * 2 ^ k < 2 ^ 128 := by
      have h1 : (n / 2 ^ k + 1) * 2 ^ k ≤ 2 ^ 24 * 2 ^ 103 :=
        Nat.mul_le_mul (by omega) hXle
      have h2 : n / 2 ^ k * 2 ^ k ≤ (n / 2 ^ k + 1) * 2 ^ k :=
        Nat.mul_le_mul_right _ (by omega)
      have h3 : (2 : Nat) ^ 24 * 2 ^ 103 < 2 ^ 128 := by decide
      split <;> omega
    rw [if_neg (by omega), Nat.cast_one, div_one]
  rw [key]
  have hmul : 2 ^ k * (n / 2 ^ k) = n / 2 ^ k * 2 ^ k := Nat.mul_comm _ _
  have hsucc : (n / 2 ^ k + 1) * 2 ^ k = n / 2 ^ k * 2 ^ k + 2 ^ k := by
    rw [Nat.add_mul, Nat.one_mul]
  by_cases hc : 2 * (n % 2 ^ k) > 2 ^ k ∨ (2 * (n % 2 ^ k) = 2 ^ k ∧ n / 2 ^ k % 2 = 1)
  · rw [if_pos hc]
    refine ⟨n / 2 ^ k + 1, k, rfl, by omega, Or.inr (by omega), ?_, ?_, ?_⟩
    · rw [hsucc]; omega
    · rw [hsucc]; omega
    · rw [hsucc]; intro h; omega
  · rw [if_neg hc]
    refine ⟨n / 2 ^ k, k, rfl, by omega, Or.inr hq0, ?_, ?_, ?_⟩
    · omega
    · omega
    · intro h; omega

theorem to_float_uint_max : to_float UINT_MAX = .num 4294967296 := by decide!

/-- The loop of `fac` from `i = j + 1` with `result = j!`: the `float` of the factorial
when it fits `unsigned long`, else infinity; no product wraps. -/
theorem fac_loop_spec : ∀ (k j : Nat), j.factorial ≤ ULONG_MAX →
    fac_loop k (j + 1) j.factorial =
      if (j + k).factorial ≤ ULONG_MAX then to_float (j + k).factorial else .pinf := by
  intro k
  induction k with
  | zero =>
    intro j hj
    rw [fac_loop, Nat.add_zero, if_pos hj]
  | succ k ih =>
    intro j hj
    rw [fac_loop]
    have hpos := Nat.factorial_pos j
    by_cases hg : j + 1 > ULONG_MAX / j.factorial
    · rw [if_pos hg]
      have h1 : ULONG_MAX < (j + 1).factorial := by
        rw [Nat.factorial_succ]
        exact (Nat.div_lt_iff_lt_mul hpos).mp hg
      have h2 : (j + 1).factorial ≤ (j + (k + 1)).factorial := Nat.factorial_le (by omega)
      rw [if_neg (by omega)]
    · rw [if_neg hg]
      have h1 : (j + 1).factorial ≤ ULONG_MAX := by
        rw [Nat.factorial_succ]
        have : ¬ ULONG_MAX < (j + 1) * j.factorial := fun hc =>
          hg ((Nat.div_lt_iff_lt_mul hpos).mpr hc)
        omega
      have e : j.factorial * (j + 1) % (ULONG_MAX + 1) = (j + 1).factorial := by
        rw [Nat.factorial_succ, Nat.mul_comm]
        apply Nat.mod_eq_of_lt
        rw [Nat.factorial_succ] at h1
        omega
      rw [e, ih (j + 1) h1]
      have e2 : j + 1 + k = j + (k + 1) := by omega
      rw [e2]

theorem uint_max_succ : ((UINT_MAX : ℕ) : ℚ) + 1 = 4294967296 := by
  norm_num [UINT_MAX]

theorem to_uint_num (q : ℚ) (h0 : -1 < q) (h1 : q < 4294967296) :
    to_uint (.num q) = some (Int.toNat (Rat.floor q)) := by
  show (if -1 < q ∧ q < (UINT_MAX : ℚ) + 1 then some (Int.toNat (Rat.floor q)) else none) = _
  rw [if_pos ⟨h0, by rw [uint_max_succ]; exact h1⟩]

/-- The built-in `fac` on a number in `[0, 2 ^ 32)`. -/
theorem fac_num (q : ℚ) (h0 : 0 ≤ q) (h1 : q < 4294967296) :
    fac (.num q) =
      some (if (Int.toNat (Rat.floor q)).factorial ≤ ULONG_MAX
        then to_float (Int.toNat (Rat.floor q)).factorial else .pinf) := by
  unfold fac
  have e1 : (Scalar.num q).lt (.num 0) = false := by
    show decide (q < 0) = false
    exact decide_eq_false (not_lt.mpr h0)
  have e2 : (Scalar.num (4294967296 : ℚ)).lt (.num q) = false := by
    show decide ((4294967296 : ℚ) < q) = false
    exact decide_eq_false (not_lt.mpr (le_of_lt h1))
  rw [to_float_uint_max, e1, e2, to_uint_num q (lt_of_lt_of_le (by norm_num) h0) h1]
  have := fac_loop_spec (Int.toNat (Rat.floor q)) 0 (by decide)
  simp only [Nat.zero_add, Nat.factorial_zero] at this
  simp only [Bool.false_eq_true, if_false, Option.map_some']
  rw [this]

theorem fac_neg (q : ℚ) (h : q < 0) : fac (.num q) = some .nan := by
  unfold fac
  have e1 : (Scalar.num q).lt (.num 0) = true := by
    show decide (q < 0) = true
    exact decide_eq_true h
  rw [e1]; rfl

theorem fac_large (q : ℚ) (h : (4294967296 : ℚ) < q) : fac (.num q) = some .pinf := by
  unfold fac
  have h0 : ¬ q < 0 := by
    intro hc
    have : (4294967296 : ℚ) < 0 := lt_trans h hc
    norm_num at this
  have e1 : (Scalar.num q).lt (.num 0) = false := by
    show decide (q < 0) = false
    exact decide_eq_false h0
  have e2 : (Scalar.num (4294967296 : ℚ)).lt (.num q) = true := by
    show decide ((4294967296 : ℚ) < q) = true
    exact decide_eq_true h
  rw [to_float_uint_max, e1, e2]; rfl

theorem factorial_fits_iff (n : Nat) : n.factorial ≤ ULONG_MAX ↔ n ≤ 20 := by
  constructor
  · intro h
    by_contra hc
    have h1 : Nat.factorial 21 ≤ n.factorial := Nat.factorial_le (by omega)
    have h2 : ULONG_MAX < Nat.factorial 21 := by decide
    omega
  · intro h
    have h1 : n.factorial ≤ Nat.factorial 20 := Nat.factorial_le h
    have h2 : Nat.factorial 20 ≤ ULONG_MAX := by decide
    omega

/-- C25 as written fails at 14: `14! = 87178291200` fits `unsigned long`, and `fac(14)` is
not `14!` but `87178289152`, the `float` nearest to it: the value returned is
`(float)result`, with a significand of 24 binary digits. Likewise `fac(20)` is
`2432902023163674624` and not `20! = 2432902008176640000`. And the comparison
`a > UINT_MAX` is made in `float`, where `UINT_MAX` is `2 ^ 32`: for `a = 2 ^ 32`, which is
above `UINT_MAX`, `fac` does not return plus infinity but goes on to the conversion
`(unsigned int)(a)`, which is undefined. -/
theorem C25_fac_rounds :
    Nat.factorial 14 = 87178291200 ∧ Nat.factorial 14 ≤ ULONG_MAX ∧
    fac (.num 14) = some (.num 87178289152) ∧
    fac (.num 14) ≠ some (.num ((Nat.factorial 14 : ℕ) : ℚ)) ∧
    Nat.factorial 20 = 2432902008176640000 ∧ Nat.factorial 20 ≤ ULONG_MAX ∧
    fac (.num 20) = some (.num 2432902023163674624) ∧
    fac (.num 20) ≠ some (.num ((Nat.factorial 20 : ℕ) : ℚ)) ∧
    (UINT_MAX : ℚ) < 4294967296 ∧ to_float UINT_MAX = .num 4294967296 ∧
    fac (.num 4294967296) = none :=
  ⟨by decide, by decide, by decide!, by decide!, by decide, by decide, by decide!, by decide!,
    by decide!, by decide!, by decide!⟩

/-- C25: `fac(a)` is NaN for `a < 0` (minus infinity included), plus infinity for
`a > (float)UINT_MAX = 2 ^ 32` (plus infinity included), and for `0 ≤ a < 2 ^ 32`, with `n`
the integer part of `a`, the `float` nearest to `n!` when `n! ≤ ULONG_MAX` (which is
`n ≤ 20`) and plus infinity when `n! > ULONG_MAX`; the products of the loop are taken
modulo `ULONG_MAX + 1` and none of them wraps. The `float` nearest to `n!` is `n!` itself
for `n ≤ 13` and differs from it for `14 ≤ n ≤ 20`; in general the conversion `(float)n`
gives `m * 2 ^ e` with a significand `m` of 24 binary digits, at most `2 ^ e / 2` away from
`n`, with `m` even when it is that far away. For `a = 2 ^ 32` and for NaN the
conversion to `unsigned int` is undefined. The witnesses of the claim follow. -/
theorem C25_fac :
    (∀ q : ℚ, q < 0 → fac (.num q) = some .nan) ∧ fac .ninf = some .nan ∧
    (∀ q : ℚ, (4294967296 : ℚ) < q → fac (.num q) = some .pinf) ∧ fac .pinf = some .pinf ∧
    (∀ q : ℚ, 0 ≤ q → q < 4294967296 →
      fac (.num q) =
        some (if (Int.toNat (Rat.floor q)).factorial ≤ ULONG_MAX
          then to_float (Int.toNat (Rat.floor q)).factorial else .pinf)) ∧
    (∀ n : Nat, n.factorial ≤ ULONG_MAX ↔ n ≤ 20) ∧
    (∀ n : Nat, n < 14 → to_float n.factorial = .num ((n.factorial : ℕ) : ℚ)) ∧
    (∀ n : Nat, n < 7 →
      to_float (n + 14).factorial ≠ .num (((n + 14).factorial : ℕ) : ℚ)) ∧
    (∀ n : Nat, n < 2 ^ 127 →
      ∃ m e : Nat, to_float n = .num ((m * 2 ^ e : ℕ) : ℚ) ∧ m ≤ 2 ^ 24 ∧
        (e = 0 ∨ 2 ^ 23 ≤ m) ∧
        2 * (m * 2 ^ e) ≤ 2 * n + 2 ^ e ∧ 2 * n ≤ 2 * (m * 2 ^ e) + 2 ^ e ∧
        ((2 * (m * 2 ^ e) = 2 * n + 2 ^ e ∨ 2 * n = 2 * (m * 2 ^ e) + 2 ^ e) →
          m % 2 = 0)) ∧
    to_float UINT_MAX = .num 4294967296 ∧
    fac .nan = none ∧ fac (.num 4294967296) = none ∧
    (fac (.num 0) = some (.num 1) ∧ fac (.num (2 / 10)) = some (.num 1) ∧
      fac (.num (48 / 10)) = some (.num 24) ∧ fac (.num 10) = some (.num 3628800) ∧
      fac (.num 300) = some .pinf ∧ fac (.num (-1)) = some .nan ∧
      fac (.num 13) = some (.num 6227020800) ∧
      fac (.num 14) = some (.num 87178289152) ∧
      fac (.num 20) = some (.num 2432902023163674624) ∧ fac (.num 21) = some .pinf) :=
  ⟨fac_neg, by decide, fac_large, by decide, fac_num, factorial_fits_iff, by decide!,
    by decide!, to_float_nearest, by decide!, by decide, by decide!,
    by decide!, by decide!, by decide!, by decide!, by decide!, by decide!, by decide!,
    by decide!, by decide!, by decide!⟩

theorem C25_fac_witness :
    (0 : ℚ) ≤ 48 / 10 ∧ (48 / 10 : ℚ) < 4294967296 ∧ fac (.num (48 / 10)) = some (.num 24) ∧
    (-1 : ℚ) < 0 ∧ fac (.num (-1)) = some .nan ∧
    (4294967296 : ℚ) < 4294967297 ∧ fac (.num 4294967297) = some .pinf ∧
    (13 < 14 ∧ to_float (Nat.factorial 13) = .num 6227020800) ∧
    (3 < 7 ∧ to_float (Nat.factorial 17) ≠ .num 355687428096000) ∧
    (Nat.factorial 14 < 2 ^ 127 ∧
      ∃ m e : Nat, to_float (Nat.factorial 14) = .num ((m * 2 ^ e : ℕ) : ℚ) ∧ m ≤ 2 ^ 24 ∧
        (e = 0 ∨ 2 ^ 23 ≤ m) ∧
        2 * (m * 2 ^ e) ≤ 2 * Nat.factorial 14 + 2 ^ e ∧
        2 * Nat.factorial 14 ≤ 2 * (m * 2 ^ e) + 2 ^ e ∧
        ((2 * (m * 2 ^ e) = 2 * Nat.factorial 14 + 2 ^ e ∨
            2 * Nat.factorial 14 = 2 * (m * 2 ^ e) + 2 ^ e) → m % 2 = 0)) :=
  ⟨by decide!, by decide!,
    (C25_fac.2.2.2.2.1 (48 / 10) (by decide!) (by decide!)).trans (by decide!),
    by decide!, C25_fac.1 (-1) (by decide!),
    by decide!, C25_fac.2.2.1 4294967297 (by decide!),
    ⟨by decide, (C25_fac.2.2.2.2.2.2.1 13 (by decide)).trans (by decide!)⟩,
    ⟨by decide, fun hc => C25_fac.2.2.2.2.2.2.2.1 3 (by decide) (hc.trans (by decide!))⟩,
    ⟨by decide, C25_fac.2.2.2.2.2.2.2.2.1 (Nat.factorial 14) (by decide)⟩⟩

end te
